import Mathlib

/-!
# XArray (lib/xarray.c, include/linux/xarray.h)

A shallow embedding of the XArray radix tree.  Machine words are natural
numbers below `2 ^ 64`; node memory is a function from addresses to node
records; every loop of the C code is a recursive function on a fuel argument
that returns `none` when the fuel runs out.

Conventions of the embedding:
* locks and RCU read sections are not modelled (one thread of control);
* `xa_update` is `NULL` in every cursor (as `XA_STATE` declares it), so
  `xas_update` only holds a debug assertion and is omitted;
* `XA_NODE_BUG_ON` / `WARN_ON` assertions are compiled out (`XA_DEBUG` unset);
* `CONFIG_RADIX_TREE_MULTIORDER` is enabled, `CONFIG_BASE_SMALL` is 0,
  `BITS_PER_LONG` is 64.
-/

set_option linter.all false

namespace XArray

/-! ## Constants -/

abbrev BITS_PER_LONG : Nat := 64
/-- The size of the machine word: `unsigned long` arithmetic is taken modulo this. -/
abbrev WORD : Nat := 2 ^ 64
/-- `XA_CHUNK_SHIFT` with `CONFIG_BASE_SMALL == 0`. -/
abbrev XA_CHUNK_SHIFT : Nat := 6
/-- `XA_CHUNK_SIZE = 1UL << XA_CHUNK_SHIFT`. -/
abbrev XA_CHUNK_SIZE : Nat := 64
/-- `XA_CHUNK_MASK = XA_CHUNK_SIZE - 1`. -/
abbrev XA_CHUNK_MASK : Nat := 63
abbrev XA_MAX_TAGS : Nat := 3
abbrev XA_TAG_MAX : Nat := 2
abbrev ENOMEM : Int := 12
abbrev EEXIST : Int := 17
abbrev EINVAL : Int := 22
/-- The bit position of the first tag flag in `xa_flags`.  The constant comes
from `include/linux/gfp.h`, which is outside the sources at hand; the code only
needs the three tag flags to be three distinct bits of a 32-bit `gfp_t`. -/
def GFP_BITS_SHIFT : Nat := 25
/-- The allocation flags `GFP_NOWAIT | __GFP_NOWARN` used by `xas_alloc`; only
the identity of the value matters to the node cache model. -/
def GFP_NOWAIT_NOWARN : Nat := 0

/-! ## Entry encoding (include/linux/xarray.h) -/

def xa_mk_value (v : Nat) : Nat := ((v <<< 1) ||| 1) % WORD
def xa_to_value (entry : Nat) : Nat := entry >>> 1
def xa_is_value (entry : Nat) : Bool := entry &&& 1 != 0
def xa_mk_internal (v : Nat) : Nat := ((v <<< 2) ||| 2) % WORD
def xa_to_internal (entry : Nat) : Nat := entry >>> 2
def xa_is_internal (entry : Nat) : Bool := entry &&& 3 == 2
def xa_is_err (entry : Nat) : Bool := xa_is_internal entry

/-- The value of a machine word read as a `long`. -/
def to_long (w : Nat) : Int := if w < 2 ^ 63 then (w : Int) else (w : Int) - 2 ^ 64
/-- Truncation of a `long` to an `int`. -/
def to_int (z : Int) : Int := (z + 2 ^ 31) % 2 ^ 32 - 2 ^ 31

def xa_err (entry : Nat) : Int :=
  if xa_is_err entry then to_int (to_long entry >>> 2) else 0

/-- `XA_ERROR(errno)`: `((unsigned long)errno << 2) | 2UL`. -/
def XA_ERROR (errno : Int) : Nat := ((((errno % 2 ^ 64).toNat) <<< 2) ||| 2) % WORD
abbrev XAS_BOUNDS : Nat := 1
abbrev XAS_RESTART : Nat := 3

def xa_mk_node (node : Nat) : Nat := node ||| 2
def xa_to_node (entry : Nat) : Nat := entry - 2
def xa_is_node (entry : Nat) : Bool := xa_is_internal entry && decide (entry > 4096)
def xa_mk_sibling (offset : Nat) : Nat := xa_mk_internal offset
def xa_to_sibling (entry : Nat) : Nat := xa_to_internal entry
def xa_is_sibling (entry : Nat) : Bool :=
  xa_is_internal entry && decide (entry < xa_mk_sibling (XA_CHUNK_SIZE - 1))
def XA_RETRY_ENTRY : Nat := xa_mk_internal 256
def xa_is_retry (entry : Nat) : Bool := entry == XA_RETRY_ENTRY

/-! ## Bitmaps (one `unsigned long` per tag, `XA_TAG_LONGS == 1`) -/

def test_bit (nr : Nat) (w : Nat) : Bool := w.testBit nr
def set_bit (nr : Nat) (w : Nat) : Nat := w ||| (1 <<< nr)
def clear_bit (nr : Nat) (w : Nat) : Nat := w &&& ((WORD - 1) ^^^ (1 <<< nr))
def bitmap_empty (w : Nat) (nbits : Nat) : Bool := w % 2 ^ nbits == 0

/-- `find_next_bit(addr, size, offset)`: the first set bit at or after `offset`
and below `size`, or `size`. -/
def find_next_bit (w size : Nat) : Nat → Nat → Nat
  | 0, _ => size
  | fuel + 1, offset =>
    if offset ≥ size then size
    else if w.testBit offset then offset
    else find_next_bit w size fuel (offset + 1)

/-- `bitmap_clear(map, start, nbits)`. -/
def bitmap_clear (w start : Nat) : Nat → Nat
  | 0 => w
  | n + 1 => clear_bit (start + n) (bitmap_clear w start n)

/-! ## Data model -/

/-- `struct xa_node`. -/
structure xa_node where
  shift : Nat
  offset : Nat
  count : Nat
  nr_values : Nat
  parent : Nat
  array : Nat
  slots : Nat → Nat
  tags : Nat → Nat

/-- The node the slab constructor hands out: all slots `NULL`, all tags clear. -/
def xa_node.zero : xa_node :=
  { shift := 0, offset := 0, count := 0, nr_values := 0, parent := 0, array := 0,
    slots := fun _ => 0, tags := fun _ => 0 }

/-- `XA_RCU_FREE`. -/
abbrev XA_RCU_FREE : Nat := 1

/-- The array (`struct xarray`: `xa_flags`, `xa_head`, at address `xa_addr`)
together with the node memory and the node cache `radix_tree_node_cachep`.
The cache hands out fresh addresses `slab_next`, `slab_next + 576`, ...;
`slab_grant n gfp` tells whether the `n`-th request, made with flags `gfp`,
is granted.  `rcu_pending` lists the nodes passed to `call_rcu`, `cache_freed`
those passed to `kmem_cache_free`. -/
structure Kernel where
  xa_addr : Nat
  xa_flags : Nat
  xa_head : Nat
  mem : Nat → xa_node
  slab_next : Nat
  slab_calls : Nat
  slab_grant : Nat → Nat → Bool
  rcu_pending : List Nat
  cache_freed : List Nat

/-- `struct xa_state` (without `xa_pad` and `xa_update`). -/
structure xa_state where
  xa_index : Nat
  xa_shift : Nat
  xa_sibs : Nat
  xa_offset : Nat
  xa_node : Nat
  xa_alloc : Nat

/-- `XA_STATE(name, array, index)`. -/
def XA_STATE (index : Nat) : xa_state :=
  { xa_index := index, xa_shift := 0, xa_sibs := 0, xa_offset := 0,
    xa_node := XAS_RESTART, xa_alloc := 0 }

/-- Write one node of the node memory. -/
def Kernel.setNode (k : Kernel) (a : Nat) (n : xa_node) : Kernel :=
  { k with mem := fun x => if x = a then n else k.mem x }

/-- `kmem_cache_alloc(radix_tree_node_cachep, gfp)`: `0` when refused. -/
def kmem_cache_alloc (k : Kernel) (gfp : Nat) : Kernel × Nat :=
  if k.slab_grant k.slab_calls gfp then
    ({ k with mem := fun x => if x = k.slab_next then xa_node.zero else k.mem x,
              slab_next := k.slab_next + 576,
              slab_calls := k.slab_calls + 1 }, k.slab_next)
  else ({ k with slab_calls := k.slab_calls + 1 }, 0)

/-- `kmem_cache_free(radix_tree_node_cachep, node)`. -/
def kmem_cache_free (k : Kernel) (node : Nat) : Kernel :=
  { k with cache_freed := node :: k.cache_freed }

/-- `xa_init_flags` at array address `addr`, with an empty node cache whose
first node is at `base`. -/
def xa_init_flags (addr flags base : Nat) (grant : Nat → Nat → Bool) : Kernel :=
  { xa_addr := addr, xa_flags := flags, xa_head := 0, mem := fun _ => xa_node.zero,
    slab_next := base, slab_calls := 0, slab_grant := grant,
    rcu_pending := [], cache_freed := [] }

/-! ## Flags and tags -/

def XA_FLAGS_TAG (tag : Nat) : Nat := ((1 <<< GFP_BITS_SHIFT) <<< tag) % 2 ^ 32

def xa_tagged (k : Kernel) (tag : Nat) : Bool := k.xa_flags &&& XA_FLAGS_TAG tag != 0

def xa_tag_set (k : Kernel) (tag : Nat) : Kernel :=
  if k.xa_flags &&& XA_FLAGS_TAG tag == 0 then
    { k with xa_flags := k.xa_flags ||| XA_FLAGS_TAG tag }
  else k

def xa_tag_clear (k : Kernel) (tag : Nat) : Kernel :=
  if k.xa_flags &&& XA_FLAGS_TAG tag != 0 then
    { k with xa_flags := k.xa_flags &&& ((2 ^ 32 - 1) ^^^ XA_FLAGS_TAG tag) }
  else k

def node_get_tag (node : xa_node) (offset tag : Nat) : Bool :=
  test_bit offset (node.tags tag)

/-- `node_set_tag`: the new node and whether the bit was set before. -/
def node_set_tag (node : xa_node) (offset tag : Nat) : xa_node × Bool :=
  ({ node with tags := fun t => if t = tag then set_bit offset (node.tags tag) else node.tags t },
   test_bit offset (node.tags tag))

/-- `node_clear_tag`: the new node and whether the bit was set before. -/
def node_clear_tag (node : xa_node) (offset tag : Nat) : xa_node × Bool :=
  ({ node with tags := fun t => if t = tag then clear_bit offset (node.tags tag) else node.tags t },
   test_bit offset (node.tags tag))

def node_any_tag (node : xa_node) (tag : Nat) : Bool :=
  !bitmap_empty (node.tags tag) XA_CHUNK_SIZE

/-! ## Cursor helpers (include/linux/xarray.h) -/

def xas_error (xas : xa_state) : Int := xa_err xas.xa_node
def xas_set_err (xas : xa_state) (err : Int) : xa_state := { xas with xa_node := XA_ERROR err }
def xas_invalid (xas : xa_state) : Bool := xas.xa_node &&& 3 != 0
def xas_valid (xas : xa_state) : Bool := !xas_invalid xas
def xas_not_node (node : Nat) : Bool := (node &&& 3 != 0) || node == 0
def xas_frozen (node : Nat) : Bool := node &&& 2 != 0
def xas_top (node : Nat) : Bool := decide (node ≤ XAS_RESTART)

def xa_head (k : Kernel) : Nat := k.xa_head
def xa_entry (k : Kernel) (node offset : Nat) : Nat := (k.mem node).slots offset
def xa_parent (k : Kernel) (node : Nat) : Nat := (k.mem node).parent

def xas_reload (k : Kernel) (xas : xa_state) : Nat :=
  if xas.xa_node ≠ 0 then xa_entry k xas.xa_node xas.xa_offset else xa_head k

def xas_retry (xas : xa_state) (entry : Nat) : xa_state × Bool :=
  if !xa_is_retry entry then (xas, false) else ({ xas with xa_node := XAS_RESTART }, true)

/-! ## Walking (lib/xarray.c) -/

def get_offset (index : Nat) (node : xa_node) : Nat := (index >>> node.shift) &&& XA_CHUNK_MASK

/-- `xas_move_index`: `xa_index &= ~XA_CHUNK_MASK << shift; xa_index += offset << shift`. -/
def xas_move_index (k : Kernel) (xas : xa_state) (offset : Nat) : xa_state :=
  let shift := (k.mem xas.xa_node).shift
  let index := xas.xa_index &&& (((WORD - 1 - XA_CHUNK_MASK) <<< shift) % WORD)
  { xas with xa_index := (index + (offset <<< shift)) % WORD }

def set_bounds (xas : xa_state) : xa_state × Nat := ({ xas with xa_node := XAS_BOUNDS }, 0)

def xas_start (k : Kernel) (xas : xa_state) : xa_state × Nat :=
  if xas_valid xas then (xas, xas_reload k xas)
  else if xas_error xas ≠ 0 then (xas, 0)
  else
    let entry := xa_head k
    if !xa_is_node entry then
      if xas.xa_index ≠ 0 then set_bounds xas
      else ({ xas with xa_node := 0 }, entry)
    else
      if (xas.xa_index >>> (k.mem (xa_to_node entry)).shift) > XA_CHUNK_MASK then set_bounds xas
      else ({ xas with xa_node := 0 }, entry)

def xas_descend (k : Kernel) (xas : xa_state) (node : Nat) : xa_state × Nat :=
  let offset := get_offset xas.xa_index (k.mem node)
  let entry := xa_entry k node offset
  let xas := { xas with xa_node := node }
  if xa_is_sibling entry then
    let offset := xa_to_sibling entry
    let entry := xa_entry k node offset
    let xas := xas_move_index k xas offset
    ({ xas with xa_offset := offset }, entry)
  else ({ xas with xa_offset := offset }, entry)

/-- The loop of `xas_load`. -/
def xas_load_loop (k : Kernel) : Nat → xa_state → Nat → Option (xa_state × Nat)
  | 0, _, _ => none
  | fuel + 1, xas, entry =>
    if xa_is_node entry then
      let node := xa_to_node entry
      if xas.xa_shift > (k.mem node).shift then some (xas, entry)
      else
        let r := xas_descend k xas node
        xas_load_loop k fuel r.1 r.2
    else some (xas, entry)

def xas_load (fuel : Nat) (k : Kernel) (xas : xa_state) : Option (xa_state × Nat) :=
  let r := xas_start k xas
  xas_load_loop k fuel r.1 r.2

/-! ## Node allocation and release -/

/-- `xa_node_free`: mark the node as freed and pass it to `call_rcu`. -/
def xa_node_free (k : Kernel) (node : Nat) : Kernel :=
  { k.setNode node { k.mem node with array := XA_RCU_FREE } with
    rcu_pending := node :: k.rcu_pending }

def xas_destroy (k : Kernel) (xas : xa_state) : Kernel × xa_state :=
  if xas.xa_alloc = 0 then (k, xas)
  else (kmem_cache_free k xas.xa_alloc, { xas with xa_alloc := 0 })

def xas_nomem (k : Kernel) (xas : xa_state) (gfp : Nat) : Kernel × xa_state × Bool :=
  if xas.xa_node ≠ XA_ERROR (-ENOMEM) then
    let r := xas_destroy k xas
    (r.1, r.2, false)
  else
    let r := kmem_cache_alloc k gfp
    let xas := { xas with xa_alloc := r.2 }
    if r.2 = 0 then (r.1, xas, false)
    else (r.1, { xas with xa_node := XAS_RESTART }, true)

/-- `__xas_nomem`: as `xas_nomem`; dropping and retaking the lock around a
blocking allocation has no effect in a single thread of control. -/
def __xas_nomem (k : Kernel) (xas : xa_state) (gfp : Nat) : Kernel × xa_state × Bool :=
  if xas.xa_node ≠ XA_ERROR (-ENOMEM) then
    let r := xas_destroy k xas
    (r.1, r.2, false)
  else
    let r := kmem_cache_alloc k gfp
    let xas := { xas with xa_alloc := r.2 }
    if r.2 = 0 then (r.1, xas, false)
    else (r.1, { xas with xa_node := XAS_RESTART }, true)

/-- `xas_alloc`: the new kernel state, cursor, and node address (`0` on failure). -/
def xas_alloc (k : Kernel) (xas : xa_state) (shift : Nat) : Kernel × xa_state × Nat :=
  let parent := xas.xa_node
  if xas_invalid xas then (k, xas, 0)
  else
    let got : Kernel × xa_state × Nat :=
      if xas.xa_alloc ≠ 0 then (k, { xas with xa_alloc := 0 }, xas.xa_alloc)
      else
        let r := kmem_cache_alloc k GFP_NOWAIT_NOWARN
        (r.1, xas, r.2)
    let k := got.1
    let xas := got.2.1
    let node := got.2.2
    if node = 0 then (k, xas_set_err xas (-ENOMEM), 0)
    else
      let k :=
        if parent ≠ 0 then
          let k := k.setNode node { k.mem node with offset := xas.xa_offset }
          k.setNode parent { k.mem parent with count := ((k.mem parent).count + 1) % 256 }
        else k
      let k := k.setNode node
        { k.mem node with shift := shift % 256, count := 0, nr_values := 0,
                          parent := xas.xa_node, array := k.xa_addr }
      (k, xas, node)

/-- `xas_max`. -/
def xas_max (xas : xa_state) : Nat :=
  let max := xas.xa_index
  if xas.xa_shift ≠ 0 ∨ xas.xa_sibs ≠ 0 then
    let mask := (((xas.xa_sibs + 1) <<< xas.xa_shift) % WORD + (WORD - 1)) % WORD
    let max := max ||| mask
    if mask = max then (max + 1) % WORD else max
  else max

/-- `max_index`. -/
def max_index (k : Kernel) (entry : Nat) : Nat :=
  if !xa_is_node entry then 0
  else ((XA_CHUNK_SIZE <<< (k.mem (xa_to_node entry)).shift) % WORD + (WORD - 1)) % WORD

/-- The body of the loop of `xas_shrink` once the node is known to go: `entry`
becomes the head and `node` is freed; a child node loses its parent. -/
def xas_shrink_step (k : Kernel) (node entry : Nat) : Kernel :=
  let k := { k with xa_head := entry }
  let k := k.setNode node { k.mem node with count := 0, nr_values := 0 }
  let k :=
    if !xa_is_node entry then
      k.setNode node
        { k.mem node with slots := fun i => if i = 0 then XA_RETRY_ENTRY else (k.mem node).slots i }
    else k
  let k := xa_node_free k node
  if !xa_is_node entry then k
  else k.setNode (xa_to_node entry) { k.mem (xa_to_node entry) with parent := 0 }

/-- The loop of `xas_shrink`, at `node`. -/
def xas_shrink_loop : Nat → Kernel → xa_state → Nat → Option (Kernel × xa_state)
  | 0, _, _, _ => none
  | fuel + 1, k, xas, node =>
    let n := k.mem node
    if n.count ≠ 1 then some (k, xas)
    else
      let entry := n.slots 0
      if entry = 0 then some (k, xas)
      else if !xa_is_node entry && decide (n.shift ≠ 0) then some (k, xas)
      else
        let xas := { xas with xa_node := XAS_BOUNDS }
        let k := xas_shrink_step k node entry
        if !xa_is_node entry then some (k, xas)
        else xas_shrink_loop fuel k xas (xa_to_node entry)

def xas_shrink (fuel : Nat) (k : Kernel) (xas : xa_state) : Option (Kernel × xa_state) :=
  xas_shrink_loop fuel k xas xas.xa_node

/-- The end of the body of the first loop of `xas_delete_node`: the slot of the
freed node in its parent is cleared and the parent counts one entry less. -/
def xas_delete_node_unlink (k : Kernel) (parent offset : Nat) : Kernel :=
  let p := k.mem parent
  let k := k.setNode parent
    { p with slots := fun i => if i = offset then 0 else p.slots i }
  k.setNode parent { k.mem parent with count := ((k.mem parent).count + 255) % 256 }

/-- The first loop of `xas_delete_node`, at `node`; returns the node the loop
stopped at, or `none` for it when the function returned from inside the loop. -/
def xas_delete_node_loop :
    Nat → Kernel → xa_state → Nat → Option (Kernel × xa_state × Option Nat)
  | 0, _, _, _ => none
  | fuel + 1, k, xas, node =>
    if (k.mem node).count ≠ 0 then some (k, xas, some node)
    else
      let parent := xa_parent k node
      let xas := { xas with xa_node := parent, xa_offset := (k.mem node).offset }
      let k := xa_node_free k node
      if parent = 0 then
        some ({ k with xa_head := 0 }, { xas with xa_node := XAS_BOUNDS }, none)
      else
        xas_delete_node_loop fuel (xas_delete_node_unlink k parent xas.xa_offset) xas parent

def xas_delete_node (fuel : Nat) (k : Kernel) (xas : xa_state) : Option (Kernel × xa_state) :=
  match xas_delete_node_loop fuel k xas xas.xa_node with
  | none => none
  | some (k, xas, none) => some (k, xas)
  | some (k, xas, some node) =>
    if (k.mem node).parent = 0 then xas_shrink fuel k xas else some (k, xas)

/-- The inner loop of `xas_free_nodes` (`while (offset == XA_CHUNK_SIZE)`):
returns the node and offset to go on with, or `none` for them once `top` has
been freed. -/
def xas_free_nodes_up (top : Nat) :
    Nat → Kernel → Nat → Nat → Option (Kernel × Option (Nat × Nat))
  | 0, _, _, _ => none
  | fuel + 1, k, node, offset =>
    if offset = XA_CHUNK_SIZE then
      let parent := xa_parent k node
      let offset := (k.mem node).offset + 1
      let k := k.setNode node { k.mem node with count := 0, nr_values := 0 }
      let k := xa_node_free k node
      if node = top then some (k, none)
      else xas_free_nodes_up top fuel k parent offset
    else some (k, some (node, offset))

/-- The outer loop of `xas_free_nodes`. -/
def xas_free_nodes_loop (top : Nat) : Nat → Kernel → Nat → Nat → Option Kernel
  | 0, _, _, _ => none
  | fuel + 1, k, node, offset =>
    let entry := xa_entry k node offset
    if xa_is_node entry then xas_free_nodes_loop top fuel k (xa_to_node entry) 0
    else
      let k :=
        if entry ≠ 0 then
          k.setNode node
            { k.mem node with slots := fun i => if i = offset then XA_RETRY_ENTRY else (k.mem node).slots i }
        else k
      match xas_free_nodes_up top (fuel + 1) k node (offset + 1) with
      | none => none
      | some (k, none) => some k
      | some (k, some (node, offset)) => xas_free_nodes_loop top fuel k node offset

def xas_free_nodes (fuel : Nat) (k : Kernel) (top : Nat) : Option Kernel :=
  xas_free_nodes_loop top fuel k top 0

/-! ## Growing the tree -/

/-- The first loop of `xas_expand`: `while ((max >> shift) >= XA_CHUNK_SIZE)`. -/
def xas_expand_shift (max : Nat) : Nat → Nat → Option Nat
  | 0, _ => none
  | fuel + 1, shift =>
    if (max >>> shift) ≥ XA_CHUNK_SIZE then xas_expand_shift max fuel (shift + XA_CHUNK_SHIFT)
    else some shift

/-- One round of the tag loop of `xas_expand`:
`if (xa_tagged(xa, tag)) node_set_tag(node, 0, tag)`. -/
def xas_expand_tag (k : Kernel) (node tag : Nat) : Kernel :=
  if xa_tagged k tag then k.setNode node (node_set_tag (k.mem node) 0 tag).1 else k

/-- The tag loop of `xas_expand`: set bit 0 of the new node for every tag the
array is flagged with (tags 0, 1 and 2 in turn). -/
def xas_expand_tags (k : Kernel) (node : Nat) : Kernel :=
  xas_expand_tag (xas_expand_tag (xas_expand_tag k node 0) node 1) node 2

/-- The body of the main loop of `xas_expand` after the allocation: fill in
the new node, link the old head below it and make it the head. -/
def xas_expand_link (k : Kernel) (node head : Nat) : Kernel :=
  let k := k.setNode node { k.mem node with count := 1 }
  let k := if xa_is_value head then k.setNode node { k.mem node with nr_values := 1 } else k
  let k := k.setNode node
    { k.mem node with slots := fun i => if i = 0 then head else (k.mem node).slots i }
  let k := xas_expand_tags k node
  let k :=
    if xa_is_node head then
      let c := xa_to_node head
      let k := k.setNode c { k.mem c with offset := 0 }
      k.setNode c { k.mem c with parent := node }
    else k
  { k with xa_head := xa_mk_node node }

/-- The main loop of `xas_expand`; the result carries the return value. -/
def xas_expand_loop (max : Nat) :
    Nat → Kernel → xa_state → Nat → Nat → Nat → Option (Kernel × xa_state × Int)
  | 0, _, _, _, _, _ => none
  | fuel + 1, k, xas, head, node, shift =>
    if max > max_index k head then
      let r := xas_alloc k xas shift
      if r.2.2 = 0 then some (r.1, r.2.1, -ENOMEM)
      else
        let k := xas_expand_link r.1 r.2.2 head
        xas_expand_loop max fuel k r.2.1 (xa_mk_node r.2.2) r.2.2 (shift + XA_CHUNK_SHIFT)
    else some (k, { xas with xa_node := node }, (shift : Int))

def xas_expand (fuel : Nat) (k : Kernel) (xas : xa_state) (head : Nat) :
    Option (Kernel × xa_state × Int) :=
  let max := xas_max xas
  if head = 0 then
    if max = 0 then some (k, xas, 0)
    else
      match xas_expand_shift max fuel 0 with
      | none => none
      | some shift => some (k, xas, ((shift + XA_CHUNK_SHIFT : Nat) : Int))
  else
    let node := if xa_is_node head then xa_to_node head else 0
    let shift := if xa_is_node head then (k.mem (xa_to_node head)).shift + XA_CHUNK_SHIFT else 0
    let xas := { xas with xa_node := 0 }
    xas_expand_loop max fuel k xas head node shift

/-- A slot address: `(0, _)` is `&xa->xa_head`, `(node, offset)` is
`&node->slots[offset]`. -/
def slot_store (k : Kernel) (slot : Nat × Nat) (v : Nat) : Kernel :=
  if slot.1 = 0 then { k with xa_head := v }
  else k.setNode slot.1
    { k.mem slot.1 with slots := fun i => if i = slot.2 then v else (k.mem slot.1).slots i }

/-- An `int` converted to `unsigned int`. -/
def to_uint (z : Int) : Nat := (z % 2 ^ 32).toNat

/-- The loop of `xas_create`; `shift` is the `int` of the C code, compared with
the `unsigned int order` as an unsigned number. -/
def xas_create_loop (order : Nat) :
    Nat → Kernel → xa_state → Int → Nat → Nat × Nat → Option (Kernel × xa_state × Nat)
  | 0, _, _, _, _, _ => none
  | fuel + 1, k, xas, shift, entry, slot =>
    if to_uint shift > order then
      let shift := shift - XA_CHUNK_SHIFT
      if entry = 0 then
        let r := xas_alloc k xas (to_uint shift)
        if r.2.2 = 0 then some (r.1, r.2.1, entry)
        else
          let k := slot_store r.1 slot (xa_mk_node r.2.2)
          let d := xas_descend k r.2.1 r.2.2
          xas_create_loop order fuel k d.1 shift d.2 (r.2.2, d.1.xa_offset)
      else if xa_is_node entry then
        let node := xa_to_node entry
        let d := xas_descend k xas node
        xas_create_loop order fuel k d.1 shift d.2 (node, d.1.xa_offset)
      else some (k, xas, entry)
    else some (k, xas, entry)

def xas_create (fuel : Nat) (k : Kernel) (xas : xa_state) : Option (Kernel × xa_state × Nat) :=
  let node := xas.xa_node
  let order := xas.xa_shift
  if xas_top node then
    let entry := xa_head k
    let xas := { xas with xa_node := 0 }
    match xas_expand fuel k xas entry with
    | none => none
    | some (k, xas, shift) =>
      if shift < 0 then some (k, xas, 0)
      else xas_create_loop order fuel k xas shift (xa_head k) (0, 0)
  else if xas_error xas ≠ 0 then some (k, xas, 0)
  else if node ≠ 0 then
    xas_create_loop order fuel k xas ((k.mem node).shift : Int)
      (xa_entry k node xas.xa_offset) (node, xas.xa_offset)
  else xas_create_loop order fuel k xas 0 (xa_head k) (0, 0)

/-! ## Tags on the cursor -/

def xas_get_tag (k : Kernel) (xas : xa_state) (tag : Nat) : Bool :=
  if xas_invalid xas then false
  else if xas.xa_node = 0 then xa_tagged k tag
  else node_get_tag (k.mem xas.xa_node) xas.xa_offset tag

/-- The loop of `xas_set_tag`; `true` when the function returned from inside it. -/
def xas_set_tag_loop (tag : Nat) : Nat → Kernel → Nat → Nat → Option (Kernel × Bool)
  | 0, _, _, _ => none
  | fuel + 1, k, node, offset =>
    if node ≠ 0 then
      let r := node_set_tag (k.mem node) offset tag
      let k1 := k.setNode node r.1
      if r.2 then some (k1, true)
      else xas_set_tag_loop tag fuel k1 (xa_parent k1 node) (k1.mem node).offset
    else some (k, false)

def xas_set_tag (fuel : Nat) (k : Kernel) (xas : xa_state) (tag : Nat) : Option Kernel :=
  if xas_invalid xas then some k
  else
    match xas_set_tag_loop tag fuel k xas.xa_node xas.xa_offset with
    | none => none
    | some (k, true) => some k
    | some (k, false) => if !xa_tagged k tag then some (xa_tag_set k tag) else some k

/-- The loop of `xas_clear_tag`; `true` when the function returned from inside it. -/
def xas_clear_tag_loop (tag : Nat) : Nat → Kernel → Nat → Nat → Option (Kernel × Bool)
  | 0, _, _, _ => none
  | fuel + 1, k, node, offset =>
    if node ≠ 0 then
      let r := node_clear_tag (k.mem node) offset tag
      let k1 := k.setNode node r.1
      if !r.2 then some (k1, true)
      else if node_any_tag (k1.mem node) tag then some (k1, true)
      else xas_clear_tag_loop tag fuel k1 (xa_parent k1 node) (k1.mem node).offset
    else some (k, false)

def xas_clear_tag (fuel : Nat) (k : Kernel) (xas : xa_state) (tag : Nat) : Option Kernel :=
  if xas_invalid xas then some k
  else
    match xas_clear_tag_loop tag fuel k xas.xa_node xas.xa_offset with
    | none => none
    | some (k, true) => some k
    | some (k, false) => if xa_tagged k tag then some (xa_tag_clear k tag) else some k

/-- `xas_init_tags`: `xas_clear_tag` for the tags 0, 1 and 2 in turn. -/
def xas_init_tags (fuel : Nat) (k : Kernel) (xas : xa_state) : Option Kernel :=
  match xas_clear_tag fuel k xas 0 with
  | none => none
  | some k =>
    match xas_clear_tag fuel k xas 1 with
    | none => none
    | some k => xas_clear_tag fuel k xas 2

/-- The body of the loop of `xas_squash_tags` for one tag. -/
def xas_squash_tag (xas : xa_state) (node : xa_node) (tag : Nat) : xa_node :=
  let limit := xas.xa_offset + xas.xa_sibs
  let tags := node.tags tag
  if find_next_bit tags limit limit (xas.xa_offset + 1) = limit then node
  else
    { node with tags := fun t =>
        if t = tag then bitmap_clear (set_bit xas.xa_offset tags) (xas.xa_offset + 1) xas.xa_sibs
        else node.tags t }

def xas_squash_tags (k : Kernel) (xas : xa_state) : Kernel :=
  if xas.xa_sibs = 0 then k
  else
    let k := k.setNode xas.xa_node (xas_squash_tag xas (k.mem xas.xa_node) 0)
    let k := k.setNode xas.xa_node (xas_squash_tag xas (k.mem xas.xa_node) 1)
    k.setNode xas.xa_node (xas_squash_tag xas (k.mem xas.xa_node) 2)

/-! ## Store -/

/-- The C value of `!p` for a pointer. -/
def lnot (p : Nat) : Int := if p = 0 then 1 else 0
/-- The C value of `!b` for a `bool`. -/
def lnotb (b : Bool) : Int := if b then 0 else 1

/-- `update_node`. -/
def update_node (fuel : Nat) (k : Kernel) (xas : xa_state) (node : Nat) (count values : Int) :
    Option (Kernel × xa_state) :=
  if node = 0 ∨ (count = 0 ∧ values = 0) then some (k, xas)
  else
    let n := k.mem node
    let k := k.setNode node
      { n with count := (((n.count : Int) + count) % 256).toNat,
               nr_values := (((n.nr_values : Int) + values) % 256).toNat }
    if count < 0 then xas_delete_node fuel k xas else some (k, xas)

/-- The loop of `xas_store`; the result carries `first`, `count` and `values`. -/
def xas_store_loop (F : Nat) (xas : xa_state) (node max : Nat) (value : Bool) :
    Nat → Kernel → Nat × Nat → Nat → Nat → Nat → Nat → Int → Int →
      Option (Kernel × Nat × Int × Int)
  | 0, _, _, _, _, _, _, _, _ => none
  | fuel + 1, k, slot, entry, next, first, offset, count, values =>
    let k := slot_store k slot entry
    match (if xa_is_node next then xas_free_nodes F k (xa_to_node next) else some k) with
    | none => none
    | some k =>
      if node = 0 then some (k, first, count, values)
      else
        let count := count + (lnot next - lnot entry)
        let values := values + (lnotb (xa_is_value first) - lnotb value)
        if entry ≠ 0 ∧ offset = max then some (k, first, count, values)
        else if entry = 0 ∧ offset = XA_CHUNK_MASK then some (k, first, count, values)
        else
          let entry :=
            if entry ≠ 0 ∧ !xa_is_sibling entry then xa_mk_sibling xas.xa_offset else entry
          let offset := offset + 1
          let next := xa_entry k node offset
          if !xa_is_sibling next ∧ entry = 0 ∧ offset > max then some (k, first, count, values)
          else
            let first := if !xa_is_sibling next then next else first
            xas_store_loop F xas node max value fuel k (slot.1, slot.2 + 1) entry next first
              offset count values

/-- The part of `xas_store` after the walk (`xas_create` or `xas_load`), which
returned `first`. -/
def xas_store_tail (fuel : Nat) (k : Kernel) (xas : xa_state) (first entry : Nat) :
    Option (Kernel × xa_state × Nat) :=
  let value := xa_is_value entry
  if xas_invalid xas then some (k, xas, first)
  else
    let node := xas.xa_node
    let xas :=
      if node ≠ 0 ∧ xas.xa_shift < (k.mem node).shift then { xas with xa_sibs := 0 } else xas
    if first = entry ∧ xas.xa_sibs = 0 then some (k, xas, first)
    else
      let offset := xas.xa_offset
      let max := xas.xa_offset + xas.xa_sibs
      let slot : Nat × Nat := if node ≠ 0 then (node, offset) else (0, 0)
      let k := if node ≠ 0 ∧ xas.xa_sibs ≠ 0 then xas_squash_tags k xas else k
      match (if entry = 0 then xas_init_tags fuel k xas else some k) with
      | none => none
      | some k =>
        match xas_store_loop fuel xas node max value fuel k slot entry first first offset 0 0 with
        | none => none
        | some (k, first, count, values) =>
          match update_node fuel k xas node count values with
          | none => none
          | some (k, xas) => some (k, xas, first)

/-- `xas_store`: the new state, the cursor, and the returned entry. -/
def xas_store (fuel : Nat) (k : Kernel) (xas : xa_state) (entry : Nat) :
    Option (Kernel × xa_state × Nat) :=
  match (if entry ≠ 0 then xas_create fuel k xas
         else (xas_load fuel k xas).map fun r => (k, r.1, r.2)) with
  | none => none
  | some (k, xas, first) => xas_store_tail fuel k xas first entry

/-! ## The normal API -/

def xas_result (xas : xa_state) (curr : Nat) : Nat :=
  if xas_error xas ≠ 0 then xas.xa_node else curr

/-- The retry loop of `xa_load`. -/
def xa_load_loop (F : Nat) (k : Kernel) : Nat → xa_state → Option Nat
  | 0, _ => none
  | fuel + 1, xas =>
    match xas_load F k xas with
    | none => none
    | some (xas, entry) =>
      let r := xas_retry xas entry
      if r.2 then xa_load_loop F k fuel r.1 else some entry

def xa_load (fuel : Nat) (k : Kernel) (index : Nat) : Option Nat :=
  xa_load_loop fuel k fuel (XA_STATE index)

def __xa_erase (fuel : Nat) (k : Kernel) (index : Nat) : Option (Kernel × Nat) :=
  match xas_store fuel k (XA_STATE index) 0 with
  | none => none
  | some (k, xas, curr) => some (k, xas_result xas curr)

/-- The retry loop of `xa_store` (`nomem` is `xas_nomem` or `__xas_nomem`). -/
def xa_store_loop (nomem : Kernel → xa_state → Nat → Kernel × xa_state × Bool)
    (F entry gfp : Nat) : Nat → Kernel → xa_state → Option (Kernel × xa_state × Nat)
  | 0, _, _ => none
  | fuel + 1, k, xas =>
    match xas_store F k xas entry with
    | none => none
    | some (k, xas, curr) =>
      let r := nomem k xas gfp
      if r.2.2 then xa_store_loop nomem F entry gfp fuel r.1 r.2.1 else some (r.1, r.2.1, curr)

def xa_store (fuel : Nat) (k : Kernel) (index entry gfp : Nat) : Option (Kernel × Nat) :=
  if xa_is_internal entry then some (k, XA_ERROR (-EINVAL))
  else
    match xa_store_loop xas_nomem fuel entry gfp fuel k (XA_STATE index) with
    | none => none
    | some (k, xas, curr) => some (k, xas_result xas curr)

def __xa_store (fuel : Nat) (k : Kernel) (index entry gfp : Nat) : Option (Kernel × Nat) :=
  if xa_is_internal entry then some (k, XA_ERROR (-EINVAL))
  else
    match xa_store_loop __xas_nomem fuel entry gfp fuel k (XA_STATE index) with
    | none => none
    | some (k, xas, curr) => some (k, xas_result xas curr)

/-- The retry loop of `xa_cmpxchg`. -/
def xa_cmpxchg_loop (nomem : Kernel → xa_state → Nat → Kernel × xa_state × Bool)
    (F old entry gfp : Nat) : Nat → Kernel → xa_state → Option (Kernel × xa_state × Nat)
  | 0, _, _ => none
  | fuel + 1, k, xas =>
    match xas_load F k xas with
    | none => none
    | some (xas, curr) =>
      match (if curr = old then (xas_store F k xas entry).map fun r => (r.1, r.2.1)
             else some (k, xas)) with
      | none => none
      | some (k, xas) =>
        let r := nomem k xas gfp
        if r.2.2 then xa_cmpxchg_loop nomem F old entry gfp fuel r.1 r.2.1
        else some (r.1, r.2.1, curr)

def xa_cmpxchg (fuel : Nat) (k : Kernel) (index old entry gfp : Nat) : Option (Kernel × Nat) :=
  if xa_is_internal entry then some (k, XA_ERROR (-EINVAL))
  else
    match xa_cmpxchg_loop xas_nomem fuel old entry gfp fuel k (XA_STATE index) with
    | none => none
    | some (k, xas, curr) => some (k, xas_result xas curr)

def __xa_cmpxchg (fuel : Nat) (k : Kernel) (index old entry gfp : Nat) : Option (Kernel × Nat) :=
  if xa_is_internal entry then some (k, XA_ERROR (-EINVAL))
  else
    match xa_cmpxchg_loop __xas_nomem fuel old entry gfp fuel k (XA_STATE index) with
    | none => none
    | some (k, xas, curr) => some (k, xas_result xas curr)

/-- `xa_erase`: `xa_store(xa, index, NULL, 0)`. -/
def xa_erase (fuel : Nat) (k : Kernel) (index : Nat) : Option (Kernel × Nat) :=
  xa_store fuel k index 0 0

/-- `xa_insert`: the new state and the `int` result. -/
def xa_insert (fuel : Nat) (k : Kernel) (index entry gfp : Nat) : Option (Kernel × Int) :=
  match xa_cmpxchg fuel k index 0 entry gfp with
  | none => none
  | some (k, curr) =>
    if curr = 0 then some (k, 0)
    else if xa_is_err curr then some (k, xa_err curr)
    else some (k, -EEXIST)

def __xa_set_tag (fuel : Nat) (k : Kernel) (index tag : Nat) : Option Kernel :=
  match xas_load fuel k (XA_STATE index) with
  | none => none
  | some (xas, entry) => if entry ≠ 0 then xas_set_tag fuel k xas tag else some k

def __xa_clear_tag (fuel : Nat) (k : Kernel) (index tag : Nat) : Option Kernel :=
  match xas_load fuel k (XA_STATE index) with
  | none => none
  | some (xas, entry) => if entry ≠ 0 then xas_clear_tag fuel k xas tag else some k

def xa_set_tag (fuel : Nat) (k : Kernel) (index tag : Nat) : Option Kernel :=
  __xa_set_tag fuel k index tag

def xa_clear_tag (fuel : Nat) (k : Kernel) (index tag : Nat) : Option Kernel :=
  __xa_clear_tag fuel k index tag

/-- The loop of `xa_get_tag`. -/
def xa_get_tag_loop (k : Kernel) (tag : Nat) : Nat → xa_state → Nat → Option Bool
  | 0, _, _ => none
  | fuel + 1, xas, entry =>
    if xas_get_tag k xas tag then
      if !xa_is_node entry then some true
      else
        let d := xas_descend k xas (xa_to_node entry)
        xa_get_tag_loop k tag fuel d.1 d.2
    else some false

def xa_get_tag (fuel : Nat) (k : Kernel) (index tag : Nat) : Option Bool :=
  let r := xas_start k (XA_STATE index)
  xa_get_tag_loop k tag fuel r.1 r.2

def xa_empty (k : Kernel) : Bool := k.xa_head == 0

/-! ## Well-formed states

The invariant is stated node by node over the set `L` of live nodes (the
nodes linked into the tree).  It is established by `xa_init_flags` and kept by
every operation of the normal API (see the theorems below). -/

/-- Number of non-NULL slots among the first `n` slots. -/
def count_upto (slots : Nat → Nat) : Nat → Nat
  | 0 => 0
  | n + 1 => count_upto slots n + (if slots n = 0 then 0 else 1)

/-- The tag summary above node `x` agrees with the bitmap of `x`: the bit of
`x` in its parent (or the array flag, for the root) is set exactly when `x` has
a bit set. -/
def TagUp (k : Kernel) (x t : Nat) : Prop :=
  if (k.mem x).parent = 0 then xa_tagged k t = node_any_tag (k.mem x) t
  else node_get_tag (k.mem (k.mem x).parent) (k.mem x).offset t = node_any_tag (k.mem x) t

/-- The shape invariant of one live node. -/
structure NodeCore (k : Kernel) (L : Nat → Prop) (x : Nat) : Prop where
  align : x % 4 = 0
  big : 4096 ≤ x
  below : x < k.slab_next
  shift6 : (k.mem x).shift % 6 = 0
  shift_le : (k.mem x).shift ≤ 60
  root : (k.mem x).parent = 0 → k.xa_head = x + 2
  up : (k.mem x).parent ≠ 0 →
    L (k.mem x).parent ∧ (k.mem x).offset < 64 ∧
    (k.mem (k.mem x).parent).slots (k.mem x).offset = x + 2 ∧
    (k.mem (k.mem x).parent).shift = (k.mem x).shift + 6
  child : ∀ o, o < 64 → xa_is_node ((k.mem x).slots o) = true →
    L ((k.mem x).slots o - 2) ∧ (k.mem ((k.mem x).slots o - 2)).parent = x ∧
    (k.mem ((k.mem x).slots o - 2)).offset = o
  sib : ∀ o, o < 64 → xa_is_internal ((k.mem x).slots o) = true →
    xa_is_node ((k.mem x).slots o) = false →
    xa_is_sibling ((k.mem x).slots o) = true ∧ xa_to_sibling ((k.mem x).slots o) < o ∧
    xa_is_internal ((k.mem x).slots (xa_to_sibling ((k.mem x).slots o))) = false ∧
    (k.mem x).slots (xa_to_sibling ((k.mem x).slots o)) ≠ 0 ∧
    ∀ j, xa_to_sibling ((k.mem x).slots o) < j → j ≤ o → (k.mem x).slots j = (k.mem x).slots o
  count : (k.mem x).count = count_upto (k.mem x).slots 64
  tag_null : ∀ o t, o < 64 → t < 3 → node_get_tag (k.mem x) o t = true →
    (k.mem x).slots o ≠ 0 ∧ xa_is_sibling ((k.mem x).slots o) = false

/-- The invariant without the tag summaries. -/
structure Core (k : Kernel) (L : Nat → Prop) : Prop where
  head_node : xa_is_node k.xa_head = true →
    L (k.xa_head - 2) ∧ (k.mem (k.xa_head - 2)).parent = 0
  head_leaf : xa_is_node k.xa_head = false → xa_is_internal k.xa_head = false ∧ ∀ x, ¬ L x
  nodes : ∀ x, L x → NodeCore k L x
  slab_align : k.slab_next % 4 = 0
  slab_big : 4096 ≤ k.slab_next

/-- The invariant of the array with live nodes `L`. -/
structure Inv (k : Kernel) (L : Nat → Prop) : Prop where
  core : Core k L
  head_null : k.xa_head = 0 → ∀ t, t < 3 → xa_tagged k t = false
  tags : ∀ x, L x → ∀ t, t < 3 → TagUp k x t

/-- A well-formed array. -/
def WF (k : Kernel) : Prop := ∃ L, Inv k L

/-- The array holds single-index entries only: no sibling entry, and only
nodes below the leaf level. -/
def NoMulti (k : Kernel) (L : Nat → Prop) : Prop :=
  ∀ x, L x → ∀ o, o < 64 →
    xa_is_sibling ((k.mem x).slots o) = false ∧
    ((k.mem x).shift ≠ 0 → (k.mem x).slots o ≠ 0 → xa_is_node ((k.mem x).slots o) = true)

/-- A well-formed array with single-index entries only. -/
def WFS (k : Kernel) : Prop := ∃ L, Inv k L ∧ NoMulti k L

/-- The node cache grants every request. -/
def AllocOK (k : Kernel) : Prop := ∀ n gfp, k.slab_grant n gfp = true

/-- The walk for index `i` from the head visits node `x`. -/
inductive Visits (k : Kernel) (i : Nat) : Nat → Prop
  | root (x : Nat) : k.xa_head = x + 2 → xa_is_node (x + 2) = true →
      i >>> (k.mem x).shift ≤ XA_CHUNK_MASK → Visits k i x
  | step (x c : Nat) : Visits k i x →
      (k.mem x).slots (get_offset i (k.mem x)) = c + 2 → xa_is_node (c + 2) = true →
      Visits k i c

/-- The canonical slot of slot `o`: where a sibling entry points, else `o`. -/
def canon (n : xa_node) (o : Nat) : Nat :=
  if xa_is_sibling (n.slots o) then xa_to_sibling (n.slots o) else o

/-- Where the walk for an index ends. -/
inductive Place
  | head : Place
  | bounds : Place
  | slot (x o : Nat) : Place

/-- The walk for index `i` ends at place `w`. -/
def Loc (k : Kernel) (i : Nat) : Place → Prop
  | Place.head => xa_is_node k.xa_head = false ∧ i = 0
  | Place.bounds =>
    (xa_is_node k.xa_head = false ∧ i ≠ 0) ∨
    (xa_is_node k.xa_head = true ∧ i >>> (k.mem (k.xa_head - 2)).shift > XA_CHUNK_MASK)
  | Place.slot x o =>
    Visits k i x ∧ o = canon (k.mem x) (get_offset i (k.mem x)) ∧
    xa_is_node ((k.mem x).slots o) = false

/-- The entry at a place. -/
def entry_at (k : Kernel) : Place → Nat
  | Place.head => k.xa_head
  | Place.bounds => 0
  | Place.slot x o => (k.mem x).slots o

/-- The tag bit at a place. -/
def tag_at (k : Kernel) (t : Nat) : Place → Bool
  | Place.head => xa_tagged k t
  | Place.bounds => false
  | Place.slot x o => node_get_tag (k.mem x) o t

/-- The cursor node of a place. -/
def Place.node : Place → Nat
  | Place.head => 0
  | Place.bounds => XAS_BOUNDS
  | Place.slot x _ => x

/-- The cursor offset of a place. -/
def Place.offset : Place → Nat
  | Place.slot _ o => o
  | _ => 0

/-- Two states with the same tree shape: the same nodes and sibling entries in
the same places; only leaf entries (neither node nor sibling), counters and
tags may differ. -/
def SameShape (k k' : Kernel) : Prop :=
  ((xa_is_node k.xa_head = true ∨ xa_is_node k'.xa_head = true) → k'.xa_head = k.xa_head) ∧
  ∀ x, (k'.mem x).shift = (k.mem x).shift ∧
    ∀ o, (xa_is_node ((k.mem x).slots o) = true ∨ xa_is_node ((k'.mem x).slots o) = true ∨
          xa_is_sibling ((k.mem x).slots o) = true ∨ xa_is_sibling ((k'.mem x).slots o) = true) →
      (k'.mem x).slots o = (k.mem x).slots o

/-- Every index reads the same entry and the same tags in `k'` as in `k`. -/
def Sim (k k' : Kernel) : Prop :=
  ∀ j w, Loc k j w → ∃ w', Loc k' j w' ∧ entry_at k' w' = entry_at k w ∧
    ∀ t, t < 3 → tag_at k' t w' = tag_at k t w

/-- The cursor `xas` has been walked to the place `w` where index `i` ends. -/
structure Walked (k : Kernel) (i : Nat) (w : Place) (xas : xa_state) : Prop where
  loc : Loc k i w
  node : xas.xa_node = w.node
  offset : xas.xa_offset = w.offset
  shift : xas.xa_shift = 0
  sibs : xas.xa_sibs = 0
  alloc : xas.xa_alloc = 0
  index : entry_at k w = 0 ∨ w = Place.head → xas.xa_index = i

/-- `k'` differs from `k` in the tag bitmaps and the array flags only. -/
structure TagOnly (k k' : Kernel) : Prop where
  head : k'.xa_head = k.xa_head
  next : k'.slab_next = k.slab_next
  grant : k'.slab_grant = k.slab_grant
  rcu : k'.rcu_pending = k.rcu_pending
  slots : ∀ z, (k'.mem z).slots = (k.mem z).slots
  shift : ∀ z, (k'.mem z).shift = (k.mem z).shift
  parent : ∀ z, (k'.mem z).parent = (k.mem z).parent
  offset : ∀ z, (k'.mem z).offset = (k.mem z).offset
  count : ∀ z, (k'.mem z).count = (k.mem z).count

/-- Only bits of tag `t` differ, and none of them at a slot that holds an
entry rather than a node. -/
structure TagFrame (k k' : Kernel) (t : Nat) : Prop where
  only : TagOnly k k'
  other : ∀ z u, u ≠ t → (k'.mem z).tags u = (k.mem z).tags u
  flags : ∀ u, u < 3 → u ≠ t → xa_tagged k' u = xa_tagged k u
  leaf : ∀ z q, q < 64 → xa_is_node ((k.mem z).slots q) = false →
    node_get_tag (k'.mem z) q t = node_get_tag (k.mem z) q t

/-- The end of `xas_set_tag`, after its loop (`done`: returned from the loop). -/
def xas_set_tag_end (k : Kernel) (tag : Nat) (done : Bool) : Kernel :=
  if done then k else if !xa_tagged k tag then xa_tag_set k tag else k

/-- The end of `xas_clear_tag`, after its loop (`done`: returned from the loop). -/
def xas_clear_tag_end (k : Kernel) (tag : Nat) (done : Bool) : Kernel :=
  if done then k else if xa_tagged k tag then xa_tag_clear k tag else k

/-- Index `j` is covered by the entry at index `i`: both walks end at the same place. -/
def Covers (k : Kernel) (i j : Nat) : Prop := ∃ w, Loc k i w ∧ Loc k j w

/-- Every index reads in `k'` what it read in `k`, except the indices that
ended at place `w0`, which read `NULL` and no tag in `k'`. -/
def SimOff (k k' : Kernel) (w0 : Place) : Prop :=
  ∀ j w1, Loc k j w1 → ∃ w2, Loc k' j w2 ∧
    (w1 = w0 → entry_at k' w2 = 0 ∧ ∀ u, u < 3 → tag_at k' u w2 = false) ∧
    (w1 ≠ w0 → entry_at k' w2 = entry_at k w1 ∧ ∀ u, u < 3 → tag_at k' u w2 = tag_at k u w1)

/-- `k'` differs from `k` in the slots of node `y` only. -/
structure SlotsAt (k k' : Kernel) (y : Nat) : Prop where
  head : k'.xa_head = k.xa_head
  flags : k'.xa_flags = k.xa_flags
  next : k'.slab_next = k.slab_next
  grant : k'.slab_grant = k.slab_grant
  rcu : k'.rcu_pending = k.rcu_pending
  mem : ∀ z, z ≠ y → k'.mem z = k.mem z
  shift : (k'.mem y).shift = (k.mem y).shift
  parent : (k'.mem y).parent = (k.mem y).parent
  offset : (k'.mem y).offset = (k.mem y).offset
  count : (k'.mem y).count = (k.mem y).count
  nr_values : (k'.mem y).nr_values = (k.mem y).nr_values
  tags : (k'.mem y).tags = (k.mem y).tags

/-- An array built from an empty array by single-index stores with the node
cache granting every request; `m` maps each index to the entry most recently
stored there (`NULL` initially). -/
inductive Built (fuel : Nat) : Kernel → (Nat → Nat) → Prop
  | init (addr flags base : Nat) (grant : Nat → Nat → Bool) :
      base % 4 = 0 → 4096 ≤ base → flags < 2 ^ 25 → (∀ n g, grant n g = true) →
      Built fuel (xa_init_flags addr flags base grant) (fun _ => 0)
  | store (k : Kernel) (m : Nat → Nat) (i e gfp : Nat) (k' : Kernel) (r : Nat) :
      Built fuel k m → i < 2 ^ 64 → xa_is_internal e = false →
      xa_store fuel k i e gfp = some (k', r) →
      Built fuel k' (fun j => if j = i then e else m j)

/-! ## Example states -/

/-- An empty array whose node cache starts at address 4096 and grants every request. -/
def ex_empty : Kernel := xa_init_flags 0 0 4096 (fun _ _ => true)

/-- The array after `xa_store(&xa, 7, e, 0)` on the empty array, for the entry `e = 8`. -/
def ex_one : Kernel := ((xa_store 64 ex_empty 7 8 0).map Prod.fst).getD ex_empty

/-! ## Iteration (lib/xarray.c, include/linux/xarray.h) -/

/-- `xas_set`. -/
def xas_set (xas : xa_state) (index : Nat) : xa_state :=
  { xas with xa_index := index, xa_node := XAS_RESTART }

/-- `xas_set_order`; `xa_shift` and `xa_sibs` are `unsigned char`. -/
def xas_set_order (xas : xa_state) (index order : Nat) : xa_state :=
  { xas with
    xa_index := if order < BITS_PER_LONG then ((index >>> order) <<< order) % WORD else 0,
    xa_shift := (order - order % XA_CHUNK_SHIFT) % 256,
    xa_sibs := ((1 <<< (order % XA_CHUNK_SHIFT)) - 1) % 256,
    xa_node := XAS_RESTART }

/-- `xas_advance`: `xa_offset++`, then `xas_move_index`. -/
def xas_advance (k : Kernel) (xas : xa_state) : xa_state :=
  let xas := { xas with xa_offset := (xas.xa_offset + 1) % 256 }
  xas_move_index k xas xas.xa_offset

/-- `xa_iter_skip`: `NULL`, and internal entries below `XA_RETRY_ENTRY`. -/
def xa_iter_skip (entry : Nat) : Bool :=
  entry == 0 || (xa_is_internal entry && decide (entry < XA_RETRY_ENTRY))

/-- The end of `xas_find` and `xas_find_tagged`: a cursor that left the tree at
the top is out of bounds; the result is `NULL`. -/
def xas_find_out (xas : xa_state) : xa_state × Nat :=
  (if xas.xa_node = 0 then { xas with xa_node := XAS_BOUNDS } else xas, 0)

/-- The loop of `xas_find`. -/
def xas_find_loop (k : Kernel) (max : Nat) : Nat → xa_state → Option (xa_state × Nat)
  | 0, _ => none
  | fuel + 1, xas =>
    if xas.xa_node ≠ 0 ∧ xas.xa_index ≤ max then
      if xas.xa_offset = XA_CHUNK_SIZE then
        xas_find_loop k max fuel
          { xas with xa_offset := ((k.mem xas.xa_node).offset + 1) % 256,
                     xa_node := xa_parent k xas.xa_node }
      else
        let entry := xa_entry k xas.xa_node xas.xa_offset
        if xa_is_node entry then
          xas_find_loop k max fuel { xas with xa_node := xa_to_node entry, xa_offset := 0 }
        else if !xa_iter_skip entry then some (xas, entry)
        else xas_find_loop k max fuel (xas_advance k xas)
    else some (xas_find_out xas)

/-- `xas_find`: the cursor and the entry found (`NULL` if none). -/
def xas_find (fuel : Nat) (k : Kernel) (xas : xa_state) (max : Nat) :
    Option (xa_state × Nat) :=
  if xas_error xas ≠ 0 then some (xas, 0)
  else if xas.xa_node = 0 then some (set_bounds { xas with xa_index := 1 })
  else if xas_top xas.xa_node then
    match xas_load fuel k xas with
    | none => none
    | some (xas, entry) =>
      if entry ≠ 0 ∨ xas_not_node xas.xa_node then some (xas, entry)
      else xas_find_loop k max fuel (xas_advance k xas)
  else xas_find_loop k max fuel (xas_advance k xas)

/-- The loop of `xas_next_entry` on the leaf `node`: the entry it returned, or
`none` for it when the loop left to `xas_find`. -/
def xas_next_entry_loop (k : Kernel) (node max : Nat) :
    Nat → xa_state → Option (xa_state × Option Nat)
  | 0, _ => none
  | fuel + 1, xas =>
    if xas.xa_index ≥ max then some (xas, none)
    else if xas.xa_offset = XA_CHUNK_MASK then some (xas, none)
    else
      let xas := { xas with xa_index := (xas.xa_index + 1) % WORD,
                            xa_offset := (xas.xa_offset + 1) % 256 }
      let entry := xa_entry k node xas.xa_offset
      if xa_iter_skip entry then xas_next_entry_loop k node max fuel xas
      else some (xas, some entry)

/-- `xas_next_entry`. -/
def xas_next_entry (fuel : Nat) (k : Kernel) (xas : xa_state) (max : Nat) :
    Option (xa_state × Nat) :=
  let node := xas.xa_node
  if xas_not_node node ∨ (k.mem node).shift ≠ 0 then xas_find fuel k xas max
  else
    match xas_next_entry_loop k node max fuel xas with
    | none => none
    | some (xas, some entry) => some (xas, entry)
    | some (xas, none) => xas_find fuel k xas max

/-- `__ffs(word)`: the position of the lowest set bit (`word` is not 0). -/
def __ffs (w : Nat) : Nat := find_next_bit w BITS_PER_LONG BITS_PER_LONG 0

/-- `xas_find_chunk`, for `XA_CHUNK_SIZE == BITS_PER_LONG`. -/
def xas_find_chunk (k : Kernel) (xas : xa_state) (advance : Bool) (tag : Nat) : Nat :=
  let addr := (k.mem xas.xa_node).tags tag
  let offset := if advance then xas.xa_offset + 1 else xas.xa_offset
  if offset < XA_CHUNK_SIZE then
    let data := addr &&& (((WORD - 1) <<< offset) % WORD)
    if data ≠ 0 then __ffs data else XA_CHUNK_SIZE
  else XA_CHUNK_SIZE

/-- The loop of `xas_find_tagged`. -/
def xas_find_tagged_loop (k : Kernel) (max tag : Nat) :
    Nat → xa_state → Bool → Option (xa_state × Nat)
  | 0, _, _ => none
  | fuel + 1, xas, advance =>
    if xas.xa_index ≤ max then
      if xas.xa_offset = XA_CHUNK_SIZE then
        let xas := { xas with xa_offset := ((k.mem xas.xa_node).offset + 1) % 256,
                              xa_node := xa_parent k xas.xa_node }
        if xas.xa_node = 0 then some (xas_find_out xas)
        else xas_find_tagged_loop k max tag fuel xas false
      else
        let xas :=
          if !advance ∧ xa_is_sibling (xa_entry k xas.xa_node xas.xa_offset) then
            let xas := { xas with
              xa_offset := xa_to_sibling (xa_entry k xas.xa_node xas.xa_offset) }
            xas_move_index k xas xas.xa_offset
          else xas
        let offset := xas_find_chunk k xas advance tag
        let moved := decide (offset > xas.xa_offset)
        let advance := if moved then false else advance
        let xas :=
          if moved then { xas_move_index k xas offset with xa_offset := offset } else xas
        if moved ∧ offset = XA_CHUNK_SIZE then xas_find_tagged_loop k max tag fuel xas advance
        else if moved ∧ xas.xa_index > max then some (xas_find_out xas)
        else
          let entry := xa_entry k xas.xa_node xas.xa_offset
          if !xa_is_node entry then some (xas, entry)
          else
            let xas := { xas with xa_node := xa_to_node entry }
            let xas := { xas with xa_offset := get_offset xas.xa_index (k.mem xas.xa_node) }
            xas_find_tagged_loop k max tag fuel xas advance
    else some (xas_find_out xas)

/-- `xas_find_tagged`. -/
def xas_find_tagged (fuel : Nat) (k : Kernel) (xas : xa_state) (max tag : Nat) :
    Option (xa_state × Nat) :=
  if xas_error xas ≠ 0 then some (xas, 0)
  else if xas.xa_node = 0 then some (xas_find_out { xas with xa_index := 1 })
  else if xas_top xas.xa_node then
    let entry := xa_head k
    if xas.xa_index > max_index k entry then some (xas_find_out xas)
    else if !xa_is_node entry then
      if xa_tagged k tag then some ({ xas with xa_node := 0 }, entry)
      else some (xas_find_out { xas with xa_index := 1 })
    else
      let xas := { xas with xa_node := xa_to_node entry }
      let xas := { xas with xa_offset := (xas.xa_index >>> (k.mem xas.xa_node).shift) % 256 }
      xas_find_tagged_loop k max tag fuel xas false
  else xas_find_tagged_loop k max tag fuel xas true

/-- `xas_next_tagged`. -/
def xas_next_tagged (fuel : Nat) (k : Kernel) (xas : xa_state) (max tag : Nat) :
    Option (xa_state × Nat) :=
  let node := xas.xa_node
  if xas_not_node node ∨ (k.mem node).shift ≠ 0 then xas_find_tagged fuel k xas max tag
  else
    let offset := xas_find_chunk k xas true tag
    let xas := { xas with
      xa_offset := offset,
      xa_index := ((xas.xa_index &&& (WORD - 1 - XA_CHUNK_MASK)) + offset) % WORD }
    if xas.xa_index > max then some (xas, 0)
    else if offset = XA_CHUNK_SIZE then xas_find_tagged fuel k xas max tag
    else some (xas, xa_entry k node offset)

/-- `XA_PRESENT`. -/
abbrev XA_PRESENT : Nat := 8

/-- The search step of `xa_find` and `xa_find_after`: `xas_find_tagged` for a
tag filter, `xas_find` otherwise. -/
def xa_find_step (F : Nat) (k : Kernel) (xas : xa_state) (max filter : Nat) :
    Option (xa_state × Nat) :=
  if filter < XA_MAX_TAGS then xas_find_tagged F k xas max filter else xas_find F k xas max

/-- The retry loop of `xa_find`. -/
def xa_find_loop (F : Nat) (k : Kernel) (max filter : Nat) :
    Nat → xa_state → Option (xa_state × Nat)
  | 0, _ => none
  | fuel + 1, xas =>
    match xa_find_step F k xas max filter with
    | none => none
    | some (xas, entry) =>
      let r := xas_retry xas entry
      if r.2 then xa_find_loop F k max filter fuel r.1 else some (r.1, entry)

/-- `xa_find`: the new value of `*indexp` and the entry returned. -/
def xa_find (fuel : Nat) (k : Kernel) (index max filter : Nat) : Option (Nat × Nat) :=
  match xa_find_loop fuel k max filter fuel (XA_STATE index) with
  | none => none
  | some (xas, entry) => some (if entry ≠ 0 then xas.xa_index else index, entry)

/-- The retry loop of `xa_find_after`. -/
def xa_find_after_loop (F : Nat) (k : Kernel) (index max filter : Nat) :
    Nat → xa_state → Option (xa_state × Nat)
  | 0, _ => none
  | fuel + 1, xas =>
    match xa_find_step F k xas max filter with
    | none => none
    | some (xas, entry) =>
      match (if index ≥ xas.xa_index then xas_next_entry F k xas max
             else some (xas, entry)) with
      | none => none
      | some (xas, entry) =>
        let r := xas_retry xas entry
        if r.2 then xa_find_after_loop F k index max filter fuel r.1 else some (r.1, entry)

/-- `xa_find_after`: the new value of `*indexp` and the entry returned. -/
def xa_find_after (fuel : Nat) (k : Kernel) (index max filter : Nat) : Option (Nat × Nat) :=
  match xa_find_after_loop fuel k index max filter fuel (XA_STATE ((index + 1) % WORD)) with
  | none => none
  | some (xas, entry) => some (if entry ≠ 0 then xas.xa_index else index, entry)

/-- The loop `xas_for_each(xas, entry, max)` with a body that records the
cursor index and the entry and changes nothing; `entry` is the result of the
last `xas_find` or `xas_next_entry`. -/
def xas_for_each_loop (F : Nat) (k : Kernel) (max : Nat) :
    Nat → xa_state → Nat → List (Nat × Nat) → Option (List (Nat × Nat))
  | 0, _, _, _ => none
  | fuel + 1, xas, entry, acc =>
    if entry = 0 then some acc.reverse
    else
      match xas_next_entry F k xas max with
      | none => none
      | some (xas1, entry1) =>
        xas_for_each_loop F k max fuel xas1 entry1 ((xas.xa_index, entry) :: acc)

/-- `xas_for_each(xas, entry, max)`: the list of (index, entry) pairs the body sees. -/
def xas_for_each (F : Nat) (k : Kernel) (xas : xa_state) (max : Nat) :
    Option (List (Nat × Nat)) :=
  match xas_find F k xas max with
  | none => none
  | some (xas, entry) => xas_for_each_loop F k max F xas entry []

/-- The loop `xas_for_each_tagged(xas, entry, max, tag)` with a recording body. -/
def xas_for_each_tagged_loop (F : Nat) (k : Kernel) (max tag : Nat) :
    Nat → xa_state → Nat → List (Nat × Nat) → Option (List (Nat × Nat))
  | 0, _, _, _ => none
  | fuel + 1, xas, entry, acc =>
    if entry = 0 then some acc.reverse
    else
      match xas_next_tagged F k xas max tag with
      | none => none
      | some (xas1, entry1) =>
        xas_for_each_tagged_loop F k max tag fuel xas1 entry1 ((xas.xa_index, entry) :: acc)

/-- `xas_for_each_tagged(xas, entry, max, tag)`: the pairs the body sees. -/
def xas_for_each_tagged (F : Nat) (k : Kernel) (xas : xa_state) (max tag : Nat) :
    Option (List (Nat × Nat)) :=
  match xas_find_tagged F k xas max tag with
  | none => none
  | some (xas, entry) => xas_for_each_tagged_loop F k max tag F xas entry []

/-- The loop of `xas_extract_present` and `xas_extract_tag`: `dst` is the
buffer, `i` the number of entries written; `next` is `xas_next_entry` or
`xas_next_tagged`. -/
def xas_extract_loop (next : xa_state → Option (xa_state × Nat)) (n : Nat) :
    Nat → xa_state → Nat → (Nat → Nat) → Nat → Option ((Nat → Nat) × Nat)
  | 0, _, _, _, _ => none
  | fuel + 1, xas, entry, dst, i =>
    if entry = 0 then some (dst, i)
    else
      let r := xas_retry xas entry
      let w : (Nat → Nat) × Nat :=
        if r.2 then (dst, i) else (fun j => if j = i then entry else dst j, (i + 1) % 2 ^ 32)
      if !r.2 ∧ w.2 = n then some w
      else
        match next r.1 with
        | none => none
        | some (xas1, entry1) => xas_extract_loop next n fuel xas1 entry1 w.1 w.2

def xas_extract_present (F : Nat) (k : Kernel) (xas : xa_state) (dst : Nat → Nat)
    (max n : Nat) : Option ((Nat → Nat) × Nat) :=
  match xas_find F k xas max with
  | none => none
  | some (xas, entry) =>
    xas_extract_loop (fun x => xas_next_entry F k x max) n F xas entry dst 0

def xas_extract_tag (F : Nat) (k : Kernel) (xas : xa_state) (dst : Nat → Nat)
    (max n tag : Nat) : Option ((Nat → Nat) × Nat) :=
  match xas_find_tagged F k xas max tag with
  | none => none
  | some (xas, entry) =>
    xas_extract_loop (fun x => xas_next_tagged F k x max tag) n F xas entry dst 0

/-- `xa_extract`: the buffer and the number of entries copied. -/
def xa_extract (fuel : Nat) (k : Kernel) (dst : Nat → Nat) (start max n filter : Nat) :
    Option ((Nat → Nat) × Nat) :=
  if n = 0 then some (dst, 0)
  else if filter < XA_MAX_TAGS then xas_extract_tag fuel k (XA_STATE start) dst max n filter
  else xas_extract_present fuel k (XA_STATE start) dst max n

/-- `xa_destroy`. -/
def xa_destroy (fuel : Nat) (k : Kernel) : Option Kernel :=
  let xas := { XA_STATE 0 with xa_node := 0 }
  let entry := xa_head k
  let k := { k with xa_head := 0 }
  match xas_init_tags fuel k xas with
  | none => none
  | some k => if xa_is_node entry then xas_free_nodes fuel k (xa_to_node entry) else some k


/-! ## More example states -/

/-- The state after an operation that returns a state and a result (the state
before, should the operation not return). -/
def ex_after (r : Option (Kernel × Nat)) (k : Kernel) : Kernel := (r.map Prod.fst).getD k

/-- Entries 8 and 12 at the indices 5 and 7. -/
def ex_pair : Kernel :=
  ex_after (xa_store 64 (ex_after (xa_store 64 ex_empty 5 8 0) ex_empty) 7 12 0)
    (ex_after (xa_store 64 ex_empty 5 8 0) ex_empty)

/-- The entry 24 stored with order 2 at index 8 of the empty array (indices 8 to 11). -/
def ex_range : Kernel :=
  ex_after ((xas_store 64 ex_empty (xas_set_order (XA_STATE 0) 8 2) 24).map
    fun r => (r.1, r.2.2)) ex_empty

/-- Entries 8, 12 and 16 at the indices 8, 9 and 20. -/
def ex_three : Kernel :=
  ex_after (xa_store 64 (ex_after (xa_store 64 (ex_after (xa_store 64 ex_empty 8 8 0) ex_empty)
    9 12 0) (ex_after (xa_store 64 ex_empty 8 8 0) ex_empty)) 20 16 0)
    (ex_after (xa_store 64 (ex_after (xa_store 64 ex_empty 8 8 0) ex_empty)
    9 12 0) (ex_after (xa_store 64 ex_empty 8 8 0) ex_empty))

/-- The state `ex_three` after `xa_set_tag(&xa, 9, 0)`. -/
def ex_three_tagged : Kernel := (xa_set_tag 64 ex_three 9 0).getD ex_three

/-- The state `ex_three_tagged` after the entry 24 is stored with order 1 at
index 8 (indices 8 and 9) by `xas_store`. -/
def ex_merged : Kernel :=
  ex_after ((xas_store 64 ex_three_tagged (xas_set_order (XA_STATE 0) 8 1) 24).map
    fun r => (r.1, r.2.2)) ex_three_tagged

/-- The state `ex_merged` after `xa_erase(&xa, 8)`. -/
def ex_merged_erased : Kernel := ex_after (xa_erase 64 ex_merged 8) ex_merged

/-! ## Index ranges

A node `x` of shift `s` covers the indices `j` with `j >> (s + 6) = B` for one
number `B`, its block number; slot `o` of `x` covers those with
`j >> s = 64 * B + o`. -/

/-- Node `x` is visited by exactly the indices of block `B`. -/
def NodeBlock (k : Kernel) (x B : Nat) : Prop :=
  ∀ j, Visits k j x ↔ j >>> ((k.mem x).shift + 6) = B

/-- Every entry of the array lies at an index below `2 ^ 64`. -/
def Fits (k : Kernel) : Prop := ∀ j w, 2 ^ 64 ≤ j → Loc k j w → entry_at k w = 0

/-- Every sibling entry of `k'` is in the same slot of `k`: no sibling entry is new. -/
def SibFrame (k k' : Kernel) : Prop :=
  ∀ z q, xa_is_sibling ((k'.mem z).slots q) = true → (k'.mem z).slots q = (k.mem z).slots q

/-- No sibling entry of its node points at the place `w`. -/
def NoSibTo (k : Kernel) (w : Place) : Prop :=
  ∀ y o, w = Place.slot y o → ∀ q, q < 64 →
    xa_is_sibling ((k.mem y).slots q) = true → xa_to_sibling ((k.mem y).slots q) ≠ o

/-- Node `x` is linked below node `p` (or is `p`): it is reached from `p`
through node pointers in the slots. -/
inductive Under (k : Kernel) (p : Nat) : Nat → Prop
  | self : Under k p p
  | child (x o : Nat) : Under k p x → o < 64 → xa_is_node ((k.mem x).slots o) = true →
      Under k p (xa_to_node ((k.mem x).slots o))

/-- What `xas_free_nodes` keeps of the state `k0` it started in: the array
head and flags, the node cache, the links between the nodes, and the earlier
calls of `call_rcu`. -/
structure FreeFrame (k0 k : Kernel) : Prop where
  head : k.xa_head = k0.xa_head
  flags : k.xa_flags = k0.xa_flags
  next : k.slab_next = k0.slab_next
  grant : k.slab_grant = k0.slab_grant
  parent : ∀ z, (k.mem z).parent = (k0.mem z).parent
  offset : ∀ z, (k.mem z).offset = (k0.mem z).offset
  links : ∀ z q, xa_is_node ((k.mem z).slots q) = xa_is_node ((k0.mem z).slots q) ∧
    (xa_is_node ((k0.mem z).slots q) = true → (k.mem z).slots q = (k0.mem z).slots q)
  rcu : ∀ z, z ∈ k0.rcu_pending → z ∈ k.rcu_pending

/-- The rest of `xas_free_nodes` from the test of its inner loop, with node
`node` and offset `offset` (`f1`: fuel of the inner loop, `f2`: of the outer). -/
def xas_free_nodes_rest (top f1 f2 : Nat) (k : Kernel) (node offset : Nat) : Option Kernel :=
  match xas_free_nodes_up top f1 k node offset with
  | none => none
  | some (k, none) => some k
  | some (k, some (node, offset)) => xas_free_nodes_loop top f2 k node offset

/-- The rest of `xas_free_nodes` from node `node` and offset `offset` ends in state `k'`. -/
def FreeDone (top : Nat) (k : Kernel) (node offset : Nat) (k' : Kernel) : Prop :=
  ∃ f1 f2, xas_free_nodes_rest top f1 f2 k node offset = some k'

/-- The state after the inner loop of `xas_free_nodes` has freed `node`. -/
def xas_free_nodes_freed (k : Kernel) (node : Nat) : Kernel :=
  xa_node_free (k.setNode node { k.mem node with count := 0, nr_values := 0 }) node

/-- The state after `xas_free_nodes` has put the retry entry into a slot. -/
def xas_free_nodes_mark (k : Kernel) (node offset : Nat) : Kernel :=
  if xa_entry k node offset ≠ 0 then
    k.setNode node
      { k.mem node with slots := fun i => if i = offset then XA_RETRY_ENTRY else (k.mem node).slots i }
  else k

/-- An array of two levels: entry 8 at index 7 and entry 12 at index 70. -/
def ex_two : Kernel := ex_after (xa_store 64 ex_one 70 12 0) ex_one

/-- The array states reached from an array initialised with no tag flags (and
a node cache that grants every request) by `xa_store`, `xa_erase`,
`xa_set_tag` and `xa_clear_tag`. -/
inductive Reached (fuel : Nat) : Kernel → Prop
  | init (addr flags base : Nat) (grant : Nat → Nat → Bool) :
      base % 4 = 0 → 4096 ≤ base → flags < 2 ^ 25 → (∀ n g, grant n g = true) →
      Reached fuel (xa_init_flags addr flags base grant)
  | store (k : Kernel) (i e gfp : Nat) (k' : Kernel) (r : Nat) :
      Reached fuel k → i < 2 ^ 64 → xa_store fuel k i e gfp = some (k', r) → Reached fuel k'
  | erase (k : Kernel) (i : Nat) (k' : Kernel) (r : Nat) :
      Reached fuel k → i < 2 ^ 64 → xa_erase fuel k i = some (k', r) → Reached fuel k'
  | set_tag (k : Kernel) (i t : Nat) (k' : Kernel) :
      Reached fuel k → i < 2 ^ 64 → t < 3 → xa_set_tag fuel k i t = some k' → Reached fuel k'
  | clear_tag (k : Kernel) (i t : Nat) (k' : Kernel) :
      Reached fuel k → i < 2 ^ 64 → t < 3 → xa_clear_tag fuel k i t = some k' → Reached fuel k'

/-- The array `ex_two` with tag 1 set on the entry at index 70. -/
def ex_two_tagged : Kernel := (xa_set_tag 64 ex_two 70 1).getD ex_two

/-- The cursor stands at slot `o` of the live node `x` (block `B`), or past
its last slot when `o = 64`; `I` is the first index of that slot, and
`xa_index` holds it as long as it is within `unsigned long`. -/
structure Cur (k : Kernel) (L : Nat → Prop) (xas : xa_state) (x B o I : Nat) : Prop where
  live : L x
  block : NodeBlock k x B
  node : xas.xa_node = x
  offset : xas.xa_offset = o
  le : o ≤ 64
  pos : I = (64 * B + o) * 2 ^ (k.mem x).shift
  index : I < 2 ^ 64 → xas.xa_index = I

/-- Every index below `I` is `NULL` or ends at a place in `S`. -/
def Done (k : Kernel) (S : Place → Prop) (I : Nat) : Prop :=
  ∀ j w, j < I → Loc k j w → entry_at k w = 0 ∨ S w

/-- The result of a search step of the iteration that started at index `I0`:
`NULL` when every index up to `max` is done, or the cursor on the first slot
with an entry. -/
def Found (k : Kernel) (L : Nat → Prop) (max : Nat) (S : Place → Prop) (I0 : Nat)
    (xas : xa_state) (e : Nat) : Prop :=
  (e = 0 ∧ Done k S (max + 1)) ∨
  ∃ y B q I, Cur k L xas y B q I ∧ q < 64 ∧ (k.mem y).slots q = e ∧ e ≠ 0 ∧
    xa_is_internal e = false ∧ I0 ≤ I ∧ I ≤ max ∧ Done k S I

/-- The entry at index `j` matches the filter of `xa_find`: the tag `filter`
is set on it if `filter` is a tag, else it is present (not `NULL`). -/
def xa_find_matches (fuel : Nat) (k : Kernel) (filter j : Nat) : Prop :=
  if filter < XA_MAX_TAGS then xa_get_tag fuel k j filter = some true
  else ∃ e, xa_load fuel k j = some e ∧ e ≠ 0

/-- The slot adjustment at the start of an iteration of `xas_find_tagged`
when it has not advanced: a cursor on a sibling entry moves to the canonical
slot. -/
def xas_find_tagged_adjust (k : Kernel) (xas : xa_state) : xa_state :=
  if xa_is_sibling (xa_entry k xas.xa_node xas.xa_offset) then
    let xas := { xas with xa_offset := xa_to_sibling (xa_entry k xas.xa_node xas.xa_offset) }
    xas_move_index k xas xas.xa_offset
  else xas

/-- The rest of an iteration of the loop of `xas_find_tagged` after that
adjustment, when the search has not advanced. -/
def xas_find_tagged_tail (k : Kernel) (max tag fuel : Nat) (xas : xa_state) :
    Option (xa_state × Nat) :=
  let offset := xas_find_chunk k xas false tag
  let moved := decide (offset > xas.xa_offset)
  let xas := if moved then { xas_move_index k xas offset with xa_offset := offset } else xas
  if moved ∧ offset = XA_CHUNK_SIZE then xas_find_tagged_loop k max tag fuel xas false
  else if moved ∧ xas.xa_index > max then some (xas_find_out xas)
  else
    let entry := xa_entry k xas.xa_node xas.xa_offset
    if !xa_is_node entry then some (xas, entry)
    else
      let xas := { xas with xa_node := xa_to_node entry }
      let xas := { xas with xa_offset := get_offset xas.xa_index (k.mem xas.xa_node) }
      xas_find_tagged_loop k max tag fuel xas false

/-- No index from `s` up to (not including) `I` has tag `t`. -/
def TDone (k : Kernel) (t s I : Nat) : Prop :=
  ∀ j w, s ≤ j → j < I → Loc k j w → tag_at k t w = false

/-- The result of a search for a tagged entry from index `s`: `NULL` when no
index from `s` to `max` has the tag, else the cursor on the first entry with
the tag that covers an index at or above `s`. -/
def TFound (k : Kernel) (max t s : Nat) (xas : xa_state) (e : Nat) : Prop :=
  (e = 0 ∧ TDone k t s (max + 1)) ∨
  (e ≠ 0 ∧ ∃ w, Loc k xas.xa_index w ∧ entry_at k w = e ∧ tag_at k t w = true ∧
    xas.xa_index ≤ max ∧
    ((s < xas.xa_index ∧ TDone k t s xas.xa_index) ∨ (xas.xa_index ≤ s ∧ Loc k s w)))

/-- One round of the retry loop of `xa_store`: the body `xas_store`, then the
loop test `xas_nomem`, whose result is the last component. -/
def xa_store_round (F entry gfp : Nat) (k : Kernel) (xas : xa_state) :
    Option (Kernel × xa_state × Nat × Bool) :=
  match xas_store F k xas entry with
  | none => none
  | some (k, xas, curr) =>
    let r := xas_nomem k xas gfp
    some (r.1, r.2.1, curr, r.2.2)

/-- Only the leaf node of index `i` is missing, so that storing a non-NULL
entry at `i` takes exactly one new node: either the array holds no node and
`1 ≤ i ≤ 63`, or the walk for `i` ends at an empty slot of a node one level
above the leaves. -/
def LeafMissing (k : Kernel) (i : Nat) : Prop :=
  (xa_is_node k.xa_head = false ∧ 1 ≤ i ∧ i ≤ 63) ∨
  ∃ y o, Loc k i (Place.slot y o) ∧ (k.mem y).shift = 6 ∧ (k.mem y).slots o = 0

/-- An empty array whose node cache refuses every `GFP_NOWAIT | __GFP_NOWARN`
request and grants every other request. -/
def ex_nowait : Kernel := xa_init_flags 0 0 4096 (fun _ gfp => gfp != GFP_NOWAIT_NOWARN)

/-- Node `x` holds something: one of its slots is not `NULL`. -/
def NonEmpty (k : Kernel) (x : Nat) : Prop := ∃ o, o < 64 ∧ (k.mem x).slots o ≠ 0

/-- Node `x` holds something in a slot other than slot 0. -/
def RootOK (k : Kernel) (x : Nat) : Prop := ∃ o, 0 < o ∧ o < 64 ∧ (k.mem x).slots o ≠ 0

/-- The tree is as small as it can be: no live node is empty (`xas_delete_node`
would have freed it), and the root node holds something in a slot other than
slot 0 (`xas_shrink` would have removed it otherwise). -/
def Tight (k : Kernel) (L : Nat → Prop) : Prop :=
  (∀ x, L x → NonEmpty k x) ∧ (xa_is_node k.xa_head = true → RootOK k (k.xa_head - 2))

/-- The shape between `xas_create` and the write of a non-NULL entry at index
`i`: the nodes on the walk of `i` may still be empty, and the root may still
lack a second slot when the walk of `i` leaves it through a slot other than
slot 0. -/
def PreTight (k : Kernel) (L : Nat → Prop) (i : Nat) : Prop :=
  (∀ x, L x → NonEmpty k x ∨ Visits k i x) ∧
  (xa_is_node k.xa_head = true →
    RootOK k (k.xa_head - 2) ∨ 0 < i >>> (k.mem (k.xa_head - 2)).shift)

/-- The shape while `xas_delete_node` and `xas_shrink` work on node `y`: every
other node is as `Tight` wants it. -/
def PostTight (k : Kernel) (L : Nat → Prop) (y : Nat) : Prop :=
  (∀ x, L x → x ≠ y → NonEmpty k x) ∧
  (xa_is_node k.xa_head = true → k.xa_head - 2 ≠ y → RootOK k (k.xa_head - 2))

/-- The cursor holds no spare node (`p = 0`), or the spare node `p` is the one
the cache handed out last and it is still blank. -/
def Spare (k : Kernel) (L : Nat → Prop) (p : Nat) : Prop :=
  p = 0 ∨ (p % 4 = 0 ∧ 4096 ≤ p ∧ (∀ y, L y → y < p) ∧ k.slab_next = p + 576 ∧
    k.mem p = xa_node.zero)

/-- The same array and node memory; the bookkeeping of the node cache may differ. -/
def SameMem (k k' : Kernel) : Prop :=
  k'.xa_head = k.xa_head ∧ k'.xa_flags = k.xa_flags ∧ k'.mem = k.mem

/-- What every step on the way of a store at index `i` keeps: the invariant,
what every index reads, the array flags, and the two shape properties. -/
structure Keeps (i : Nat) (k k' : Kernel) (L L' : Nat → Prop) : Prop where
  inv : Inv k' L'
  sim : Sim k k'
  flags : k'.xa_flags = k.xa_flags
  multi : NoMulti k L → NoMulti k' L'
  pre : PreTight k L i → PreTight k' L' i

/-- The array states reached from an initialised array by the normal API on
single indices, whatever the node cache grants, every `xa_store` having
returned without an error. -/
inductive ReachedOK (fuel : Nat) : Kernel → Prop
  | init (addr flags base : Nat) (grant : Nat → Nat → Bool) :
      base % 4 = 0 → 4096 ≤ base → flags < 2 ^ 25 →
      ReachedOK fuel (xa_init_flags addr flags base grant)
  | store (k : Kernel) (i e gfp : Nat) (k' : Kernel) (r : Nat) :
      ReachedOK fuel k → i < 2 ^ 64 → xa_store fuel k i e gfp = some (k', r) →
      xa_is_err r = false → ReachedOK fuel k'
  | erase (k : Kernel) (i : Nat) (k' : Kernel) (r : Nat) :
      ReachedOK fuel k → i < 2 ^ 64 → xa_erase fuel k i = some (k', r) → ReachedOK fuel k'
  | set_tag (k : Kernel) (i t : Nat) (k' : Kernel) :
      ReachedOK fuel k → i < 2 ^ 64 → t < 3 → xa_set_tag fuel k i t = some k' →
      ReachedOK fuel k'
  | clear_tag (k : Kernel) (i t : Nat) (k' : Kernel) :
      ReachedOK fuel k → i < 2 ^ 64 → t < 3 → xa_clear_tag fuel k i t = some k' →
      ReachedOK fuel k'

/-- The array after a store at index 64 that went through two retry rounds:
the cache refuses every `GFP_NOWAIT` request. -/
def ex_retry : Kernel := ex_after (xa_store 64 ex_nowait 64 8 1) ex_nowait

/-! ## Pausing a walk and looking for conflicts (lib/xarray.c) -/

/-- `XA_STATE_ORDER(name, array, index, order)`; `xa_shift` and `xa_sibs` are
`unsigned char`. -/
def XA_STATE_ORDER (index order : Nat) : xa_state :=
  { xa_index := ((index >>> order) <<< order) % WORD,
    xa_shift := (order - order % XA_CHUNK_SHIFT) % 256,
    xa_sibs := ((1 <<< (order % XA_CHUNK_SHIFT)) - 1) % 256,
    xa_offset := 0, xa_node := XAS_RESTART, xa_alloc := 0 }

/-- The loop of `xas_pause`:
`while (++offset < XA_CHUNK_SIZE) if (!xa_is_sibling(xa_entry(xa, node, offset))) break;`. -/
def xas_pause_loop (k : Kernel) (node : Nat) : Nat → Nat → Option Nat
  | 0, _ => none
  | fuel + 1, offset =>
    if offset + 1 < XA_CHUNK_SIZE then
      if !xa_is_sibling (xa_entry k node (offset + 1)) then some (offset + 1)
      else xas_pause_loop k node fuel (offset + 1)
    else some (offset + 1)

/-- `xas_pause`.  The step `(offset - xa_offset) << node->shift` is computed in
`unsigned int`; the model keeps its low 32 bits (for a node shift of 32 or more
the C expression has no defined value). -/
def xas_pause (fuel : Nat) (k : Kernel) (xas : xa_state) : Option xa_state :=
  let node := xas.xa_node
  if xas_invalid xas then some xas
  else if node ≠ 0 then
    match xas_pause_loop k node fuel xas.xa_offset with
    | none => none
    | some offset =>
      some { xas with
        xa_index :=
          (xas.xa_index + ((offset - xas.xa_offset) <<< (k.mem node).shift) % 2 ^ 32) % WORD,
        xa_node := XAS_RESTART }
  else some { xas with xa_index := (xas.xa_index + 1) % WORD, xa_node := XAS_RESTART }

/-- The first loop of `xas_find_conflict`:
`while (xa_is_node(curr)) curr = xas_descend(xas, xa_to_node(curr));`. -/
def xas_find_conflict_walk (k : Kernel) : Nat → xa_state → Nat → Option (xa_state × Nat)
  | 0, _, _ => none
  | fuel + 1, xas, curr =>
    if xa_is_node curr then
      let r := xas_descend k xas (xa_to_node curr)
      xas_find_conflict_walk k fuel r.1 r.2
    else some (xas, curr)

/-- The inner loop of the scan of `xas_find_conflict`:
`while (xa_is_node(curr)) { xa_node = xa_to_node(curr); xa_offset = 0; curr = xa_entry(xa, xa_node, 0); }`. -/
def xas_find_conflict_down (k : Kernel) : Nat → xa_state → Nat → Option (xa_state × Nat)
  | 0, _, _ => none
  | fuel + 1, xas, curr =>
    if xa_is_node curr then
      let node := xa_to_node curr
      xas_find_conflict_down k fuel { xas with xa_node := node, xa_offset := 0 }
        (xa_entry k node 0)
    else some (xas, curr)

/-- The end of `xas_find_conflict` after the scan: `xa_offset -= xa_sibs; return NULL;`
(in `unsigned char`). -/
def xas_find_conflict_out (xas : xa_state) : xa_state × Nat :=
  ({ xas with xa_offset := (xas.xa_offset + 256 - xas.xa_sibs) % 256 }, 0)

/-- One step of the scan of `xas_find_conflict` from `++xas->xa_offset` on:
the entry in the next slot is skipped when it is a sibling entry, else the
walk goes down through slot 0 of every node below it; a non-NULL entry is
returned, otherwise the scan goes on (`loop`). -/
def xas_find_conflict_next (k : Kernel) (F : Nat) (loop : xa_state → Option (xa_state × Nat))
    (xas : xa_state) : Option (xa_state × Nat) :=
  let xas := { xas with xa_offset := (xas.xa_offset + 1) % 256 }
  let curr := xa_entry k xas.xa_node xas.xa_offset
  if xa_is_sibling curr then loop xas
  else
    match xas_find_conflict_down k F xas curr with
    | none => none
    | some (xas, curr) => if curr ≠ 0 then some (xas, curr) else loop xas

/-- The scan `for (;;)` of `xas_find_conflict`. -/
def xas_find_conflict_loop (k : Kernel) (F : Nat) : Nat → xa_state → Option (xa_state × Nat)
  | 0, _ => none
  | fuel + 1, xas =>
    if (k.mem xas.xa_node).shift = xas.xa_shift then
      if xas.xa_offset &&& xas.xa_sibs = xas.xa_sibs then some (xas_find_conflict_out xas)
      else xas_find_conflict_next k F (xas_find_conflict_loop k F fuel) xas
    else if xas.xa_offset = XA_CHUNK_MASK then
      let xas := { xas with xa_offset := (k.mem xas.xa_node).offset,
                            xa_node := (k.mem xas.xa_node).parent }
      if xas.xa_node = 0 then some (xas_find_conflict_out xas)
      else xas_find_conflict_loop k F fuel xas
    else xas_find_conflict_next k F (xas_find_conflict_loop k F fuel) xas

/-- The part of `xas_find_conflict` after the first walk. -/
def xas_find_conflict_scan (fuel : Nat) (k : Kernel) (xas : xa_state) :
    Option (xa_state × Nat) :=
  if (k.mem xas.xa_node).shift > xas.xa_shift then some (xas, 0)
  else xas_find_conflict_loop k fuel fuel xas

/-- `xas_find_conflict`: the cursor and the entry found (`NULL` if none). -/
def xas_find_conflict (fuel : Nat) (k : Kernel) (xas : xa_state) : Option (xa_state × Nat) :=
  if xas_error xas ≠ 0 then some (xas, 0)
  else if xas.xa_node = 0 then some (xas, 0)
  else if xas_top xas.xa_node then
    let r := xas_start k xas
    if r.2 = 0 then some (r.1, 0)
    else
      match xas_find_conflict_walk k fuel r.1 r.2 with
      | none => none
      | some (xas, curr) =>
        if curr ≠ 0 then some (xas, curr) else xas_find_conflict_scan fuel k xas
  else xas_find_conflict_scan fuel k xas

/-- `xas_for_each_conflict`: the entries found, in order, until `xas_find_conflict`
returns `NULL`. -/
def xas_for_each_conflict (F : Nat) (k : Kernel) : Nat → xa_state → Option (List Nat)
  | 0, _ => none
  | fuel + 1, xas =>
    match xas_find_conflict F k xas with
    | none => none
    | some (xas, entry) =>
      if entry = 0 then some []
      else (xas_for_each_conflict F k fuel xas).map fun l => entry :: l

/-! ## Example states for the node counters, squashed tags and pausing -/

/-- The value entry `xa_mk_value(5)` stored with order 2 at index 8 of the empty
array (indices 8 to 11) by `xas_store`. -/
def ex_value_range : Kernel :=
  ex_after ((xas_store 64 ex_empty (xas_set_order (XA_STATE 0) 8 2) (xa_mk_value 5)).map
    fun r => (r.1, r.2.2)) ex_empty

/-- The state `ex_value_range` after the pointer 4096 is stored at index 8 by
`xas_store` on a cursor of order 0. -/
def ex_value_over : Kernel :=
  ex_after ((xas_store 64 ex_value_range (XA_STATE 8) 4096).map
    fun r => (r.1, r.2.2)) ex_value_range

/-- A cursor on the slot 8 of the node at 4096, set up for an entry of order 1
(`xa_sibs == 1`). -/
def ex_cursor_pair : xa_state :=
  { xa_index := 8, xa_shift := 0, xa_sibs := 1, xa_offset := 8, xa_node := 4096, xa_alloc := 0 }

/-- The entry 24 stored with order 6 at index 64 of the empty array (indices 64
to 127) by `xas_store`. -/
def ex_wide : Kernel :=
  ex_after ((xas_store 64 ex_empty (xas_set_order (XA_STATE 0) 64 6) 24).map
    fun r => (r.1, r.2.2)) ex_empty

/-- The state `ex_wide` after `xa_store(&xa, 128, 8, 0)`. -/
def ex_wide_next : Kernel := ex_after (xa_store 64 ex_wide 128 8 0) ex_wide

/-- The entry 8 at the index `ULONG_MAX`. -/
def ex_last : Kernel := ex_after (xa_store 64 ex_empty (2 ^ 64 - 1) 8 0) ex_empty

/-- The cursor after `xas_load` (the cursor handed in, should it not return). -/
def ex_loaded (k : Kernel) (xas : xa_state) : xa_state :=
  ((xas_load 64 k xas).map Prod.fst).getD xas

/-- The cursor after `xas_load` and `xas_pause`. -/
def ex_paused (k : Kernel) (xas : xa_state) : xa_state :=
  (xas_pause 64 k (ex_loaded k xas)).getD xas

/-- The array states reached from an array initialised with no tag flags by
`xa_store`, `xa_erase`, `xa_set_tag` and `xa_clear_tag`, whatever the node
cache grants and whatever the calls return. -/
inductive ReachedAny (fuel : Nat) : Kernel → Prop
  | init (addr flags base : Nat) (grant : Nat → Nat → Bool) :
      base % 4 = 0 → 4096 ≤ base → flags < 2 ^ 25 →
      ReachedAny fuel (xa_init_flags addr flags base grant)
  | store (k : Kernel) (i e gfp : Nat) (k' : Kernel) (r : Nat) :
      ReachedAny fuel k → i < 2 ^ 64 → xa_store fuel k i e gfp = some (k', r) →
      ReachedAny fuel k'
  | erase (k : Kernel) (i : Nat) (k' : Kernel) (r : Nat) :
      ReachedAny fuel k → i < 2 ^ 64 → xa_erase fuel k i = some (k', r) → ReachedAny fuel k'
  | set_tag (k : Kernel) (i t : Nat) (k' : Kernel) :
      ReachedAny fuel k → i < 2 ^ 64 → t < 3 → xa_set_tag fuel k i t = some k' →
      ReachedAny fuel k'
  | clear_tag (k : Kernel) (i t : Nat) (k' : Kernel) :
      ReachedAny fuel k → i < 2 ^ 64 → t < 3 → xa_clear_tag fuel k i t = some k' →
      ReachedAny fuel k'

/-! ## What `xas_free_nodes` leaves behind -/

/-- The content of a slot after `xas_free_nodes` has passed it: node pointers
and `NULL` stay, every other entry is replaced by the retry entry. -/
def free_slot (e : Nat) : Nat := if xa_is_node e = true ∨ e = 0 then e else XA_RETRY_ENTRY

/-- What `xas_free_nodes` may have done between the states `k` and `k'`: it
writes retry entries over entries that are neither `NULL` nor node pointers,
clears the counters of nodes and marks nodes as freed; everything else but
the list of `call_rcu` calls is left alone. -/
structure FreeMono (k k' : Kernel) : Prop where
  addr : k'.xa_addr = k.xa_addr
  head : k'.xa_head = k.xa_head
  flags : k'.xa_flags = k.xa_flags
  next : k'.slab_next = k.slab_next
  calls : k'.slab_calls = k.slab_calls
  grant : k'.slab_grant = k.slab_grant
  cache : k'.cache_freed = k.cache_freed
  shift : ∀ z, (k'.mem z).shift = (k.mem z).shift
  offset : ∀ z, (k'.mem z).offset = (k.mem z).offset
  parent : ∀ z, (k'.mem z).parent = (k.mem z).parent
  tags : ∀ z, (k'.mem z).tags = (k.mem z).tags
  slots : ∀ z q, (k'.mem z).slots q = (k.mem z).slots q ∨
    ((k.mem z).slots q ≠ 0 ∧ xa_is_node ((k.mem z).slots q) = false ∧
      (k'.mem z).slots q = XA_RETRY_ENTRY)
  count : ∀ z, (k'.mem z).count = (k.mem z).count ∨ (k'.mem z).count = 0
  values : ∀ z, (k'.mem z).nr_values = (k.mem z).nr_values ∨ (k'.mem z).nr_values = 0
  array : ∀ z, (k'.mem z).array = (k.mem z).array ∨ (k'.mem z).array = XA_RCU_FREE

/-- The node `n` is what `xas_free_nodes` makes of the node `n0`: the counters
are zero, the node is marked as freed, every slot that held an entry other
than a node pointer holds the retry entry, and the rest is as it was. -/
def FreedNode (n0 n : xa_node) : Prop :=
  n.count = 0 ∧ n.nr_values = 0 ∧ n.array = XA_RCU_FREE ∧ n.shift = n0.shift ∧
  n.offset = n0.offset ∧ n.parent = n0.parent ∧ n.tags = n0.tags ∧
  ∀ q, q < 64 → n.slots q = free_slot (n0.slots q)

/-- The links of a subtree: every node found in a slot of a node of the subtree
names that node and that slot as its parent and offset, and lies on a lower
level. -/
def SubtreeOK (k : Kernel) (top : Nat) : Prop :=
  ∀ x, Under k top x → ∀ o, o < 64 → xa_is_node ((k.mem x).slots o) = true →
    (k.mem (xa_to_node ((k.mem x).slots o))).parent = x ∧
    (k.mem (xa_to_node ((k.mem x).slots o))).offset = o ∧
    (k.mem (xa_to_node ((k.mem x).slots o))).shift < (k.mem x).shift

/-- The array after `xa_store(&xa, 1000000, e, 0)` on the empty array, for the
entry `e = 8`. -/
def ex_million : Kernel := ex_after (xa_store 64 ex_empty 1000000 8 0) ex_empty

/-- The array states reached from an array initialised with no tag flags by the
calls of the normal API that change the array (`xa_store`, `xa_erase`,
`xa_cmpxchg`, `xa_insert`, `xa_set_tag`, `xa_clear_tag`), whatever the node
cache grants and whatever the calls return. -/
inductive ReachedAPI (fuel : Nat) : Kernel → Prop
  | init (addr flags base : Nat) (grant : Nat → Nat → Bool) :
      base % 4 = 0 → 4096 ≤ base → flags < 2 ^ 25 →
      ReachedAPI fuel (xa_init_flags addr flags base grant)
  | store (k : Kernel) (i e gfp : Nat) (k' : Kernel) (r : Nat) :
      ReachedAPI fuel k → i < 2 ^ 64 → xa_store fuel k i e gfp = some (k', r) →
      ReachedAPI fuel k'
  | erase (k : Kernel) (i : Nat) (k' : Kernel) (r : Nat) :
      ReachedAPI fuel k → i < 2 ^ 64 → xa_erase fuel k i = some (k', r) → ReachedAPI fuel k'
  | cmpxchg (k : Kernel) (i old e gfp : Nat) (k' : Kernel) (r : Nat) :
      ReachedAPI fuel k → i < 2 ^ 64 → xa_cmpxchg fuel k i old e gfp = some (k', r) →
      ReachedAPI fuel k'
  | insert (k : Kernel) (i e gfp : Nat) (k' : Kernel) (r : Int) :
      ReachedAPI fuel k → i < 2 ^ 64 → xa_insert fuel k i e gfp = some (k', r) →
      ReachedAPI fuel k'
  | set_tag (k : Kernel) (i t : Nat) (k' : Kernel) :
      ReachedAPI fuel k → i < 2 ^ 64 → t < 3 → xa_set_tag fuel k i t = some k' →
      ReachedAPI fuel k'
  | clear_tag (k : Kernel) (i t : Nat) (k' : Kernel) :
      ReachedAPI fuel k → i < 2 ^ 64 → t < 3 → xa_clear_tag fuel k i t = some k' →
      ReachedAPI fuel k'

/-! ## The scan of `xas_find_conflict` -/

/-- The cursor of `xas_find_conflict` during the scan: it is on slot `o` of the
live node `x`, which lies on the level of the cursor's range or below it and
holds the indices of block `B`. -/
structure ConflictCur (k : Kernel) (L : Nat → Prop) (S m : Nat) (xas : xa_state)
    (x B o : Nat) : Prop where
  live : L x
  block : NodeBlock k x B
  node : xas.xa_node = x
  offset : xas.xa_offset = o
  lt : o < 64
  shift : xas.xa_shift = S
  sibs : xas.xa_sibs = m
  level : (k.mem x).shift ≤ S

/-- Every index from `a` up to `b - 1` reads `NULL`. -/
def NullIn (k : Kernel) (a b : Nat) : Prop :=
  ∀ j w, a ≤ j → j < b → Loc k j w → entry_at k w = 0

/-- Sibling runs are aligned, as `xas_store` lays them out: a sibling entry
pointing to slot `t` lies in a block of `2 ^ r` slots that starts at `t`, `t`
is a multiple of `2 ^ r`, and every slot of the block after `t` holds that
sibling entry. -/
def Aligned (k : Kernel) (L : Nat → Prop) : Prop :=
  ∀ x, L x → ∀ o, o < 64 → xa_is_sibling ((k.mem x).slots o) = true →
    ∃ r, xa_to_sibling ((k.mem x).slots o) % 2 ^ r = 0 ∧
      o < xa_to_sibling ((k.mem x).slots o) + 2 ^ r ∧
      xa_to_sibling ((k.mem x).slots o) + 2 ^ r ≤ 64 ∧
      ∀ p, xa_to_sibling ((k.mem x).slots o) < p →
        p < xa_to_sibling ((k.mem x).slots o) + 2 ^ r → (k.mem x).slots p = (k.mem x).slots o

/-- A well-formed array whose sibling runs are aligned. -/
def WFA (k : Kernel) : Prop := ∃ L, Inv k L ∧ Aligned k L

/-- Every index from `a` up to `b - 1` reads `NULL` or ends at a place of `P`. -/
def SeenIn (k : Kernel) (P : Place → Prop) (a b : Nat) : Prop :=
  ∀ j w, a ≤ j → j < b → Loc k j w → entry_at k w = 0 ∨ P w

/-- The sibling entries after slot `o` of node `x` that point to `o` or below
belong to a place of `P`. -/
def RunSeen (k : Kernel) (P : Place → Prop) (x o : Nat) : Prop :=
  ∀ p, o < p → p < 64 → xa_is_sibling ((k.mem x).slots p) = true →
    canon (k.mem x) p ≤ o → P (Place.slot x (canon (k.mem x) p))

/-- The outcome of one scan of `xas_find_conflict` over the indices from `E` up
to `hiX - 1`, the places of `P` having been returned before: `NULL` when all of
them read `NULL` or end at a place of `P`, else the first other entry, with the
cursor on its slot. -/
def ConflictResA (k : Kernel) (L : Nat → Prop) (S m hiX E : Nat) (P : Place → Prop)
    (xas : xa_state) (e : Nat) : Prop :=
  (e = 0 ∧ SeenIn k P E hiX) ∨
  (e ≠ 0 ∧ ∃ y By q, ConflictCur k L S m xas y By q ∧ e = (k.mem y).slots q ∧
    xa_is_node e = false ∧ xa_is_sibling e = false ∧
    E ≤ (64 * By + q) * 2 ^ (k.mem y).shift ∧ (64 * By + q) * 2 ^ (k.mem y).shift < hiX ∧
    SeenIn k P E ((64 * By + q) * 2 ^ (k.mem y).shift))

/-- Entries 8, 12 and 16 at the indices 8, 9 and 70 (two leaf nodes under a
root node), index 9 tagged with tag 0. -/
def ex_far_tagged : Kernel :=
  ((xa_store 64 ex_empty 8 8 0).bind fun a => (xa_store 64 a.1 9 12 0).bind fun b =>
    (xa_store 64 b.1 70 16 0).bind fun c => xa_set_tag 64 c.1 9 0).getD ex_empty

/-- The state `ex_far_tagged` after the entry 24 is stored with order 1 at
index 8 (indices 8 and 9) by `xas_store`, and `xa_erase(&xa, 8)` after that:
the leaf node of the indices 0 to 63 is gone, the tag bit of its slot in the
root node is still set. -/
def ex_stale : Kernel :=
  (((xas_store 64 ex_far_tagged (xas_set_order (XA_STATE 0) 8 1) 24).bind fun a =>
    xa_erase 64 a.1 8).map Prod.fst).getD ex_far_tagged

/-- The state `ex_stale` after `xa_store(&xa, 5, 20, 0)`. -/
def ex_stale_stored : Kernel := ex_after (xa_store 64 ex_stale 5 20 0) ex_stale

/-- The state `ex_retry` (a node cache that refuses `GFP_NOWAIT` requests, the
entry 8 stored at index 64 through rounds of `xas_nomem`) after
`xa_store(&xa, 1000000, 12, GFP_NOWAIT)`, which fails with `-ENOMEM`, and
`xa_set_tag(&xa, 64, 1)`. -/
def ex_refused : Kernel :=
  ((xa_store 64 ex_retry 1000000 12 GFP_NOWAIT_NOWARN).bind fun a =>
    xa_set_tag 64 a.1 64 1).getD ex_retry

/-! ## Theorems -/

theorem and3 (e : Nat) : e &&& 3 = e % 4 := by
  have := Nat.and_pow_two_sub_one_eq_mod e 2
  simpa using this

theorem and63 (e : Nat) : e &&& 63 = e % 64 := by
  have := Nat.and_pow_two_sub_one_eq_mod e 6
  simpa using this

theorem xa_is_internal_iff (e : Nat) : xa_is_internal e = true ↔ e % 4 = 2 := by
  simp [xa_is_internal, and3]

theorem xa_is_node_iff (e : Nat) : xa_is_node e = true ↔ e % 4 = 2 ∧ 4096 < e := by
  simp [xa_is_node, xa_is_internal_iff]

theorem xa_mk_sibling_63 : xa_mk_sibling 63 = 254 := by
  decide

theorem xa_is_sibling_iff (e : Nat) : xa_is_sibling e = true ↔ e % 4 = 2 ∧ e < 254 := by
  simp [xa_is_sibling, xa_is_internal_iff, xa_mk_sibling_63]

theorem or2_of_aligned (a : Nat) (h : a % 4 = 0) : a ||| 2 = a + 2 := by
  apply Nat.eq_of_testBit_eq
  intro i
  have h4 : a = 4 * (a / 4) := by omega
  rw [h4]
  generalize a / 4 = b
  have e1 : 4 * b = b <<< 2 := by rw [Nat.shiftLeft_eq]; omega
  have e2 : 4 * b + 2 = (2 * b + 1) <<< 1 := by rw [Nat.shiftLeft_eq]; omega
  rw [Nat.testBit_or, e2, e1, Nat.testBit_shiftLeft, Nat.testBit_shiftLeft]
  rcases i with _ | _ | i
  · simp
  · simp [Nat.testBit_succ]
    omega
  · simp [Nat.testBit_succ]
    have : (2 * b + 1) / 2 = b := by omega
    simp [this]

theorem xa_mk_node_eq (a : Nat) (h : a % 4 = 0) : xa_mk_node a = a + 2 := by
  exact or2_of_aligned a h

theorem test_set_bit (o j w : Nat) :
    test_bit j (set_bit o w) = (test_bit j w || decide (o = j)) := by
  simp [test_bit, set_bit, Nat.one_shiftLeft, Nat.testBit_two_pow]

theorem test_clear_bit (o j w : Nat) (hj : j < 64) :
    test_bit j (clear_bit o w) = (test_bit j w && !decide (o = j)) := by
  simp [test_bit, clear_bit, Nat.one_shiftLeft, Nat.testBit_two_pow, hj]

theorem bitmap_empty_iff (w : Nat) :
    bitmap_empty w 64 = true ↔ ∀ o, o < 64 → test_bit o w = false := by
  simp only [bitmap_empty, beq_iff_eq, test_bit]
  constructor
  · intro h o ho
    have := Nat.testBit_mod_two_pow w 64 o
    rw [h] at this
    simpa [ho] using this.symm
  · intro h
    apply Nat.eq_of_testBit_eq
    intro i
    rw [Nat.testBit_mod_two_pow]
    by_cases hi : i < 64
    · simp [hi, h i hi]
    · simp [hi]

@[simp] theorem setNode_mem (k : Kernel) (a : Nat) (n : xa_node) (x : Nat) :
    (k.setNode a n).mem x = if x = a then n else k.mem x := by
  rfl

@[simp] theorem setNode_head (k : Kernel) (a : Nat) (n : xa_node) :
    (k.setNode a n).xa_head = k.xa_head := by
  rfl

@[simp] theorem setNode_flags (k : Kernel) (a : Nat) (n : xa_node) :
    (k.setNode a n).xa_flags = k.xa_flags := by
  rfl

@[simp] theorem setNode_slab_next (k : Kernel) (a : Nat) (n : xa_node) :
    (k.setNode a n).slab_next = k.slab_next := by
  rfl

@[simp] theorem setNode_slab_grant (k : Kernel) (a : Nat) (n : xa_node) :
    (k.setNode a n).slab_grant = k.slab_grant := by
  rfl

@[simp] theorem setNode_xa_addr (k : Kernel) (a : Nat) (n : xa_node) :
    (k.setNode a n).xa_addr = k.xa_addr := by
  rfl

@[simp] theorem setNode_tagged (k : Kernel) (a : Nat) (n : xa_node) (t : Nat) :
    xa_tagged (k.setNode a n) t = xa_tagged k t := by
  rfl

theorem get_offset_lt (i : Nat) (n : xa_node) : get_offset i n < 64 := by
  unfold get_offset
  rw [and63]
  omega

theorem get_offset_eq (i : Nat) (n : xa_node) : get_offset i n = (i >>> n.shift) % 64 := by
  unfold get_offset
  rw [and63]

theorem node_any_tag_iff (n : xa_node) (t : Nat) :
    node_any_tag n t = true ↔ ∃ o, o < 64 ∧ node_get_tag n o t = true := by
  unfold node_any_tag node_get_tag
  have h := bitmap_empty_iff (n.tags t)
  constructor
  · intro h1
    by_contra hc
    push_neg at hc
    have : bitmap_empty (n.tags t) 64 = true := by
      rw [h]
      intro o ho
      have := hc o ho
      simpa using this
    simp [this] at h1
  · rintro ⟨o, ho, h2⟩
    by_contra hc
    have h3 : bitmap_empty (n.tags t) 64 = true := by simpa using hc
    rw [h] at h3
    rw [h3 o ho] at h2
    exact absurd h2 (by simp)

theorem node_any_tag_false_iff (n : xa_node) (t : Nat) :
    node_any_tag n t = false ↔ ∀ o, o < 64 → node_get_tag n o t = false := by
  have h := node_any_tag_iff n t
  constructor
  · intro h1 o ho
    by_contra hc
    have : node_any_tag n t = true := h.2 ⟨o, ho, by simpa using hc⟩
    rw [h1] at this
    exact absurd this (by simp)
  · intro h1
    by_contra hc
    obtain ⟨o, ho, h2⟩ := h.1 (by simpa using hc)
    rw [h1 o ho] at h2
    exact absurd h2 (by simp)

theorem is_node_add2 (x : Nat) (h1 : x % 4 = 0) (h2 : 4096 ≤ x) : xa_is_node (x + 2) = true := by
  rw [xa_is_node_iff]
  omega

theorem is_node_split (e : Nat) (h : xa_is_node e = true) :
    e = (e - 2) + 2 ∧ (e - 2) % 4 = 0 ∧ 4096 ≤ e - 2 := by
  rw [xa_is_node_iff] at h
  omega

theorem is_node_not_sibling (e : Nat) (h : xa_is_node e = true) : xa_is_sibling e = false := by
  rw [xa_is_node_iff] at h
  cases hs : xa_is_sibling e
  · rfl
  · rw [xa_is_sibling_iff] at hs
    omega

theorem is_node_internal (e : Nat) (h : xa_is_node e = true) : xa_is_internal e = true := by
  rw [xa_is_node_iff] at h
  rw [xa_is_internal_iff]
  exact h.1

theorem not_internal_not_node (e : Nat) (h : xa_is_internal e = false) : xa_is_node e = false := by
  cases hn : xa_is_node e
  · rfl
  · rw [is_node_internal e hn] at h
    exact absurd h (by simp)

theorem not_internal_not_sibling (e : Nat) (h : xa_is_internal e = false) :
    xa_is_sibling e = false := by
  simp [xa_is_sibling, h]

theorem visits_live {k : Kernel} {L : Nat → Prop} (hc : Core k L) {i x : Nat}
    (hv : Visits k i x) : L x := by
  induction hv with
  | root x hh hn _ =>
    have := (hc.head_node (by rw [hh]; exact hn)).1
    rw [hh] at this
    simpa using this
  | step x c _ hs hn ih =>
    have := ((hc.nodes x ih).child _ (get_offset_lt _ _) (by rw [hs]; exact hn)).1
    rw [hs] at this
    simpa using this

theorem shr_add6 (i s : Nat) : i >>> (s + 6) = (i >>> s) / 64 := by
  rw [Nat.shiftRight_add, Nat.shiftRight_eq_div_pow (i >>> s) 6]

theorem visits_inj {k : Kernel} {L : Nat → Prop} (hc : Core k L) {i j x : Nat}
    (hi : Visits k i x) (hj : Visits k j x) :
    i >>> ((k.mem x).shift + 6) = j >>> ((k.mem x).shift + 6) := by
  induction hi with
  | root x hh hn hb =>
    have hp : (k.mem x).parent = 0 := by
      have := (hc.head_node (by rw [hh]; exact hn)).2
      rw [hh] at this
      simpa using this
    cases hj with
    | root _ _ _ hb2 =>
      rw [shr_add6, shr_add6]
      simp only [XA_CHUNK_MASK] at hb hb2
      generalize i >>> (k.mem x).shift = A at *
      generalize j >>> (k.mem x).shift = B at *
      omega
    | step y _ hvy hs hn2 =>
      have hy := visits_live hc hvy
      have := ((hc.nodes y hy).child _ (get_offset_lt _ _) (by rw [hs]; exact hn2)).2.1
      rw [hs] at this
      simp at this
      have := (hc.nodes y hy).big
      omega
  | step y c hvy hs hn ih =>
    have hy := visits_live hc hvy
    have hch := (hc.nodes y hy).child _ (get_offset_lt _ _) (by rw [hs]; exact hn)
    rw [hs] at hch
    simp at hch
    have hybig := (hc.nodes y hy).big
    cases hj with
    | root _ hh hn2 hb2 =>
      have := (hc.head_node (by rw [hh]; exact hn2)).2
      rw [hh] at this
      simp at this
      omega
    | step y2 _ hvy2 hs2 hn2 =>
      have hy2 := visits_live hc hvy2
      have hch2 := (hc.nodes y2 hy2).child _ (get_offset_lt _ _) (by rw [hs2]; exact hn2)
      rw [hs2] at hch2
      simp at hch2
      have hyy : y2 = y := by rw [← hch2.2.1, ← hch.2.1]
      subst hyy
      have e1 := ih hvy2
      have hc' := visits_live hc (Visits.step y2 c hvy hs hn)
      have hup := (hc.nodes c hc').up (by omega)
      have hsh := hup.2.2.2
      rw [hch.2.1] at hsh
      have o1 := hch.2.2
      have o2 := hch2.2.2
      rw [get_offset_eq] at o1 o2
      rw [hsh] at o1 o2 e1
      rw [shr_add6] at o1 o2
      rw [shr_add6, shr_add6] at e1
      rw [shr_add6 j, shr_add6 j] at e1
      rw [shr_add6, shr_add6]
      generalize i >>> (k.mem c).shift = A at *
      generalize j >>> (k.mem c).shift = B at *
      omega

theorem to_node_add2 (x : Nat) : xa_to_node (x + 2) = x := by
  simp [xa_to_node]

theorem xas_load_loop_leaf (k : Kernel) (fuel : Nat) (xas : xa_state) (e : Nat)
    (h : xa_is_node e = false) (hf : 0 < fuel) :
    xas_load_loop k fuel xas e = some (xas, e) := by
  obtain ⟨f, rfl⟩ : ∃ f, fuel = f + 1 := ⟨fuel - 1, by omega⟩
  simp [xas_load_loop, h]

theorem canon_ok {k : Kernel} {L : Nat → Prop} (hc : Core k L) {x : Nat} (hx : L x) (o : Nat)
    (ho : o < 64) (hn : xa_is_node ((k.mem x).slots o) = false) :
    canon (k.mem x) o < 64 ∧ xa_is_node ((k.mem x).slots (canon (k.mem x) o)) = false ∧
    xa_is_sibling ((k.mem x).slots (canon (k.mem x) o)) = false := by
  unfold canon
  by_cases hs : xa_is_sibling ((k.mem x).slots o) = true
  · simp only [hs, if_true]
    have hint : xa_is_internal ((k.mem x).slots o) = true := by
      rw [xa_is_sibling_iff] at hs
      rw [xa_is_internal_iff]
      exact hs.1
    obtain ⟨_, h2, h3, _, _⟩ := (hc.nodes x hx).sib o ho hint hn
    exact ⟨by omega, not_internal_not_node _ h3, not_internal_not_sibling _ h3⟩
  · simp only [hs]
    simp at hs
    simp [ho, hn, hs]

theorem loc_slot_iff {k : Kernel} {i x o : Nat} :
    Loc k i (Place.slot x o) ↔
      Visits k i x ∧ o = canon (k.mem x) (get_offset i (k.mem x)) ∧
      xa_is_node ((k.mem x).slots o) = false := by
  exact Iff.rfl

theorem xas_descend_plain (k : Kernel) (xas : xa_state) (node : Nat)
    (h : xa_is_sibling ((k.mem node).slots (get_offset xas.xa_index (k.mem node))) = false) :
    xas_descend k xas node =
      ({ xas with xa_node := node, xa_offset := get_offset xas.xa_index (k.mem node) },
       (k.mem node).slots (get_offset xas.xa_index (k.mem node))) := by
  simp [xas_descend, xa_entry, h]

theorem xas_descend_sib (k : Kernel) (xas : xa_state) (node : Nat)
    (h : xa_is_sibling ((k.mem node).slots (get_offset xas.xa_index (k.mem node))) = true) :
    xas_descend k xas node =
      ({ xas_move_index k { xas with xa_node := node }
            (xa_to_sibling ((k.mem node).slots (get_offset xas.xa_index (k.mem node)))) with
          xa_offset := xa_to_sibling ((k.mem node).slots (get_offset xas.xa_index (k.mem node))) },
       (k.mem node).slots
         (xa_to_sibling ((k.mem node).slots (get_offset xas.xa_index (k.mem node))))) := by
  simp [xas_descend, xa_entry, h]

theorem xas_load_loop_spec {k : Kernel} {L : Nat → Prop} (hc : Core k L) (i : Nat) :
    ∀ fuel x xas, Visits k i x → (k.mem x).shift + 6 < 6 * fuel → xas.xa_index = i →
      xas.xa_shift = 0 →
      ∃ y o xas', xas_load_loop k fuel xas (x + 2) = some (xas', (k.mem y).slots o) ∧
        Loc k i (Place.slot y o) ∧ xas'.xa_node = y ∧ xas'.xa_offset = o ∧
        xas'.xa_shift = 0 ∧ xas'.xa_sibs = xas.xa_sibs ∧ xas'.xa_alloc = xas.xa_alloc ∧
        ((k.mem y).slots o = 0 → xas'.xa_index = i) := by
  intro fuel
  induction fuel with
  | zero => intro x xas _ h; omega
  | succ f ih =>
    intro x xas hv hf hi hs0
    subst hi
    have hx := visits_live hc hv
    have hnx := hc.nodes x hx
    have hnode : xa_is_node (x + 2) = true := is_node_add2 x hnx.align hnx.big
    have hf1 : 0 < f := by omega
    rw [xas_load_loop]
    simp only [hnode, if_true, to_node_add2, hs0]
    rw [if_neg (by omega)]
    by_cases hcn : xa_is_node ((k.mem x).slots (get_offset xas.xa_index (k.mem x))) = true
    · -- a child node
      have hsb := is_node_not_sibling _ hcn
      obtain ⟨e1, e2, e3⟩ := is_node_split _ hcn
      have hvc : Visits k xas.xa_index ((k.mem x).slots (get_offset xas.xa_index (k.mem x)) - 2) :=
        Visits.step x _ hv e1 (by rw [← e1]; exact hcn)
      have hcl := visits_live hc hvc
      have hup := (hc.nodes _ hcl).up (by
        rw [(hnx.child _ (get_offset_lt _ _) hcn).2.1]
        have := hnx.big
        omega)
      rw [(hnx.child _ (get_offset_lt _ _) hcn).2.1] at hup
      have hsh := hup.2.2.2
      have := ih ((k.mem x).slots (get_offset xas.xa_index (k.mem x)) - 2)
        { xas with xa_node := x, xa_offset := get_offset xas.xa_index (k.mem x) } hvc (by omega)
        rfl hs0
      obtain ⟨y, o, xas', h1, h2, h3, h4, h5, h6, h7, h8⟩ := this
      refine ⟨y, o, xas', ?_, h2, h3, h4, h5, h6, h7, h8⟩
      rw [xas_descend_plain _ _ _ hsb]
      rw [← e1] at h1
      exact h1
    · simp at hcn
      obtain ⟨c1, c2, c3⟩ := canon_ok hc hx _ (get_offset_lt xas.xa_index (k.mem x)) hcn
      by_cases hsb : xa_is_sibling ((k.mem x).slots (get_offset xas.xa_index (k.mem x))) = true
      · have hcan : canon (k.mem x) (get_offset xas.xa_index (k.mem x)) =
            xa_to_sibling ((k.mem x).slots (get_offset xas.xa_index (k.mem x))) := by
          simp [canon, hsb]
        rw [hcan] at c2
        rw [xas_descend_sib _ _ _ hsb]
        refine ⟨x, xa_to_sibling ((k.mem x).slots (get_offset xas.xa_index (k.mem x))), _,
          xas_load_loop_leaf _ _ _ _ c2 hf1, loc_slot_iff.2 ⟨hv, hcan.symm, c2⟩, ?_, ?_, ?_, ?_, ?_,
          ?_⟩
        · simp [xas_move_index]
        · simp [xas_move_index]
        · simp [xas_move_index, hs0]
        · simp [xas_move_index]
        · simp [xas_move_index]
        · intro h0
          have hint : xa_is_internal ((k.mem x).slots (get_offset xas.xa_index (k.mem x))) = true := by
            rw [xa_is_sibling_iff] at hsb
            rw [xa_is_internal_iff]
            exact hsb.1
          exact absurd h0 (hnx.sib _ (get_offset_lt _ _) hint hcn).2.2.2.1
      · simp at hsb
        have hcan : canon (k.mem x) (get_offset xas.xa_index (k.mem x)) =
            get_offset xas.xa_index (k.mem x) := by
          simp [canon, hsb]
        rw [xas_descend_plain _ _ _ hsb]
        refine ⟨x, get_offset xas.xa_index (k.mem x), _,
          xas_load_loop_leaf _ _ _ _ hcn hf1, loc_slot_iff.2 ⟨hv, hcan.symm, hcn⟩, ?_, ?_, ?_, ?_, ?_,
          ?_⟩
        all_goals simp [hs0]

theorem xas_start_fresh (k : Kernel) (i : Nat) :
    xas_start k (XA_STATE i) =
      if xa_is_node k.xa_head = true then
        if (i >>> (k.mem (xa_to_node k.xa_head)).shift) > XA_CHUNK_MASK then
          ({ XA_STATE i with xa_node := XAS_BOUNDS }, 0)
        else ({ XA_STATE i with xa_node := 0 }, k.xa_head)
      else
        if i ≠ 0 then ({ XA_STATE i with xa_node := XAS_BOUNDS }, 0)
        else ({ XA_STATE i with xa_node := 0 }, k.xa_head) := by
  have h1 : xas_valid (XA_STATE i) = false := by
    simp [xas_valid, xas_invalid, XA_STATE]
  have h2 : xas_error (XA_STATE i) = 0 := by
    simp [xas_error, XA_STATE, xa_err, xa_is_err, xa_is_internal]
  unfold xas_start
  rw [h1, h2]
  simp only [Bool.false_eq_true, if_false, ne_eq, not_true, xa_head, set_bounds]
  have h3 : (XA_STATE i).xa_index = i := rfl
  rw [h3]
  by_cases hn : xa_is_node k.xa_head = true
  · simp [hn]
  · simp [hn]

theorem xas_load_spec {k : Kernel} {L : Nat → Prop} (hc : Core k L) (i fuel : Nat)
    (hf : 12 ≤ fuel) :
    ∃ w xas', xas_load fuel k (XA_STATE i) = some (xas', entry_at k w) ∧ Loc k i w ∧
      xas'.xa_node = w.node ∧ xas'.xa_offset = w.offset ∧ xas'.xa_shift = 0 ∧
      xas'.xa_sibs = 0 ∧ xas'.xa_alloc = 0 ∧
      ((entry_at k w = 0 ∨ w = Place.head) → xas'.xa_index = i) := by
  unfold xas_load
  rw [xas_start_fresh]
  by_cases hn : xa_is_node k.xa_head = true
  · obtain ⟨e1, e2, e3⟩ := is_node_split _ hn
    have hr := (hc.head_node hn).1
    have hnr := hc.nodes _ hr
    rw [if_pos hn]
    by_cases hb : (i >>> (k.mem (xa_to_node k.xa_head)).shift) > XA_CHUNK_MASK
    · rw [if_pos hb]
      simp only []
      rw [xas_load_loop_leaf _ _ _ _ (by decide) (by omega)]
      exact ⟨Place.bounds, _, rfl, Or.inr ⟨hn, hb⟩, rfl, rfl, rfl, rfl, rfl, fun _ => rfl⟩
    · rw [if_neg hb]
      simp only []
      have hv : Visits k i (k.xa_head - 2) :=
        Visits.root _ e1 (by rw [← e1]; exact hn) (by
          simp only [xa_to_node] at hb
          omega)
      have hs := hnr.shift_le
      obtain ⟨y, o, xas', h1, h2, h3, h4, h5, h6, h7, h8⟩ :=
        xas_load_loop_spec hc i fuel _ { XA_STATE i with xa_node := 0 } hv (by omega) rfl rfl
      rw [← e1] at h1
      exact ⟨Place.slot y o, xas', h1, h2, h3, h4, h5, h6, h7,
        fun h => h8 (h.resolve_right (by simp))⟩
  · rw [if_neg hn]
    simp at hn
    by_cases h0 : i = 0
    · rw [if_neg (by simpa using h0)]
      simp only []
      rw [xas_load_loop_leaf _ _ _ _ hn (by omega)]
      exact ⟨Place.head, _, rfl, ⟨hn, h0⟩, rfl, rfl, rfl, rfl, rfl, fun _ => h0 ▸ rfl⟩
    · rw [if_pos h0]
      simp only []
      rw [xas_load_loop_leaf _ _ _ _ (by decide) (by omega)]
      exact ⟨Place.bounds, _, rfl, Or.inl ⟨hn, h0⟩, rfl, rfl, rfl, rfl, rfl, fun _ => rfl⟩

theorem visits_child_shift {k : Kernel} {L : Nat → Prop} (hc : Core k L) {i y c : Nat}
    (hv : Visits k i y) (hs : (k.mem y).slots (get_offset i (k.mem y)) = c + 2)
    (hn : xa_is_node (c + 2) = true) :
    (k.mem y).shift = (k.mem c).shift + 6 ∧ (k.mem c).parent = y ∧
      (k.mem c).offset = get_offset i (k.mem y) ∧ L c ∧ L y := by
  have hy := visits_live hc hv
  have hch := (hc.nodes y hy).child _ (get_offset_lt _ _) (by rw [hs]; exact hn)
  rw [hs] at hch
  simp at hch
  have hup := (hc.nodes c hch.1).up (by
    have := (hc.nodes y hy).big
    omega)
  rw [hch.2.1] at hup
  exact ⟨hup.2.2.2, hch.2.1, hch.2.2, hch.1, hy⟩

theorem visits_shift_le_root {k : Kernel} {L : Nat → Prop} (hc : Core k L) {i x : Nat}
    (hv : Visits k i x) : (k.mem x).shift ≤ (k.mem (k.xa_head - 2)).shift := by
  induction hv with
  | root x hh hn hb =>
    rw [hh]
    simp
  | step y c hvy hs hn ih =>
    have := (visits_child_shift hc hvy hs hn).1
    omega

theorem visits_same_shift {k : Kernel} {L : Nat → Prop} (hc : Core k L) {i x x' : Nat}
    (hv : Visits k i x) (hv' : Visits k i x') (he : (k.mem x).shift = (k.mem x').shift) :
    x = x' := by
  induction hv generalizing x' with
  | root x hh hn hb =>
    cases hv' with
    | root _ hh' _ _ => omega
    | step y' _ hvy' hs' hn' =>
      have h1 := (visits_child_shift hc hvy' hs' hn').1
      have h2 := visits_shift_le_root hc hvy'
      rw [hh] at h2
      simp at h2
      omega
  | step y c hvy hs hn ih =>
    have h1 := (visits_child_shift hc hvy hs hn).1
    cases hv' with
    | root _ hh' _ _ =>
      have h2 := visits_shift_le_root hc hvy
      rw [hh'] at h2
      simp at h2
      omega
    | step y' _ hvy' hs' hn' =>
      have h2 := (visits_child_shift hc hvy' hs' hn').1
      have := ih hvy' (by omega)
      subst this
      rw [hs] at hs'
      omega

theorem visits_deeper {k : Kernel} {L : Nat → Prop} (hc : Core k L) {i x x' : Nat}
    (hv : Visits k i x) (hv' : Visits k i x') (hlt : (k.mem x').shift < (k.mem x).shift) :
    xa_is_node ((k.mem x).slots (get_offset i (k.mem x))) = true := by
  induction hv' with
  | root x' hh hn hb =>
    have h2 := visits_shift_le_root hc hv
    rw [hh] at h2
    simp at h2
    omega
  | step y' c hvy' hs' hn' ih =>
    have h1 := (visits_child_shift hc hvy' hs' hn').1
    have s1 := (hc.nodes _ (visits_live hc hv)).shift6
    have s2 := (hc.nodes _ (visits_live hc hvy')).shift6
    by_cases he : (k.mem x).shift = (k.mem y').shift
    · have := visits_same_shift hc hv hvy' he
      subst this
      rw [hs']
      exact hn'
    · exact ih (by omega)

theorem canon_raw_node {n : xa_node} {o : Nat} (h : xa_is_node (n.slots o) = true) :
    canon n o = o := by
  simp [canon, is_node_not_sibling _ h]

theorem loc_unique {k : Kernel} {L : Nat → Prop} (hc : Core k L) {i : Nat} {w w' : Place}
    (h : Loc k i w) (h' : Loc k i w') : w = w' := by
  have key : ∀ x o x' o', Loc k i (Place.slot x o) → Loc k i (Place.slot x' o') →
      (k.mem x).shift ≤ (k.mem x').shift → Place.slot x o = Place.slot x' o' := by
    intro x o x' o' h1 h2 hle
    obtain ⟨v1, c1, n1⟩ := loc_slot_iff.1 h1
    obtain ⟨v2, c2, n2⟩ := loc_slot_iff.1 h2
    by_cases he : (k.mem x).shift = (k.mem x').shift
    · have := visits_same_shift hc v1 v2 he
      subst this
      rw [c1, c2]
    · have hd := visits_deeper hc v2 v1 (by omega)
      rw [canon_raw_node hd] at c2
      rw [c2] at n2
      rw [hd] at n2
      exact absurd n2 (by simp)
  have root_of_visits : ∀ x, Visits k i x → xa_is_node k.xa_head = true ∧
      i >>> (k.mem (k.xa_head - 2)).shift ≤ XA_CHUNK_MASK := by
    intro x hv
    induction hv with
    | root x hh hn hb =>
      rw [hh]
      simp
      exact ⟨hn, hb⟩
    | step _ _ _ _ _ ih => exact ih
  cases w with
  | head =>
    cases w' with
    | head => rfl
    | bounds =>
      rcases h' with h' | h'
      · exact absurd h.2 h'.2
      · rw [h.1] at h'
        exact absurd h'.1 (by simp)
    | slot x' o' =>
      have := (root_of_visits x' (loc_slot_iff.1 h').1).1
      rw [h.1] at this
      exact absurd this (by simp)
  | bounds =>
    cases w' with
    | head =>
      rcases h with h | h
      · exact absurd h'.2 h.2
      · rw [h'.1] at h
        exact absurd h.1 (by simp)
    | bounds => rfl
    | slot x' o' =>
      have := root_of_visits x' (loc_slot_iff.1 h').1
      rcases h with h | h
      · rw [h.1] at this
        exact absurd this.1 (by simp)
      · have h2 := h.2
        have h3 := this.2
        simp only [XA_CHUNK_MASK] at h2 h3
        omega
  | slot x o =>
    cases w' with
    | head =>
      have := (root_of_visits x (loc_slot_iff.1 h).1).1
      rw [h'.1] at this
      exact absurd this (by simp)
    | bounds =>
      have := root_of_visits x (loc_slot_iff.1 h).1
      rcases h' with h' | h'
      · rw [h'.1] at this
        exact absurd this.1 (by simp)
      · have h2 := h'.2
        have h3 := this.2
        simp only [XA_CHUNK_MASK] at h2 h3
        omega
    | slot x' o' =>
      by_cases hle : (k.mem x).shift ≤ (k.mem x').shift
      · exact key x o x' o' h h' hle
      · exact (key x' o' x o h' h (by omega)).symm

theorem loc_slot_facts {k : Kernel} {L : Nat → Prop} (hc : Core k L) {i x o : Nat}
    (h : Loc k i (Place.slot x o)) :
    L x ∧ o < 64 ∧ xa_is_internal ((k.mem x).slots o) = false := by
  obtain ⟨v, c, n⟩ := loc_slot_iff.1 h
  have hx := visits_live hc v
  have hraw : xa_is_node ((k.mem x).slots (get_offset i (k.mem x))) = false := by
    cases hr : xa_is_node ((k.mem x).slots (get_offset i (k.mem x)))
    · rfl
    · rw [canon_raw_node hr] at c
      rw [c, hr] at n
      exact absurd n (by simp)
  obtain ⟨c1, c2, c3⟩ := canon_ok hc hx _ (get_offset_lt i (k.mem x)) hraw
  rw [← c] at c1 c2 c3
  refine ⟨hx, c1, ?_⟩
  cases hi : xa_is_internal ((k.mem x).slots o)
  · rfl
  · have := ((hc.nodes x hx).sib o c1 hi n).1
    rw [c3] at this
    exact absurd this (by simp)

theorem entry_at_not_internal {k : Kernel} {L : Nat → Prop} (hc : Core k L) {i : Nat} {w : Place}
    (h : Loc k i w) : xa_is_internal (entry_at k w) = false := by
  cases w with
  | head => exact (hc.head_leaf h.1).1
  | bounds =>
    show xa_is_internal 0 = false
    decide
  | slot x o => exact (loc_slot_facts hc h).2.2

theorem not_internal_not_retry (e : Nat) (h : xa_is_internal e = false) : xa_is_retry e = false := by
  cases hr : xa_is_retry e
  · rfl
  · simp only [xa_is_retry, beq_iff_eq] at hr
    rw [hr] at h
    exact absurd h (by decide)

theorem xa_load_spec {k : Kernel} {L : Nat → Prop} (hc : Core k L) (i fuel : Nat)
    (hf : 12 ≤ fuel) : ∃ w, Loc k i w ∧ xa_load fuel k i = some (entry_at k w) := by
  obtain ⟨w, xas', h1, h2, _⟩ := xas_load_spec hc i fuel hf
  refine ⟨w, h2, ?_⟩
  obtain ⟨f, rfl⟩ : ∃ f, fuel = f + 1 := ⟨fuel - 1, by omega⟩
  unfold xa_load
  rw [xa_load_loop, h1]
  simp [xas_retry, not_internal_not_retry _ (entry_at_not_internal hc h2)]

theorem xa_load_of_loc {k : Kernel} {L : Nat → Prop} (hc : Core k L) {i fuel : Nat} {w : Place}
    (hf : 12 ≤ fuel) (h : Loc k i w) : xa_load fuel k i = some (entry_at k w) := by
  obtain ⟨w', h1, h2⟩ := xa_load_spec hc i fuel hf
  rw [loc_unique hc h h1]
  exact h2

theorem tag_at_entry {k : Kernel} {L : Nat → Prop} (hi : Inv k L) {i t : Nat} {w : Place}
    (ht : t < 3) (h : Loc k i w) (hb : tag_at k t w = true) : entry_at k w ≠ 0 := by
  cases w with
  | head =>
    intro h0
    have := hi.head_null h0 t ht
    simp only [tag_at] at hb
    rw [this] at hb
    exact absurd hb (by simp)
  | bounds => simp [tag_at] at hb
  | slot x o =>
    obtain ⟨hx, ho, _⟩ := loc_slot_facts hi.core h
    exact ((hi.core.nodes x hx).tag_null o t ho ht hb).1

theorem to_node_def (e : Nat) : xa_to_node e = e - 2 := by
  rfl

theorem xas_get_tag_at (k : Kernel) (xas : xa_state) (t x : Nat) (hx : x % 4 = 0) (hb : 4096 ≤ x)
    (h : xas.xa_node = x) :
    xas_get_tag k xas t = node_get_tag (k.mem x) xas.xa_offset t := by
  have h1 : xas_invalid xas = false := by
    simp only [xas_invalid, h, and3]
    simp
    omega
  simp only [xas_get_tag, h1, h]
  rw [if_neg (by simp), if_neg (by omega)]

theorem xa_get_tag_loop_spec {k : Kernel} {L : Nat → Prop} (hi : Inv k L) (i t : Nat) (ht : t < 3) :
    ∀ fuel x xas, Visits k i x → (k.mem x).shift + 6 < 6 * fuel → xas.xa_index = i →
      xas.xa_node = x → xas.xa_offset = canon (k.mem x) (get_offset i (k.mem x)) →
      ∃ y o, Loc k i (Place.slot y o) ∧
        xa_get_tag_loop k t fuel xas ((k.mem x).slots xas.xa_offset) =
          some (node_get_tag (k.mem y) o t) ∧
        (node_any_tag (k.mem x) t = false → node_get_tag (k.mem y) o t = false) := by
  intro fuel
  induction fuel with
  | zero => intro x xas _ h; omega
  | succ f ih =>
    intro x xas hv hf hidx hnode hoff
    subst hidx
    have hc := hi.core
    have hx := visits_live hc hv
    have hnx := hc.nodes x hx
    rw [xa_get_tag_loop, xas_get_tag_at k xas t x hnx.align hnx.big hnode]
    by_cases hcn : xa_is_node ((k.mem x).slots (get_offset xas.xa_index (k.mem x))) = true
    · have hcan := canon_raw_node hcn
      rw [hcan] at hoff
      obtain ⟨e1, e2, e3⟩ := is_node_split _ hcn
      have hn2 : xa_is_node ((k.mem x).slots (get_offset xas.xa_index (k.mem x)) - 2 + 2) = true := by
        rw [← e1]
        exact hcn
      obtain ⟨s1, s2, s3, s4, _⟩ := visits_child_shift hc hv e1 hn2
      have hvc := Visits.step x _ hv e1 hn2
      have hsb := is_node_not_sibling _ hcn
      have htu := hi.tags _ s4 t ht
      unfold TagUp at htu
      rw [if_neg (by rw [s2]; have := hnx.big; omega), s2, s3] at htu
      -- the raw entry of the child
      set c := (k.mem x).slots (get_offset xas.xa_index (k.mem x)) - 2 with hcdef
      have hraw : ∀ xs : xa_state, xs.xa_index = xas.xa_index →
          (xas_descend k xs c).1.xa_index = xas.xa_index ∨ True := fun _ _ => Or.inr trivial
      -- descend into the child
      have hdesc : ∃ xs', xas_descend k xas c =
            (xs', (k.mem c).slots xs'.xa_offset) ∧ xs'.xa_node = c ∧
            xs'.xa_offset = canon (k.mem c) (get_offset xas.xa_index (k.mem c)) ∧
            (xa_is_node ((k.mem c).slots (get_offset xas.xa_index (k.mem c))) = true →
              xs'.xa_index = xas.xa_index) := by
        by_cases hs2 : xa_is_sibling ((k.mem c).slots (get_offset xas.xa_index (k.mem c))) = true
        · rw [xas_descend_sib _ _ _ hs2]
          refine ⟨_, rfl, ?_, ?_, ?_⟩
          · simp [xas_move_index]
          · simp [canon, hs2]
          · intro hnn
            rw [is_node_not_sibling _ hnn] at hs2
            exact absurd hs2 (by simp)
        · simp at hs2
          rw [xas_descend_plain _ _ _ hs2]
          exact ⟨_, rfl, rfl, by simp [canon, hs2], fun _ => rfl⟩
      obtain ⟨xs', hd1, hd2, hd3, hd4⟩ := hdesc
      by_cases hcc : xa_is_node ((k.mem c).slots (get_offset xas.xa_index (k.mem c))) = true
      · obtain ⟨y, o, l1, l2, l3⟩ := ih c xs' hvc (by omega) (hd4 hcc) hd2 hd3
        refine ⟨y, o, l1, ?_, ?_⟩
        · rw [hoff, hcn]
          by_cases hbit : node_get_tag (k.mem x) (get_offset xas.xa_index (k.mem x)) t = true
          · simp only [hbit, if_true, Bool.not_true, Bool.false_eq_true, if_false]
            rw [to_node_def, hd1]
            exact l2
          · simp at hbit
            simp only [hbit, Bool.false_eq_true, if_false]
            rw [hbit] at htu
            rw [l3 htu.symm]
        · intro hany
          have := (node_any_tag_false_iff _ _).1 hany _ (get_offset_lt xas.xa_index (k.mem x))
          rw [this] at htu
          exact l3 htu.symm
      · -- the walk ends in the child
        simp at hcc
        obtain ⟨c1, c2, c3⟩ := canon_ok hc s4 _ (get_offset_lt xas.xa_index (k.mem c)) hcc
        have hloc : Loc k xas.xa_index (Place.slot c (canon (k.mem c) (get_offset xas.xa_index (k.mem c)))) :=
          loc_slot_iff.2 ⟨hvc, rfl, c2⟩
        have hf1 : 0 < f := by omega
        obtain ⟨f', rfl⟩ : ∃ f', f = f' + 1 := ⟨f - 1, by omega⟩
        refine ⟨c, _, hloc, ?_, ?_⟩
        · rw [hoff, hcn]
          by_cases hbit : node_get_tag (k.mem x) (get_offset xas.xa_index (k.mem x)) t = true
          · simp only [hbit, if_true, Bool.not_true, Bool.false_eq_true, if_false]
            rw [to_node_def, hd1, xa_get_tag_loop,
              xas_get_tag_at k xs' t c (hc.nodes c s4).align (hc.nodes c s4).big hd2, hd3, c2]
            by_cases hb2 : node_get_tag (k.mem c) (canon (k.mem c) (get_offset xas.xa_index (k.mem c))) t = true
            · simp [hb2]
            · simp at hb2
              simp [hb2]
          · simp at hbit
            simp only [hbit, Bool.false_eq_true, if_false]
            rw [hbit] at htu
            rw [(node_any_tag_false_iff _ _).1 htu.symm _ c1]
        · intro hany
          have := (node_any_tag_false_iff _ _).1 hany _ (get_offset_lt xas.xa_index (k.mem x))
          rw [this] at htu
          exact (node_any_tag_false_iff _ _).1 htu.symm _ c1
    · simp at hcn
      obtain ⟨c1, c2, c3⟩ := canon_ok hc hx _ (get_offset_lt xas.xa_index (k.mem x)) hcn
      refine ⟨x, _, loc_slot_iff.2 ⟨hv, rfl, c2⟩, ?_, ?_⟩
      · rw [hoff, c2]
        by_cases hbit : node_get_tag (k.mem x) (canon (k.mem x) (get_offset xas.xa_index (k.mem x))) t = true
        · simp [hbit]
        · simp at hbit
          simp [hbit]
      · intro hany
        exact (node_any_tag_false_iff _ _).1 hany _ c1

theorem xas_descend_spec (k : Kernel) (xas : xa_state) (c : Nat) :
    ∃ xs', xas_descend k xas c = (xs', (k.mem c).slots xs'.xa_offset) ∧ xs'.xa_node = c ∧
      xs'.xa_offset = canon (k.mem c) (get_offset xas.xa_index (k.mem c)) ∧
      (xa_is_sibling ((k.mem c).slots (get_offset xas.xa_index (k.mem c))) = false →
        xs'.xa_index = xas.xa_index) ∧
      xs'.xa_shift = xas.xa_shift ∧ xs'.xa_sibs = xas.xa_sibs ∧ xs'.xa_alloc = xas.xa_alloc := by
  by_cases hs2 : xa_is_sibling ((k.mem c).slots (get_offset xas.xa_index (k.mem c))) = true
  · rw [xas_descend_sib _ _ _ hs2]
    refine ⟨_, rfl, ?_, ?_, ?_, ?_, ?_, ?_⟩
    · simp [xas_move_index]
    · simp [canon, hs2]
    · intro hnn
      rw [hnn] at hs2
      exact absurd hs2 (by simp)
    all_goals simp [xas_move_index]
  · simp at hs2
    rw [xas_descend_plain _ _ _ hs2]
    exact ⟨_, rfl, rfl, by simp [canon, hs2], fun _ => rfl, rfl, rfl, rfl⟩

theorem xa_get_tag_spec {k : Kernel} {L : Nat → Prop} (hi : Inv k L) (i t fuel : Nat) (ht : t < 3)
    (hf : 13 ≤ fuel) : ∃ w, Loc k i w ∧ xa_get_tag fuel k i t = some (tag_at k t w) := by
  have hc := hi.core
  unfold xa_get_tag
  rw [xas_start_fresh]
  obtain ⟨f, rfl⟩ : ∃ f, fuel = f + 1 := ⟨fuel - 1, by omega⟩
  have hinv1 : ∀ xs : xa_state, xs.xa_node = XAS_BOUNDS → xas_get_tag k xs t = false := by
    intro xs h
    simp [xas_get_tag, xas_invalid, h]
  have hinv0 : ∀ xs : xa_state, xs.xa_node = 0 → xas_get_tag k xs t = xa_tagged k t := by
    intro xs h
    simp [xas_get_tag, xas_invalid, h]
  by_cases hn : xa_is_node k.xa_head = true
  · obtain ⟨e1, e2, e3⟩ := is_node_split _ hn
    have hr := (hc.head_node hn).1
    have hnr := hc.nodes _ hr
    rw [if_pos hn]
    by_cases hb : (i >>> (k.mem (xa_to_node k.xa_head)).shift) > XA_CHUNK_MASK
    · rw [if_pos hb]
      refine ⟨Place.bounds, Or.inr ⟨hn, hb⟩, ?_⟩
      rw [xa_get_tag_loop, hinv1 _ rfl]
      rfl
    · rw [if_neg hb]
      have hv : Visits k i (k.xa_head - 2) :=
        Visits.root _ e1 (by rw [← e1]; exact hn) (by
          simp only [xa_to_node] at hb
          omega)
      have hs := hnr.shift_le
      obtain ⟨xs', hd1, hd2, hd3, hd4, _⟩ :=
        xas_descend_spec k { XA_STATE i with xa_node := 0 } (k.xa_head - 2)
      have hidx : ({ XA_STATE i with xa_node := 0 } : xa_state).xa_index = i := rfl
      rw [hidx] at hd3 hd4
      -- the loop from the root, with an index that may have moved to a canonical slot
      have hloop : ∃ y o, Loc k i (Place.slot y o) ∧
          xa_get_tag_loop k t f xs' ((k.mem (k.xa_head - 2)).slots xs'.xa_offset) =
            some (node_get_tag (k.mem y) o t) ∧
          (node_any_tag (k.mem (k.xa_head - 2)) t = false → node_get_tag (k.mem y) o t = false) := by
        by_cases hsb : xa_is_sibling ((k.mem (k.xa_head - 2)).slots
            (get_offset i (k.mem (k.xa_head - 2)))) = true
        · have hraw : xa_is_node ((k.mem (k.xa_head - 2)).slots
              (get_offset i (k.mem (k.xa_head - 2)))) = false := by
            cases hq : xa_is_node ((k.mem (k.xa_head - 2)).slots
              (get_offset i (k.mem (k.xa_head - 2))))
            · rfl
            · rw [is_node_not_sibling _ hq] at hsb
              exact absurd hsb (by simp)
          obtain ⟨c1, c2, c3⟩ := canon_ok hc hr _ (get_offset_lt i _) hraw
          refine ⟨_, _, loc_slot_iff.2 ⟨hv, rfl, c2⟩, ?_, ?_⟩
          · obtain ⟨f', rfl⟩ : ∃ f', f = f' + 1 := ⟨f - 1, by omega⟩
            rw [xa_get_tag_loop, xas_get_tag_at k xs' t _ hnr.align hnr.big hd2, hd3, c2]
            by_cases hb2 : node_get_tag (k.mem (k.xa_head - 2))
                (canon (k.mem (k.xa_head - 2)) (get_offset i (k.mem (k.xa_head - 2)))) t = true
            · simp [hb2]
            · simp at hb2
              simp [hb2]
          · intro hany
            exact (node_any_tag_false_iff _ _).1 hany _ c1
        · simp at hsb
          exact xa_get_tag_loop_spec hi i t ht f _ xs' hv (by omega) (hd4 hsb) hd2 hd3
      obtain ⟨y, o, l1, l2, l3⟩ := hloop
      refine ⟨Place.slot y o, l1, ?_⟩
      rw [xa_get_tag_loop, hinv0 _ rfl]
      have htu := hi.tags _ hr t ht
      unfold TagUp at htu
      rw [if_pos (hc.head_node hn).2] at htu
      by_cases htg : xa_tagged k t = true
      · simp only [htg, if_true, hn, Bool.not_true, Bool.false_eq_true, if_false]
        rw [to_node_def, hd1]
        exact l2
      · simp at htg
        simp only [htg, Bool.false_eq_true, if_false]
        rw [htg] at htu
        simp only [tag_at]
        rw [l3 htu.symm]
  · rw [if_neg hn]
    simp at hn
    by_cases h0 : i = 0
    · rw [if_neg (by simpa using h0)]
      refine ⟨Place.head, ⟨hn, h0⟩, ?_⟩
      rw [xa_get_tag_loop, hinv0 _ rfl]
      by_cases htg : xa_tagged k t = true
      · simp [htg, hn, tag_at]
      · simp at htg
        simp [htg, tag_at]
    · rw [if_pos h0]
      refine ⟨Place.bounds, Or.inl ⟨hn, h0⟩, ?_⟩
      rw [xa_get_tag_loop, hinv1 _ rfl]
      rfl

theorem xa_get_tag_of_loc {k : Kernel} {L : Nat → Prop} (hi : Inv k L) {i t fuel : Nat}
    {w : Place} (ht : t < 3) (hf : 13 ≤ fuel) (h : Loc k i w) :
    xa_get_tag fuel k i t = some (tag_at k t w) := by
  obtain ⟨w', h1, h2⟩ := xa_get_tag_spec hi i t fuel ht hf
  rw [loc_unique hi.core h h1]
  exact h2

theorem sameShape_symm {k k' : Kernel} (h : SameShape k k') : SameShape k' k := by
  refine ⟨fun hh => (h.1 (Or.symm hh)).symm, fun x => ⟨(h.2 x).1.symm, fun o ho => ?_⟩⟩
  refine ((h.2 x).2 o ?_).symm
  rcases ho with ho | ho | ho | ho
  · exact Or.inr (Or.inl ho)
  · exact Or.inl ho
  · exact Or.inr (Or.inr (Or.inr ho))
  · exact Or.inr (Or.inr (Or.inl ho))

theorem sameShape_visits {k k' : Kernel} (h : SameShape k k') {i x : Nat} (hv : Visits k i x) :
    Visits k' i x := by
  induction hv with
  | root x hh hn hb =>
    refine Visits.root x ?_ hn ?_
    · rw [h.1 (Or.inl (by rw [hh]; exact hn)), hh]
    · rw [(h.2 x).1]
      exact hb
  | step y c hvy hs hn ih =>
    refine Visits.step y c ih ?_ hn
    have e : get_offset i (k'.mem y) = get_offset i (k.mem y) := by
      simp [get_offset, (h.2 y).1]
    rw [e, (h.2 y).2 _ (Or.inl (by rw [hs]; exact hn)), hs]

theorem sameShape_canon {k k' : Kernel} (h : SameShape k k') (x o : Nat) :
    canon (k'.mem x) o = canon (k.mem x) o := by
  unfold canon
  by_cases h1 : xa_is_sibling ((k.mem x).slots o) = true
  · rw [(h.2 x).2 o (Or.inr (Or.inr (Or.inl h1)))]
  · by_cases h2 : xa_is_sibling ((k'.mem x).slots o) = true
    · rw [(h.2 x).2 o (Or.inr (Or.inr (Or.inr h2)))]
    · simp [h1, h2]

theorem sameShape_is_node {k k' : Kernel} (h : SameShape k k') (x o : Nat) :
    xa_is_node ((k'.mem x).slots o) = xa_is_node ((k.mem x).slots o) := by
  by_cases h1 : xa_is_node ((k.mem x).slots o) = true
  · rw [(h.2 x).2 o (Or.inl h1)]
  · by_cases h2 : xa_is_node ((k'.mem x).slots o) = true
    · rw [(h.2 x).2 o (Or.inr (Or.inl h2))]
    · simp at h1 h2
      rw [h1, h2]

theorem sameShape_head_node {k k' : Kernel} (h : SameShape k k') :
    xa_is_node k'.xa_head = xa_is_node k.xa_head := by
  by_cases h1 : xa_is_node k.xa_head = true
  · rw [h.1 (Or.inl h1)]
  · by_cases h2 : xa_is_node k'.xa_head = true
    · rw [h.1 (Or.inr h2)]
    · simp at h1 h2
      rw [h1, h2]

theorem sameShape_loc {k k' : Kernel} (h : SameShape k k') {i : Nat} {w : Place}
    (hl : Loc k i w) : Loc k' i w := by
  cases w with
  | head =>
    refine ⟨?_, hl.2⟩
    rw [sameShape_head_node h]
    exact hl.1
  | bounds =>
    rcases hl with hl | hl
    · left
      refine ⟨?_, hl.2⟩
      rw [sameShape_head_node h]
      exact hl.1
    · right
      refine ⟨?_, ?_⟩
      · rw [sameShape_head_node h]
        exact hl.1
      · rw [h.1 (Or.inl hl.1), (h.2 _).1]
        exact hl.2
  | slot x o =>
    obtain ⟨v, c, n⟩ := loc_slot_iff.1 hl
    refine loc_slot_iff.2 ⟨sameShape_visits h v, ?_, ?_⟩
    · have e : get_offset i (k'.mem x) = get_offset i (k.mem x) := by
        simp [get_offset, (h.2 x).1]
      rw [e, sameShape_canon h]
      exact c
    · rw [sameShape_is_node h]
      exact n

theorem count_upto_zero (n : Nat) : count_upto (fun _ => 0) n = 0 := by
  induction n with
  | zero => rfl
  | succ n ih => simp [count_upto, ih]

theorem count_upto_le (slots : Nat → Nat) (n : Nat) : count_upto slots n ≤ n := by
  induction n with
  | zero => simp [count_upto]
  | succ n ih =>
    simp only [count_upto]
    split <;> omega

theorem count_upto_congr (s1 s2 : Nat → Nat) (n : Nat) (h : ∀ o, o < n → s1 o = s2 o) :
    count_upto s1 n = count_upto s2 n := by
  induction n with
  | zero => rfl
  | succ n ih =>
    simp only [count_upto]
    rw [ih (fun o ho => h o (by omega)), h n (by omega)]

theorem count_upto_update (slots : Nat → Nat) (o v n : Nat) :
    count_upto (fun i => if i = o then v else slots i) n +
        (if o < n ∧ slots o ≠ 0 then 1 else 0) =
      count_upto slots n + (if o < n ∧ v ≠ 0 then 1 else 0) := by
  induction n with
  | zero => simp [count_upto]
  | succ n ih =>
    simp only [count_upto]
    by_cases hno : n = o
    · subst hno
      have e : count_upto (fun i => if i = n then v else slots i) n = count_upto slots n :=
        count_upto_congr _ _ n (fun q hq => by simp [Nat.ne_of_lt hq])
      rw [e]
      simp only [Nat.lt_succ_self, true_and, if_true]
      by_cases h1 : slots n = 0 <;> by_cases h2 : v = 0 <;> simp [h1, h2]
    · simp only [if_neg hno]
      by_cases hlt : o < n
      · have : o < n + 1 := by omega
        simp only [hlt, this, true_and] at ih ⊢
        omega
      · have : ¬ o < n + 1 := by omega
        simp only [hlt, this, false_and, if_false] at ih ⊢
        omega

theorem count_upto_eq_zero (slots : Nat → Nat) (n : Nat) (h : count_upto slots n = 0) :
    ∀ o, o < n → slots o = 0 := by
  induction n with
  | zero => intro o ho; omega
  | succ n ih =>
    simp only [count_upto] at h
    intro o ho
    by_cases hs : slots n = 0
    · simp only [hs, if_true] at h
      by_cases hon : o = n
      · rw [hon]; exact hs
      · exact ih (by omega) o (by omega)
    · simp only [hs, if_false] at h
      omega

theorem nodeCore_congr {k k' : Kernel} {L L' : Nat → Prop} {x : Nat} (h : NodeCore k L x)
    (hx : k'.mem x = k.mem x) (hslab : k.slab_next ≤ k'.slab_next)
    (hroot : (k.mem x).parent = 0 → k'.xa_head = k.xa_head)
    (hup : (k.mem x).parent ≠ 0 → L' (k.mem x).parent ∧
      (k'.mem (k.mem x).parent).slots (k.mem x).offset =
        (k.mem (k.mem x).parent).slots (k.mem x).offset ∧
      (k'.mem (k.mem x).parent).shift = (k.mem (k.mem x).parent).shift)
    (hch : ∀ o, o < 64 → xa_is_node ((k.mem x).slots o) = true →
      L' ((k.mem x).slots o - 2) ∧
      (k'.mem ((k.mem x).slots o - 2)).parent = (k.mem ((k.mem x).slots o - 2)).parent ∧
      (k'.mem ((k.mem x).slots o - 2)).offset = (k.mem ((k.mem x).slots o - 2)).offset) :
    NodeCore k' L' x := by
  constructor
  · exact h.align
  · exact h.big
  · have := h.below
    omega
  · rw [hx]; exact h.shift6
  · rw [hx]; exact h.shift_le
  · rw [hx]
    intro hp
    rw [hroot hp]
    exact h.root hp
  · rw [hx]
    intro hp
    obtain ⟨a, b, c⟩ := hup hp
    obtain ⟨_, a2, b2, c2⟩ := h.up hp
    exact ⟨a, a2, by rw [b]; exact b2, by rw [c]; exact c2⟩
  · rw [hx]
    intro o ho hn
    obtain ⟨a, b, c⟩ := hch o ho hn
    obtain ⟨_, b2, c2⟩ := h.child o ho hn
    exact ⟨a, by rw [b]; exact b2, by rw [c]; exact c2⟩
  · rw [hx]
    exact h.sib
  · rw [hx]
    exact h.count
  · rw [hx]
    exact h.tag_null

theorem tagUp_congr {k k' : Kernel} {x t : Nat} (h : TagUp k x t)
    (hp : (k'.mem x).parent = (k.mem x).parent) (ho : (k'.mem x).offset = (k.mem x).offset)
    (hany : node_any_tag (k'.mem x) t = node_any_tag (k.mem x) t)
    (hroot : (k.mem x).parent = 0 → xa_tagged k' t = xa_tagged k t)
    (hup : (k.mem x).parent ≠ 0 →
      node_get_tag (k'.mem (k.mem x).parent) (k.mem x).offset t =
        node_get_tag (k.mem (k.mem x).parent) (k.mem x).offset t) :
    TagUp k' x t := by
  unfold TagUp at h ⊢
  rw [hp, ho, hany]
  by_cases h0 : (k.mem x).parent = 0
  · rw [if_pos h0] at h ⊢
    rw [hroot h0]
    exact h
  · rw [if_neg h0] at h ⊢
    rw [hup h0]
    exact h

theorem node_any_tag_congr {n n' : xa_node} {t : Nat} (h : n'.tags t = n.tags t) :
    node_any_tag n' t = node_any_tag n t := by
  simp [node_any_tag, h]

theorem node_get_tag_congr {n n' : xa_node} {o t : Nat} (h : n'.tags t = n.tags t) :
    node_get_tag n' o t = node_get_tag n o t := by
  simp [node_get_tag, h]

theorem xa_tagged_congr {k k' : Kernel} (t : Nat) (h : k'.xa_flags = k.xa_flags) :
    xa_tagged k' t = xa_tagged k t := by
  simp [xa_tagged, h]

/-- Writing a non-NULL entry over a leaf entry of a live node keeps the invariant. -/
theorem inv_write {k k' : Kernel} {L : Nat → Prop} {x o e : Nat} (hi : Inv k L) (hx : L x)
    (_ : o < 64) (hold : xa_is_internal ((k.mem x).slots o) = false)
    (he : xa_is_internal e = false) (he0 : e ≠ 0)
    (hmem : ∀ y, y ≠ x → k'.mem y = k.mem y)
    (hhead : k'.xa_head = k.xa_head) (hflags : k'.xa_flags = k.xa_flags)
    (hslab : k'.slab_next = k.slab_next)
    (hslots : (k'.mem x).slots = fun i => if i = o then e else (k.mem x).slots i)
    (hshift : (k'.mem x).shift = (k.mem x).shift)
    (hparent : (k'.mem x).parent = (k.mem x).parent)
    (hoffset : (k'.mem x).offset = (k.mem x).offset)
    (htags : (k'.mem x).tags = (k.mem x).tags)
    (hcount : (k'.mem x).count = count_upto (k'.mem x).slots 64) :
    Inv k' L := by
  have hc := hi.core
  have hnx := hc.nodes x hx
  have holdn : xa_is_node ((k.mem x).slots o) = false := not_internal_not_node _ hold
  have hen : xa_is_node e = false := not_internal_not_node _ he
  have hes : xa_is_sibling e = false := not_internal_not_sibling _ he
  have hslot_ne : ∀ i, i ≠ o → (k'.mem x).slots i = (k.mem x).slots i := by
    intro i hne
    rw [hslots]
    simp [hne]
  have hslot_o : (k'.mem x).slots o = e := by
    rw [hslots]
    simp
  -- slots holding nodes or siblings are unchanged
  have hslot_int : ∀ i, xa_is_internal ((k.mem x).slots i) = true →
      (k'.mem x).slots i = (k.mem x).slots i := by
    intro i hint
    apply hslot_ne
    intro hio
    rw [hio, hold] at hint
    exact absurd hint (by simp)
  have hslot_int' : ∀ i, xa_is_internal ((k'.mem x).slots i) = true → i ≠ o := by
    intro i hint hio
    rw [hio, hslot_o, he] at hint
    exact absurd hint (by simp)
  refine ⟨⟨?_, ?_, ?_, by rw [hslab]; exact hc.slab_align, by rw [hslab]; exact hc.slab_big⟩,
    ?_, ?_⟩
  · rw [hhead]
    intro hn
    obtain ⟨a, b⟩ := hc.head_node hn
    refine ⟨a, ?_⟩
    by_cases hxr : k.xa_head - 2 = x
    · rw [hxr, hparent, ← hxr]
      exact b
    · rw [hmem _ hxr]
      exact b
  · rw [hhead]
    exact hc.head_leaf
  · intro y hy
    by_cases hyx : y = x
    · subst hyx
      have hny := hc.nodes y hy
      constructor
      · exact hny.align
      · exact hny.big
      · rw [hslab]; exact hny.below
      · rw [hshift]; exact hny.shift6
      · rw [hshift]; exact hny.shift_le
      · rw [hparent, hhead]; exact hny.root
      · rw [hparent, hoffset, hshift]
        intro hp
        obtain ⟨a, b, c, d⟩ := hny.up hp
        have hpy : (k.mem y).parent ≠ y := by
          intro hpe
          rw [hpe] at d
          omega
        rw [hmem _ hpy]
        exact ⟨a, b, c, d⟩
      · intro q hq hn
        have hqo := hslot_int' q (is_node_internal _ hn)
        rw [hslot_ne q hqo] at hn ⊢
        obtain ⟨a, b, c⟩ := hny.child q hq hn
        have hcy : (k.mem y).slots q - 2 ≠ y := by
          intro hce
          have := (hc.nodes _ a).up (by rw [b]; have := hny.big; omega)
          rw [b, hce] at this
          omega
        rw [hmem _ hcy]
        exact ⟨a, b, c⟩
      · intro q hq hint hn
        have hqo := hslot_int' q hint
        rw [hslot_ne q hqo] at hint hn ⊢
        obtain ⟨a, b, c, d, e2⟩ := hny.sib q hq hint hn
        refine ⟨a, b, ?_, ?_, ?_⟩
        · by_cases hco : xa_to_sibling ((k.mem y).slots q) = o
          · rw [hco, hslot_o]; exact he
          · rw [hslot_ne _ hco]; exact c
        · by_cases hco : xa_to_sibling ((k.mem y).slots q) = o
          · rw [hco, hslot_o]; exact he0
          · rw [hslot_ne _ hco]; exact d
        · intro j hj1 hj2
          have := e2 j hj1 hj2
          rw [hslot_int j (by rw [this]; exact hint)]
          exact this
      · exact hcount
      · intro q t hq ht hb
        rw [show node_get_tag (k'.mem y) q t = node_get_tag (k.mem y) q t from
          node_get_tag_congr (by rw [htags])] at hb
        obtain ⟨a, b⟩ := hny.tag_null q t hq ht hb
        by_cases hqo : q = o
        · rw [hqo, hslot_o]
          exact ⟨he0, hes⟩
        · rw [hslot_ne q hqo]
          exact ⟨a, b⟩
    · have hny := hc.nodes y hy
      refine nodeCore_congr hny (hmem y hyx) (by omega) (fun _ => hhead) ?_ ?_
      · intro hp
        obtain ⟨a, b, c, d⟩ := hny.up hp
        refine ⟨a, ?_, ?_⟩
        · by_cases hpx : (k.mem y).parent = x
          · rw [hpx] at c ⊢
            exact hslot_int _ (by rw [c]; exact is_node_internal _ (is_node_add2 y hny.align hny.big))
          · rw [hmem _ hpx]
        · by_cases hpx : (k.mem y).parent = x
          · rw [hpx]; exact hshift
          · rw [hmem _ hpx]
      · intro q hq hn
        obtain ⟨a, b, c⟩ := hny.child q hq hn
        refine ⟨a, ?_, ?_⟩
        · by_cases hcx : (k.mem y).slots q - 2 = x
          · rw [hcx]; exact hparent
          · rw [hmem _ hcx]
        · by_cases hcx : (k.mem y).slots q - 2 = x
          · rw [hcx]; exact hoffset
          · rw [hmem _ hcx]
  · rw [hhead]
    intro h0 t ht
    rw [xa_tagged_congr t hflags]
    exact hi.head_null h0 t ht
  · intro y hy t ht
    have hpo : ∀ z, (k'.mem z).parent = (k.mem z).parent ∧ (k'.mem z).offset = (k.mem z).offset ∧
        (k'.mem z).tags = (k.mem z).tags := by
      intro z
      by_cases hzx : z = x
      · rw [hzx]; exact ⟨hparent, hoffset, htags⟩
      · rw [hmem z hzx]; exact ⟨rfl, rfl, rfl⟩
    exact tagUp_congr (hi.tags y hy t ht) (hpo y).1 (hpo y).2.1
      (node_any_tag_congr (by rw [(hpo y).2.2]))
      (fun _ => xa_tagged_congr t hflags)
      (fun _ => node_get_tag_congr (by rw [(hpo _).2.2]))

/-- Writing a leaf entry over a leaf entry keeps the shape of the tree. -/
theorem sameShape_write {k k' : Kernel} {x o e : Nat}
    (hold : xa_is_internal ((k.mem x).slots o) = false) (he : xa_is_internal e = false)
    (hmem : ∀ y, y ≠ x → k'.mem y = k.mem y) (hhead : k'.xa_head = k.xa_head)
    (hslots : (k'.mem x).slots = fun i => if i = o then e else (k.mem x).slots i)
    (hshift : (k'.mem x).shift = (k.mem x).shift) : SameShape k k' := by
  refine ⟨fun _ => hhead, fun y => ?_⟩
  by_cases hyx : y = x
  · subst hyx
    refine ⟨hshift, fun q hq => ?_⟩
    rw [hslots]
    by_cases hqo : q = o
    · subst hqo
      rw [hslots] at hq
      simp only [if_true, not_internal_not_node _ hold, not_internal_not_node _ he,
        not_internal_not_sibling _ hold, not_internal_not_sibling _ he] at hq
      simp at hq
    · simp [hqo]
  · rw [hmem y hyx]
    exact ⟨rfl, fun _ _ => rfl⟩

theorem sim_refl (k : Kernel) : Sim k k := by
  intro j w h
  exact ⟨w, h, rfl, fun _ _ => rfl⟩

theorem sim_trans {k1 k2 k3 : Kernel} (h12 : Sim k1 k2) (h23 : Sim k2 k3) : Sim k1 k3 := by
  intro j w h
  obtain ⟨w2, a, b, c⟩ := h12 j w h
  obtain ⟨w3, a3, b3, c3⟩ := h23 j w2 a
  exact ⟨w3, a3, by rw [b3, b], fun t ht => by rw [c3 t ht, c t ht]⟩

theorem xas_invalid_node (xas : xa_state) (h : xas.xa_node % 4 = 0) : xas_invalid xas = false := by
  simp [xas_invalid, and3, h]

/-- A successful `xas_alloc`: the fresh node is the next node of the cache. -/
theorem xas_alloc_ok (k : Kernel) (xas : xa_state) (shift : Nat) (hg : AllocOK k)
    (ha : xas.xa_alloc = 0) (hv : xas.xa_node % 4 = 0) (hbig : 4096 ≤ k.slab_next)
    (hne : xas.xa_node ≠ k.slab_next) :
    ∃ k', xas_alloc k xas shift = (k', xas, k.slab_next) ∧
      k'.xa_head = k.xa_head ∧ k'.xa_flags = k.xa_flags ∧ k'.slab_next = k.slab_next + 576 ∧
      AllocOK k' ∧ k'.rcu_pending = k.rcu_pending ∧ k'.xa_addr = k.xa_addr ∧
      (k'.mem k.slab_next).shift = shift % 256 ∧
      (k'.mem k.slab_next).offset = (if xas.xa_node ≠ 0 then xas.xa_offset else 0) ∧
      (k'.mem k.slab_next).parent = xas.xa_node ∧
      (k'.mem k.slab_next).count = 0 ∧
      (k'.mem k.slab_next).slots = (fun _ => 0) ∧
      (k'.mem k.slab_next).tags = (fun _ => 0) ∧
      (∀ y, y ≠ k.slab_next → (xas.xa_node ≠ 0 → y ≠ xas.xa_node) → k'.mem y = k.mem y) ∧
      (xas.xa_node ≠ 0 → k'.mem xas.xa_node =
        { k.mem xas.xa_node with count := ((k.mem xas.xa_node).count + 1) % 256 }) := by
  have hinv := xas_invalid_node xas hv
  have hgr : k.slab_grant k.slab_calls GFP_NOWAIT_NOWARN = true := hg _ _
  have hnz : k.slab_next ≠ 0 := by omega
  unfold xas_alloc
  simp only [hinv, Bool.false_eq_true, if_false, ha, ne_eq, not_true, kmem_cache_alloc, hgr,
    if_true, hnz]
  by_cases hp : xas.xa_node = 0
  · simp only [hp, not_true, if_false]
    refine ⟨_, rfl, rfl, rfl, rfl, ?_, rfl, rfl, ?_, ?_, ?_, ?_, ?_, ?_, ?_, ?_⟩
    · exact hg
    all_goals simp [Kernel.setNode, xa_node.zero]
    · intro y hy
      simp [hy]
  · simp only [hp, not_false_eq_true, if_true]
    refine ⟨_, rfl, rfl, rfl, rfl, ?_, rfl, rfl, ?_, ?_, ?_, ?_, ?_, ?_, ?_, ?_⟩
    · exact hg
    all_goals simp [Kernel.setNode, xa_node.zero, hne, Ne.symm hne]
    · intro y hy hy2
      simp [hy, hy2]

theorem node_get_tag_zero (n : xa_node) (o t : Nat) (h : n.tags = fun _ => 0) :
    node_get_tag n o t = false := by
  simp [node_get_tag, test_bit, h]

theorem node_any_tag_zero (n : xa_node) (t : Nat) (h : n.tags = fun _ => 0) :
    node_any_tag n t = false := by
  rw [node_any_tag_false_iff]
  intro o _
  exact node_get_tag_zero n o t h

theorem live_lt_slab {k : Kernel} {L : Nat → Prop} (hc : Core k L) {y : Nat} (hy : L y) :
    y ≠ k.slab_next := by
  have := (hc.nodes y hy).below
  omega

/-- Linking a fresh empty node into a NULL slot of a live node keeps the invariant. -/
theorem inv_add_child {k k' : Kernel} {L : Nat → Prop} {x o c : Nat} (hi : Inv k L) (hx : L x)
    (ho : o < 64) (hnull : (k.mem x).slots o = 0) (hsh : 6 ≤ (k.mem x).shift)
    (hc0 : c = k.slab_next)
    (hhead : k'.xa_head = k.xa_head) (hflags : k'.xa_flags = k.xa_flags)
    (hslab : k'.slab_next = k.slab_next + 576)
    (hcshift : (k'.mem c).shift = (k.mem x).shift - 6) (hcoff : (k'.mem c).offset = o)
    (hcpar : (k'.mem c).parent = x) (hccount : (k'.mem c).count = 0)
    (hcslots : (k'.mem c).slots = fun _ => 0) (hctags : (k'.mem c).tags = fun _ => 0)
    (hslots : (k'.mem x).slots = fun i => if i = o then c + 2 else (k.mem x).slots i)
    (hcount : (k'.mem x).count = ((k.mem x).count + 1) % 256)
    (hshift : (k'.mem x).shift = (k.mem x).shift)
    (hparent : (k'.mem x).parent = (k.mem x).parent)
    (hoffset : (k'.mem x).offset = (k.mem x).offset)
    (htags : (k'.mem x).tags = (k.mem x).tags)
    (hmem : ∀ y, y ≠ c → y ≠ x → k'.mem y = k.mem y) :
    Inv k' (fun y => L y ∨ y = c) := by
  have hc := hi.core
  have hnx := hc.nodes x hx
  have hcx : c ≠ x := by
    rw [hc0]
    exact (live_lt_slab hc hx).symm
  have hcL : ∀ y, L y → y ≠ c := by
    intro y hy
    rw [hc0]
    exact live_lt_slab hc hy
  have hcal : c % 4 = 0 := by rw [hc0]; exact hc.slab_align
  have hcbig : 4096 ≤ c := by rw [hc0]; exact hc.slab_big
  have hcn : xa_is_node (c + 2) = true := is_node_add2 c hcal hcbig
  have hslot_ne : ∀ i, i ≠ o → (k'.mem x).slots i = (k.mem x).slots i := by
    intro i hne
    rw [hslots]
    simp [hne]
  have hslot_o : (k'.mem x).slots o = c + 2 := by
    rw [hslots]
    simp
  have hnz : ∀ i, (k.mem x).slots i ≠ 0 → (k'.mem x).slots i = (k.mem x).slots i := by
    intro i hne
    apply hslot_ne
    intro hio
    rw [hio] at hne
    exact hne hnull
  have hint0 : xa_is_internal 0 = false := by decide
  have hnode0 : xa_is_node 0 = false := by decide
  have hbit : ∀ t, t < 3 → node_get_tag (k.mem x) o t = false := by
    intro t ht
    cases hb : node_get_tag (k.mem x) o t
    · rfl
    · exact absurd hnull (hnx.tag_null o t ho ht hb).1
  have hsame : ∀ y, L y → (k'.mem y).shift = (k.mem y).shift ∧
      (k'.mem y).parent = (k.mem y).parent ∧ (k'.mem y).offset = (k.mem y).offset ∧
      (k'.mem y).tags = (k.mem y).tags := by
    intro y hy
    by_cases hyx : y = x
    · rw [hyx]; exact ⟨hshift, hparent, hoffset, htags⟩
    · rw [hmem y (hcL y hy) hyx]; exact ⟨rfl, rfl, rfl, rfl⟩
  refine ⟨⟨?_, ?_, ?_, by rw [hslab]; have := hc.slab_align; omega,
    by rw [hslab]; have := hc.slab_big; omega⟩, ?_, ?_⟩
  · rw [hhead]
    intro hn
    obtain ⟨a, b⟩ := hc.head_node hn
    exact ⟨Or.inl a, by rw [(hsame _ a).2.1]; exact b⟩
  · rw [hhead]
    intro hn
    have := (hc.head_leaf hn).2 x
    exact absurd hx this
  · intro y hy
    rcases hy with hy | hy
    · by_cases hyx : y = x
      · subst hyx
        constructor
        · exact hnx.align
        · exact hnx.big
        · rw [hslab]; have := hnx.below; omega
        · rw [hshift]; exact hnx.shift6
        · rw [hshift]; exact hnx.shift_le
        · rw [hparent, hhead]; exact hnx.root
        · rw [hparent, hoffset, hshift]
          intro hp
          obtain ⟨a, b, c2, d⟩ := hnx.up hp
          have hpy : (k.mem y).parent ≠ y := by
            intro hpe
            rw [hpe] at d
            omega
          rw [hmem _ (hcL _ a) hpy]
          exact ⟨Or.inl a, b, c2, d⟩
        · intro q hq hn
          by_cases hqo : q = o
          · subst hqo
            rw [hslot_o]
            have e : c + 2 - 2 = c := by omega
            rw [e]
            exact ⟨Or.inr rfl, hcpar, hcoff⟩
          · rw [hslot_ne q hqo] at hn ⊢
            obtain ⟨a, b, c2⟩ := hnx.child q hq hn
            have hcy : (k.mem y).slots q - 2 ≠ y := by
              intro hce
              have := (hc.nodes _ a).up (by rw [b]; have := hnx.big; omega)
              rw [b, hce] at this
              omega
            rw [hmem _ (hcL _ a) hcy]
            exact ⟨Or.inl a, b, c2⟩
        · intro q hq hint hn
          have hqo : q ≠ o := by
            intro hqo
            rw [hqo, hslot_o, hcn] at hn
            exact absurd hn (by simp)
          rw [hslot_ne q hqo] at hint hn ⊢
          obtain ⟨a, b, c2, d, e2⟩ := hnx.sib q hq hint hn
          refine ⟨a, b, ?_, ?_, ?_⟩
          · rw [hnz _ d]; exact c2
          · rw [hnz _ d]; exact d
          · intro j hj1 hj2
            have := e2 j hj1 hj2
            rw [hnz j (by
              rw [this]
              intro h0
              rw [h0, hint0] at hint
              exact absurd hint (by simp))]
            exact this
        · rw [hcount, hnx.count, hslots]
          have := count_upto_update (k.mem y).slots o (c + 2) 64
          simp only [ho, true_and, hnull, ne_eq, not_true, if_false] at this
          rw [if_pos (by omega)] at this
          have hle := count_upto_le (k.mem y).slots 64
          omega
        · intro q t hq ht hb
          rw [show node_get_tag (k'.mem y) q t = node_get_tag (k.mem y) q t from
            node_get_tag_congr (by rw [htags])] at hb
          obtain ⟨a, b⟩ := hnx.tag_null q t hq ht hb
          rw [hnz q a]
          exact ⟨a, b⟩
      · have hny := hc.nodes y hy
        refine nodeCore_congr hny (hmem y (hcL y hy) hyx) (by omega) (fun _ => hhead) ?_ ?_
        · intro hp
          obtain ⟨a, b, c2, d⟩ := hny.up hp
          refine ⟨Or.inl a, ?_, (hsame _ a).1⟩
          by_cases hpx : (k.mem y).parent = x
          · rw [hpx] at c2 ⊢
            exact hnz _ (by rw [c2]; omega)
          · rw [hmem _ (hcL _ a) hpx]
        · intro q hq hn
          obtain ⟨a, b, c2⟩ := hny.child q hq hn
          exact ⟨Or.inl a, (hsame _ a).2.1, (hsame _ a).2.2.1⟩
    · subst hy
      constructor
      · exact hcal
      · exact hcbig
      · rw [hslab, hc0]; omega
      · rw [hcshift]; have := hnx.shift6; omega
      · rw [hcshift]; have := hnx.shift_le; omega
      · rw [hcpar]
        intro h0
        have := hnx.big
        omega
      · rw [hcpar, hcoff, hcshift, hshift]
        intro _
        exact ⟨Or.inl hx, ho, hslot_o, by omega⟩
      · intro q _ hn
        rw [hcslots] at hn
        simp only [hnode0] at hn
        exact absurd hn (by simp)
      · intro q _ hint
        rw [hcslots] at hint
        simp only [hint0] at hint
        exact absurd hint (by simp)
      · rw [hccount, hcslots, count_upto_zero]
      · intro q t _ _ hb
        rw [node_get_tag_zero _ q t hctags] at hb
        exact absurd hb (by simp)
  · rw [hhead]
    intro h0 t ht
    rw [xa_tagged_congr t hflags]
    exact hi.head_null h0 t ht
  · intro y hy t ht
    rcases hy with hy | hy
    · refine tagUp_congr (hi.tags y hy t ht) (hsame y hy).2.1 (hsame y hy).2.2.1
        (node_any_tag_congr (by rw [(hsame y hy).2.2.2]))
        (fun _ => xa_tagged_congr t hflags) ?_
      intro hp
      have := ((hc.nodes y hy).up hp).1
      exact node_get_tag_congr (by rw [(hsame _ this).2.2.2])
    · subst hy
      unfold TagUp
      rw [hcpar, if_neg (by have := hnx.big; omega), hcoff, node_any_tag_zero _ t hctags,
        show node_get_tag (k'.mem x) o t = node_get_tag (k.mem x) o t from
          node_get_tag_congr (by rw [htags])]
      exact hbit t ht

/-- Walks are kept when live nodes keep their shift and their non-NULL slots. -/
theorem visits_extend {k k' : Kernel} {L : Nat → Prop} (hc : Core k L)
    (hhead : k'.xa_head = k.xa_head)
    (hsh : ∀ y, L y → (k'.mem y).shift = (k.mem y).shift)
    (hsl : ∀ y q, L y → (k.mem y).slots q ≠ 0 → (k'.mem y).slots q = (k.mem y).slots q)
    {j y : Nat} (hv : Visits k j y) : Visits k' j y := by
  induction hv with
  | root x hh hn hb =>
    have hx := visits_live hc (Visits.root x hh hn hb)
    exact Visits.root x (by rw [hhead, hh]) hn (by rw [hsh x hx]; exact hb)
  | step y c hvy hs hn ih =>
    have hy := visits_live hc hvy
    refine Visits.step y c ih ?_ hn
    have e : get_offset j (k'.mem y) = get_offset j (k.mem y) := by
      simp [get_offset, hsh y hy]
    rw [e, hsl y _ hy (by rw [hs]; omega), hs]

/-- A landing slot is kept when the raw slot of the walk is unchanged. -/
theorem loc_extend {k k' : Kernel} {L : Nat → Prop} (hc : Core k L)
    (hhead : k'.xa_head = k.xa_head)
    (hsh : ∀ y, L y → (k'.mem y).shift = (k.mem y).shift)
    (htg : ∀ y, L y → (k'.mem y).tags = (k.mem y).tags)
    (hsl : ∀ y q, L y → (k.mem y).slots q ≠ 0 → (k'.mem y).slots q = (k.mem y).slots q)
    {j y q : Nat} (hl : Loc k j (Place.slot y q))
    (hraw : (k'.mem y).slots (get_offset j (k.mem y)) = (k.mem y).slots (get_offset j (k.mem y))) :
    Loc k' j (Place.slot y q) ∧ (k'.mem y).slots q = (k.mem y).slots q ∧
      ∀ t, node_get_tag (k'.mem y) q t = node_get_tag (k.mem y) q t := by
  obtain ⟨v, c, n⟩ := loc_slot_iff.1 hl
  have hy := visits_live hc v
  have e : get_offset j (k'.mem y) = get_offset j (k.mem y) := by
    simp [get_offset, hsh y hy]
  have hq : (k'.mem y).slots q = (k.mem y).slots q := by
    by_cases hs : xa_is_sibling ((k.mem y).slots (get_offset j (k.mem y))) = true
    · have hint : xa_is_internal ((k.mem y).slots (get_offset j (k.mem y))) = true := by
        rw [xa_is_sibling_iff] at hs
        rw [xa_is_internal_iff]
        exact hs.1
      have hnn : xa_is_node ((k.mem y).slots (get_offset j (k.mem y))) = false := by
        cases hq : xa_is_node ((k.mem y).slots (get_offset j (k.mem y)))
        · rfl
        · rw [is_node_not_sibling _ hq] at hs
          exact absurd hs (by simp)
      obtain ⟨_, _, _, d, _⟩ := (hc.nodes y hy).sib _ (get_offset_lt _ _) hint hnn
      have hcq : q = xa_to_sibling ((k.mem y).slots (get_offset j (k.mem y))) := by
        rw [c]
        simp [canon, hs]
      rw [hcq]
      exact hsl y _ hy d
    · have hcq : q = get_offset j (k.mem y) := by
        rw [c]
        simp [canon, hs]
      rw [hcq]
      exact hraw
  refine ⟨loc_slot_iff.2 ⟨visits_extend hc hhead hsh hsl v, ?_, ?_⟩, hq, ?_⟩
  · rw [e, c]
    simp only [canon, hraw]
  · rw [hq]
    exact n
  · intro t
    exact node_get_tag_congr (by rw [htg y hy])

theorem sim_add_child {k k' : Kernel} {L : Nat → Prop} {x o c : Nat} (hi : Inv k L) (hx : L x)
    (ho : o < 64) (hnull : (k.mem x).slots o = 0)
    (hc0 : c = k.slab_next)
    (hhead : k'.xa_head = k.xa_head)
    (hcslots : (k'.mem c).slots = fun _ => 0) (hctags : (k'.mem c).tags = fun _ => 0)
    (hslots : (k'.mem x).slots = fun i => if i = o then c + 2 else (k.mem x).slots i)
    (hshift : (k'.mem x).shift = (k.mem x).shift)
    (htags : (k'.mem x).tags = (k.mem x).tags)
    (hmem : ∀ y, y ≠ c → y ≠ x → k'.mem y = k.mem y) :
    Sim k k' := by
  have hc := hi.core
  have hnx := hc.nodes x hx
  have hcL : ∀ y, L y → y ≠ c := by
    intro y hy
    rw [hc0]
    exact live_lt_slab hc hy
  have hsh : ∀ y, L y → (k'.mem y).shift = (k.mem y).shift := by
    intro y hy
    by_cases hyx : y = x
    · rw [hyx]; exact hshift
    · rw [hmem y (hcL y hy) hyx]
  have htg : ∀ y, L y → (k'.mem y).tags = (k.mem y).tags := by
    intro y hy
    by_cases hyx : y = x
    · rw [hyx]; exact htags
    · rw [hmem y (hcL y hy) hyx]
  have hsl : ∀ y q, L y → (y ≠ x ∨ q ≠ o) → (k'.mem y).slots q = (k.mem y).slots q := by
    intro y q hy hne
    by_cases hyx : y = x
    · subst hyx
      rw [hslots]
      have : q ≠ o := by
        rcases hne with h | h
        · exact absurd rfl h
        · exact h
      simp [this]
    · rw [hmem y (hcL y hy) hyx]
  have hsl' : ∀ y q, L y → (k.mem y).slots q ≠ 0 → (k'.mem y).slots q = (k.mem y).slots q := by
    intro y q hy hne
    apply hsl y q hy
    by_cases hyx : y = x
    · right
      intro hq
      rw [hyx, hq] at hne
      exact hne hnull
    · exact Or.inl hyx
  have hcal : c % 4 = 0 := by rw [hc0]; exact hc.slab_align
  have hcbig : 4096 ≤ c := by rw [hc0]; exact hc.slab_big
  intro j w hl
  cases w with
  | head =>
    have := (hc.head_leaf hl.1).2 x
    exact absurd hx this
  | bounds =>
    refine ⟨Place.bounds, ?_, rfl, fun _ _ => rfl⟩
    rcases hl with hl | hl
    · exact Or.inl ⟨by rw [hhead]; exact hl.1, hl.2⟩
    · refine Or.inr ⟨by rw [hhead]; exact hl.1, ?_⟩
      rw [hhead, hsh _ (hc.head_node hl.1).1]
      exact hl.2
  | slot y q =>
    obtain ⟨v, cq, n⟩ := loc_slot_iff.1 hl
    have hy := visits_live hc v
    by_cases hyo : y = x ∧ get_offset j (k.mem y) = o
    · obtain ⟨hyx, hro⟩ := hyo
      subst hyx
      have hqo : q = o := by
        rw [cq, hro]
        simp [canon, hnull, xa_is_sibling, xa_is_internal]
      have hvc : Visits k' j c := by
        refine Visits.step y c (visits_extend hc hhead hsh hsl' v) ?_ (is_node_add2 c hcal hcbig)
        have e : get_offset j (k'.mem y) = get_offset j (k.mem y) := by
          simp [get_offset, hshift]
        rw [e, hro, hslots]
        simp
      refine ⟨Place.slot c (get_offset j (k'.mem c)), loc_slot_iff.2 ⟨hvc, ?_, ?_⟩, ?_, ?_⟩
      · simp [canon, hcslots, xa_is_sibling, xa_is_internal]
      · simp [hcslots, xa_is_node, xa_is_internal]
      · simp only [entry_at]
        rw [hcslots, hqo, hnull]
      · intro t ht
        simp only [tag_at]
        rw [node_get_tag_zero _ _ t hctags, hqo]
        cases hb : node_get_tag (k.mem y) o t
        · rfl
        · exact absurd hnull (hnx.tag_null o t ho ht hb).1
    · obtain ⟨a, b, c2⟩ := loc_extend hc hhead hsh htg hsl' hl (by
        apply hsl y _ hy
        by_cases hyx : y = x
        · right
          intro hq
          exact hyo ⟨hyx, hq⟩
        · exact Or.inl hyx)
      exact ⟨Place.slot y q, a, b, fun t _ => c2 t⟩

/-- Making a fresh empty node the root of an empty array keeps the invariant. -/
theorem inv_add_root {k k' : Kernel} {L : Nat → Prop} {c s : Nat} (hi : Inv k L)
    (h0 : k.xa_head = 0) (hc0 : c = k.slab_next) (hs6 : s % 6 = 0) (hs60 : s ≤ 60)
    (hhead : k'.xa_head = c + 2) (hflags : k'.xa_flags = k.xa_flags)
    (hslab : k'.slab_next = k.slab_next + 576)
    (hcshift : (k'.mem c).shift = s) (hcpar : (k'.mem c).parent = 0)
    (hccount : (k'.mem c).count = 0)
    (hcslots : (k'.mem c).slots = fun _ => 0) (hctags : (k'.mem c).tags = fun _ => 0) :
    Inv k' (fun y => y = c) := by
  have hc := hi.core
  have hcal : c % 4 = 0 := by rw [hc0]; exact hc.slab_align
  have hcbig : 4096 ≤ c := by rw [hc0]; exact hc.slab_big
  have hcn : xa_is_node (c + 2) = true := is_node_add2 c hcal hcbig
  have hint0 : xa_is_internal 0 = false := by decide
  have hnode0 : xa_is_node 0 = false := by decide
  refine ⟨⟨?_, ?_, ?_, by rw [hslab]; have := hc.slab_align; omega,
    by rw [hslab]; have := hc.slab_big; omega⟩, ?_, ?_⟩
  · rw [hhead]
    intro _
    have e : c + 2 - 2 = c := by omega
    rw [e]
    exact ⟨rfl, hcpar⟩
  · rw [hhead, hcn]
    intro h
    exact absurd h (by simp)
  · intro y hy
    subst hy
    constructor
    · exact hcal
    · exact hcbig
    · rw [hslab, hc0]; omega
    · rw [hcshift]; exact hs6
    · rw [hcshift]; exact hs60
    · intro _; exact hhead
    · rw [hcpar]
      intro h
      exact absurd rfl h
    · intro q _ hn
      rw [hcslots] at hn
      simp only [hnode0] at hn
      exact absurd hn (by simp)
    · intro q _ hint
      rw [hcslots] at hint
      simp only [hint0] at hint
      exact absurd hint (by simp)
    · rw [hccount, hcslots, count_upto_zero]
    · intro q t _ _ hb
      rw [node_get_tag_zero _ q t hctags] at hb
      exact absurd hb (by simp)
  · rw [hhead]
    intro h
    omega
  · intro y hy t ht
    subst hy
    unfold TagUp
    rw [hcpar, if_pos rfl, node_any_tag_zero _ t hctags, xa_tagged_congr t hflags]
    exact hi.head_null h0 t ht

theorem sim_add_root {k k' : Kernel} {L : Nat → Prop} {c : Nat} (hi : Inv k L)
    (h0 : k.xa_head = 0) (hc0 : c = k.slab_next)
    (hhead : k'.xa_head = c + 2)
    (hcslots : (k'.mem c).slots = fun _ => 0) (hctags : (k'.mem c).tags = fun _ => 0) :
    Sim k k' := by
  have hc := hi.core
  have hcal : c % 4 = 0 := by rw [hc0]; exact hc.slab_align
  have hcbig : 4096 ≤ c := by rw [hc0]; exact hc.slab_big
  have hcn : xa_is_node (c + 2) = true := is_node_add2 c hcal hcbig
  have hnode0 : xa_is_node k.xa_head = false := by rw [h0]; decide
  have hn' : xa_is_node k'.xa_head = true := by rw [hhead]; exact hcn
  have e : k'.xa_head - 2 = c := by rw [hhead]; omega
  -- every index reads NULL and no tag, before and after
  have hbefore : ∀ j w, Loc k j w → entry_at k w = 0 ∧ ∀ t, t < 3 → tag_at k t w = false := by
    intro j w hl
    cases w with
    | head => exact ⟨h0, fun t ht => hi.head_null h0 t ht⟩
    | bounds => exact ⟨rfl, fun _ _ => rfl⟩
    | slot y q =>
      have := (hc.head_leaf hnode0).2 y
      exact absurd (loc_slot_facts hc hl).1 this
  intro j w hl
  obtain ⟨b1, b2⟩ := hbefore j w hl
  by_cases hb : j >>> (k'.mem c).shift > XA_CHUNK_MASK
  · refine ⟨Place.bounds, Or.inr ⟨hn', by rw [e]; exact hb⟩, by rw [b1]; rfl, ?_⟩
    intro t ht
    rw [b2 t ht]
    rfl
  · have hv : Visits k' j c := Visits.root c hhead hcn (by omega)
    refine ⟨Place.slot c (get_offset j (k'.mem c)), loc_slot_iff.2 ⟨hv, ?_, ?_⟩, ?_, ?_⟩
    · simp [canon, hcslots, xa_is_sibling, xa_is_internal]
    · simp [hcslots, xa_is_node, xa_is_internal]
    · show (k'.mem c).slots _ = entry_at k w
      rw [hcslots, b1]
    · intro t ht
      show node_get_tag (k'.mem c) _ t = tag_at k t w
      rw [node_get_tag_zero _ _ t hctags, b2 t ht]

/-- Putting a fresh node above the head (one round of `xas_expand`) keeps the invariant. -/
theorem inv_expand {k k' : Kernel} {L : Nat → Prop} {n s : Nat} (hi : Inv k L)
    (hh0 : k.xa_head ≠ 0) (hn0 : n = k.slab_next)
    (hsn : xa_is_node k.xa_head = true → s = (k.mem (k.xa_head - 2)).shift + 6)
    (hsl : xa_is_node k.xa_head = false → s = 0) (hs60 : s ≤ 60)
    (hhead : k'.xa_head = n + 2) (hflags : k'.xa_flags = k.xa_flags)
    (hslab : k'.slab_next = k.slab_next + 576)
    (hnshift : (k'.mem n).shift = s) (hnpar : (k'.mem n).parent = 0)
    (hncount : (k'.mem n).count = 1)
    (hnslots : (k'.mem n).slots = fun i => if i = 0 then k.xa_head else 0)
    (hntags : ∀ o t, t < 3 → node_get_tag (k'.mem n) o t = (decide (o = 0) && xa_tagged k t))
    (hr : xa_is_node k.xa_head = true →
      k'.mem (k.xa_head - 2) = { k.mem (k.xa_head - 2) with offset := 0, parent := n })
    (hmem : ∀ y, y ≠ n → (xa_is_node k.xa_head = true → y ≠ k.xa_head - 2) →
      k'.mem y = k.mem y) :
    Inv k' (fun y => L y ∨ y = n) := by
  have hc := hi.core
  have hnL : ∀ y, L y → y ≠ n := by
    intro y hy
    rw [hn0]
    exact live_lt_slab hc hy
  have hnal : n % 4 = 0 := by rw [hn0]; exact hc.slab_align
  have hnbig : 4096 ≤ n := by rw [hn0]; exact hc.slab_big
  have hnn : xa_is_node (n + 2) = true := is_node_add2 n hnal hnbig
  have hint0 : xa_is_internal 0 = false := by decide
  have hnode0 : xa_is_node 0 = false := by decide
  have hLnode : ∀ y, L y → xa_is_node k.xa_head = true := by
    intro y hy
    cases hq : xa_is_node k.xa_head
    · exact absurd hy ((hc.head_leaf hq).2 y)
    · rfl
  have hsame : ∀ y, L y → (k'.mem y).shift = (k.mem y).shift ∧
      (k'.mem y).slots = (k.mem y).slots ∧ (k'.mem y).tags = (k.mem y).tags ∧
      (k'.mem y).count = (k.mem y).count := by
    intro y hy
    by_cases hyr : y = k.xa_head - 2
    · rw [hyr, hr (hLnode y hy)]
      exact ⟨rfl, rfl, rfl, rfl⟩
    · rw [hmem y (hnL y hy) (fun _ => hyr)]
      exact ⟨rfl, rfl, rfl, rfl⟩
  have hnonroot : ∀ y, L y → y ≠ k.xa_head - 2 → (k.mem y).parent ≠ 0 := by
    intro y hy hyr hp
    have := (hc.nodes y hy).root hp
    omega
  refine ⟨⟨?_, ?_, ?_, by rw [hslab]; have := hc.slab_align; omega,
    by rw [hslab]; have := hc.slab_big; omega⟩, ?_, ?_⟩
  · rw [hhead]
    intro _
    have e : n + 2 - 2 = n := by omega
    rw [e]
    exact ⟨Or.inr rfl, hnpar⟩
  · rw [hhead, hnn]
    intro h
    exact absurd h (by simp)
  · intro y hy
    rcases hy with hy | hy
    · have hny := hc.nodes y hy
      have hhn := hLnode y hy
      obtain ⟨e1, e2, e3⟩ := is_node_split _ hhn
      by_cases hyr : y = k.xa_head - 2
      · -- the old root
        subst hyr
        have hrm := hr hhn
        have hpar0 := (hc.head_node hhn).2
        constructor
        · exact hny.align
        · exact hny.big
        · rw [hslab]; have := hny.below; omega
        · rw [hrm]; exact hny.shift6
        · rw [hrm]; exact hny.shift_le
        · rw [hrm]
          intro hp
          simp only at hp
          omega
        · rw [hrm]
          intro _
          show (L n ∨ n = n) ∧ 0 < 64 ∧ (k'.mem n).slots 0 = k.xa_head - 2 + 2 ∧
            (k'.mem n).shift = (k.mem (k.xa_head - 2)).shift + 6
          refine ⟨Or.inr rfl, by omega, ?_, ?_⟩
          · rw [hnslots]
            simp only [if_true]
            exact e1
          · rw [hnshift, hsn hhn]
        · rw [hrm]
          intro q hq hn
          obtain ⟨a, b, c2⟩ := hny.child q hq hn
          have hcr : (k.mem (k.xa_head - 2)).slots q - 2 ≠ k.xa_head - 2 := by
            intro hce
            rw [hce] at b
            rw [b] at hpar0
            omega
          simp only
          rw [hmem _ (hnL _ a) (fun _ => hcr)]
          exact ⟨Or.inl a, b, c2⟩
        · rw [hrm]; exact hny.sib
        · rw [hrm]; exact hny.count
        · rw [hrm]; exact hny.tag_null
      · refine nodeCore_congr hny (hmem y (hnL y hy) (fun _ => hyr)) (by omega)
          (fun hp => absurd hp (hnonroot y hy hyr)) ?_ ?_
        · intro hp
          obtain ⟨a, b, c2, d⟩ := hny.up hp
          exact ⟨Or.inl a, by rw [(hsame _ a).2.1], (hsame _ a).1⟩
        · intro q hq hn
          obtain ⟨a, b, c2⟩ := hny.child q hq hn
          have hcr : (k.mem y).slots q - 2 ≠ k.xa_head - 2 := by
            intro hce
            rw [hce, (hc.head_node hhn).2] at b
            have := hny.big
            omega
          rw [hmem _ (hnL _ a) (fun _ => hcr)]
          exact ⟨Or.inl a, rfl, rfl⟩
    · subst hy
      constructor
      · exact hnal
      · exact hnbig
      · rw [hslab, hn0]; omega
      · rw [hnshift]
        cases hq : xa_is_node k.xa_head
        · rw [hsl hq]
        · rw [hsn hq]
          have := (hc.nodes _ (hc.head_node hq).1).shift6
          omega
      · rw [hnshift]; exact hs60
      · intro _; exact hhead
      · rw [hnpar]
        intro h
        exact absurd rfl h
      · intro q hq hn
        rw [hnslots] at hn ⊢
        by_cases hq0 : q = 0
        · subst hq0
          simp only [if_true] at hn ⊢
          rw [hr hn]
          exact ⟨Or.inl (hc.head_node hn).1, rfl, rfl⟩
        · simp only [if_neg hq0, hnode0] at hn
          exact absurd hn (by simp)
      · intro q hq hint hn
        rw [hnslots] at hint hn
        by_cases hq0 : q = 0
        · subst hq0
          simp only [if_true] at hint hn
          rw [(hc.head_leaf hn).1] at hint
          exact absurd hint (by simp)
        · simp only [if_neg hq0, hint0] at hint
          exact absurd hint (by simp)
      · rw [hncount, hnslots]
        have := count_upto_update (fun _ => 0) 0 k.xa_head 64
        rw [count_upto_zero, if_neg (by simp), if_pos ⟨by omega, hh0⟩] at this
        omega
      · intro q t hq ht hb
        rw [hntags _ _ ht] at hb
        simp only [Bool.and_eq_true, decide_eq_true_eq] at hb
        rw [hnslots, hb.1]
        simp only [if_true]
        refine ⟨hh0, ?_⟩
        cases hq : xa_is_node k.xa_head
        · exact not_internal_not_sibling _ (hc.head_leaf hq).1
        · exact is_node_not_sibling _ hq
  · rw [hhead]
    intro h
    omega
  · intro y hy t ht
    rcases hy with hy | hy
    · have hhn := hLnode y hy
      by_cases hyr : y = k.xa_head - 2
      · subst hyr
        have hold := hi.tags _ hy t ht
        unfold TagUp at hold ⊢
        rw [if_pos (hc.head_node hhn).2] at hold
        rw [hr hhn]
        simp only
        rw [if_neg (by omega), hntags _ _ ht]
        simpa using hold
      · refine tagUp_congr (hi.tags y hy t ht) (by rw [hmem y (hnL y hy) (fun _ => hyr)])
          (by rw [hmem y (hnL y hy) (fun _ => hyr)])
          (node_any_tag_congr (by rw [(hsame y hy).2.2.1]))
          (fun hp => absurd hp (hnonroot y hy hyr)) ?_
        intro hp
        have := ((hc.nodes y hy).up hp).1
        exact node_get_tag_congr (by rw [(hsame _ this).2.2.1])
    · subst hy
      unfold TagUp
      rw [hnpar, if_pos rfl, xa_tagged_congr t hflags]
      cases htg : xa_tagged k t
      · symm
        rw [node_any_tag_false_iff]
        intro o _
        rw [hntags _ _ ht, htg]
        simp
      · symm
        rw [node_any_tag_iff]
        exact ⟨0, by omega, by rw [hntags _ _ ht, htg]; simp⟩

theorem get_offset_zero_index (n : xa_node) : get_offset 0 n = 0 := by
  rw [get_offset_eq]
  simp

theorem sim_expand {k k' : Kernel} {L : Nat → Prop} {n s : Nat} (hi : Inv k L)
    (hn0 : n = k.slab_next)
    (hsn : xa_is_node k.xa_head = true → s = (k.mem (k.xa_head - 2)).shift + 6)
    (hsl : xa_is_node k.xa_head = false → s = 0)
    (hhead : k'.xa_head = n + 2)
    (hnshift : (k'.mem n).shift = s)
    (hnslots : (k'.mem n).slots = fun i => if i = 0 then k.xa_head else 0)
    (hntags : ∀ o t, t < 3 → node_get_tag (k'.mem n) o t = (decide (o = 0) && xa_tagged k t))
    (hr : xa_is_node k.xa_head = true →
      k'.mem (k.xa_head - 2) = { k.mem (k.xa_head - 2) with offset := 0, parent := n })
    (hmem : ∀ y, y ≠ n → (xa_is_node k.xa_head = true → y ≠ k.xa_head - 2) →
      k'.mem y = k.mem y) :
    Sim k k' := by
  have hc := hi.core
  have hnL : ∀ y, L y → y ≠ n := by
    intro y hy
    rw [hn0]
    exact live_lt_slab hc hy
  have hnal : n % 4 = 0 := by rw [hn0]; exact hc.slab_align
  have hnbig : 4096 ≤ n := by rw [hn0]; exact hc.slab_big
  have hnn : xa_is_node (n + 2) = true := is_node_add2 n hnal hnbig
  have hn' : xa_is_node k'.xa_head = true := by rw [hhead]; exact hnn
  have e : k'.xa_head - 2 = n := by rw [hhead]; omega
  have hLnode : ∀ y, L y → xa_is_node k.xa_head = true := by
    intro y hy
    cases hq : xa_is_node k.xa_head
    · exact absurd hy ((hc.head_leaf hq).2 y)
    · rfl
  have hsame : ∀ y, L y → (k'.mem y).shift = (k.mem y).shift ∧
      (k'.mem y).slots = (k.mem y).slots ∧ (k'.mem y).tags = (k.mem y).tags := by
    intro y hy
    by_cases hyr : y = k.xa_head - 2
    · rw [hyr, hr (hLnode y hy)]
      exact ⟨rfl, rfl, rfl⟩
    · rw [hmem y (hnL y hy) (fun _ => hyr)]
      exact ⟨rfl, rfl, rfl⟩
  have hslot_pos : ∀ q, q ≠ 0 → (k'.mem n).slots q = 0 := by
    intro q hq
    rw [hnslots]
    simp [hq]
  have hint0 : xa_is_internal 0 = false := by decide
  -- landing in a NULL slot of the new root
  have hnew : ∀ j, j >>> s ≤ XA_CHUNK_MASK → get_offset j (k'.mem n) ≠ 0 →
      ∃ w', Loc k' j w' ∧ entry_at k' w' = 0 ∧ ∀ t, t < 3 → tag_at k' t w' = false := by
    intro j hb hne
    have hv : Visits k' j n := Visits.root n hhead hnn (by rw [hnshift]; exact hb)
    refine ⟨Place.slot n (get_offset j (k'.mem n)), loc_slot_iff.2 ⟨hv, ?_, ?_⟩, ?_, ?_⟩
    · simp [canon, hslot_pos _ hne, xa_is_sibling, hint0]
    · rw [hslot_pos _ hne]
      decide
    · exact hslot_pos _ hne
    · intro t ht
      simp only [tag_at]
      rw [hntags _ _ ht]
      simp [hne]
  have hvis : ∀ j y, Visits k j y → Visits k' j y := by
    intro j y hv
    induction hv with
    | root x hh hn hb =>
      have hhn : xa_is_node k.xa_head = true := by rw [hh]; exact hn
      have hx : x = k.xa_head - 2 := by omega
      have hs := hsn hhn
      rw [← hx] at hs
      have hvn : Visits k' j n := by
        refine Visits.root n hhead hnn ?_
        rw [hnshift, hs, shr_add6]
        simp only [XA_CHUNK_MASK] at hb ⊢
        generalize j >>> (k.mem x).shift = A at *
        omega
      refine Visits.step n x hvn ?_ hn
      have eo : get_offset j (k'.mem n) = 0 := by
        rw [get_offset_eq, hnshift, hs, shr_add6]
        simp only [XA_CHUNK_MASK] at hb
        generalize j >>> (k.mem x).shift = A at *
        omega
      rw [eo, hnslots]
      simp only [if_true]
      exact hh
    | step y c hvy hs hn ih =>
      have hy := visits_live hc hvy
      refine Visits.step y c ih ?_ hn
      have eo : get_offset j (k'.mem y) = get_offset j (k.mem y) := by
        simp [get_offset, (hsame y hy).1]
      rw [eo, (hsame y hy).2.1, hs]
  intro j w hl
  cases w with
  | head =>
    obtain ⟨hleaf, hj⟩ := hl
    subst hj
    have hs := hsl hleaf
    have hv : Visits k' 0 n := Visits.root n hhead hnn (by simp)
    have eo : get_offset 0 (k'.mem n) = 0 := get_offset_zero_index _
    have hs0 : (k'.mem n).slots 0 = k.xa_head := by rw [hnslots]; simp
    have hnsib : xa_is_sibling k.xa_head = false :=
      not_internal_not_sibling _ (hc.head_leaf hleaf).1
    refine ⟨Place.slot n 0, loc_slot_iff.2 ⟨hv, ?_, ?_⟩, hs0, ?_⟩
    · rw [eo]
      simp [canon, hs0, hnsib]
    · rw [hs0]
      exact hleaf
    · intro t ht
      simp only [tag_at]
      rw [hntags _ _ ht]
      simp
  | bounds =>
    by_cases hb : j >>> s > XA_CHUNK_MASK
    · exact ⟨Place.bounds, Or.inr ⟨hn', by rw [e, hnshift]; exact hb⟩, rfl, fun _ _ => rfl⟩
    · have hb' : j >>> s ≤ XA_CHUNK_MASK := by omega
      have : get_offset j (k'.mem n) ≠ 0 := by
        rw [get_offset_eq, hnshift]
        rcases hl with hl | hl
        · have hs := hsl hl.1
          rw [hs] at hb' ⊢
          simp only [Nat.shiftRight_zero, XA_CHUNK_MASK] at hb' ⊢
          have := hl.2
          omega
        · have hs := hsn hl.1
          have hl2 := hl.2
          rw [hs, shr_add6] at hb' ⊢
          simp only [XA_CHUNK_MASK] at hb' hl2 ⊢
          generalize j >>> (k.mem (k.xa_head - 2)).shift = A at *
          omega
      obtain ⟨w', a, b, c⟩ := hnew j hb' this
      exact ⟨w', a, by rw [b]; rfl, fun t ht => by rw [c t ht]; rfl⟩
  | slot y q =>
    obtain ⟨v, cq, nq⟩ := loc_slot_iff.1 hl
    have hy := visits_live hc v
    have eo : get_offset j (k'.mem y) = get_offset j (k.mem y) := by
      simp [get_offset, (hsame y hy).1]
    refine ⟨Place.slot y q, loc_slot_iff.2 ⟨hvis j y v, ?_, ?_⟩, ?_, ?_⟩
    · rw [eo, cq]
      simp only [canon, (hsame y hy).2.1]
    · rw [(hsame y hy).2.1]
      exact nq
    · simp only [entry_at]
      rw [(hsame y hy).2.1]
    · intro t _
      exact node_get_tag_congr (by rw [(hsame y hy).2.2])

theorem max_index_leaf (k : Kernel) (head : Nat) (h : xa_is_node head = false) :
    max_index k head = 0 := by
  simp [max_index, h]

theorem max_index_node_iff (k : Kernel) (head max : Nat) (h : xa_is_node head = true)
    (h6 : (k.mem (head - 2)).shift % 6 = 0) (h60 : (k.mem (head - 2)).shift ≤ 60)
    (hmax : max < 2 ^ 64) :
    max > max_index k head ↔ max >>> (k.mem (head - 2)).shift > 63 := by
  simp only [max_index, h, Bool.not_true, Bool.false_eq_true, if_false, to_node_def]
  generalize (k.mem (head - 2)).shift = sh at *
  by_cases hs : sh = 60
  · subst hs
    rw [Nat.shiftRight_eq_div_pow]
    have e : ((XA_CHUNK_SIZE <<< 60) % WORD + (WORD - 1)) % WORD = 2 ^ 64 - 1 := by decide
    rw [e]
    omega
  · have hle : sh ≤ 54 := by omega
    rw [Nat.shiftLeft_eq, Nat.shiftRight_eq_div_pow]
    have hp : 2 ^ sh ≤ 2 ^ 54 := Nat.pow_le_pow_right (by omega) hle
    have hpos : 0 < 2 ^ sh := Nat.two_pow_pos sh
    have hdiv : 64 ≤ max / 2 ^ sh ↔ 64 * 2 ^ sh ≤ max := Nat.le_div_iff_mul_le hpos
    generalize 2 ^ sh = P at *
    simp only [XA_CHUNK_SIZE, WORD]
    have hp2 : P ≤ 18014398509481984 := by simpa using hp
    omega

theorem xas_expand_tag_spec (k : Kernel) (n tag : Nat) :
    (xas_expand_tag k n tag).xa_head = k.xa_head ∧
    (xas_expand_tag k n tag).xa_flags = k.xa_flags ∧
    (xas_expand_tag k n tag).slab_next = k.slab_next ∧
    (xas_expand_tag k n tag).slab_grant = k.slab_grant ∧
    (xas_expand_tag k n tag).rcu_pending = k.rcu_pending ∧
    (xas_expand_tag k n tag).xa_addr = k.xa_addr ∧
    (∀ y, y ≠ n → (xas_expand_tag k n tag).mem y = k.mem y) ∧
    ((xas_expand_tag k n tag).mem n).shift = (k.mem n).shift ∧
    ((xas_expand_tag k n tag).mem n).offset = (k.mem n).offset ∧
    ((xas_expand_tag k n tag).mem n).parent = (k.mem n).parent ∧
    ((xas_expand_tag k n tag).mem n).count = (k.mem n).count ∧
    ((xas_expand_tag k n tag).mem n).slots = (k.mem n).slots ∧
    (∀ o t, node_get_tag ((xas_expand_tag k n tag).mem n) o t =
      (node_get_tag (k.mem n) o t || (decide (o = 0) && decide (t = tag) && xa_tagged k t))) := by
  unfold xas_expand_tag
  by_cases h : xa_tagged k tag = true
  · simp only [h, if_true]
    refine ⟨rfl, rfl, rfl, rfl, rfl, rfl, ?_, ?_, ?_, ?_, ?_, ?_, ?_⟩
    · intro y hy
      simp [hy]
    all_goals simp [node_set_tag]
    intro o t
    by_cases ht : t = tag
    · subst ht
      simp [node_get_tag, test_set_bit, h, eq_comm]
    · simp [node_get_tag, ht]
  · simp only [h, if_false]
    refine ⟨rfl, rfl, rfl, rfl, rfl, rfl, fun _ _ => rfl, rfl, rfl, rfl, rfl, rfl, ?_⟩
    intro o t
    by_cases ht : t = tag
    · subst ht
      simp at h
      simp [h]
    · simp [ht]

theorem xas_expand_tags_spec (k : Kernel) (n : Nat) :
    (xas_expand_tags k n).xa_head = k.xa_head ∧ (xas_expand_tags k n).xa_flags = k.xa_flags ∧
    (xas_expand_tags k n).slab_next = k.slab_next ∧
    (xas_expand_tags k n).slab_grant = k.slab_grant ∧
    (xas_expand_tags k n).rcu_pending = k.rcu_pending ∧
    (xas_expand_tags k n).xa_addr = k.xa_addr ∧
    (∀ y, y ≠ n → (xas_expand_tags k n).mem y = k.mem y) ∧
    ((xas_expand_tags k n).mem n).shift = (k.mem n).shift ∧
    ((xas_expand_tags k n).mem n).offset = (k.mem n).offset ∧
    ((xas_expand_tags k n).mem n).parent = (k.mem n).parent ∧
    ((xas_expand_tags k n).mem n).count = (k.mem n).count ∧
    ((xas_expand_tags k n).mem n).slots = (k.mem n).slots ∧
    (∀ o t, t < 3 → node_get_tag ((xas_expand_tags k n).mem n) o t =
      (node_get_tag (k.mem n) o t || (decide (o = 0) && xa_tagged k t))) := by
  unfold xas_expand_tags
  obtain ⟨a1, a2, a3, a4, a5, a6, a7, a8, a9, a10, a11, a12, a13⟩ := xas_expand_tag_spec k n 0
  obtain ⟨b1, b2, b3, b4, b5, b6, b7, b8, b9, b10, b11, b12, b13⟩ :=
    xas_expand_tag_spec (xas_expand_tag k n 0) n 1
  obtain ⟨c1, c2, c3, c4, c5, c6, c7, c8, c9, c10, c11, c12, c13⟩ :=
    xas_expand_tag_spec (xas_expand_tag (xas_expand_tag k n 0) n 1) n 2
  refine ⟨by rw [c1, b1, a1], by rw [c2, b2, a2], by rw [c3, b3, a3], by rw [c4, b4, a4],
    by rw [c5, b5, a5], by rw [c6, b6, a6], fun y hy => by rw [c7 y hy, b7 y hy, a7 y hy],
    by rw [c8, b8, a8], by rw [c9, b9, a9], by rw [c10, b10, a10], by rw [c11, b11, a11],
    by rw [c12, b12, a12], ?_⟩
  intro o t ht
  rw [c13, b13, a13]
  have e1 : xa_tagged (xas_expand_tag k n 0) t = xa_tagged k t := xa_tagged_congr t a2
  have e2 : xa_tagged (xas_expand_tag (xas_expand_tag k n 0) n 1) t = xa_tagged k t := by
    rw [xa_tagged_congr t b2, e1]
  rw [e1, e2]
  have h3 : t = 0 ∨ t = 1 ∨ t = 2 := by omega
  rcases h3 with rfl | rfl | rfl <;> cases node_get_tag (k.mem n) o _ <;>
    cases xa_tagged k _ <;> simp

theorem xas_expand_link_spec (k0 k : Kernel) (n head s : Nat) (hn : n % 4 = 0)
    (hnh : xa_is_node head = true → head - 2 ≠ n)
    (hf : k.xa_flags = k0.xa_flags)
    (hshift : (k.mem n).shift = s) (hpar : (k.mem n).parent = 0)
    (hslots : (k.mem n).slots = fun _ => 0) (htags : (k.mem n).tags = fun _ => 0)
    (hmem : ∀ y, y ≠ n → k.mem y = k0.mem y) :
    (xas_expand_link k n head).xa_head = n + 2 ∧
    (xas_expand_link k n head).xa_flags = k0.xa_flags ∧
    (xas_expand_link k n head).slab_next = k.slab_next ∧
    (xas_expand_link k n head).slab_grant = k.slab_grant ∧
    (xas_expand_link k n head).rcu_pending = k.rcu_pending ∧
    ((xas_expand_link k n head).mem n).shift = s ∧
    ((xas_expand_link k n head).mem n).parent = 0 ∧
    ((xas_expand_link k n head).mem n).count = 1 ∧
    ((xas_expand_link k n head).mem n).slots = (fun i => if i = 0 then head else 0) ∧
    (∀ o t, t < 3 → node_get_tag ((xas_expand_link k n head).mem n) o t =
      (decide (o = 0) && xa_tagged k0 t)) ∧
    (xa_is_node head = true → (xas_expand_link k n head).mem (head - 2) =
      { k0.mem (head - 2) with offset := 0, parent := n }) ∧
    (∀ y, y ≠ n → (xa_is_node head = true → y ≠ head - 2) →
      (xas_expand_link k n head).mem y = k0.mem y) := by
  unfold xas_expand_link
  simp only []
  generalize hk2 : (if xa_is_value head = true then
      (k.setNode n { k.mem n with count := 1 }).setNode n
        { (k.setNode n { k.mem n with count := 1 }).mem n with nr_values := 1 }
      else k.setNode n { k.mem n with count := 1 }) = k2
  have f2 : k2.xa_head = k.xa_head ∧ k2.xa_flags = k.xa_flags ∧ k2.slab_next = k.slab_next ∧
      k2.slab_grant = k.slab_grant ∧ k2.rcu_pending = k.rcu_pending ∧
      (∀ y, y ≠ n → k2.mem y = k.mem y) ∧ (k2.mem n).shift = s ∧ (k2.mem n).parent = 0 ∧
      (k2.mem n).count = 1 ∧ (k2.mem n).slots = (fun _ => 0) ∧ (k2.mem n).tags = (fun _ => 0) := by
    rw [← hk2]
    split_ifs
    · refine ⟨rfl, rfl, rfl, rfl, rfl, ?_, ?_, ?_, ?_, ?_, ?_⟩
      · intro y hy; simp [hy]
      all_goals simp [hshift, hpar, hslots, htags]
    · refine ⟨rfl, rfl, rfl, rfl, rfl, ?_, ?_, ?_, ?_, ?_, ?_⟩
      · intro y hy; simp [hy]
      all_goals simp [hshift, hpar, hslots, htags]
  obtain ⟨a1, a2, a3, a4, a5, a6, a7, a8, a9, a10, a11⟩ := f2
  generalize hk4 : k2.setNode n
      { k2.mem n with slots := fun i => if i = 0 then head else (k2.mem n).slots i } = k4
  have f4 : k4.xa_head = k.xa_head ∧ k4.xa_flags = k.xa_flags ∧ k4.slab_next = k.slab_next ∧
      k4.slab_grant = k.slab_grant ∧ k4.rcu_pending = k.rcu_pending ∧
      (∀ y, y ≠ n → k4.mem y = k.mem y) ∧ (k4.mem n).shift = s ∧ (k4.mem n).parent = 0 ∧
      (k4.mem n).count = 1 ∧ (k4.mem n).slots = (fun i => if i = 0 then head else 0) ∧
      (k4.mem n).tags = (fun _ => 0) := by
    rw [← hk4]
    refine ⟨a1, a2, a3, a4, a5, ?_, ?_, ?_, ?_, ?_, ?_⟩
    · intro y hy; simp [hy, a6 y hy]
    all_goals simp [a7, a8, a9, a10, a11]
  clear a1 a2 a3 a4 a5 a6 a7 a8 a9 a10 a11 hk2 hk4
  obtain ⟨a1, a2, a3, a4, a5, a6, a7, a8, a9, a10, a11⟩ := f4
  obtain ⟨c1, c2, c3, c4, c5, _, c7, c8, _, c10, c11, c12, c13⟩ := xas_expand_tags_spec k4 n
  generalize xas_expand_tags k4 n = k5 at *
  have e2 : xa_mk_node n = n + 2 := xa_mk_node_eq n hn
  have htg : ∀ o t, t < 3 → node_get_tag (k5.mem n) o t = (decide (o = 0) && xa_tagged k0 t) := by
    intro o t ht
    rw [c13 o t ht, node_get_tag_zero _ o t a11, xa_tagged_congr t (a2.trans hf)]
    simp
  by_cases hnode : xa_is_node head = true
  · have hne := hnh hnode
    rw [if_pos hnode]
    simp only [to_node_def, e2]
    refine ⟨trivial, ?_, ?_, ?_, ?_, ?_, ?_, ?_, ?_, ?_, ?_, ?_⟩
    · show k5.xa_flags = _
      rw [c2, a2, hf]
    · show k5.slab_next = _
      rw [c3, a3]
    · show k5.slab_grant = _
      rw [c4, a4]
    · show k5.rcu_pending = _
      rw [c5, a5]
    · simp [Ne.symm hne, c8, a7]
    · simp [Ne.symm hne, c10, a8]
    · simp [Ne.symm hne, c11, a9]
    · simp [Ne.symm hne, c12, a10]
    · intro o t ht
      simp only [setNode_mem, if_neg (Ne.symm hne)]
      exact htg o t ht
    · intro _
      simp [c7 _ hne, a6 _ hne, hmem _ hne]
    · intro y hy hy2
      have hy3 := hy2 hnode
      simp [hy3, c7 y hy, a6 y hy, hmem y hy]
  · rw [if_neg hnode]
    simp only [e2]
    refine ⟨trivial, ?_, ?_, ?_, ?_, c8.trans a7, c10.trans a8, c11.trans a9, c12.trans a10, htg, ?_, ?_⟩
    · show k5.xa_flags = _
      rw [c2, a2, hf]
    · show k5.slab_next = _
      rw [c3, a3]
    · show k5.slab_grant = _
      rw [c4, a4]
    · show k5.rcu_pending = _
      rw [c5, a5]
    · intro h
      exact absurd h hnode
    · intro y hy _
      show k5.mem y = _
      rw [c7 y hy, a6 y hy, hmem y hy]

theorem not_sibling_zero : xa_is_sibling 0 = false := by
  decide

theorem nomulti_expand {k k' : Kernel} {L : Nat → Prop} {n s : Nat} (hi : Inv k L)
    (hm : NoMulti k L) (hn0 : n = k.slab_next)
    (hsl : xa_is_node k.xa_head = false → s = 0)
    (hnshift : (k'.mem n).shift = s)
    (hnslots : (k'.mem n).slots = fun i => if i = 0 then k.xa_head else 0)
    (hr : xa_is_node k.xa_head = true →
      k'.mem (k.xa_head - 2) = { k.mem (k.xa_head - 2) with offset := 0, parent := n })
    (hmem : ∀ y, y ≠ n → (xa_is_node k.xa_head = true → y ≠ k.xa_head - 2) →
      k'.mem y = k.mem y) :
    NoMulti k' (fun y => L y ∨ y = n) := by
  have hc := hi.core
  intro y hy o ho
  rcases hy with hy | hy
  · have hne : y ≠ n := by rw [hn0]; exact live_lt_slab hc hy
    have hsame : (k'.mem y).slots = (k.mem y).slots ∧ (k'.mem y).shift = (k.mem y).shift := by
      by_cases hyr : xa_is_node k.xa_head = true ∧ y = k.xa_head - 2
      · rw [hyr.2, hr hyr.1]
        exact ⟨rfl, rfl⟩
      · rw [hmem y hne (fun hq hyy => hyr ⟨hq, hyy⟩)]
        exact ⟨rfl, rfl⟩
    rw [hsame.1, hsame.2]
    exact hm y hy o ho
  · subst hy
    rw [hnslots, hnshift]
    by_cases ho0 : o = 0
    · subst ho0
      simp only [if_true]
      cases hq : xa_is_node k.xa_head
      · refine ⟨not_internal_not_sibling _ (hc.head_leaf hq).1, ?_⟩
        intro hs
        exact absurd (hsl hq) hs
      · exact ⟨is_node_not_sibling _ hq, fun _ _ => rfl⟩
    · simp only [if_neg ho0]
      exact ⟨not_sibling_zero, fun _ h => absurd rfl h⟩

theorem nomulti_add_child {k k' : Kernel} {L : Nat → Prop} {x o c : Nat} (hi : Inv k L)
    (hm : NoMulti k L) (hc0 : c = k.slab_next)
    (hcslots : (k'.mem c).slots = fun _ => 0)
    (hslots : (k'.mem x).slots = fun i => if i = o then c + 2 else (k.mem x).slots i)
    (hshift : (k'.mem x).shift = (k.mem x).shift)
    (hmem : ∀ y, y ≠ c → y ≠ x → k'.mem y = k.mem y) :
    NoMulti k' (fun y => L y ∨ y = c) := by
  have hc := hi.core
  have hcn : xa_is_node (c + 2) = true := by
    rw [hc0]
    exact is_node_add2 _ hc.slab_align hc.slab_big
  intro y hy q hq
  rcases hy with hy | hy
  · have hne : y ≠ c := by rw [hc0]; exact live_lt_slab hc hy
    by_cases hyx : y = x
    · subst hyx
      rw [hslots, hshift]
      by_cases hqo : q = o
      · simp only [hqo, if_true]
        exact ⟨is_node_not_sibling _ hcn, fun _ _ => hcn⟩
      · simp only [if_neg hqo]
        exact hm y hy q hq
    · rw [hmem y hne hyx]
      exact hm y hy q hq
  · subst hy
    rw [hcslots]
    exact ⟨not_sibling_zero, fun _ h => absurd rfl h⟩

theorem nomulti_add_root {k' : Kernel} {c : Nat} (hcslots : (k'.mem c).slots = fun _ => 0) :
    NoMulti k' (fun y => y = c) := by
  intro y hy q _
  subst hy
  rw [hcslots]
  exact ⟨not_sibling_zero, fun _ h => absurd rfl h⟩

theorem nomulti_write {k k' : Kernel} {L : Nat → Prop} {x o e : Nat} (hm : NoMulti k L)
    (he : xa_is_internal e = false) (h0 : (k.mem x).shift = 0)
    (hmem : ∀ y, y ≠ x → k'.mem y = k.mem y)
    (hslots : (k'.mem x).slots = fun i => if i = o then e else (k.mem x).slots i)
    (hshift : (k'.mem x).shift = (k.mem x).shift) : NoMulti k' L := by
  intro y hy q hq
  by_cases hyx : y = x
  · subst hyx
    rw [hslots, hshift]
    by_cases hqo : q = o
    · simp only [hqo, if_true]
      exact ⟨not_internal_not_sibling _ he, fun h => absurd h0 h⟩
    · simp only [if_neg hqo]
      exact hm y hy q hq
  · rw [hmem y hyx]
    exact hm y hy q hq

/-- In an array of single-index entries, two indices that land on the same
present entry are equal. -/
theorem loc_inj {k : Kernel} {L : Nat → Prop} (hc : Core k L) (hm : NoMulti k L) {i j y o : Nat}
    (hi : Loc k i (Place.slot y o)) (hj : Loc k j (Place.slot y o))
    (hne : (k.mem y).slots o ≠ 0) : i = j := by
  obtain ⟨v1, c1, n1⟩ := loc_slot_iff.1 hi
  obtain ⟨v2, c2, _⟩ := loc_slot_iff.1 hj
  have hy := visits_live hc v1
  have ho := (loc_slot_facts hc hi).2.1
  have h0 : (k.mem y).shift = 0 := by
    by_contra hs
    have := (hm y hy o ho).2 hs hne
    rw [this] at n1
    exact absurd n1 (by simp)
  have r1 : o = get_offset i (k.mem y) := by
    rw [c1]
    simp [canon, (hm y hy _ (get_offset_lt i _)).1]
  have r2 : o = get_offset j (k.mem y) := by
    rw [c2]
    simp [canon, (hm y hy _ (get_offset_lt j _)).1]
  have e := visits_inj hc v1 v2
  rw [get_offset_eq, h0] at r1 r2
  rw [h0, shr_add6, shr_add6] at e
  simp only [Nat.shiftRight_zero] at r1 r2 e
  omega

/-! ## The head in canonical form -/

theorem count_upto_pos (slots : Nat → Nat) : ∀ n o, o < n → slots o ≠ 0 →
    count_upto slots n ≠ 0 := by
  intro n
  induction n with
  | zero => intro o ho; omega
  | succ n ih =>
    intro o ho hs
    rw [count_upto]
    by_cases hon : o = n
    · subst hon
      rw [if_neg hs]
      omega
    · have := ih o (by omega) hs
      omega

theorem count_upto_two (slots : Nat → Nat) : ∀ n, 2 ≤ count_upto slots n →
    ∃ o, 0 < o ∧ o < n ∧ slots o ≠ 0 := by
  intro n
  induction n with
  | zero =>
    intro h
    simp [count_upto] at h
  | succ n ih =>
    intro h
    rw [count_upto] at h
    by_cases hs : slots n = 0
    · rw [if_pos hs] at h
      obtain ⟨o, h1, h2, h3⟩ := ih (by omega)
      exact ⟨o, h1, by omega, h3⟩
    · rw [if_neg hs] at h
      by_cases hn : n = 0
      · subst hn
        simp [count_upto] at h
      · exact ⟨n, by omega, by omega, hs⟩

theorem count_upto_exists (slots : Nat → Nat) (n : Nat) (h : count_upto slots n ≠ 0) :
    ∃ o, o < n ∧ slots o ≠ 0 := by
  by_contra hne
  apply h
  have : ∀ m, m ≤ n → count_upto slots m = 0 := by
    intro m
    induction m with
    | zero => intro _; rfl
    | succ m ih =>
      intro hm
      rw [count_upto, ih (by omega)]
      have : slots m = 0 := by
        by_contra hs
        exact hne ⟨m, by omega, hs⟩
      rw [if_pos this]
  exact this n (le_refl n)

theorem nonEmpty_iff_count {k : Kernel} {L : Nat → Prop} (hc : Core k L) {x : Nat} (hx : L x) :
    NonEmpty k x ↔ (k.mem x).count ≠ 0 := by
  rw [(hc.nodes x hx).count]
  constructor
  · rintro ⟨o, ho, hs⟩
    exact count_upto_pos _ 64 o ho hs
  · intro h
    exact count_upto_exists _ 64 h

/-- A root node that `xas_shrink` leaves alone holds something beyond slot 0. -/
theorem rootOK_of_count {k : Kernel} {L : Nat → Prop} (hc : Core k L) {x : Nat} (hx : L x)
    (h0 : (k.mem x).count ≠ 0) (h1 : (k.mem x).count ≠ 1 ∨ (k.mem x).slots 0 = 0) :
    RootOK k x := by
  rw [(hc.nodes x hx).count] at h0 h1
  rcases h1 with h1 | h1
  · exact count_upto_two _ 64 (by omega)
  · obtain ⟨o, ho, hs⟩ := count_upto_exists _ 64 h0
    refine ⟨o, ?_, ho, hs⟩
    by_contra h
    have : o = 0 := by omega
    rw [this] at hs
    exact hs h1

theorem tight_init (addr flags base : Nat) (grant : Nat → Nat → Bool) (L : Nat → Prop)
    (hi : Inv (xa_init_flags addr flags base grant) L) :
    Tight (xa_init_flags addr flags base grant) L := by
  refine ⟨?_, ?_⟩
  · intro x hx
    exact absurd hx ((hi.core.head_leaf (show xa_is_node 0 = false by decide)).2 x)
  · intro h
    exact absurd h (show ¬ xa_is_node 0 = true by decide)

theorem tight_pre {k : Kernel} {L : Nat → Prop} (h : Tight k L) (i : Nat) : PreTight k L i :=
  ⟨fun x hx => Or.inl (h.1 x hx), fun hq => Or.inl (h.2 hq)⟩

theorem tight_tagOnly {k k' : Kernel} {L : Nat → Prop} (h : Tight k L) (ht : TagOnly k k') :
    Tight k' L := by
  refine ⟨?_, ?_⟩
  · intro x hx
    obtain ⟨o, ho, hs⟩ := h.1 x hx
    exact ⟨o, ho, by rw [ht.slots x]; exact hs⟩
  · intro hq
    rw [ht.head] at hq ⊢
    obtain ⟨o, h0, ho, hs⟩ := h.2 hq
    exact ⟨o, h0, ho, by rw [ht.slots]; exact hs⟩

theorem visits_head_bound {k : Kernel} {i x : Nat} (hv : Visits k i x) :
    xa_is_node k.xa_head = true ∧ i >>> (k.mem (k.xa_head - 2)).shift ≤ 63 := by
  induction hv with
  | root x hh hn hb =>
    have e : k.xa_head - 2 = x := by omega
    rw [e]
    exact ⟨by rw [hh]; exact hn, hb⟩
  | step y c _ _ _ ih => exact ih

theorem visits_head {k : Kernel} {i x : Nat} (hv : Visits k i x) :
    Visits k i (k.xa_head - 2) := by
  induction hv with
  | root x hh hn hb =>
    have e : k.xa_head - 2 = x := by omega
    rw [e]
    exact Visits.root x hh hn hb
  | step y c _ _ _ ih => exact ih

theorem xas_expand_shift_min (max : Nat) :
    ∀ fuel s0 s, xas_expand_shift max fuel s0 = some s →
      s = s0 ∨ (6 ≤ s ∧ max >>> (s - 6) ≥ 64) := by
  intro fuel
  induction fuel with
  | zero =>
    intro s0 s h
    simp [xas_expand_shift] at h
  | succ f ih =>
    intro s0 s h
    rw [xas_expand_shift] at h
    by_cases hge : max >>> s0 ≥ XA_CHUNK_SIZE
    · rw [if_pos hge] at h
      rcases ih _ _ h with h1 | h1
      · right
        rw [h1]
        simp only [XA_CHUNK_SHIFT, XA_CHUNK_SIZE] at hge ⊢
        exact ⟨by omega, by rw [Nat.add_sub_cancel]; exact hge⟩
      · exact Or.inr h1
    · rw [if_neg hge] at h
      left
      exact (Option.some.inj h).symm

theorem shr_pos_of_ge (a s : Nat) (h6 : 6 ≤ s) (h : a >>> (s - 6) ≥ 64) : 0 < a >>> s := by
  have e : a >>> s = (a >>> (s - 6)) >>> 6 := by
    rw [← Nat.shiftRight_add]
    congr 1
    omega
  rw [e, Nat.shiftRight_eq_div_pow]
  have : (2 : Nat) ^ 6 = 64 := by decide
  rw [this]
  omega

/-- Putting a new root above the head keeps the shape wanted before the
write at an index that lies beyond the old root. -/
theorem pretight_expand {k k' : Kernel} {L : Nat → Prop} {n s max : Nat} (hi : Inv k L)
    (hh0 : k.xa_head ≠ 0) (hmax : max < 2 ^ 64) (hgt : max > max_index k k.xa_head)
    (hsn : xa_is_node k.xa_head = true → s = (k.mem (k.xa_head - 2)).shift + 6)
    (hsl : xa_is_node k.xa_head = false → s = 0)
    (hhead : k'.xa_head = n + 2)
    (hnshift : (k'.mem n).shift = s)
    (hnslots : (k'.mem n).slots = fun i => if i = 0 then k.xa_head else 0)
    (hslots : ∀ y, L y → (k'.mem y).slots = (k.mem y).slots)
    (hp : PreTight k L max) : PreTight k' (fun y => L y ∨ y = n) max := by
  have hc := hi.core
  refine ⟨?_, ?_⟩
  · intro y hy
    rcases hy with hy | hy
    · rcases hp.1 y hy with h | h
      · obtain ⟨o, ho, hs⟩ := h
        exact Or.inl ⟨o, ho, by rw [hslots y hy]; exact hs⟩
      · exfalso
        obtain ⟨hq, hb⟩ := visits_head_bound h
        have hr := hc.nodes _ (hc.head_node hq).1
        have := (max_index_node_iff k k.xa_head max hq hr.shift6 hr.shift_le hmax).1 hgt
        omega
    · left
      rw [hy]
      exact ⟨0, by omega, by rw [hnslots]; simpa using hh0⟩
  · intro _
    right
    have e : k'.xa_head - 2 = n := by rw [hhead]; omega
    rw [e, hnshift]
    by_cases hq : xa_is_node k.xa_head = true
    · have hr := hc.nodes _ (hc.head_node hq).1
      have := (max_index_node_iff k k.xa_head max hq hr.shift6 hr.shift_le hmax).1 hgt
      rw [hsn hq]
      apply shr_pos_of_ge _ _ (by omega)
      rw [Nat.add_sub_cancel]
      omega
    · simp only [Bool.not_eq_true] at hq
      rw [hsl hq, Nat.shiftRight_zero]
      rw [max_index_leaf k _ hq] at hgt
      exact hgt

/-- Linking a new, empty child on the walk of the index keeps the shape wanted
before the write. -/
theorem pretight_add_child {k k' : Kernel} {L : Nat → Prop} {x o c i : Nat} (hc : Core k L)
    (hnull : (k.mem x).slots o = 0) (hcL : ¬ L c)
    (hhead : k'.xa_head = k.xa_head)
    (hslots : (k'.mem x).slots = fun q => if q = o then c + 2 else (k.mem x).slots q)
    (hshift : (k'.mem x).shift = (k.mem x).shift)
    (hmem : ∀ y, y ≠ c → y ≠ x → k'.mem y = k.mem y)
    (hvc : Visits k' i c)
    (hp : PreTight k L i) : PreTight k' (fun y => L y ∨ y = c) i := by
  have hne : ∀ y, L y → y ≠ c := fun y hy h => hcL (h ▸ hy)
  have hsl : ∀ y q, L y → (k.mem y).slots q ≠ 0 → (k'.mem y).slots q = (k.mem y).slots q := by
    intro y q hy hs
    by_cases hyx : y = x
    · rw [hyx] at hs ⊢
      rw [hslots]
      have : q ≠ o := by
        intro h
        rw [h] at hs
        exact hs hnull
      simp [this]
    · rw [hmem y (hne y hy) hyx]
  have hsh : ∀ y, L y → (k'.mem y).shift = (k.mem y).shift := by
    intro y hy
    by_cases hyx : y = x
    · rw [hyx]
      exact hshift
    · rw [hmem y (hne y hy) hyx]
  refine ⟨?_, ?_⟩
  · intro y hy
    rcases hy with hy | hy
    · rcases hp.1 y hy with h | h
      · obtain ⟨q, hq, hs⟩ := h
        exact Or.inl ⟨q, hq, by rw [hsl y q hy hs]; exact hs⟩
      · exact Or.inr (visits_extend hc hhead hsh hsl h)
    · rw [hy]
      exact Or.inr hvc
  · intro hq
    rw [hhead] at hq ⊢
    have hr := (hc.head_node hq).1
    rcases hp.2 hq with h | h
    · obtain ⟨q, h0, hq64, hs⟩ := h
      exact Or.inl ⟨q, h0, hq64, by rw [hsl _ q hr hs]; exact hs⟩
    · right
      rw [hsh _ hr]
      exact h

/-- The shape is complete once the node that was worked on is in order. -/
theorem tight_of_post {k : Kernel} {L : Nat → Prop} {y : Nat} (hp : PostTight k L y)
    (hy : NonEmpty k y) (hr : xa_is_node k.xa_head = true → k.xa_head - 2 = y → RootOK k y) :
    Tight k L := by
  refine ⟨?_, ?_⟩
  · intro x hx
    by_cases hxy : x = y
    · rw [hxy]
      exact hy
    · exact hp.1 x hx hxy
  · intro hq
    by_cases hxy : k.xa_head - 2 = y
    · rw [hxy]
      exact hr hq hxy
    · exact hp.2 hq hxy

theorem posttight_of_tight {k k' : Kernel} {L : Nat → Prop} {y : Nat} (h : Tight k L)
    (hhead : k'.xa_head = k.xa_head)
    (hslots : ∀ z, z ≠ y → (k'.mem z).slots = (k.mem z).slots) : PostTight k' L y := by
  refine ⟨?_, ?_⟩
  · intro x hx hxy
    obtain ⟨o, ho, hs⟩ := h.1 x hx
    exact ⟨o, ho, by rw [hslots x hxy]; exact hs⟩
  · intro hq hne
    rw [hhead] at hq hne ⊢
    obtain ⟨o, h0, ho, hs⟩ := h.2 hq
    exact ⟨o, h0, ho, by rw [hslots _ hne]; exact hs⟩

/-- Freeing the empty node `x` and clearing its slot in the parent `p` leaves
every node but `p` in order. -/
theorem posttight_unlink {k k' : Kernel} {L : Nat → Prop} {x p : Nat} (hc : Core k L)
    (hpar : (k.mem x).parent ≠ 0)
    (hhead : k'.xa_head = k.xa_head)
    (hmem : ∀ z, z ≠ x → z ≠ p → k'.mem z = k.mem z)
    (h : PostTight k L x) : PostTight k' (fun z => L z ∧ z ≠ x) p := by
  refine ⟨?_, ?_⟩
  · intro z hz hzp
    obtain ⟨o, ho, hs⟩ := h.1 z hz.1 hz.2
    exact ⟨o, ho, by rw [hmem z hz.2 hzp]; exact hs⟩
  · intro hq hne
    rw [hhead] at hq hne ⊢
    have hrp := (hc.head_node hq).2
    have hrx : k.xa_head - 2 ≠ x := by
      intro e
      rw [e] at hrp
      exact hpar hrp
    obtain ⟨o, h0, ho, hs⟩ := h.2 hq hrx
    exact ⟨o, h0, ho, by rw [hmem _ hrx hne]; exact hs⟩

/-- Replacing the root `x` by its only child `c` leaves every node but `c` in order. -/
theorem posttight_shrink_node {k k' : Kernel} {L : Nat → Prop} {x c : Nat}
    (hhead : k'.xa_head = c + 2)
    (hmem : ∀ z, z ≠ x → z ≠ c → k'.mem z = k.mem z)
    (h : PostTight k L x) : PostTight k' (fun z => L z ∧ z ≠ x) c := by
  refine ⟨?_, ?_⟩
  · intro z hz hzc
    obtain ⟨o, ho, hs⟩ := h.1 z hz.1 hz.2
    exact ⟨o, ho, by rw [hmem z hz.2 hzc]; exact hs⟩
  · intro _ hne
    exfalso
    apply hne
    rw [hhead]
    omega

theorem xas_expand_loop_spec (max : Nat) (hmax : max < 2 ^ 64) :
    ∀ fuel k L xas head node shift, Inv k L → AllocOK k → xas.xa_alloc = 0 → xas.xa_node = 0 →
      head = k.xa_head → head ≠ 0 →
      (xa_is_node head = true → node = head - 2 ∧ shift = (k.mem (head - 2)).shift + 6) →
      (xa_is_node head = false → node = 0 ∧ shift = 0) →
      72 ≤ shift + 6 * fuel →
      ∃ k' L' node' shift',
        xas_expand_loop max fuel k xas head node shift =
          some (k', { xas with xa_node := node' }, ((shift' : Nat) : Int)) ∧
        Inv k' L' ∧ Sim k k' ∧ AllocOK k' ∧ k'.xa_flags = k.xa_flags ∧
        k'.rcu_pending = k.rcu_pending ∧ k'.xa_head ≠ 0 ∧
        (xa_is_node k'.xa_head = true → node' = k'.xa_head - 2 ∧
          shift' = (k'.mem (k'.xa_head - 2)).shift + 6 ∧
          max >>> (k'.mem (k'.xa_head - 2)).shift ≤ 63) ∧
        (xa_is_node k'.xa_head = false → node' = 0 ∧ shift' = 0 ∧ max = 0 ∧ k' = k) ∧
        (NoMulti k L → NoMulti k' L') ∧
        (PreTight k L max → PreTight k' L' max) := by
  intro fuel
  induction fuel with
  | zero =>
    intro k L xas head node shift hi _ _ _ hh _ hn hl hf
    exfalso
    by_cases hq : xa_is_node head = true
    · have := (hn hq).2
      rw [hh] at hq this
      have := (hi.core.nodes _ (hi.core.head_node hq).1).shift_le
      omega
    · simp at hq
      have := (hl hq).2
      omega
  | succ f ih =>
    intro k L xas head node shift hi hg ha hx hh hh0 hn hl hf
    have hc := hi.core
    rw [xas_expand_loop]
    by_cases hgt : max > max_index k head
    · rw [if_pos hgt]
      -- the new node fits
      have hs60 : shift ≤ 60 := by
        by_cases hq : xa_is_node head = true
        · have h1 := (hn hq).2
          have hq' := hq
          rw [hh] at hq'
          have hr := hc.nodes _ (hc.head_node hq').1
          rw [← hh] at hr
          have := (max_index_node_iff k head max hq hr.shift6 hr.shift_le hmax).1 hgt
          have h6 := hr.shift6
          have h60 := hr.shift_le
          by_cases h60' : (k.mem (head - 2)).shift = 60
          · rw [h60', Nat.shiftRight_eq_div_pow] at this
            omega
          · omega
        · simp at hq
          have := (hl hq).2
          omega
      obtain ⟨k1, e1, a1, a2, a3, a4, a5, a6, a7, a8, a9, a10, a11, a12, a13, a14⟩ :=
        xas_alloc_ok k xas shift hg ha (by rw [hx]) hc.slab_big (by
          rw [hx]
          have := hc.slab_big
          omega)
      rw [e1]
      simp only []
      rw [if_neg (by have := hc.slab_big; omega)]
      have hnal := hc.slab_align
      have hnh : xa_is_node head = true → head - 2 ≠ k.slab_next := by
        intro hq
        rw [hh] at hq ⊢
        exact live_lt_slab hc (hc.head_node hq).1
      have hmem1 : ∀ y, y ≠ k.slab_next → k1.mem y = k.mem y := by
        intro y hy
        exact a13 y hy (fun h => absurd hx h)
      have hsm : shift % 256 = shift := by omega
      rw [hsm] at a7
      obtain ⟨b1, b2, b3, b4, b5, b6, b7, b8, b9, b10, b11, b12⟩ :=
        xas_expand_link_spec k k1 k.slab_next head shift hnal hnh a2 a7 (by rw [a9, hx]) a11 a12
          hmem1
      generalize xas_expand_link k1 k.slab_next head = kE at *
      have hgE : AllocOK kE := by
        intro n g
        rw [b4]
        exact a4 n g
      subst hh
      have hiE : Inv kE (fun y => L y ∨ y = k.slab_next) :=
        inv_expand hi hh0 rfl (fun hq => (hn hq).2) (fun hq => (hl hq).2) hs60 b1 b2
          (by rw [b3, a3]) b6 b7 b8 b9 b10 b11 b12
      have hsE : Sim k kE :=
        sim_expand hi rfl (fun hq => (hn hq).2) (fun hq => (hl hq).2) b1 b6 b9 b10 b11 b12
      have hmk : xa_mk_node k.slab_next = kE.xa_head := by
        rw [b1]
        exact xa_mk_node_eq _ hnal
      have hnE : xa_is_node kE.xa_head = true := by
        rw [b1]
        exact is_node_add2 _ hnal hc.slab_big
      rw [hmk]
      have hslE : ∀ y, L y → (kE.mem y).slots = (k.mem y).slots := by
        intro y hy
        by_cases hyr : xa_is_node k.xa_head = true ∧ y = k.xa_head - 2
        · rw [hyr.2, b11 hyr.1]
        · rw [b12 y (live_lt_slab hc hy) (fun hq h => hyr ⟨hq, h⟩)]
      obtain ⟨k', L', node', shift', r1, r2, r3, r4, r5, r6, r7, r8, r9, r10, r11⟩ :=
        ih kE _ xas kE.xa_head k.slab_next (shift + XA_CHUNK_SHIFT) hiE hgE ha hx rfl
          (by rw [b1]; omega)
          (fun _ => ⟨by rw [b1]; omega, by
            have : kE.xa_head - 2 = k.slab_next := by rw [b1]; omega
            rw [this, b6]⟩)
          (fun hq => by rw [hnE] at hq; exact absurd hq (by simp))
          (by simp only [XA_CHUNK_SHIFT]; omega)
      refine ⟨k', L', node', shift', r1, r2, sim_trans hsE r3, r4, by rw [r5, b2],
        by rw [r6, b5, a5], r7, r8, ?_,
        fun hm => r10 (nomulti_expand hi hm rfl (fun hq => (hl hq).2) b6 b9 b11 b12),
        fun hp => r11 (pretight_expand hi hh0 hmax hgt (fun hq => (hn hq).2)
          (fun hq => (hl hq).2) b1 b6 b9 hslE hp)⟩
      intro hq
      obtain ⟨_, _, _, hk⟩ := r9 hq
      rw [hk, hnE] at hq
      exact absurd hq (by simp)
    · rw [if_neg hgt]
      subst hh
      refine ⟨k, L, node, shift, rfl, hi, sim_refl k, hg, rfl, rfl, hh0, ?_, ?_, fun hm => hm,
        fun hp => hp⟩
      · intro hq
        have hr := hc.nodes _ (hc.head_node hq).1
        refine ⟨(hn hq).1, (hn hq).2, ?_⟩
        have := (max_index_node_iff k k.xa_head max hq hr.shift6 hr.shift_le hmax).not.1 hgt
        omega
      · intro hq
        refine ⟨(hl hq).1, (hl hq).2, ?_, rfl⟩
        rw [max_index_leaf k _ hq] at hgt
        omega

theorem xas_expand_shift_spec (max : Nat) (hmax : max < 2 ^ 64) :
    ∀ fuel s0, s0 % 6 = 0 → s0 ≤ 60 → 66 ≤ s0 + 6 * fuel →
      ∃ s, xas_expand_shift max fuel s0 = some s ∧ s % 6 = 0 ∧ s ≤ 60 ∧ max >>> s < 64 := by
  intro fuel
  induction fuel with
  | zero => intro s0 _ _ h; omega
  | succ f ih =>
    intro s0 h6 h60 hf
    rw [xas_expand_shift]
    by_cases hge : max >>> s0 ≥ XA_CHUNK_SIZE
    · rw [if_pos hge]
      have hne : s0 ≠ 60 := by
        intro h
        rw [h, Nat.shiftRight_eq_div_pow] at hge
        simp only [XA_CHUNK_SIZE] at hge
        omega
      exact ih (s0 + XA_CHUNK_SHIFT) (by simp only [XA_CHUNK_SHIFT]; omega)
        (by simp only [XA_CHUNK_SHIFT]; omega) (by simp only [XA_CHUNK_SHIFT]; omega)
    · rw [if_neg hge]
      exact ⟨s0, rfl, h6, h60, by simp only [XA_CHUNK_SIZE] at hge; omega⟩

theorem sibling_internal (e : Nat) (h : xa_is_sibling e = true) : xa_is_internal e = true := by
  rw [xa_is_sibling_iff] at h
  rw [xa_is_internal_iff]
  exact h.1

/-- The cursor after `xas_descend` into a live node. -/
theorem descend_pos {k : Kernel} {L : Nat → Prop} (hc : Core k L) {c : Nat} (hcl : L c)
    (xas : xa_state) :
    (xas_descend k xas c).2 = (k.mem c).slots (xas_descend k xas c).1.xa_offset ∧
    (xas_descend k xas c).1.xa_node = c ∧
    (xas_descend k xas c).1.xa_offset = canon (k.mem c) (get_offset xas.xa_index (k.mem c)) ∧
    (((k.mem c).slots (xas_descend k xas c).1.xa_offset = 0 ∨
        xa_is_node ((k.mem c).slots (xas_descend k xas c).1.xa_offset) = true) →
      (xas_descend k xas c).1.xa_index = xas.xa_index ∧
      (xas_descend k xas c).1.xa_offset = get_offset xas.xa_index (k.mem c)) ∧
    (xas_descend k xas c).1.xa_shift = xas.xa_shift ∧
    (xas_descend k xas c).1.xa_sibs = xas.xa_sibs ∧
    (xas_descend k xas c).1.xa_alloc = xas.xa_alloc := by
  obtain ⟨xs', h1, h2, h3, h4, h5, h6, h7⟩ := xas_descend_spec k xas c
  rw [h1]
  refine ⟨rfl, h2, h3, ?_, h5, h6, h7⟩
  intro hz
  simp only at hz
  by_cases hs : xa_is_sibling ((k.mem c).slots (get_offset xas.xa_index (k.mem c))) = true
  · exfalso
    have hnn : xa_is_node ((k.mem c).slots (get_offset xas.xa_index (k.mem c))) = false := by
      cases hq : xa_is_node ((k.mem c).slots (get_offset xas.xa_index (k.mem c)))
      · rfl
      · rw [is_node_not_sibling _ hq] at hs
        exact absurd hs (by simp)
    obtain ⟨_, _, c3, c4, _⟩ :=
      (hc.nodes c hcl).sib _ (get_offset_lt _ _) (sibling_internal _ hs) hnn
    have hcan : xs'.xa_offset = xa_to_sibling ((k.mem c).slots (get_offset xas.xa_index (k.mem c))) := by
      rw [h3]
      simp [canon, hs]
    rw [hcan] at hz
    rcases hz with hz | hz
    · exact c4 hz
    · rw [is_node_internal _ hz] at c3
      exact absurd c3 (by simp)
  · simp at hs
    refine ⟨h4 hs, ?_⟩
    show xs'.xa_offset = _
    rw [h3]
    simp [canon, hs]

theorem leaf_no_node {k : Kernel} {L : Nat → Prop} (hc : Core k L) {x : Nat} (hx : L x)
    (h0 : (k.mem x).shift = 0) (o : Nat) (ho : o < 64) :
    xa_is_node ((k.mem x).slots o) = false := by
  cases hq : xa_is_node ((k.mem x).slots o)
  · rfl
  · obtain ⟨a, b, _⟩ := (hc.nodes x hx).child o ho hq
    have := ((hc.nodes _ a).up (by rw [b]; have := (hc.nodes x hx).big; omega)).2.2.2
    rw [b] at this
    omega

theorem canon_lt {k : Kernel} {L : Nat → Prop} (hc : Core k L) {x : Nat} (hx : L x) (o : Nat)
    (ho : o < 64) : canon (k.mem x) o < 64 := by
  unfold canon
  by_cases hs : xa_is_sibling ((k.mem x).slots o) = true
  · rw [if_pos hs]
    have hnn : xa_is_node ((k.mem x).slots o) = false := by
      cases hq : xa_is_node ((k.mem x).slots o)
      · rfl
      · rw [is_node_not_sibling _ hq] at hs
        exact absurd hs (by simp)
    have := ((hc.nodes x hx).sib o ho (sibling_internal _ hs) hnn).2.1
    omega
  · rw [if_neg hs]
    exact ho

theorem slot_store_node (k : Kernel) (x o v : Nat) (hx : x ≠ 0) :
    slot_store k (x, o) v =
      k.setNode x { k.mem x with slots := fun i => if i = o then v else (k.mem x).slots i } := by
  simp [slot_store, hx]

theorem slot_store_head (k : Kernel) (o v : Nat) :
    slot_store k (0, o) v = { k with xa_head := v } := by
  simp [slot_store]

theorem to_uint_cast (n : Nat) (h : n < 2 ^ 32) : to_uint (n : Int) = n := by
  unfold to_uint
  omega

theorem xas_create_loop_at (i : Nat) :
    ∀ fuel k L xas x, Inv k L → AllocOK k → xas.xa_alloc = 0 → xas.xa_shift = 0 →
      Visits k i x → xas.xa_node = x →
      xas.xa_offset = canon (k.mem x) (get_offset i (k.mem x)) →
      (((k.mem x).slots xas.xa_offset = 0 ∨
          xa_is_node ((k.mem x).slots xas.xa_offset) = true) →
        xas.xa_index = i ∧ xas.xa_offset = get_offset i (k.mem x)) →
      (k.mem x).shift + 6 < 6 * fuel →
      ∃ k' L' xas' y,
        xas_create_loop 0 fuel k xas ((k.mem x).shift : Int) ((k.mem x).slots xas.xa_offset)
            (x, xas.xa_offset) = some (k', xas', (k'.mem y).slots xas'.xa_offset) ∧
        Inv k' L' ∧ Sim k k' ∧ AllocOK k' ∧ k'.xa_flags = k.xa_flags ∧
        k'.rcu_pending = k.rcu_pending ∧
        Loc k' i (Place.slot y xas'.xa_offset) ∧ xas'.xa_node = y ∧ xas'.xa_shift = 0 ∧
        xas'.xa_sibs = xas.xa_sibs ∧ xas'.xa_alloc = 0 ∧
        ((k'.mem y).shift = 0 ∨ (k'.mem y).slots xas'.xa_offset ≠ 0) ∧
        (NoMulti k L → NoMulti k' L') ∧
        (PreTight k L i → PreTight k' L' i) := by
  intro fuel
  induction fuel with
  | zero => intro k L xas x _ _ _ _ _ _ _ _ h; omega
  | succ f ih =>
    intro k L xas x hi hg ha hs0 hv hnode hoff hidx hf
    have hc := hi.core
    have hx := visits_live hc hv
    have hnx := hc.nodes x hx
    have ho64 : xas.xa_offset < 64 := by
      rw [hoff]
      exact canon_lt hc hx _ (get_offset_lt _ _)
    have hsh60 := hnx.shift_le
    have hsh6 := hnx.shift6
    rw [xas_create_loop, to_uint_cast _ (by omega)]
    by_cases hpos : (k.mem x).shift > 0
    · rw [if_pos hpos]
      simp only []
      have hsub : ((k.mem x).shift : Int) - ((XA_CHUNK_SHIFT : Nat) : Int)
          = (((k.mem x).shift - 6 : Nat) : Int) := by
        simp only [XA_CHUNK_SHIFT]
        omega
      rw [hsub]
      by_cases hnull : (k.mem x).slots xas.xa_offset = 0
      · -- allocate a child
        rw [if_pos hnull]
        obtain ⟨hidx1, hidx2⟩ := hidx (Or.inl hnull)
        have hxne : x ≠ k.slab_next := live_lt_slab hc hx
        have hx0 : x ≠ 0 := by have := hnx.big; omega
        obtain ⟨k1, e1, a1, a2, a3, a4, a5, a6, a7, a8, a9, a10, a11, a12, a13, a14⟩ :=
          xas_alloc_ok k xas (to_uint (((k.mem x).shift - 6 : Nat) : Int)) hg ha
            (by rw [hnode]; exact hnx.align) hc.slab_big (by rw [hnode]; exact hxne)
        rw [e1]
        simp only []
        rw [if_neg (by have := hc.slab_big; omega)]
        rw [to_uint_cast _ (by omega)] at a7
        rw [hnode] at a8 a9 a13 a14
        rw [if_pos hx0] at a8
        have a14' := a14 hx0
        have hmk : xa_mk_node k.slab_next = k.slab_next + 2 := xa_mk_node_eq _ hc.slab_align
        rw [hmk, slot_store_node _ _ _ _ hx0]
        generalize hk2 : k1.setNode x { k1.mem x with slots := fun i =>
          if i = xas.xa_offset then k.slab_next + 2 else (k1.mem x).slots i } = k2
        have m_c : k2.mem k.slab_next = k1.mem k.slab_next := by
          rw [← hk2]
          simp [Ne.symm hxne]
        have m_x : k2.mem x = { k1.mem x with slots := fun i =>
            if i = xas.xa_offset then k.slab_next + 2 else (k1.mem x).slots i } := by
          rw [← hk2]
          simp
        have m_o : ∀ y, y ≠ k.slab_next → y ≠ x → k2.mem y = k.mem y := by
          intro y hy1 hy2
          rw [← hk2]
          simp only [setNode_mem, if_neg hy2]
          exact a13 y hy1 (fun _ => hy2)
        have h_head : k2.xa_head = k.xa_head := by rw [← hk2]; exact a1
        have h_flags : k2.xa_flags = k.xa_flags := by rw [← hk2]; exact a2
        have h_slab : k2.slab_next = k.slab_next + 576 := by rw [← hk2]; exact a3
        have h_rcu : k2.rcu_pending = k.rcu_pending := by rw [← hk2]; exact a5
        have h_g : AllocOK k2 := by
          rw [← hk2]
          exact a4
        have hsl2 : (k2.mem x).slots = fun i =>
            if i = xas.xa_offset then k.slab_next + 2 else (k.mem x).slots i := by
          rw [m_x, a14']
        have hi2 : Inv k2 (fun y => L y ∨ y = k.slab_next) :=
          inv_add_child hi hx ho64 hnull (by omega) rfl h_head h_flags h_slab
            (by rw [m_c, a7]; omega) (by rw [m_c, a8]) (by rw [m_c, a9]) (by rw [m_c, a10])
            (by rw [m_c, a11]) (by rw [m_c, a12]) hsl2
            (by rw [m_x, a14']) (by rw [m_x, a14']) (by rw [m_x, a14']) (by rw [m_x, a14'])
            (by rw [m_x, a14']) m_o
        have hs2 : Sim k k2 :=
          sim_add_child hi hx ho64 hnull rfl h_head (by rw [m_c, a11]) (by rw [m_c, a12]) hsl2
            (by rw [m_x, a14']) (by rw [m_x, a14']) m_o
        have hcl2 : (fun y => L y ∨ y = k.slab_next) k.slab_next := Or.inr rfl
        obtain ⟨d1, d2, d3, d4, d5, d6, d7⟩ := descend_pos hi2.core hcl2 xas
        have hslc : (k2.mem k.slab_next).slots = fun _ => 0 := by rw [m_c, a11]
        have hz : (k2.mem k.slab_next).slots (xas_descend k2 xas k.slab_next).1.xa_offset = 0 := by
          rw [hslc]
        obtain ⟨d4a, d4b⟩ := d4 (Or.inl hz)
        have hshx : (k2.mem x).shift = (k.mem x).shift := by rw [m_x, a14']
        have hv2x : Visits k2 i x := by
          refine visits_extend hc h_head ?_ ?_ hv
          · intro y hy
            by_cases hyx : y = x
            · rw [hyx]; exact hshx
            · rw [m_o y (live_lt_slab hc hy) hyx]
          · intro y q hy hne
            by_cases hyx : y = x
            · rw [hyx] at hne ⊢
              rw [hsl2]
              have : q ≠ xas.xa_offset := by
                intro hq
                rw [hq] at hne
                exact hne hnull
              simp [this]
            · rw [m_o y (live_lt_slab hc hy) hyx]
        have hv2 : Visits k2 i k.slab_next := by
          refine Visits.step x _ hv2x ?_ (is_node_add2 _ hc.slab_align hc.slab_big)
          have : get_offset i (k2.mem x) = xas.xa_offset := by
            rw [hidx2]
            simp [get_offset, hshx]
          rw [this, hsl2]
          simp
        have hshc : (k2.mem k.slab_next).shift = (k.mem x).shift - 6 := by
          rw [m_c, a7]
          omega
        obtain ⟨k', L', xas', y, r1, r2, r3, r4, r5, r6, r7, r8, r9, r10, r11, r12, r13, r14⟩ :=
          ih k2 _ (xas_descend k2 xas k.slab_next).1 k.slab_next hi2 h_g (by rw [d7, ha])
            (by rw [d5, hs0]) hv2 d2 (by rw [d3, hidx1])
            (fun _ => ⟨by rw [d4a, hidx1], by rw [d4b, hidx1]⟩) (by rw [hshc]; omega)
        refine ⟨k', L', xas', y, ?_, r2, sim_trans hs2 r3, r4, by rw [r5, h_flags],
          by rw [r6, h_rcu], r7, r8, r9, by rw [r10, d6], r11, r12,
          fun hm => r13 (nomulti_add_child hi hm rfl hslc hsl2 hshx m_o),
          fun hp => r14 (pretight_add_child hc hnull (fun h => live_lt_slab hc h rfl) h_head
            hsl2 hshx m_o hv2 hp)⟩
        rw [← r1, hshc, d1]
      · rw [if_neg hnull]
        by_cases hn : xa_is_node ((k.mem x).slots xas.xa_offset) = true
        · -- go down
          rw [if_pos hn]
          obtain ⟨hidx1, hidx2⟩ := hidx (Or.inr hn)
          obtain ⟨e1, e2, e3⟩ := is_node_split _ hn
          rw [to_node_def]
          have hn2 : xa_is_node ((k.mem x).slots xas.xa_offset - 2 + 2) = true := by
            rw [← e1]
            exact hn
          have hslot : (k.mem x).slots (get_offset i (k.mem x)) =
              (k.mem x).slots xas.xa_offset - 2 + 2 := by
            rw [← hidx2]
            exact e1
          obtain ⟨s1, s2, s3, s4, _⟩ := visits_child_shift hc hv hslot hn2
          have hvc := Visits.step x _ hv hslot hn2
          obtain ⟨d1, d2, d3, d4, d5, d6, d7⟩ := descend_pos hc s4 xas
          obtain ⟨k', L', xas', y, r1, r2, r3, r4, r5, r6, r7, r8, r9, r10, r11, r12, r13, r14⟩ :=
            ih k L (xas_descend k xas ((k.mem x).slots xas.xa_offset - 2)).1 _ hi hg
              (by rw [d7, ha]) (by rw [d5, hs0]) hvc d2 (by rw [d3, hidx1])
              (fun hz => by
                obtain ⟨q1, q2⟩ := d4 hz
                exact ⟨by rw [q1, hidx1], by rw [q2, hidx1]⟩)
              (by omega)
          refine ⟨k', L', xas', y, ?_, r2, r3, r4, r5, r6, r7, r8, r9, by rw [r10, d6], r11, r12,
            r13, r14⟩
          rw [← r1, d1]
          have : (((k.mem x).shift - 6 : Nat) : Int) =
              (((k.mem ((k.mem x).slots xas.xa_offset - 2)).shift : Nat) : Int) := by
            omega
          rw [this]
        · -- an entry is in the way
          rw [if_neg hn]
          simp at hn
          refine ⟨k, L, xas, x, rfl, hi, sim_refl k, hg, rfl, rfl, ?_, hnode, hs0, rfl, ha,
            Or.inr hnull, fun hm => hm, fun hp => hp⟩
          exact loc_slot_iff.2 ⟨hv, hoff, hn⟩
    · rw [if_neg hpos]
      have h0 : (k.mem x).shift = 0 := by omega
      refine ⟨k, L, xas, x, rfl, hi, sim_refl k, hg, rfl, rfl, ?_, hnode, hs0, rfl, ha,
        Or.inl h0, fun hm => hm, fun hp => hp⟩
      exact loc_slot_iff.2 ⟨hv, hoff, leaf_no_node hc hx h0 _ ho64⟩

theorem xas_max_single (xas : xa_state) (h1 : xas.xa_shift = 0) (h2 : xas.xa_sibs = 0) :
    xas_max xas = xas.xa_index := by
  simp [xas_max, h1, h2]

/-- `xas_create` from the top of the tree, for a single-index cursor. -/
theorem xas_create_top {k : Kernel} {L : Nat → Prop} (hi : Inv k L) (hg : AllocOK k)
    (i fuel : Nat) (xas : xa_state) (hi64 : i < 2 ^ 64) (hidx : xas.xa_index = i)
    (hs0 : xas.xa_shift = 0) (hsib : xas.xa_sibs = 0) (ha : xas.xa_alloc = 0)
    (htop : xas_top xas.xa_node = true) (hf : 14 ≤ fuel) :
    ∃ k' L' xas' w, xas_create fuel k xas = some (k', xas', entry_at k' w) ∧
      Inv k' L' ∧ Sim k k' ∧ AllocOK k' ∧ k'.xa_flags = k.xa_flags ∧
      k'.rcu_pending = k.rcu_pending ∧ Loc k' i w ∧ xas'.xa_node = w.node ∧
      xas'.xa_shift = 0 ∧ xas'.xa_sibs = 0 ∧ xas'.xa_alloc = 0 ∧
      w ≠ Place.bounds ∧
      (∀ y o, w = Place.slot y o → xas'.xa_offset = o ∧
        ((k'.mem y).shift = 0 ∨ (k'.mem y).slots o ≠ 0)) ∧
      (NoMulti k L → NoMulti k' L') ∧
      (Tight k L → PreTight k' L' i) := by
  have hc := hi.core
  obtain ⟨f, rfl⟩ : ∃ f, fuel = f + 1 := ⟨fuel - 1, by omega⟩
  unfold xas_create
  rw [if_pos htop]
  simp only [xa_head]
  have hmax : xas_max { xas with xa_node := 0 } = i :=
    (xas_max_single ({ xas with xa_node := 0 }) hs0 hsib).trans hidx
  rw [show xas_create_loop xas.xa_shift = xas_create_loop 0 from by rw [hs0]]
  by_cases hh0 : k.xa_head = 0
  · -- empty array
    unfold xas_expand
    rw [if_pos hh0, hmax]
    by_cases hi0 : i = 0
    · rw [if_pos hi0]
      simp only []
      rw [if_neg (by omega), xas_create_loop]
      rw [if_neg (by simp [to_uint])]
      refine ⟨k, L, _, Place.head, rfl, hi, sim_refl k, hg, rfl, rfl, ?_, rfl, hs0, hsib, ha,
        by simp, by simp, fun hm => hm, fun ht => tight_pre ht i⟩
      exact ⟨by rw [hh0]; decide, hi0⟩
    · rw [if_neg hi0]
      obtain ⟨s, e1, s6, s60, sb⟩ := xas_expand_shift_spec i hi64 (f + 1) 0 (by omega) (by omega)
        (by omega)
      rw [e1]
      simp only []
      rw [if_neg (by omega), xas_create_loop]
      rw [to_uint_cast _ (by simp only [XA_CHUNK_SHIFT]; omega),
        if_pos (by simp only [XA_CHUNK_SHIFT]; omega)]
      simp only []
      rw [if_pos hh0]
      have hsub : (((s + XA_CHUNK_SHIFT : Nat) : Int) - ((XA_CHUNK_SHIFT : Nat) : Int))
          = ((s : Nat) : Int) := by
        simp only [XA_CHUNK_SHIFT]
        omega
      rw [hsub]
      obtain ⟨k1, e2, a1, a2, a3, a4, a5, a6, a7, a8, a9, a10, a11, a12, a13, a14⟩ :=
        xas_alloc_ok k { xas with xa_node := 0 } (to_uint ((s : Nat) : Int)) hg ha (by simp)
          hc.slab_big (by
            have := hc.slab_big
            simp only
            omega)
      rw [e2]
      simp only []
      rw [if_neg (by have := hc.slab_big; omega)]
      rw [to_uint_cast _ (by omega)] at a7
      have hmk : xa_mk_node k.slab_next = k.slab_next + 2 := xa_mk_node_eq _ hc.slab_align
      rw [hmk, slot_store_head]
      generalize hk2 : ({ k1 with xa_head := k.slab_next + 2 } : Kernel) = k2
      have m_all : ∀ y, k2.mem y = k1.mem y := by
        intro y
        rw [← hk2]
      have h_head : k2.xa_head = k.slab_next + 2 := by rw [← hk2]
      have h_flags : k2.xa_flags = k.xa_flags := by rw [← hk2]; exact a2
      have h_slab : k2.slab_next = k.slab_next + 576 := by rw [← hk2]; exact a3
      have h_rcu : k2.rcu_pending = k.rcu_pending := by rw [← hk2]; exact a5
      have h_g : AllocOK k2 := by
        rw [← hk2]
        exact a4
      have hs256 : s % 256 = s := by omega
      have hi2 : Inv k2 (fun y => y = k.slab_next) :=
        inv_add_root hi hh0 rfl s6 s60 h_head h_flags h_slab (by rw [m_all, a7, hs256])
          (by rw [m_all, a9]) (by rw [m_all, a10]) (by rw [m_all, a11]) (by rw [m_all, a12])
      have hs2 : Sim k k2 :=
        sim_add_root hi hh0 rfl h_head (by rw [m_all, a11]) (by rw [m_all, a12])
      have hshc : (k2.mem k.slab_next).shift = s := by rw [m_all, a7, hs256]
      have hv2 : Visits k2 i k.slab_next :=
        Visits.root _ h_head (is_node_add2 _ hc.slab_align hc.slab_big) (by
          rw [hshc]
          simp only [XA_CHUNK_MASK]
          omega)
      obtain ⟨d1, d2, d3, d4, d5, d6, d7⟩ :=
        descend_pos hi2.core (show (fun y => y = k.slab_next) k.slab_next from rfl)
          { xas with xa_node := 0 }
      have hslc : (k2.mem k.slab_next).slots = fun _ => 0 := by rw [m_all, a11]
      have hz : (k2.mem k.slab_next).slots
          (xas_descend k2 { xas with xa_node := 0 } k.slab_next).1.xa_offset = 0 := by
        rw [hslc]
      obtain ⟨d4a, d4b⟩ := d4 (Or.inl hz)
      simp only at d3 d4a d4b d5 d6 d7
      have hp2 : PreTight k2 (fun y => y = k.slab_next) i := by
        refine ⟨fun x hx => Or.inr (by rw [hx]; exact hv2), fun _ => Or.inr ?_⟩
        have e : k2.xa_head - 2 = k.slab_next := by rw [h_head]; omega
        rw [e, hshc]
        rcases xas_expand_shift_min i (f + 1) 0 s e1 with h | h
        · rw [h, Nat.shiftRight_zero]
          omega
        · exact shr_pos_of_ge _ _ h.1 h.2
      obtain ⟨k', L', xas', y, r1, r2, r3, r4, r5, r6, r7, r8, r9, r10, r11, r12, r13, r14⟩ :=
        xas_create_loop_at i f k2 _ (xas_descend k2 { xas with xa_node := 0 } k.slab_next).1
          k.slab_next hi2 h_g (by rw [d7, ha]) (by rw [d5, hs0]) hv2 d2 (by rw [d3, hidx])
          (fun _ => ⟨by rw [d4a, hidx], by rw [d4b, hidx]⟩) (by rw [hshc]; omega)
      refine ⟨k', L', xas', Place.slot y xas'.xa_offset, ?_, r2, sim_trans hs2 r3, r4,
        by rw [r5, h_flags], by rw [r6, h_rcu], r7, r8, r9, by rw [r10, d6, hsib], r11,
        by simp, ?_, fun _ => r13 (nomulti_add_root hslc), fun _ => r14 hp2⟩
      · show _ = some (k', xas', (k'.mem y).slots xas'.xa_offset)
        rw [← r1, hshc, d1]
      · intro y' o' hw
        simp only [Place.slot.injEq] at hw
        rw [← hw.1, ← hw.2]
        exact ⟨rfl, r12⟩
  · -- a head is there already
    unfold xas_expand
    rw [if_neg hh0, hmax]
    obtain ⟨k1, L1, node1, shift1, e1, r2, r3, r4, r5, r6, r7, r8, r9, r10, r11⟩ :=
      xas_expand_loop_spec i hi64 (f + 1) k L { xas with xa_node := 0 } k.xa_head
        (if xa_is_node k.xa_head then xa_to_node k.xa_head else 0)
        (if xa_is_node k.xa_head then (k.mem (xa_to_node k.xa_head)).shift + XA_CHUNK_SHIFT else 0)
        hi hg ha rfl rfl hh0
        (fun hq => by simp [hq, to_node_def]) (fun hq => by simp [hq]) (by omega)
    simp only [] at e1 ⊢
    rw [e1]
    simp only []
    rw [if_neg (by omega)]
    have hc1 := r2.core
    by_cases hq : xa_is_node k1.xa_head = true
    · obtain ⟨q1, q2, q3⟩ := r8 hq
      have hr := hc1.nodes _ (hc1.head_node hq).1
      obtain ⟨e1', e2', e3'⟩ := is_node_split _ hq
      rw [xas_create_loop, q2, to_uint_cast _ (by have := hr.shift_le; omega),
        if_pos (by omega)]
      simp only []
      rw [if_neg r7, if_pos hq, to_node_def]
      have hsub : (((k1.mem (k1.xa_head - 2)).shift + 6 : Nat) : Int) -
          ((XA_CHUNK_SHIFT : Nat) : Int) = (((k1.mem (k1.xa_head - 2)).shift : Nat) : Int) := by
        simp only [XA_CHUNK_SHIFT]
        omega
      rw [hsub]
      have hv1 : Visits k1 i (k1.xa_head - 2) :=
        Visits.root _ e1' (by rw [← e1']; exact hq) (by simp only [XA_CHUNK_MASK]; omega)
      obtain ⟨d1, d2, d3, d4, d5, d6, d7⟩ :=
        descend_pos hc1 (hc1.head_node hq).1
          ({ xas with xa_node := node1 } : xa_state)
      simp only at d3 d4 d5 d6 d7
      obtain ⟨k', L', xas', y, s1, s2, s3, s4, s5, s6, s7, s8, s9, s10, s11, s12, s13, s14⟩ :=
        xas_create_loop_at i f k1 L1 (xas_descend k1 { xas with xa_node := node1 }
          (k1.xa_head - 2)).1 (k1.xa_head - 2) r2 r4 (by rw [d7, ha]) (by rw [d5, hs0]) hv1 d2
          (by rw [d3, hidx])
          (fun hz => by
            obtain ⟨z1, z2⟩ := d4 hz
            exact ⟨by rw [z1, hidx], by rw [z2, hidx]⟩)
          (by have := hr.shift_le; omega)
      refine ⟨k', L', xas', Place.slot y xas'.xa_offset, ?_, s2, sim_trans r3 s3, s4,
        by rw [s5, r5], by rw [s6, r6], s7, s8, s9, by rw [s10, d6, hsib], s11, by simp, ?_,
        fun hm => s13 (r10 hm), fun ht => s14 (r11 (tight_pre ht i))⟩
      · show _ = some (k', xas', (k'.mem y).slots xas'.xa_offset)
        rw [← s1, d1]
      · intro y' o' hw
        simp only [Place.slot.injEq] at hw
        rw [← hw.1, ← hw.2]
        exact ⟨rfl, s12⟩
    · simp at hq
      obtain ⟨q1, q2, q3, q4⟩ := r9 hq
      rw [xas_create_loop, q2]
      rw [if_neg (by simp [to_uint])]
      refine ⟨k1, L1, _, Place.head, rfl, r2, r3, r4, r5, r6, ?_, q1, hs0, hsib, ha,
        by simp, by simp, r10, fun ht => r11 (tight_pre ht i)⟩
      exact ⟨hq, q3⟩

theorem inv_write_head {k : Kernel} {L : Nat → Prop} (hi : Inv k L) (e : Nat)
    (hleaf : xa_is_node k.xa_head = false) (he : xa_is_internal e = false) (he0 : e ≠ 0) :
    Inv { k with xa_head := e } L := by
  have hc := hi.core
  have hempty := (hc.head_leaf hleaf).2
  refine ⟨⟨?_, ?_, ?_, hc.slab_align, hc.slab_big⟩, ?_, ?_⟩
  · intro hn
    rw [not_internal_not_node _ he] at hn
    exact absurd hn (by simp)
  · intro _
    exact ⟨he, hempty⟩
  · intro y hy
    exact absurd hy (hempty y)
  · intro h0
    exact absurd h0 he0
  · intro y hy
    exact absurd hy (hempty y)

theorem loc_slot_nonzero_node {k : Kernel} {L : Nat → Prop} (hc : Core k L) {i y o : Nat}
    (hl : Loc k i (Place.slot y o)) : y ≠ 0 ∧ y % 4 = 0 := by
  have hy := (loc_slot_facts hc hl).1
  have := (hc.nodes y hy).big
  exact ⟨by omega, (hc.nodes y hy).align⟩

theorem lnot_eq (p : Nat) : lnot p = if p = 0 then 1 else 0 := by
  rfl

/-- Writing a non-NULL entry at the place of index `i` completes the shape. -/
theorem tight_of_pre_write {k k' : Kernel} {L : Nat → Prop} {i e : Nat} {w : Place}
    (hc : Core k L) (hp : PreTight k L i) (hl : Loc k i w) (hw : w ≠ Place.bounds)
    (hs : SameShape k k') (he : entry_at k' w = e) (he0 : e ≠ 0)
    (hfr : ∀ w', w' ≠ w → entry_at k' w' = entry_at k w') : Tight k' L := by
  have hkeep : ∀ y q, (k.mem y).slots q ≠ 0 → (k'.mem y).slots q ≠ 0 := by
    intro y q hq
    by_cases hwq : Place.slot y q = w
    · rw [← hwq] at he
      have : (k'.mem y).slots q = e := he
      rw [this]
      exact he0
    · have : (k'.mem y).slots q = (k.mem y).slots q := hfr (Place.slot y q) hwq
      rw [this]
      exact hq
  have hvis : ∀ x, Visits k i x → (k'.mem x).slots (get_offset i (k.mem x)) ≠ 0 ∨
      (k'.mem x).slots (canon (k.mem x) (get_offset i (k.mem x))) ≠ 0 := by
    intro x hv
    by_cases hsib : xa_is_sibling ((k.mem x).slots (get_offset i (k.mem x))) = true
    · refine Or.inl (hkeep _ _ ?_)
      intro h0
      rw [h0] at hsib
      exact absurd hsib (by decide)
    · have hcan : canon (k.mem x) (get_offset i (k.mem x)) = get_offset i (k.mem x) := by
        simp [canon, hsib]
      right
      rw [hcan]
      by_cases hn : xa_is_node ((k.mem x).slots (get_offset i (k.mem x))) = true
      · apply hkeep
        intro h0
        rw [h0] at hn
        exact absurd hn (by decide)
      · simp only [Bool.not_eq_true] at hn
        have hlx : Loc k i (Place.slot x (get_offset i (k.mem x))) :=
          loc_slot_iff.2 ⟨hv, hcan.symm, hn⟩
        have hwx := loc_unique hc hlx hl
        rw [← hwx] at he
        have : (k'.mem x).slots (get_offset i (k.mem x)) = e := he
        rw [this]
        exact he0
  refine ⟨?_, ?_⟩
  · intro x hx
    rcases hp.1 x hx with h | h
    · obtain ⟨q, hq, hs'⟩ := h
      exact ⟨q, hq, hkeep x q hs'⟩
    · rcases hvis x h with h1 | h1
      · exact ⟨_, get_offset_lt _ _, h1⟩
      · exact ⟨_, canon_lt hc hx _ (get_offset_lt _ _), h1⟩
  · intro hq
    have hhead : k'.xa_head = k.xa_head := hs.1 (Or.inr hq)
    rw [hhead] at hq ⊢
    have hr := (hc.head_node hq).1
    rcases hp.2 hq with h | h
    · obtain ⟨q, h0, hq64, hs'⟩ := h
      exact ⟨q, h0, hq64, hkeep _ q hs'⟩
    · -- the walk of `i` leaves the root through a slot other than slot 0
      cases w with
      | bounds => exact absurd rfl hw
      | head =>
        rw [hl.1] at hq
        exact absurd hq (by decide)
      | slot y o =>
        obtain ⟨hv, _, _⟩ := loc_slot_iff.1 hl
        have hvr := visits_head hv
        obtain ⟨_, hb⟩ := visits_head_bound hv
        have hgo : get_offset i (k.mem (k.xa_head - 2)) = i >>> (k.mem (k.xa_head - 2)).shift := by
          simp only [get_offset, XA_CHUNK_MASK, and63]
          omega
        by_cases hsib : xa_is_sibling ((k.mem (k.xa_head - 2)).slots
            (get_offset i (k.mem (k.xa_head - 2)))) = true
        · refine ⟨_, by rw [hgo]; exact h, get_offset_lt _ _, hkeep _ _ ?_⟩
          intro h0
          rw [h0] at hsib
          exact absurd hsib (by decide)
        · have hcan : canon (k.mem (k.xa_head - 2)) (get_offset i (k.mem (k.xa_head - 2))) =
              get_offset i (k.mem (k.xa_head - 2)) := by
            simp [canon, hsib]
          rcases hvis _ hvr with h1 | h1
          · exact ⟨_, by rw [hgo]; exact h, get_offset_lt _ _, h1⟩
          · rw [hcan] at h1
            exact ⟨_, by rw [hgo]; exact h, get_offset_lt _ _, h1⟩

/-- The part of `xas_store` after the walk, for a non-NULL entry and a
single-index cursor that has been walked to its slot. -/
theorem xas_store_tail_nonnull {k : Kernel} {L : Nat → Prop} (hi : Inv k L)
    (i entry fuel : Nat) (xas : xa_state) (w : Place) (hl : Loc k i w)
    (hw : w ≠ Place.bounds) (hnode : xas.xa_node = w.node)
    (hoff : ∀ y o, w = Place.slot y o → xas.xa_offset = o) (hsib : xas.xa_sibs = 0)
    (he : xa_is_internal entry = false) (he0 : entry ≠ 0) (hf : 1 ≤ fuel) :
    ∃ k' xas', xas_store_tail fuel k xas (entry_at k w) entry = some (k', xas', entry_at k w) ∧
      Inv k' L ∧ SameShape k k' ∧ entry_at k' w = entry ∧
      (∀ w', w' ≠ w → entry_at k' w' = entry_at k w') ∧
      (∀ t w', tag_at k' t w' = tag_at k t w') ∧
      k'.xa_flags = k.xa_flags ∧ k'.rcu_pending = k.rcu_pending ∧
      k'.slab_grant = k.slab_grant ∧ xas'.xa_alloc = xas.xa_alloc ∧
      xas'.xa_node = xas.xa_node ∧
      (NoMulti k L → (∀ y o, w = Place.slot y o →
        (k.mem y).shift = 0 ∨ (k.mem y).slots o ≠ 0) → NoMulti k' L) ∧
      k'.slab_calls = k.slab_calls := by
  have hc := hi.core
  obtain ⟨f, rfl⟩ : ∃ f, fuel = f + 1 := ⟨fuel - 1, by omega⟩
  have hen : xa_is_node entry = false := not_internal_not_node _ he
  cases w with
  | bounds => exact absurd rfl hw
  | head =>
    have hn0 : xas.xa_node = 0 := hnode
    have hinv : xas_invalid xas = false := xas_invalid_node xas (by rw [hn0])
    have hleaf := hl.1
    unfold xas_store_tail
    simp only [hinv, Bool.false_eq_true, if_false, hn0, ne_eq, not_true, false_and, hsib,
      and_true, entry_at, if_true]
    by_cases hfe : k.xa_head = entry
    · rw [if_pos hfe]
      refine ⟨k, xas, rfl, hi, ⟨fun _ => rfl, fun _ => ⟨rfl, fun _ _ => rfl⟩⟩, hfe,
        fun _ _ => rfl, fun _ _ => rfl, rfl, rfl, rfl, rfl, hn0, fun hm _ => hm, rfl⟩
    · rw [if_neg hfe, if_neg he0]
      simp only []
      rw [xas_store_loop, slot_store_head, hleaf]
      simp only [Bool.false_eq_true, if_false, if_true, update_node, true_or]
      refine ⟨{ k with xa_head := entry }, xas, rfl, inv_write_head hi entry hleaf he he0, ?_,
        rfl, ?_, ?_, rfl, rfl, rfl, rfl, hn0, fun hm _ => hm, rfl⟩
      · refine ⟨?_, fun _ => ⟨rfl, fun _ _ => rfl⟩⟩
        intro h
        simp only [hleaf, hen] at h
        simp at h
      · intro w' hw'
        cases w' with
        | head => exact absurd rfl hw'
        | bounds => rfl
        | slot _ _ => rfl
      · intro t w'
        cases w' with
        | head => rfl
        | bounds => rfl
        | slot _ _ => rfl
  | slot y o =>
    have hn0 : xas.xa_node = y := hnode
    obtain ⟨hy0, hyal⟩ := loc_slot_nonzero_node hc hl
    obtain ⟨hy, ho64, hold⟩ := loc_slot_facts hc hl
    have hinv : xas_invalid xas = false := xas_invalid_node xas (by rw [hn0]; exact hyal)
    have ho := hoff y o rfl
    have hfn : xa_is_node ((k.mem y).slots o) = false := not_internal_not_node _ hold
    have hny := hc.nodes y hy
    unfold xas_store_tail
    simp only [hinv, Bool.false_eq_true, if_false]
    -- the cursor after the adjustment of `xa_sibs`
    generalize hX : (if xas.xa_node ≠ 0 ∧ xas.xa_shift < (k.mem xas.xa_node).shift then
      ({ xas with xa_sibs := 0 } : xa_state) else xas) = X
    have hXs : X.xa_sibs = 0 ∧ X.xa_offset = o ∧ X.xa_alloc = xas.xa_alloc ∧
        X.xa_node = xas.xa_node := by
      rw [← hX]
      split_ifs
      · exact ⟨rfl, ho, rfl, rfl⟩
      · exact ⟨hsib, ho, rfl, rfl⟩
    obtain ⟨x1, x2, x3, x4⟩ := hXs
    rw [hn0] at x4 ⊢
    simp only [x1, and_true, ne_eq, not_true, and_false, if_false, x2, Nat.add_zero, entry_at]
    by_cases hfe : (k.mem y).slots o = entry
    · rw [if_pos hfe]
      refine ⟨k, X, rfl, hi, ⟨fun _ => rfl, fun _ => ⟨rfl, fun _ _ => rfl⟩⟩, hfe,
        fun _ _ => rfl, fun _ _ => rfl, rfl, rfl, rfl, x3, x4, fun hm _ => hm, rfl⟩
    · rw [if_neg hfe, if_neg he0, if_pos hy0]
      simp only []
      rw [xas_store_loop, slot_store_node _ _ _ _ hy0, hfn]
      simp only [Bool.false_eq_true, if_false, hy0, he0, ne_eq, not_false_eq_true, true_and,
        if_true]
      generalize hk2 : k.setNode y
        { k.mem y with slots := fun i => if i = o then entry else (k.mem y).slots i } = k2
      have m_y : k2.mem y =
          { k.mem y with slots := fun i => if i = o then entry else (k.mem y).slots i } := by
        rw [← hk2]
        simp
      have m_o : ∀ z, z ≠ y → k2.mem z = k.mem z := by
        intro z hz
        rw [← hk2]
        simp [hz]
      have hcnt : count_upto (fun i => if i = o then entry else (k.mem y).slots i) 64 =
          count_upto (k.mem y).slots 64 + (if (k.mem y).slots o = 0 then 1 else 0) := by
        have := count_upto_update (k.mem y).slots o entry 64
        simp only [ho64, true_and, he0, ne_eq, not_false_eq_true, if_true] at this
        by_cases h0 : (k.mem y).slots o = 0
        · simp only [h0, not_true, if_false, if_true] at this ⊢
          omega
        · simp only [h0, not_false_eq_true, if_true, if_false] at this ⊢
          omega
      have hle := count_upto_le (fun i => if i = o then entry else (k.mem y).slots i) 64
      have hfin : ∀ kF : Kernel, (∀ z, z ≠ y → kF.mem z = k.mem z) →
          kF.xa_head = k.xa_head → kF.xa_flags = k.xa_flags → kF.slab_next = k.slab_next →
          (kF.mem y).slots = (fun i => if i = o then entry else (k.mem y).slots i) →
          (kF.mem y).shift = (k.mem y).shift → (kF.mem y).parent = (k.mem y).parent →
          (kF.mem y).offset = (k.mem y).offset → (kF.mem y).tags = (k.mem y).tags →
          (kF.mem y).count = count_upto (kF.mem y).slots 64 →
          Inv kF L ∧ SameShape k kF ∧ entry_at kF (Place.slot y o) = entry ∧
          (∀ w', w' ≠ Place.slot y o → entry_at kF w' = entry_at k w') ∧
          (∀ t w', tag_at kF t w' = tag_at k t w') ∧
          (NoMulti k L → (∀ y' o', Place.slot y o = Place.slot y' o' →
            (k.mem y').shift = 0 ∨ (k.mem y').slots o' ≠ 0) → NoMulti kF L) := by
        intro kF f1 f2 f3 f4 f5 f6 f7 f8 f9 f10
        refine ⟨inv_write hi hy ho64 hold he he0 f1 f2 f3 f4 f5 f6 f7 f8 f9 f10,
          sameShape_write hold he f1 f2 f5 f6, ?_, ?_, ?_, ?_⟩
        rotate_right
        · intro hm hz
          refine nomulti_write hm he ?_ f1 f5 f6
          rcases hz y o rfl with h0 | h0
          · exact h0
          · by_contra hs
            have := (hm y hy o ho64).2 hs h0
            rw [hfn] at this
            exact absurd this (by simp)
        · show (kF.mem y).slots o = entry
          rw [f5]
          simp
        · intro w' hw'
          cases w' with
          | head => exact f2
          | bounds => rfl
          | slot z q =>
            show (kF.mem z).slots q = (k.mem z).slots q
            by_cases hz : z = y
            · subst hz
              rw [f5]
              have : q ≠ o := by
                intro hq
                rw [hq] at hw'
                exact hw' rfl
              simp [this]
            · rw [f1 z hz]
        · intro t w'
          cases w' with
          | head => exact xa_tagged_congr t f3
          | bounds => rfl
          | slot z q =>
            show node_get_tag (kF.mem z) q t = node_get_tag (k.mem z) q t
            by_cases hz : z = y
            · subst hz
              exact node_get_tag_congr (by rw [f9])
            · rw [f1 z hz]
      unfold update_node
      by_cases hskip : (0 + (lnot ((k.mem y).slots o) - lnot entry) = 0 ∧
          0 + (lnotb (xa_is_value ((k.mem y).slots o)) - lnotb (xa_is_value entry)) = 0)
      · rw [if_pos (Or.inr hskip)]
        have hf0 : (k.mem y).slots o ≠ 0 := by
          intro h0
          have := hskip.1
          rw [lnot_eq, lnot_eq, if_pos h0, if_neg he0] at this
          omega
        obtain ⟨g1, g2, g3, g4, g5, g6⟩ := hfin k2 m_o (by rw [← hk2]; rfl) (by rw [← hk2]; rfl)
          (by rw [← hk2]; rfl) (by rw [m_y]) (by rw [m_y]) (by rw [m_y]) (by rw [m_y])
          (by rw [m_y]) (by
            rw [m_y]
            simp only
            rw [hcnt, if_neg hf0, hny.count]
            rfl)
        exact ⟨k2, X, rfl, g1, g2, g3, g4, g5, by rw [← hk2]; rfl, by rw [← hk2]; rfl,
          by rw [← hk2]; rfl, x3, x4, g6, by rw [← hk2]; rfl⟩
      · rw [if_neg (by
          intro h
          rcases h with h | h
          · exact hy0 h
          · exact hskip h)]
        simp only []
        rw [if_neg (by
          rw [lnot_eq, lnot_eq, if_neg he0]
          split_ifs <;> omega)]
        generalize hk3 : k2.setNode y { k2.mem y with
          count := ((((k2.mem y).count : Int) +
            (0 + (lnot ((k.mem y).slots o) - lnot entry))) % 256).toNat,
          nr_values := ((((k2.mem y).nr_values : Int) +
            (0 + (lnotb (xa_is_value ((k.mem y).slots o)) - lnotb (xa_is_value entry)))) %
              256).toNat } = k3
        have m3 : k3.mem y = { k2.mem y with
          count := ((((k2.mem y).count : Int) +
            (0 + (lnot ((k.mem y).slots o) - lnot entry))) % 256).toNat,
          nr_values := ((((k2.mem y).nr_values : Int) +
            (0 + (lnotb (xa_is_value ((k.mem y).slots o)) - lnotb (xa_is_value entry)))) %
              256).toNat } := by
          rw [← hk3]
          simp
        have m3o : ∀ z, z ≠ y → k3.mem z = k.mem z := by
          intro z hz
          rw [← hk3]
          simp [hz, m_o z hz]
        obtain ⟨g1, g2, g3, g4, g5, g6⟩ := hfin k3 m3o (by rw [← hk3, ← hk2]; rfl)
          (by rw [← hk3, ← hk2]; rfl) (by rw [← hk3, ← hk2]; rfl) (by rw [m3, m_y])
          (by rw [m3, m_y]) (by rw [m3, m_y]) (by rw [m3, m_y]) (by rw [m3, m_y]) (by
            rw [m3, m_y]
            simp only
            rw [hcnt, hny.count, lnot_eq, lnot_eq, if_neg he0]
            rw [hcnt] at hle
            split_ifs <;> omega)
        exact ⟨k3, X, rfl, g1, g2, g3, g4, g5, by rw [← hk3, ← hk2]; rfl,
          by rw [← hk3, ← hk2]; rfl, by rw [← hk3, ← hk2]; rfl, x3, x4, g6,
          by rw [← hk3, ← hk2]; rfl⟩

theorem xas_error_aligned (xas : xa_state) (h : xas.xa_node % 4 = 0) : xas_error xas = 0 := by
  have : xa_is_internal xas.xa_node = false := by
    cases hq : xa_is_internal xas.xa_node
    · rfl
    · rw [xa_is_internal_iff] at hq
      omega
  simp [xas_error, xa_err, xa_is_err, this]

theorem xas_load_walked {k : Kernel} {L : Nat → Prop} (hc : Core k L) (i fuel : Nat)
    (hf : 12 ≤ fuel) :
    ∃ w xas', xas_load fuel k (XA_STATE i) = some (xas', entry_at k w) ∧ Walked k i w xas' := by
  obtain ⟨w, xas', h1, h2, h3, h4, h5, h6, h7, h8⟩ := xas_load_spec hc i fuel hf
  exact ⟨w, xas', h1, ⟨h2, h3, h4, h5, h6, h7, h8⟩⟩

/-- `xas_create` with a cursor that `xas_load` has walked to its place. -/
theorem xas_create_walked {k : Kernel} {L : Nat → Prop} (hi : Inv k L) (hg : AllocOK k)
    (i fuel : Nat) (xas : xa_state) (w0 : Place) (hi64 : i < 2 ^ 64)
    (hw : Walked k i w0 xas) (hf : 14 ≤ fuel) :
    ∃ k' L' xas' w, xas_create fuel k xas = some (k', xas', entry_at k' w) ∧
      Inv k' L' ∧ Sim k k' ∧ AllocOK k' ∧ k'.xa_flags = k.xa_flags ∧
      k'.rcu_pending = k.rcu_pending ∧ Loc k' i w ∧ xas'.xa_node = w.node ∧
      xas'.xa_shift = 0 ∧ xas'.xa_sibs = 0 ∧ xas'.xa_alloc = 0 ∧
      w ≠ Place.bounds ∧
      (∀ y o, w = Place.slot y o → xas'.xa_offset = o ∧
        ((k'.mem y).shift = 0 ∨ (k'.mem y).slots o ≠ 0)) ∧
      (NoMulti k L → NoMulti k' L') ∧
      (Tight k L → PreTight k' L' i) := by
  have hc := hi.core
  obtain ⟨hl, hnode, hoff, hs0, hsib, ha, hidx⟩ := hw
  cases w0 with
  | head =>
    exact xas_create_top hi hg i fuel xas hi64 (hidx (Or.inr rfl)) hs0 hsib ha
      (by rw [hnode]; decide) hf
  | bounds =>
    exact xas_create_top hi hg i fuel xas hi64 (hidx (Or.inl rfl)) hs0 hsib ha
      (by rw [hnode]; decide) hf
  | slot y o =>
    have hn0 : xas.xa_node = y := hnode
    have ho : xas.xa_offset = o := hoff
    obtain ⟨hy0, hyal⟩ := loc_slot_nonzero_node hc hl
    obtain ⟨hy, ho64, hold⟩ := loc_slot_facts hc hl
    obtain ⟨hv, hcan, hnn⟩ := loc_slot_iff.1 hl
    have hny := hc.nodes y hy
    have hbig := hny.big
    unfold xas_create
    rw [if_neg (by
      rw [hn0]
      show ¬ (decide (y ≤ 3) = true)
      simp only [decide_eq_true_eq]
      omega)]
    rw [if_neg (by rw [xas_error_aligned xas (by rw [hn0]; exact hyal)]; simp)]
    rw [if_pos (by rw [hn0]; exact hy0), hs0, hn0]
    simp only [xa_entry]
    obtain ⟨k', L', xas', y', r1, r2, r3, r4, r5, r6, r7, r8, r9, r10, r11, r12, r13, r14⟩ :=
      xas_create_loop_at i fuel k L xas y hi hg ha hs0 hv hn0 (by rw [ho]; exact hcan)
        (by
          intro h
          rw [ho] at h
          rcases h with h | h
          · refine ⟨hidx (Or.inl h), ?_⟩
            rw [ho, hcan]
            unfold canon
            split_ifs with hsb
            · exfalso
              have hint : xa_is_internal ((k.mem y).slots (get_offset i (k.mem y))) = true := by
                rw [xa_is_sibling_iff] at hsb
                rw [xa_is_internal_iff]
                exact hsb.1
              have hnd : xa_is_node ((k.mem y).slots (get_offset i (k.mem y))) = false := by
                cases hq : xa_is_node ((k.mem y).slots (get_offset i (k.mem y)))
                · rfl
                · rw [is_node_not_sibling _ hq] at hsb
                  exact absurd hsb (by simp)
              have := (hny.sib _ (get_offset_lt _ _) hint hnd).2.2.2.1
              apply this
              have hc2 : o = xa_to_sibling ((k.mem y).slots (get_offset i (k.mem y))) := by
                rw [hcan]
                simp [canon, hsb]
              rw [← hc2]
              exact h
            · rfl
          · rw [hnn] at h
            exact absurd h (by simp))
        (by have := hny.shift_le; omega)
    refine ⟨k', L', xas', Place.slot y' xas'.xa_offset, ?_, r2, r3, r4, r5, r6, r7, r8, r9,
      by rw [r10, hsib], r11, by simp, ?_, r13, fun ht => r14 (tight_pre ht i)⟩
    · show _ = some (k', xas', (k'.mem y').slots xas'.xa_offset)
      rw [← r1]
    · intro y'' o'' hw'
      simp only [Place.slot.injEq] at hw'
      rw [← hw'.1, ← hw'.2]
      exact ⟨rfl, r12⟩

theorem xa_error_enomem_mod : XA_ERROR (-ENOMEM) % 4 = 2 := by
  decide

/-- `xas_store` of a non-NULL entry, with a fresh cursor or one that has been
walked to the place of its index. -/
theorem xas_store_nonnull {k : Kernel} {L : Nat → Prop} (hi : Inv k L) (hg : AllocOK k)
    (i e fuel : Nat) (xas : xa_state) (w0 : Place) (hi64 : i < 2 ^ 64) (hl0 : Loc k i w0)
    (hcur : xas = XA_STATE i ∨ Walked k i w0 xas)
    (he : xa_is_internal e = false) (he0 : e ≠ 0) (hf : 14 ≤ fuel) :
    ∃ k' L' xas' w, xas_store fuel k xas e = some (k', xas', entry_at k w0) ∧
      Inv k' L' ∧ AllocOK k' ∧ Loc k' i w ∧ entry_at k' w = e ∧
      (∀ j w1, Loc k j w1 → ∃ w2, Loc k' j w2 ∧
        (w2 ≠ w → entry_at k' w2 = entry_at k w1) ∧
        ∀ t, t < 3 → tag_at k' t w2 = tag_at k t w1) ∧
      k'.xa_flags = k.xa_flags ∧ k'.rcu_pending = k.rcu_pending ∧
      xas'.xa_alloc = 0 ∧ xas'.xa_node % 4 = 0 ∧
      (NoMulti k L → NoMulti k' L') ∧
      (Tight k L → Tight k' L') := by
  have hcr : ∃ k' L' xas' w, xas_create fuel k xas = some (k', xas', entry_at k' w) ∧
      Inv k' L' ∧ Sim k k' ∧ AllocOK k' ∧ k'.xa_flags = k.xa_flags ∧
      k'.rcu_pending = k.rcu_pending ∧ Loc k' i w ∧ xas'.xa_node = w.node ∧
      xas'.xa_shift = 0 ∧ xas'.xa_sibs = 0 ∧ xas'.xa_alloc = 0 ∧
      w ≠ Place.bounds ∧
      (∀ y o, w = Place.slot y o → xas'.xa_offset = o ∧
        ((k'.mem y).shift = 0 ∨ (k'.mem y).slots o ≠ 0)) ∧
      (NoMulti k L → NoMulti k' L') ∧
      (Tight k L → PreTight k' L' i) := by
    rcases hcur with hcur | hcur
    · subst hcur
      exact xas_create_top hi hg i fuel _ hi64 rfl rfl rfl rfl
        (show xas_top 3 = true by decide) hf
    · exact xas_create_walked hi hg i fuel xas w0 hi64 hcur hf
  obtain ⟨k1, L1, xas1, w, c1, c2, c3, c4, c5, c6, c7, c8, c9, c10, c11, c12, c13, c14, c15⟩ :=
    hcr
  obtain ⟨k', xas', t1, t2, t3, t4, t5, t6, t7, t8, t9, t10, t11, t12, _⟩ :=
    xas_store_tail_nonnull c2 i e fuel xas1 w c7 c12 c8 (fun y o h => (c13 y o h).1) c10 he he0
      (by omega)
  have hfirst : entry_at k1 w = entry_at k w0 := by
    obtain ⟨w', h1, h2, _⟩ := c3 i w0 hl0
    rw [← loc_unique c2.core c7 h1] at h2
    exact h2
  refine ⟨k', L1, xas', w, ?_, t2, ?_, sameShape_loc t3 c7, t4, ?_, by rw [t7, c5],
    by rw [t8, c6], by rw [t10, c11], ?_, ?_,
    fun ht => tight_of_pre_write c2.core (c15 ht) c7 c12 t3 t4 he0 t5⟩
  · unfold xas_store
    rw [if_pos he0, c1]
    simp only []
    rw [t1, hfirst]
  · intro n g
    rw [t9]
    exact c4 n g
  · intro j w1 hj
    obtain ⟨w2, h1, h2, h3⟩ := c3 j w1 hj
    refine ⟨w2, sameShape_loc t3 h1, ?_, ?_⟩
    · intro hne
      rw [t5 w2 hne, h2]
    · intro t ht
      rw [t6 t w2, h3 t ht]
  · rw [t11, c8]
    cases w with
    | head => rfl
    | bounds => exact absurd rfl c12
    | slot y o => exact (loc_slot_nonzero_node c2.core c7).2
  · intro hm
    exact t12 (c14 hm) (fun y o h => (c13 y o h).2)

theorem xas_nomem_done (k : Kernel) (xas : xa_state) (gfp : Nat) (h4 : xas.xa_node % 4 = 0)
    (ha : xas.xa_alloc = 0) : xas_nomem k xas gfp = (k, xas, false) := by
  have hne : xas.xa_node ≠ XA_ERROR (-ENOMEM) := by
    intro h
    have := xa_error_enomem_mod
    rw [← h] at this
    omega
  simp [xas_nomem, hne, xas_destroy, ha]

theorem xas_nomem_done2 (k : Kernel) (xas : xa_state) (gfp : Nat) (h4 : xas.xa_node % 4 = 0)
    (ha : xas.xa_alloc = 0) : __xas_nomem k xas gfp = (k, xas, false) := by
  have hne : xas.xa_node ≠ XA_ERROR (-ENOMEM) := by
    intro h
    have := xa_error_enomem_mod
    rw [← h] at this
    omega
  simp [__xas_nomem, hne, xas_destroy, ha]

theorem xas_result_ok (xas : xa_state) (c : Nat) (h4 : xas.xa_node % 4 = 0) :
    xas_result xas c = c := by
  simp [xas_result, xas_error_aligned xas h4]

/-- `xa_store` of a non-NULL entry when the allocations succeed. -/
theorem xa_store_nonnull {k : Kernel} {L : Nat → Prop} (hi : Inv k L) (hg : AllocOK k)
    (i e gfp fuel : Nat) (w0 : Place) (hi64 : i < 2 ^ 64) (hl0 : Loc k i w0)
    (he : xa_is_internal e = false) (he0 : e ≠ 0) (hf : 14 ≤ fuel) :
    ∃ k' L' w, xa_store fuel k i e gfp = some (k', entry_at k w0) ∧
      Inv k' L' ∧ AllocOK k' ∧ Loc k' i w ∧ entry_at k' w = e ∧
      (∀ j w1, Loc k j w1 → ∃ w2, Loc k' j w2 ∧
        (w2 ≠ w → entry_at k' w2 = entry_at k w1) ∧
        ∀ t, t < 3 → tag_at k' t w2 = tag_at k t w1) ∧
      k'.xa_flags = k.xa_flags ∧ k'.rcu_pending = k.rcu_pending ∧
      (NoMulti k L → NoMulti k' L') ∧
      (Tight k L → Tight k' L') := by
  obtain ⟨k', L', xas', w, s1, s2, s3, s4, s5, s6, s7, s8, s9, s10, s11, s12⟩ :=
    xas_store_nonnull hi hg i e fuel (XA_STATE i) w0 hi64 hl0 (Or.inl rfl) he he0 hf
  refine ⟨k', L', w, ?_, s2, s3, s4, s5, s6, s7, s8, s11, s12⟩
  obtain ⟨f, rfl⟩ : ∃ f, fuel = f + 1 := ⟨fuel - 1, by omega⟩
  unfold xa_store
  rw [he]
  simp only [Bool.false_eq_true, if_false]
  rw [xa_store_loop, s1]
  simp only [xas_nomem_done k' xas' gfp s10 s9, Bool.false_eq_true, if_false,
    xas_result_ok xas' _ s10]

theorem and_two_pow_ne_zero (x n : Nat) : (x &&& 2 ^ n != 0) = x.testBit n := by
  cases h : x.testBit n
  · have : x &&& 2 ^ n = 0 := by
      apply Nat.eq_of_testBit_eq
      intro i
      simp only [Nat.testBit_and, Nat.testBit_two_pow, Nat.zero_testBit]
      by_cases hi : n = i
      · subst hi
        simp [h]
      · simp [hi]
    simp [this]
  · have : x &&& 2 ^ n ≠ 0 := by
      intro h0
      have h1 : (x &&& 2 ^ n).testBit n = true := by
        simp [Nat.testBit_and, Nat.testBit_two_pow, h]
      rw [h0] at h1
      simp at h1
    simp [this]

theorem xa_flags_tag_eq (t : Nat) (ht : t < 3) : XA_FLAGS_TAG t = 2 ^ (25 + t) := by
  interval_cases t <;> decide

theorem xa_tagged_iff (k : Kernel) (t : Nat) (ht : t < 3) :
    xa_tagged k t = k.xa_flags.testBit (25 + t) := by
  unfold xa_tagged
  rw [xa_flags_tag_eq t ht]
  exact and_two_pow_ne_zero _ _

theorem xa_tagged_set (k : Kernel) (t u : Nat) (ht : t < 3) (hu : u < 3) :
    xa_tagged (xa_tag_set k t) u = (xa_tagged k u || decide (t = u)) := by
  rw [xa_tagged_iff _ u hu, xa_tagged_iff _ u hu]
  unfold xa_tag_set
  split_ifs with h
  · simp only [xa_flags_tag_eq t ht, Nat.testBit_or, Nat.testBit_two_pow]
    congr 1
    simp
  · have h1 : xa_tagged k t = true := by
      simp only [xa_tagged, bne_iff_ne, ne_eq]
      simpa using h
    rw [xa_tagged_iff _ t ht] at h1
    by_cases htu : t = u
    · subst htu
      simp [h1]
    · simp [htu]

theorem xa_tagged_clear (k : Kernel) (t u : Nat) (ht : t < 3) (hu : u < 3) :
    xa_tagged (xa_tag_clear k t) u = (xa_tagged k u && !decide (t = u)) := by
  rw [xa_tagged_iff _ u hu, xa_tagged_iff _ u hu]
  unfold xa_tag_clear
  split_ifs with h
  · simp only [xa_flags_tag_eq t ht, Nat.testBit_and, Nat.testBit_xor, Nat.testBit_two_pow,
      Nat.testBit_two_pow_sub_one]
    have : decide (25 + u < 32) = true := by simp; omega
    rw [this]
    by_cases htu : t = u
    · subst htu
      simp
    · have : ¬ (25 + t = 25 + u) := by omega
      simp [htu, this]
  · have h1 : xa_tagged k t = false := by
      simp only [xa_tagged]
      simpa using h
    rw [xa_tagged_iff _ t ht] at h1
    by_cases htu : t = u
    · subst htu
      simp [h1]
    · simp [htu]

theorem set_bit_idem (o w : Nat) (h : test_bit o w = true) : set_bit o w = w := by
  apply Nat.eq_of_testBit_eq
  intro i
  have := test_set_bit o i w
  simp only [test_bit] at this h
  rw [this]
  by_cases hi : o = i
  · subst hi
    simp [h]
  · simp [hi]

theorem tagOnly_refl (k : Kernel) : TagOnly k k :=
  ⟨rfl, rfl, rfl, rfl, fun _ => rfl, fun _ => rfl, fun _ => rfl, fun _ => rfl, fun _ => rfl⟩

theorem tagOnly_trans {k1 k2 k3 : Kernel} (a : TagOnly k1 k2) (b : TagOnly k2 k3) :
    TagOnly k1 k3 :=
  ⟨b.head.trans a.head, b.next.trans a.next, b.grant.trans a.grant, b.rcu.trans a.rcu,
    fun z => (b.slots z).trans (a.slots z), fun z => (b.shift z).trans (a.shift z),
    fun z => (b.parent z).trans (a.parent z), fun z => (b.offset z).trans (a.offset z),
    fun z => (b.count z).trans (a.count z)⟩

theorem tagOnly_setNode (k : Kernel) (p : Nat) (T : Nat → Nat) :
    TagOnly k (k.setNode p { k.mem p with tags := T }) := by
  refine ⟨rfl, rfl, rfl, rfl, ?_, ?_, ?_, ?_, ?_⟩ <;>
  · intro z
    simp only [setNode_mem]
    split_ifs with h
    · rw [h]
    · rfl

theorem tagOnly_flags (k : Kernel) (f : Nat) : TagOnly k { k with xa_flags := f } :=
  ⟨rfl, rfl, rfl, rfl, fun _ => rfl, fun _ => rfl, fun _ => rfl, fun _ => rfl, fun _ => rfl⟩

theorem tagOnly_sameShape {k k' : Kernel} (h : TagOnly k k') : SameShape k k' :=
  ⟨fun _ => h.head, fun x => ⟨h.shift x, fun o _ => by rw [h.slots x]⟩⟩

theorem core_tagOnly {k k' : Kernel} {L : Nat → Prop} (hc : Core k L) (h : TagOnly k k')
    (hnull : ∀ x, L x → ∀ o t, o < 64 → t < 3 → node_get_tag (k'.mem x) o t = true →
      (k.mem x).slots o ≠ 0 ∧ xa_is_sibling ((k.mem x).slots o) = false) : Core k' L := by
  refine ⟨?_, ?_, ?_, ?_, ?_⟩
  · intro hn
    rw [h.head] at hn ⊢
    rw [h.parent]
    exact hc.head_node hn
  · intro hn
    rw [h.head] at hn ⊢
    exact hc.head_leaf hn
  · intro x hx
    have n := hc.nodes x hx
    refine ⟨n.align, n.big, by rw [h.next]; exact n.below, by rw [h.shift]; exact n.shift6,
      by rw [h.shift]; exact n.shift_le, ?_, ?_, ?_, ?_, ?_, ?_⟩
    · rw [h.parent, h.head]
      exact n.root
    · rw [h.parent, h.offset, h.slots, h.shift, h.shift]
      exact n.up
    · intro o ho
      rw [h.slots, h.parent, h.offset]
      exact n.child o ho
    · intro o ho
      rw [h.slots]
      exact n.sib o ho
    · rw [h.count, h.slots]
      exact n.count
    · intro o t ho ht hb
      rw [h.slots]
      exact hnull x hx o t ho ht hb
  · rw [h.next]
    exact hc.slab_align
  · rw [h.next]
    exact hc.slab_big

theorem node_set_tag_get (n : xa_node) (o t q u : Nat) :
    node_get_tag (node_set_tag n o t).1 q u =
      (node_get_tag n q u || (decide (u = t) && decide (o = q))) := by
  unfold node_set_tag node_get_tag
  simp only
  by_cases hu : u = t
  · subst hu
    simp [test_set_bit]
  · simp [hu]

theorem node_clear_tag_get (n : xa_node) (o t q u : Nat) (hq : q < 64) :
    node_get_tag (node_clear_tag n o t).1 q u =
      (node_get_tag n q u && !(decide (u = t) && decide (o = q))) := by
  unfold node_clear_tag node_get_tag
  simp only
  by_cases hu : u = t
  · subst hu
    simp [test_clear_bit _ _ _ hq]
  · simp [hu]

theorem node_set_tag_fields (n : xa_node) (o t : Nat) :
    (node_set_tag n o t).1 = { n with tags := (node_set_tag n o t).1.tags } ∧
    (node_set_tag n o t).2 = node_get_tag n o t := by
  exact ⟨rfl, rfl⟩

theorem node_clear_tag_fields (n : xa_node) (o t : Nat) :
    (node_clear_tag n o t).1 = { n with tags := (node_clear_tag n o t).1.tags } ∧
    (node_clear_tag n o t).2 = node_get_tag n o t := by
  exact ⟨rfl, rfl⟩

/-- A tag set on a live node is summarised all the way up to the array flags. -/
theorem tagged_of_any {k : Kernel} {L : Nat → Prop} (hi : Inv k L) (t : Nat) (ht : t < 3) :
    ∀ n x, L x → 60 ≤ (k.mem x).shift + 6 * n → node_any_tag (k.mem x) t = true →
      xa_tagged k t = true := by
  intro n
  induction n with
  | zero =>
    intro x hx hs ha
    have hn := hi.core.nodes x hx
    have hu := hi.tags x hx t ht
    unfold TagUp at hu
    by_cases hp : (k.mem x).parent = 0
    · rw [if_pos hp] at hu
      rw [hu, ha]
    · have := (hn.up hp)
      have h1 := (hi.core.nodes _ this.1).shift_le
      omega
  | succ n ih =>
    intro x hx hs ha
    have hn := hi.core.nodes x hx
    have hu := hi.tags x hx t ht
    unfold TagUp at hu
    by_cases hp : (k.mem x).parent = 0
    · rw [if_pos hp] at hu
      rw [hu, ha]
    · rw [if_neg hp, ha] at hu
      obtain ⟨u1, u2, u3, u4⟩ := hn.up hp
      exact ih _ u1 (by omega) ((node_any_tag_iff _ _).2 ⟨_, u2, hu⟩)

theorem tagFrame_refl (k : Kernel) (t : Nat) : TagFrame k k t :=
  ⟨tagOnly_refl k, fun _ _ _ => rfl, fun _ _ _ => rfl, fun _ _ _ _ => rfl⟩

theorem tagFrame_trans {k1 k2 k3 : Kernel} {t : Nat} (a : TagFrame k1 k2 t)
    (b : TagFrame k2 k3 t) : TagFrame k1 k3 t := by
  refine ⟨tagOnly_trans a.only b.only, fun z u hu => (b.other z u hu).trans (a.other z u hu),
    fun u h1 h2 => (b.flags u h1 h2).trans (a.flags u h1 h2), ?_⟩
  intro z q hq64 hq
  rw [b.leaf z q hq64 (by rw [a.only.slots]; exact hq), a.leaf z q hq64 hq]

theorem xas_set_tag_eq (fuel : Nat) (k : Kernel) (xas : xa_state) (t : Nat) :
    xas_set_tag fuel k xas t =
      if xas_invalid xas then some k
      else (xas_set_tag_loop t fuel k xas.xa_node xas.xa_offset).map
        fun r => xas_set_tag_end r.1 t r.2 := by
  unfold xas_set_tag
  split_ifs
  · rfl
  · cases h : xas_set_tag_loop t fuel k xas.xa_node xas.xa_offset with
    | none => rfl
    | some r =>
      obtain ⟨k1, b⟩ := r
      cases b
      · simp only [xas_set_tag_end, Option.map, Bool.false_eq_true, if_false]
        split_ifs <;> rfl
      · simp [xas_set_tag_end]

theorem xas_clear_tag_eq (fuel : Nat) (k : Kernel) (xas : xa_state) (t : Nat) :
    xas_clear_tag fuel k xas t =
      if xas_invalid xas then some k
      else (xas_clear_tag_loop t fuel k xas.xa_node xas.xa_offset).map
        fun r => xas_clear_tag_end r.1 t r.2 := by
  unfold xas_clear_tag
  split_ifs
  · rfl
  · cases h : xas_clear_tag_loop t fuel k xas.xa_node xas.xa_offset with
    | none => rfl
    | some r =>
      obtain ⟨k1, b⟩ := r
      cases b
      · simp only [xas_clear_tag_end, Option.map, Bool.false_eq_true, if_false]
        split_ifs <;> rfl
      · simp [xas_clear_tag_end]

theorem xas_set_tag_end_false (k : Kernel) (t : Nat) (ht : t < 3) :
    ∃ f, xas_set_tag_end k t false = { k with xa_flags := f } ∧
      ∀ u, u < 3 → xa_tagged { k with xa_flags := f } u = (xa_tagged k u || decide (t = u)) := by
  unfold xas_set_tag_end
  simp only [Bool.false_eq_true, if_false]
  cases h : xa_tagged k t
  · simp only [Bool.not_false, if_true]
    have key := xa_tagged_set k t
    unfold xa_tag_set at key ⊢
    split_ifs at key ⊢ with h2
    · exact ⟨_, rfl, fun u hu => key u ht hu⟩
    · exact ⟨k.xa_flags, rfl, fun u hu => key u ht hu⟩
  · simp only [Bool.not_true, Bool.false_eq_true, if_false]
    refine ⟨k.xa_flags, rfl, ?_⟩
    intro u hu
    show xa_tagged k u = _
    by_cases htu : t = u
    · subst htu
      simp [h]
    · simp [htu]

theorem xas_clear_tag_end_false (k : Kernel) (t : Nat) (ht : t < 3) :
    ∃ f, xas_clear_tag_end k t false = { k with xa_flags := f } ∧
      ∀ u, u < 3 → xa_tagged { k with xa_flags := f } u = (xa_tagged k u && !decide (t = u)) := by
  unfold xas_clear_tag_end
  simp only [Bool.false_eq_true, if_false]
  cases h : xa_tagged k t
  · simp only [Bool.false_eq_true, if_false]
    refine ⟨k.xa_flags, rfl, ?_⟩
    intro u hu
    show xa_tagged k u = _
    by_cases htu : t = u
    · subst htu
      simp [h]
    · simp [htu]
  · simp only [if_true]
    have key := xa_tagged_clear k t
    unfold xa_tag_clear at key ⊢
    split_ifs at key ⊢ with h2
    · exact ⟨_, rfl, fun u hu => key u ht hu⟩
    · exact ⟨k.xa_flags, rfl, fun u hu => key u ht hu⟩

theorem node_any_tag_of_get {n n' : xa_node} {u : Nat}
    (h : ∀ q, q < 64 → node_get_tag n' q u = node_get_tag n q u) :
    node_any_tag n' u = node_any_tag n u := by
  cases ha : node_any_tag n u
  · rw [node_any_tag_false_iff] at ha ⊢
    intro o ho
    rw [h o ho]
    exact ha o ho
  · rw [node_any_tag_iff] at ha ⊢
    obtain ⟨o, ho, hb⟩ := ha
    exact ⟨o, ho, by rw [h o ho]; exact hb⟩

theorem head_ne_zero {k : Kernel} {L : Nat → Prop} (hc : Core k L) {x : Nat} (hx : L x) :
    xa_is_node k.xa_head = true := by
  cases h : xa_is_node k.xa_head
  · exact absurd hx ((hc.head_leaf h).2 x)
  · rfl

/-- One step of the loop of `xas_set_tag`: the bit of node `x` is set in its
parent `p`.  Before the step, only the summary of `x` may be missing. -/
theorem xas_set_tag_step {k k1 : Kernel} {L : Nat → Prop} (hc : Core k L) {x p q t : Nat}
    (ht : t < 3) (hx : L x) (hp0 : (k.mem x).parent ≠ 0) (hpd : (k.mem x).parent = p)
    (hqd : (k.mem x).offset = q)
    (hup : ∀ x' u, L x' → u < 3 → (x' ≠ x ∨ u ≠ t) → TagUp k x' u)
    (hany : node_any_tag (k.mem x) t = true)
    (hk1 : k.setNode p (node_set_tag (k.mem p) q t).1 = k1) :
    Core k1 L ∧ TagFrame k k1 t ∧ L p ∧ (k.mem p).shift = (k.mem x).shift + 6 ∧
      (∀ x' u, L x' → u < 3 → (x' ≠ p ∨ u ≠ t) → TagUp k1 x' u) ∧
      node_any_tag (k1.mem p) t = true ∧
      (node_get_tag (k.mem p) q t = true → TagUp k1 p t) := by
  have hn := hc.nodes x hx
  obtain ⟨u1, u2, u3, u4⟩ := hn.up hp0
  rw [hpd] at u1 u3 u4
  rw [hqd] at u2 u3
  have hxp : x ≠ p := by
    intro h
    rw [← h] at u4
    omega
  have hnode : xa_is_node (x + 2) = true := is_node_add2 x hn.align hn.big
  have m_p : k1.mem p = (node_set_tag (k.mem p) q t).1 := by
    rw [← hk1]
    simp
  have m_o : ∀ z, z ≠ p → k1.mem z = k.mem z := by
    intro z hz
    rw [← hk1]
    simp [hz]
  have to1 : TagOnly k k1 := by
    rw [← hk1]
    exact tagOnly_setNode k p _
  have get1 : ∀ z q' u, node_get_tag (k1.mem z) q' u =
      (node_get_tag (k.mem z) q' u || (decide (z = p) && (decide (u = t) && decide (q = q')))) := by
    intro z q' u
    by_cases hz : z = p
    · subst hz
      rw [m_p, node_set_tag_get]
      simp
    · rw [m_o z hz]
      simp [hz]
  have hflags : k1.xa_flags = k.xa_flags := by
    rw [← hk1]
    rfl
  have hfr : TagFrame k k1 t := by
    refine ⟨to1, ?_, fun u _ _ => xa_tagged_congr u hflags, ?_⟩
    · intro z u hu
      by_cases hz : z = p
      · subst hz
        rw [m_p]
        simp [node_set_tag, hu]
      · rw [m_o z hz]
    · intro z q' _ hnn
      rw [get1]
      by_cases hzq : z = p ∧ q = q'
      · obtain ⟨rfl, rfl⟩ := hzq
        rw [u3, hnode] at hnn
        exact absurd hnn (by simp)
      · have : (decide (z = p) && (decide (t = t) && decide (q = q'))) = false := by
          simp only [decide_True, Bool.true_and, Bool.and_eq_false_imp, decide_eq_true_eq,
            decide_eq_false_iff_not]
          intro h1 h2
          exact hzq ⟨h1, h2⟩
        rw [this, Bool.or_false]
  have hc1 : Core k1 L := by
    refine core_tagOnly hc to1 ?_
    intro x' hx' o u ho hu hb
    rw [get1] at hb
    by_cases hold : node_get_tag (k.mem x') o u = true
    · exact (hc.nodes x' hx').tag_null o u ho hu hold
    · simp only [hold, Bool.false_or, Bool.and_eq_true, decide_eq_true_eq] at hb
      obtain ⟨rfl, _, rfl⟩ := hb
      rw [u3]
      exact ⟨by omega, is_node_not_sibling _ hnode⟩
  have hpp : L p → (k.mem p).parent ≠ p := by
    intro hp h
    by_cases h0 : (k.mem p).parent = 0
    · have := (hc.nodes p hp).big
      omega
    · have := ((hc.nodes p hp).up h0).2.2.2
      rw [h] at this
      omega
  have hother : ∀ x' u, L x' → TagUp k x' u → (x' ≠ x ∨ u ≠ t) →
      node_any_tag (k1.mem x') u = node_any_tag (k.mem x') u → TagUp k1 x' u := by
    intro x' u hx' hT hne ha
    refine tagUp_congr hT (to1.parent x') (to1.offset x') ha (fun _ => xa_tagged_congr u hflags) ?_
    intro hp'
    rw [get1]
    obtain ⟨v1, v2, v3, v4⟩ := (hc.nodes x' hx').up hp'
    by_cases hz : (k.mem x').parent = p ∧ u = t ∧ q = (k.mem x').offset
    · obtain ⟨z1, z2, z3⟩ := hz
      rw [z1, ← z3, u3] at v3
      rcases hne with hne | hne
      · exact absurd (by omega) hne
      · exact absurd z2 hne
    · have : (decide ((k.mem x').parent = p) && (decide (u = t) &&
          decide (q = (k.mem x').offset))) = false := by
        simp only [Bool.and_eq_false_imp, decide_eq_true_eq, decide_eq_false_iff_not]
        intro h1 h2 h3
        exact hz ⟨h1, h2, h3⟩
      rw [this, Bool.or_false]
  have hanyp : node_any_tag (k1.mem p) t = true := by
    rw [node_any_tag_iff]
    refine ⟨q, u2, ?_⟩
    rw [get1]
    simp
  refine ⟨hc1, hfr, u1, u4, ?_, hanyp, ?_⟩
  · intro x' u hx' hu hne
    by_cases hxt : x' = x ∧ u = t
    · obtain ⟨rfl, rfl⟩ := hxt
      unfold TagUp
      rw [to1.parent, to1.offset, hpd, hqd, if_neg (by rw [← hpd]; exact hp0), get1, m_o x' hxp,
        hany]
      simp
    · have hne2 : x' ≠ x ∨ u ≠ t := by
        by_cases h : x' = x
        · exact Or.inr (fun h2 => hxt ⟨h, h2⟩)
        · exact Or.inl h
      refine hother x' u hx' (hup x' u hx' hu hne2) hne2 ?_
      rcases hne with hne | hne
      · rw [m_o x' hne]
      · exact node_any_tag_congr (hfr.other x' u hne)
  · intro hb
    refine hother p t u1 (hup p t u1 ht (Or.inl (Ne.symm hxp))) (Or.inl (Ne.symm hxp)) ?_
    rw [hanyp]
    exact ((node_any_tag_iff _ _).2 ⟨q, u2, hb⟩).symm

/-- The end of a tag loop at the root: the array flag takes the summary of the root. -/
theorem inv_root_flags {k : Kernel} {L : Nat → Prop} (hc : Core k L) {x t : Nat} (hx : L x)
    (hp : (k.mem x).parent = 0)
    (hup : ∀ x' u, L x' → u < 3 → (x' ≠ x ∨ u ≠ t) → TagUp k x' u) (f : Nat)
    (hft : xa_tagged { k with xa_flags := f } t = node_any_tag (k.mem x) t)
    (hfo : ∀ u, u < 3 → u ≠ t → xa_tagged { k with xa_flags := f } u = xa_tagged k u) :
    Inv { k with xa_flags := f } L ∧ TagFrame k { k with xa_flags := f } t := by
  have hn := hc.nodes x hx
  have hh := hn.root hp
  refine ⟨⟨?_, ?_, ?_⟩, ⟨tagOnly_flags k f, fun _ _ _ => rfl, hfo, fun _ _ _ _ => rfl⟩⟩
  · exact core_tagOnly hc (tagOnly_flags k f) (fun x' hx' o u ho hu hb =>
      (hc.nodes x' hx').tag_null o u ho hu hb)
  · intro h0
    have : k.xa_head = 0 := h0
    omega
  · intro x' hx' u hu
    by_cases hxt : x' = x ∧ u = t
    · obtain ⟨rfl, rfl⟩ := hxt
      unfold TagUp
      rw [if_pos hp]
      exact hft
    · have hne2 : x' ≠ x ∨ u ≠ t := by
        by_cases h : x' = x
        · exact Or.inr (fun h2 => hxt ⟨h, h2⟩)
        · exact Or.inl h
      refine tagUp_congr (hup x' u hx' hu hne2) rfl rfl rfl ?_ (fun _ => rfl)
      intro hp'
      rcases hne2 with h | h
      · have := (hc.nodes x' hx').root hp'
        exact absurd (by omega) h
      · exact hfo u hu h

/-- The loop of `xas_set_tag` from the parent of `x` up, once the bit below is set. -/
theorem xas_set_tag_loop_up {L : Nat → Prop} (t : Nat) (ht : t < 3) :
    ∀ fuel k x, Core k L → L x →
      (∀ x' u, L x' → u < 3 → (x' ≠ x ∨ u ≠ t) → TagUp k x' u) →
      node_any_tag (k.mem x) t = true → 66 ≤ (k.mem x).shift + 6 * fuel →
      ∃ k1 b, xas_set_tag_loop t fuel k (k.mem x).parent (k.mem x).offset = some (k1, b) ∧
        Inv (xas_set_tag_end k1 t b) L ∧ TagFrame k (xas_set_tag_end k1 t b) t := by
  intro fuel
  induction fuel with
  | zero =>
    intro k x hc hx _ _ hf
    have := (hc.nodes x hx).shift_le
    omega
  | succ f ih =>
    intro k x hc hx hup hany hf
    rw [xas_set_tag_loop]
    by_cases hp : (k.mem x).parent = 0
    · rw [if_neg (by simp [hp])]
      obtain ⟨fl, e1, e2⟩ := xas_set_tag_end_false k t ht
      refine ⟨k, false, rfl, ?_⟩
      rw [e1]
      refine inv_root_flags hc hx hp hup fl ?_ ?_
      · rw [e2 t ht, hany]
        simp
      · intro u hu hne
        rw [e2 u hu]
        simp [Ne.symm hne]
    · rw [if_pos hp]
      simp only []
      generalize hk1 : k.setNode (k.mem x).parent
        (node_set_tag (k.mem (k.mem x).parent) (k.mem x).offset t).1 = k1
      obtain ⟨s1, s2, s3, s4, s5, s6, s7⟩ := xas_set_tag_step hc ht hx hp rfl rfl hup hany hk1
      have hb2 : (node_set_tag (k.mem (k.mem x).parent) (k.mem x).offset t).2 =
          node_get_tag (k.mem (k.mem x).parent) (k.mem x).offset t := rfl
      rw [hb2]
      by_cases hb : node_get_tag (k.mem (k.mem x).parent) (k.mem x).offset t = true
      · rw [if_pos hb]
        refine ⟨k1, true, rfl, ?_, ?_⟩
        · show Inv k1 L
          refine ⟨s1, ?_, ?_⟩
          · intro h0
            have := head_ne_zero s1 hx
            rw [h0] at this
            exact absurd this (by decide)
          · intro x' hx' u hu
            by_cases hxt : x' = (k.mem x).parent ∧ u = t
            · obtain ⟨rfl, rfl⟩ := hxt
              exact s7 hb
            · refine s5 x' u hx' hu ?_
              by_cases h : x' = (k.mem x).parent
              · exact Or.inr (fun h2 => hxt ⟨h, h2⟩)
              · exact Or.inl h
        · exact s2
      · rw [if_neg hb]
        have hsh : (k1.mem (k.mem x).parent).shift = (k.mem x).shift + 6 := by
          rw [s2.only.shift, s4]
        obtain ⟨k2, b, r1, r2, r3⟩ := ih k1 (k.mem x).parent s1 s3 s5 s6 (by rw [hsh]; omega)
        refine ⟨k2, b, ?_, r2, tagFrame_trans s2 r3⟩
        rw [← r1]
        rfl

/-- The first step of `xas_set_tag`: the bit of an entry is set in its node. -/
theorem xas_set_tag_leaf {k k1 : Kernel} {L : Nat → Prop} (hi : Inv k L) {y o t : Nat}
    (ht : t < 3) (hy : L y) (ho : o < 64)
    (hnn : xa_is_node ((k.mem y).slots o) = false) (hne : (k.mem y).slots o ≠ 0)
    (hns : xa_is_sibling ((k.mem y).slots o) = false)
    (hk1 : k.setNode y (node_set_tag (k.mem y) o t).1 = k1) :
    Core k1 L ∧ TagOnly k k1 ∧
      (∀ z q u, node_get_tag (k1.mem z) q u =
        (node_get_tag (k.mem z) q u || (decide (z = y) && (decide (u = t) && decide (o = q))))) ∧
      k1.xa_flags = k.xa_flags ∧
      (∀ z u, u ≠ t → (k1.mem z).tags u = (k.mem z).tags u) ∧
      (∀ x' u, L x' → u < 3 → (x' ≠ y ∨ u ≠ t) → TagUp k1 x' u) ∧
      node_any_tag (k1.mem y) t = true ∧
      (node_get_tag (k.mem y) o t = true → TagUp k1 y t) := by
  have hc := hi.core
  have m_p : k1.mem y = (node_set_tag (k.mem y) o t).1 := by
    rw [← hk1]
    simp
  have m_o : ∀ z, z ≠ y → k1.mem z = k.mem z := by
    intro z hz
    rw [← hk1]
    simp [hz]
  have to1 : TagOnly k k1 := by
    rw [← hk1]
    exact tagOnly_setNode k y _
  have get1 : ∀ z q' u, node_get_tag (k1.mem z) q' u =
      (node_get_tag (k.mem z) q' u || (decide (z = y) && (decide (u = t) && decide (o = q')))) := by
    intro z q' u
    by_cases hz : z = y
    · subst hz
      rw [m_p, node_set_tag_get]
      simp
    · rw [m_o z hz]
      simp [hz]
  have hflags : k1.xa_flags = k.xa_flags := by
    rw [← hk1]
    rfl
  have hoth : ∀ z u, u ≠ t → (k1.mem z).tags u = (k.mem z).tags u := by
    intro z u hu
    by_cases hz : z = y
    · subst hz
      rw [m_p]
      simp [node_set_tag, hu]
    · rw [m_o z hz]
  have hc1 : Core k1 L := by
    refine core_tagOnly hc to1 ?_
    intro x' hx' q u hq hu hb
    rw [get1] at hb
    by_cases hold : node_get_tag (k.mem x') q u = true
    · exact (hc.nodes x' hx').tag_null q u hq hu hold
    · simp only [hold, Bool.false_or, Bool.and_eq_true, decide_eq_true_eq] at hb
      obtain ⟨rfl, _, rfl⟩ := hb
      exact ⟨hne, hns⟩
  have hother : ∀ x' u, L x' → TagUp k x' u →
      node_any_tag (k1.mem x') u = node_any_tag (k.mem x') u → TagUp k1 x' u := by
    intro x' u hx' hT ha
    refine tagUp_congr hT (to1.parent x') (to1.offset x') ha (fun _ => xa_tagged_congr u hflags) ?_
    intro hp'
    rw [get1]
    obtain ⟨v1, v2, v3, v4⟩ := (hc.nodes x' hx').up hp'
    by_cases hz : (k.mem x').parent = y ∧ o = (k.mem x').offset
    · obtain ⟨z1, z2⟩ := hz
      rw [z1, ← z2] at v3
      rw [v3, is_node_add2 x' (hc.nodes x' hx').align (hc.nodes x' hx').big] at hnn
      exact absurd hnn (by simp)
    · have : (decide ((k.mem x').parent = y) && (decide (u = t) &&
          decide (o = (k.mem x').offset))) = false := by
        simp only [Bool.and_eq_false_imp, decide_eq_true_eq, decide_eq_false_iff_not]
        intro h1 _ h3
        exact hz ⟨h1, h3⟩
      rw [this, Bool.or_false]
  have hanyp : node_any_tag (k1.mem y) t = true := by
    rw [node_any_tag_iff]
    refine ⟨o, ho, ?_⟩
    rw [get1]
    simp
  refine ⟨hc1, to1, get1, hflags, hoth, ?_, hanyp, ?_⟩
  · intro x' u hx' hu hne'
    refine hother x' u hx' (hi.tags x' hx' u hu) ?_
    rcases hne' with h | h
    · rw [m_o x' h]
    · exact node_any_tag_congr (hoth x' u h)
  · intro hb
    refine hother y t hy (hi.tags y hy t ht) ?_
    rw [hanyp]
    exact ((node_any_tag_iff _ _).2 ⟨o, ho, hb⟩).symm

/-- `xas_set_tag` with a cursor at the place of a present entry. -/
theorem xas_set_tag_spec {k : Kernel} {L : Nat → Prop} (hi : Inv k L) (i t fuel : Nat)
    (ht : t < 3) (xas : xa_state) (w : Place) (hl : Loc k i w) (hnode : xas.xa_node = w.node)
    (hoff : xas.xa_offset = w.offset) (hne : entry_at k w ≠ 0) (hf : 12 ≤ fuel) :
    ∃ k', xas_set_tag fuel k xas t = some k' ∧ Inv k' L ∧ TagOnly k k' ∧
      tag_at k' t w = true ∧
      (∀ u w' j, Loc k j w' → (u ≠ t ∨ w' ≠ w) → u < 3 → tag_at k' u w' = tag_at k u w') ∧
      (∀ u, u < 3 → u ≠ t → xa_tagged k' u = xa_tagged k u) := by
  have hc := hi.core
  obtain ⟨f, rfl⟩ : ∃ f, fuel = f + 1 := ⟨fuel - 1, by omega⟩
  rw [xas_set_tag_eq]
  cases w with
  | bounds => exact absurd rfl hne
  | head =>
    have hn0 : xas.xa_node = 0 := hnode
    have hleaf := hl.1
    have hnoL := (hc.head_leaf hleaf).2
    rw [xas_invalid_node xas (by rw [hn0]), hn0, xas_set_tag_loop]
    simp only [Bool.false_eq_true, if_false, ne_eq, not_true, Option.map]
    obtain ⟨fl, e1, e2⟩ := xas_set_tag_end_false k t ht
    rw [e1]
    refine ⟨_, rfl, ⟨?_, ?_, ?_⟩, tagOnly_flags k fl, ?_, ?_, ?_⟩
    · exact core_tagOnly hc (tagOnly_flags k fl) (fun x hx => absurd hx (hnoL x))
    · intro h0
      exact absurd h0 hne
    · intro x hx
      exact absurd hx (hnoL x)
    · show xa_tagged _ t = true
      rw [e2 t ht]
      simp
    · intro u w' j hj hor hu
      cases w' with
      | head =>
        show xa_tagged _ u = xa_tagged k u
        rw [e2 u hu]
        rcases hor with h | h
        · simp [Ne.symm h]
        · exact absurd rfl h
      | bounds => rfl
      | slot z q => rfl
    · intro u hu hut
      rw [e2 u hu]
      simp [Ne.symm hut]
  | slot y o =>
    have hn0 : xas.xa_node = y := hnode
    have ho : xas.xa_offset = o := hoff
    obtain ⟨hy0, hyal⟩ := loc_slot_nonzero_node hc hl
    obtain ⟨hy, ho64, hold⟩ := loc_slot_facts hc hl
    have hnn := not_internal_not_node _ hold
    have hns := not_internal_not_sibling _ hold
    rw [xas_invalid_node xas (by rw [hn0]; exact hyal), hn0, ho, xas_set_tag_loop]
    simp only [Bool.false_eq_true, if_false]
    rw [if_pos hy0]
    generalize hk1 : k.setNode y (node_set_tag (k.mem y) o t).1 = k1
    obtain ⟨s1, s2, s3, s4, s5, s6, s7, s8⟩ := xas_set_tag_leaf hi ht hy ho64 hnn hne hns hk1
    have hb2 : (node_set_tag (k.mem y) o t).2 = node_get_tag (k.mem y) o t := rfl
    have hfr1 : ∀ u w' j, Loc k j w' → (u ≠ t ∨ w' ≠ Place.slot y o) →
        tag_at k1 u w' = tag_at k u w' := by
      intro u w' j hj hor
      cases w' with
      | head => exact xa_tagged_congr u s4
      | bounds => rfl
      | slot z q =>
        show node_get_tag (k1.mem z) q u = node_get_tag (k.mem z) q u
        rw [s3]
        have : (decide (z = y) && (decide (u = t) && decide (o = q))) = false := by
          simp only [Bool.and_eq_false_imp, decide_eq_true_eq, decide_eq_false_iff_not]
          intro h1 h2 h3
          rcases hor with h | h
          · exact h h2
          · exact h (by rw [h1, h3])
        rw [this, Bool.or_false]
    have hset1 : node_get_tag (k1.mem y) o t = true := by
      rw [s3]
      simp
    rw [hb2]
    by_cases hb : node_get_tag (k.mem y) o t = true
    · rw [if_pos hb]
      refine ⟨k1, rfl, ⟨s1, ?_, ?_⟩, s2, hset1, fun u w' j hj hor _ => hfr1 u w' j hj hor,
        fun u _ _ => xa_tagged_congr u s4⟩
      · intro h0
        have := head_ne_zero s1 hy
        rw [h0] at this
        exact absurd this (by decide)
      · intro x' hx' u hu
        by_cases hxt : x' = y ∧ u = t
        · obtain ⟨rfl, rfl⟩ := hxt
          exact s8 hb
        · refine s6 x' u hx' hu ?_
          by_cases h : x' = y
          · exact Or.inr (fun h2 => hxt ⟨h, h2⟩)
          · exact Or.inl h
    · rw [if_neg hb]
      have hsh := (hc.nodes y hy).shift_le
      obtain ⟨k2, b, r1, r2, r3⟩ := xas_set_tag_loop_up t ht f k1 y s1 hy s6 s7 (by
        rw [s2.shift]
        omega)
      have r1' : xas_set_tag_loop t f k1 (xa_parent k1 y) (k1.mem y).offset = some (k2, b) := r1
      rw [r1']
      refine ⟨_, rfl, r2, tagOnly_trans s2 r3.only, ?_, ?_, ?_⟩
      · show node_get_tag _ o t = true
        rw [r3.leaf y o ho64 (by rw [s2.slots]; exact hnn)]
        exact hset1
      · intro u w' j hj hor hu
        rw [← hfr1 u w' j hj hor]
        cases w' with
        | head =>
          have := head_ne_zero hc hy
          rw [hj.1] at this
          exact absurd this (by simp)
        | bounds => rfl
        | slot z q =>
          obtain ⟨hz, hq64, hzq⟩ := loc_slot_facts hc hj
          show node_get_tag _ q u = node_get_tag (k1.mem z) q u
          by_cases hut : u = t
          · rw [hut]
            exact r3.leaf z q hq64 (by rw [s2.slots]; exact not_internal_not_node _ hzq)
          · exact node_get_tag_congr (r3.other z u hut)
      · intro u hu hut
        rw [r3.flags u hu hut]
        exact xa_tagged_congr u s4

/-- One step of the loop of `xas_clear_tag`: the bit of node `x` is cleared in
its parent `p`.  Before the step, only the summary of `x` may be stale. -/
theorem xas_clear_tag_step {k k1 : Kernel} {L : Nat → Prop} (hc : Core k L) {x p q t : Nat}
    (ht : t < 3) (hx : L x) (hp0 : (k.mem x).parent ≠ 0) (hpd : (k.mem x).parent = p)
    (hqd : (k.mem x).offset = q)
    (hup : ∀ x' u, L x' → u < 3 → (x' ≠ x ∨ u ≠ t) → TagUp k x' u)
    (hany : node_any_tag (k.mem x) t = false)
    (hk1 : k.setNode p (node_clear_tag (k.mem p) q t).1 = k1) :
    Core k1 L ∧ TagFrame k k1 t ∧ L p ∧ (k.mem p).shift = (k.mem x).shift + 6 ∧
      (∀ x' u, L x' → u < 3 → (x' ≠ p ∨ u ≠ t) → TagUp k1 x' u) ∧
      ((node_get_tag (k.mem p) q t = false ∨ node_any_tag (k1.mem p) t = true) →
        TagUp k1 p t) := by
  have hn := hc.nodes x hx
  obtain ⟨u1, u2, u3, u4⟩ := hn.up hp0
  rw [hpd] at u1 u3 u4
  rw [hqd] at u2 u3
  have hxp : x ≠ p := by
    intro h
    rw [← h] at u4
    omega
  have hnode : xa_is_node (x + 2) = true := is_node_add2 x hn.align hn.big
  have m_p : k1.mem p = (node_clear_tag (k.mem p) q t).1 := by
    rw [← hk1]
    simp
  have m_o : ∀ z, z ≠ p → k1.mem z = k.mem z := by
    intro z hz
    rw [← hk1]
    simp [hz]
  have to1 : TagOnly k k1 := by
    rw [← hk1]
    exact tagOnly_setNode k p _
  have get1 : ∀ z q' u, q' < 64 → node_get_tag (k1.mem z) q' u =
      (node_get_tag (k.mem z) q' u &&
        !(decide (z = p) && (decide (u = t) && decide (q = q')))) := by
    intro z q' u hq'
    by_cases hz : z = p
    · subst hz
      rw [m_p, node_clear_tag_get _ _ _ _ _ hq']
      simp
    · rw [m_o z hz]
      simp [hz]
  have hflags : k1.xa_flags = k.xa_flags := by
    rw [← hk1]
    rfl
  have hfr : TagFrame k k1 t := by
    refine ⟨to1, ?_, fun u _ _ => xa_tagged_congr u hflags, ?_⟩
    · intro z u hu
      by_cases hz : z = p
      · subst hz
        rw [m_p]
        simp [node_clear_tag, hu]
      · rw [m_o z hz]
    · intro z q' hq' hnn
      rw [get1 z q' t hq']
      by_cases hzq : z = p ∧ q = q'
      · obtain ⟨rfl, rfl⟩ := hzq
        rw [u3, hnode] at hnn
        exact absurd hnn (by simp)
      · have : (decide (z = p) && (decide (t = t) && decide (q = q'))) = false := by
          simp only [decide_True, Bool.true_and, Bool.and_eq_false_imp, decide_eq_true_eq,
            decide_eq_false_iff_not]
          intro h1 h2
          exact hzq ⟨h1, h2⟩
        rw [this]
        simp
  have hc1 : Core k1 L := by
    refine core_tagOnly hc to1 ?_
    intro x' hx' o u ho hu hb
    rw [get1 x' o u ho] at hb
    simp only [Bool.and_eq_true] at hb
    exact (hc.nodes x' hx').tag_null o u ho hu hb.1
  have hother : ∀ x' u, L x' → TagUp k x' u → (x' ≠ x ∨ u ≠ t) →
      node_any_tag (k1.mem x') u = node_any_tag (k.mem x') u → TagUp k1 x' u := by
    intro x' u hx' hT hne ha
    refine tagUp_congr hT (to1.parent x') (to1.offset x') ha (fun _ => xa_tagged_congr u hflags) ?_
    intro hp'
    obtain ⟨v1, v2, v3, v4⟩ := (hc.nodes x' hx').up hp'
    rw [get1 _ _ _ v2]
    by_cases hz : (k.mem x').parent = p ∧ u = t ∧ q = (k.mem x').offset
    · obtain ⟨z1, z2, z3⟩ := hz
      rw [z1, ← z3, u3] at v3
      rcases hne with hne | hne
      · exact absurd (by omega) hne
      · exact absurd z2 hne
    · have : (decide ((k.mem x').parent = p) && (decide (u = t) &&
          decide (q = (k.mem x').offset))) = false := by
        simp only [Bool.and_eq_false_imp, decide_eq_true_eq, decide_eq_false_iff_not]
        intro h1 h2 h3
        exact hz ⟨h1, h2, h3⟩
      rw [this]
      simp
  refine ⟨hc1, hfr, u1, u4, ?_, ?_⟩
  · intro x' u hx' hu hne
    by_cases hxt : x' = x ∧ u = t
    · obtain ⟨rfl, rfl⟩ := hxt
      unfold TagUp
      rw [to1.parent, to1.offset, hpd, hqd, if_neg (by rw [← hpd]; exact hp0), get1 _ _ _ u2,
        m_o x' hxp, hany]
      simp
    · have hne2 : x' ≠ x ∨ u ≠ t := by
        by_cases h : x' = x
        · exact Or.inr (fun h2 => hxt ⟨h, h2⟩)
        · exact Or.inl h
      refine hother x' u hx' (hup x' u hx' hu hne2) hne2 ?_
      rcases hne with hne | hne
      · rw [m_o x' hne]
      · exact node_any_tag_congr (hfr.other x' u hne)
  · intro hb
    refine hother p t u1 (hup p t u1 ht (Or.inl (Ne.symm hxp))) (Or.inl (Ne.symm hxp)) ?_
    rcases hb with hb | hb
    · refine node_any_tag_of_get ?_
      intro q' hq'
      rw [get1 p q' t hq']
      by_cases hqq : q = q'
      · subst hqq
        rw [hb]
        rfl
      · simp [hqq]
    · rw [hb]
      obtain ⟨o, ho, hg⟩ := (node_any_tag_iff _ _).1 hb
      rw [get1 p o t ho] at hg
      simp only [Bool.and_eq_true] at hg
      exact ((node_any_tag_iff _ _).2 ⟨o, ho, hg.1⟩).symm

/-- The first step of `xas_clear_tag`: the bit of an entry is cleared in its node. -/
theorem xas_clear_tag_leaf {k k1 : Kernel} {L : Nat → Prop} (hi : Inv k L) {y o t : Nat}
    (ht : t < 3) (hy : L y)
    (hnn : xa_is_node ((k.mem y).slots o) = false)
    (hk1 : k.setNode y (node_clear_tag (k.mem y) o t).1 = k1) :
    Core k1 L ∧ TagOnly k k1 ∧
      (∀ z q u, q < 64 → node_get_tag (k1.mem z) q u =
        (node_get_tag (k.mem z) q u &&
          !(decide (z = y) && (decide (u = t) && decide (o = q))))) ∧
      k1.xa_flags = k.xa_flags ∧
      (∀ z u, u ≠ t → (k1.mem z).tags u = (k.mem z).tags u) ∧
      (∀ x' u, L x' → u < 3 → (x' ≠ y ∨ u ≠ t) → TagUp k1 x' u) ∧
      ((node_get_tag (k.mem y) o t = false ∨ node_any_tag (k1.mem y) t = true) →
        TagUp k1 y t) := by
  have hc := hi.core
  have m_p : k1.mem y = (node_clear_tag (k.mem y) o t).1 := by
    rw [← hk1]
    simp
  have m_o : ∀ z, z ≠ y → k1.mem z = k.mem z := by
    intro z hz
    rw [← hk1]
    simp [hz]
  have to1 : TagOnly k k1 := by
    rw [← hk1]
    exact tagOnly_setNode k y _
  have get1 : ∀ z q' u, q' < 64 → node_get_tag (k1.mem z) q' u =
      (node_get_tag (k.mem z) q' u &&
        !(decide (z = y) && (decide (u = t) && decide (o = q')))) := by
    intro z q' u hq'
    by_cases hz : z = y
    · subst hz
      rw [m_p, node_clear_tag_get _ _ _ _ _ hq']
      simp
    · rw [m_o z hz]
      simp [hz]
  have hflags : k1.xa_flags = k.xa_flags := by
    rw [← hk1]
    rfl
  have hoth : ∀ z u, u ≠ t → (k1.mem z).tags u = (k.mem z).tags u := by
    intro z u hu
    by_cases hz : z = y
    · subst hz
      rw [m_p]
      simp [node_clear_tag, hu]
    · rw [m_o z hz]
  have hc1 : Core k1 L := by
    refine core_tagOnly hc to1 ?_
    intro x' hx' q u hq hu hb
    rw [get1 x' q u hq] at hb
    simp only [Bool.and_eq_true] at hb
    exact (hc.nodes x' hx').tag_null q u hq hu hb.1
  have hother : ∀ x' u, L x' → TagUp k x' u →
      node_any_tag (k1.mem x') u = node_any_tag (k.mem x') u → TagUp k1 x' u := by
    intro x' u hx' hT ha
    refine tagUp_congr hT (to1.parent x') (to1.offset x') ha (fun _ => xa_tagged_congr u hflags) ?_
    intro hp'
    obtain ⟨v1, v2, v3, v4⟩ := (hc.nodes x' hx').up hp'
    rw [get1 _ _ _ v2]
    by_cases hz : (k.mem x').parent = y ∧ o = (k.mem x').offset
    · obtain ⟨z1, z2⟩ := hz
      rw [z1, ← z2] at v3
      rw [v3, is_node_add2 x' (hc.nodes x' hx').align (hc.nodes x' hx').big] at hnn
      exact absurd hnn (by simp)
    · have : (decide ((k.mem x').parent = y) && (decide (u = t) &&
          decide (o = (k.mem x').offset))) = false := by
        simp only [Bool.and_eq_false_imp, decide_eq_true_eq, decide_eq_false_iff_not]
        intro h1 _ h3
        exact hz ⟨h1, h3⟩
      rw [this]
      simp
  refine ⟨hc1, to1, get1, hflags, hoth, ?_, ?_⟩
  · intro x' u hx' hu hne'
    refine hother x' u hx' (hi.tags x' hx' u hu) ?_
    rcases hne' with h | h
    · rw [m_o x' h]
    · exact node_any_tag_congr (hoth x' u h)
  · intro hb
    refine hother y t hy (hi.tags y hy t ht) ?_
    rcases hb with hb | hb
    · refine node_any_tag_of_get ?_
      intro q' hq'
      rw [get1 y q' t hq']
      by_cases hqq : o = q'
      · subst hqq
        rw [hb]
        rfl
      · simp [hqq]
    · rw [hb]
      obtain ⟨o', ho', hg⟩ := (node_any_tag_iff _ _).1 hb
      rw [get1 y o' t ho'] at hg
      simp only [Bool.and_eq_true] at hg
      exact ((node_any_tag_iff _ _).2 ⟨o', ho', hg.1⟩).symm

/-- The loop of `xas_clear_tag` from the parent of `x` up, once `x` has no bit left. -/
theorem xas_clear_tag_loop_up {L : Nat → Prop} (t : Nat) (ht : t < 3) :
    ∀ fuel k x, Core k L → L x →
      (∀ x' u, L x' → u < 3 → (x' ≠ x ∨ u ≠ t) → TagUp k x' u) →
      node_any_tag (k.mem x) t = false → 66 ≤ (k.mem x).shift + 6 * fuel →
      ∃ k1 b, xas_clear_tag_loop t fuel k (k.mem x).parent (k.mem x).offset = some (k1, b) ∧
        Inv (xas_clear_tag_end k1 t b) L ∧ TagFrame k (xas_clear_tag_end k1 t b) t := by
  intro fuel
  induction fuel with
  | zero =>
    intro k x hc hx _ _ hf
    have := (hc.nodes x hx).shift_le
    omega
  | succ f ih =>
    intro k x hc hx hup hany hf
    rw [xas_clear_tag_loop]
    by_cases hp : (k.mem x).parent = 0
    · rw [if_neg (by simp [hp])]
      obtain ⟨fl, e1, e2⟩ := xas_clear_tag_end_false k t ht
      refine ⟨k, false, rfl, ?_⟩
      rw [e1]
      refine inv_root_flags hc hx hp hup fl ?_ ?_
      · rw [e2 t ht, hany]
        simp
      · intro u hu hne
        rw [e2 u hu]
        simp [Ne.symm hne]
    · rw [if_pos hp]
      simp only []
      generalize hk1 : k.setNode (k.mem x).parent
        (node_clear_tag (k.mem (k.mem x).parent) (k.mem x).offset t).1 = k1
      obtain ⟨s1, s2, s3, s4, s5, s6⟩ := xas_clear_tag_step hc ht hx hp rfl rfl hup hany hk1
      have hb2 : (node_clear_tag (k.mem (k.mem x).parent) (k.mem x).offset t).2 =
          node_get_tag (k.mem (k.mem x).parent) (k.mem x).offset t := rfl
      rw [hb2]
      have hdone : (node_get_tag (k.mem (k.mem x).parent) (k.mem x).offset t = false ∨
          node_any_tag (k1.mem (k.mem x).parent) t = true) → Inv k1 L := by
        intro hb
        refine ⟨s1, ?_, ?_⟩
        · intro h0
          have := head_ne_zero s1 hx
          rw [h0] at this
          exact absurd this (by decide)
        · intro x' hx' u hu
          by_cases hxt : x' = (k.mem x).parent ∧ u = t
          · obtain ⟨rfl, rfl⟩ := hxt
            exact s6 hb
          · refine s5 x' u hx' hu ?_
            by_cases h : x' = (k.mem x).parent
            · exact Or.inr (fun h2 => hxt ⟨h, h2⟩)
            · exact Or.inl h
      by_cases hb : node_get_tag (k.mem (k.mem x).parent) (k.mem x).offset t = true
      · rw [hb]
        simp only [Bool.not_true, Bool.false_eq_true, if_false]
        by_cases ha : node_any_tag (k1.mem (k.mem x).parent) t = true
        · rw [if_pos ha]
          exact ⟨k1, true, rfl, hdone (Or.inr ha), s2⟩
        · rw [if_neg ha]
          simp only [Bool.not_eq_true] at ha
          have hsh : (k1.mem (k.mem x).parent).shift = (k.mem x).shift + 6 := by
            rw [s2.only.shift, s4]
          obtain ⟨k2, b, r1, r2, r3⟩ := ih k1 (k.mem x).parent s1 s3 s5 ha (by rw [hsh]; omega)
          refine ⟨k2, b, ?_, r2, tagFrame_trans s2 r3⟩
          rw [← r1]
          rfl
      · simp only [Bool.not_eq_true] at hb
        rw [hb]
        simp only [Bool.not_false, if_true]
        exact ⟨k1, true, rfl, hdone (Or.inl hb), s2⟩

/-- `xas_clear_tag` with a cursor at the place where an index ends. -/
theorem xas_clear_tag_spec {k : Kernel} {L : Nat → Prop} (hi : Inv k L) (i t fuel : Nat)
    (ht : t < 3) (xas : xa_state) (w : Place) (hl : Loc k i w) (hnode : xas.xa_node = w.node)
    (hoff : xas.xa_offset = w.offset) (hf : 12 ≤ fuel) :
    ∃ k', xas_clear_tag fuel k xas t = some k' ∧ Inv k' L ∧ TagOnly k k' ∧
      tag_at k' t w = false ∧
      (∀ u w' j, Loc k j w' → (u ≠ t ∨ w' ≠ w) → u < 3 → tag_at k' u w' = tag_at k u w') ∧
      (∀ u, u < 3 → u ≠ t → xa_tagged k' u = xa_tagged k u) := by
  have hc := hi.core
  obtain ⟨f, rfl⟩ : ∃ f, fuel = f + 1 := ⟨fuel - 1, by omega⟩
  rw [xas_clear_tag_eq]
  cases w with
  | bounds =>
    have hn0 : xas.xa_node = 1 := hnode
    have : xas_invalid xas = true := by
      simp [xas_invalid, hn0]
    rw [this]
    exact ⟨k, rfl, hi, tagOnly_refl k, rfl, fun _ _ _ _ _ _ => rfl, fun _ _ _ => rfl⟩
  | head =>
    have hn0 : xas.xa_node = 0 := hnode
    have hleaf := hl.1
    have hnoL := (hc.head_leaf hleaf).2
    rw [xas_invalid_node xas (by rw [hn0]), hn0, xas_clear_tag_loop]
    simp only [Bool.false_eq_true, if_false, ne_eq, not_true, Option.map]
    obtain ⟨fl, e1, e2⟩ := xas_clear_tag_end_false k t ht
    rw [e1]
    refine ⟨_, rfl, ⟨?_, ?_, ?_⟩, tagOnly_flags k fl, ?_, ?_, ?_⟩
    · exact core_tagOnly hc (tagOnly_flags k fl) (fun x hx => absurd hx (hnoL x))
    · intro h0 u hu
      rw [e2 u hu, hi.head_null h0 u hu]
      rfl
    · intro x hx
      exact absurd hx (hnoL x)
    · show xa_tagged _ t = false
      rw [e2 t ht]
      simp
    · intro u w' j hj hor hu
      cases w' with
      | head =>
        show xa_tagged _ u = xa_tagged k u
        rw [e2 u hu]
        rcases hor with h | h
        · simp [Ne.symm h]
        · exact absurd rfl h
      | bounds => rfl
      | slot z q => rfl
    · intro u hu hut
      rw [e2 u hu]
      simp [Ne.symm hut]
  | slot y o =>
    have hn0 : xas.xa_node = y := hnode
    have ho : xas.xa_offset = o := hoff
    obtain ⟨hy0, hyal⟩ := loc_slot_nonzero_node hc hl
    obtain ⟨hy, ho64, hold⟩ := loc_slot_facts hc hl
    have hnn := not_internal_not_node _ hold
    rw [xas_invalid_node xas (by rw [hn0]; exact hyal), hn0, ho, xas_clear_tag_loop]
    simp only [Bool.false_eq_true, if_false]
    rw [if_pos hy0]
    generalize hk1 : k.setNode y (node_clear_tag (k.mem y) o t).1 = k1
    obtain ⟨s1, s2, s3, s4, s5, s6, s8⟩ := xas_clear_tag_leaf hi ht hy hnn hk1
    have hb2 : (node_clear_tag (k.mem y) o t).2 = node_get_tag (k.mem y) o t := rfl
    have hfr1 : ∀ u w' j, Loc k j w' → (u ≠ t ∨ w' ≠ Place.slot y o) →
        tag_at k1 u w' = tag_at k u w' := by
      intro u w' j hj hor
      cases w' with
      | head => exact xa_tagged_congr u s4
      | bounds => rfl
      | slot z q =>
        show node_get_tag (k1.mem z) q u = node_get_tag (k.mem z) q u
        rw [s3 z q u (loc_slot_facts hc hj).2.1]
        have : (decide (z = y) && (decide (u = t) && decide (o = q))) = false := by
          simp only [Bool.and_eq_false_imp, decide_eq_true_eq, decide_eq_false_iff_not]
          intro h1 h2 h3
          rcases hor with h | h
          · exact h h2
          · exact h (by rw [h1, h3])
        rw [this]
        simp
    have hset1 : node_get_tag (k1.mem y) o t = false := by
      rw [s3 y o t ho64]
      simp
    have hdone : (node_get_tag (k.mem y) o t = false ∨ node_any_tag (k1.mem y) t = true) →
        Inv k1 L := by
      intro hb
      refine ⟨s1, ?_, ?_⟩
      · intro h0
        have := head_ne_zero s1 hy
        rw [h0] at this
        exact absurd this (by decide)
      · intro x' hx' u hu
        by_cases hxt : x' = y ∧ u = t
        · obtain ⟨rfl, rfl⟩ := hxt
          exact s8 hb
        · refine s6 x' u hx' hu ?_
          by_cases h : x' = y
          · exact Or.inr (fun h2 => hxt ⟨h, h2⟩)
          · exact Or.inl h
    have hret : ∀ hb : (node_get_tag (k.mem y) o t = false ∨ node_any_tag (k1.mem y) t = true),
        ∃ k', some k1 = some k' ∧ Inv k' L ∧ TagOnly k k' ∧
          tag_at k' t (Place.slot y o) = false ∧
          (∀ u w' j, Loc k j w' → (u ≠ t ∨ w' ≠ Place.slot y o) → u < 3 →
            tag_at k' u w' = tag_at k u w') ∧
          (∀ u, u < 3 → u ≠ t → xa_tagged k' u = xa_tagged k u) := by
      intro hb
      exact ⟨k1, rfl, hdone hb, s2, hset1, fun u w' j hj hor _ => hfr1 u w' j hj hor,
        fun u _ _ => xa_tagged_congr u s4⟩
    rw [hb2]
    by_cases hb : node_get_tag (k.mem y) o t = true
    · rw [hb]
      simp only [Bool.not_true, Bool.false_eq_true, if_false]
      by_cases ha : node_any_tag (k1.mem y) t = true
      · rw [if_pos ha]
        exact hret (Or.inr ha)
      · rw [if_neg ha]
        simp only [Bool.not_eq_true] at ha
        have hsh := (hc.nodes y hy).shift_le
        obtain ⟨k2, b, r1, r2, r3⟩ := xas_clear_tag_loop_up t ht f k1 y s1 hy s6 ha (by
          rw [s2.shift]
          omega)
        have r1' : xas_clear_tag_loop t f k1 (xa_parent k1 y) (k1.mem y).offset =
            some (k2, b) := r1
        rw [r1']
        refine ⟨_, rfl, r2, tagOnly_trans s2 r3.only, ?_, ?_, ?_⟩
        · show node_get_tag _ o t = false
          rw [r3.leaf y o ho64 (by rw [s2.slots]; exact hnn)]
          exact hset1
        · intro u w' j hj hor hu
          rw [← hfr1 u w' j hj hor]
          cases w' with
          | head =>
            have := head_ne_zero hc hy
            rw [hj.1] at this
            exact absurd this (by simp)
          | bounds => rfl
          | slot z q =>
            obtain ⟨hz, hq64, hzq⟩ := loc_slot_facts hc hj
            show node_get_tag _ q u = node_get_tag (k1.mem z) q u
            by_cases hut : u = t
            · rw [hut]
              exact r3.leaf z q hq64 (by rw [s2.slots]; exact not_internal_not_node _ hzq)
            · exact node_get_tag_congr (r3.other z u hut)
        · intro u hu hut
          rw [r3.flags u hu hut]
          exact xa_tagged_congr u s4
    · simp only [Bool.not_eq_true] at hb
      rw [hb]
      simp only [Bool.not_false, if_true]
      exact hret (Or.inl hb)

theorem xa_set_tag_spec {k : Kernel} {L : Nat → Prop} (hi : Inv k L) (i t fuel : Nat)
    (ht : t < 3) (hf : 12 ≤ fuel) (w : Place) (hl : Loc k i w) :
    ∃ k', xa_set_tag fuel k i t = some k' ∧ Inv k' L ∧ TagOnly k k' ∧
      (entry_at k w = 0 → k' = k) ∧ (entry_at k w ≠ 0 → tag_at k' t w = true) ∧
      (∀ u w' j, Loc k j w' → (u ≠ t ∨ w' ≠ w) → u < 3 → tag_at k' u w' = tag_at k u w') := by
  obtain ⟨w0, xas', h1, h2⟩ := xas_load_walked hi.core i fuel hf
  have hw : w0 = w := loc_unique hi.core h2.loc hl
  subst hw
  unfold xa_set_tag __xa_set_tag
  rw [h1]
  simp only []
  by_cases he : entry_at k w0 = 0
  · rw [if_neg (by simp [he])]
    exact ⟨k, rfl, hi, tagOnly_refl k, fun _ => rfl, fun h => absurd he h,
      fun _ _ _ _ _ _ => rfl⟩
  · rw [if_pos he]
    obtain ⟨k', s1, s2, s3, s4, s5, _⟩ :=
      xas_set_tag_spec hi i t fuel ht xas' w0 hl h2.node h2.offset he hf
    exact ⟨k', s1, s2, s3, fun h => absurd h he, fun _ => s4, s5⟩

theorem xa_clear_tag_spec {k : Kernel} {L : Nat → Prop} (hi : Inv k L) (i t fuel : Nat)
    (ht : t < 3) (hf : 12 ≤ fuel) (w : Place) (hl : Loc k i w) :
    ∃ k', xa_clear_tag fuel k i t = some k' ∧ Inv k' L ∧ TagOnly k k' ∧
      tag_at k' t w = false ∧
      (∀ u w' j, Loc k j w' → (u ≠ t ∨ w' ≠ w) → u < 3 → tag_at k' u w' = tag_at k u w') := by
  obtain ⟨w0, xas', h1, h2⟩ := xas_load_walked hi.core i fuel hf
  have hw : w0 = w := loc_unique hi.core h2.loc hl
  subst hw
  unfold xa_clear_tag __xa_clear_tag
  rw [h1]
  simp only []
  by_cases he : entry_at k w0 = 0
  · rw [if_neg (by simp [he])]
    refine ⟨k, rfl, hi, tagOnly_refl k, ?_, fun _ _ _ _ _ _ => rfl⟩
    cases hb : tag_at k t w0
    · rfl
    · exact absurd he (tag_at_entry hi ht hl hb)
  · rw [if_pos he]
    obtain ⟨k', s1, s2, s3, s4, s5, _⟩ :=
      xas_clear_tag_spec hi i t fuel ht xas' w0 hl h2.node h2.offset hf
    exact ⟨k', s1, s2, s3, s4, s5⟩

theorem tagged_of_tag_at {k : Kernel} {L : Nat → Prop} (hi : Inv k L) {i t : Nat} {w : Place}
    (ht : t < 3) (hl : Loc k i w) (hb : tag_at k t w = true) : xa_tagged k t = true := by
  cases w with
  | head => exact hb
  | bounds => exact absurd hb (by simp [tag_at])
  | slot y o =>
    obtain ⟨hy, ho, _⟩ := loc_slot_facts hi.core hl
    exact tagged_of_any hi t ht 10 y hy (by omega) ((node_any_tag_iff _ _).2 ⟨o, ho, hb⟩)

theorem simOff_trans {k k1 k2 : Kernel} {w0 : Place} (a : SimOff k k1 w0) (b : Sim k1 k2) :
    SimOff k k2 w0 := by
  intro j w1 hj
  obtain ⟨w2, h1, h2, h3⟩ := a j w1 hj
  obtain ⟨w3, g1, g2, g3⟩ := b j w2 h1
  refine ⟨w3, g1, ?_, ?_⟩
  · intro h
    obtain ⟨e1, e2⟩ := h2 h
    exact ⟨by rw [g2, e1], fun u hu => by rw [g3 u hu, e2 u hu]⟩
  · intro h
    obtain ⟨e1, e2⟩ := h3 h
    exact ⟨by rw [g2, e1], fun u hu => by rw [g3 u hu, e2 u hu]⟩

/-- `xas_init_tags` with a cursor at the place where an index ends. -/
theorem xas_init_tags_spec {k : Kernel} {L : Nat → Prop} (hi : Inv k L) (i fuel : Nat)
    (xas : xa_state) (w : Place) (hl : Loc k i w) (hnode : xas.xa_node = w.node)
    (hoff : xas.xa_offset = w.offset) (hf : 12 ≤ fuel) :
    ∃ k', xas_init_tags fuel k xas = some k' ∧ Inv k' L ∧ TagOnly k k' ∧
      (∀ u, u < 3 → tag_at k' u w = false) ∧
      (∀ u w' j, Loc k j w' → w' ≠ w → u < 3 → tag_at k' u w' = tag_at k u w') := by
  obtain ⟨k1, a1, a2, a3, a4, a5, _⟩ :=
    xas_clear_tag_spec hi i 0 fuel (by omega) xas w hl hnode hoff hf
  have hl1 := sameShape_loc (tagOnly_sameShape a3) hl
  obtain ⟨k2, b1, b2, b3, b4, b5, _⟩ :=
    xas_clear_tag_spec a2 i 1 fuel (by omega) xas w hl1 hnode hoff hf
  have hl2 := sameShape_loc (tagOnly_sameShape b3) hl1
  obtain ⟨k3, c1, c2, c3, c4, c5, _⟩ :=
    xas_clear_tag_spec b2 i 2 fuel (by omega) xas w hl2 hnode hoff hf
  refine ⟨k3, ?_, c2, tagOnly_trans (tagOnly_trans a3 b3) c3, ?_, ?_⟩
  · unfold xas_init_tags
    rw [a1]
    simp only []
    rw [b1]
    simp only []
    rw [c1]
  · intro u hu
    have hu3 : u = 0 ∨ u = 1 ∨ u = 2 := by omega
    rcases hu3 with rfl | rfl | rfl
    · rw [c5 0 w i hl2 (Or.inl (by omega)) (by omega),
        b5 0 w i hl1 (Or.inl (by omega)) (by omega)]
      exact a4
    · rw [c5 1 w i hl2 (Or.inl (by omega)) (by omega)]
      exact b4
    · exact c4
  · intro u w' j hj hne hu
    have hj1 := sameShape_loc (tagOnly_sameShape a3) hj
    have hj2 := sameShape_loc (tagOnly_sameShape b3) hj1
    rw [c5 u w' j hj2 (Or.inr hne) hu, b5 u w' j hj1 (Or.inr hne) hu,
      a5 u w' j hj (Or.inr hne) hu]

theorem slotsAt_setNode (k : Kernel) (y : Nat) (S : Nat → Nat) :
    SlotsAt k (k.setNode y { k.mem y with slots := S }) y := by
  refine ⟨rfl, rfl, rfl, rfl, rfl, ?_, ?_, ?_, ?_, ?_, ?_, ?_⟩
  · intro z hz
    simp [hz]
  all_goals simp

theorem slotsAt_trans {k1 k2 k3 : Kernel} {y : Nat} (a : SlotsAt k1 k2 y) (b : SlotsAt k2 k3 y) :
    SlotsAt k1 k3 y :=
  ⟨b.head.trans a.head, b.flags.trans a.flags, b.next.trans a.next, b.grant.trans a.grant,
    b.rcu.trans a.rcu, fun z hz => (b.mem z hz).trans (a.mem z hz), b.shift.trans a.shift,
    b.parent.trans a.parent, b.offset.trans a.offset, b.count.trans a.count,
    b.nr_values.trans a.nr_values, b.tags.trans a.tags⟩

theorem sibling_ne_zero (e : Nat) (h : xa_is_sibling e = true) :
    e ≠ 0 ∧ xa_is_node e = false := by
  have h2 := (xa_is_sibling_iff e).1 h
  refine ⟨by omega, ?_⟩
  cases hq : xa_is_node e
  · rfl
  · rw [is_node_not_sibling _ hq] at h
    exact absurd h (by simp)

/-- The loop of `xas_store` for a `NULL` entry and a single-index cursor: it
clears the slot and the run of sibling entries behind it. -/
theorem xas_store_loop_null (F : Nat) (xas : xa_state) (y o : Nat) (value : Bool)
    (hy0 : y ≠ 0) :
    ∀ fuel k q next first count values, o ≤ q → q ≤ 63 → xa_is_node next = false →
      next ≠ 0 → 64 ≤ q + fuel →
      ∃ m k' values', q + m ≤ 63 ∧
        (∀ j, q < j → j ≤ q + m → xa_is_sibling ((k.mem y).slots j) = true) ∧
        (q + m = 63 ∨ xa_is_sibling ((k.mem y).slots (q + m + 1)) = false) ∧
        xas_store_loop F xas y o value fuel k (y, q) 0 next first q count values =
          some (k', first, count - ((m : Int) + 1), values') ∧
        SlotsAt k k' y ∧
        (k'.mem y).slots = fun j => if q ≤ j ∧ j ≤ q + m then 0 else (k.mem y).slots j := by
  intro fuel
  induction fuel with
  | zero => intro k q _ _ _ _ _ hq _ _ hf; omega
  | succ f ih =>
    intro k q next first count values hoq hq hnn hn0 hf
    rw [xas_store_loop, slot_store_node _ _ _ _ hy0, hnn]
    simp only [Bool.false_eq_true, if_false, hy0, ne_eq, not_true, false_and, true_and,
      XA_CHUNK_MASK, lnot_eq, if_neg hn0, if_true]
    generalize hk1 : k.setNode y
      { k.mem y with slots := fun i => if i = q then 0 else (k.mem y).slots i } = k1
    have hs1 : SlotsAt k k1 y := by
      rw [← hk1]
      exact slotsAt_setNode k y _
    have hsl1 : (k1.mem y).slots = fun i => if i = q then 0 else (k.mem y).slots i := by
      rw [← hk1]
      simp
    by_cases h63 : q = 63
    · rw [if_pos h63]
      refine ⟨0, k1, values + (lnotb (xa_is_value first) - lnotb value), by omega,
        fun j h1 h2 => by omega, Or.inl (by omega), ?_, hs1, ?_⟩
      · rw [show count + (0 - 1) = count - (((0 : Nat) : Int) + 1) from by push_cast; omega]
      · rw [hsl1]
        funext j
        by_cases hj : j = q
        · rw [if_pos hj, if_pos (by omega)]
        · rw [if_neg hj, if_neg (by omega)]
    · rw [if_neg h63]
      have hnext : xa_entry k1 y (q + 1) = (k.mem y).slots (q + 1) := by
        simp only [xa_entry]
        rw [hsl1]
        simp
      rw [hnext]
      by_cases hsb : xa_is_sibling ((k.mem y).slots (q + 1)) = true
      · rw [hsb]
        simp only [Bool.not_true, Bool.false_eq_true, false_and, if_false]
        obtain ⟨s1, s2⟩ := sibling_ne_zero _ hsb
        obtain ⟨m, k', v', r1, r2, r3, r4, r5, r6⟩ :=
          ih k1 (q + 1) ((k.mem y).slots (q + 1)) first (count + (0 - 1))
            (values + (lnotb (xa_is_value first) - lnotb value)) (by omega) (by omega) s2 s1
            (by omega)
        refine ⟨m + 1, k', v', by omega, ?_, ?_, ?_, slotsAt_trans hs1 r5, ?_⟩
        · intro j h1 h2
          by_cases hj : j = q + 1
          · rw [hj]
            exact hsb
          · have := r2 j (by omega) (by omega)
            rw [hsl1] at this
            simpa [show j ≠ q by omega] using this
        · rcases r3 with r3 | r3
          · exact Or.inl (by omega)
          · right
            rw [hsl1] at r3
            have e : q + (m + 1) + 1 = q + 1 + m + 1 := by omega
            rw [e]
            simpa [show q + 1 + m + 1 ≠ q by omega] using r3
        · rw [r4]
          have : count + (0 - 1) - ((m : Int) + 1) = count - (((m + 1 : Nat) : Int) + 1) := by
            push_cast
            omega
          rw [this]
        · rw [r6, hsl1]
          funext j
          by_cases h1 : q + 1 ≤ j ∧ j ≤ q + 1 + m
          · have : q ≤ j ∧ j ≤ q + (m + 1) := by omega
            simp [h1, this]
          · by_cases hj : j = q
            · have : q ≤ j ∧ j ≤ q + (m + 1) := by omega
              simp [h1, this, hj]
            · have : ¬ (q ≤ j ∧ j ≤ q + (m + 1)) := by omega
              simp [h1, this, hj]
      · simp only [Bool.not_eq_true] at hsb
        rw [hsb]
        simp only [Bool.not_false, true_and]
        rw [if_pos (by omega)]
        refine ⟨0, k1, values + (lnotb (xa_is_value first) - lnotb value), by omega,
          fun j h1 h2 => by omega, Or.inr hsb, ?_, hs1, ?_⟩
        · rw [show count + (0 - 1) = count - (((0 : Nat) : Int) + 1) from by push_cast; omega]
        · rw [hsl1]
          funext j
          by_cases hj : j = q
          · rw [if_pos hj, if_pos (by omega)]
          · rw [if_neg hj, if_neg (by omega)]

theorem visits_of_nodes {k k' : Kernel} (hhead : k'.xa_head = k.xa_head)
    (hsh : ∀ y, (k'.mem y).shift = (k.mem y).shift)
    (hsl : ∀ y q, xa_is_node ((k.mem y).slots q) = true →
      (k'.mem y).slots q = (k.mem y).slots q)
    {j y : Nat} (hv : Visits k j y) : Visits k' j y := by
  induction hv with
  | root x hh hn hb =>
    exact Visits.root x (by rw [hhead, hh]) hn (by rw [hsh x]; exact hb)
  | step y c hvy hs hn ih =>
    refine Visits.step y c ih ?_ hn
    have e : get_offset j (k'.mem y) = get_offset j (k.mem y) := by
      simp [get_offset, hsh y]
    rw [e, hsl y _ (by rw [hs]; exact hn), hs]

/-- Where the sibling entries of a node point, relative to the run of sibling
entries behind the entry in slot `o`. -/
theorem run_target {k : Kernel} {L : Nat → Prop} {y o m : Nat} (hn : NodeCore k L y)
    (hold : xa_is_internal ((k.mem y).slots o) = false)
    (hrun : ∀ j, o < j → j ≤ o + m → xa_is_sibling ((k.mem y).slots j) = true)
    (hend : o + m = 63 ∨ xa_is_sibling ((k.mem y).slots (o + m + 1)) = false)
    (q : Nat) (hq : q < 64) (hs : xa_is_sibling ((k.mem y).slots q) = true) :
    (o < q → q ≤ o + m → xa_to_sibling ((k.mem y).slots q) = o) ∧
    (¬ (o ≤ q ∧ q ≤ o + m) → ¬ (o ≤ xa_to_sibling ((k.mem y).slots q) ∧
      xa_to_sibling ((k.mem y).slots q) ≤ o + m)) := by
  have hint : xa_is_internal ((k.mem y).slots q) = true := sibling_internal _ hs
  obtain ⟨_, c1, c2, c3, c4⟩ := hn.sib q hq hint (sibling_ne_zero _ hs).2
  generalize xa_to_sibling ((k.mem y).slots q) = c at *
  constructor
  · intro h1 h2
    by_contra hne
    by_cases hlt : c < o
    · have := c4 o hlt (by omega)
      rw [this, hint] at hold
      exact absurd hold (by simp)
    · have := sibling_internal _ (hrun c (by omega) (by omega))
      rw [this] at c2
      exact absurd c2 (by simp)
  · intro h1 h2
    by_cases hlt : q < o
    · omega
    · have hq2 : o + m < q := by omega
      rcases hend with hend | hend
      · omega
      · have := c4 (o + m + 1) (by omega) (by omega)
        rw [this, hs] at hend
        exact absurd hend (by simp)

theorem count_upto_clear (slots : Nat → Nat) (o : Nat) :
    ∀ m n, (∀ j, o ≤ j → j ≤ o + m → slots j ≠ 0) → o + m < n →
      count_upto (fun j => if o ≤ j ∧ j ≤ o + m then 0 else slots j) n + (m + 1) =
        count_upto slots n := by
  intro m
  induction m with
  | zero =>
    intro n h hn
    have := count_upto_update slots o 0 n
    have e : (fun j => if o ≤ j ∧ j ≤ o + 0 then 0 else slots j) =
        (fun i => if i = o then 0 else slots i) := by
      funext j
      by_cases hj : j = o
      · rw [if_pos hj, if_pos (by omega)]
      · rw [if_neg hj, if_neg (by omega)]
    rw [e]
    have h0 := h o (by omega) (by omega)
    simp only [show o < n by omega, h0, ne_eq, not_false_eq_true, and_self, if_true, not_true,
      and_false, if_false] at this
    omega
  | succ m ih =>
    intro n h hn
    have h1 := ih n (fun j a b => h j a (by omega)) (by omega)
    have := count_upto_update (fun j => if o ≤ j ∧ j ≤ o + m then 0 else slots j) (o + (m + 1)) 0 n
    have e : (fun i => if i = o + (m + 1) then 0 else
        (fun j => if o ≤ j ∧ j ≤ o + m then 0 else slots j) i) =
        (fun j => if o ≤ j ∧ j ≤ o + (m + 1) then 0 else slots j) := by
      funext j
      by_cases hj : j = o + (m + 1)
      · rw [if_pos hj, if_pos (by omega)]
      · rw [if_neg hj]
        show (if o ≤ j ∧ j ≤ o + m then 0 else slots j) = _
        by_cases hr : o ≤ j ∧ j ≤ o + m
        · rw [if_pos hr, if_pos (by omega)]
        · rw [if_neg hr, if_neg (by omega)]
    rw [e] at this
    have h0 := h (o + (m + 1)) (by omega) (by omega)
    have h2 : ¬ (o ≤ o + (m + 1) ∧ o + (m + 1) ≤ o + m) := by omega
    simp only [if_neg h2, hn, h0, ne_eq, not_false_eq_true, and_self, if_true, not_true,
      and_false, if_false] at this
    omega

/-- Clearing an entry together with the run of its sibling entries keeps the
invariant, once the tags of the entry are clear. -/
theorem inv_clear {k k' : Kernel} {L : Nat → Prop} {y o m : Nat} (hi : Inv k L) (hy : L y)
    (hold : xa_is_internal ((k.mem y).slots o) = false)
    (hrun : ∀ j, o < j → j ≤ o + m → xa_is_sibling ((k.mem y).slots j) = true)
    (hend : o + m = 63 ∨ xa_is_sibling ((k.mem y).slots (o + m + 1)) = false)
    (htag : ∀ u, u < 3 → node_get_tag (k.mem y) o u = false)
    (hhead : k'.xa_head = k.xa_head) (hflags : k'.xa_flags = k.xa_flags)
    (hslab : k'.slab_next = k.slab_next) (hmem : ∀ z, z ≠ y → k'.mem z = k.mem z)
    (hslots : (k'.mem y).slots = fun j => if o ≤ j ∧ j ≤ o + m then 0 else (k.mem y).slots j)
    (hshift : (k'.mem y).shift = (k.mem y).shift)
    (hparent : (k'.mem y).parent = (k.mem y).parent)
    (hoffset : (k'.mem y).offset = (k.mem y).offset)
    (htags : (k'.mem y).tags = (k.mem y).tags)
    (hcount : (k'.mem y).count = count_upto (k'.mem y).slots 64) : Inv k' L := by
  have hc := hi.core
  have hny := hc.nodes y hy
  have hnotnode : ∀ q, o ≤ q → q ≤ o + m → xa_is_node ((k.mem y).slots q) = false := by
    intro q h1 h2
    by_cases hq : q = o
    · rw [hq]
      exact not_internal_not_node _ hold
    · exact (sibling_ne_zero _ (hrun q (by omega) h2)).2
  have hA : ∀ z q, xa_is_node ((k.mem z).slots q) = true →
      (k'.mem z).slots q = (k.mem z).slots q := by
    intro z q hn
    by_cases hz : z = y
    · subst hz
      rw [hslots]
      by_cases hr : o ≤ q ∧ q ≤ o + m
      · rw [hnotnode q hr.1 hr.2] at hn
        exact absurd hn (by simp)
      · simp only [if_neg hr]
    · rw [hmem z hz]
  have hBp : ∀ z, (k'.mem z).parent = (k.mem z).parent := by
    intro z
    by_cases hz : z = y
    · rw [hz, hparent]
    · rw [hmem z hz]
  have hBo : ∀ z, (k'.mem z).offset = (k.mem z).offset := by
    intro z
    by_cases hz : z = y
    · rw [hz, hoffset]
    · rw [hmem z hz]
  have hBs : ∀ z, (k'.mem z).shift = (k.mem z).shift := by
    intro z
    by_cases hz : z = y
    · rw [hz, hshift]
    · rw [hmem z hz]
  have hT : ∀ z, (k'.mem z).tags = (k.mem z).tags := by
    intro z
    by_cases hz : z = y
    · rw [hz, htags]
    · rw [hmem z hz]
  have hC : ∀ q, (k'.mem y).slots q = 0 ∨
      (¬ (o ≤ q ∧ q ≤ o + m) ∧ (k'.mem y).slots q = (k.mem y).slots q) := by
    intro q
    rw [hslots]
    by_cases hr : o ≤ q ∧ q ≤ o + m
    · left
      simp only [if_pos hr]
    · right
      exact ⟨hr, by simp only [if_neg hr]⟩
  have hout : ∀ q, ¬ (o ≤ q ∧ q ≤ o + m) → (k'.mem y).slots q = (k.mem y).slots q := by
    intro q hr
    rw [hslots]
    simp only [if_neg hr]
  refine ⟨⟨?_, ?_, ?_, by rw [hslab]; exact hc.slab_align, by rw [hslab]; exact hc.slab_big⟩,
    ?_, ?_⟩
  · intro hn
    rw [hhead] at hn ⊢
    rw [hBp]
    exact hc.head_node hn
  · intro hn
    rw [hhead] at hn ⊢
    exact hc.head_leaf hn
  · intro z hz
    have hnz := hc.nodes z hz
    by_cases hzy : z = y
    · subst hzy
      refine ⟨hnz.align, hnz.big, by rw [hslab]; exact hnz.below, by rw [hshift]; exact hnz.shift6,
        by rw [hshift]; exact hnz.shift_le, ?_, ?_, ?_, ?_, hcount, ?_⟩
      · rw [hparent, hhead]
        exact hnz.root
      · rw [hparent, hoffset, hshift, hBs]
        intro hp
        obtain ⟨a, b, c, d⟩ := hnz.up hp
        refine ⟨a, b, ?_, d⟩
        rw [hA _ _ (by rw [c]; exact is_node_add2 z hnz.align hnz.big)]
        exact c
      · intro q hq hn
        rcases hC q with h0 | ⟨h1, h2⟩
        · rw [h0] at hn
          exact absurd hn (by decide)
        · rw [h2] at hn ⊢
          rw [hBp, hBo]
          exact hnz.child q hq hn
      · intro q hq hint hnn
        rcases hC q with h0 | ⟨h1, h2⟩
        · rw [h0] at hint
          exact absurd hint (by decide)
        · rw [h2] at hint hnn ⊢
          obtain ⟨s1, s2, s3, s4, s5⟩ := hnz.sib q hq hint hnn
          have hct := (run_target hnz hold hrun hend q hq s1).2 h1
          rw [hout _ hct]
          refine ⟨s1, s2, s3, s4, ?_⟩
          intro j hj1 hj2
          rw [hout j ?_]
          · exact s5 j hj1 hj2
          · intro hjr
            have hoin : xa_to_sibling ((k.mem z).slots q) < o ∧ o ≤ q := by omega
            have := s5 o hoin.1 hoin.2
            rw [this, hint] at hold
            exact absurd hold (by simp)
      · intro q u hq hu hb
        rw [node_get_tag_congr (show (k'.mem z).tags u = (k.mem z).tags u by rw [htags])] at hb
        obtain ⟨t1, t2⟩ := hnz.tag_null q u hq hu hb
        have hr : ¬ (o ≤ q ∧ q ≤ o + m) := by
          intro hr
          by_cases hqo : q = o
          · rw [hqo, htag u hu] at hb
            exact absurd hb (by simp)
          · rw [hrun q (by omega) hr.2] at t2
            exact absurd t2 (by simp)
        rw [hout q hr]
        exact ⟨t1, t2⟩
    · refine nodeCore_congr hnz (hmem z hzy) (le_of_eq hslab.symm) (fun _ => hhead) ?_ ?_
      · intro hp
        obtain ⟨a, b, c, d⟩ := hnz.up hp
        exact ⟨a, hA _ _ (by rw [c]; exact is_node_add2 z hnz.align hnz.big), hBs _⟩
      · intro q hq hn
        exact ⟨(hnz.child q hq hn).1, hBp _, hBo _⟩
  · intro h0 u hu
    rw [hhead] at h0
    rw [xa_tagged_congr u hflags]
    exact hi.head_null h0 u hu
  · intro z hz u hu
    refine tagUp_congr (hi.tags z hz u hu) (hBp z) (hBo z) (node_any_tag_congr (by rw [hT]))
      (fun _ => xa_tagged_congr u hflags) (fun _ => node_get_tag_congr (by rw [hT]))

/-- Clearing an entry and the run of its sibling entries: the indices of the
entry read `NULL`, every other index reads what it read before. -/
theorem simOff_clear {k k' : Kernel} {L : Nat → Prop} {y o m : Nat} (hi : Inv k L) (hy : L y)
    (hold : xa_is_internal ((k.mem y).slots o) = false)
    (hrun : ∀ j, o < j → j ≤ o + m → xa_is_sibling ((k.mem y).slots j) = true)
    (hend : o + m = 63 ∨ xa_is_sibling ((k.mem y).slots (o + m + 1)) = false)
    (htag : ∀ u, u < 3 → node_get_tag (k.mem y) o u = false)
    (hhead : k'.xa_head = k.xa_head) (hflags : k'.xa_flags = k.xa_flags)
    (hmem : ∀ z, z ≠ y → k'.mem z = k.mem z)
    (hslots : (k'.mem y).slots = fun j => if o ≤ j ∧ j ≤ o + m then 0 else (k.mem y).slots j)
    (hshift : (k'.mem y).shift = (k.mem y).shift)
    (htags : (k'.mem y).tags = (k.mem y).tags) : SimOff k k' (Place.slot y o) := by
  have hc := hi.core
  have hny := hc.nodes y hy
  have hnotnode : ∀ q, o ≤ q → q ≤ o + m → xa_is_node ((k.mem y).slots q) = false := by
    intro q h1 h2
    by_cases hq : q = o
    · rw [hq]
      exact not_internal_not_node _ hold
    · exact (sibling_ne_zero _ (hrun q (by omega) h2)).2
  have hA : ∀ z q, xa_is_node ((k.mem z).slots q) = true →
      (k'.mem z).slots q = (k.mem z).slots q := by
    intro z q hn
    by_cases hz : z = y
    · subst hz
      rw [hslots]
      by_cases hr : o ≤ q ∧ q ≤ o + m
      · rw [hnotnode q hr.1 hr.2] at hn
        exact absurd hn (by simp)
      · simp only [if_neg hr]
    · rw [hmem z hz]
  have hBs : ∀ z, (k'.mem z).shift = (k.mem z).shift := by
    intro z
    by_cases hz : z = y
    · rw [hz, hshift]
    · rw [hmem z hz]
  have hout : ∀ q, ¬ (o ≤ q ∧ q ≤ o + m) → (k'.mem y).slots q = (k.mem y).slots q := by
    intro q hr
    rw [hslots]
    simp only [if_neg hr]
  have hin : ∀ q, o ≤ q ∧ q ≤ o + m → (k'.mem y).slots q = 0 := by
    intro q hr
    rw [hslots]
    simp only [if_pos hr]
  intro j w1 hj
  cases w1 with
  | head =>
    have hl' : Loc k' j Place.head := ⟨by rw [hhead]; exact hj.1, hj.2⟩
    exact ⟨Place.head, hl', fun h => Place.noConfusion h,
      fun _ => ⟨hhead, fun u _ => xa_tagged_congr u hflags⟩⟩
  | bounds =>
    refine ⟨Place.bounds, ?_, fun h => Place.noConfusion h, fun _ => ⟨rfl, fun _ _ => rfl⟩⟩
    rcases hj with hj | hj
    · exact Or.inl ⟨by rw [hhead]; exact hj.1, hj.2⟩
    · exact Or.inr ⟨by rw [hhead]; exact hj.1, by rw [hhead, hBs]; exact hj.2⟩
  | slot z r =>
    obtain ⟨v, c, n⟩ := loc_slot_iff.1 hj
    have v' : Visits k' j z := visits_of_nodes hhead hBs hA v
    by_cases hz : z = y
    · subst hz
      have eraw : get_offset j (k'.mem z) = get_offset j (k.mem z) := by
        simp [get_offset, hshift]
      have hraw := get_offset_lt j (k.mem z)
      generalize get_offset j (k.mem z) = raw at *
      by_cases hr : o ≤ raw ∧ raw ≤ o + m
      · have hro : r = o := by
          rw [c]
          unfold canon
          by_cases hqo : raw = o
          · rw [hqo, not_internal_not_sibling _ hold]
            simp
          · have hs := hrun raw (by omega) hr.2
            rw [hs]
            simp only [if_true]
            exact (run_target hny hold hrun hend raw hraw hs).1 (by omega) hr.2
        have hnew := hin raw hr
        refine ⟨Place.slot z raw, loc_slot_iff.2 ⟨v', ?_, ?_⟩, ?_, ?_⟩
        · rw [eraw]
          unfold canon
          rw [hnew]
          simp [not_sibling_zero]
        · rw [hnew]
          decide
        · intro _
          refine ⟨hnew, ?_⟩
          intro u hu
          show node_get_tag (k'.mem z) raw u = false
          rw [node_get_tag_congr (show (k'.mem z).tags u = (k.mem z).tags u by rw [htags])]
          by_cases hqo : raw = o
          · rw [hqo]
            exact htag u hu
          · cases hb : node_get_tag (k.mem z) raw u
            · rfl
            · have := (hny.tag_null raw u hraw hu hb).2
              rw [hrun raw (by omega) hr.2] at this
              exact absurd this (by simp)
        · intro hne
          rw [hro] at hne
          exact absurd rfl hne
      · have hsame := hout raw hr
        have hcan : canon (k'.mem z) raw = canon (k.mem z) raw := by
          unfold canon
          rw [hsame]
        have hrr : ¬ (o ≤ r ∧ r ≤ o + m) := by
          rw [c]
          unfold canon
          by_cases hs : xa_is_sibling ((k.mem z).slots raw) = true
          · rw [hs]
            simp only [if_true]
            exact (run_target hny hold hrun hend raw hraw hs).2 hr
          · simp only [hs, Bool.false_eq_true, if_false]
            exact hr
        have hslr := hout r hrr
        refine ⟨Place.slot z r, loc_slot_iff.2 ⟨v', by rw [eraw, hcan]; exact c,
          by rw [hslr]; exact n⟩, ?_, ?_⟩
        · intro h
          simp only [Place.slot.injEq, true_and] at h
          omega
        · intro _
          exact ⟨hslr, fun u _ => node_get_tag_congr (by rw [htags])⟩
    · refine ⟨Place.slot z r, loc_slot_iff.2 ⟨v', by rw [hmem z hz]; exact c,
        by rw [hmem z hz]; exact n⟩, ?_, ?_⟩
      · intro h
        simp only [Place.slot.injEq] at h
        exact absurd h.1 hz
      · intro _
        have e1 : entry_at k' (Place.slot z r) = entry_at k (Place.slot z r) := by
          show (k'.mem z).slots r = (k.mem z).slots r
          rw [hmem z hz]
        have e2 : ∀ u, tag_at k' u (Place.slot z r) = tag_at k u (Place.slot z r) := by
          intro u
          show node_get_tag (k'.mem z) r u = node_get_tag (k.mem z) r u
          rw [hmem z hz]
        exact ⟨e1, fun u _ => e2 u⟩

theorem nomulti_clear {k k' : Kernel} {L : Nat → Prop} {y o m : Nat} (hm : NoMulti k L)
    (hmem : ∀ z, z ≠ y → k'.mem z = k.mem z)
    (hslots : (k'.mem y).slots = fun j => if o ≤ j ∧ j ≤ o + m then 0 else (k.mem y).slots j)
    (hshift : (k'.mem y).shift = (k.mem y).shift) : NoMulti k' L := by
  intro z hz q hq
  by_cases hzy : z = y
  · subst hzy
    rw [hslots, hshift]
    by_cases hr : o ≤ q ∧ q ≤ o + m
    · simp only [if_pos hr]
      exact ⟨not_sibling_zero, fun _ h => absurd rfl h⟩
    · simp only [if_neg hr]
      exact hm z hz q hq
  · rw [hmem z hzy]
    exact hm z hz q hq

/-- Facts about a live node without entries. -/
theorem empty_node_facts {k : Kernel} {L : Nat → Prop} (hi : Inv k L) {x : Nat} (hx : L x)
    (hcnt : (k.mem x).count = 0) :
    (∀ o, o < 64 → (k.mem x).slots o = 0) ∧
    (∀ o u, o < 64 → u < 3 → node_get_tag (k.mem x) o u = false) ∧
    (∀ u, u < 3 → node_any_tag (k.mem x) u = false) ∧
    (∀ z, L z → (k.mem z).parent ≠ x) := by
  have hn := hi.core.nodes x hx
  have h0 : ∀ o, o < 64 → (k.mem x).slots o = 0 :=
    count_upto_eq_zero _ 64 (by rw [← hn.count]; exact hcnt)
  have ht : ∀ o u, o < 64 → u < 3 → node_get_tag (k.mem x) o u = false := by
    intro o u ho hu
    cases hb : node_get_tag (k.mem x) o u
    · rfl
    · exact absurd (h0 o ho) (hn.tag_null o u ho hu hb).1
  refine ⟨h0, ht, ?_, ?_⟩
  · intro u hu
    rw [node_any_tag_false_iff]
    intro o ho
    exact ht o u ho hu
  · intro z hz hpz
    have hnz := hi.core.nodes z hz
    have hp0 : (k.mem z).parent ≠ 0 := by
      rw [hpz]
      have := hn.big
      omega
    obtain ⟨_, a, b, _⟩ := hnz.up hp0
    rw [hpz, h0 _ a] at b
    omega

/-- Unlinking a node without entries from its parent keeps the invariant. -/
theorem inv_unlink {k k' : Kernel} {L : Nat → Prop} {x p q : Nat} (hi : Inv k L) (hx : L x)
    (hcnt : (k.mem x).count = 0) (hp : (k.mem x).parent ≠ 0) (hpd : (k.mem x).parent = p)
    (hqd : (k.mem x).offset = q)
    (hhead : k'.xa_head = k.xa_head) (hflags : k'.xa_flags = k.xa_flags)
    (hslab : k'.slab_next = k.slab_next)
    (hmem : ∀ z, z ≠ x → z ≠ p → k'.mem z = k.mem z)
    (hslots : (k'.mem p).slots = fun i => if i = q then 0 else (k.mem p).slots i)
    (hshift : (k'.mem p).shift = (k.mem p).shift)
    (hparent : (k'.mem p).parent = (k.mem p).parent)
    (hoffset : (k'.mem p).offset = (k.mem p).offset)
    (htags : (k'.mem p).tags = (k.mem p).tags)
    (hcount : (k'.mem p).count = ((k.mem p).count + 255) % 256) :
    Inv k' (fun z => L z ∧ z ≠ x) := by
  have hc := hi.core
  have hnx := hc.nodes x hx
  obtain ⟨f1, f2, f3, f4⟩ := empty_node_facts hi hx hcnt
  obtain ⟨u1, u2, u3, u4⟩ := hnx.up hp
  rw [hpd] at u1 u3 u4
  rw [hqd] at u2 u3
  have hnp := hc.nodes p u1
  have hpx : p ≠ x := by
    intro h
    rw [h] at u4
    omega
  have hxnode : xa_is_node (x + 2) = true := is_node_add2 x hnx.align hnx.big
  have hBp : ∀ z, z ≠ x → (k'.mem z).parent = (k.mem z).parent := by
    intro z hz
    by_cases hzp : z = p
    · rw [hzp, hparent]
    · rw [hmem z hz hzp]
  have hBo : ∀ z, z ≠ x → (k'.mem z).offset = (k.mem z).offset := by
    intro z hz
    by_cases hzp : z = p
    · rw [hzp, hoffset]
    · rw [hmem z hz hzp]
  have hBs : ∀ z, z ≠ x → (k'.mem z).shift = (k.mem z).shift := by
    intro z hz
    by_cases hzp : z = p
    · rw [hzp, hshift]
    · rw [hmem z hz hzp]
  have hT : ∀ z, z ≠ x → (k'.mem z).tags = (k.mem z).tags := by
    intro z hz
    by_cases hzp : z = p
    · rw [hzp, htags]
    · rw [hmem z hz hzp]
  have hS : ∀ z i, z ≠ x → ¬ (z = p ∧ i = q) → (k'.mem z).slots i = (k.mem z).slots i := by
    intro z i hz hzi
    by_cases hzp : z = p
    · subst hzp
      rw [hslots]
      have : i ≠ q := fun h => hzi ⟨rfl, h⟩
      simp only [if_neg this]
    · rw [hmem z hz hzp]
  have hq0 : (k'.mem p).slots q = 0 := by
    rw [hslots]
    simp
  have htq : ∀ u, u < 3 → node_get_tag (k.mem p) q u = false := by
    intro u hu
    have := hi.tags x hx u hu
    unfold TagUp at this
    rw [if_neg hp, hpd, hqd, f3 u hu] at this
    exact this
  refine ⟨⟨?_, ?_, ?_, by rw [hslab]; exact hc.slab_align, by rw [hslab]; exact hc.slab_big⟩,
    ?_, ?_⟩
  · intro hn
    rw [hhead] at hn ⊢
    obtain ⟨a, b⟩ := hc.head_node hn
    have hne : k.xa_head - 2 ≠ x := by
      intro h
      rw [h] at b
      exact hp b
    exact ⟨⟨a, hne⟩, by rw [hBp _ hne]; exact b⟩
  · intro hn
    rw [hhead] at hn ⊢
    exact ⟨(hc.head_leaf hn).1, fun z hz => (hc.head_leaf hn).2 z hz.1⟩
  · intro z hz
    obtain ⟨hz, hzx⟩ := hz
    have hnz := hc.nodes z hz
    by_cases hzp : z = p
    · subst hzp
      refine ⟨hnz.align, hnz.big, by rw [hslab]; exact hnz.below, by rw [hshift]; exact hnz.shift6,
        by rw [hshift]; exact hnz.shift_le, ?_, ?_, ?_, ?_, ?_, ?_⟩
      · rw [hparent, hhead]
        exact hnz.root
      · rw [hparent, hoffset, hshift]
        intro hpp
        obtain ⟨a, b, c, d⟩ := hnz.up hpp
        have hne : (k.mem z).parent ≠ x := f4 z hz
        have hnz2 : (k.mem z).parent ≠ z := by
          intro h
          rw [h] at d
          omega
        rw [hmem _ hne hnz2]
        exact ⟨⟨a, hne⟩, b, c, d⟩
      · intro i hi64 hn
        have hiq : i ≠ q := by
          intro h
          rw [h, hq0] at hn
          exact absurd hn (by decide)
        rw [hS z i hzx (fun h => hiq h.2)] at hn ⊢
        obtain ⟨a, b, c⟩ := hnz.child i hi64 hn
        have hne : (k.mem z).slots i - 2 ≠ x := by
          intro h
          rw [h, hqd] at c
          exact hiq c.symm
        exact ⟨⟨a, hne⟩, by rw [hBp _ hne]; exact b, by rw [hBo _ hne]; exact c⟩
      · intro i hi64 hint hnn
        have hiq : i ≠ q := by
          intro h
          rw [h, hq0] at hint
          exact absurd hint (by decide)
        rw [hS z i hzx (fun h => hiq h.2)] at hint hnn ⊢
        obtain ⟨s1, s2, s3, s4, s5⟩ := hnz.sib i hi64 hint hnn
        have hcq : xa_to_sibling ((k.mem z).slots i) ≠ q := by
          intro h
          rw [h, u3, is_node_internal _ hxnode] at s3
          exact absurd s3 (by simp)
        rw [hS z _ hzx (fun h => hcq h.2)]
        refine ⟨s1, s2, s3, s4, ?_⟩
        intro j hj1 hj2
        have hjq : j ≠ q := by
          intro h
          have := s5 j hj1 hj2
          rw [h, u3] at this
          rw [← this, is_node_not_sibling _ hxnode] at s1
          exact absurd s1 (by simp)
        rw [hS z j hzx (fun h => hjq h.2)]
        exact s5 j hj1 hj2
      · rw [hcount, hslots]
        have := count_upto_update (k.mem z).slots q 0 64
        have hne : (k.mem z).slots q ≠ 0 := by rw [u3]; omega
        simp only [u2, hne, ne_eq, not_false_eq_true, and_self, if_true, not_true, and_false,
          if_false] at this
        have hle := count_upto_le (k.mem z).slots 64
        rw [hnz.count]
        omega
      · intro i u hi64 hu hb
        rw [node_get_tag_congr (show (k'.mem z).tags u = (k.mem z).tags u by rw [htags])] at hb
        have hiq : i ≠ q := by
          intro h
          rw [h, htq u hu] at hb
          exact absurd hb (by simp)
        rw [hS z i hzx (fun h => hiq h.2)]
        exact hnz.tag_null i u hi64 hu hb
    · refine nodeCore_congr hnz (hmem z hzx hzp) (le_of_eq hslab.symm) (fun _ => hhead) ?_ ?_
      · intro hpz
        obtain ⟨a, b, c, d⟩ := hnz.up hpz
        have hne : (k.mem z).parent ≠ x := f4 z hz
        refine ⟨⟨a, hne⟩, hS _ _ hne ?_, hBs _ hne⟩
        intro h
        rw [h.1, h.2, u3] at c
        exact hzx (by omega)
      · intro i hi64 hn
        obtain ⟨a, b, c⟩ := hnz.child i hi64 hn
        have hne : (k.mem z).slots i - 2 ≠ x := by
          intro h
          rw [h, hpd] at b
          exact hzp b.symm
        exact ⟨⟨a, hne⟩, hBp _ hne, hBo _ hne⟩
  · intro h0 u hu
    rw [hhead] at h0
    rw [xa_tagged_congr u hflags]
    exact hi.head_null h0 u hu
  · intro z hz u hu
    obtain ⟨hz, hzx⟩ := hz
    refine tagUp_congr (hi.tags z hz u hu) (hBp z hzx) (hBo z hzx)
      (node_any_tag_congr (by rw [hT z hzx])) (fun _ => xa_tagged_congr u hflags) ?_
    intro hpz
    exact node_get_tag_congr (by rw [hT _ (f4 z hz)])

/-- Unlinking a node without entries from its parent changes what no index reads. -/
theorem sim_unlink {k k' : Kernel} {L : Nat → Prop} {x p q : Nat} (hi : Inv k L) (hx : L x)
    (hcnt : (k.mem x).count = 0) (hp : (k.mem x).parent ≠ 0) (hpd : (k.mem x).parent = p)
    (hqd : (k.mem x).offset = q)
    (hhead : k'.xa_head = k.xa_head) (hflags : k'.xa_flags = k.xa_flags)
    (hmem : ∀ z, z ≠ x → z ≠ p → k'.mem z = k.mem z)
    (hslots : (k'.mem p).slots = fun i => if i = q then 0 else (k.mem p).slots i)
    (hshift : (k'.mem p).shift = (k.mem p).shift)
    (htags : (k'.mem p).tags = (k.mem p).tags) : Sim k k' := by
  have hc := hi.core
  have hnx := hc.nodes x hx
  obtain ⟨f1, f2, f3, f4⟩ := empty_node_facts hi hx hcnt
  obtain ⟨u1, u2, u3, u4⟩ := hnx.up hp
  rw [hpd] at u1 u3 u4
  rw [hqd] at u2 u3
  have hnp := hc.nodes p u1
  have hpx : p ≠ x := by
    intro h
    rw [h] at u4
    omega
  have hxnode : xa_is_node (x + 2) = true := is_node_add2 x hnx.align hnx.big
  have hBs : ∀ z, z ≠ x → (k'.mem z).shift = (k.mem z).shift := by
    intro z hz
    by_cases hzp : z = p
    · rw [hzp, hshift]
    · rw [hmem z hz hzp]
  have hT : ∀ z, z ≠ x → (k'.mem z).tags = (k.mem z).tags := by
    intro z hz
    by_cases hzp : z = p
    · rw [hzp, htags]
    · rw [hmem z hz hzp]
  have hS : ∀ z i, z ≠ x → ¬ (z = p ∧ i = q) → (k'.mem z).slots i = (k.mem z).slots i := by
    intro z i hz hzi
    by_cases hzp : z = p
    · subst hzp
      rw [hslots]
      have : i ≠ q := fun h => hzi ⟨rfl, h⟩
      simp only [if_neg this]
    · rw [hmem z hz hzp]
  have hq0 : (k'.mem p).slots q = 0 := by
    rw [hslots]
    simp
  have htq : ∀ u, u < 3 → node_get_tag (k.mem p) q u = false := by
    intro u hu
    have := hi.tags x hx u hu
    unfold TagUp at this
    rw [if_neg hp, hpd, hqd, f3 u hu] at this
    exact this
  have hgo : ∀ j z, z ≠ x → get_offset j (k'.mem z) = get_offset j (k.mem z) := by
    intro j z hz
    simp [get_offset, hBs z hz]
  have hvis : ∀ j z, Visits k j z → z ≠ x → Visits k' j z := by
    intro j z hv
    induction hv with
    | root z hh hn hb =>
      intro hz
      exact Visits.root z (by rw [hhead, hh]) hn (by rw [hBs z hz]; exact hb)
    | step z c hvz hs hn ih =>
      intro hcx
      have hzx : z ≠ x := by
        intro h
        rw [h, f1 _ (get_offset_lt _ _)] at hs
        omega
      refine Visits.step z c (ih hzx) ?_ hn
      rw [hgo j z hzx, hS z _ hzx ?_]
      · exact hs
      · intro h
        obtain ⟨h1, h2⟩ := h
        rw [h1] at h2 hs
        rw [h2, u3] at hs
        exact hcx (by omega)
  have hroot : xa_is_node k.xa_head = true → k.xa_head - 2 ≠ x := by
    intro hn h
    have := (hc.head_node hn).2
    rw [h] at this
    exact hp this
  intro j w1 hj
  cases w1 with
  | head =>
    have hl' : Loc k' j Place.head := ⟨by rw [hhead]; exact hj.1, hj.2⟩
    exact ⟨Place.head, hl', hhead, fun u _ => xa_tagged_congr u hflags⟩
  | bounds =>
    refine ⟨Place.bounds, ?_, rfl, fun _ _ => rfl⟩
    rcases hj with hj | hj
    · exact Or.inl ⟨by rw [hhead]; exact hj.1, hj.2⟩
    · exact Or.inr ⟨by rw [hhead]; exact hj.1, by rw [hhead, hBs _ (hroot hj.1)]; exact hj.2⟩
  | slot z r =>
    obtain ⟨v, c, n⟩ := loc_slot_iff.1 hj
    obtain ⟨hz, hr64, hni⟩ := loc_slot_facts hc hj
    by_cases hzx : z = x
    · subst hzx
      have hvp : Visits k j p ∧ get_offset j (k.mem p) = q := by
        cases v with
        | root _ hh hn _ =>
          have := (hc.head_node (by rw [hh]; exact hn)).2
          rw [hh] at this
          simp only [Nat.add_sub_cancel] at this
          exact absurd this hp
        | step z' _ hvz hs hn =>
          have hz' := visits_live hc hvz
          obtain ⟨_, b, c'⟩ := (hc.nodes z' hz').child _ (get_offset_lt _ _)
            (by rw [hs]; exact hn)
          rw [hs] at b c'
          simp only [Nat.add_sub_cancel] at b c'
          rw [hpd] at b
          rw [hqd] at c'
          rw [b]
          exact ⟨hvz, c'.symm⟩
      have hv' := hvis j p hvp.1 hpx
      refine ⟨Place.slot p q, loc_slot_iff.2 ⟨hv', ?_, by rw [hq0]; decide⟩, ?_, ?_⟩
      · rw [hgo j p hpx, hvp.2]
        unfold canon
        rw [hq0]
        simp [not_sibling_zero]
      · show (k'.mem p).slots q = (k.mem z).slots r
        rw [hq0, f1 r hr64]
      · intro u hu
        show node_get_tag (k'.mem p) q u = node_get_tag (k.mem z) r u
        rw [node_get_tag_congr (show (k'.mem p).tags u = (k.mem p).tags u by rw [htags]),
          htq u hu, f2 r u hr64 hu]
    · have hv' := hvis j z v hzx
      have hraw : ¬ (z = p ∧ get_offset j (k.mem z) = q) := by
        intro h
        obtain ⟨rfl, h2⟩ := h
        rw [h2, canon_raw_node (by rw [u3]; exact hxnode)] at c
        rw [c, u3, hxnode] at n
        exact absurd n (by simp)
      have hrq : ¬ (z = p ∧ r = q) := by
        intro h
        obtain ⟨rfl, h2⟩ := h
        rw [h2, u3, hxnode] at n
        exact absurd n (by simp)
      have hcan : canon (k'.mem z) (get_offset j (k.mem z)) =
          canon (k.mem z) (get_offset j (k.mem z)) := by
        unfold canon
        rw [hS z _ hzx hraw]
      refine ⟨Place.slot z r, loc_slot_iff.2 ⟨hv', by rw [hgo j z hzx, hcan]; exact c,
        by rw [hS z r hzx hrq]; exact n⟩, hS z r hzx hrq, ?_⟩
      intro u _
      exact node_get_tag_congr (by rw [hT z hzx])

theorem nomulti_unlink {k k' : Kernel} {L : Nat → Prop} {x p q : Nat} (hm : NoMulti k L)
    (hmem : ∀ z, z ≠ x → z ≠ p → k'.mem z = k.mem z)
    (hslots : (k'.mem p).slots = fun i => if i = q then 0 else (k.mem p).slots i)
    (hshift : (k'.mem p).shift = (k.mem p).shift) : NoMulti k' (fun z => L z ∧ z ≠ x) := by
  intro z hz i hi
  obtain ⟨hz, hzx⟩ := hz
  by_cases hzp : z = p
  · subst hzp
    rw [hslots, hshift]
    by_cases hiq : i = q
    · simp only [if_pos hiq]
      exact ⟨not_sibling_zero, fun _ h => absurd rfl h⟩
    · simp only [if_neg hiq]
      exact hm z hz i hi
  · rw [hmem z hzx hzp]
    exact hm z hz i hi

/-- Dropping a root node without entries leaves the empty array. -/
theorem inv_drop_root {k k' : Kernel} {L : Nat → Prop} {x : Nat} (hi : Inv k L) (hx : L x)
    (hcnt : (k.mem x).count = 0) (hp : (k.mem x).parent = 0)
    (hhead : k'.xa_head = 0) (hflags : k'.xa_flags = k.xa_flags)
    (hslab : k'.slab_next = k.slab_next) :
    Inv k' (fun _ => False) ∧ Sim k k' := by
  have hc := hi.core
  have hnx := hc.nodes x hx
  obtain ⟨f1, f2, f3, f4⟩ := empty_node_facts hi hx hcnt
  have hh := hnx.root hp
  have hxnode : xa_is_node (x + 2) = true := is_node_add2 x hnx.align hnx.big
  have hflag : ∀ u, u < 3 → xa_tagged k' u = false := by
    intro u hu
    rw [xa_tagged_congr u hflags]
    have := hi.tags x hx u hu
    unfold TagUp at this
    rw [if_pos hp, f3 u hu] at this
    exact this
  have hvis : ∀ j z, Visits k j z → z = x := by
    intro j z hv
    induction hv with
    | root z h1 _ _ =>
      rw [hh] at h1
      omega
    | step z c _ hs _ ih =>
      rw [ih, f1 _ (get_offset_lt _ _)] at hs
      omega
  constructor
  · refine ⟨⟨?_, ?_, fun _ h => absurd h id, by rw [hslab]; exact hc.slab_align,
      by rw [hslab]; exact hc.slab_big⟩, fun _ u hu => hflag u hu, fun _ h => absurd h id⟩
    · intro hn
      rw [hhead] at hn
      exact absurd hn (by decide)
    · intro _
      rw [hhead]
      exact ⟨by decide, fun _ h => h⟩
  · intro j w1 hj
    have hk'leaf : xa_is_node k'.xa_head = false := by
      rw [hhead]
      decide
    have hres : ∀ w1, entry_at k w1 = 0 → (∀ u, u < 3 → tag_at k u w1 = false) →
        ∃ w', Loc k' j w' ∧ entry_at k' w' = entry_at k w1 ∧
          ∀ t, t < 3 → tag_at k' t w' = tag_at k t w1 := by
      intro w1 h1 h2
      by_cases hj0 : j = 0
      · have hl' : Loc k' j Place.head := ⟨hk'leaf, hj0⟩
        refine ⟨Place.head, hl', ?_, ?_⟩
        · rw [h1]
          exact hhead
        · intro u hu
          rw [h2 u hu]
          exact hflag u hu
      · have hl' : Loc k' j Place.bounds := Or.inl ⟨hk'leaf, hj0⟩
        refine ⟨Place.bounds, hl', ?_, ?_⟩
        · rw [h1]
          rfl
        · intro u hu
          rw [h2 u hu]
          rfl
    cases w1 with
    | head =>
      have := hj.1
      rw [hh, hxnode] at this
      exact absurd this (by simp)
    | bounds => exact hres Place.bounds rfl (fun _ _ => rfl)
    | slot z r =>
      obtain ⟨v, c, n⟩ := loc_slot_iff.1 hj
      obtain ⟨hz, hr64, hni⟩ := loc_slot_facts hc hj
      have hzx := hvis j z v
      subst hzx
      exact hres (Place.slot z r) (f1 r hr64) (fun u hu => f2 r u hr64 hu)

/-- Facts about a live node whose only entry is in slot 0. -/
theorem single_node_facts {k : Kernel} {L : Nat → Prop} (hi : Inv k L) {x : Nat} (hx : L x)
    (hcnt : (k.mem x).count = 1) (h0 : (k.mem x).slots 0 ≠ 0) :
    (∀ o, o < 64 → o ≠ 0 → (k.mem x).slots o = 0) ∧
    (∀ o u, o < 64 → o ≠ 0 → u < 3 → node_get_tag (k.mem x) o u = false) ∧
    (∀ u, u < 3 → node_any_tag (k.mem x) u = node_get_tag (k.mem x) 0 u) := by
  have hn := hi.core.nodes x hx
  have hz : ∀ o, o < 64 → o ≠ 0 → (k.mem x).slots o = 0 := by
    have := count_upto_update (k.mem x).slots 0 0 64
    simp only [h0, ne_eq, not_false_eq_true, and_true, not_true, and_false, if_false,
      show (0 : Nat) < 64 by omega, if_true] at this
    rw [← hn.count, hcnt] at this
    have h2 := count_upto_eq_zero _ 64 (show count_upto
      (fun i => if i = 0 then 0 else (k.mem x).slots i) 64 = 0 by omega)
    intro o ho ho0
    have := h2 o ho
    simpa [ho0] using this
  have ht : ∀ o u, o < 64 → o ≠ 0 → u < 3 → node_get_tag (k.mem x) o u = false := by
    intro o u ho ho0 hu
    cases hb : node_get_tag (k.mem x) o u
    · rfl
    · exact absurd (hz o ho ho0) (hn.tag_null o u ho hu hb).1
  refine ⟨hz, ht, ?_⟩
  intro u hu
  cases hb : node_get_tag (k.mem x) 0 u
  · rw [node_any_tag_false_iff]
    intro o ho
    by_cases ho0 : o = 0
    · rw [ho0]
      exact hb
    · exact ht o u ho ho0 hu
  · exact (node_any_tag_iff _ _).2 ⟨0, by omega, hb⟩

theorem shr_mono6 (j s : Nat) : j >>> (s + 6) ≤ j >>> s := by
  rw [shr_add6]
  exact Nat.div_le_self _ _

theorem visits_root_bound {k : Kernel} {L : Nat → Prop} (hc : Core k L) {j x : Nat}
    (hv : Visits k j x) (hp : (k.mem x).parent = 0) : j >>> (k.mem x).shift ≤ 63 := by
  cases hv with
  | root _ _ _ hb => exact hb
  | step z _ hvz hs hn =>
    have hz := visits_live hc hvz
    obtain ⟨_, b, _⟩ := (hc.nodes z hz).child _ (get_offset_lt _ _) (by rw [hs]; exact hn)
    rw [hs] at b
    simp only [Nat.add_sub_cancel] at b
    have := (hc.nodes z hz).big
    omega

/-- Replacing a root node whose only entry is a node in slot 0 by that node
keeps the invariant. -/
theorem inv_shrink_node {k k' : Kernel} {L : Nat → Prop} {x c : Nat} (hi : Inv k L) (hx : L x)
    (hp : (k.mem x).parent = 0) (hcnt : (k.mem x).count = 1)
    (hs0 : (k.mem x).slots 0 = c + 2) (hcn : xa_is_node (c + 2) = true)
    (hhead : k'.xa_head = c + 2) (hflags : k'.xa_flags = k.xa_flags)
    (hslab : k'.slab_next = k.slab_next)
    (hmem : ∀ z, z ≠ x → z ≠ c → k'.mem z = k.mem z)
    (hslots : (k'.mem c).slots = (k.mem c).slots)
    (hshift : (k'.mem c).shift = (k.mem c).shift)
    (htags : (k'.mem c).tags = (k.mem c).tags)
    (hcount : (k'.mem c).count = (k.mem c).count)
    (hparent : (k'.mem c).parent = 0) :
    Inv k' (fun z => L z ∧ z ≠ x) := by
  have hc := hi.core
  have hnx := hc.nodes x hx
  have hh := hnx.root hp
  obtain ⟨f1, f2, f3⟩ := single_node_facts hi hx hcnt (by rw [hs0]; omega)
  obtain ⟨c1, c2, c3⟩ := hnx.child 0 (by omega) (by rw [hs0]; exact hcn)
  rw [hs0] at c1 c2 c3
  simp only [Nat.add_sub_cancel] at c1 c2 c3
  have hnc := hc.nodes c c1
  have hcx : c ≠ x := by
    intro h
    rw [h, hp] at c2
    have := hnx.big
    omega
  have hxbig := hnx.big
  have hS : ∀ z, z ≠ x → (k'.mem z).slots = (k.mem z).slots := by
    intro z hz
    by_cases hzc : z = c
    · rw [hzc, hslots]
    · rw [hmem z hz hzc]
  have hBs : ∀ z, z ≠ x → (k'.mem z).shift = (k.mem z).shift := by
    intro z hz
    by_cases hzc : z = c
    · rw [hzc, hshift]
    · rw [hmem z hz hzc]
  have hT : ∀ z, z ≠ x → (k'.mem z).tags = (k.mem z).tags := by
    intro z hz
    by_cases hzc : z = c
    · rw [hzc, htags]
    · rw [hmem z hz hzc]
  have hchild : ∀ z, L z → (k.mem z).parent = x → z = c := by
    intro z hz hpz
    have hnz := hc.nodes z hz
    obtain ⟨_, a, b, _⟩ := hnz.up (by rw [hpz]; omega)
    rw [hpz] at b
    by_cases ho : (k.mem z).offset = 0
    · rw [ho, hs0] at b
      omega
    · rw [f1 _ a ho] at b
      omega
  have hnotroot : ∀ z, L z → z ≠ x → (k.mem z).parent ≠ 0 := by
    intro z hz hzx h0
    have := (hc.nodes z hz).root h0
    rw [hh] at this
    exact hzx (by omega)
  refine ⟨⟨?_, ?_, ?_, by rw [hslab]; exact hc.slab_align, by rw [hslab]; exact hc.slab_big⟩,
    ?_, ?_⟩
  · intro _
    rw [hhead]
    simp only [Nat.add_sub_cancel]
    exact ⟨⟨c1, hcx⟩, hparent⟩
  · intro hn
    rw [hhead, hcn] at hn
    exact absurd hn (by simp)
  · intro z hz
    obtain ⟨hz, hzx⟩ := hz
    have hnz := hc.nodes z hz
    by_cases hzc : z = c
    · subst hzc
      refine ⟨hnz.align, hnz.big, by rw [hslab]; exact hnz.below, by rw [hshift]; exact hnz.shift6,
        by rw [hshift]; exact hnz.shift_le, fun _ => hhead, fun h => absurd hparent h, ?_, ?_, ?_,
        ?_⟩
      · intro i hi64 hn
        rw [hslots] at hn ⊢
        obtain ⟨a, b, d⟩ := hnz.child i hi64 hn
        have hdx : (k.mem z).slots i - 2 ≠ x := by
          intro h
          rw [h, hp] at b
          have := hnz.big
          omega
        have hdc : (k.mem z).slots i - 2 ≠ z := by
          intro h
          obtain ⟨_, _, _, e⟩ := (hc.nodes _ a).up (by rw [b]; have := hnz.big; omega)
          rw [b, h] at e
          omega
        rw [hmem _ hdx hdc]
        exact ⟨⟨a, hdx⟩, b, d⟩
      · rw [hslots]
        exact hnz.sib
      · rw [hcount, hslots]
        exact hnz.count
      · intro i u hi64 hu hb
        rw [node_get_tag_congr (show (k'.mem z).tags u = (k.mem z).tags u by rw [htags])] at hb
        rw [hslots]
        exact hnz.tag_null i u hi64 hu hb
    · refine nodeCore_congr hnz (hmem z hzx hzc) (le_of_eq hslab.symm)
        (fun h => absurd h (hnotroot z hz hzx)) ?_ ?_
      · intro hpz
        obtain ⟨a, b, d, e⟩ := hnz.up hpz
        have hne : (k.mem z).parent ≠ x := fun h => hzc (hchild z hz h)
        exact ⟨⟨a, hne⟩, by rw [hS _ hne], hBs _ hne⟩
      · intro i hi64 hn
        obtain ⟨a, b, d⟩ := hnz.child i hi64 hn
        have hdx : (k.mem z).slots i - 2 ≠ x := by
          intro h
          rw [h, hp] at b
          have := hnz.big
          omega
        have hdc : (k.mem z).slots i - 2 ≠ c := by
          intro h
          rw [h, c2] at b
          exact hzx b.symm
        rw [hmem _ hdx hdc]
        exact ⟨⟨a, hdx⟩, rfl, rfl⟩
  · intro h0
    rw [hhead] at h0
    omega
  · intro z hz u hu
    obtain ⟨hz, hzx⟩ := hz
    by_cases hzc : z = c
    · subst hzc
      unfold TagUp
      rw [if_pos hparent, xa_tagged_congr u hflags,
        node_any_tag_congr (show (k'.mem z).tags u = (k.mem z).tags u by rw [htags])]
      have t1 := hi.tags x hx u hu
      have t2 := hi.tags z hz u hu
      unfold TagUp at t1 t2
      rw [if_pos hp, f3 u hu] at t1
      rw [if_neg (by rw [c2]; omega), c2, c3] at t2
      rw [t1, t2]
    · have hpz := hnotroot z hz hzx
      have hne : (k.mem z).parent ≠ x := fun h => hzc (hchild z hz h)
      refine tagUp_congr (hi.tags z hz u hu) (by rw [hmem z hzx hzc]) (by rw [hmem z hzx hzc])
        (node_any_tag_congr (by rw [hT z hzx])) (fun h => absurd h hpz) ?_
      intro _
      exact node_get_tag_congr (by rw [hT _ hne])

/-- Replacing a root node whose only entry is a node in slot 0 by that node
changes what no index reads. -/
theorem sim_shrink_node {k k' : Kernel} {L : Nat → Prop} {x c : Nat} (hi : Inv k L) (hx : L x)
    (hp : (k.mem x).parent = 0) (hcnt : (k.mem x).count = 1)
    (hs0 : (k.mem x).slots 0 = c + 2) (hcn : xa_is_node (c + 2) = true)
    (hhead : k'.xa_head = c + 2)
    (hmem : ∀ z, z ≠ x → z ≠ c → k'.mem z = k.mem z)
    (hslots : (k'.mem c).slots = (k.mem c).slots)
    (hshift : (k'.mem c).shift = (k.mem c).shift)
    (htags : (k'.mem c).tags = (k.mem c).tags) : Sim k k' := by
  have hc := hi.core
  have hnx := hc.nodes x hx
  have hh := hnx.root hp
  obtain ⟨f1, f2, f3⟩ := single_node_facts hi hx hcnt (by rw [hs0]; omega)
  obtain ⟨c1, c2, c3⟩ := hnx.child 0 (by omega) (by rw [hs0]; exact hcn)
  rw [hs0] at c1 c2 c3
  simp only [Nat.add_sub_cancel] at c1 c2 c3
  have hnc := hc.nodes c c1
  have hxbig := hnx.big
  have hcx : c ≠ x := by
    intro h
    rw [h, hp] at c2
    omega
  have hsx : (k.mem x).shift = (k.mem c).shift + 6 := by
    have := (hnc.up (by rw [c2]; omega)).2.2.2
    rw [c2] at this
    exact this
  have hxnode : xa_is_node (x + 2) = true := is_node_add2 x hnx.align hnx.big
  have hS : ∀ z, z ≠ x → (k'.mem z).slots = (k.mem z).slots := by
    intro z hz
    by_cases hzc : z = c
    · rw [hzc, hslots]
    · rw [hmem z hz hzc]
  have hBs : ∀ z, z ≠ x → (k'.mem z).shift = (k.mem z).shift := by
    intro z hz
    by_cases hzc : z = c
    · rw [hzc, hshift]
    · rw [hmem z hz hzc]
  have hT : ∀ z, z ≠ x → (k'.mem z).tags = (k.mem z).tags := by
    intro z hz
    by_cases hzc : z = c
    · rw [hzc, htags]
    · rw [hmem z hz hzc]
  have hgo : ∀ j z, z ≠ x → get_offset j (k'.mem z) = get_offset j (k.mem z) := by
    intro j z hz
    simp [get_offset, hBs z hz]
  have hvis : ∀ j z, Visits k j z → z ≠ x → Visits k' j z := by
    intro j z hv
    induction hv with
    | root z h1 _ _ =>
      intro hz
      rw [hh] at h1
      exact absurd (by omega) hz
    | step z d hvz hs hn ih =>
      intro hdx
      by_cases hzx : z = x
      · subst hzx
        have hraw : get_offset j (k.mem z) = 0 := by
          by_contra h
          rw [f1 _ (get_offset_lt _ _) h] at hs
          omega
        rw [hraw, hs0] at hs
        have hdc : d = c := by omega
        rw [hdc]
        refine Visits.root c hhead hcn ?_
        rw [hshift]
        have hb := visits_root_bound hc hvz hp
        rw [get_offset_eq] at hraw
        rw [hsx, shr_add6] at hb hraw
        simp only [XA_CHUNK_MASK]
        omega
      · refine Visits.step z d (ih hzx) ?_ hn
        rw [hgo j z hzx, hS z hzx]
        exact hs
  intro j w1 hj
  have hk'node : xa_is_node k'.xa_head = true := by
    rw [hhead]
    exact hcn
  have hbnd : j >>> (k.mem c).shift > 63 → Loc k' j Place.bounds := by
    intro h
    refine Or.inr ⟨hk'node, ?_⟩
    rw [hhead]
    simp only [Nat.add_sub_cancel, XA_CHUNK_MASK]
    rw [hshift]
    exact h
  cases w1 with
  | head =>
    have := hj.1
    rw [hh, hxnode] at this
    exact absurd this (by simp)
  | bounds =>
    refine ⟨Place.bounds, hbnd ?_, rfl, fun _ _ => rfl⟩
    rcases hj with hj | hj
    · have := hj.1
      rw [hh, hxnode] at this
      exact absurd this (by simp)
    · have h2 := hj.2
      rw [hh] at h2
      simp only [Nat.add_sub_cancel, XA_CHUNK_MASK] at h2
      have := shr_mono6 j (k.mem c).shift
      rw [hsx] at h2
      omega
  | slot z r =>
    obtain ⟨v, cn, n⟩ := loc_slot_iff.1 hj
    obtain ⟨hz, hr64, hni⟩ := loc_slot_facts hc hj
    by_cases hzx : z = x
    · subst hzx
      have hraw : get_offset j (k.mem z) ≠ 0 := by
        intro h
        rw [h, canon_raw_node (by rw [hs0]; exact hcn)] at cn
        rw [cn, hs0, hcn] at n
        exact absurd n (by simp)
      have hr : r = get_offset j (k.mem z) := by
        rw [cn]
        unfold canon
        rw [f1 _ (get_offset_lt _ _) hraw]
        simp [not_sibling_zero]
      refine ⟨Place.bounds, hbnd ?_, ?_, ?_⟩
      · rw [get_offset_eq, hsx, shr_add6] at hraw
        generalize j >>> (k.mem c).shift = A at *
        omega
      · show 0 = (k.mem z).slots r
        rw [hr, f1 _ (get_offset_lt _ _) hraw]
      · intro u hu
        show false = node_get_tag (k.mem z) r u
        rw [hr, f2 _ u (get_offset_lt _ _) hraw hu]
    · have hv' := hvis j z v hzx
      refine ⟨Place.slot z r, loc_slot_iff.2 ⟨hv', ?_, by rw [hS z hzx]; exact n⟩, ?_, ?_⟩
      · rw [hgo j z hzx]
        unfold canon
        rw [hS z hzx]
        exact cn
      · show (k'.mem z).slots r = (k.mem z).slots r
        rw [hS z hzx]
      · intro u _
        exact node_get_tag_congr (by rw [hT z hzx])

theorem nomulti_sub {k k' : Kernel} {L L' : Nat → Prop} (hm : NoMulti k L)
    (hsub : ∀ z, L' z → L z)
    (hslots : ∀ z, L' z → (k'.mem z).slots = (k.mem z).slots)
    (hshift : ∀ z, L' z → (k'.mem z).shift = (k.mem z).shift) : NoMulti k' L' := by
  intro z hz i hi
  rw [hslots z hz, hshift z hz]
  exact hm z (hsub z hz) i hi

/-- Replacing a root node of height one whose only entry is in slot 0 by that entry. -/
theorem inv_shrink_leaf {k k' : Kernel} {L : Nat → Prop} {x : Nat} (hi : Inv k L) (hx : L x)
    (hp : (k.mem x).parent = 0) (hcnt : (k.mem x).count = 1) (hsh : (k.mem x).shift = 0)
    (hs0 : (k.mem x).slots 0 ≠ 0) (hnn : xa_is_node ((k.mem x).slots 0) = false)
    (hhead : k'.xa_head = (k.mem x).slots 0) (hflags : k'.xa_flags = k.xa_flags)
    (hslab : k'.slab_next = k.slab_next) :
    Inv k' (fun _ => False) ∧ Sim k k' := by
  have hc := hi.core
  have hnx := hc.nodes x hx
  have hh := hnx.root hp
  obtain ⟨f1, f2, f3⟩ := single_node_facts hi hx hcnt hs0
  have hxnode : xa_is_node (x + 2) = true := is_node_add2 x hnx.align hnx.big
  have hni : xa_is_internal ((k.mem x).slots 0) = false := by
    cases hq : xa_is_internal ((k.mem x).slots 0)
    · rfl
    · have := (hnx.sib 0 (by omega) hq hnn).2.1
      omega
  have hk'leaf : xa_is_node k'.xa_head = false := by
    rw [hhead]
    exact hnn
  have hflag : ∀ u, u < 3 → xa_tagged k' u = node_get_tag (k.mem x) 0 u := by
    intro u hu
    rw [xa_tagged_congr u hflags]
    have := hi.tags x hx u hu
    unfold TagUp at this
    rw [if_pos hp, f3 u hu] at this
    exact this
  have hnonode : ∀ o, o < 64 → xa_is_node ((k.mem x).slots o) = false := by
    intro o ho
    by_cases ho0 : o = 0
    · rw [ho0]
      exact hnn
    · rw [f1 o ho ho0]
      decide
  have hvis : ∀ j z, Visits k j z → z = x := by
    intro j z hv
    induction hv with
    | root z h1 _ _ =>
      rw [hh] at h1
      omega
    | step z c _ hs hn ih =>
      rw [ih] at hs
      have := hnonode _ (get_offset_lt j (k.mem x))
      rw [hs, hn] at this
      exact absurd this (by simp)
  constructor
  · refine ⟨⟨?_, ?_, fun _ h => absurd h id, by rw [hslab]; exact hc.slab_align,
      by rw [hslab]; exact hc.slab_big⟩, ?_, fun _ h => absurd h id⟩
    · intro hn
      rw [hk'leaf] at hn
      exact absurd hn (by simp)
    · intro _
      rw [hhead]
      exact ⟨hni, fun _ h => h⟩
    · intro h0
      rw [hhead] at h0
      exact absurd h0 hs0
  · intro j w1 hj
    cases w1 with
    | head =>
      have := hj.1
      rw [hh, hxnode] at this
      exact absurd this (by simp)
    | bounds =>
      have hj0 : j ≠ 0 := by
        intro h0
        rcases hj with hj | hj
        · exact hj.2 h0
        · have := hj.2
          rw [h0] at this
          simp at this
      have hl' : Loc k' j Place.bounds := Or.inl ⟨hk'leaf, hj0⟩
      exact ⟨Place.bounds, hl', rfl, fun _ _ => rfl⟩
    | slot z r =>
      obtain ⟨v, cn, n⟩ := loc_slot_iff.1 hj
      obtain ⟨hz, hr64, _⟩ := loc_slot_facts hc hj
      have hzx := hvis j z v
      subst hzx
      have hb := visits_root_bound hc v hp
      rw [hsh] at hb
      simp only [Nat.shiftRight_zero] at hb
      have hraw : get_offset j (k.mem z) = j := by
        rw [get_offset_eq, hsh]
        simp only [Nat.shiftRight_zero]
        omega
      have hr : r = j := by
        rw [cn, hraw]
        unfold canon
        by_cases hj0 : j = 0
        · rw [hj0, not_internal_not_sibling _ hni]
          simp
        · rw [f1 j (by omega) hj0]
          simp [not_sibling_zero]
      by_cases hj0 : j = 0
      · have hl' : Loc k' j Place.head := ⟨hk'leaf, hj0⟩
        refine ⟨Place.head, hl', ?_, ?_⟩
        · show k'.xa_head = (k.mem z).slots r
          rw [hr, hj0]
          exact hhead
        · intro u hu
          show xa_tagged k' u = node_get_tag (k.mem z) r u
          rw [hr, hj0]
          exact hflag u hu
      · have hl' : Loc k' j Place.bounds := Or.inl ⟨hk'leaf, hj0⟩
        refine ⟨Place.bounds, hl', ?_, ?_⟩
        · show 0 = (k.mem z).slots r
          rw [hr, f1 j (by omega) hj0]
        · intro u hu
          show false = node_get_tag (k.mem z) r u
          rw [hr, f2 j u (by omega) hj0 hu]

theorem xas_shrink_step_node (k : Kernel) (x entry c : Nat) (hn : xa_is_node entry = true)
    (hc : c = entry - 2) (hxc : c ≠ x) :
    (xas_shrink_step k x entry).xa_head = entry ∧
    (xas_shrink_step k x entry).xa_flags = k.xa_flags ∧
    (xas_shrink_step k x entry).slab_next = k.slab_next ∧
    (xas_shrink_step k x entry).slab_grant = k.slab_grant ∧
    (∀ z, z ≠ x → z ≠ c → (xas_shrink_step k x entry).mem z = k.mem z) ∧
    ((xas_shrink_step k x entry).mem c).slots = (k.mem c).slots ∧
    ((xas_shrink_step k x entry).mem c).shift = (k.mem c).shift ∧
    ((xas_shrink_step k x entry).mem c).tags = (k.mem c).tags ∧
    ((xas_shrink_step k x entry).mem c).count = (k.mem c).count ∧
    ((xas_shrink_step k x entry).mem c).parent = 0 := by
  subst hc
  simp only [xas_shrink_step, hn, Bool.not_true, Bool.false_eq_true, if_false, xa_node_free,
    to_node_def, Kernel.setNode, if_true, if_neg hxc]
  refine ⟨trivial, trivial, trivial, trivial, ?_, trivial, trivial, trivial, trivial, trivial⟩
  intro z h1 h2
  simp [h1, h2]

theorem xas_shrink_step_leaf (k : Kernel) (x entry : Nat) (hn : xa_is_node entry = false) :
    (xas_shrink_step k x entry).xa_head = entry ∧
    (xas_shrink_step k x entry).xa_flags = k.xa_flags ∧
    (xas_shrink_step k x entry).slab_next = k.slab_next ∧
    (xas_shrink_step k x entry).slab_grant = k.slab_grant := by
  simp [xas_shrink_step, hn, xa_node_free, Kernel.setNode]

theorem xas_delete_node_unlink_spec (k : Kernel) (x p q : Nat) (hpx : p ≠ x) :
    (xas_delete_node_unlink (xa_node_free k x) p q).xa_head = k.xa_head ∧
    (xas_delete_node_unlink (xa_node_free k x) p q).xa_flags = k.xa_flags ∧
    (xas_delete_node_unlink (xa_node_free k x) p q).slab_next = k.slab_next ∧
    (xas_delete_node_unlink (xa_node_free k x) p q).slab_grant = k.slab_grant ∧
    (∀ z, z ≠ x → z ≠ p → (xas_delete_node_unlink (xa_node_free k x) p q).mem z = k.mem z) ∧
    ((xas_delete_node_unlink (xa_node_free k x) p q).mem p).slots =
      (fun i => if i = q then 0 else (k.mem p).slots i) ∧
    ((xas_delete_node_unlink (xa_node_free k x) p q).mem p).shift = (k.mem p).shift ∧
    ((xas_delete_node_unlink (xa_node_free k x) p q).mem p).parent = (k.mem p).parent ∧
    ((xas_delete_node_unlink (xa_node_free k x) p q).mem p).offset = (k.mem p).offset ∧
    ((xas_delete_node_unlink (xa_node_free k x) p q).mem p).tags = (k.mem p).tags ∧
    ((xas_delete_node_unlink (xa_node_free k x) p q).mem p).count =
      ((k.mem p).count + 255) % 256 := by
  simp only [xas_delete_node_unlink, xa_node_free, Kernel.setNode, if_true, if_neg hpx]
  refine ⟨trivial, trivial, trivial, trivial, ?_, trivial, trivial, trivial, trivial, trivial,
    trivial⟩
  intro z h1 h2
  simp [h1, h2]

/-- The loop of `xas_shrink` at a root node keeps the invariant and what every
index reads. -/
theorem xas_shrink_loop_spec :
    ∀ fuel k L xas x, Inv k L → L x → (k.mem x).parent = 0 →
      (k.mem x).shift + 6 ≤ 6 * fuel → xas.xa_node % 4 ≠ 2 →
      ∃ k' L' xas', xas_shrink_loop fuel k xas x = some (k', xas') ∧ Inv k' L' ∧ Sim k k' ∧
        k'.xa_flags = k.xa_flags ∧ k'.slab_grant = k.slab_grant ∧
        (NoMulti k L → NoMulti k' L') ∧ xas'.xa_alloc = xas.xa_alloc ∧
        xas'.xa_node % 4 ≠ 2 ∧
        (NoMulti k L → PostTight k L x → (k.mem x).count ≠ 0 → Tight k' L') := by
  intro fuel
  induction fuel with
  | zero => intro k L xas x _ _ _ hf; omega
  | succ f ih =>
    intro k L xas x hi hx hp hf hxn
    have hc := hi.core
    have hnx := hc.nodes x hx
    rw [xas_shrink_loop]
    simp only []
    by_cases hcnt : (k.mem x).count ≠ 1
    · rw [if_pos hcnt]
      exact ⟨k, L, xas, rfl, hi, sim_refl k, rfl, rfl, id, rfl, hxn, fun _ hpt h0 =>
        tight_of_post hpt ((nonEmpty_iff_count hc hx).2 h0)
          (fun _ _ => rootOK_of_count hc hx h0 (Or.inl hcnt))⟩
    rw [if_neg hcnt]
    simp only [ne_eq, not_not] at hcnt
    by_cases h0 : (k.mem x).slots 0 = 0
    · rw [if_pos h0]
      exact ⟨k, L, xas, rfl, hi, sim_refl k, rfl, rfl, id, rfl, hxn, fun _ hpt hc0 =>
        tight_of_post hpt ((nonEmpty_iff_count hc hx).2 hc0)
          (fun _ _ => rootOK_of_count hc hx hc0 (Or.inr h0))⟩
    rw [if_neg h0]
    by_cases hstop : (!xa_is_node ((k.mem x).slots 0) && decide ((k.mem x).shift ≠ 0)) = true
    · rw [if_pos hstop]
      refine ⟨k, L, xas, rfl, hi, sim_refl k, rfl, rfl, id, rfl, hxn, fun hm _ _ => ?_⟩
      exfalso
      simp only [Bool.and_eq_true, Bool.not_eq_true', decide_eq_true_eq] at hstop
      have := (hm x hx 0 (by omega)).2 hstop.2 h0
      rw [hstop.1] at this
      exact absurd this (by decide)
    rw [if_neg hstop]
    by_cases hn : xa_is_node ((k.mem x).slots 0) = true
    · rw [hn]
      simp only [Bool.not_true, Bool.false_eq_true, if_false, to_node_def]
      obtain ⟨e1, e2, e3⟩ := is_node_split _ hn
      have hcn : xa_is_node ((k.mem x).slots 0 - 2 + 2) = true := by
        rw [← e1]
        exact hn
      obtain ⟨c1, c2, c3⟩ := hnx.child 0 (by omega) hn
      have hcx : (k.mem x).slots 0 - 2 ≠ x := by
        intro h
        rw [h, hp] at c2
        have := hnx.big
        omega
      obtain ⟨s1, s2, s3, s4, s5, s6, s7, s8, s9, s10⟩ :=
        xas_shrink_step_node k x ((k.mem x).slots 0) _ hn rfl hcx
      generalize xas_shrink_step k x ((k.mem x).slots 0) = k1 at *
      have hi1 := inv_shrink_node hi hx hp hcnt e1 hcn (by rw [s1]; exact e1) s2 s3 s5 s6 s7 s8
        s9 s10
      have hs1 := sim_shrink_node hi hx hp hcnt e1 hcn (by rw [s1]; exact e1) s5 s6 s7 s8
      have hsh : (k.mem x).shift = (k.mem ((k.mem x).slots 0 - 2)).shift + 6 := by
        have := ((hc.nodes _ c1).up (by rw [c2]; have := hnx.big; omega)).2.2.2
        rw [c2] at this
        exact this
      obtain ⟨k', L', xas', r1, r2, r3, r4, r5, r6, r7, r8, r9⟩ :=
        ih k1 _ { xas with xa_node := XAS_BOUNDS } ((k.mem x).slots 0 - 2) hi1 ⟨c1, hcx⟩ s10
          (by rw [s7]; omega) (show XAS_BOUNDS % 4 ≠ 2 by decide)
      have hm1 : NoMulti k L → NoMulti k1 (fun z => L z ∧ z ≠ x) := by
        intro hm
        refine nomulti_sub hm (fun z hz => hz.1) ?_ ?_
        · intro z hz
          by_cases hzc : z = (k.mem x).slots 0 - 2
          · rw [hzc, s6]
          · rw [s5 z hz.2 hzc]
        · intro z hz
          by_cases hzc : z = (k.mem x).slots 0 - 2
          · rw [hzc, s7]
          · rw [s5 z hz.2 hzc]
      refine ⟨k', L', xas', r1, r2, sim_trans hs1 r3, by rw [r4, s2], by rw [r5, s4],
        fun hm => r6 (hm1 hm), r7, r8, ?_⟩
      intro hm hpt _
      refine r9 (hm1 hm) (posttight_shrink_node (by rw [s1]; exact e1) s5 hpt) ?_
      rw [s9]
      exact (nonEmpty_iff_count hc c1).1 (hpt.1 _ c1 hcx)
    · simp only [Bool.not_eq_true] at hn
      rw [hn]
      simp only [Bool.not_false, if_true]
      have hsh : (k.mem x).shift = 0 := by
        by_contra h
        apply hstop
        simp [hn, h]
      obtain ⟨s1, s2, s3, s4⟩ := xas_shrink_step_leaf k x ((k.mem x).slots 0) hn
      generalize xas_shrink_step k x ((k.mem x).slots 0) = k1 at *
      obtain ⟨a, b⟩ := inv_shrink_leaf hi hx hp hcnt hsh h0 hn s1 s2 s3
      refine ⟨k1, _, _, rfl, a, b, s2, s4, fun _ z hz => absurd hz id, rfl,
        show XAS_BOUNDS % 4 ≠ 2 by decide, fun _ _ _ => ⟨fun z hz => absurd hz id, ?_⟩⟩
      intro hq
      rw [s1, hn] at hq
      exact absurd hq (by decide)

/-- The first loop of `xas_delete_node` keeps the invariant and what every index reads. -/
theorem xas_delete_node_loop_spec :
    ∀ fuel k L xas x, Inv k L → L x → 66 ≤ (k.mem x).shift + 6 * fuel → xas.xa_node = x →
      ∃ k' L' xas' r, xas_delete_node_loop fuel k xas x = some (k', xas', r) ∧ Inv k' L' ∧
        Sim k k' ∧ k'.xa_flags = k.xa_flags ∧ k'.slab_grant = k.slab_grant ∧
        (NoMulti k L → NoMulti k' L') ∧ xas'.xa_alloc = xas.xa_alloc ∧
        (r = none → xas'.xa_node = XAS_BOUNDS) ∧
        (∀ nd, r = some nd → L' nd ∧ xas'.xa_node = nd) ∧
        (PostTight k L x → (r = none → Tight k' L') ∧
          (∀ nd, r = some nd → PostTight k' L' nd ∧ (k'.mem nd).count ≠ 0)) := by
  intro fuel
  induction fuel with
  | zero =>
    intro k L xas x hi hx hf _
    have := (hi.core.nodes x hx).shift_le
    omega
  | succ f ih =>
    intro k L xas x hi hx hf hxn
    have hc := hi.core
    have hnx := hc.nodes x hx
    rw [xas_delete_node_loop]
    by_cases hcnt : (k.mem x).count ≠ 0
    · rw [if_pos hcnt]
      refine ⟨k, L, xas, some x, rfl, hi, sim_refl k, rfl, rfl, id, rfl,
        fun h => Option.noConfusion h, ?_, ?_⟩
      · intro nd h
        simp only [Option.some.injEq] at h
        rw [← h]
        exact ⟨hx, hxn⟩
      · intro hpt
        refine ⟨fun h => Option.noConfusion h, ?_⟩
        intro nd h
        simp only [Option.some.injEq] at h
        rw [← h]
        exact ⟨hpt, hcnt⟩
    rw [if_neg hcnt]
    simp only [ne_eq, not_not] at hcnt
    simp only [xa_parent]
    by_cases hp : (k.mem x).parent = 0
    · rw [if_pos hp]
      obtain ⟨a, b⟩ := @inv_drop_root k ({ xa_node_free k x with xa_head := 0 }) L x hi hx hcnt hp
        rfl rfl rfl
      exact ⟨_, _, _, none, rfl, a, b, rfl, rfl, fun _ z hz => absurd hz id, rfl, fun _ => rfl,
        fun nd h => Option.noConfusion h, fun _ =>
          ⟨fun _ => ⟨fun z hz => absurd hz id,
              fun hq => absurd hq (show ¬ xa_is_node 0 = true by decide)⟩,
            fun nd h => Option.noConfusion h⟩⟩
    · rw [if_neg hp]
      obtain ⟨u1, u2, u3, u4⟩ := hnx.up hp
      have hpx : (k.mem x).parent ≠ x := by
        intro h
        rw [h] at u4
        omega
      obtain ⟨s1, s2, s3, s4, s5, s6, s7, s8, s9, s10, s11⟩ :=
        xas_delete_node_unlink_spec k x (k.mem x).parent (k.mem x).offset hpx
      generalize xas_delete_node_unlink (xa_node_free k x) (k.mem x).parent (k.mem x).offset =
        k1 at *
      have hi1 := inv_unlink hi hx hcnt hp rfl rfl s1 s2 s3 s5 s6 s7 s8 s9 s10 s11
      have hs1 := sim_unlink hi hx hcnt hp rfl rfl s1 s2 s5 s6 s7 s10
      obtain ⟨k', L', xas', r, r1, r2, r3, r4, r5, r6, r7, r8, r9, r10⟩ :=
        ih k1 _ { xas with xa_node := (k.mem x).parent, xa_offset := (k.mem x).offset }
          (k.mem x).parent hi1 ⟨u1, hpx⟩ (by rw [s7, u4]; omega) rfl
      refine ⟨k', L', xas', r, r1, r2, sim_trans hs1 r3, by rw [r4, s2], by rw [r5, s4], ?_, r7,
        r8, r9, fun hpt => r10 (posttight_unlink hc hp s1 s5 hpt)⟩
      intro hm
      exact r6 (nomulti_unlink hm s5 s6 s7)

/-- `xas_delete_node` at a live node keeps the invariant and what every index reads. -/
theorem xas_delete_node_spec {k : Kernel} {L : Nat → Prop} (hi : Inv k L) (fuel : Nat)
    (xas : xa_state) (hx : L xas.xa_node) (hf : 12 ≤ fuel) :
    ∃ k' L' xas', xas_delete_node fuel k xas = some (k', xas') ∧ Inv k' L' ∧ Sim k k' ∧
      k'.xa_flags = k.xa_flags ∧ k'.slab_grant = k.slab_grant ∧
      (NoMulti k L → NoMulti k' L') ∧ xas'.xa_alloc = xas.xa_alloc ∧
      xas'.xa_node % 4 ≠ 2 ∧
      (NoMulti k L → PostTight k L xas.xa_node → Tight k' L') := by
  obtain ⟨k1, L1, xas1, r, r1, r2, r3, r4, r5, r6, r7, r8, r9, r10⟩ :=
    xas_delete_node_loop_spec fuel k L xas xas.xa_node hi hx (by omega) rfl
  unfold xas_delete_node
  rw [r1]
  cases r with
  | none =>
    refine ⟨k1, L1, xas1, rfl, r2, r3, r4, r5, r6, r7, ?_, fun _ hpt => (r10 hpt).1 rfl⟩
    rw [r8 rfl]
    decide
  | some nd =>
    obtain ⟨hnd, hxn⟩ := r9 nd rfl
    have hnn := r2.core.nodes nd hnd
    simp only []
    by_cases hp : (k1.mem nd).parent = 0
    · rw [if_pos hp]
      unfold xas_shrink
      rw [hxn]
      obtain ⟨k', L', xas', s1, s2, s3, s4, s5, s6, s7, s8, s9⟩ :=
        xas_shrink_loop_spec fuel k1 L1 xas1 nd r2 hnd hp (by have := hnn.shift_le; omega)
          (by rw [hxn]; have := hnn.align; omega)
      exact ⟨k', L', xas', s1, s2, sim_trans r3 s3, by rw [s4, r4], by rw [s5, r5],
        fun hm => s6 (r6 hm), by rw [s7, r7], s8,
        fun hm hpt => s9 (r6 hm) ((r10 hpt).2 nd rfl).1 ((r10 hpt).2 nd rfl).2⟩
    · rw [if_neg hp]
      refine ⟨k1, L1, xas1, rfl, r2, r3, r4, r5, r6, r7, ?_, ?_⟩
      · rw [hxn]
        have := hnn.align
        omega
      · intro _ hpt
        obtain ⟨p1, p2⟩ := (r10 hpt).2 nd rfl
        refine tight_of_post p1 ((nonEmpty_iff_count r2.core hnd).2 p2) ?_
        intro hq hroot
        have := (r2.core.head_node hq).2
        rw [hroot] at this
        exact absurd this hp

theorem simOff_of_null {k : Kernel} {L : Nat → Prop} (hi : Inv k L) {w : Place}
    (h0 : entry_at k w = 0) : SimOff k k w := by
  intro j w1 hj
  refine ⟨w1, hj, ?_, fun _ => ⟨rfl, fun _ _ => rfl⟩⟩
  intro h
  subst h
  refine ⟨h0, ?_⟩
  intro u hu
  cases hb : tag_at k u w1
  · rfl
  · exact absurd h0 (tag_at_entry hi hu hj hb)

/-- Clearing the head entry of an array without nodes, once its tags are clear. -/
theorem inv_clear_head {k k' : Kernel} {L : Nat → Prop} (hi : Inv k L)
    (hleaf : xa_is_node k.xa_head = false) (htag : ∀ u, u < 3 → xa_tagged k u = false)
    (hhead : k'.xa_head = 0) (hflags : k'.xa_flags = k.xa_flags)
    (hslab : k'.slab_next = k.slab_next) :
    Inv k' L ∧ SimOff k k' Place.head := by
  have hc := hi.core
  have hnoL := (hc.head_leaf hleaf).2
  have hk'leaf : xa_is_node k'.xa_head = false := by
    rw [hhead]
    decide
  constructor
  · refine ⟨⟨?_, ?_, fun x hx => absurd hx (hnoL x), by rw [hslab]; exact hc.slab_align,
      by rw [hslab]; exact hc.slab_big⟩, ?_, fun x hx => absurd hx (hnoL x)⟩
    · intro hn
      rw [hk'leaf] at hn
      exact absurd hn (by simp)
    · intro _
      rw [hhead]
      exact ⟨by decide, hnoL⟩
    · intro _ u hu
      rw [xa_tagged_congr u hflags]
      exact htag u hu
  · intro j w1 hj
    cases w1 with
    | head =>
      have hl' : Loc k' j Place.head := ⟨hk'leaf, hj.2⟩
      refine ⟨Place.head, hl', fun _ => ⟨hhead, ?_⟩, fun h => absurd rfl h⟩
      intro u hu
      show xa_tagged k' u = false
      rw [xa_tagged_congr u hflags]
      exact htag u hu
    | bounds =>
      have hj0 : j ≠ 0 := by
        rcases hj with hj | hj
        · exact hj.2
        · have := hj.1
          rw [hleaf] at this
          exact absurd this (by simp)
      have hl' : Loc k' j Place.bounds := Or.inl ⟨hk'leaf, hj0⟩
      exact ⟨Place.bounds, hl', fun h => Place.noConfusion h, fun _ => ⟨rfl, fun _ _ => rfl⟩⟩
    | slot z r =>
      exact absurd (loc_slot_facts hc hj).1 (hnoL z)

theorem entry_at_tagOnly {k k' : Kernel} (h : TagOnly k k') (w : Place) :
    entry_at k' w = entry_at k w := by
  cases w with
  | head => exact h.head
  | bounds => rfl
  | slot z r =>
    show (k'.mem z).slots r = (k.mem z).slots r
    rw [h.slots]

theorem simOff_of_tagOnly {k kT k' : Kernel} {w : Place} (h : TagOnly k kT)
    (hfr : ∀ u w' j, Loc k j w' → w' ≠ w → u < 3 → tag_at kT u w' = tag_at k u w')
    (hs : SimOff kT k' w) : SimOff k k' w := by
  intro j w1 hj
  obtain ⟨w2, h1, h2, h3⟩ := hs j w1 (sameShape_loc (tagOnly_sameShape h) hj)
  refine ⟨w2, h1, h2, ?_⟩
  intro hne
  obtain ⟨e1, e2⟩ := h3 hne
  refine ⟨by rw [e1, entry_at_tagOnly h], ?_⟩
  intro u hu
  rw [e2 u hu, hfr u w1 j hj hne hu]

theorem nomulti_tagOnly {k k' : Kernel} {L : Nat → Prop} (h : TagOnly k k')
    (hm : NoMulti k L) : NoMulti k' L :=
  nomulti_sub hm (fun _ hz => hz) (fun z _ => h.slots z) (fun z _ => h.shift z)

theorem sibFrame_refl (k : Kernel) : SibFrame k k := fun _ _ _ => rfl

theorem sibFrame_trans {k1 k2 k3 : Kernel} (a : SibFrame k1 k2) (b : SibFrame k2 k3) :
    SibFrame k1 k3 := by
  intro z q h
  have h1 := b z q h
  rw [h1] at h ⊢
  exact a z q h

theorem sibFrame_of_slots {k k' : Kernel}
    (h : ∀ z q, (k'.mem z).slots q = (k.mem z).slots q ∨ (k'.mem z).slots q = 0 ∨
      (k'.mem z).slots q = XA_RETRY_ENTRY) : SibFrame k k' := by
  intro z q hs
  rcases h z q with h1 | h1 | h1
  · exact h1
  · rw [h1] at hs
    exact absurd hs (by decide)
  · rw [h1] at hs
    exact absurd hs (by decide)

theorem xas_shrink_step_sibs (k : Kernel) (node entry : Nat) :
    SibFrame k (xas_shrink_step k node entry) := by
  apply sibFrame_of_slots
  intro z q
  simp only [xas_shrink_step, xa_node_free, Kernel.setNode]
  by_cases hn : xa_is_node entry = true <;> by_cases hz : z = node <;>
    by_cases hz2 : z = xa_to_node entry <;> by_cases hq : q = 0 <;>
    simp [hn, hz, hz2, hq] <;> simp_all

theorem xas_shrink_loop_sibs :
    ∀ fuel k xas node k' xas', xas_shrink_loop fuel k xas node = some (k', xas') →
      SibFrame k k' := by
  intro fuel
  induction fuel with
  | zero => intro k xas node k' xas' h; simp [xas_shrink_loop] at h
  | succ f ih =>
    intro k xas node k' xas' h
    rw [xas_shrink_loop] at h
    simp only [] at h
    split_ifs at h with h1 h2 h3 h4
    · simp only [Option.some.injEq, Prod.mk.injEq] at h
      rw [← h.1]
      exact sibFrame_refl k
    · simp only [Option.some.injEq, Prod.mk.injEq] at h
      rw [← h.1]
      exact sibFrame_refl k
    · simp only [Option.some.injEq, Prod.mk.injEq] at h
      rw [← h.1]
      exact sibFrame_refl k
    · simp only [Option.some.injEq, Prod.mk.injEq] at h
      rw [← h.1]
      exact xas_shrink_step_sibs _ _ _
    · exact sibFrame_trans (xas_shrink_step_sibs _ _ _) (ih _ _ _ _ _ h)

theorem xas_delete_node_loop_sibs :
    ∀ fuel k xas node k' xas' r, xas_delete_node_loop fuel k xas node = some (k', xas', r) →
      SibFrame k k' := by
  intro fuel
  induction fuel with
  | zero => intro k xas node k' xas' r h; simp [xas_delete_node_loop] at h
  | succ f ih =>
    intro k xas node k' xas' r h
    rw [xas_delete_node_loop] at h
    simp only [] at h
    split_ifs at h with h1 h2
    · simp only [Option.some.injEq, Prod.mk.injEq] at h
      rw [← h.1]
      exact sibFrame_refl k
    · simp only [Option.some.injEq, Prod.mk.injEq] at h
      rw [← h.1]
      apply sibFrame_of_slots
      intro z q
      simp only [xa_node_free, Kernel.setNode]
      by_cases hz : z = node <;> simp [hz]
    · refine sibFrame_trans ?_ (ih _ _ _ _ _ _ h)
      apply sibFrame_of_slots
      intro z q
      simp only [xas_delete_node_unlink, xa_node_free, Kernel.setNode, xa_parent]
      by_cases hz : z = node <;> by_cases hz2 : z = (k.mem node).parent <;>
        by_cases hq : q = (k.mem node).offset <;> simp [hz, hz2, hq] <;> simp_all

theorem xas_delete_node_sibs (fuel : Nat) (k : Kernel) (xas : xa_state) (k' : Kernel)
    (xas' : xa_state) (h : xas_delete_node fuel k xas = some (k', xas')) : SibFrame k k' := by
  unfold xas_delete_node at h
  cases hl : xas_delete_node_loop fuel k xas xas.xa_node with
  | none => rw [hl] at h; simp at h
  | some r =>
    obtain ⟨k1, xas1, r1⟩ := r
    have f1 := xas_delete_node_loop_sibs fuel k xas xas.xa_node k1 xas1 r1 hl
    rw [hl] at h
    cases r1 with
    | none =>
      simp only [Option.some.injEq, Prod.mk.injEq] at h
      rw [← h.1]
      exact f1
    | some nd =>
      simp only [] at h
      split_ifs at h
      · exact sibFrame_trans f1 (xas_shrink_loop_sibs _ _ _ _ _ _ h)
      · simp only [Option.some.injEq, Prod.mk.injEq] at h
        rw [← h.1]
        exact f1

/-- The part of `xas_store` after the walk, for a `NULL` entry and a
single-index cursor that has been walked to its place. -/
theorem xas_store_tail_null {k : Kernel} {L : Nat → Prop} (hi : Inv k L)
    (i fuel : Nat) (xas : xa_state) (w : Place) (hl : Loc k i w)
    (hnode : xas.xa_node = w.node) (hoff : xas.xa_offset = w.offset) (hsib : xas.xa_sibs = 0)
    (hf : 64 ≤ fuel) :
    ∃ k' L' xas', xas_store_tail fuel k xas (entry_at k w) 0 = some (k', xas', entry_at k w) ∧
      Inv k' L' ∧ SimOff k k' w ∧ k'.slab_grant = k.slab_grant ∧
      (NoMulti k L → NoMulti k' L') ∧ xas'.xa_alloc = xas.xa_alloc ∧
      xas'.xa_node % 4 ≠ 2 ∧ NoSibTo k' w ∧
      (NoMulti k L → Tight k L → Tight k' L') := by
  have hc := hi.core
  obtain ⟨f, rfl⟩ : ∃ f, fuel = f + 1 := ⟨fuel - 1, by omega⟩
  cases w with
  | bounds =>
    have hn0 : xas.xa_node = 1 := hnode
    have hinv : xas_invalid xas = true := by
      simp [xas_invalid, hn0]
    unfold xas_store_tail
    simp only [hinv, if_true]
    exact ⟨k, L, xas, rfl, hi, simOff_of_null hi rfl, rfl, id, rfl, by rw [hn0]; decide,
      fun _ _ h => Place.noConfusion h, fun _ h => h⟩
  | head =>
    have hn0 : xas.xa_node = 0 := hnode
    have hinv : xas_invalid xas = false := xas_invalid_node xas (by rw [hn0])
    have hleaf := hl.1
    unfold xas_store_tail
    simp only [hinv, Bool.false_eq_true, if_false, hn0, ne_eq, not_true, false_and, hsib,
      and_true, entry_at, if_true]
    by_cases hfe : k.xa_head = 0
    · rw [if_pos hfe]
      exact ⟨k, L, xas, rfl, hi, simOff_of_null hi hfe, rfl, id, rfl, by rw [hn0]; decide,
        fun _ _ h => Place.noConfusion h, fun _ h => h⟩
    · rw [if_neg hfe]
      obtain ⟨kT, t1, t2, t3, t4, t5⟩ :=
        xas_init_tags_spec hi i (f + 1) xas Place.head hl hnode hoff (by omega)
      rw [t1]
      simp only []
      rw [xas_store_loop, slot_store_head]
      simp only [hleaf, Bool.false_eq_true, if_false, if_true, update_node, true_or]
      have hleafT : xa_is_node kT.xa_head = false := by
        rw [t3.head]
        exact hleaf
      obtain ⟨a, b⟩ := @inv_clear_head kT ({ kT with xa_head := 0 }) L t2 hleafT
        (fun u hu => t4 u hu) rfl rfl rfl
      exact ⟨_, L, xas, rfl, a, simOff_of_tagOnly t3 t5 b, t3.grant,
        fun hm => nomulti_sub hm (fun _ hz => hz) (fun z _ => t3.slots z)
          (fun z _ => t3.shift z), rfl, by rw [hn0]; decide, fun _ _ h => Place.noConfusion h,
        fun _ _ => ⟨fun z hz => absurd hz ((hc.head_leaf hleaf).2 z),
          fun hq => absurd hq (show ¬ xa_is_node 0 = true by decide)⟩⟩
  | slot y o =>
    have hn0 : xas.xa_node = y := hnode
    have ho : xas.xa_offset = o := hoff
    obtain ⟨hy0, hyal⟩ := loc_slot_nonzero_node hc hl
    obtain ⟨hy, ho64, hold⟩ := loc_slot_facts hc hl
    have hinv : xas_invalid xas = false := xas_invalid_node xas (by rw [hn0]; exact hyal)
    have hfn : xa_is_node ((k.mem y).slots o) = false := not_internal_not_node _ hold
    have hny := hc.nodes y hy
    unfold xas_store_tail
    simp only [hinv, Bool.false_eq_true, if_false]
    generalize hX : (if xas.xa_node ≠ 0 ∧ xas.xa_shift < (k.mem xas.xa_node).shift then
      ({ xas with xa_sibs := 0 } : xa_state) else xas) = X
    have hXs : X.xa_sibs = 0 ∧ X.xa_offset = o ∧ X.xa_alloc = xas.xa_alloc ∧
        X.xa_node = xas.xa_node := by
      rw [← hX]
      split_ifs
      · exact ⟨rfl, ho, rfl, rfl⟩
      · exact ⟨hsib, ho, rfl, rfl⟩
    obtain ⟨x1, x2, x3, x4⟩ := hXs
    rw [hn0] at x4 ⊢
    simp only [x1, and_true, ne_eq, not_true, and_false, if_false, x2, Nat.add_zero, entry_at]
    by_cases hfe : (k.mem y).slots o = 0
    · rw [if_pos hfe]
      refine ⟨k, L, X, rfl, hi, simOff_of_null hi hfe, rfl, id, x3, by rw [x4]; omega, ?_,
        fun _ h => h⟩
      intro y' o' hw q hq hs hto
      obtain ⟨rfl, rfl⟩ := Place.slot.inj hw
      obtain ⟨_, _, _, c4, _⟩ := hny.sib q hq (sibling_internal _ hs) (sibling_ne_zero _ hs).2
      rw [hto] at c4
      exact c4 hfe
    · rw [if_neg hfe, if_pos trivial, if_pos hy0]
      obtain ⟨kT, t1, t2, t3, t4, t5⟩ :=
        xas_init_tags_spec hi i (f + 1) X (Place.slot y o) hl x4 x2 (by omega)
      rw [t1]
      simp only []
      have hsl : (kT.mem y).slots = (k.mem y).slots := t3.slots y
      obtain ⟨m, kS, v', r1, r2, r3, r4, r5, r6⟩ :=
        xas_store_loop_null (f + 1) X y o (xa_is_value 0) hy0 (f + 1) kT o ((k.mem y).slots o)
          ((k.mem y).slots o) 0 0 (le_refl o) (by omega) hfn hfe (by omega)
      rw [r4]
      simp only []
      have hcne : ¬ (y = 0 ∨ ((0 : Int) - ((m : Int) + 1) = 0 ∧ v' = 0)) := by
        intro h
        rcases h with h | h
        · exact hy0 h
        · omega
      unfold update_node
      rw [if_neg hcne]
      simp only []
      rw [if_pos (by omega)]
      generalize hkU : kS.setNode y { kS.mem y with
        count := ((((kS.mem y).count : Int) + (0 - ((m : Int) + 1))) % 256).toNat,
        nr_values := ((((kS.mem y).nr_values : Int) + v') % 256).toNat } = kU
      have m_y : kU.mem y = { kS.mem y with
          count := ((((kS.mem y).count : Int) + (0 - ((m : Int) + 1))) % 256).toNat,
          nr_values := ((((kS.mem y).nr_values : Int) + v') % 256).toNat } := by
        rw [← hkU]
        simp
      have m_o : ∀ z, z ≠ y → kU.mem z = kT.mem z := by
        intro z hz
        rw [← hkU]
        simp [hz, r5.mem z hz]
      have hholdT : xa_is_internal ((kT.mem y).slots o) = false := by
        rw [hsl]
        exact hold
      have hslU : (kU.mem y).slots =
          fun j => if o ≤ j ∧ j ≤ o + m then 0 else (kT.mem y).slots j := by
        rw [m_y]
        exact r6
      have hnz : ∀ j, o ≤ j → j ≤ o + m → (kT.mem y).slots j ≠ 0 := by
        intro j h1 h2
        by_cases hjo : j = o
        · rw [hjo, hsl]
          exact hfe
        · exact (sibling_ne_zero _ (r2 j (by omega) h2)).1
      have hcl := count_upto_clear (kT.mem y).slots o m 64 hnz (by omega)
      have hle := count_upto_le (kT.mem y).slots 64
      have hcU : (kU.mem y).count = count_upto (kU.mem y).slots 64 := by
        rw [hslU, m_y]
        simp only
        rw [r5.count, (t2.core.nodes y hy).count]
        omega
      have htagT : ∀ u, u < 3 → node_get_tag (kT.mem y) o u = false := fun u hu => t4 u hu
      have hhU : kU.xa_head = kT.xa_head := by
        rw [← hkU]
        exact r5.head
      have hfU : kU.xa_flags = kT.xa_flags := by
        rw [← hkU]
        exact r5.flags
      have hiU : Inv kU L :=
        inv_clear t2 hy hholdT r2 r3 htagT hhU hfU (by rw [← hkU]; exact r5.next) m_o hslU
          (by rw [m_y]; exact r5.shift) (by rw [m_y]; exact r5.parent)
          (by rw [m_y]; exact r5.offset) (by rw [m_y]; exact r5.tags) hcU
      have hsU : SimOff kT kU (Place.slot y o) :=
        simOff_clear t2 hy hholdT r2 r3 htagT hhU hfU m_o hslU (by rw [m_y]; exact r5.shift)
          (by rw [m_y]; exact r5.tags)
      obtain ⟨k', L', xas', d1, d2, d3, d4, d5, d6, d7, d8, d9⟩ :=
        xas_delete_node_spec hiU (f + 1) X (by rw [x4]; exact hy) (by omega)
      rw [d1]
      have hfr := xas_delete_node_sibs _ _ _ _ _ d1
      refine ⟨k', L', xas', rfl, d2, simOff_of_tagOnly t3 t5 (simOff_trans hsU d3), ?_, ?_,
        by rw [d7, x3], d8, ?_, fun hm ht =>
          d9 (nomulti_clear (nomulti_tagOnly t3 hm) m_o hslU (by rw [m_y]; exact r5.shift))
            (by
              rw [x4]
              exact posttight_of_tight (tight_tagOnly ht t3) hhU
                (fun z hz => by rw [m_o z hz]))⟩
      rotate_left 2
      · intro y' o' hw q hq hs
        obtain ⟨rfl, rfl⟩ := Place.slot.inj hw
        have e1 := hfr y q hs
        rw [e1] at hs ⊢
        rw [hslU] at hs ⊢
        by_cases hrun : o ≤ q ∧ q ≤ o + m
        · simp only [if_pos hrun] at hs
          exact absurd hs (by decide)
        · simp only [if_neg hrun] at hs ⊢
          rw [hsl] at hs r2 r3 ⊢
          intro hto
          have := (run_target hny hold r2 r3 q hq hs).2 hrun
          rw [hto] at this
          exact this ⟨le_refl _, by omega⟩
      · rw [d5, ← hkU]
        exact r5.grant.trans t3.grant
      · intro hm
        exact d6 (nomulti_clear (nomulti_tagOnly t3 hm) m_o hslU (by rw [m_y]; exact r5.shift))

theorem xas_error_plain (xas : xa_state) (h : xas.xa_node % 4 ≠ 2) : xas_error xas = 0 := by
  have : xa_is_internal xas.xa_node = false := by
    cases hq : xa_is_internal xas.xa_node
    · rfl
    · rw [xa_is_internal_iff] at hq
      omega
  simp [xas_error, xa_err, xa_is_err, this]

theorem xas_nomem_plain (k : Kernel) (xas : xa_state) (gfp : Nat) (h4 : xas.xa_node % 4 ≠ 2)
    (ha : xas.xa_alloc = 0) : xas_nomem k xas gfp = (k, xas, false) := by
  have hne : xas.xa_node ≠ XA_ERROR (-ENOMEM) := by
    intro h
    have := xa_error_enomem_mod
    rw [← h] at this
    omega
  simp [xas_nomem, hne, xas_destroy, ha]

theorem xas_result_plain (xas : xa_state) (c : Nat) (h4 : xas.xa_node % 4 ≠ 2) :
    xas_result xas c = c := by
  simp [xas_result, xas_error_plain xas h4]

/-- `xas_load` with a cursor that has been walked already ends at the same place. -/
theorem xas_load_again {k : Kernel} {L : Nat → Prop} (hc : Core k L) {i : Nat} {w : Place}
    {xas : xa_state} (hw : Walked k i w xas) (fuel : Nat) (hf : 1 ≤ fuel) :
    ∃ xas', xas_load fuel k xas = some (xas', entry_at k w) ∧ Walked k i w xas' := by
  obtain ⟨hl, hnode, hoff, hs0, hsib, ha, hidx⟩ := hw
  obtain ⟨f, rfl⟩ : ∃ f, fuel = f + 1 := ⟨fuel - 1, by omega⟩
  unfold xas_load
  cases w with
  | head =>
    have hn0 : xas.xa_node = 0 := hnode
    have hv : xas_valid xas = true := by
      simp [xas_valid, xas_invalid_node xas (by rw [hn0])]
    simp only [xas_start, hv, if_true, xas_reload, hn0, ne_eq, not_true, if_false, xa_head]
    rw [xas_load_loop_leaf _ _ _ _ hl.1 (by omega)]
    exact ⟨xas, rfl, ⟨hl, hnode, hoff, hs0, hsib, ha, hidx⟩⟩
  | slot y o =>
    have hn0 : xas.xa_node = y := hnode
    have ho : xas.xa_offset = o := hoff
    obtain ⟨hy0, hyal⟩ := loc_slot_nonzero_node hc hl
    obtain ⟨_, _, hold⟩ := loc_slot_facts hc hl
    have hv : xas_valid xas = true := by
      simp [xas_valid, xas_invalid_node xas (by rw [hn0]; exact hyal)]
    simp only [xas_start, hv, if_true, xas_reload, hn0, ne_eq, hy0, not_false_eq_true,
      xa_entry, ho]
    rw [xas_load_loop_leaf _ _ _ _ (not_internal_not_node _ hold) (by omega)]
    exact ⟨xas, rfl, ⟨hl, hnode, hoff, hs0, hsib, ha, hidx⟩⟩
  | bounds =>
    have hn0 : xas.xa_node = 1 := hnode
    have hix : xas.xa_index = i := hidx (Or.inl rfl)
    have hv : xas_valid xas = false := by
      simp [xas_valid, xas_invalid, hn0]
    have he : xas_error xas = 0 := xas_error_plain xas (by rw [hn0]; decide)
    have hx : ({ xas with xa_node := XAS_BOUNDS } : xa_state) = xas := by
      cases xas
      simp only [xa_state.mk.injEq, true_and] at hn0 ⊢
      simp [hn0]
    have hst : xas_start k xas = (xas, 0) := by
      unfold xas_start set_bounds
      rw [hx, hv, he, hix]
      simp only [Bool.false_eq_true, if_false, ne_eq, not_true, xa_head]
      rcases hl with hl | hl
      · simp [hl.1, hl.2]
      · have h2 := hl.2
        rw [← to_node_def] at h2
        simp [hl.1, h2]
    rw [hst]
    simp only []
    rw [xas_load_loop_leaf _ _ _ _ (by decide) (by omega)]
    exact ⟨xas, rfl, ⟨hl, hnode, hoff, hs0, hsib, ha, hidx⟩⟩

/-- `xas_store` of `NULL`, with a fresh cursor or one that has been walked to
the place of its index. -/
theorem xas_store_null {k : Kernel} {L : Nat → Prop} (hi : Inv k L) (i fuel : Nat)
    (xas : xa_state) (w0 : Place) (hl0 : Loc k i w0)
    (hcur : xas = XA_STATE i ∨ Walked k i w0 xas) (hf : 64 ≤ fuel) :
    ∃ k' L' xas', xas_store fuel k xas 0 = some (k', xas', entry_at k w0) ∧
      Inv k' L' ∧ SimOff k k' w0 ∧ k'.slab_grant = k.slab_grant ∧
      (NoMulti k L → NoMulti k' L') ∧ xas'.xa_alloc = 0 ∧ xas'.xa_node % 4 ≠ 2 ∧
      NoSibTo k' w0 ∧ (NoMulti k L → Tight k L → Tight k' L') := by
  have hld : ∃ xas1, xas_load fuel k xas = some (xas1, entry_at k w0) ∧ Walked k i w0 xas1 := by
    rcases hcur with hcur | hcur
    · subst hcur
      obtain ⟨w, xas', h1, h2⟩ := xas_load_walked hi.core i fuel (by omega)
      have hw : w = w0 := loc_unique hi.core h2.loc hl0
      subst hw
      exact ⟨xas', h1, h2⟩
    · exact xas_load_again hi.core hcur fuel (by omega)
  obtain ⟨xas1, l1, l2⟩ := hld
  obtain ⟨k', L', xas', t1, t2, t3, t4, t5, t6, t7, t8, t9⟩ :=
    xas_store_tail_null hi i fuel xas1 w0 hl0 l2.node l2.offset l2.sibs hf
  refine ⟨k', L', xas', ?_, t2, t3, t4, t5, by rw [t6, l2.alloc], t7, t8, t9⟩
  unfold xas_store
  rw [if_neg (by simp), l1]
  exact t1

/-- `xa_store` of `NULL`, that is `xa_erase`. -/
theorem xa_store_null {k : Kernel} {L : Nat → Prop} (hi : Inv k L) (i gfp fuel : Nat)
    (w0 : Place) (hl0 : Loc k i w0) (hf : 64 ≤ fuel) :
    ∃ k' L', xa_store fuel k i 0 gfp = some (k', entry_at k w0) ∧
      Inv k' L' ∧ SimOff k k' w0 ∧ k'.slab_grant = k.slab_grant ∧
      (NoMulti k L → NoMulti k' L') ∧ NoSibTo k' w0 ∧
      (NoMulti k L → Tight k L → Tight k' L') := by
  obtain ⟨k', L', xas', s1, s2, s3, s4, s5, s6, s7, s8, s9⟩ :=
    xas_store_null hi i fuel (XA_STATE i) w0 hl0 (Or.inl rfl) hf
  refine ⟨k', L', ?_, s2, s3, s4, s5, s8, s9⟩
  obtain ⟨f, rfl⟩ : ∃ f, fuel = f + 1 := ⟨fuel - 1, by omega⟩
  unfold xa_store
  rw [show xa_is_internal 0 = false by decide]
  simp only [Bool.false_eq_true, if_false]
  rw [xa_store_loop, s1]
  simp only [xas_nomem_plain k' xas' gfp s7 s6, Bool.false_eq_true, if_false,
    xas_result_plain xas' _ s7]

theorem place_node_plain {k : Kernel} {L : Nat → Prop} (hc : Core k L) {i : Nat} {w : Place}
    (hl : Loc k i w) : w.node % 4 ≠ 2 := by
  cases w with
  | head => decide
  | bounds => decide
  | slot y o =>
    have := (loc_slot_nonzero_node hc hl).2
    show y % 4 ≠ 2
    omega

/-- `xa_cmpxchg` when the allocations succeed. -/
theorem xa_cmpxchg_spec {k : Kernel} {L : Nat → Prop} (hi : Inv k L) (hg : AllocOK k)
    (i old e gfp fuel : Nat) (w0 : Place) (hi64 : i < 2 ^ 64) (hl0 : Loc k i w0)
    (he : xa_is_internal e = false) (hf : 64 ≤ fuel) :
    ∃ k' L', xa_cmpxchg fuel k i old e gfp = some (k', entry_at k w0) ∧ Inv k' L' ∧
      AllocOK k' ∧ (entry_at k w0 ≠ old → k' = k) ∧
      (entry_at k w0 = old → ∃ w, Loc k' i w ∧ entry_at k' w = e) ∧
      (NoMulti k L → NoMulti k' L') := by
  have hc := hi.core
  obtain ⟨w, xas1, l1, l2⟩ := xas_load_walked hc i fuel (by omega)
  have hw : w = w0 := loc_unique hc l2.loc hl0
  subst hw
  obtain ⟨f, rfl⟩ : ∃ f, fuel = f + 1 := ⟨fuel - 1, by omega⟩
  unfold xa_cmpxchg
  rw [he]
  simp only [Bool.false_eq_true, if_false]
  rw [xa_cmpxchg_loop, l1]
  simp only []
  by_cases hco : entry_at k w = old
  · rw [if_pos hco]
    by_cases he0 : e = 0
    · subst he0
      obtain ⟨k', L', xas', s1, s2, s3, s4, s5, s6, s7, _⟩ :=
        xas_store_null hi i (f + 1) xas1 w hl0 (Or.inr l2) hf
      rw [s1]
      simp only [Option.map, xas_nomem_plain k' xas' gfp s7 s6, Bool.false_eq_true, if_false,
        xas_result_plain xas' _ s7]
      refine ⟨k', L', rfl, s2, ?_, fun h => absurd hco h, ?_, s5⟩
      · intro n g
        rw [s4]
        exact hg n g
      · intro _
        obtain ⟨w2, h1, h2, _⟩ := s3 i w hl0
        exact ⟨w2, h1, (h2 rfl).1⟩
    · obtain ⟨k', L', xas', w', s1, s2, s3, s4, s5, s6, s7, s8, s9, s10, s11, _⟩ :=
        xas_store_nonnull hi hg i e (f + 1) xas1 w hi64 hl0 (Or.inr l2) he he0 (by omega)
      rw [s1]
      simp only [Option.map, xas_nomem_done k' xas' gfp s10 s9, Bool.false_eq_true, if_false,
        xas_result_ok xas' _ s10]
      exact ⟨k', L', rfl, s2, s3, fun h => absurd hco h, fun _ => ⟨w', s4, s5⟩, s11⟩
  · rw [if_neg hco]
    have h4 : xas1.xa_node % 4 ≠ 2 := by
      rw [l2.node]
      exact place_node_plain hc hl0
    simp only [xas_nomem_plain k xas1 gfp h4 l2.alloc, Bool.false_eq_true, if_false,
      xas_result_plain xas1 _ h4]
    exact ⟨k, L, rfl, hi, hg, fun _ => rfl, fun h => absurd h hco, id⟩

/-- The array made by `xa_init_flags` is well formed when no tag flag is passed. -/
theorem inv_init (addr flags base : Nat) (grant : Nat → Nat → Bool) (hb4 : base % 4 = 0)
    (hb : 4096 ≤ base) (hfl : flags < 2 ^ 25) :
    Inv (xa_init_flags addr flags base grant) (fun _ => False) := by
  refine ⟨⟨?_, ?_, fun _ h => absurd h id, hb4, hb⟩, ?_, fun _ h => absurd h id⟩
  · intro hn
    have h0 : xa_is_node 0 = false := by decide
    rw [show (xa_init_flags addr flags base grant).xa_head = 0 from rfl, h0] at hn
    exact absurd hn (by simp)
  · intro _
    have h0 : xa_is_internal 0 = false := by decide
    exact ⟨h0, fun _ h => h⟩
  · intro _ t ht
    rw [xa_tagged_iff _ t ht]
    apply Nat.testBit_lt_two_pow
    show flags < 2 ^ (25 + t)
    calc flags < 2 ^ 25 := hfl
      _ ≤ 2 ^ (25 + t) := Nat.pow_le_pow_right (by omega) (by omega)

theorem nomulti_init (addr flags base : Nat) (grant : Nat → Nat → Bool) :
    NoMulti (xa_init_flags addr flags base grant) (fun _ => False) :=
  fun _ h => absurd h id

theorem wf_init (addr flags base : Nat) (grant : Nat → Nat → Bool) (hb4 : base % 4 = 0)
    (hb : 4096 ≤ base) (hfl : flags < 2 ^ 25) : WF (xa_init_flags addr flags base grant) :=
  ⟨_, inv_init addr flags base grant hb4 hb hfl⟩

theorem wfs_init (addr flags base : Nat) (grant : Nat → Nat → Bool) (hb4 : base % 4 = 0)
    (hb : 4096 ≤ base) (hfl : flags < 2 ^ 25) : WFS (xa_init_flags addr flags base grant) :=
  ⟨_, inv_init addr flags base grant hb4 hb hfl, nomulti_init addr flags base grant⟩

theorem allocOK_init (addr flags base : Nat) :
    AllocOK (xa_init_flags addr flags base (fun _ _ => true)) :=
  fun _ _ => rfl

/-- In an array of single-index entries, two indices that end at the same
present entry are equal. -/
theorem loc_inj_place {k : Kernel} {L : Nat → Prop} (hc : Core k L) (hm : NoMulti k L)
    {i j : Nat} {w : Place} (hi : Loc k i w) (hj : Loc k j w) (hne : entry_at k w ≠ 0) :
    i = j := by
  cases w with
  | head => rw [hi.2, hj.2]
  | bounds => exact absurd rfl hne
  | slot y o => exact loc_inj hc hm hi hj hne

theorem loc_exists {k : Kernel} {L : Nat → Prop} (hc : Core k L) (i : Nat) : ∃ w, Loc k i w := by
  obtain ⟨w, h, _⟩ := xa_load_spec hc i 12 (by omega)
  exact ⟨w, h⟩

/-- What `xa_store` does when the allocations succeed, for every entry that
may be stored: it returns the entry read before, the index reads the new
entry, and, in an array of single-index entries, every other index reads what
it read before. -/
theorem xa_store_spec {k : Kernel} {L : Nat → Prop} (hi : Inv k L) (hg : AllocOK k)
    (i e gfp fuel : Nat) (hi64 : i < 2 ^ 64) (he : xa_is_internal e = false) (hf : 64 ≤ fuel) :
    ∃ k' L' c, xa_load fuel k i = some c ∧ xa_store fuel k i e gfp = some (k', c) ∧
      Inv k' L' ∧ AllocOK k' ∧ xa_load fuel k' i = some e ∧
      (NoMulti k L → NoMulti k' L' ∧ ∀ j, j ≠ i → xa_load fuel k' j = xa_load fuel k j) := by
  have hc := hi.core
  obtain ⟨w0, hl0⟩ := loc_exists hc i
  have hload := xa_load_of_loc hc (show 12 ≤ fuel by omega) hl0
  by_cases he0 : e = 0
  · subst he0
    obtain ⟨k', L', s1, s2, s3, s4, s5, _⟩ := xa_store_null hi i gfp fuel w0 hl0 hf
    have hg' : AllocOK k' := by
      intro n g
      rw [s4]
      exact hg n g
    obtain ⟨w2, h1, h2, _⟩ := s3 i w0 hl0
    refine ⟨k', L', _, hload, s1, s2, hg', ?_, ?_⟩
    · rw [xa_load_of_loc s2.core (by omega) h1, (h2 rfl).1]
    · intro hm
      refine ⟨s5 hm, ?_⟩
      intro j hji
      obtain ⟨w1, hj⟩ := loc_exists hc j
      obtain ⟨w3, g1, g2, g3⟩ := s3 j w1 hj
      rw [xa_load_of_loc s2.core (by omega) g1, xa_load_of_loc hc (by omega) hj]
      by_cases hw : w1 = w0
      · rw [(g2 hw).1]
        by_contra hne
        rw [hw] at hj
        exact hji (loc_inj_place hc hm hj hl0 (fun h => hne (by rw [hw, h])))
      · rw [(g3 hw).1]
  · obtain ⟨k', L', w, s1, s2, s3, s4, s5, s6, s7, s8, s9, _⟩ :=
      xa_store_nonnull hi hg i e gfp fuel w0 hi64 hl0 he he0 (by omega)
    refine ⟨k', L', _, hload, s1, s2, s3, ?_, ?_⟩
    · rw [xa_load_of_loc s2.core (by omega) s4, s5]
    · intro hm
      refine ⟨s9 hm, ?_⟩
      intro j hji
      obtain ⟨w1, hj⟩ := loc_exists hc j
      obtain ⟨w2, g1, g2, _⟩ := s6 j w1 hj
      rw [xa_load_of_loc s2.core (by omega) g1, xa_load_of_loc hc (by omega) hj]
      apply congrArg
      apply g2
      intro hw
      rw [hw] at g1
      exact hji (loc_inj_place s2.core (s9 hm) g1 s4 (by rw [s5]; exact he0))

theorem built_facts {fuel : Nat} {k : Kernel} {m : Nat → Nat} (hb : Built fuel k m)
    (hf : 64 ≤ fuel) : WFS k ∧ AllocOK k ∧ ∀ i, xa_load fuel k i = some (m i) := by
  induction hb with
  | init addr flags base grant h4 hbig hfl hgr =>
    have hi := inv_init addr flags base grant h4 hbig hfl
    refine ⟨⟨_, hi, nomulti_init addr flags base grant⟩, fun n g => hgr n g, ?_⟩
    intro i
    have hleaf : xa_is_node (xa_init_flags addr flags base grant).xa_head = false := by
      show xa_is_node 0 = false
      decide
    by_cases h0 : i = 0
    · have hl : Loc (xa_init_flags addr flags base grant) i Place.head := ⟨hleaf, h0⟩
      exact xa_load_of_loc hi.core (by omega) hl
    · have hl : Loc (xa_init_flags addr flags base grant) i Place.bounds := Or.inl ⟨hleaf, h0⟩
      exact xa_load_of_loc hi.core (by omega) hl
  | store k m i e gfp k' r _ hi64 he hst ih =>
    obtain ⟨⟨L, hi, hm⟩, hg, hld⟩ := ih
    obtain ⟨k'', L', c, s1, s2, s3, s4, s5, s6⟩ := xa_store_spec hi hg i e gfp fuel hi64 he hf
    rw [s2] at hst
    simp only [Option.some.injEq, Prod.mk.injEq] at hst
    obtain ⟨rfl, rfl⟩ := hst
    obtain ⟨n1, n2⟩ := s6 hm
    refine ⟨⟨L', s3, n1⟩, s4, ?_⟩
    intro j
    by_cases hj : j = i
    · rw [hj, s5]
      simp
    · rw [n2 j hj, hld j]
      simp [hj]

/-- `__xa_erase`: the locked form of `xa_erase`. -/
theorem xa_erase_locked_spec {k : Kernel} {L : Nat → Prop} (hi : Inv k L) (i fuel : Nat)
    (w0 : Place) (hl0 : Loc k i w0) (hf : 64 ≤ fuel) :
    ∃ k' L', __xa_erase fuel k i = some (k', entry_at k w0) ∧
      Inv k' L' ∧ SimOff k k' w0 ∧ NoSibTo k' w0 := by
  obtain ⟨k', L', xas', s1, s2, s3, _, _, _, s7, s8, _⟩ :=
    xas_store_null hi i fuel (XA_STATE i) w0 hl0 (Or.inl rfl) hf
  refine ⟨k', L', ?_, s2, s3, s8⟩
  unfold __xa_erase
  rw [s1]
  simp only [xas_result_plain xas' _ s7]

theorem ex_empty_built : Built 64 ex_empty (fun _ => 0) :=
  Built.init 0 0 4096 _ (by decide) (by decide) (by decide) (fun _ _ => rfl)

theorem ex_one_built : Built 64 ex_one (fun j => if j = 7 then 8 else 0) := by
  obtain ⟨⟨L, hi, _⟩, hg, _⟩ := built_facts ex_empty_built (by decide)
  obtain ⟨k', L', c, _, s2, _⟩ :=
    xa_store_spec hi hg 7 8 0 64 (by decide) (by decide) (by decide)
  have h : ex_one = k' := by
    unfold ex_one
    rw [s2]
    rfl
  rw [h]
  exact Built.store ex_empty _ 7 8 0 k' c ex_empty_built (by decide) (by decide) s2

theorem ex_one_wfs : WFS ex_one :=
  (built_facts ex_one_built (by decide)).1

theorem ex_one_wf : WF ex_one := by
  obtain ⟨L, hi, _⟩ := ex_one_wfs
  exact ⟨L, hi⟩

theorem ex_one_allocOK : AllocOK ex_one :=
  (built_facts ex_one_built (by decide)).2.1

theorem ex_one_load : xa_load 64 ex_one 7 = some 8 :=
  (built_facts ex_one_built (by decide)).2.2 7

/-- C1: for every well-formed array, every index `i` and every non-internal
entry `e` (`NULL` included), when the node cache grants every request
`xa_store(xa, i, e, gfp)` returns and `xa_load(xa, i)` then returns `e`. -/
theorem C1_load_after_store (k : Kernel) (i e gfp fuel : Nat) (hwf : WF k) (hg : AllocOK k)
    (hi64 : i < 2 ^ 64) (he : xa_is_internal e = false) (hf : 64 ≤ fuel) :
    ∃ k' r, xa_store fuel k i e gfp = some (k', r) ∧ WF k' ∧ xa_load fuel k' i = some e := by
  obtain ⟨L, hi⟩ := hwf
  obtain ⟨k', L', c, _, s2, s3, _, s5, _⟩ := xa_store_spec hi hg i e gfp fuel hi64 he hf
  exact ⟨k', c, s2, ⟨L', s3⟩, s5⟩

theorem C1_load_after_store_witness :
    ∃ k' r, xa_store 64 ex_one 1000000 12 0 = some (k', r) ∧ WF k' ∧
      xa_load 64 k' 1000000 = some 12 :=
  C1_load_after_store ex_one 1000000 12 0 64 ex_one_wf ex_one_allocOK (by decide) (by decide)
    (by decide)

/-- C2: in an array built from the empty array by single-index stores (the
node cache granting every request), `xa_store(xa, i, e, gfp)` returns the
entry most recently stored at `i`, `NULL` if there was none, which is also
what `xa_load(xa, i)` returned just before the call. -/
theorem C2_store_returns_previous (fuel : Nat) (k : Kernel) (m : Nat → Nat) (i e gfp : Nat)
    (hb : Built fuel k m) (hf : 64 ≤ fuel) (hi64 : i < 2 ^ 64)
    (he : xa_is_internal e = false) :
    xa_load fuel k i = some (m i) ∧ ∃ k', xa_store fuel k i e gfp = some (k', m i) := by
  obtain ⟨⟨L, hi, _⟩, hg, hld⟩ := built_facts hb hf
  obtain ⟨k', L', c, s1, s2, _⟩ := xa_store_spec hi hg i e gfp fuel hi64 he hf
  rw [hld i] at s1
  simp only [Option.some.injEq] at s1
  rw [← s1] at s2
  exact ⟨hld i, k', s2⟩

theorem C2_store_returns_previous_witness :
    xa_load 64 ex_one 7 = some 8 ∧ ∃ k', xa_store 64 ex_one 7 16 0 = some (k', 8) :=
  C2_store_returns_previous 64 ex_one (fun j => if j = 7 then 8 else 0) 7 16 0 ex_one_built
    (by decide) (by decide) (by decide)

/-- C4: for every well-formed array, index `i`, entry `old` and non-internal
entry `new`, `xa_cmpxchg(xa, i, old, new, gfp)` (the node cache granting every
request) returns the entry `c` that `xa_load(xa, i)` read before the call; if
`c = old` then `xa_load(xa, i)` reads `new` afterwards, and if `c ≠ old` the
state is unchanged. -/
theorem C4_cmpxchg (k : Kernel) (i old new gfp fuel : Nat) (hwf : WF k) (hg : AllocOK k)
    (hi64 : i < 2 ^ 64) (he : xa_is_internal new = false) (hf : 64 ≤ fuel) :
    ∃ k' c, xa_load fuel k i = some c ∧ xa_cmpxchg fuel k i old new gfp = some (k', c) ∧
      WF k' ∧ (c = old → xa_load fuel k' i = some new) ∧ (c ≠ old → k' = k) := by
  obtain ⟨L, hi⟩ := hwf
  obtain ⟨w0, hl0⟩ := loc_exists hi.core i
  obtain ⟨k', L', s1, s2, _, s4, s5, _⟩ :=
    xa_cmpxchg_spec hi hg i old new gfp fuel w0 hi64 hl0 he hf
  refine ⟨k', _, xa_load_of_loc hi.core (by omega) hl0, s1, ⟨L', s2⟩, ?_, s4⟩
  intro h
  obtain ⟨w, h1, h2⟩ := s5 h
  rw [xa_load_of_loc s2.core (by omega) h1, h2]

theorem C4_cmpxchg_witness :
    ∃ k' c, xa_load 64 ex_one 7 = some c ∧ xa_cmpxchg 64 ex_one 7 8 12 0 = some (k', c) ∧
      WF k' ∧ (c = 8 → xa_load 64 k' 7 = some 12) ∧ (c ≠ 8 → k' = ex_one) :=
  C4_cmpxchg ex_one 7 8 12 0 64 ex_one_wf ex_one_allocOK (by decide) (by decide) (by decide)

/-- C5: for every well-formed array, index `i` and non-internal entry `e`
(non-`NULL` in particular; the node cache granting every request),
`xa_insert(xa, i, e, gfp)` returns 0 exactly when `xa_load(xa, i)` read `NULL`
before the call, and then `xa_load(xa, i)` reads `e` afterwards; otherwise it
returns `-EEXIST` and the state is unchanged. -/
theorem C5_insert (k : Kernel) (i e gfp fuel : Nat) (hwf : WF k) (hg : AllocOK k)
    (hi64 : i < 2 ^ 64) (he : xa_is_internal e = false) (hf : 64 ≤ fuel) :
    ∃ k' r c, xa_load fuel k i = some c ∧ xa_insert fuel k i e gfp = some (k', r) ∧
      (r = 0 ↔ c = 0) ∧ (c = 0 → xa_load fuel k' i = some e) ∧
      (c ≠ 0 → r = -EEXIST ∧ k' = k) := by
  obtain ⟨L, hi⟩ := hwf
  obtain ⟨w0, hl0⟩ := loc_exists hi.core i
  obtain ⟨k', L', s1, s2, _, s4, s5, _⟩ :=
    xa_cmpxchg_spec hi hg i 0 e gfp fuel w0 hi64 hl0 he hf
  have hni := entry_at_not_internal hi.core hl0
  have hld := xa_load_of_loc hi.core (show 12 ≤ fuel by omega) hl0
  unfold xa_insert
  rw [s1]
  simp only []
  by_cases hc0 : entry_at k w0 = 0
  · rw [if_pos hc0]
    refine ⟨k', 0, _, hld, rfl, ⟨fun _ => hc0, fun _ => rfl⟩, ?_, fun h => absurd hc0 h⟩
    intro _
    obtain ⟨w, h1, h2⟩ := s5 hc0
    rw [xa_load_of_loc s2.core (by omega) h1, h2]
  · rw [if_neg hc0]
    have herr : xa_is_err (entry_at k w0) = false := hni
    rw [herr]
    simp only [Bool.false_eq_true, if_false]
    refine ⟨k', -EEXIST, _, hld, rfl, ⟨fun h => ?_, fun h => absurd h hc0⟩,
      fun h => absurd h hc0, fun _ => ⟨rfl, s4 hc0⟩⟩
    exact absurd h (by decide)

theorem C5_insert_witness :
    ∃ k' r c, xa_load 64 ex_one 7 = some c ∧ xa_insert 64 ex_one 7 20 0 = some (k', r) ∧
      (r = 0 ↔ c = 0) ∧ (c = 0 → xa_load 64 k' 7 = some 20) ∧
      (c ≠ 0 → r = -EEXIST ∧ k' = ex_one) :=
  C5_insert ex_one 7 20 0 64 ex_one_wf ex_one_allocOK (by decide) (by decide) (by decide)

/-- On a well-formed array (no tag bit on a sibling slot or a `NULL` slot),
`xa_erase(xa, i)` returns the entry that `xa_load(xa, i)` read before the call,
and afterwards `xa_load(xa, i)` reads `NULL` and `xa_get_tag(xa, i, t)` is false
for each of the three tags `t`; the same holds of `__xa_erase(xa, i)`. -/
theorem xa_erase_well_formed (k : Kernel) (i fuel : Nat) (hwf : WF k) (hf : 64 ≤ fuel) :
    ∃ c, xa_load fuel k i = some c ∧
      (∃ k', xa_erase fuel k i = some (k', c) ∧ WF k' ∧
        xa_load fuel k' i = some 0 ∧ ∀ t, t < 3 → xa_get_tag fuel k' i t = some false) ∧
      (∃ k', __xa_erase fuel k i = some (k', c) ∧ WF k' ∧
        xa_load fuel k' i = some 0 ∧ ∀ t, t < 3 → xa_get_tag fuel k' i t = some false) := by
  obtain ⟨L, hi⟩ := hwf
  obtain ⟨w0, hl0⟩ := loc_exists hi.core i
  have key : ∀ k' L', Inv k' L' → SimOff k k' w0 →
      WF k' ∧ xa_load fuel k' i = some 0 ∧
        ∀ t, t < 3 → xa_get_tag fuel k' i t = some false := by
    intro k' L' s2 s3
    obtain ⟨w2, h1, h2, _⟩ := s3 i w0 hl0
    obtain ⟨e1, e2⟩ := h2 rfl
    refine ⟨⟨L', s2⟩, ?_, ?_⟩
    · rw [xa_load_of_loc s2.core (by omega) h1, e1]
    · intro t ht
      rw [xa_get_tag_of_loc s2 ht (by omega) h1, e2 t ht]
  obtain ⟨k1, L1, a1, a2, a3, _, _, _⟩ := xa_store_null hi i 0 fuel w0 hl0 hf
  obtain ⟨k2, L2, b1, b2, b3, _⟩ := xa_erase_locked_spec hi i fuel w0 hl0 hf
  exact ⟨_, xa_load_of_loc hi.core (by omega) hl0, ⟨k1, a1, key k1 L1 a2 a3⟩,
    ⟨k2, b1, key k2 L2 b2 b3⟩⟩

/-- C7: for every array state, index and internal entry `e` (low two bits
`10`), `xa_store`, `__xa_store`, `xa_cmpxchg` and `__xa_cmpxchg` return
`XA_ERROR(-EINVAL)`, for which `xa_is_err` is true and `xa_err` is `-EINVAL`,
and leave the state unchanged. -/
theorem C7_internal_entry_einval (k : Kernel) (i old e gfp fuel : Nat)
    (he : xa_is_internal e = true) :
    xa_store fuel k i e gfp = some (k, XA_ERROR (-EINVAL)) ∧
    __xa_store fuel k i e gfp = some (k, XA_ERROR (-EINVAL)) ∧
    xa_cmpxchg fuel k i old e gfp = some (k, XA_ERROR (-EINVAL)) ∧
    __xa_cmpxchg fuel k i old e gfp = some (k, XA_ERROR (-EINVAL)) ∧
    xa_is_err (XA_ERROR (-EINVAL)) = true ∧ xa_err (XA_ERROR (-EINVAL)) = -EINVAL := by
  refine ⟨?_, ?_, ?_, ?_, by decide, by decide⟩
  · simp [xa_store, he]
  · simp [__xa_store, he]
  · simp [xa_cmpxchg, he]
  · simp [__xa_cmpxchg, he]

theorem C7_internal_entry_einval_witness :
    xa_store 64 ex_empty 1 6 0 = some (ex_empty, XA_ERROR (-EINVAL)) ∧
    __xa_store 64 ex_empty 1 6 0 = some (ex_empty, XA_ERROR (-EINVAL)) ∧
    xa_cmpxchg 64 ex_empty 1 0 6 0 = some (ex_empty, XA_ERROR (-EINVAL)) ∧
    __xa_cmpxchg 64 ex_empty 1 0 6 0 = some (ex_empty, XA_ERROR (-EINVAL)) ∧
    xa_is_err (XA_ERROR (-EINVAL)) = true ∧ xa_err (XA_ERROR (-EINVAL)) = -EINVAL :=
  C7_internal_entry_einval ex_empty 1 0 6 0 64 (by decide)

/-- On a well-formed array (no tag bit on a sibling slot or a `NULL` slot), with
a node cache that grants every request, `xa_store(xa, i, e, gfp)` of a non-`NULL`,
non-internal entry leaves `xa_get_tag(xa, j, t)` as it is for every index `j`
and tag `t`, and `xa_tagged(xa, t)` as well. -/
theorem xa_store_keeps_tags_well_formed (k : Kernel) (i e gfp fuel : Nat) (hwf : WF k) (hg : AllocOK k)
    (hi64 : i < 2 ^ 64) (he : xa_is_internal e = false) (he0 : e ≠ 0) (hf : 64 ≤ fuel) :
    ∃ k' r, xa_store fuel k i e gfp = some (k', r) ∧
      (∀ j t, t < 3 → xa_get_tag fuel k' j t = xa_get_tag fuel k j t ∧
        (xa_get_tag fuel k j t).isSome = true) ∧
      ∀ t, xa_tagged k' t = xa_tagged k t := by
  obtain ⟨L, hi⟩ := hwf
  obtain ⟨w0, hl0⟩ := loc_exists hi.core i
  obtain ⟨k', L', w, s1, s2, _, _, _, s6, s7, _, _⟩ :=
    xa_store_nonnull hi hg i e gfp fuel w0 hi64 hl0 he he0 (by omega)
  refine ⟨k', _, s1, ?_, fun t => xa_tagged_congr t s7⟩
  intro j t ht
  obtain ⟨w1, hj⟩ := loc_exists hi.core j
  obtain ⟨w2, g1, _, g3⟩ := s6 j w1 hj
  rw [xa_get_tag_of_loc s2 ht (by omega) g1, xa_get_tag_of_loc hi ht (by omega) hj, g3 t ht]
  exact ⟨rfl, rfl⟩

/-- C9: for every well-formed array, index `i` and tag `t`: if
`xa_load(xa, i)` reads a non-`NULL` entry then after `xa_set_tag(xa, i, t)`
both `xa_get_tag(xa, i, t)` and `xa_tagged(xa, t)` are true; if it reads `NULL`,
`xa_set_tag` leaves the state (every tag bitmap and the array flags) as it is.
In both cases no slot and not the head changes. -/
theorem C9_set_tag (k : Kernel) (i t fuel : Nat) (hwf : WF k) (ht : t < 3) (hf : 64 ≤ fuel) :
    ∃ k' c, xa_load fuel k i = some c ∧ xa_set_tag fuel k i t = some k' ∧ WF k' ∧
      (c ≠ 0 → xa_get_tag fuel k' i t = some true ∧ xa_tagged k' t = true) ∧
      (c = 0 → k' = k) ∧
      k'.xa_head = k.xa_head ∧ ∀ z, (k'.mem z).slots = (k.mem z).slots := by
  obtain ⟨L, hi⟩ := hwf
  obtain ⟨w0, hl0⟩ := loc_exists hi.core i
  obtain ⟨k', s1, s2, s3, s4, s5, _⟩ := xa_set_tag_spec hi i t fuel ht (by omega) w0 hl0
  have hl' := sameShape_loc (tagOnly_sameShape s3) hl0
  refine ⟨k', _, xa_load_of_loc hi.core (by omega) hl0, s1, ⟨L, s2⟩, ?_, s4, s3.head, s3.slots⟩
  intro hc
  have hb := s5 hc
  exact ⟨by rw [xa_get_tag_of_loc s2 ht (by omega) hl', hb], tagged_of_tag_at s2 ht hl' hb⟩

theorem C9_set_tag_witness :
    ∃ k' c, xa_load 64 ex_one 7 = some c ∧ xa_set_tag 64 ex_one 7 1 = some k' ∧ WF k' ∧
      (c ≠ 0 → xa_get_tag 64 k' 7 1 = some true ∧ xa_tagged k' 1 = true) ∧
      (c = 0 → k' = ex_one) ∧
      k'.xa_head = ex_one.xa_head ∧ ∀ z, (k'.mem z).slots = (ex_one.mem z).slots :=
  C9_set_tag ex_one 7 1 64 ex_one_wf (by decide) (by decide)

/-- On a well-formed array (no tag bit on a sibling slot or a `NULL` slot):
after `xa_clear_tag(xa, i, t)`, `xa_get_tag(xa, i, t)` is false, and
`xa_get_tag(xa, j, u)` is unchanged for every index `j` and tag `u` with
`u ≠ t` or with `j` not covered by the entry at `i`; likewise
`xa_set_tag(xa, i, t)` leaves `xa_get_tag(xa, j, u)` unchanged for all those
`j` and `u`. -/
theorem tags_independent_well_formed (k : Kernel) (i t fuel : Nat) (hwf : WF k) (ht : t < 3)
    (hf : 64 ≤ fuel) :
    ∃ kc ks, xa_clear_tag fuel k i t = some kc ∧ xa_set_tag fuel k i t = some ks ∧
      xa_get_tag fuel kc i t = some false ∧
      ∀ j u, u < 3 → (u ≠ t ∨ ¬ Covers k i j) →
        xa_get_tag fuel kc j u = xa_get_tag fuel k j u ∧
        xa_get_tag fuel ks j u = xa_get_tag fuel k j u ∧
        (xa_get_tag fuel k j u).isSome = true := by
  obtain ⟨L, hi⟩ := hwf
  obtain ⟨w0, hl0⟩ := loc_exists hi.core i
  obtain ⟨kc, c1, c2, c3, c4, c5⟩ := xa_clear_tag_spec hi i t fuel ht (by omega) w0 hl0
  obtain ⟨ks, s1, s2, s3, _, _, s6⟩ := xa_set_tag_spec hi i t fuel ht (by omega) w0 hl0
  refine ⟨kc, ks, c1, s1, ?_, ?_⟩
  · rw [xa_get_tag_of_loc c2 ht (by omega) (sameShape_loc (tagOnly_sameShape c3) hl0), c4]
  · intro j u hu hor
    obtain ⟨w1, hj⟩ := loc_exists hi.core j
    have hor' : u ≠ t ∨ w1 ≠ w0 := by
      rcases hor with h | h
      · exact Or.inl h
      · right
        intro hw
        rw [hw] at hj
        exact h ⟨w0, hl0, hj⟩
    rw [xa_get_tag_of_loc c2 hu (by omega) (sameShape_loc (tagOnly_sameShape c3) hj),
      xa_get_tag_of_loc s2 hu (by omega) (sameShape_loc (tagOnly_sameShape s3) hj),
      xa_get_tag_of_loc hi hu (by omega) hj, c5 u w1 j hj hor' hu, s6 u w1 j hj hor' hu]
    exact ⟨rfl, rfl, rfl⟩

/-- C11 (the code at the failing input): the entries 8, 12 and 16 are stored at
the indices 8, 9 and 20, index 9 is tagged with tag 0, an entry of order 1 is
stored over the indices 8 and 9 by `xas_store`, and index 8 is erased.  Every
step returns; afterwards `xa_get_tag(xa, 9, 0)` is true although
`xa_load(xa, 9)` is `NULL`. -/
theorem C11_tag_on_null_after_merge :
    (xa_store 64 ex_empty 8 8 0).isSome = true ∧
    (xa_store 64 (ex_after (xa_store 64 ex_empty 8 8 0) ex_empty) 9 12 0).isSome = true ∧
    (xa_set_tag 64 ex_three 9 0).isSome = true ∧
    (xas_store 64 ex_three_tagged (xas_set_order (XA_STATE 0) 8 1) 24).isSome = true ∧
    (xa_erase 64 ex_merged 8).isSome = true ∧
    xa_load 64 ex_three_tagged 9 = some 12 ∧
    xa_get_tag 64 ex_three_tagged 9 0 = some true ∧
    xa_load 64 ex_merged 8 = some 24 ∧ xa_load 64 ex_merged 9 = some 24 ∧
    xa_load 64 ex_merged_erased 9 = some 0 ∧
    xa_get_tag 64 ex_merged_erased 9 0 = some true := by
  decide

/-- C16 (the code at the failing input): in the array with the entries 8 and 12
at the indices 5 and 7, `xa_find_after` with `*indexp == ULONG_MAX` and
`max == ULONG_MAX` starts its cursor at index 0 and returns the entry 12 with
`*indexp` set to 7, an index that is not above `ULONG_MAX`; with `*indexp == 4`
and `max == 4` it returns the entry at index 5, above `max`. -/
theorem C16_find_after_wraps :
    xa_load 64 ex_pair 5 = some 8 ∧ xa_load 64 ex_pair 7 = some 12 ∧
    xa_find_after 64 ex_pair (2 ^ 64 - 1) (2 ^ 64 - 1) XA_PRESENT = some (7, 12) ∧
    xa_find_after 64 ex_pair 4 4 XA_PRESENT = some (5, 8) := by
  decide

/-- C17 (the code at the failing input): in the state `ex_merged` (entries 8, 12
and 16 stored at 8, 9 and 20, index 9 tagged with tag 0, then an entry of
order 1 stored over 8 and 9) the iteration `xas_for_each_tagged` from index 0
with `max == ULONG_MAX` and tag 0 visits index 9 only and yields the internal
sibling entry found in that slot, although `xa_get_tag(xa, 9, 0)` is false. -/
theorem C17_tagged_iteration_yields_sibling :
    xas_for_each_tagged 64 ex_merged (XA_STATE 0) (2 ^ 64 - 1) 0 = some [(9, xa_mk_sibling 8)] ∧
    xa_is_internal (xa_mk_sibling 8) = true ∧
    xa_get_tag 64 ex_merged 9 0 = some false ∧ xa_get_tag 64 ex_merged 8 0 = some false ∧
    xa_load 64 ex_merged 9 = some 24 := by
  decide

/-- C18 (the code at the failing input): in the array with the entries 8 and 12
at the indices 5 and 7, `xa_extract` with `start == 5`, `max == 3` and `n == 4`
copies the entry at index 5 and returns 1, although no index lies in `[5, 3]`. -/
theorem C18_extract_beyond_max :
    (xa_extract 64 ex_pair (fun _ => 0) 5 3 4 XA_PRESENT).map (fun r => (r.2, r.1 0)) =
      some (1, 8) ∧
    xa_load 64 ex_pair 5 = some 8 := by
  decide

/-! ### Index ranges of nodes -/

theorem visits_congr {k : Kernel} {L : Nat → Prop} (hc : Core k L) {i j x : Nat}
    (hv : Visits k i x)
    (he : j >>> ((k.mem x).shift + 6) = i >>> ((k.mem x).shift + 6)) : Visits k j x := by
  induction hv with
  | root x hh hn hb =>
    refine Visits.root x hh hn ?_
    rw [shr_add6, shr_add6] at he
    simp only [XA_CHUNK_MASK] at hb ⊢
    generalize i >>> (k.mem x).shift = A at *
    generalize j >>> (k.mem x).shift = B at *
    omega
  | step y c hvy hs hn ih =>
    have hsh := (visits_child_shift hc hvy hs hn).1
    rw [← hsh] at he
    have hvj : Visits k j y := ih (by rw [shr_add6, shr_add6, he])
    refine Visits.step y c hvj ?_ hn
    rw [get_offset_eq, he, ← get_offset_eq]
    exact hs

theorem visits_parent {k : Kernel} {L : Nat → Prop} (hc : Core k L) {i c : Nat}
    (hv : Visits k i c) (hp : (k.mem c).parent ≠ 0) :
    Visits k i (k.mem c).parent ∧
      get_offset i (k.mem (k.mem c).parent) = (k.mem c).offset := by
  cases hv with
  | root _ hh hn _ =>
    have := (hc.head_node (by rw [hh]; exact hn)).2
    rw [hh] at this
    simp only [Nat.add_sub_cancel] at this
    exact absurd this hp
  | step y _ hvy hs hn =>
    obtain ⟨_, h2, h3, _, _⟩ := visits_child_shift hc hvy hs hn
    rw [h2, h3]
    exact ⟨hvy, rfl⟩

theorem nodeBlock_of_visits {k : Kernel} {L : Nat → Prop} (hc : Core k L) {i x : Nat}
    (hv : Visits k i x) : NodeBlock k x (i >>> ((k.mem x).shift + 6)) := by
  intro j
  exact ⟨fun h => visits_inj hc h hv, fun h => visits_congr hc hv h⟩

theorem shl_shr_cancel (B s : Nat) : (B <<< s) >>> s = B := by
  rw [Nat.shiftLeft_eq, Nat.shiftRight_eq_div_pow]
  exact Nat.mul_div_cancel _ (Nat.two_pow_pos s)

theorem nodeBlock_visits {k : Kernel} {x B : Nat} (hb : NodeBlock k x B) :
    Visits k (B <<< ((k.mem x).shift + 6)) x :=
  (hb _).2 (shl_shr_cancel _ _)

theorem nodeBlock_child {k : Kernel} {L : Nat → Prop} (hc : Core k L) {x B q c : Nat}
    (hb : NodeBlock k x B) (hq : q < 64) (hs : (k.mem x).slots q = c + 2)
    (hn : xa_is_node (c + 2) = true) :
    NodeBlock k c (64 * B + q) ∧ (k.mem x).shift = (k.mem c).shift + 6 ∧ L c ∧
      (k.mem c).parent = x ∧ (k.mem c).offset = q := by
  have hx : L x := visits_live hc (nodeBlock_visits hb)
  have hch := (hc.nodes x hx).child q hq (by rw [hs]; exact hn)
  rw [hs] at hch
  simp only [Nat.add_sub_cancel] at hch
  have hxbig := (hc.nodes x hx).big
  have hup := (hc.nodes c hch.1).up (by rw [hch.2.1]; omega)
  rw [hch.2.1] at hup
  have hsh := hup.2.2.2
  refine ⟨?_, hsh, hch.1, hch.2.1, hch.2.2⟩
  intro j
  constructor
  · intro hv
    obtain ⟨h1, h2⟩ := visits_parent hc hv (by rw [hch.2.1]; omega)
    rw [hch.2.1] at h1 h2
    rw [hch.2.2] at h2
    have h3 := (hb j).1 h1
    rw [get_offset_eq] at h2
    rw [hsh] at h2 h3
    rw [shr_add6] at h3
    generalize j >>> ((k.mem c).shift + 6) = A at *
    omega
  · intro he
    rw [← hsh] at he
    have h1 : Visits k j x := (hb j).2 (by rw [shr_add6, he]; omega)
    refine Visits.step x c h1 ?_ hn
    rw [get_offset_eq, he]
    have : (64 * B + q) % 64 = q := by omega
    rw [this]
    exact hs

theorem nodeBlock_parent {k : Kernel} {L : Nat → Prop} (hc : Core k L) {x B : Nat}
    (hb : NodeBlock k x B) (hp : (k.mem x).parent ≠ 0) :
    NodeBlock k (k.mem x).parent (B / 64) ∧ B % 64 = (k.mem x).offset ∧
      (k.mem (k.mem x).parent).shift = (k.mem x).shift + 6 ∧ L (k.mem x).parent := by
  have hv := nodeBlock_visits hb
  have hx : L x := visits_live hc hv
  obtain ⟨h1, h2⟩ := visits_parent hc hv hp
  have hup := (hc.nodes x hx).up hp
  have hnb := nodeBlock_of_visits hc h1
  rw [get_offset_eq] at h2
  rw [hup.2.2.2] at hnb h2
  rw [shr_add6, shl_shr_cancel] at hnb
  rw [shl_shr_cancel] at h2
  exact ⟨hnb, h2, hup.2.2.2, hup.1⟩

theorem nodeBlock_root {k : Kernel} {L : Nat → Prop} (hc : Core k L) {x B : Nat}
    (hb : NodeBlock k x B) (hp : (k.mem x).parent = 0) : B = 0 := by
  have hv := nodeBlock_visits hb
  have := visits_root_bound hc hv hp
  have h2 := shl_shr_cancel B ((k.mem x).shift + 6)
  rw [shr_add6] at h2
  generalize (B <<< ((k.mem x).shift + 6)) >>> (k.mem x).shift = A at *
  omega

theorem nodeBlock_unique {k : Kernel} {x B B' : Nat} (hb : NodeBlock k x B)
    (hb' : NodeBlock k x B') : B = B' := by
  have := (hb' _).1 (nodeBlock_visits hb)
  rw [shl_shr_cancel] at this
  exact this

theorem shr_eq_iff (j s A : Nat) : j >>> s = A ↔ A * 2 ^ s ≤ j ∧ j < (A + 1) * 2 ^ s := by
  rw [Nat.shiftRight_eq_div_pow]
  have hp := Nat.two_pow_pos s
  rw [← Nat.le_div_iff_mul_le hp, ← Nat.div_lt_iff_lt_mul hp]
  omega

/-! ### Storing a multi-index entry into an empty array -/

/-- `xas_create` below a node with no entries: nodes are allocated down to the
level of the cursor's order, and the walk ends at a new, empty slot. -/
theorem xas_create_loop_fresh (i order : Nat) (ho6 : order % 6 = 0) :
    ∀ fuel k L xas x, Inv k L → AllocOK k → xas.xa_alloc = 0 →
      Visits k i x → xas.xa_node = x → xas.xa_index = i →
      xas.xa_offset = get_offset i (k.mem x) →
      (∀ q, (k.mem x).slots q = 0) → order ≤ (k.mem x).shift →
      (k.mem x).shift + 6 < 6 * fuel →
      ∃ k' L' xas' y,
        xas_create_loop order fuel k xas ((k.mem x).shift : Int) 0 (x, xas.xa_offset) =
          some (k', xas', 0) ∧
        Inv k' L' ∧ Sim k k' ∧ AllocOK k' ∧ k'.xa_flags = k.xa_flags ∧
        k'.rcu_pending = k.rcu_pending ∧ Visits k' i y ∧ L' y ∧
        (k'.mem y).shift = order ∧ (∀ q, (k'.mem y).slots q = 0) ∧
        xas'.xa_node = y ∧ xas'.xa_offset = get_offset i (k'.mem y) ∧ xas'.xa_index = i ∧
        xas'.xa_shift = xas.xa_shift ∧ xas'.xa_sibs = xas.xa_sibs ∧ xas'.xa_alloc = 0 := by
  intro fuel
  induction fuel with
  | zero => intro k L xas x _ _ _ _ _ _ _ _ _ h; omega
  | succ f ih =>
    intro k L xas x hi hg ha hv hnode hidx hoff hnull hord hf
    have hc := hi.core
    have hx := visits_live hc hv
    have hnx := hc.nodes x hx
    have ho64 : xas.xa_offset < 64 := by
      rw [hoff]
      exact get_offset_lt _ _
    have hsh60 := hnx.shift_le
    have hsh6 := hnx.shift6
    rw [xas_create_loop, to_uint_cast _ (by omega)]
    by_cases hpos : (k.mem x).shift > order
    · rw [if_pos hpos]
      simp only []
      have hsub : ((k.mem x).shift : Int) - ((XA_CHUNK_SHIFT : Nat) : Int)
          = (((k.mem x).shift - 6 : Nat) : Int) := by
        simp only [XA_CHUNK_SHIFT]
        omega
      rw [hsub, if_pos trivial]
      have hxne : x ≠ k.slab_next := live_lt_slab hc hx
      have hx0 : x ≠ 0 := by have := hnx.big; omega
      obtain ⟨k1, e1, a1, a2, a3, a4, a5, a6, a7, a8, a9, a10, a11, a12, a13, a14⟩ :=
        xas_alloc_ok k xas (to_uint (((k.mem x).shift - 6 : Nat) : Int)) hg ha
          (by rw [hnode]; exact hnx.align) hc.slab_big (by rw [hnode]; exact hxne)
      rw [e1]
      simp only []
      rw [if_neg (by have := hc.slab_big; omega)]
      rw [to_uint_cast _ (by omega)] at a7
      rw [hnode] at a8 a9 a13 a14
      rw [if_pos hx0] at a8
      have a14' := a14 hx0
      have hmk : xa_mk_node k.slab_next = k.slab_next + 2 := xa_mk_node_eq _ hc.slab_align
      rw [hmk, slot_store_node _ _ _ _ hx0]
      generalize hk2 : k1.setNode x { k1.mem x with slots := fun i =>
        if i = xas.xa_offset then k.slab_next + 2 else (k1.mem x).slots i } = k2
      have m_c : k2.mem k.slab_next = k1.mem k.slab_next := by
        rw [← hk2]
        simp [Ne.symm hxne]
      have m_x : k2.mem x = { k1.mem x with slots := fun i =>
          if i = xas.xa_offset then k.slab_next + 2 else (k1.mem x).slots i } := by
        rw [← hk2]
        simp
      have m_o : ∀ y, y ≠ k.slab_next → y ≠ x → k2.mem y = k.mem y := by
        intro y hy1 hy2
        rw [← hk2]
        simp only [setNode_mem, if_neg hy2]
        exact a13 y hy1 (fun _ => hy2)
      have h_head : k2.xa_head = k.xa_head := by rw [← hk2]; exact a1
      have h_flags : k2.xa_flags = k.xa_flags := by rw [← hk2]; exact a2
      have h_slab : k2.slab_next = k.slab_next + 576 := by rw [← hk2]; exact a3
      have h_rcu : k2.rcu_pending = k.rcu_pending := by rw [← hk2]; exact a5
      have h_g : AllocOK k2 := by
        rw [← hk2]
        exact a4
      have hsl2 : (k2.mem x).slots = fun i =>
          if i = xas.xa_offset then k.slab_next + 2 else (k.mem x).slots i := by
        rw [m_x, a14']
      have hi2 : Inv k2 (fun y => L y ∨ y = k.slab_next) :=
        inv_add_child hi hx ho64 (hnull _) (by omega) rfl h_head h_flags h_slab
          (by rw [m_c, a7]; omega) (by rw [m_c, a8]) (by rw [m_c, a9]) (by rw [m_c, a10])
          (by rw [m_c, a11]) (by rw [m_c, a12]) hsl2
          (by rw [m_x, a14']) (by rw [m_x, a14']) (by rw [m_x, a14']) (by rw [m_x, a14'])
          (by rw [m_x, a14']) m_o
      have hs2 : Sim k k2 :=
        sim_add_child hi hx ho64 (hnull _) rfl h_head (by rw [m_c, a11]) (by rw [m_c, a12]) hsl2
          (by rw [m_x, a14']) (by rw [m_x, a14']) m_o
      have hcl2 : (fun y => L y ∨ y = k.slab_next) k.slab_next := Or.inr rfl
      obtain ⟨d1, d2, d3, d4, d5, d6, d7⟩ := descend_pos hi2.core hcl2 xas
      have hslc : (k2.mem k.slab_next).slots = fun _ => 0 := by rw [m_c, a11]
      have hz : (k2.mem k.slab_next).slots (xas_descend k2 xas k.slab_next).1.xa_offset = 0 := by
        rw [hslc]
      obtain ⟨d4a, d4b⟩ := d4 (Or.inl hz)
      have hshx : (k2.mem x).shift = (k.mem x).shift := by rw [m_x, a14']
      have hv2x : Visits k2 i x := by
        refine visits_extend hc h_head ?_ ?_ hv
        · intro y hy
          by_cases hyx : y = x
          · rw [hyx]; exact hshx
          · rw [m_o y (live_lt_slab hc hy) hyx]
        · intro y q hy hne
          by_cases hyx : y = x
          · rw [hyx] at hne
            exact absurd (hnull q) hne
          · rw [m_o y (live_lt_slab hc hy) hyx]
      have hv2 : Visits k2 i k.slab_next := by
        refine Visits.step x _ hv2x ?_ (is_node_add2 _ hc.slab_align hc.slab_big)
        have : get_offset i (k2.mem x) = xas.xa_offset := by
          rw [hoff]
          simp [get_offset, hshx]
        rw [this, hsl2]
        simp
      have hshc : (k2.mem k.slab_next).shift = (k.mem x).shift - 6 := by
        rw [m_c, a7]
        omega
      obtain ⟨k', L', xas', y, r1, r2, r3, r4, r5, r6, r7, r8, r9, r10, r11, r12, r13, r14,
          r15, r16⟩ :=
        ih k2 _ (xas_descend k2 xas k.slab_next).1 k.slab_next hi2 h_g (by rw [d7, ha])
          hv2 d2 (by rw [d4a, hidx]) (by rw [d4b, hidx])
          (fun q => by rw [hslc]) (by rw [hshc]; omega) (by rw [hshc]; omega)
      refine ⟨k', L', xas', y, ?_, r2, sim_trans hs2 r3, r4, by rw [r5, h_flags],
        by rw [r6, h_rcu], r7, r8, r9, r10, r11, r12, r13, by rw [r14, d5], by rw [r15, d6], r16⟩
      rw [← r1, hshc, d1, hz]
    · rw [if_neg hpos]
      exact ⟨k, L, xas, x, rfl, hi, sim_refl k, hg, rfl, rfl, hv, hx, by omega, hnull, hnode,
        hoff, hidx, rfl, rfl, ha⟩

theorem xa_mk_sibling_eq (o : Nat) (ho : o < 64) : xa_mk_sibling o = 4 * o + 2 := by
  unfold xa_mk_sibling xa_mk_internal
  have e1 : o <<< 2 = 4 * o := by rw [Nat.shiftLeft_eq]; omega
  rw [e1, or2_of_aligned _ (by omega)]
  simp only [WORD]
  omega

theorem sibling_mk_facts (o : Nat) (ho : o < 63) :
    xa_is_sibling (xa_mk_sibling o) = true ∧ xa_to_sibling (xa_mk_sibling o) = o ∧
    xa_is_node (xa_mk_sibling o) = false ∧ xa_mk_sibling o ≠ 0 ∧
    xa_is_internal (xa_mk_sibling o) = true := by
  rw [xa_mk_sibling_eq o (by omega)]
  refine ⟨?_, ?_, ?_, by omega, ?_⟩
  · rw [xa_is_sibling_iff]
    omega
  · unfold xa_to_sibling xa_to_internal
    rw [Nat.shiftRight_eq_div_pow]
    omega
  · cases h : xa_is_node (4 * o + 2)
    · rfl
    · rw [xa_is_node_iff] at h
      omega
  · rw [xa_is_internal_iff]
    omega

theorem find_next_bit_none (w size : Nat) :
    ∀ fuel off, (∀ q, off ≤ q → q < size → w.testBit q = false) →
      find_next_bit w size fuel off = size := by
  intro fuel
  induction fuel with
  | zero => intro off _; rfl
  | succ f ih =>
    intro off h
    rw [find_next_bit]
    by_cases h1 : off ≥ size
    · rw [if_pos h1]
    · rw [if_neg h1, h off (le_refl _) (by omega)]
      simp only [Bool.false_eq_true, if_false]
      exact ih (off + 1) (fun q hq1 hq2 => h q (by omega) hq2)

theorem setNode_self (k : Kernel) (y : Nat) : k.setNode y (k.mem y) = k := by
  unfold Kernel.setNode
  have : (fun x => if x = y then k.mem y else k.mem x) = k.mem := by
    funext x
    by_cases h : x = y
    · rw [if_pos h, h]
    · rw [if_neg h]
  rw [this]

/-- `xas_squash_tags` changes nothing in a node none of whose tag bits is set. -/
theorem xas_squash_tags_clear (k : Kernel) (xas : xa_state)
    (h : ∀ t q, t < 3 → q < 64 → node_get_tag (k.mem xas.xa_node) q t = false)
    (hlim : xas.xa_offset + xas.xa_sibs ≤ 64) : xas_squash_tags k xas = k := by
  unfold xas_squash_tags
  by_cases hs : xas.xa_sibs = 0
  · rw [if_pos hs]
  · rw [if_neg hs]
    have key : ∀ (k1 : Kernel) t, t < 3 → k1 = k →
        xas_squash_tag xas (k1.mem xas.xa_node) t = k1.mem xas.xa_node := by
      intro k1 t ht hk
      subst hk
      unfold xas_squash_tag
      simp only []
      rw [if_pos]
      apply find_next_bit_none
      intro q _ hq2
      have := h t q ht (by omega)
      simpa [node_get_tag, test_bit] using this
    simp only []
    rw [key k 0 (by omega) rfl, setNode_self, key k 1 (by omega) rfl, setNode_self,
      key k 2 (by omega) rfl, setNode_self]

/-- The loop of `xas_store` for a non-NULL entry over a run of empty slots:
the entry goes to the first slot, sibling entries to the others. -/
theorem xas_store_loop_run (F : Nat) (xas : xa_state) (y m P : Nat) (value : Bool)
    (hy0 : y ≠ 0) (hP0 : P ≠ 0) (hPi : xa_is_internal P = false)
    (hom : xas.xa_offset + m ≤ 63) :
    ∀ fuel k q entry count values, xas.xa_offset ≤ q → q ≤ xas.xa_offset + m →
      entry = (if q = xas.xa_offset then P else xa_mk_sibling xas.xa_offset) →
      (∀ j, q ≤ j → j ≤ xas.xa_offset + m → (k.mem y).slots j = 0) →
      xas.xa_offset + m < q + fuel →
      ∃ k' values',
        xas_store_loop F xas y (xas.xa_offset + m) value fuel k (y, q) entry 0 0 q count values =
          some (k', 0, count + ((xas.xa_offset + m - q : Nat) : Int) + 1, values') ∧
        SlotsAt k k' y ∧
        (k'.mem y).slots = fun j =>
          if q ≤ j ∧ j ≤ xas.xa_offset + m then
            (if j = xas.xa_offset then P else xa_mk_sibling xas.xa_offset)
          else (k.mem y).slots j := by
  intro fuel
  induction fuel with
  | zero => intro k q _ _ _ _ _ _ _ hf; omega
  | succ f ih =>
    intro k q entry count values hoq hq hent hnull hf
    have hn0 : xa_is_node 0 = false := by decide
    have hs0 : xa_is_sibling 0 = false := by decide
    have hent0 : entry ≠ 0 := by
      rw [hent]
      by_cases hqo : q = xas.xa_offset
      · rw [if_pos hqo]; exact hP0
      · rw [if_neg hqo]
        exact (sibling_mk_facts _ (by omega)).2.2.2.1
    have hent' : (if entry ≠ 0 ∧ (!xa_is_sibling entry) = true then xa_mk_sibling xas.xa_offset
        else entry) = xa_mk_sibling xas.xa_offset := by
      rw [hent]
      by_cases hqo : q = xas.xa_offset
      · rw [if_pos hqo, if_pos]
        exact ⟨hP0, by rw [not_internal_not_sibling _ hPi]; rfl⟩
      · rw [if_neg hqo, if_neg]
        rw [(sibling_mk_facts _ (by omega)).1]
        simp
    rw [xas_store_loop, slot_store_node _ _ _ _ hy0, hn0]
    simp only [Bool.false_eq_true, if_false, hy0, lnot_eq, if_neg hent0, if_true]
    generalize hk1 : k.setNode y
      { k.mem y with slots := fun i => if i = q then entry else (k.mem y).slots i } = k1
    have hs1 : SlotsAt k k1 y := by
      rw [← hk1]
      exact slotsAt_setNode k y _
    have hsl1 : (k1.mem y).slots = fun i => if i = q then entry else (k.mem y).slots i := by
      rw [← hk1]
      simp
    by_cases hend : q = xas.xa_offset + m
    · rw [if_pos ⟨hent0, hend⟩]
      refine ⟨k1, values + (lnotb (xa_is_value 0) - lnotb value), ?_, hs1, ?_⟩
      · rw [show xas.xa_offset + m - q = 0 from by omega]
        norm_num
      · rw [hsl1]
        funext j
        by_cases hj : j = q
        · rw [if_pos hj, if_pos (by omega), hent, hj]
        · rw [if_neg hj, if_neg (by omega)]
    · rw [if_neg (fun h => hend h.2), if_neg (fun h => hent0 h.1)]
      simp only [hent']
      have hnext : xa_entry k1 y (q + 1) = 0 := by
        simp only [xa_entry]
        rw [hsl1]
        simp only [show q + 1 ≠ q by omega, if_false]
        exact hnull _ (by omega) (by omega)
      rw [hnext, hs0]
      have hsne := (sibling_mk_facts xas.xa_offset (by omega)).2.2.2.1
      simp only [Bool.not_false, true_and, if_neg (fun h : xa_mk_sibling xas.xa_offset = 0 ∧ _ =>
        hsne h.1), if_true]
      obtain ⟨k', v', r1, r2, r3⟩ :=
        ih k1 (q + 1) (xa_mk_sibling xas.xa_offset) (count + (1 - 0))
          (values + (lnotb (xa_is_value 0) - lnotb value)) (by omega) (by omega)
          (by rw [if_neg (by omega)])
          (fun j h1 h2 => by
            rw [hsl1]
            simp only [show j ≠ q by omega, if_false]
            exact hnull j (by omega) h2)
          (by omega)
      refine ⟨k', v', ?_, slotsAt_trans hs1 r2, ?_⟩
      · rw [r1]
        have : count + (1 - 0) + ((xas.xa_offset + m - (q + 1) : Nat) : Int) + 1 =
            count + ((xas.xa_offset + m - q : Nat) : Int) + 1 := by
          omega
        rw [this]
      · rw [r3, hsl1]
        funext j
        by_cases h1 : q + 1 ≤ j ∧ j ≤ xas.xa_offset + m
        · rw [if_pos h1, if_pos (show q ≤ j ∧ j ≤ xas.xa_offset + m from by omega)]
        · rw [if_neg h1]
          show (if j = q then entry else (k.mem y).slots j) = _
          by_cases hj : j = q
          · rw [if_pos hj, if_pos (show q ≤ j ∧ j ≤ xas.xa_offset + m from by omega), hent, hj]
          · rw [if_neg hj, if_neg (show ¬ (q ≤ j ∧ j ≤ xas.xa_offset + m) from by omega)]

/-- Writing an entry and its sibling entries over a run of empty slots of a
live node keeps the invariant. -/
theorem inv_write_run {k k' : Kernel} {L : Nat → Prop} {y o m e : Nat} (hi : Inv k L)
    (hy : L y) (hom : o + m ≤ 63)
    (hnull : ∀ j, o ≤ j → j ≤ o + m → (k.mem y).slots j = 0)
    (he : xa_is_internal e = false) (he0 : e ≠ 0)
    (hmem : ∀ z, z ≠ y → k'.mem z = k.mem z)
    (hhead : k'.xa_head = k.xa_head) (hflags : k'.xa_flags = k.xa_flags)
    (hslab : k'.slab_next = k.slab_next)
    (hslots : (k'.mem y).slots = fun j =>
      if o ≤ j ∧ j ≤ o + m then (if j = o then e else xa_mk_sibling o) else (k.mem y).slots j)
    (hshift : (k'.mem y).shift = (k.mem y).shift)
    (hparent : (k'.mem y).parent = (k.mem y).parent)
    (hoffset : (k'.mem y).offset = (k.mem y).offset)
    (htags : (k'.mem y).tags = (k.mem y).tags)
    (hcount : (k'.mem y).count = count_upto (k'.mem y).slots 64) :
    Inv k' L := by
  have hc := hi.core
  have hny := hc.nodes y hy
  have hen : xa_is_node e = false := not_internal_not_node _ he
  have hes : xa_is_sibling e = false := not_internal_not_sibling _ he
  have hout : ∀ j, ¬ (o ≤ j ∧ j ≤ o + m) → (k'.mem y).slots j = (k.mem y).slots j := by
    intro j hj
    rw [hslots]
    simp only [if_neg hj]
  have hin_o : (k'.mem y).slots o = e := by
    rw [hslots]
    simp
  have hin_s : ∀ j, o < j → j ≤ o + m → (k'.mem y).slots j = xa_mk_sibling o := by
    intro j h1 h2
    rw [hslots]
    simp only [if_pos (show o ≤ j ∧ j ≤ o + m from ⟨by omega, h2⟩), if_neg (show j ≠ o by omega)]
  have hnz : ∀ j, (k.mem y).slots j ≠ 0 → ¬ (o ≤ j ∧ j ≤ o + m) := by
    intro j hj h
    exact hj (hnull j h.1 h.2)
  have hnode_out : ∀ j, xa_is_node ((k'.mem y).slots j) = true → ¬ (o ≤ j ∧ j ≤ o + m) := by
    intro j hn h
    by_cases hjo : j = o
    · rw [hjo, hin_o, hen] at hn
      exact absurd hn (by simp)
    · rw [hin_s j (by omega) h.2, (sibling_mk_facts o (by omega)).2.2.1] at hn
      exact absurd hn (by simp)
  have hnode_k : ∀ j, xa_is_node ((k.mem y).slots j) = true →
      (k'.mem y).slots j = (k.mem y).slots j := by
    intro j hn
    apply hout
    apply hnz
    intro h0
    rw [h0] at hn
    exact absurd hn (by decide)
  refine ⟨⟨?_, ?_, ?_, by rw [hslab]; exact hc.slab_align, by rw [hslab]; exact hc.slab_big⟩,
    ?_, ?_⟩
  · rw [hhead]
    intro hn
    obtain ⟨a, b⟩ := hc.head_node hn
    refine ⟨a, ?_⟩
    by_cases hxr : k.xa_head - 2 = y
    · rw [hxr, hparent, ← hxr]
      exact b
    · rw [hmem _ hxr]
      exact b
  · rw [hhead]
    exact hc.head_leaf
  · intro z hz
    by_cases hzy : z = y
    · subst hzy
      constructor
      · exact hny.align
      · exact hny.big
      · rw [hslab]; exact hny.below
      · rw [hshift]; exact hny.shift6
      · rw [hshift]; exact hny.shift_le
      · rw [hparent, hhead]; exact hny.root
      · rw [hparent, hoffset, hshift]
        intro hp
        obtain ⟨a, b, c, d⟩ := hny.up hp
        have hpy : (k.mem z).parent ≠ z := by
          intro hpe
          rw [hpe] at d
          omega
        rw [hmem _ hpy]
        exact ⟨a, b, c, d⟩
      · intro q hq hn
        have hqo := hnode_out q hn
        rw [hout q hqo] at hn ⊢
        obtain ⟨a, b, c⟩ := hny.child q hq hn
        have hcy : (k.mem z).slots q - 2 ≠ z := by
          intro hce
          have := (hc.nodes _ a).up (by rw [b]; have := hny.big; omega)
          rw [b, hce] at this
          omega
        rw [hmem _ hcy]
        exact ⟨a, b, c⟩
      · intro q hq hint hn
        by_cases hqr : o ≤ q ∧ q ≤ o + m
        · by_cases hqo : q = o
          · rw [hqo, hin_o, he] at hint
            exact absurd hint (by simp)
          · have hsq := hin_s q (by omega) hqr.2
            obtain ⟨f1, f2, f3, f4, f5⟩ := sibling_mk_facts o (by omega)
            rw [hsq, f2, hin_o]
            refine ⟨f1, by omega, he, he0, ?_⟩
            intro j hj1 hj2
            exact hin_s j hj1 (by omega)
        · rw [hout q hqr] at hint hn ⊢
          obtain ⟨a, b, c, d, e2⟩ := hny.sib q hq hint hn
          have hcn := hnz _ d
          refine ⟨a, b, ?_, ?_, ?_⟩
          · rw [hout _ hcn]; exact c
          · rw [hout _ hcn]; exact d
          · intro j hj1 hj2
            have := e2 j hj1 hj2
            have hjn : (k.mem z).slots j ≠ 0 := by
              rw [this]
              exact (sibling_ne_zero _ a).1
            rw [hout j (hnz j hjn)]
            exact this
      · exact hcount
      · intro q t hq ht hb
        rw [show node_get_tag (k'.mem z) q t = node_get_tag (k.mem z) q t from
          node_get_tag_congr (by rw [htags])] at hb
        obtain ⟨a, b⟩ := hny.tag_null q t hq ht hb
        rw [hout q (hnz q a)]
        exact ⟨a, b⟩
    · have hnz' := hc.nodes z hz
      refine nodeCore_congr hnz' (hmem z hzy) (by omega) (fun _ => hhead) ?_ ?_
      · intro hp
        obtain ⟨a, b, c, d⟩ := hnz'.up hp
        refine ⟨a, ?_, ?_⟩
        · by_cases hpx : (k.mem z).parent = y
          · rw [hpx] at c ⊢
            exact hnode_k _ (by rw [c]; exact is_node_add2 z hnz'.align hnz'.big)
          · rw [hmem _ hpx]
        · by_cases hpx : (k.mem z).parent = y
          · rw [hpx]; exact hshift
          · rw [hmem _ hpx]
      · intro q hq hn
        obtain ⟨a, b, c⟩ := hnz'.child q hq hn
        refine ⟨a, ?_, ?_⟩
        · by_cases hcx : (k.mem z).slots q - 2 = y
          · rw [hcx]; exact hparent
          · rw [hmem _ hcx]
        · by_cases hcx : (k.mem z).slots q - 2 = y
          · rw [hcx]; exact hoffset
          · rw [hmem _ hcx]
  · rw [hhead]
    intro h0 t ht
    rw [xa_tagged_congr t hflags]
    exact hi.head_null h0 t ht
  · intro z hz t ht
    have hpo : ∀ z, (k'.mem z).parent = (k.mem z).parent ∧ (k'.mem z).offset = (k.mem z).offset ∧
        (k'.mem z).tags = (k.mem z).tags := by
      intro z
      by_cases hzx : z = y
      · rw [hzx]; exact ⟨hparent, hoffset, htags⟩
      · rw [hmem z hzx]; exact ⟨rfl, rfl, rfl⟩
    exact tagUp_congr (hi.tags z hz t ht) (hpo z).1 (hpo z).2.1
      (node_any_tag_congr (by rw [(hpo z).2.2]))
      (fun _ => xa_tagged_congr t hflags)
      (fun _ => node_get_tag_congr (by rw [(hpo _).2.2]))

/-- Where the walks end after an entry and its sibling entries have been
written over a run of empty slots of node `y`. -/
theorem loc_write_run {k k' : Kernel} {y o m e : Nat} (hom : o + m ≤ 63)
    (hnull : ∀ j, o ≤ j → j ≤ o + m → (k.mem y).slots j = 0)
    (he : xa_is_internal e = false)
    (hmem : ∀ z, z ≠ y → k'.mem z = k.mem z)
    (hhead : k'.xa_head = k.xa_head)
    (hslots : (k'.mem y).slots = fun j =>
      if o ≤ j ∧ j ≤ o + m then (if j = o then e else xa_mk_sibling o) else (k.mem y).slots j)
    (hshift : (k'.mem y).shift = (k.mem y).shift) :
    (∀ j, Visits k j y → o ≤ get_offset j (k.mem y) → get_offset j (k.mem y) ≤ o + m →
      Loc k' j (Place.slot y o)) ∧
    (∀ j w, Loc k j w → (∀ q, w = Place.slot y q → ¬ (o ≤ q ∧ q ≤ o + m)) →
      Loc k' j w ∧ entry_at k' w = entry_at k w) ∧
    entry_at k' (Place.slot y o) = e := by
  have hen : xa_is_node e = false := not_internal_not_node _ he
  have hes : xa_is_sibling e = false := not_internal_not_sibling _ he
  have hsh : ∀ z, (k'.mem z).shift = (k.mem z).shift := by
    intro z
    by_cases hz : z = y
    · rw [hz]; exact hshift
    · rw [hmem z hz]
  have hout : ∀ j, ¬ (o ≤ j ∧ j ≤ o + m) → (k'.mem y).slots j = (k.mem y).slots j := by
    intro j hj
    rw [hslots]
    simp only [if_neg hj]
  have hin_o : (k'.mem y).slots o = e := by
    rw [hslots]
    simp
  have hin_s : ∀ j, o < j → j ≤ o + m → (k'.mem y).slots j = xa_mk_sibling o := by
    intro j h1 h2
    rw [hslots]
    simp only [if_pos (show o ≤ j ∧ j ≤ o + m from ⟨by omega, h2⟩), if_neg (show j ≠ o by omega)]
  have hvis : ∀ j z, Visits k j z → Visits k' j z := by
    intro j z hv
    refine visits_of_nodes hhead hsh ?_ hv
    intro z q hn
    by_cases hz : z = y
    · rw [hz] at hn ⊢
      apply hout
      intro h
      rw [hnull q h.1 h.2] at hn
      exact absurd hn (by decide)
    · rw [hmem z hz]
  have hgo : ∀ j z, get_offset j (k'.mem z) = get_offset j (k.mem z) := by
    intro j z
    simp only [get_offset, hsh]
  refine ⟨?_, ?_, hin_o⟩
  · intro j hv h1 h2
    refine loc_slot_iff.2 ⟨hvis j y hv, ?_, by rw [hin_o]; exact hen⟩
    rw [hgo]
    unfold canon
    by_cases hr : get_offset j (k.mem y) = o
    · rw [hr, hin_o, hes]
      simp
    · rw [hin_s _ (by omega) h2]
      obtain ⟨f1, f2, _⟩ := sibling_mk_facts o (by omega)
      rw [f1, f2]
      simp
  · intro j w hl hw
    cases w with
    | head =>
      refine ⟨?_, hhead⟩
      show xa_is_node k'.xa_head = false ∧ j = 0
      rw [hhead]
      exact hl
    | bounds =>
      refine ⟨?_, rfl⟩
      show (xa_is_node k'.xa_head = false ∧ j ≠ 0) ∨
        (xa_is_node k'.xa_head = true ∧ j >>> (k'.mem (k'.xa_head - 2)).shift > XA_CHUNK_MASK)
      rw [hhead, hsh]
      exact hl
    | slot x q =>
      obtain ⟨hv, hq, hn⟩ := loc_slot_iff.1 hl
      by_cases hx : x = y
      · subst hx
        have hqr := hw q rfl
        have hrr : ¬ (o ≤ get_offset j (k.mem x) ∧ get_offset j (k.mem x) ≤ o + m) := by
          intro h
          have h0 := hnull _ h.1 h.2
          have : canon (k.mem x) (get_offset j (k.mem x)) = get_offset j (k.mem x) := by
            unfold canon
            rw [h0]
            simp [not_sibling_zero]
          rw [this] at hq
          rw [hq] at hqr
          exact hqr h
        refine ⟨loc_slot_iff.2 ⟨hvis j x hv, ?_, by rw [hout q hqr]; exact hn⟩, hout q hqr⟩
        rw [hgo]
        unfold canon
        rw [hout _ hrr]
        exact hq
      · refine ⟨loc_slot_iff.2 ⟨hvis j x hv, ?_, by rw [hmem x hx]; exact hn⟩, ?_⟩
        · rw [hgo, hmem x hx]
          exact hq
        · show (k'.mem x).slots q = (k.mem x).slots q
          rw [hmem x hx]

theorem count_upto_run (S : Nat → Nat) (o m : Nat)
    (hin : ∀ j, o ≤ j → j ≤ o + m → S j ≠ 0) (hout : ∀ j, ¬ (o ≤ j ∧ j ≤ o + m) → S j = 0) :
    ∀ n, count_upto S n = if n ≤ o then 0 else if n ≤ o + m + 1 then n - o else m + 1 := by
  intro n
  induction n with
  | zero => simp [count_upto]
  | succ n ih =>
    rw [count_upto, ih]
    by_cases h : o ≤ n ∧ n ≤ o + m
    · rw [if_neg (hin n h.1 h.2)]
      split_ifs <;> omega
    · rw [if_pos (hout n h)]
      split_ifs <;> omega

/-- The part of `xas_store` after the walk, for a non-NULL entry stored at a
new node with no entries: the entry and its sibling entries are written. -/
theorem xas_store_tail_run {k : Kernel} {L : Nat → Prop} (hi : Inv k L) (fuel : Nat)
    (xas : xa_state) (y P : Nat) (hy : L y) (hnode : xas.xa_node = y)
    (hsh : (k.mem y).shift = xas.xa_shift) (hom : xas.xa_offset + xas.xa_sibs ≤ 63)
    (hnull : ∀ q, (k.mem y).slots q = 0)
    (hP0 : P ≠ 0) (hPi : xa_is_internal P = false) (hf : 64 ≤ fuel) :
    ∃ k' xas', xas_store_tail fuel k xas 0 P = some (k', xas', 0) ∧ Inv k' L ∧
      (∀ z, z ≠ y → k'.mem z = k.mem z) ∧ k'.xa_head = k.xa_head ∧
      (k'.mem y).shift = (k.mem y).shift ∧ k'.slab_grant = k.slab_grant ∧
      (k'.mem y).slots = fun j =>
        if xas.xa_offset ≤ j ∧ j ≤ xas.xa_offset + xas.xa_sibs then
          (if j = xas.xa_offset then P else xa_mk_sibling xas.xa_offset)
        else (k.mem y).slots j := by
  have hc := hi.core
  have hny := hc.nodes y hy
  have hy0 : y ≠ 0 := by have := hny.big; omega
  have hinv : xas_invalid xas = false := xas_invalid_node xas (by rw [hnode]; exact hny.align)
  have htag : ∀ t q, t < 3 → q < 64 → node_get_tag (k.mem xas.xa_node) q t = false := by
    intro t q ht hq
    rw [hnode]
    cases hb : node_get_tag (k.mem y) q t
    · rfl
    · exact absurd (hnull q) (hny.tag_null q t hq ht hb).1
  have hsq : xas_squash_tags k xas = k := xas_squash_tags_clear k xas htag (by omega)
  have hcnt0 : (k.mem y).count = 0 := by
    rw [hny.count, count_upto_congr _ (fun _ => 0) 64 (fun o _ => hnull o), count_upto_zero]
  obtain ⟨k1, v1, e1, s1, sl1⟩ :=
    xas_store_loop_run fuel xas y xas.xa_sibs P (xa_is_value P) hy0 hP0 hPi hom fuel k
      xas.xa_offset P 0 0 (le_refl _) (by omega) (by rw [if_pos rfl])
      (fun j _ _ => hnull j) (by omega)
  unfold xas_store_tail
  have hlt : ¬ (xas.xa_shift < (k.mem y).shift) := by omega
  simp only [hinv, Bool.false_eq_true, if_false, hnode, hlt, and_false,
    false_and, hy0, ne_eq, not_false_eq_true, true_and, if_true, if_neg hP0]
  have hsq' : (if ¬ xas.xa_sibs = 0 then xas_squash_tags k xas else k) = k := by
    by_cases h : xas.xa_sibs = 0 <;> simp [h, hsq]
  have hcv : (0 : Int) + ((xas.xa_offset + xas.xa_sibs - xas.xa_offset : Nat) : Int) + 1 =
      ((xas.xa_sibs + 1 : Nat) : Int) := by
    push_cast
    omega
  rw [hcv] at e1
  rw [hsq', e1]
  simp only [update_node, hy0, false_or]
  rw [if_neg (fun h : 0 = P ∧ xas.xa_sibs = 0 => hP0 h.1.symm)]
  have hcne : ¬ (((xas.xa_sibs + 1 : Nat) : Int) = 0 ∧ v1 = 0) := by
    intro h
    omega
  rw [if_neg hcne, if_neg (by omega)]
  generalize hkF : k1.setNode y
    { k1.mem y with
      count := (((((k1.mem y).count : Nat) : Int) + ((xas.xa_sibs + 1 : Nat) : Int)) % 256).toNat,
      nr_values := (((((k1.mem y).nr_values : Nat) : Int) + v1) % 256).toNat } = kF
  have m_y : kF.mem y = { k1.mem y with
      count := (((((k1.mem y).count : Nat) : Int) + ((xas.xa_sibs + 1 : Nat) : Int)) % 256).toNat,
      nr_values := (((((k1.mem y).nr_values : Nat) : Int) + v1) % 256).toNat } := by
    rw [← hkF]
    simp
  have m_o : ∀ z, z ≠ y → kF.mem z = k.mem z := by
    intro z hz
    rw [← hkF]
    simp only [setNode_mem, if_neg hz]
    exact s1.mem z hz
  have hslF : (kF.mem y).slots = fun j =>
      if xas.xa_offset ≤ j ∧ j ≤ xas.xa_offset + xas.xa_sibs then
        (if j = xas.xa_offset then P else xa_mk_sibling xas.xa_offset)
      else (k.mem y).slots j := by
    rw [m_y]
    exact sl1
  have hcF : (kF.mem y).count = count_upto (kF.mem y).slots 64 := by
    rw [count_upto_run (kF.mem y).slots xas.xa_offset xas.xa_sibs ?_ ?_ 64]
    · rw [m_y]
      simp only []
      rw [s1.count, hcnt0]
      have hv : ((((0 : Nat) : Int) + ((xas.xa_sibs + 1 : Nat) : Int)) % 256).toNat =
          xas.xa_sibs + 1 := by
        omega
      rw [hv]
      split_ifs <;> omega
    · intro j h1 h2
      rw [hslF]
      simp only [if_pos (show xas.xa_offset ≤ j ∧ j ≤ xas.xa_offset + xas.xa_sibs from ⟨h1, h2⟩)]
      by_cases hj : j = xas.xa_offset
      · rw [if_pos hj]; exact hP0
      · rw [if_neg hj]
        exact (sibling_mk_facts _ (by omega)).2.2.2.1
    · intro j hj
      rw [hslF]
      simp only [if_neg hj]
      exact hnull j
  refine ⟨kF, xas, rfl, ?_, m_o, ?_, ?_, ?_, hslF⟩
  · exact inv_write_run hi hy hom (fun j _ _ => hnull j) hPi hP0 m_o
      (by rw [← hkF]; exact s1.head) (by rw [← hkF]; exact s1.flags)
      (by rw [← hkF]; exact s1.next) hslF (by rw [m_y]; exact s1.shift)
      (by rw [m_y]; exact s1.parent) (by rw [m_y]; exact s1.offset)
      (by rw [m_y]; exact s1.tags) hcF
  · rw [← hkF]; exact s1.head
  · rw [m_y]; exact s1.shift
  · rw [← hkF]; exact s1.grant

theorem pow_order_split (ord : Nat) : 2 ^ (ord % 6) * 2 ^ (ord - ord % 6) = 2 ^ ord := by
  rw [← Nat.pow_add]
  congr 1
  have := Nat.mod_le ord 6
  omega

theorem aligned_add_le (b ord : Nat) (hord : ord ≤ 64) (hb : b < 2 ^ 64) (hal : 2 ^ ord ∣ b) :
    b + 2 ^ ord ≤ 2 ^ 64 := by
  obtain ⟨c, rfl⟩ := hal
  have h64 : 2 ^ 64 = 2 ^ ord * 2 ^ (64 - ord) := by
    rw [← Nat.pow_add]
    congr 1
    omega
  rw [h64] at hb ⊢
  have hc : c < 2 ^ (64 - ord) := Nat.lt_of_mul_lt_mul_left hb
  calc 2 ^ ord * c + 2 ^ ord = 2 ^ ord * (c + 1) := by ring
    _ ≤ 2 ^ ord * 2 ^ (64 - ord) := Nat.mul_le_mul_left _ hc

theorem xas_set_order_fields (b ord : Nat) (hord : ord < 64) (hb : b < 2 ^ 64)
    (hal : 2 ^ ord ∣ b) :
    xas_set_order (XA_STATE 0) b ord =
      { xa_index := b, xa_shift := ord - ord % 6, xa_sibs := 2 ^ (ord % 6) - 1, xa_offset := 0,
        xa_node := XAS_RESTART, xa_alloc := 0 } := by
  have h1 : ((b >>> ord) <<< ord) % WORD = b := by
    rw [Nat.shiftRight_eq_div_pow, Nat.shiftLeft_eq, Nat.div_mul_cancel hal]
    exact Nat.mod_eq_of_lt hb
  have h2 : (ord - ord % 6) % 256 = ord - ord % 6 := by omega
  have h3 : ((1 <<< (ord % 6)) - 1) % 256 = 2 ^ (ord % 6) - 1 := by
    rw [Nat.one_shiftLeft]
    have hr : ord % 6 < 6 := Nat.mod_lt _ (by omega)
    generalize ord % 6 = r at hr
    interval_cases r <;> rfl
  simp only [xas_set_order, XA_STATE, BITS_PER_LONG, XA_CHUNK_SHIFT, if_pos hord, h1, h2, h3]

theorem xas_max_order (b ord : Nat) (hord : ord < 64) (hb : b < 2 ^ 64) (hal : 2 ^ ord ∣ b) :
    xas_max (xas_set_order (XA_STATE 0) b ord) =
      if ord = 0 then b else if b = 0 then 2 ^ ord else b + 2 ^ ord - 1 := by
  rw [xas_set_order_fields b ord hord hb hal]
  unfold xas_max
  simp only []
  by_cases h0 : ord = 0
  · subst h0
    simp
  · rw [if_neg h0]
    have hT1 : 1 ≤ 2 ^ ord := Nat.one_le_two_pow
    have hT64 : 2 ^ ord < 2 ^ 64 := Nat.pow_lt_pow_right (by omega) hord
    have hbT := aligned_add_le b ord (by omega) hb hal
    have hcond : ord - ord % 6 ≠ 0 ∨ 2 ^ (ord % 6) - 1 ≠ 0 := by
      by_cases hr : ord % 6 = 0
      · left; omega
      · right
        have : 2 ^ 1 ≤ 2 ^ (ord % 6) := Nat.pow_le_pow_right (by omega) (by omega)
        omega
    rw [if_pos hcond]
    have hr1 : 1 ≤ 2 ^ (ord % 6) := Nat.one_le_two_pow
    have hsh : (2 ^ (ord % 6) - 1 + 1) <<< (ord - ord % 6) = 2 ^ ord := by
      rw [Nat.shiftLeft_eq, Nat.sub_add_cancel hr1, pow_order_split]
    have hmask : ((2 ^ (ord % 6) - 1 + 1) <<< (ord - ord % 6) % WORD + (WORD - 1)) % WORD =
        2 ^ ord - 1 := by
      rw [hsh]
      simp only [WORD]
      omega
    have hor : b ||| (2 ^ ord - 1) = b + (2 ^ ord - 1) := by
      obtain ⟨c, rfl⟩ := hal
      exact (Nat.mul_add_lt_is_or (by omega) c).symm
    rw [hmask, hor]
    by_cases hb0 : b = 0
    · rw [if_pos hb0, if_pos (by omega)]
      simp only [WORD]
      omega
    · rw [if_neg hb0, if_neg (by omega)]
      omega

theorem shr_mono (a b s : Nat) (h : a ≤ b) : a >>> s ≤ b >>> s := by
  rw [Nat.shiftRight_eq_div_pow, Nat.shiftRight_eq_div_pow]
  exact Nat.div_le_div_right h

theorem shr_pow_ge (M order s : Nat) (h : 2 ^ order ≤ M) (hs : s + 6 ≤ order) :
    64 ≤ M >>> s := by
  have h1 := shr_mono _ _ s h
  rw [Nat.shiftRight_eq_div_pow (2 ^ order), Nat.pow_div (by omega) (by omega)] at h1
  have h2 : 2 ^ 6 ≤ 2 ^ (order - s) := Nat.pow_le_pow_right (by omega) (by omega)
  omega

/-- `xas_create` in an empty array: the nodes from the top level down to the
level of the cursor's order are allocated; the walk ends at an empty slot of
a new node. -/
theorem xas_create_empty {k : Kernel} {L : Nat → Prop} (hi : Inv k L) (hg : AllocOK k)
    (hh0 : k.xa_head = 0) (fuel : Nat) (xas : xa_state) (htop : xas_top xas.xa_node = true)
    (ha : xas.xa_alloc = 0) (ho6 : xas.xa_shift % 6 = 0)
    (hM64 : xas_max xas < 2 ^ 64) (hM0 : xas_max xas ≠ 0)
    (hbM : xas.xa_index ≤ xas_max xas) (hoM : 2 ^ xas.xa_shift ≤ xas_max xas)
    (hf : 14 ≤ fuel) :
    ∃ k' L' xas' y, xas_create fuel k xas = some (k', xas', 0) ∧ Inv k' L' ∧ Sim k k' ∧
      AllocOK k' ∧ Visits k' xas.xa_index y ∧ L' y ∧ (k'.mem y).shift = xas.xa_shift ∧
      (∀ q, (k'.mem y).slots q = 0) ∧ xas'.xa_node = y ∧
      xas'.xa_offset = get_offset xas.xa_index (k'.mem y) ∧ xas'.xa_index = xas.xa_index ∧
      xas'.xa_shift = xas.xa_shift ∧ xas'.xa_sibs = xas.xa_sibs ∧ xas'.xa_alloc = 0 := by
  have hc := hi.core
  obtain ⟨f, rfl⟩ : ∃ f, fuel = f + 1 := ⟨fuel - 1, by omega⟩
  unfold xas_create
  rw [if_pos htop]
  simp only [xa_head]
  have hmax : xas_max { xas with xa_node := 0 } = xas_max xas := rfl
  unfold xas_expand
  rw [if_pos hh0, hmax, if_neg hM0]
  obtain ⟨s, e1, s6, s60, sb⟩ :=
    xas_expand_shift_spec (xas_max xas) hM64 (f + 1) 0 (by omega) (by omega) (by omega)
  have hos : xas.xa_shift ≤ s := by
    by_contra hlt
    have := shr_pow_ge (xas_max xas) xas.xa_shift s hoM (by omega)
    omega
  rw [e1]
  simp only []
  rw [if_neg (by omega), xas_create_loop]
  rw [to_uint_cast _ (by simp only [XA_CHUNK_SHIFT]; omega),
    if_pos (by simp only [XA_CHUNK_SHIFT]; omega)]
  simp only []
  rw [if_pos hh0]
  have hsub : (((s + XA_CHUNK_SHIFT : Nat) : Int) - ((XA_CHUNK_SHIFT : Nat) : Int))
      = ((s : Nat) : Int) := by
    simp only [XA_CHUNK_SHIFT]
    omega
  rw [hsub]
  obtain ⟨k1, e2, a1, a2, a3, a4, a5, a6, a7, a8, a9, a10, a11, a12, a13, a14⟩ :=
    xas_alloc_ok k { xas with xa_node := 0 } (to_uint ((s : Nat) : Int)) hg ha (by simp)
      hc.slab_big (by
        have := hc.slab_big
        simp only
        omega)
  rw [e2]
  simp only []
  rw [if_neg (by have := hc.slab_big; omega)]
  rw [to_uint_cast _ (by omega)] at a7
  have hmk : xa_mk_node k.slab_next = k.slab_next + 2 := xa_mk_node_eq _ hc.slab_align
  rw [hmk, slot_store_head]
  generalize hk2 : ({ k1 with xa_head := k.slab_next + 2 } : Kernel) = k2
  have m_all : ∀ y, k2.mem y = k1.mem y := by
    intro y
    rw [← hk2]
  have h_head : k2.xa_head = k.slab_next + 2 := by rw [← hk2]
  have h_flags : k2.xa_flags = k.xa_flags := by rw [← hk2]; exact a2
  have h_slab : k2.slab_next = k.slab_next + 576 := by rw [← hk2]; exact a3
  have h_g : AllocOK k2 := by
    rw [← hk2]
    exact a4
  have hs256 : s % 256 = s := by omega
  have hi2 : Inv k2 (fun y => y = k.slab_next) :=
    inv_add_root hi hh0 rfl s6 s60 h_head h_flags h_slab (by rw [m_all, a7, hs256])
      (by rw [m_all, a9]) (by rw [m_all, a10]) (by rw [m_all, a11]) (by rw [m_all, a12])
  have hs2 : Sim k k2 :=
    sim_add_root hi hh0 rfl h_head (by rw [m_all, a11]) (by rw [m_all, a12])
  have hshc : (k2.mem k.slab_next).shift = s := by rw [m_all, a7, hs256]
  have hv2 : Visits k2 xas.xa_index k.slab_next :=
    Visits.root _ h_head (is_node_add2 _ hc.slab_align hc.slab_big) (by
      rw [hshc]
      have := shr_mono _ _ s hbM
      simp only [XA_CHUNK_MASK]
      omega)
  obtain ⟨d1, d2, d3, d4, d5, d6, d7⟩ :=
    descend_pos hi2.core (show (fun y => y = k.slab_next) k.slab_next from rfl)
      { xas with xa_node := 0 }
  have hslc : (k2.mem k.slab_next).slots = fun _ => 0 := by rw [m_all, a11]
  have hz : (k2.mem k.slab_next).slots
      (xas_descend k2 { xas with xa_node := 0 } k.slab_next).1.xa_offset = 0 := by
    rw [hslc]
  obtain ⟨d4a, d4b⟩ := d4 (Or.inl hz)
  simp only at d3 d4a d4b d5 d6 d7
  obtain ⟨k', L', xas', y, r1, r2, r3, r4, _, _, r7, r8, r9, r10, r11, r12, r13, r14, r15,
      r16⟩ :=
    xas_create_loop_fresh xas.xa_index xas.xa_shift ho6 f k2 _
      (xas_descend k2 { xas with xa_node := 0 } k.slab_next).1
      k.slab_next hi2 h_g (by rw [d7, ha]) hv2 d2 d4a d4b
      (fun q => by rw [hslc]) (by rw [hshc]; exact hos) (by rw [hshc]; omega)
  refine ⟨k', L', xas', y, ?_, r2, sim_trans hs2 r3, r4, r7, r8, r9, r10, r11, r12, r13,
    by rw [r14, d5], by rw [r15, d6], r16⟩
  rw [← r1, hshc, d1, hz]

theorem slot_run_range (b j sh A m : Nat) (hbA : b = A * 2 ^ sh) (hom : A % 64 + m ≤ 63) :
    (b ≤ j ∧ j < b + (m + 1) * 2 ^ sh) ↔
      (j >>> (sh + 6) = b >>> (sh + 6) ∧ A % 64 ≤ (j >>> sh) % 64 ∧
        (j >>> sh) % 64 ≤ A % 64 + m) := by
  have hp := Nat.two_pow_pos sh
  have hbs : b >>> sh = A := by
    rw [hbA, Nat.shiftRight_eq_div_pow]
    exact Nat.mul_div_cancel _ hp
  rw [shr_add6, shr_add6, hbs]
  have h1 : b ≤ j ↔ A ≤ j >>> sh := by
    rw [Nat.shiftRight_eq_div_pow, Nat.le_div_iff_mul_le hp, hbA]
  have h2 : j < b + (m + 1) * 2 ^ sh ↔ j >>> sh < A + m + 1 := by
    rw [Nat.shiftRight_eq_div_pow, Nat.div_lt_iff_lt_mul hp, hbA]
    have : A * 2 ^ sh + (m + 1) * 2 ^ sh = (A + m + 1) * 2 ^ sh := by ring
    rw [this]
  rw [h1, h2]
  generalize j >>> sh = J
  omega

theorem visits_empty {k : Kernel} (h0 : k.xa_head = 0) {j x : Nat} (hv : Visits k j x) :
    False := by
  induction hv with
  | root x hh _ _ => omega
  | step _ _ _ _ _ ih => exact ih

theorem empty_reads_null {k : Kernel} (h0 : k.xa_head = 0) {j : Nat} {w : Place}
    (hl : Loc k j w) : entry_at k w = 0 := by
  cases w with
  | head => exact h0
  | bounds => rfl
  | slot x q => exact (visits_empty h0 (loc_slot_iff.1 hl).1).elim

theorem sim_reads_null {k k' : Kernel} {L L' : Nat → Prop} (hc : Core k L) (hc' : Core k' L')
    (h0 : k.xa_head = 0) (hs : Sim k k') {j : Nat} {w : Place} (hl : Loc k' j w) :
    entry_at k' w = 0 := by
  obtain ⟨w0, hw0⟩ := loc_exists hc j
  obtain ⟨w', h1, h2, _⟩ := hs j w0 hw0
  rw [loc_unique hc' hl h1, h2]
  exact empty_reads_null h0 hw0

theorem order_offset_bound (c r : Nat) (hr : r < 6) : (2 ^ r * c) % 64 + (2 ^ r - 1) ≤ 63 := by
  interval_cases r <;> simp <;> omega

/-- `xas_store` of a non-NULL entry on a cursor set up with `xas_set_order`,
in an empty array whose node cache grants every request: the indices of the
aligned range end at one place, which holds the entry; every other index
reads `NULL`. -/
theorem xas_store_order_empty {k : Kernel} {L : Nat → Prop} (hi : Inv k L) (hg : AllocOK k)
    (hh0 : k.xa_head = 0) (b ord P fuel : Nat) (hord : ord < 64) (hb : b < 2 ^ 64)
    (hal : 2 ^ ord ∣ b) (hP0 : P ≠ 0) (hPi : xa_is_internal P = false) (hf : 64 ≤ fuel) :
    ∃ k' L' xas' w, xas_store fuel k (xas_set_order (XA_STATE 0) b ord) P = some (k', xas', 0) ∧
      Inv k' L' ∧ AllocOK k' ∧ entry_at k' w = P ∧
      (∀ j, Loc k' j w ↔ b ≤ j ∧ j < b + 2 ^ ord) ∧
      (∀ j w', Loc k' j w' → w' ≠ w → entry_at k' w' = 0) := by
  have hc := hi.core
  have hnoL : ∀ x, ¬ L x := (hc.head_leaf (by rw [hh0]; decide)).2
  by_cases h0 : ord = 0
  · -- a single index
    subst h0
    have hX : xas_set_order (XA_STATE 0) b 0 = XA_STATE b := by
      rw [xas_set_order_fields b 0 hord hb hal]
      rfl
    rw [hX]
    obtain ⟨w0, hw0⟩ := loc_exists hc b
    obtain ⟨k', L', xas', w, r1, r2, r3, r4, r5, r6, _, _, _, _, r11, _⟩ :=
      xas_store_nonnull hi hg b P fuel (XA_STATE b) w0 hb hw0 (Or.inl rfl) hPi hP0 (by omega)
    rw [empty_reads_null hh0 hw0] at r1
    have hm' : NoMulti k' L' := r11 (fun x hx => (hnoL x hx).elim)
    refine ⟨k', L', xas', w, r1, r2, r3, r5, ?_, ?_⟩
    · intro j
      constructor
      · intro hl
        have := loc_inj_place r2.core hm' hl r4 (by rw [r5]; exact hP0)
        simp only [pow_zero]
        omega
      · intro h
        simp only [pow_zero] at h
        have : j = b := by omega
        rw [this]
        exact r4
    · intro j w' hl hne
      obtain ⟨w1, hw1⟩ := loc_exists hc j
      obtain ⟨w2, h1, h2, _⟩ := r6 j w1 hw1
      have := loc_unique r2.core hl h1
      rw [this] at hne ⊢
      rw [h2 hne]
      exact empty_reads_null hh0 hw1
  · -- a range
    have hfields := xas_set_order_fields b ord hord hb hal
    have hmaxv := xas_max_order b ord hord hb hal
    rw [if_neg h0] at hmaxv
    have hT1 : 1 ≤ 2 ^ ord := Nat.one_le_two_pow
    have hT64 : 2 ^ ord < 2 ^ 64 := Nat.pow_lt_pow_right (by omega) hord
    have hbT := aligned_add_le b ord (by omega) hb hal
    have hsplit := pow_order_split ord
    have hshle : 2 ^ (ord - ord % 6) ≤ 2 ^ ord := Nat.pow_le_pow_right (by omega) (by omega)
    generalize hXdef : xas_set_order (XA_STATE 0) b ord = X at hfields hmaxv
    have hXi : X.xa_index = b := by rw [hfields]
    have hXs : X.xa_shift = ord - ord % 6 := by rw [hfields]
    have hXb : X.xa_sibs = 2 ^ (ord % 6) - 1 := by rw [hfields]
    have hXn : X.xa_node = XAS_RESTART := by rw [hfields]
    have hXa : X.xa_alloc = 0 := by rw [hfields]
    have hM : xas_max X < 2 ^ 64 ∧ xas_max X ≠ 0 ∧ b ≤ xas_max X ∧ 2 ^ ord ≤ xas_max X := by
      rw [hmaxv]
      split_ifs <;> omega
    obtain ⟨k1, L1, xas1, y, c1, c2, c3, c4, c5, c6, c7, c8, c9, c10, c11, c12, c13, c14⟩ :=
      xas_create_empty hi hg hh0 fuel X (by rw [hXn]; decide) hXa (by rw [hXs]; omega) hM.1
        hM.2.1 (by rw [hXi]; exact hM.2.2.1) (by rw [hXs]; omega) (by omega)
    rw [hXi] at c5 c10 c11
    rw [hXs] at c7 c12
    rw [hXb] at c13
    have hr6 : ord % 6 < 6 := Nat.mod_lt _ (by omega)
    obtain ⟨cq, hcq⟩ := hal
    have hbA : b = (2 ^ (ord % 6) * cq) * 2 ^ (ord - ord % 6) := by
      rw [hcq, ← hsplit]
      ring
    have hbs : b >>> (ord - ord % 6) = 2 ^ (ord % 6) * cq := by
      rw [hbA, Nat.shiftRight_eq_div_pow]
      exact Nat.mul_div_cancel _ (Nat.two_pow_pos _)
    have hoff : xas1.xa_offset = (2 ^ (ord % 6) * cq) % 64 := by
      rw [c10, get_offset_eq, c7, hbs]
    have hom : xas1.xa_offset + xas1.xa_sibs ≤ 63 := by
      rw [hoff, c13]
      exact order_offset_bound cq _ hr6
    obtain ⟨k2, xas2, t1, t2, t3, t4, t5, t6, t7⟩ :=
      xas_store_tail_run c2 fuel xas1 y P c6 c9 (by rw [c7, c12]) hom c8 hP0 hPi hf
    obtain ⟨w1, w2, w3⟩ := loc_write_run hom (fun j _ _ => c8 j) hPi t3 t4 t7 t5
    have hnb := nodeBlock_of_visits c2.core c5
    have hr1 : 1 ≤ 2 ^ (ord % 6) := Nat.one_le_two_pow
    have hrange : ∀ j, (b ≤ j ∧ j < b + 2 ^ ord) ↔
        (Visits k1 j y ∧ xas1.xa_offset ≤ get_offset j (k1.mem y) ∧
          get_offset j (k1.mem y) ≤ xas1.xa_offset + xas1.xa_sibs) := by
      intro j
      have := slot_run_range b j (ord - ord % 6) (2 ^ (ord % 6) * cq) (2 ^ (ord % 6) - 1) hbA
        (order_offset_bound cq _ hr6)
      rw [Nat.sub_add_cancel hr1, hsplit] at this
      rw [this, hnb j, get_offset_eq, c7, hoff, c13]
    have hsome : xas_store fuel k X P = some (k2, xas2, 0) := by
      unfold xas_store
      rw [if_pos hP0, c1]
      exact t1
    refine ⟨k2, L1, xas2, Place.slot y xas1.xa_offset, hsome, t2, ?_, w3, ?_, ?_⟩
    · intro n g
      rw [t6]
      exact c4 n g
    · intro j
      constructor
      · intro hl
        obtain ⟨wj, hwj⟩ := loc_exists c2.core j
        by_cases hin : ∃ q, wj = Place.slot y q ∧
            xas1.xa_offset ≤ q ∧ q ≤ xas1.xa_offset + xas1.xa_sibs
        · obtain ⟨q, rfl, hq1, hq2⟩ := hin
          obtain ⟨hv, hq, _⟩ := loc_slot_iff.1 hwj
          have hraw : canon (k1.mem y) (get_offset j (k1.mem y)) = get_offset j (k1.mem y) := by
            unfold canon
            rw [c8]
            simp [not_sibling_zero]
          rw [hraw] at hq
          exact (hrange j).2 ⟨hv, by omega, by omega⟩
        · have hout : ∀ q, wj = Place.slot y q →
              ¬ (xas1.xa_offset ≤ q ∧ q ≤ xas1.xa_offset + xas1.xa_sibs) := by
            intro q hq hr
            exact hin ⟨q, hq, hr.1, hr.2⟩
          obtain ⟨f1, _⟩ := w2 j wj hwj hout
          have := loc_unique t2.core hl f1
          exact absurd ⟨le_refl _, by omega⟩ (hout _ this.symm)
      · intro h
        obtain ⟨hv, h1, h2⟩ := (hrange j).1 h
        exact w1 j hv h1 h2
    · intro j w' hl hne
      obtain ⟨wj, hwj⟩ := loc_exists c2.core j
      by_cases hin : ∃ q, wj = Place.slot y q ∧
          xas1.xa_offset ≤ q ∧ q ≤ xas1.xa_offset + xas1.xa_sibs
      · obtain ⟨q, rfl, hq1, hq2⟩ := hin
        obtain ⟨hv, hq, _⟩ := loc_slot_iff.1 hwj
        have hraw : canon (k1.mem y) (get_offset j (k1.mem y)) = get_offset j (k1.mem y) := by
          unfold canon
          rw [c8]
          simp [not_sibling_zero]
        rw [hraw] at hq
        have := w1 j hv (by omega) (by omega)
        exact absurd (loc_unique t2.core hl this) hne
      · have hout : ∀ q, wj = Place.slot y q →
            ¬ (xas1.xa_offset ≤ q ∧ q ≤ xas1.xa_offset + xas1.xa_sibs) := by
          intro q hq hr
          exact hin ⟨q, hq, hr.1, hr.2⟩
        obtain ⟨f1, f2⟩ := w2 j wj hwj hout
        rw [loc_unique t2.core hl f1, f2]
        exact sim_reads_null hc c2.core hh0 c3 hwj

/-- C19: for every order `ord < BITS_PER_LONG`, every index `b` that is a
multiple of `2 ^ ord` and every non-NULL, non-internal entry `P`: `xas_store`
of `P` on a cursor set up with `xas_set_order(b, ord)`, in an empty array whose
node cache grants every request, returns and leaves a well-formed array in
which `xa_load(xa, i)` is `P` for every `i` with `b ≤ i < b + 2 ^ ord` and
`NULL` for every other `i`. -/
theorem C19_store_order (k : Kernel) (b ord P fuel : Nat) (hwf : WF k)
    (hempty : xa_empty k = true) (hg : AllocOK k) (hord : ord < BITS_PER_LONG)
    (hb : b < 2 ^ 64) (hal : 2 ^ ord ∣ b) (hP0 : P ≠ 0) (hPi : xa_is_internal P = false)
    (hf : 64 ≤ fuel) :
    ∃ k' xas' r, xas_store fuel k (xas_set_order (XA_STATE 0) b ord) P = some (k', xas', r) ∧
      WF k' ∧ (∀ i, b ≤ i → i < b + 2 ^ ord → xa_load fuel k' i = some P) ∧
      (∀ i, ¬ (b ≤ i ∧ i < b + 2 ^ ord) → xa_load fuel k' i = some 0) := by
  obtain ⟨L, hi⟩ := hwf
  have hh0 : k.xa_head = 0 := by simpa [xa_empty] using hempty
  obtain ⟨k', L', xas', w, r1, r2, _, r4, r5, r6⟩ :=
    xas_store_order_empty hi hg hh0 b ord P fuel hord hb hal hP0 hPi hf
  refine ⟨k', xas', 0, r1, ⟨L', r2⟩, ?_, ?_⟩
  · intro i h1 h2
    rw [xa_load_of_loc r2.core (by omega) ((r5 i).2 ⟨h1, h2⟩), r4]
  · intro i hn
    obtain ⟨w', hw'⟩ := loc_exists r2.core i
    have hne : w' ≠ w := by
      intro h
      rw [h] at hw'
      exact hn ((r5 i).1 hw')
    rw [xa_load_of_loc r2.core (by omega) hw', r6 i w' hw' hne]

theorem C19_store_order_witness :
    ∃ k' xas' r, xas_store 64 ex_empty (xas_set_order (XA_STATE 0) 8 2) 24 = some (k', xas', r) ∧
      WF k' ∧ (∀ i, 8 ≤ i → i < 8 + 2 ^ 2 → xa_load 64 k' i = some 24) ∧
      (∀ i, ¬ (8 ≤ i ∧ i < 8 + 2 ^ 2) → xa_load 64 k' i = some 0) :=
  C19_store_order ex_empty 8 2 24 64 (wf_init 0 0 4096 _ (by decide) (by decide) (by decide))
    (by decide) (allocOK_init 0 0 4096) (by decide) (by decide) (by decide) (by decide)
    (by decide) (by decide)

/-- What erasing does to the range of an entry: every index that ended at the
erased place reads `NULL`, every other index reads what it read before. -/
theorem erase_range_reads {k k' : Kernel} {L L' : Nat → Prop} (hi : Inv k L) (hi' : Inv k' L')
    {w : Place} (hs : SimOff k k' w) (fuel : Nat) (hf : 64 ≤ fuel) :
    (∀ j, Loc k j w → xa_load fuel k' j = some 0) ∧
    (∀ j, ¬ Loc k j w → xa_load fuel k' j = xa_load fuel k j) := by
  constructor
  · intro j hj
    obtain ⟨w2, h1, h2, _⟩ := hs j w hj
    rw [xa_load_of_loc hi'.core (by omega) h1, (h2 rfl).1]
  · intro j hj
    obtain ⟨w1, hl1⟩ := loc_exists hi.core j
    obtain ⟨w2, h1, _, h3⟩ := hs j w1 hl1
    have hne : w1 ≠ w := fun h => hj (h ▸ hl1)
    rw [xa_load_of_loc hi'.core (by omega) h1, xa_load_of_loc hi.core (by omega) hl1, (h3 hne).1]

/-- The example array `ex_range` (an entry of order 2 stored at index 8) is
well formed and its entry occupies exactly the indices 8 to 11. -/
theorem ex_range_facts :
    WF ex_range ∧ ∀ j, Covers ex_range 8 j ↔ (8 ≤ j ∧ j < 8 + 2 ^ 2) := by
  obtain ⟨L0, hi0⟩ := wf_init 0 0 4096 (fun _ _ => true) (by decide) (by decide) (by decide)
  obtain ⟨k', L', xas', w, h1, h2, _, _, h5, _⟩ :=
    xas_store_order_empty hi0 (allocOK_init 0 0 4096) rfl 8 2 24 64 (by decide) (by decide)
      (by decide) (by decide) (by decide) (by decide)
  have he : ex_range = k' := by
    unfold ex_range ex_after ex_empty
    rw [h1]
    rfl
  rw [he]
  refine ⟨⟨L', h2⟩, ?_⟩
  intro j
  rw [← h5 j]
  have h8 : Loc k' 8 w := (h5 8).2 (by decide)
  constructor
  · rintro ⟨w1, a, b⟩
    rw [loc_unique h2.core h8 a]
    exact b
  · intro h
    exact ⟨w, h8, h⟩

/-- C20: for a multi-index entry that occupies exactly the indices
`[b, b + 2^ord - 1]` (the indices whose walk ends where the walk for `b`
ends) and every index `i` of that range, `xa_erase` and `__xa_erase` at `i`
return the entry; afterwards every index of the range reads `NULL`, every
index outside the range reads what it read before, and no slot of the node
holds a sibling entry that points at the erased canonical slot. -/
theorem C20_erase_multi_index (k : Kernel) (b ord i fuel : Nat) (hwf : WF k)
    (hrange : ∀ j, Covers k b j ↔ (b ≤ j ∧ j < b + 2 ^ ord))
    (hib : b ≤ i) (hie : i < b + 2 ^ ord) (hf : 64 ≤ fuel) :
    ∃ e, xa_load fuel k b = some e ∧ xa_load fuel k i = some e ∧
      (∃ k', xa_erase fuel k i = some (k', e) ∧ WF k' ∧
        (∀ j, b ≤ j → j < b + 2 ^ ord → xa_load fuel k' j = some 0) ∧
        (∀ j, ¬ (b ≤ j ∧ j < b + 2 ^ ord) → xa_load fuel k' j = xa_load fuel k j) ∧
        ∀ w, Loc k b w → NoSibTo k' w) ∧
      (∃ k', __xa_erase fuel k i = some (k', e) ∧ WF k' ∧
        (∀ j, b ≤ j → j < b + 2 ^ ord → xa_load fuel k' j = some 0) ∧
        (∀ j, ¬ (b ≤ j ∧ j < b + 2 ^ ord) → xa_load fuel k' j = xa_load fuel k j) ∧
        ∀ w, Loc k b w → NoSibTo k' w) := by
  obtain ⟨L, hi⟩ := hwf
  obtain ⟨w0, hl0⟩ := loc_exists hi.core b
  have hloc : ∀ j, Loc k j w0 ↔ (b ≤ j ∧ j < b + 2 ^ ord) := by
    intro j
    rw [← hrange j]
    constructor
    · intro h
      exact ⟨w0, hl0, h⟩
    · rintro ⟨w, h1, h2⟩
      rw [loc_unique hi.core hl0 h1]
      exact h2
  have hli : Loc k i w0 := (hloc i).2 ⟨hib, hie⟩
  have key : ∀ k' L', Inv k' L' → SimOff k k' w0 → NoSibTo k' w0 →
      WF k' ∧ (∀ j, b ≤ j → j < b + 2 ^ ord → xa_load fuel k' j = some 0) ∧
        (∀ j, ¬ (b ≤ j ∧ j < b + 2 ^ ord) → xa_load fuel k' j = xa_load fuel k j) ∧
        ∀ w, Loc k b w → NoSibTo k' w := by
    intro k' L' s2 s3 s4
    obtain ⟨r1, r2⟩ := erase_range_reads hi s2 s3 fuel hf
    refine ⟨⟨L', s2⟩, fun j h1 h2 => r1 j ((hloc j).2 ⟨h1, h2⟩),
      fun j h => r2 j (fun hl => h ((hloc j).1 hl)), ?_⟩
    intro w hw
    rw [loc_unique hi.core hw hl0]
    exact s4
  obtain ⟨k1, L1, a1, a2, a3, _, _, a6, _⟩ := xa_store_null hi i 0 fuel w0 hli hf
  obtain ⟨k2, L2, b1, b2, b3, b4⟩ := xa_erase_locked_spec hi i fuel w0 hli hf
  exact ⟨_, xa_load_of_loc hi.core (by omega) hl0, xa_load_of_loc hi.core (by omega) hli,
    ⟨k1, a1, key k1 L1 a2 a3 a6⟩, ⟨k2, b1, key k2 L2 b2 b3 b4⟩⟩

theorem C20_erase_multi_index_witness :
    (∀ j, Covers ex_range 8 j ↔ (8 ≤ j ∧ j < 8 + 2 ^ 2)) ∧
    ∃ e, xa_load 64 ex_range 8 = some e ∧ xa_load 64 ex_range 10 = some e ∧
      (∃ k', xa_erase 64 ex_range 10 = some (k', e) ∧ WF k' ∧
        (∀ j, 8 ≤ j → j < 8 + 2 ^ 2 → xa_load 64 k' j = some 0) ∧
        (∀ j, ¬ (8 ≤ j ∧ j < 8 + 2 ^ 2) → xa_load 64 k' j = xa_load 64 ex_range j) ∧
        ∀ w, Loc ex_range 8 w → NoSibTo k' w) ∧
      (∃ k', __xa_erase 64 ex_range 10 = some (k', e) ∧ WF k' ∧
        (∀ j, 8 ≤ j → j < 8 + 2 ^ 2 → xa_load 64 k' j = some 0) ∧
        (∀ j, ¬ (8 ≤ j ∧ j < 8 + 2 ^ 2) → xa_load 64 k' j = xa_load 64 ex_range j) ∧
        ∀ w, Loc ex_range 8 w → NoSibTo k' w) :=
  ⟨ex_range_facts.2, C20_erase_multi_index ex_range 8 2 10 64 ex_range_facts.1 ex_range_facts.2
    (by decide) (by decide) (by decide)⟩

theorem xas_free_nodes_up_mono (top : Nat) : ∀ (f : Nat) (k : Kernel) (n o : Nat)
    (r : Kernel × Option (Nat × Nat)),
    xas_free_nodes_up top f k n o = some r → xas_free_nodes_up top (f + 1) k n o = some r := by
  intro f
  induction f with
  | zero =>
    intro k n o r h
    simp [xas_free_nodes_up] at h
  | succ f ih =>
    intro k n o r h
    rw [xas_free_nodes_up] at h ⊢
    by_cases ho : o = XA_CHUNK_SIZE
    · simp only [ho, if_true] at h ⊢
      by_cases ht : n = top
      · simpa [ht] using h
      · simp only [ht, if_false] at h ⊢
        exact ih _ _ _ _ h
    · simpa [ho] using h

theorem xas_free_nodes_loop_mono (top : Nat) : ∀ (f : Nat) (k : Kernel) (n o : Nat) (r : Kernel),
    xas_free_nodes_loop top f k n o = some r → xas_free_nodes_loop top (f + 1) k n o = some r := by
  intro f
  induction f with
  | zero =>
    intro k n o r h
    simp [xas_free_nodes_loop] at h
  | succ f ih =>
    intro k n o r h
    rw [xas_free_nodes_loop] at h ⊢
    simp only [] at h ⊢
    by_cases hn : xa_is_node (xa_entry k n o) = true
    · simp only [hn, if_true] at h ⊢
      exact ih _ _ _ _ h
    · simp only [hn, Bool.false_eq_true, if_false] at h ⊢
      generalize hk1 : (if xa_entry k n o ≠ 0 then
          k.setNode n { k.mem n with slots := fun i =>
            if i = o then XA_RETRY_ENTRY else (k.mem n).slots i }
        else k) = k1 at h ⊢
      cases hu : xas_free_nodes_up top (f + 1) k1 n (o + 1) with
      | none => simp [hu] at h
      | some u =>
        rw [xas_free_nodes_up_mono top _ _ _ _ _ hu]
        rw [hu] at h
        obtain ⟨k2, _ | ⟨n2, o2⟩⟩ := u
        · exact h
        · exact ih _ _ _ _ h

theorem xas_free_nodes_loop_le (top : Nat) {f f' : Nat} (hf : f ≤ f') {k : Kernel} {n o : Nat}
    {r : Kernel} (h : xas_free_nodes_loop top f k n o = some r) :
    xas_free_nodes_loop top f' k n o = some r := by
  induction hf with
  | refl => exact h
  | step _ ih => exact xas_free_nodes_loop_mono top _ _ _ _ _ ih

theorem freeDone_of_loop {top : Nat} {k : Kernel} {x o f : Nat} {k' : Kernel}
    (ho : o ≠ XA_CHUNK_SIZE) (h : xas_free_nodes_loop top f k x o = some k') :
    FreeDone top k x o k' := by
  refine ⟨1, f, ?_⟩
  simp only [xas_free_nodes_rest, xas_free_nodes_up, ho, if_false]
  exact h

theorem loop_of_freeDone {top : Nat} {k : Kernel} {x o : Nat} {k' : Kernel}
    (ho : o ≠ XA_CHUNK_SIZE) (h : FreeDone top k x o k') :
    ∃ f, xas_free_nodes_loop top f k x o = some k' := by
  obtain ⟨f1, f2, h⟩ := h
  cases f1 with
  | zero => simp [xas_free_nodes_rest, xas_free_nodes_up] at h
  | succ f1 =>
    simp only [xas_free_nodes_rest, xas_free_nodes_up, ho, if_false] at h
    exact ⟨f2, h⟩

theorem freeDone_up {top : Nat} {k : Kernel} {x : Nat} {k' : Kernel} (hx : x ≠ top)
    (h : FreeDone top (xas_free_nodes_freed k x) (xa_parent k x) ((k.mem x).offset + 1) k') :
    FreeDone top k x XA_CHUNK_SIZE k' := by
  obtain ⟨f1, f2, h⟩ := h
  refine ⟨f1 + 1, f2, ?_⟩
  simp only [xas_free_nodes_rest, xas_free_nodes_up, if_true, hx, if_false] at h ⊢
  exact h

theorem freeDone_top (top : Nat) (k : Kernel) :
    FreeDone top k top XA_CHUNK_SIZE (xas_free_nodes_freed k top) := by
  refine ⟨1, 0, ?_⟩
  simp [xas_free_nodes_rest, xas_free_nodes_up, xas_free_nodes_freed]

theorem loop_free_node {top : Nat} {k : Kernel} {x o : Nat} {k' : Kernel}
    (hn : xa_is_node ((k.mem x).slots o) = true)
    (h : ∃ f, xas_free_nodes_loop top f k (xa_to_node ((k.mem x).slots o)) 0 = some k') :
    ∃ f, xas_free_nodes_loop top f k x o = some k' := by
  obtain ⟨f, h⟩ := h
  refine ⟨f + 1, ?_⟩
  rw [xas_free_nodes_loop]
  simp only [xa_entry, hn, if_true]
  exact h

theorem loop_free_leaf {top : Nat} {k : Kernel} {x o : Nat} {k' : Kernel}
    (hn : xa_is_node ((k.mem x).slots o) = false)
    (h : FreeDone top (xas_free_nodes_mark k x o) x (o + 1) k') :
    ∃ f, xas_free_nodes_loop top f k x o = some k' := by
  obtain ⟨f1, f2, h⟩ := h
  refine ⟨max f1 f2 + 1, ?_⟩
  rw [xas_free_nodes_loop]
  simp only [xa_entry, hn, Bool.false_eq_true, if_false]
  simp only [xas_free_nodes_rest, xas_free_nodes_mark, xa_entry] at h
  generalize hk1 : (if (k.mem x).slots o ≠ 0 then
      k.setNode x { k.mem x with slots := fun i =>
        if i = o then XA_RETRY_ENTRY else (k.mem x).slots i }
    else k) = k1 at h ⊢
  cases hu : xas_free_nodes_up top f1 k1 x (o + 1) with
  | none => simp [hu] at h
  | some u =>
    have hle : ∀ d, xas_free_nodes_up top (f1 + d) k1 x (o + 1) = some u := by
      intro d
      induction d with
      | zero => exact hu
      | succ d ih => exact xas_free_nodes_up_mono top _ _ _ _ _ ih
    have e : max f1 f2 + 1 = f1 + (max f1 f2 + 1 - f1) := by omega
    rw [e, hle]
    rw [hu] at h
    obtain ⟨k2, _ | ⟨n2, o2⟩⟩ := u
    · exact h
    · exact xas_free_nodes_loop_le top (by omega) h

theorem freeFrame_refl (k : Kernel) : FreeFrame k k :=
  ⟨rfl, rfl, rfl, rfl, fun _ => rfl, fun _ => rfl, fun _ _ => ⟨rfl, fun _ => rfl⟩, fun _ h => h⟩

theorem freeFrame_mark {k0 k : Kernel} (h : FreeFrame k0 k) (x o : Nat)
    (hn : xa_is_node ((k.mem x).slots o) = false) :
    FreeFrame k0 (xas_free_nodes_mark k x o) ∧
      (xas_free_nodes_mark k x o).rcu_pending = k.rcu_pending := by
  unfold xas_free_nodes_mark
  by_cases he : xa_entry k x o ≠ 0
  · rw [if_pos he]
    refine ⟨⟨h.head, h.flags, h.next, h.grant, ?_, ?_, ?_, h.rcu⟩, rfl⟩
    · intro z
      by_cases hz : z = x
      · simp [Kernel.setNode, hz, h.parent]
      · simp [Kernel.setNode, hz, h.parent]
    · intro z
      by_cases hz : z = x
      · simp [Kernel.setNode, hz, h.offset]
      · simp [Kernel.setNode, hz, h.offset]
    · intro z q
      by_cases hz : z = x
      · by_cases hq : q = o
        · subst hz hq
          have h1 := (h.links z q).1
          rw [hn] at h1
          simp only [Kernel.setNode, if_true]
          rw [← h1]
          exact ⟨by decide, fun hh => absurd hh (by decide)⟩
        · simp only [Kernel.setNode, hz, if_true, hq, if_false]
          exact h.links x q
      · simp only [Kernel.setNode, hz, if_false]
        exact h.links z q
  · rw [if_neg he]
    exact ⟨h, rfl⟩

theorem freeFrame_freed {k0 k : Kernel} (h : FreeFrame k0 k) (x : Nat) :
    FreeFrame k0 (xas_free_nodes_freed k x) ∧ x ∈ (xas_free_nodes_freed k x).rcu_pending ∧
      ∀ z, z ∈ k.rcu_pending → z ∈ (xas_free_nodes_freed k x).rcu_pending := by
  unfold xas_free_nodes_freed xa_node_free
  refine ⟨⟨h.head, h.flags, h.next, h.grant, ?_, ?_, ?_, ?_⟩, ?_, ?_⟩
  · intro z
    by_cases hz : z = x
    · simp [Kernel.setNode, hz, h.parent]
    · simp [Kernel.setNode, hz, h.parent]
  · intro z
    by_cases hz : z = x
    · simp [Kernel.setNode, hz, h.offset]
    · simp [Kernel.setNode, hz, h.offset]
  · intro z q
    by_cases hz : z = x
    · simp only [Kernel.setNode, hz, if_true]
      exact h.links x q
    · simp only [Kernel.setNode, hz, if_false]
      exact h.links z q
  · intro z hz
    exact List.mem_cons_of_mem _ (h.rcu z hz)
  · exact List.mem_cons_self _ _
  · intro z hz
    exact List.mem_cons_of_mem _ hz

theorem under_cases {k : Kernel} {p d : Nat} (h : Under k p d) :
    d = p ∨ ∃ q, q < 64 ∧ xa_is_node ((k.mem p).slots q) = true ∧
      Under k (xa_to_node ((k.mem p).slots q)) d := by
  induction h with
  | self => exact Or.inl rfl
  | child x o _ ho hn ih =>
    right
    rcases ih with rfl | ⟨q, hq, hqn, hu⟩
    · exact ⟨o, ho, hn, Under.self⟩
    · exact ⟨q, hq, hqn, Under.child x o hu ho hn⟩

/-- The walk of `xas_free_nodes` through the slots `o..63` of node `x` and
everything below them: it comes back to `x` with offset 64, having passed to
`call_rcu` every node below these slots. -/
theorem xas_free_nodes_subtree {k0 : Kernel} {L : Nat → Prop} (top : Nat)
    (htop : (k0.mem top).parent = 0)
    (hch : ∀ x, L x → x ≠ 0 ∧ ∀ o, o < 64 → xa_is_node ((k0.mem x).slots o) = true →
      L (xa_to_node ((k0.mem x).slots o)) ∧
      (k0.mem (xa_to_node ((k0.mem x).slots o))).parent = x ∧
      (k0.mem (xa_to_node ((k0.mem x).slots o))).offset = o ∧
      (k0.mem (xa_to_node ((k0.mem x).slots o))).shift < (k0.mem x).shift) :
    ∀ n x, L x → (k0.mem x).shift = n → ∀ m o, o + m = 64 → ∀ k, FreeFrame k0 k →
      ∃ k2, FreeFrame k0 k2 ∧ (∀ z, z ∈ k.rcu_pending → z ∈ k2.rcu_pending) ∧
        (∀ q, o ≤ q → q < 64 → xa_is_node ((k0.mem x).slots q) = true →
          ∀ d, Under k0 (xa_to_node ((k0.mem x).slots q)) d → d ∈ k2.rcu_pending) ∧
        ∀ k', FreeDone top k2 x XA_CHUNK_SIZE k' → FreeDone top k x o k' := by
  intro n
  induction n using Nat.strong_induction_on with
  | _ n ihn =>
    intro x hx hsh m
    induction m with
    | zero =>
      intro o ho k hk
      have : o = XA_CHUNK_SIZE := by
        unfold XA_CHUNK_SIZE
        omega
      subst this
      exact ⟨k, hk, fun _ h => h, fun q h1 h2 => by
        unfold XA_CHUNK_SIZE at h1
        omega, fun _ h => h⟩
    | succ m ihm =>
      intro o ho k hk
      have ho64 : o ≠ XA_CHUNK_SIZE := by
        unfold XA_CHUNK_SIZE
        omega
      by_cases hn : xa_is_node ((k.mem x).slots o) = true
      · have hn0 : xa_is_node ((k0.mem x).slots o) = true := by
          rw [← (hk.links x o).1]
          exact hn
        have hsl : (k.mem x).slots o = (k0.mem x).slots o := (hk.links x o).2 hn0
        obtain ⟨hx0, hc⟩ := hch x hx
        obtain ⟨c1, c2, c3, c4⟩ := hc o (by omega) hn0
        generalize hcd : xa_to_node ((k0.mem x).slots o) = c at c1 c2 c3 c4
        obtain ⟨ka, a1, a2, a3, a4⟩ := ihn _ (by omega) c c1 rfl 64 0 (by omega) k hk
        obtain ⟨b1, b2, b3⟩ := freeFrame_freed a1 c
        obtain ⟨k2, d1, d2, d3, d4⟩ := ihm (o + 1) (by omega) _ b1
        refine ⟨k2, d1, fun z hz => d2 z (b3 z (a2 z hz)), ?_, ?_⟩
        · intro q hq1 hq2 hqn d hd
          by_cases hqo : q = o
          · subst hqo
            rw [hcd] at hd
            rcases under_cases hd with rfl | ⟨q', h1, h2, h3⟩
            · exact d2 _ b2
            · exact d2 _ (b3 _ (a3 q' (by omega) h1 h2 d h3))
          · exact d3 q (by omega) hq2 hqn d hd
        · intro k' hk'
          have e1 := d4 k' hk'
          have hct : c ≠ top := by
            intro h
            rw [h, htop] at c2
            exact hx0 c2.symm
          have e2 : FreeDone top ka c XA_CHUNK_SIZE k' := by
            apply freeDone_up hct
            rw [xa_parent, a1.parent, a1.offset, c2, c3]
            exact e1
          have e3 := loop_of_freeDone (by decide) (a4 k' e2)
          obtain ⟨f, e4⟩ := loop_free_node hn (by rw [hsl, hcd]; exact e3)
          exact freeDone_of_loop ho64 e4
      · have hn' : xa_is_node ((k.mem x).slots o) = false := by simpa using hn
        obtain ⟨b1, b2⟩ := freeFrame_mark hk x o hn'
        obtain ⟨k2, d1, d2, d3, d4⟩ := ihm (o + 1) (by omega) _ b1
        refine ⟨k2, d1, fun z hz => d2 z (by rw [b2]; exact hz), ?_, ?_⟩
        · intro q hq1 hq2 hqn d hd
          by_cases hqo : q = o
          · subst hqo
            rw [← (hk.links x q).1, hn'] at hqn
            exact absurd hqn (by decide)
          · exact d3 q (by omega) hq2 hqn d hd
        · intro k' hk'
          obtain ⟨f, e4⟩ := loop_free_leaf hn' (d4 k' hk')
          exact freeDone_of_loop ho64 e4

theorem xa_tag_clear_fields (k : Kernel) (t : Nat) :
    (xa_tag_clear k t).mem = k.mem ∧ (xa_tag_clear k t).xa_head = k.xa_head ∧
    (xa_tag_clear k t).slab_next = k.slab_next ∧
    (xa_tag_clear k t).slab_grant = k.slab_grant ∧
    (xa_tag_clear k t).rcu_pending = k.rcu_pending := by
  unfold xa_tag_clear
  split_ifs <;> exact ⟨rfl, rfl, rfl, rfl, rfl⟩

theorem xas_clear_tag_null (f : Nat) (k : Kernel) (t : Nat) :
    xas_clear_tag (f + 1) k { XA_STATE 0 with xa_node := 0 } t = some (xa_tag_clear k t) := by
  unfold xas_clear_tag
  simp only [xas_invalid, xas_clear_tag_loop]
  have h : ((0 : Nat) &&& 3 != 0) = false := by decide
  simp only [h, Bool.false_eq_true, if_false, ne_eq, not_true]
  by_cases ht : xa_tagged k t = true
  · simp [ht]
  · simp only [ht, if_false]
    unfold xa_tag_clear
    unfold xa_tagged at ht
    simp only [ht, if_false]
    simp

theorem xas_init_tags_null (f : Nat) (k : Kernel) :
    xas_init_tags (f + 1) k { XA_STATE 0 with xa_node := 0 } =
      some (xa_tag_clear (xa_tag_clear (xa_tag_clear k 0) 1) 2) := by
  unfold xas_init_tags
  simp only [xas_clear_tag_null]

theorem xa_tagged_init_tags (k : Kernel) (t : Nat) (ht : t < 3) :
    xa_tagged (xa_tag_clear (xa_tag_clear (xa_tag_clear k 0) 1) 2) t = false := by
  rw [xa_tagged_clear _ 2 t (by decide) ht, xa_tagged_clear _ 1 t (by decide) ht,
    xa_tagged_clear _ 0 t (by decide) ht]
  have : t = 0 ∨ t = 1 ∨ t = 2 := by omega
  rcases this with rfl | rfl | rfl <;> simp

theorem under_congr {k k' : Kernel} (h : k'.mem = k.mem) {p d : Nat} (hu : Under k p d) :
    Under k' p d := by
  induction hu with
  | self => exact Under.self
  | child x o _ ho hn ih =>
    have := Under.child (k := k') x o ih ho (by rw [h]; exact hn)
    rw [h] at this
    exact this

/-- What `xa_destroy` does on a well-formed array: with enough fuel it ends,
in a state with `NULL` head, no tag flags and no live node, and every node
that was linked below the head has been passed to `call_rcu`. -/
theorem xa_destroy_spec {k : Kernel} {L : Nat → Prop} (hi : Inv k L) :
    ∃ f0 k', (∀ fuel, f0 ≤ fuel → xa_destroy fuel k = some k') ∧ k'.xa_head = 0 ∧
      Inv k' (fun _ => False) ∧ (∀ t, t < 3 → xa_tagged k' t = false) ∧
      ∀ x, xa_is_node k.xa_head = true → Under k (xa_to_node k.xa_head) x →
        x ∈ k'.rcu_pending := by
  generalize hkB : xa_tag_clear (xa_tag_clear (xa_tag_clear { k with xa_head := 0 } 0) 1) 2 = kB
  have hB : kB.mem = k.mem ∧ kB.xa_head = 0 ∧ kB.slab_next = k.slab_next := by
    rw [← hkB]
    simp only [xa_tag_clear_fields]
    exact ⟨trivial, trivial, trivial⟩
  obtain ⟨hm, hh, hnx⟩ := hB
  have htg : ∀ t, t < 3 → xa_tagged kB t = false := by
    intro t ht
    rw [← hkB]
    exact xa_tagged_init_tags _ t ht
  have hinv : ∀ k', k'.xa_head = 0 → k'.slab_next = k.slab_next →
      k'.xa_flags = kB.xa_flags → Inv k' (fun _ => False) := by
    intro k' h1 h2 h3
    refine ⟨⟨?_, ?_, fun _ h => h.elim, ?_, ?_⟩, ?_, fun _ h => h.elim⟩
    · rw [h1]
      intro h
      exact absurd h (by decide)
    · rw [h1]
      exact fun _ => ⟨by decide, fun _ h => h⟩
    · rw [h2]
      exact hi.core.slab_align
    · rw [h2]
      exact hi.core.slab_big
    · intro _ t ht
      rw [xa_tagged_congr t h3]
      exact htg t ht
  have hrun : ∀ fuel, 1 ≤ fuel → xa_destroy fuel k =
      if xa_is_node k.xa_head then xas_free_nodes fuel kB (xa_to_node k.xa_head)
      else some kB := by
    intro fuel hf
    obtain ⟨f, rfl⟩ : ∃ f, fuel = f + 1 := ⟨fuel - 1, by omega⟩
    unfold xa_destroy
    simp only [xas_init_tags_null, xa_head, hkB]
  by_cases hn : xa_is_node k.xa_head = true
  · obtain ⟨hL, hp⟩ := hi.core.head_node hn
    generalize htop : xa_to_node k.xa_head = top
    have htop' : k.xa_head - 2 = top := htop
    rw [htop'] at hL hp
    have hch : ∀ x, L x → x ≠ 0 ∧ ∀ o, o < 64 → xa_is_node ((kB.mem x).slots o) = true →
        L (xa_to_node ((kB.mem x).slots o)) ∧
        (kB.mem (xa_to_node ((kB.mem x).slots o))).parent = x ∧
        (kB.mem (xa_to_node ((kB.mem x).slots o))).offset = o ∧
        (kB.mem (xa_to_node ((kB.mem x).slots o))).shift < (kB.mem x).shift := by
      intro x hx
      rw [hm]
      have hnx := hi.core.nodes x hx
      refine ⟨by have := hnx.big; omega, ?_⟩
      intro o ho hno
      obtain ⟨c1, c2, c3⟩ := hnx.child o ho hno
      have hc := hi.core.nodes _ c1
      have hup := hc.up (by rw [c2]; have := hnx.big; omega)
      rw [c2] at hup
      refine ⟨c1, c2, c3, ?_⟩
      show (k.mem ((k.mem x).slots o - 2)).shift < _
      omega
    obtain ⟨k2, d1, _, d3, d4⟩ :=
      xas_free_nodes_subtree top (by rw [hm]; exact hp) hch _ top hL rfl 64 0 (by omega) kB
        (freeFrame_refl kB)
    obtain ⟨b1, b2, b3⟩ := freeFrame_freed d1 top
    obtain ⟨f, hf⟩ := loop_of_freeDone (by decide) (d4 _ (freeDone_top top k2))
    refine ⟨f + 1, _, ?_, by rw [b1.head, hh], hinv _ (by rw [b1.head, hh]) (by rw [b1.next, hnx])
      b1.flags, fun t ht => by rw [xa_tagged_congr t b1.flags]; exact htg t ht, ?_⟩
    · intro fuel hfu
      rw [hrun fuel (by omega), if_pos hn, htop]
      exact xas_free_nodes_loop_le top (by omega) hf
    · intro x _ hu
      rcases under_cases hu with rfl | ⟨q, h1, h2, h3⟩
      · exact b2
      · rw [← hm] at h2 h3
        exact b3 _ (d3 q (by omega) h1 h2 x (under_congr (by rw [hm]) h3))
  · refine ⟨1, kB, ?_, hh, hinv kB hh hnx rfl, htg, fun x h => absurd h hn⟩
    intro fuel hfu
    rw [hrun fuel hfu, if_neg hn]

theorem ex_two_wf : WF ex_two := by
  obtain ⟨⟨L, hi, _⟩, hg, _⟩ := built_facts ex_one_built (by decide)
  obtain ⟨k', L', c, _, s2, s3, _⟩ :=
    xa_store_spec hi hg 70 12 0 64 (by decide) (by decide) (by decide)
  have h : ex_two = k' := by
    unfold ex_two ex_after
    rw [s2]
    rfl
  rw [h]
  exact ⟨L', s3⟩

/-- C13: for every well-formed array, `xa_destroy` ends (with enough fuel)
in a state where `xa_empty` is true, `xa_load` returns `NULL` for every
index, `xa_tagged` is false for each of the three tags, and every node that
was linked below the head has been passed to `call_rcu`. -/
theorem C13_destroy (k : Kernel) (hwf : WF k) :
    ∃ f0 k', ∀ fuel, f0 ≤ fuel →
      xa_destroy fuel k = some k' ∧ xa_empty k' = true ∧ WF k' ∧
      (∀ i, xa_load fuel k' i = some 0) ∧ (∀ t, t < 3 → xa_tagged k' t = false) ∧
      ∀ x, xa_is_node k.xa_head = true → Under k (xa_to_node k.xa_head) x →
        x ∈ k'.rcu_pending := by
  obtain ⟨L, hi⟩ := hwf
  obtain ⟨f0, k', h1, h2, h3, h4, h5⟩ := xa_destroy_spec hi
  refine ⟨max f0 12, k', ?_⟩
  intro fuel hf
  refine ⟨h1 fuel (by omega), by simp [xa_empty, h2], ⟨_, h3⟩, ?_, h4, h5⟩
  intro i
  obtain ⟨w, hw⟩ := loc_exists h3.core i
  rw [xa_load_of_loc h3.core (by omega) hw, empty_reads_null h2 hw]

theorem C13_destroy_witness :
    ∃ f0 k', ∀ fuel, f0 ≤ fuel →
      xa_destroy fuel ex_two = some k' ∧ xa_empty k' = true ∧ WF k' ∧
      (∀ i, xa_load fuel k' i = some 0) ∧ (∀ t, t < 3 → xa_tagged k' t = false) ∧
      ∀ x, xa_is_node ex_two.xa_head = true → Under ex_two (xa_to_node ex_two.xa_head) x →
        x ∈ k'.rcu_pending :=
  C13_destroy ex_two ex_two_wf

/-- Below a node with a tag bit set there is an entry with the tag. -/
theorem tagged_leaf_below {k : Kernel} {L : Nat → Prop} (hi : Inv k L) (t : Nat) (ht : t < 3) :
    ∀ n x B, L x → (k.mem x).shift = n → NodeBlock k x B →
      node_any_tag (k.mem x) t = true → ∃ i w, Loc k i w ∧ tag_at k t w = true := by
  intro n
  induction n using Nat.strong_induction_on with
  | _ n ihn =>
    intro x B hx hsh hb hany
    obtain ⟨o, ho, hbit⟩ := (node_any_tag_iff _ _).1 hany
    have hnx := hi.core.nodes x hx
    by_cases hn : xa_is_node ((k.mem x).slots o) = true
    · have hgt : (k.mem x).slots o > 4096 := by
        unfold xa_is_node at hn
        simp only [Bool.and_eq_true, decide_eq_true_eq] at hn
        exact hn.2
      have hs : (k.mem x).slots o = ((k.mem x).slots o - 2) + 2 := by omega
      rw [hs] at hn
      obtain ⟨c1, c2, c3, c4, c5⟩ := nodeBlock_child hi.core hb ho hs hn
      have htu := hi.tags _ c3 t ht
      unfold TagUp at htu
      rw [c4, if_neg (by have := hnx.big; omega), c5, hbit] at htu
      exact ihn _ (by omega) _ _ c3 rfl c1 htu.symm
    · have hn' : xa_is_node ((k.mem x).slots o) = false := by simpa using hn
      obtain ⟨_, hsib⟩ := hnx.tag_null o t ho ht hbit
      refine ⟨(64 * B + o) <<< (k.mem x).shift, Place.slot x o, ?_, hbit⟩
      have e1 : ((64 * B + o) <<< (k.mem x).shift) >>> (k.mem x).shift = 64 * B + o :=
        shl_shr_cancel _ _
      rw [loc_slot_iff]
      refine ⟨(hb _).2 ?_, ?_, hn'⟩
      · rw [Nat.shiftRight_add, e1, Nat.shiftRight_eq_div_pow]
        omega
      · rw [get_offset_eq, e1]
        have : (64 * B + o) % 64 = o := by omega
        rw [this]
        unfold canon
        rw [hsib]
        simp

/-- The array flag of a tag is set exactly when some index below `2^64` has
the tag, in a well-formed array that holds nothing beyond `ULONG_MAX`. -/
theorem xa_tagged_iff_get_tag {k : Kernel} {L : Nat → Prop} (hi : Inv k L) (hfit : Fits k)
    (t fuel : Nat) (ht : t < 3) (hf : 13 ≤ fuel) :
    xa_tagged k t = true ↔ ∃ i, i < 2 ^ 64 ∧ xa_get_tag fuel k i t = some true := by
  constructor
  · intro htag
    have key : ∀ i w, Loc k i w → tag_at k t w = true →
        ∃ i, i < 2 ^ 64 ∧ xa_get_tag fuel k i t = some true := by
      intro i w hl hb
      refine ⟨i, ?_, by rw [xa_get_tag_of_loc hi ht hf hl, hb]⟩
      by_contra hge
      exact tag_at_entry hi ht hl hb (hfit i w (by omega) hl)
    by_cases hn : xa_is_node k.xa_head = true
    · obtain ⟨hL, hp⟩ := hi.core.head_node hn
      have hgt : k.xa_head > 4096 := by
        unfold xa_is_node at hn
        simp only [Bool.and_eq_true, decide_eq_true_eq] at hn
        exact hn.2
      have hh : k.xa_head = (k.xa_head - 2) + 2 := by omega
      have hv : Visits k 0 (k.xa_head - 2) :=
        Visits.root _ hh (by rw [← hh]; exact hn) (by simp)
      have hb := nodeBlock_of_visits hi.core hv
      have htu := hi.tags _ hL t ht
      unfold TagUp at htu
      rw [if_pos hp, htag] at htu
      obtain ⟨i, w, h1, h2⟩ := tagged_leaf_below hi t ht _ _ _ hL rfl hb htu.symm
      exact key i w h1 h2
    · have hn' : xa_is_node k.xa_head = false := by simpa using hn
      exact key 0 Place.head ⟨hn', rfl⟩ htag
  · rintro ⟨i, _, hg⟩
    obtain ⟨w, hl⟩ := loc_exists hi.core i
    rw [xa_get_tag_of_loc hi ht hf hl] at hg
    exact tagged_of_tag_at hi ht hl (Option.some.inj hg)

theorem fits_init (addr flags base : Nat) (grant : Nat → Nat → Bool) :
    Fits (xa_init_flags addr flags base grant) :=
  fun _ _ _ hl => empty_reads_null rfl hl

theorem fits_of_loads {k k' : Kernel} {L L' : Nat → Prop} (hc : Core k L) (hc' : Core k' L')
    (hfit : Fits k) (fuel : Nat) (hf : 12 ≤ fuel)
    (h : ∀ j, 2 ^ 64 ≤ j → xa_load fuel k' j = xa_load fuel k j) : Fits k' := by
  intro j w hj hl
  obtain ⟨w0, hl0⟩ := loc_exists hc j
  have e := h j hj
  rw [xa_load_of_loc hc' hf hl, xa_load_of_loc hc hf hl0, hfit j w0 hj hl0] at e
  exact Option.some.inj e

theorem fits_simOff {k k' : Kernel} {L' : Nat → Prop} (hc' : Core k' L') {w0 : Place}
    (hfit : Fits k) (hs : SimOff k k' w0) (hex : ∀ j, ∃ w, Loc k j w) : Fits k' := by
  intro j w hj hl
  obtain ⟨w1, hl1⟩ := hex j
  obtain ⟨w2, h1, h2, h3⟩ := hs j w1 hl1
  rw [loc_unique hc' hl h1]
  by_cases hw : w1 = w0
  · exact (h2 hw).1
  · rw [(h3 hw).1]
    exact hfit j w1 hj hl1

theorem fits_tagOnly {k k' : Kernel} (hfit : Fits k) (h : TagOnly k k') : Fits k' := by
  intro j w hj hl
  have hl0 := sameShape_loc (sameShape_symm (tagOnly_sameShape h)) hl
  rw [entry_at_tagOnly h]
  exact hfit j w hj hl0

/-- The states reached by the normal API are well formed, hold single-index
entries only, nothing beyond `ULONG_MAX`, and their node cache still grants
every request. -/
theorem reached_facts {fuel : Nat} {k : Kernel} (hr : Reached fuel k) (hf : 64 ≤ fuel) :
    WFS k ∧ AllocOK k ∧ Fits k := by
  have store_case : ∀ (k : Kernel) (i e gfp : Nat) (k' : Kernel) (r : Nat),
      WFS k ∧ AllocOK k ∧ Fits k → i < 2 ^ 64 → xa_store fuel k i e gfp = some (k', r) →
      WFS k' ∧ AllocOK k' ∧ Fits k' := by
    intro k i e gfp k' r ih hi64 hst
    obtain ⟨⟨L, hi, hm⟩, hg, hfit⟩ := ih
    by_cases he : xa_is_internal e = true
    · simp only [xa_store, he, if_true, Option.some.injEq, Prod.mk.injEq] at hst
      rw [← hst.1]
      exact ⟨⟨L, hi, hm⟩, hg, hfit⟩
    · have he' : xa_is_internal e = false := by simpa using he
      obtain ⟨k2, L2, c, _, s2, s3, s4, _, s6⟩ := xa_store_spec hi hg i e gfp fuel hi64 he' hf
      rw [s2] at hst
      simp only [Option.some.injEq, Prod.mk.injEq] at hst
      obtain ⟨rfl, _⟩ := hst
      obtain ⟨n1, n2⟩ := s6 hm
      exact ⟨⟨L2, s3, n1⟩, s4,
        fits_of_loads hi.core s3.core hfit fuel (by omega) (fun j hj => n2 j (by omega))⟩
  induction hr with
  | init addr flags base grant hb4 hb hfl hgr =>
    exact ⟨⟨_, inv_init addr flags base grant hb4 hb hfl, nomulti_init addr flags base grant⟩,
      fun n g => hgr n g, fits_init addr flags base grant⟩
  | store k i e gfp k' r _ hi64 hst ih => exact store_case k i e gfp k' r ih hi64 hst
  | erase k i k' r _ hi64 hst ih => exact store_case k i 0 0 k' r ih hi64 hst
  | set_tag k i t k' _ hi64 ht hst ih =>
    obtain ⟨⟨L, hi, hm⟩, hg, hfit⟩ := ih
    obtain ⟨w, hl⟩ := loc_exists hi.core i
    obtain ⟨k2, s1, s2, s3, _⟩ := xa_set_tag_spec hi i t fuel ht (by omega) w hl
    rw [s1] at hst
    obtain rfl := Option.some.inj hst
    exact ⟨⟨L, s2, nomulti_tagOnly s3 hm⟩, fun n g => by rw [s3.grant]; exact hg n g,
      fits_tagOnly hfit s3⟩
  | clear_tag k i t k' _ hi64 ht hst ih =>
    obtain ⟨⟨L, hi, hm⟩, hg, hfit⟩ := ih
    obtain ⟨w, hl⟩ := loc_exists hi.core i
    obtain ⟨k2, s1, s2, s3, _⟩ := xa_clear_tag_spec hi i t fuel ht (by omega) w hl
    rw [s1] at hst
    obtain rfl := Option.some.inj hst
    exact ⟨⟨L, s2, nomulti_tagOnly s3 hm⟩, fun n g => by rw [s3.grant]; exact hg n g,
      fits_tagOnly hfit s3⟩

/-- After erasing the entry at `i`, or clearing tag `t` at `i`, when no other
index has the tag: no index has it. -/
theorem last_tag_gone {k : Kernel} {L : Nat → Prop} (hi : Inv k L)
    (i t fuel : Nat) (ht : t < 3) (hf : 64 ≤ fuel)
    (hlast : ∀ j, j < 2 ^ 64 → j ≠ i → xa_get_tag fuel k j t = some false) :
    (∃ k' L' r, xa_erase fuel k i = some (k', r) ∧ Inv k' L' ∧ (Fits k → Fits k') ∧
      ∀ j, j < 2 ^ 64 → xa_get_tag fuel k' j t = some false) ∧
    (∃ k', xa_clear_tag fuel k i t = some k' ∧ Inv k' L ∧ (Fits k → Fits k') ∧
      ∀ j, j < 2 ^ 64 → xa_get_tag fuel k' j t = some false) := by
  obtain ⟨w, hl⟩ := loc_exists hi.core i
  have htag : ∀ j w1, j < 2 ^ 64 → Loc k j w1 → w1 ≠ w → tag_at k t w1 = false := by
    intro j w1 hj hl1 hne
    have hji : j ≠ i := by
      rintro rfl
      exact hne (loc_unique hi.core hl1 hl)
    have e := hlast j hj hji
    rw [xa_get_tag_of_loc hi ht (by omega) hl1] at e
    exact Option.some.inj e
  constructor
  · obtain ⟨k', L', s1, s2, s3, _⟩ := xa_store_null hi i 0 fuel w hl hf
    refine ⟨k', L', _, s1, s2, fun hfit => fits_simOff s2.core hfit s3 (loc_exists hi.core), ?_⟩
    intro j hj
    obtain ⟨w1, hl1⟩ := loc_exists hi.core j
    obtain ⟨w2, h1, h2, h3⟩ := s3 j w1 hl1
    rw [xa_get_tag_of_loc s2 ht (by omega) h1]
    by_cases hw : w1 = w
    · rw [(h2 hw).2 t ht]
    · rw [(h3 hw).2 t ht, htag j w1 hj hl1 hw]
  · obtain ⟨k', s1, s2, s3, s4, s5⟩ := xa_clear_tag_spec hi i t fuel ht (by omega) w hl
    refine ⟨k', s1, s2, fun hfit => fits_tagOnly hfit s3, ?_⟩
    intro j hj
    obtain ⟨w1, hl1⟩ := loc_exists hi.core j
    have hl1' := sameShape_loc (tagOnly_sameShape s3) hl1
    rw [xa_get_tag_of_loc s2 ht (by omega) hl1']
    by_cases hw : w1 = w
    · rw [hw, s4]
    · rw [s5 t w1 j hl1 (Or.inr hw) ht, htag j w1 hj hl1 hw]

theorem ex_two_tagged_reached : Reached 64 ex_two_tagged := by
  have h0 : Reached 64 ex_empty :=
    Reached.init 0 0 4096 _ (by decide) (by decide) (by decide) (fun _ _ => rfl)
  obtain ⟨⟨L0, hi0, _⟩, hg0, _⟩ := reached_facts h0 (by decide)
  obtain ⟨k1, L1, c1, _, a2, a3, a4, _⟩ :=
    xa_store_spec hi0 hg0 7 8 0 64 (by decide) (by decide) (by decide)
  have e1 : ex_one = k1 := by
    unfold ex_one
    rw [a2]
    rfl
  have h1 : Reached 64 ex_one := by
    rw [e1]
    exact Reached.store ex_empty 7 8 0 k1 c1 h0 (by decide) a2
  obtain ⟨k2, L2, c2, _, b2, b3, b4, _⟩ :=
    xa_store_spec (e1 ▸ a3) (e1 ▸ a4) 70 12 0 64 (by decide) (by decide) (by decide)
  have e2 : ex_two = k2 := by
    unfold ex_two ex_after
    rw [b2]
    rfl
  have h2 : Reached 64 ex_two := by
    rw [e2]
    exact Reached.store ex_one 70 12 0 k2 c2 h1 (by decide) b2
  obtain ⟨w, hl⟩ := loc_exists (e2 ▸ b3).core 70
  obtain ⟨k3, d1, _⟩ := xa_set_tag_spec (e2 ▸ b3) 70 1 64 (by decide) (by decide) w hl
  have e3 : ex_two_tagged = k3 := by
    unfold ex_two_tagged
    rw [d1]
    rfl
  rw [e3]
  exact Reached.set_tag ex_two 70 1 k3 h2 (by decide) (by decide) d1

theorem mask_clear (x s : Nat) (hx : x < 2 ^ 64) :
    x &&& (((WORD - 1 - XA_CHUNK_MASK) <<< s) % WORD) = (x >>> (s + 6)) <<< (s + 6) := by
  have h64 : WORD - 1 - XA_CHUNK_MASK = (2 ^ 58 - 1) <<< 6 := by decide
  rw [h64]
  apply Nat.eq_of_testBit_eq
  intro i
  simp only [Nat.testBit_and, Nat.testBit_shiftLeft, Nat.testBit_shiftRight, WORD,
    Nat.testBit_mod_two_pow, Nat.testBit_two_pow_sub_one]
  by_cases hi : i < 64
  · by_cases h1 : s + 6 ≤ i
    · have e1 : s + 6 + (i - (s + 6)) = i := by omega
      have a1 : decide (i < 64) = true := by simpa using hi
      have a2 : decide (i ≥ s) = true := by simp; omega
      have a3 : decide (i - s ≥ 6) = true := by simp; omega
      have a4 : decide (i - s - 6 < 58) = true := by simp; omega
      have a5 : decide (i ≥ s + 6) = true := by simpa using h1
      rw [a1, a2, a3, a4, a5, e1]
      simp
    · have a5 : decide (i ≥ s + 6) = false := by simpa using h1
      rw [a5]
      by_cases h2 : s ≤ i
      · have a3 : decide (i - s ≥ 6) = false := by simp; omega
        rw [a3]
        simp
      · have a2 : decide (i ≥ s) = false := by simpa using h2
        rw [a2]
        simp
  · have hb : x.testBit i = false := by
      apply Nat.testBit_eq_false_of_lt
      exact lt_of_lt_of_le hx (Nat.pow_le_pow_right (by omega) (by omega))
    have hb2 : x.testBit (s + 6 + (i - (s + 6))) = false := by
      apply Nat.testBit_eq_false_of_lt
      exact lt_of_lt_of_le hx (Nat.pow_le_pow_right (by omega) (by omega))
    rw [hb, hb2]
    simp

theorem shl_eq_mul (a s : Nat) : a <<< s = a * 2 ^ s := Nat.shiftLeft_eq a s

/-- `xas_move_index` on a cursor whose index lies in the block `B` of its
node: the index becomes the first index of slot `o`. -/
theorem xas_move_index_pos (k : Kernel) (xas : xa_state) (B o : Nat)
    (hx : xas.xa_index < 2 ^ 64)
    (hB : xas.xa_index >>> ((k.mem xas.xa_node).shift + 6) = B)
    (hlt : (64 * B + o) * 2 ^ (k.mem xas.xa_node).shift < 2 ^ 64) :
    (xas_move_index k xas o).xa_index = (64 * B + o) * 2 ^ (k.mem xas.xa_node).shift := by
  unfold xas_move_index
  simp only []
  rw [mask_clear _ _ hx, hB, shl_eq_mul, shl_eq_mul]
  have e : B * 2 ^ ((k.mem xas.xa_node).shift + 6) + o * 2 ^ (k.mem xas.xa_node).shift =
      (64 * B + o) * 2 ^ (k.mem xas.xa_node).shift := by
    rw [Nat.pow_add]
    ring
  rw [e]
  exact Nat.mod_eq_of_lt hlt

theorem xas_move_index_fields (k : Kernel) (xas : xa_state) (o : Nat) :
    (xas_move_index k xas o).xa_node = xas.xa_node ∧
    (xas_move_index k xas o).xa_offset = xas.xa_offset ∧
    (xas_move_index k xas o).xa_shift = xas.xa_shift ∧
    (xas_move_index k xas o).xa_sibs = xas.xa_sibs ∧
    (xas_move_index k xas o).xa_alloc = xas.xa_alloc :=
  ⟨rfl, rfl, rfl, rfl, rfl⟩

/-- The indices of slot `o` of a node of block `B` and shift `s`. -/
theorem slot_index_iff (j B o s : Nat) (ho : o < 64) :
    ((64 * B + o) * 2 ^ s ≤ j ∧ j < (64 * B + o + 1) * 2 ^ s) ↔
      (j >>> (s + 6) = B ∧ (j >>> s) % 64 = o) := by
  rw [← shr_eq_iff, Nat.shiftRight_add, Nat.shiftRight_eq_div_pow (j >>> s) 6]
  constructor
  · intro h
    rw [h]
    omega
  · rintro ⟨h1, h2⟩
    have := Nat.div_add_mod (j >>> s) 64
    norm_num at h1
    omega

theorem pos_shr (B o s : Nat) (ho : o < 64) :
    ((64 * B + o) * 2 ^ s) >>> (s + 6) = B ∧ (((64 * B + o) * 2 ^ s) >>> s) % 64 = o :=
  (slot_index_iff _ B o s ho).1 ⟨le_refl _, by
    have := Nat.two_pow_pos s
    nlinarith⟩

/-- The block of a live node lies within the range of the root. -/
theorem block_bound {k : Kernel} {L : Nat → Prop} (hc : Core k L) :
    ∀ n x B, L x → (k.mem x).shift + 6 * n = 60 → NodeBlock k x B →
      (B + 1) * 2 ^ ((k.mem x).shift + 6) ≤ 2 ^ 66 := by
  intro n
  induction n with
  | zero =>
    intro x B hx hs hb
    by_cases hp : (k.mem x).parent = 0
    · rw [nodeBlock_root hc hb hp]
      simp only [zero_add, one_mul]
      exact Nat.pow_le_pow_right (by omega) (by omega)
    · obtain ⟨_, _, h3, h4⟩ := nodeBlock_parent hc hb hp
      have := (hc.nodes _ h4).shift_le
      omega
  | succ n ih =>
    intro x B hx hs hb
    by_cases hp : (k.mem x).parent = 0
    · rw [nodeBlock_root hc hb hp]
      simp only [zero_add, one_mul]
      exact Nat.pow_le_pow_right (by omega) (by omega)
    · obtain ⟨h1, h2, h3, h4⟩ := nodeBlock_parent hc hb hp
      have := ih _ _ h4 (by omega) h1
      rw [h3] at this
      have e : 2 ^ ((k.mem x).shift + 6 + 6) = 64 * 2 ^ ((k.mem x).shift + 6) := by
        rw [Nat.pow_add _ _ 6]
        ring
      rw [e] at this
      have hB : B + 1 ≤ (B / 64 + 1) * 64 := by omega
      calc (B + 1) * 2 ^ ((k.mem x).shift + 6)
          ≤ ((B / 64 + 1) * 64) * 2 ^ ((k.mem x).shift + 6) := Nat.mul_le_mul_right _ hB
        _ = (B / 64 + 1) * (64 * 2 ^ ((k.mem x).shift + 6)) := by ring
        _ ≤ 2 ^ 66 := this

theorem pos_bound {k : Kernel} {L : Nat → Prop} (hc : Core k L) {x B o : Nat} (hx : L x)
    (hb : NodeBlock k x B) (ho : o ≤ 64) : (64 * B + o) * 2 ^ (k.mem x).shift ≤ 2 ^ 66 := by
  have hn := hc.nodes x hx
  have h6 := hn.shift6
  have hle := hn.shift_le
  have := block_bound hc ((60 - (k.mem x).shift) / 6) x B hx (by omega) hb
  rw [Nat.pow_add] at this
  have h2 : (64 * B + o) * 2 ^ (k.mem x).shift ≤ (64 * B + 64) * 2 ^ (k.mem x).shift :=
    Nat.mul_le_mul_right _ (by omega)
  have e : (64 * B + 64) * 2 ^ (k.mem x).shift = (B + 1) * (2 ^ (k.mem x).shift * 2 ^ 6) := by
    ring
  omega

theorem canon_le {k : Kernel} {L : Nat → Prop} (hc : Core k L) {x : Nat} (hx : L x) (o : Nat)
    (ho : o < 64) : canon (k.mem x) o ≤ o := by
  unfold canon
  by_cases hs : xa_is_sibling ((k.mem x).slots o) = true
  · rw [if_pos hs]
    have := ((hc.nodes x hx).sib o ho (sibling_internal _ hs) (sibling_ne_zero _ hs).2).2.1
    omega
  · rw [if_neg hs]

/-- Every index of slot `o` of a live node ends at the canonical slot of `o`. -/
theorem loc_of_slot {k : Kernel} {L : Nat → Prop} (hc : Core k L) {x B o j : Nat} (hx : L x)
    (hb : NodeBlock k x B) (ho : o < 64) (hn : xa_is_node ((k.mem x).slots o) = false)
    (hj : j >>> ((k.mem x).shift + 6) = B ∧ (j >>> (k.mem x).shift) % 64 = o) :
    Loc k j (Place.slot x (canon (k.mem x) o)) := by
  rw [loc_slot_iff, get_offset_eq, hj.2]
  exact ⟨(hb j).2 hj.1, rfl, (canon_ok hc hx o ho hn).2.1⟩

/-- The indices that end at slot `q` of a node are at or above the first index of `q`. -/
theorem loc_slot_ge {k : Kernel} {L : Nat → Prop} (hc : Core k L) {x B q j : Nat}
    (hb : NodeBlock k x B) (hl : Loc k j (Place.slot x q)) :
    (64 * B + q) * 2 ^ (k.mem x).shift ≤ j := by
  obtain ⟨hv, hq, _⟩ := loc_slot_iff.1 hl
  have hx := visits_live hc hv
  have h1 := (hb j).1 hv
  have h2 := canon_le hc hx (get_offset j (k.mem x)) (get_offset_lt _ _)
  rw [← hq, get_offset_eq] at h2
  have h3 := (slot_index_iff j B ((j >>> (k.mem x).shift) % 64) (k.mem x).shift
    (Nat.mod_lt _ (by omega))).2 ⟨h1, rfl⟩
  have : (64 * B + q) * 2 ^ (k.mem x).shift ≤
      (64 * B + (j >>> (k.mem x).shift) % 64) * 2 ^ (k.mem x).shift :=
    Nat.mul_le_mul_right _ (by omega)
  omega

theorem iter_skip_cases {k : Kernel} {L : Nat → Prop} (hc : Core k L) {x o : Nat} (hx : L x)
    (ho : o < 64) (hn : xa_is_node ((k.mem x).slots o) = false) :
    (xa_iter_skip ((k.mem x).slots o) = true ↔
      ((k.mem x).slots o = 0 ∨ xa_is_sibling ((k.mem x).slots o) = true)) ∧
    (xa_iter_skip ((k.mem x).slots o) = false →
      (k.mem x).slots o ≠ 0 ∧ xa_is_internal ((k.mem x).slots o) = false) := by
  have hsib := (hc.nodes x hx).sib o ho
  unfold xa_iter_skip
  constructor
  · constructor
    · intro h
      simp only [Bool.or_eq_true, beq_iff_eq, Bool.and_eq_true, decide_eq_true_eq] at h
      rcases h with h | ⟨h, _⟩
      · exact Or.inl h
      · exact Or.inr (hsib h hn).1
    · rintro (h | h)
      · simp [h]
      · have := (xa_is_sibling_iff _).1 h
        have hr : XA_RETRY_ENTRY = 1026 := by decide
        simp only [Bool.or_eq_true, beq_iff_eq, Bool.and_eq_true, decide_eq_true_eq]
        right
        exact ⟨sibling_internal _ h, by omega⟩
  · intro h
    simp only [Bool.or_eq_false_iff, beq_eq_false_iff_ne, ne_eq, Bool.and_eq_false_iff,
      decide_eq_false_iff_not, not_lt] at h
    refine ⟨h.1, ?_⟩
    cases hint : xa_is_internal ((k.mem x).slots o)
    · rfl
    · have h1 := (hsib hint hn).1
      have := (xa_is_sibling_iff _).1 h1
      have hr : XA_RETRY_ENTRY = 1026 := by decide
      rcases h.2 with h2 | h2
      · rw [hint] at h2
        exact absurd h2 (by decide)
      · omega

/-- Passing a slot that holds `NULL` or a sibling entry keeps `Done`. -/
theorem done_skip {k : Kernel} {L : Nat → Prop} (hc : Core k L) {S : Place → Prop}
    {x B o : Nat} (hx : L x) (hb : NodeBlock k x B) (ho : o < 64)
    (hskip : (k.mem x).slots o = 0 ∨ xa_is_sibling ((k.mem x).slots o) = true)
    (hd : Done k S ((64 * B + o) * 2 ^ (k.mem x).shift)) :
    Done k S ((64 * B + o + 1) * 2 ^ (k.mem x).shift) := by
  intro j w hj hl
  by_cases hlt : j < (64 * B + o) * 2 ^ (k.mem x).shift
  · exact hd j w hlt hl
  · have hn : xa_is_node ((k.mem x).slots o) = false := by
      rcases hskip with h | h
      · rw [h]
        decide
      · exact (sibling_ne_zero _ h).2
    have hjs := (slot_index_iff j B o _ ho).1 ⟨by omega, hj⟩
    have hw := loc_unique hc hl (loc_of_slot hc hx hb ho hn hjs)
    rw [hw]
    rcases hskip with h | h
    · left
      have : canon (k.mem x) o = o := by
        unfold canon
        rw [h]
        simp [xa_is_sibling, xa_is_internal]
      rw [this]
      exact h
    · have hcan : canon (k.mem x) o = xa_to_sibling ((k.mem x).slots o) := by
        unfold canon
        rw [if_pos h]
      rw [hcan]
      obtain ⟨_, s2, s3, s4, _⟩ :=
        (hc.nodes x hx).sib o ho (sibling_internal _ h) hn
      generalize xa_to_sibling ((k.mem x).slots o) = c at s2 s3 s4 ⊢
      have hcn : xa_is_node ((k.mem x).slots c) = false := not_internal_not_node _ s3
      have hcs : canon (k.mem x) c = c := by
        unfold canon
        rw [not_internal_not_sibling _ s3]
        simp
      have hlc := loc_of_slot hc hx hb (by omega : c < 64) hcn (pos_shr B c _ (by omega))
      rw [hcs] at hlc
      have hpos : (64 * B + c) * 2 ^ (k.mem x).shift < (64 * B + o) * 2 ^ (k.mem x).shift :=
        Nat.mul_lt_mul_of_pos_right (by omega) (Nat.two_pow_pos _)
      rcases hd _ _ hpos hlc with h0 | hS
      · exact absurd h0 s4
      · exact Or.inr hS

/-- Beyond the range of the root every index reads `NULL`. -/
theorem done_beyond_root {k : Kernel} {L : Nat → Prop} (hc : Core k L) {S : Place → Prop}
    {x : Nat} (hx : L x) (hp : (k.mem x).parent = 0)
    (hd : Done k S (64 * 2 ^ (k.mem x).shift)) (I : Nat) : Done k S I := by
  intro j w _ hl
  by_cases hlt : j < 64 * 2 ^ (k.mem x).shift
  · exact hd j w hlt hl
  · left
    have hh := (hc.nodes x hx).root hp
    have hn : xa_is_node k.xa_head = true := by
      rw [hh]
      exact is_node_add2 x (hc.nodes x hx).align (hc.nodes x hx).big
    have hb : Loc k j Place.bounds := by
      right
      refine ⟨hn, ?_⟩
      rw [hh]
      have : x + 2 - 2 = x := by omega
      rw [this, Nat.shiftRight_eq_div_pow]
      have hpos := Nat.two_pow_pos (k.mem x).shift
      have : 64 ≤ j / 2 ^ (k.mem x).shift := by
        rw [Nat.le_div_iff_mul_le hpos]
        omega
      show 63 < _
      omega
    rw [loc_unique hc hl hb]
    rfl

theorem cur_advance_gen {k : Kernel} {L : Nat → Prop} {xas : xa_state} {x B o : Nat}
    (hx : L x) (hb : NodeBlock k x B) (hnode : xas.xa_node = x) (hoff : xas.xa_offset = o)
    (ho : o < 64)
    (hidx : (64 * B + o + 1) * 2 ^ (k.mem x).shift < 2 ^ 64 →
      xas.xa_index < 2 ^ 64 ∧ xas.xa_index >>> ((k.mem x).shift + 6) = B) :
    Cur k L (xas_advance k xas) x B (o + 1) ((64 * B + o + 1) * 2 ^ (k.mem x).shift) := by
  have h256 : (o + 1) % 256 = o + 1 := by omega
  refine ⟨hx, hb, ?_, ?_, by omega, by ring_nf, ?_⟩
  · simp [xas_advance, xas_move_index, hnode]
  · simp [xas_advance, xas_move_index, hoff, h256]
  · intro hlt
    obtain ⟨h1, h2⟩ := hidx hlt
    unfold xas_advance
    simp only [hoff, h256]
    have := xas_move_index_pos k { xas with xa_offset := o + 1 } B (o + 1) h1
      (by simpa [hnode] using h2) (by simpa [hnode, Nat.add_assoc] using hlt)
    simp only [hnode] at this ⊢
    rw [this, Nat.add_assoc]

theorem cur_advance {k : Kernel} {L : Nat → Prop} {xas : xa_state} {x B o I : Nat}
    (h : Cur k L xas x B o I) (ho : o < 64) :
    Cur k L (xas_advance k xas) x B (o + 1) ((64 * B + o + 1) * 2 ^ (k.mem x).shift) := by
  apply cur_advance_gen h.live h.block h.node h.offset ho
  intro hlt
  have hI : I < 2 ^ 64 := by
    rw [h.pos]
    have : (64 * B + o) * 2 ^ (k.mem x).shift ≤ (64 * B + o + 1) * 2 ^ (k.mem x).shift :=
      Nat.mul_le_mul_right _ (by omega)
    omega
  rw [h.index hI]
  refine ⟨hI, ?_⟩
  rw [h.pos]
  exact (pos_shr B o _ ho).1

theorem cur_descend {k : Kernel} {L : Nat → Prop} (hc : Core k L) {xas : xa_state}
    {x B o I : Nat} (h : Cur k L xas x B o I) (ho : o < 64)
    (hn : xa_is_node ((k.mem x).slots o) = true) :
    Cur k L { xas with xa_node := xa_to_node ((k.mem x).slots o), xa_offset := 0 }
      (xa_to_node ((k.mem x).slots o)) (64 * B + o) 0 I ∧
    (k.mem x).shift = (k.mem (xa_to_node ((k.mem x).slots o))).shift + 6 := by
  obtain ⟨e1, _, _⟩ := is_node_split _ hn
  obtain ⟨c1, c2, c3, _, _⟩ := nodeBlock_child hc h.block ho e1 (by rw [← e1]; exact hn)
  refine ⟨⟨c3, c1, rfl, rfl, by omega, ?_, h.index⟩, c2⟩
  rw [h.pos, c2]
  show _ = _ * 2 ^ (k.mem ((k.mem x).slots o - 2)).shift
  rw [Nat.pow_add]
  ring

theorem cur_ascend {k : Kernel} {L : Nat → Prop} (hc : Core k L) {xas : xa_state}
    {x B I : Nat} (h : Cur k L xas x B 64 I) (hp : (k.mem x).parent ≠ 0) :
    Cur k L { xas with xa_offset := ((k.mem x).offset + 1) % 256, xa_node := xa_parent k x }
      (k.mem x).parent (B / 64) ((k.mem x).offset + 1) I ∧
    (k.mem (k.mem x).parent).shift = (k.mem x).shift + 6 := by
  obtain ⟨p1, p2, p3, p4⟩ := nodeBlock_parent hc h.block hp
  have ho := ((hc.nodes x h.live).up hp).2.1
  have h256 : ((k.mem x).offset + 1) % 256 = (k.mem x).offset + 1 := by omega
  refine ⟨⟨p4, p1, rfl, by simp [h256], by omega, ?_, h.index⟩, p3⟩
  rw [h.pos, p3, ← p2, Nat.pow_add]
  have := Nat.div_add_mod B 64
  have e : 64 * (B / 64) + (B % 64 + 1) = B + 1 := by omega
  rw [e]
  ring

theorem done_mono {k : Kernel} {S : Place → Prop} {I I' : Nat} (h : Done k S I)
    (hle : I' ≤ I) : Done k S I' :=
  fun j w hj hl => h j w (by omega) hl

/-- A slot with an entry that the iteration does not skip: its first index is
within `unsigned long`. -/
theorem cur_entry_fits {k : Kernel} {L : Nat → Prop} (hc : Core k L) (hfit : Fits k)
    {xas : xa_state} {x B o I : Nat} (h : Cur k L xas x B o I) (ho : o < 64)
    (hn : xa_is_node ((k.mem x).slots o) = false)
    (hs : xa_is_sibling ((k.mem x).slots o) = false) (h0 : (k.mem x).slots o ≠ 0) :
    I < 2 ^ 64 ∧ Loc k I (Place.slot x o) := by
  have hl := loc_of_slot hc h.live h.block ho hn (pos_shr B o _ ho)
  have hcan : canon (k.mem x) o = o := by
    unfold canon
    rw [hs]
    simp
  rw [hcan, ← h.pos] at hl
  refine ⟨?_, hl⟩
  by_contra hge
  exact h0 (hfit I _ (by omega) hl)

/-- The loop of `xas_find` from a cursor in the tree: it ends, with `NULL`
when nothing is left up to `max`, else on the next slot that holds an entry. -/
theorem xas_find_loop_spec {k : Kernel} {L : Nat → Prop} (hi : Inv k L) (hfit : Fits k)
    (max : Nat) (hmax : max < 2 ^ 64) (S : Place → Prop) (I0 : Nat) :
    ∀ fuel xas x B o I, Cur k L xas x B o I → Done k S I → I0 ≤ I →
      (2 ^ 66 - I) * 256 + (if o = 64 then 200 - (k.mem x).shift else (k.mem x).shift) + 2
        ≤ fuel →
      ∃ xas' e, xas_find_loop k max fuel xas = some (xas', e) ∧ Found k L max S I0 xas' e := by
  intro fuel
  induction fuel with
  | zero =>
    intro xas x B o I _ _ _ h
    omega
  | succ f ih =>
    intro xas x B o I hcur hd hI0 hfuel
    have hnx := hi.core.nodes x hcur.live
    have hsl := hnx.shift_le
    have hx0 : xas.xa_node ≠ 0 := by
      rw [hcur.node]
      have := hnx.big
      omega
    rw [xas_find_loop]
    by_cases hm : xas.xa_index ≤ max
    · rw [if_pos ⟨hx0, hm⟩]
      by_cases ho : xas.xa_offset = XA_CHUNK_SIZE
      · rw [if_pos ho]
        have ho64 : o = 64 := by
          rw [← hcur.offset]
          exact ho
        subst ho64
        rw [hcur.node]
        by_cases hp : (k.mem x).parent = 0
        · obtain ⟨f', rfl⟩ : ∃ f', f = f' + 1 := ⟨f - 1, by omega⟩
          rw [xas_find_loop]
          simp only [xa_parent, hp, ne_eq, not_true, false_and, if_false]
          refine ⟨_, _, rfl, Or.inl ⟨rfl, ?_⟩⟩
          apply done_beyond_root hi.core hcur.live hp
          have hpos := hcur.pos
          rw [nodeBlock_root hi.core hcur.block hp] at hpos
          rw [hpos] at hd
          simpa using hd
        · obtain ⟨c1, c2⟩ := cur_ascend hi.core hcur hp
          have hpl := (hi.core.nodes _ c1.live).shift_le
          refine ih _ _ _ _ _ c1 hd hI0 ?_
          rw [c2]
          simp only [if_true] at hfuel
          split_ifs <;> omega
      · rw [if_neg ho]
        have ho' : o < 64 := by
          have := hcur.le
          have : o ≠ 64 := by
            rw [← hcur.offset]
            exact ho
          omega
        simp only [xa_entry, hcur.node, hcur.offset]
        rw [if_neg (by omega : ¬ o = 64)] at hfuel
        by_cases hn : xa_is_node ((k.mem x).slots o) = true
        · rw [if_pos hn]
          obtain ⟨c1, c2⟩ := cur_descend hi.core hcur ho' hn
          refine ih _ _ _ _ _ c1 hd hI0 ?_
          simp only [show (0 : Nat) ≠ 64 by omega, if_false]
          omega
        · rw [if_neg hn]
          have hn' : xa_is_node ((k.mem x).slots o) = false := by simpa using hn
          obtain ⟨sk1, sk2⟩ := iter_skip_cases hi.core hcur.live ho' hn'
          by_cases hsk : xa_iter_skip ((k.mem x).slots o) = true
          · simp only [hsk, Bool.not_true, Bool.false_eq_true, if_false]
            have c1 := cur_advance hcur ho'
            have hd' := done_skip hi.core hcur.live hcur.block ho' (sk1.1 hsk) (hcur.pos ▸ hd)
            have hb := pos_bound hi.core hcur.live hcur.block (by omega : o + 1 ≤ 64)
            have hstep : I + 1 ≤ (64 * B + o + 1) * 2 ^ (k.mem x).shift := by
              rw [hcur.pos]
              have := Nat.two_pow_pos (k.mem x).shift
              nlinarith
            refine ih _ _ _ _ _ c1 hd' (by omega) ?_
            rw [show 64 * B + (o + 1) = 64 * B + o + 1 by omega] at hb
            generalize (64 * B + o + 1) * 2 ^ (k.mem x).shift = I' at hb hstep ⊢
            split_ifs <;> omega
          · have hsk' : xa_iter_skip ((k.mem x).slots o) = false := by simpa using hsk
            simp only [hsk', Bool.not_false, if_true]
            obtain ⟨e0, eint⟩ := sk2 hsk'
            have hsib : xa_is_sibling ((k.mem x).slots o) = false :=
              not_internal_not_sibling _ eint
            obtain ⟨hI, _⟩ := cur_entry_fits hi.core hfit hcur ho' hn' hsib e0
            refine ⟨_, _, rfl, Or.inr ⟨x, B, o, I, hcur, ho', rfl, e0, eint, hI0, ?_, hd⟩⟩
            rw [← hcur.index hI]
            exact hm
    · rw [if_neg (fun h => hm h.2)]
      refine ⟨_, _, rfl, Or.inl ⟨rfl, ?_⟩⟩
      by_cases hI : I < 2 ^ 64
      · rw [hcur.index hI] at hm
        exact done_mono hd (by omega)
      · exact done_mono hd (by omega)

theorem xas_not_node_live {k : Kernel} {L : Nat → Prop} (hc : Core k L) {x : Nat} (hx : L x) :
    xas_not_node x = false ∧ xas_top x = false ∧ x % 4 ≠ 2 ∧ x ≠ 0 := by
  have h1 := (hc.nodes x hx).align
  have h2 := (hc.nodes x hx).big
  refine ⟨?_, ?_, by omega, by omega⟩
  · unfold xas_not_node
    have e : x &&& 3 = x % 4 := by
      have := Nat.and_pow_two_sub_one_eq_mod x 2
      simpa using this
    rw [e, h1]
    simp
    omega
  · show decide (x ≤ 3) = false
    simp
    omega

theorem found_mono {k : Kernel} {L : Nat → Prop} {max : Nat} {S : Place → Prop} {I0 I1 : Nat}
    {xas : xa_state} {e : Nat} (h : Found k L max S I0 xas e) (hle : I1 ≤ I0) :
    Found k L max S I1 xas e := by
  rcases h with h | ⟨y, B, q, I, b1, b2, b3, b4, b5, b6, b7, b8⟩
  · exact Or.inl h
  · exact Or.inr ⟨y, B, q, I, b1, b2, b3, b4, b5, by omega, b7, b8⟩

/-- `xas_find` on a cursor that stands on a slot of the tree: the search goes
on from the next slot. -/
theorem xas_find_cur {k : Kernel} {L : Nat → Prop} (hi : Inv k L) (hfit : Fits k)
    (max : Nat) (hmax : max < 2 ^ 64) (S : Place → Prop) (fuel : Nat) (hf : 2 ^ 75 ≤ fuel)
    {xas : xa_state} {x B o : Nat}
    (hx : L x) (hb : NodeBlock k x B) (hnode : xas.xa_node = x) (hoff : xas.xa_offset = o)
    (ho : o < 64)
    (hidx : (64 * B + o + 1) * 2 ^ (k.mem x).shift < 2 ^ 64 →
      xas.xa_index < 2 ^ 64 ∧ xas.xa_index >>> ((k.mem x).shift + 6) = B)
    (hd : Done k S ((64 * B + o + 1) * 2 ^ (k.mem x).shift)) :
    ∃ xas' e, xas_find fuel k xas max = some (xas', e) ∧
      Found k L max S ((64 * B + o + 1) * 2 ^ (k.mem x).shift) xas' e := by
  obtain ⟨n1, n2, n3, n4⟩ := xas_not_node_live hi.core hx
  unfold xas_find
  rw [xas_error_plain xas (by rw [hnode]; exact n3)]
  simp only [ne_eq, not_true, if_false, hnode, n4, n2, Bool.false_eq_true]
  have c1 := cur_advance_gen (L := L) hx hb hnode hoff ho hidx
  have hsl := (hi.core.nodes x hx).shift_le
  refine xas_find_loop_spec hi hfit max hmax S _ fuel _ _ _ _ _ c1 hd (le_refl _) ?_
  generalize (64 * B + o + 1) * 2 ^ (k.mem x).shift = I'
  have : (2 ^ 66 - I') * 256 ≤ 2 ^ 66 * 256 := Nat.mul_le_mul_right _ (Nat.sub_le _ _)
  split_ifs <;> omega

theorem cur_index_block {k : Kernel} {L : Nat → Prop} {xas : xa_state} {x B o I : Nat}
    (h : Cur k L xas x B o I) (ho : o < 64) :
    (64 * B + o + 1) * 2 ^ (k.mem x).shift < 2 ^ 64 →
      xas.xa_index < 2 ^ 64 ∧ xas.xa_index >>> ((k.mem x).shift + 6) = B := by
  intro hlt
  have hI : I < 2 ^ 64 := by
    rw [h.pos]
    have : (64 * B + o) * 2 ^ (k.mem x).shift ≤ (64 * B + o + 1) * 2 ^ (k.mem x).shift :=
      Nat.mul_le_mul_right _ (by omega)
    omega
  rw [h.index hI]
  refine ⟨hI, ?_⟩
  rw [h.pos]
  exact (pos_shr B o _ ho).1

/-- The loop of `xas_next_entry` in a leaf node: it returns the next entry of
the leaf, or leaves the search to `xas_find` from a later slot of the leaf. -/
theorem xas_next_entry_loop_spec {k : Kernel} {L : Nat → Prop} (hi : Inv k L)
    (max : Nat) (hmax : max < 2 ^ 64) (S : Place → Prop) {y B : Nat} (hy : L y)
    (hs0 : (k.mem y).shift = 0) :
    ∀ fuel xas q I, Cur k L xas y B q I → q < 64 → I ≤ max → Done k S (I + 1) →
      64 - q ≤ fuel →
      ∃ xas' r, xas_next_entry_loop k y max fuel xas = some (xas', r) ∧
        ((∃ e, r = some e ∧ Found k L max S (I + 1) xas' e) ∨
         (r = none ∧ ∃ q' I', Cur k L xas' y B q' I' ∧ q' < 64 ∧ I ≤ I' ∧ I' ≤ max ∧
           Done k S (I' + 1))) := by
  intro fuel
  induction fuel with
  | zero =>
    intro xas q I _ hq _ _ hf
    omega
  | succ f ih =>
    intro xas q I hcur hq hIm hd hf
    have hidx := hcur.index (by omega)
    rw [xas_next_entry_loop]
    by_cases h1 : xas.xa_index ≥ max
    · rw [if_pos h1]
      exact ⟨_, _, rfl, Or.inr ⟨rfl, q, I, hcur, hq, le_refl _, hIm, hd⟩⟩
    · rw [if_neg h1]
      by_cases h2 : xas.xa_offset = XA_CHUNK_MASK
      · rw [if_pos h2]
        exact ⟨_, _, rfl, Or.inr ⟨rfl, q, I, hcur, hq, le_refl _, hIm, hd⟩⟩
      · rw [if_neg h2]
        have hq63 : q ≠ 63 := by
          rw [← hcur.offset]
          exact h2
        have hlt : I < max := by
          rw [hidx] at h1
          omega
        have hpos := hcur.pos
        rw [hs0] at hpos
        simp only [pow_zero, mul_one] at hpos
        have e1 : (xas.xa_index + 1) % WORD = I + 1 := by
          rw [hidx]
          exact Nat.mod_eq_of_lt (by show I + 1 < 2 ^ 64; omega)
        have e2 : (xas.xa_offset + 1) % 256 = q + 1 := by
          rw [hcur.offset]
          omega
        simp only [e1, e2, xa_entry]
        have c1 : Cur k L { xas with xa_index := I + 1, xa_offset := q + 1 } y B (q + 1)
            (I + 1) :=
          ⟨hy, hcur.block, hcur.node, rfl, by omega, by rw [hs0]; omega, fun _ => rfl⟩
        have hn : xa_is_node ((k.mem y).slots (q + 1)) = false := by
          cases hb : xa_is_node ((k.mem y).slots (q + 1))
          · rfl
          · have := (cur_descend hi.core c1 (by omega) hb).2
            omega
        obtain ⟨sk1, sk2⟩ := iter_skip_cases hi.core hy (by omega : q + 1 < 64) hn
        by_cases hsk : xa_iter_skip ((k.mem y).slots (q + 1)) = true
        · rw [if_pos hsk]
          have hd0 : Done k S ((64 * B + (q + 1)) * 2 ^ (k.mem y).shift) := by
            rw [hs0]
            have e : (64 * B + (q + 1)) * 2 ^ 0 = I + 1 := by omega
            rw [e]
            exact hd
          have hd' := done_skip hi.core hy hcur.block (by omega : q + 1 < 64) (sk1.1 hsk) hd0
          rw [hs0] at hd'
          have e : (64 * B + (q + 1) + 1) * 2 ^ 0 = I + 1 + 1 := by omega
          rw [e] at hd'
          obtain ⟨xas', r, r1, r2⟩ := ih _ _ _ c1 (by omega) (by omega) hd' (by omega)
          refine ⟨xas', r, r1, ?_⟩
          rcases r2 with ⟨e, re, rf⟩ | ⟨rn, q', I', a1, a2, a3, a4, a5⟩
          · left
            refine ⟨e, re, ?_⟩
            exact found_mono rf (by omega)
          · exact Or.inr ⟨rn, q', I', a1, a2, by omega, a4, a5⟩
        · rw [if_neg hsk]
          have hsk' : xa_iter_skip ((k.mem y).slots (q + 1)) = false := by simpa using hsk
          obtain ⟨e0, eint⟩ := sk2 hsk'
          exact ⟨_, _, rfl, Or.inl ⟨_, rfl, Or.inr ⟨y, B, q + 1, I + 1, c1, by omega, rfl, e0,
            eint, le_refl _, by omega, hd⟩⟩⟩

/-- `xas_next_entry` from a cursor on a slot of the tree, once everything up
to the end of that slot is done: the next entry, or `NULL`. -/
theorem xas_next_entry_spec {k : Kernel} {L : Nat → Prop} (hi : Inv k L) (hfit : Fits k)
    (max : Nat) (hmax : max < 2 ^ 64) (S : Place → Prop) (fuel : Nat) (hf : 2 ^ 75 ≤ fuel)
    {xas : xa_state} {y B q I : Nat} (hcur : Cur k L xas y B q I) (hq : q < 64)
    (hIm : I ≤ max) (hd : Done k S ((64 * B + q + 1) * 2 ^ (k.mem y).shift)) :
    ∃ xas' e, xas_next_entry fuel k xas max = some (xas', e) ∧
      Found k L max S (I + 1) xas' e := by
  obtain ⟨n1, _, _, _⟩ := xas_not_node_live hi.core hcur.live
  unfold xas_next_entry
  simp only [hcur.node, n1, Bool.false_eq_true, false_or]
  have hstep : ∀ q' I', q ≤ q' → I' = (64 * B + q') * 2 ^ (k.mem y).shift →
      I + 1 ≤ (64 * B + q' + 1) * 2 ^ (k.mem y).shift := by
    intro q' I' hqq hI'
    rw [hcur.pos]
    have := Nat.two_pow_pos (k.mem y).shift
    have : (64 * B + q) * 2 ^ (k.mem y).shift ≤ (64 * B + q') * 2 ^ (k.mem y).shift :=
      Nat.mul_le_mul_right _ (by omega)
    nlinarith
  by_cases hs : (k.mem y).shift ≠ 0
  · rw [if_pos hs]
    obtain ⟨xas', e, h1, h2⟩ := xas_find_cur hi hfit max hmax S fuel hf hcur.live hcur.block
      hcur.node hcur.offset hq (cur_index_block hcur hq) hd
    exact ⟨xas', e, h1, found_mono h2 (hstep q I (le_refl _) hcur.pos)⟩
  · rw [if_neg hs]
    have hs0 : (k.mem y).shift = 0 := by simpa using hs
    have hpos := hcur.pos
    rw [hs0] at hpos hd
    simp only [pow_zero, mul_one] at hpos hd
    obtain ⟨xas1, r, h1, h2⟩ := xas_next_entry_loop_spec hi max hmax S hcur.live hs0 fuel xas
      q I hcur hq hIm (by rw [hpos]; exact hd) (by omega)
    rw [h1]
    rcases h2 with ⟨e, rfl, hfound⟩ | ⟨rfl, q', I', c1, hq', hII, hI', hd'⟩
    · exact ⟨_, _, rfl, hfound⟩
    · simp only []
      have hpos' := c1.pos
      rw [hs0] at hpos'
      simp only [pow_zero, mul_one] at hpos'
      obtain ⟨xas', e, a1, a2⟩ := xas_find_cur hi hfit max hmax S fuel hf c1.live c1.block
        c1.node c1.offset hq' (cur_index_block c1 hq') (by rw [hs0]; simpa [← hpos'] using hd')
      refine ⟨xas', e, a1, found_mono a2 ?_⟩
      rw [hs0]
      omega

/-- The index of the cursor after `xas_load`: the walk moves it only when it
ends in a sibling entry, to the first index of the canonical slot. -/
theorem xas_load_loop_index {k : Kernel} {L : Nat → Prop} (hc : Core k L) (i : Nat)
    (hi64 : i < 2 ^ 64) :
    ∀ fuel x xas, Visits k i x → (k.mem x).shift + 6 < 6 * fuel → xas.xa_index = i →
      xas.xa_shift = 0 →
      ∃ y o xas', xas_load_loop k fuel xas (x + 2) = some (xas', (k.mem y).slots o) ∧
        xas'.xa_node = y ∧ xas'.xa_offset = o ∧ xas'.xa_index ≤ i ∧
        Loc k xas'.xa_index (Place.slot y o) := by
  intro fuel
  induction fuel with
  | zero => intro x xas _ h; omega
  | succ f ih =>
    intro x xas hv hf hi hs0
    subst hi
    have hx := visits_live hc hv
    have hnx := hc.nodes x hx
    have hnode : xa_is_node (x + 2) = true := is_node_add2 x hnx.align hnx.big
    have hf1 : 0 < f := by omega
    rw [xas_load_loop]
    simp only [hnode, if_true, to_node_add2, hs0]
    rw [if_neg (by omega)]
    by_cases hcn : xa_is_node ((k.mem x).slots (get_offset xas.xa_index (k.mem x))) = true
    · have hsb := is_node_not_sibling _ hcn
      obtain ⟨e1, e2, e3⟩ := is_node_split _ hcn
      have hvc : Visits k xas.xa_index ((k.mem x).slots (get_offset xas.xa_index (k.mem x)) - 2) :=
        Visits.step x _ hv e1 (by rw [← e1]; exact hcn)
      have hcl := visits_live hc hvc
      have hup := (hc.nodes _ hcl).up (by
        rw [(hnx.child _ (get_offset_lt _ _) hcn).2.1]
        have := hnx.big
        omega)
      rw [(hnx.child _ (get_offset_lt _ _) hcn).2.1] at hup
      have hsh := hup.2.2.2
      have := ih ((k.mem x).slots (get_offset xas.xa_index (k.mem x)) - 2)
        { xas with xa_node := x, xa_offset := get_offset xas.xa_index (k.mem x) } hvc (by omega)
        rfl hs0
      obtain ⟨y, o, xas', h1, h2, h3, h4, h5⟩ := this
      refine ⟨y, o, xas', ?_, h2, h3, h4, h5⟩
      rw [xas_descend_plain _ _ _ hsb]
      rw [← e1] at h1
      exact h1
    · simp at hcn
      obtain ⟨c1, c2, c3⟩ := canon_ok hc hx _ (get_offset_lt xas.xa_index (k.mem x)) hcn
      by_cases hsb : xa_is_sibling ((k.mem x).slots (get_offset xas.xa_index (k.mem x))) = true
      · have hcan : canon (k.mem x) (get_offset xas.xa_index (k.mem x)) =
            xa_to_sibling ((k.mem x).slots (get_offset xas.xa_index (k.mem x))) := by
          simp [canon, hsb]
        rw [hcan] at c1 c2 c3
        rw [xas_descend_sib _ _ _ hsb]
        have hlt := (hnx.sib _ (get_offset_lt _ _) (sibling_internal _ hsb) hcn).2.1
        generalize hcd : xa_to_sibling ((k.mem x).slots (get_offset xas.xa_index (k.mem x))) = c
          at c1 c2 c3 hlt
        have hb := nodeBlock_of_visits hc hv
        have hle : (64 * (xas.xa_index >>> ((k.mem x).shift + 6)) + c) * 2 ^ (k.mem x).shift
            ≤ xas.xa_index := by
          have h3 := (slot_index_iff xas.xa_index (xas.xa_index >>> ((k.mem x).shift + 6))
            ((xas.xa_index >>> (k.mem x).shift) % 64) (k.mem x).shift
            (Nat.mod_lt _ (by omega))).2 ⟨rfl, rfl⟩
          rw [get_offset_eq] at hlt
          have : (64 * (xas.xa_index >>> ((k.mem x).shift + 6)) + c) * 2 ^ (k.mem x).shift ≤
              (64 * (xas.xa_index >>> ((k.mem x).shift + 6)) +
                (xas.xa_index >>> (k.mem x).shift) % 64) * 2 ^ (k.mem x).shift :=
            Nat.mul_le_mul_right _ (by omega)
          omega
        have hmv := xas_move_index_pos k { xas with xa_node := x }
          (xas.xa_index >>> ((k.mem x).shift + 6)) c hi64 rfl (by
            show (64 * (xas.xa_index >>> ((k.mem x).shift + 6)) + c) * 2 ^ (k.mem x).shift < _
            omega)
        have hcc : canon (k.mem x) c = c := by
          unfold canon
          rw [c3]
          simp
        have hl := loc_of_slot hc hx hb c1 c2 (pos_shr _ c (k.mem x).shift c1)
        rw [hcc] at hl
        refine ⟨x, c, _, xas_load_loop_leaf _ _ _ _ c2 hf1, ?_, ?_, ?_, ?_⟩
        · simp [xas_move_index]
        · simp [xas_move_index]
        · show (xas_move_index k { xas with xa_node := x } c).xa_index ≤ _
          rw [hmv]
          exact hle
        · show Loc k (xas_move_index k { xas with xa_node := x } c).xa_index _
          rw [hmv]
          exact hl
      · simp at hsb
        have hcan : canon (k.mem x) (get_offset xas.xa_index (k.mem x)) =
            get_offset xas.xa_index (k.mem x) := by
          simp [canon, hsb]
        rw [xas_descend_plain _ _ _ hsb]
        refine ⟨x, get_offset xas.xa_index (k.mem x), _,
          xas_load_loop_leaf _ _ _ _ hcn hf1, rfl, rfl, le_refl _,
          loc_slot_iff.2 ⟨hv, hcan.symm, hcn⟩⟩

/-- `xas_load` on a fresh cursor, with the index it leaves in the cursor. -/
theorem xas_load_index {k : Kernel} {L : Nat → Prop} (hc : Core k L) (i fuel : Nat)
    (hi64 : i < 2 ^ 64) (hf : 12 ≤ fuel) :
    ∃ w xas', xas_load fuel k (XA_STATE i) = some (xas', entry_at k w) ∧ Loc k i w ∧
      xas'.xa_node = w.node ∧ xas'.xa_offset = w.offset ∧
      ((entry_at k w = 0 ∨ w = Place.head) → xas'.xa_index = i) ∧
      xas'.xa_index ≤ i ∧ Loc k xas'.xa_index w := by
  obtain ⟨w, xas', h1, h2, h3, h4, _, _, _, h8⟩ := xas_load_spec hc i fuel hf
  refine ⟨w, xas', h1, h2, h3, h4, h8, ?_⟩
  cases w with
  | head =>
    rw [h8 (Or.inr rfl)]
    exact ⟨le_refl _, h2⟩
  | bounds =>
    rw [h8 (Or.inl rfl)]
    exact ⟨le_refl _, h2⟩
  | slot y o =>
    have hv := (loc_slot_iff.1 h2).1
    have hx := visits_live hc hv
    have hn : xa_is_node k.xa_head = true := by
      cases hb : xa_is_node k.xa_head
      · exact ((hc.head_leaf hb).2 y hx).elim
      · rfl
    obtain ⟨e1, e2, e3⟩ := is_node_split _ hn
    have hr := (hc.head_node hn).1
    have hnr := hc.nodes _ hr
    have hs := hnr.shift_le
    have hvr : Visits k i (k.xa_head - 2) := by
      have hb : ¬ (i >>> (k.mem (k.xa_head - 2)).shift > XA_CHUNK_MASK) := by
        intro hb
        have hb' : i >>> (k.mem (k.xa_head - 2)).shift > XA_CHUNK_MASK := hb
        have hlb : Loc k i Place.bounds := Or.inr ⟨hn, hb'⟩
        exact Place.noConfusion (loc_unique hc h2 hlb)
      exact Visits.root _ e1 (by rw [← e1]; exact hn) (by omega)
    obtain ⟨y', o', xas2, a1, a2, a3, a4, a5⟩ :=
      xas_load_loop_index hc i hi64 fuel _ { XA_STATE i with xa_node := 0 } hvr (by omega)
        rfl rfl
    have hld : xas_load fuel k (XA_STATE i) = some (xas2, (k.mem y').slots o') := by
      unfold xas_load
      rw [xas_start_fresh, if_pos hn, if_neg (by
        intro hb
        have hb' : i >>> (k.mem (k.xa_head - 2)).shift > XA_CHUNK_MASK := hb
        have hlb : Loc k i Place.bounds := Or.inr ⟨hn, hb'⟩
        exact Place.noConfusion (loc_unique hc h2 hlb))]
      simp only []
      rw [e1]
      exact a1
    rw [h1] at hld
    simp only [Option.some.injEq, Prod.mk.injEq] at hld
    obtain ⟨rfl, _⟩ := hld
    have hy : y' = y := by rw [← a2, h3]; rfl
    have ho : o' = o := by rw [← a3, h4]; rfl
    rw [hy, ho] at a5
    exact ⟨a4, a5⟩

/-- The indices of a slot that holds an entry end at that slot. -/
theorem loc_entry_slot {k : Kernel} {L : Nat → Prop} (hc : Core k L) {x B o j : Nat}
    (hx : L x) (hb : NodeBlock k x B) (ho : o < 64)
    (hint : xa_is_internal ((k.mem x).slots o) = false)
    (h1 : (64 * B + o) * 2 ^ (k.mem x).shift ≤ j)
    (h2 : j < (64 * B + o + 1) * 2 ^ (k.mem x).shift) : Loc k j (Place.slot x o) := by
  have hl := loc_of_slot hc hx hb ho (not_internal_not_node _ hint)
    ((slot_index_iff j B o _ ho).1 ⟨h1, h2⟩)
  have hcan : canon (k.mem x) o = o := by
    unfold canon
    rw [not_internal_not_sibling _ hint]
    simp
  rw [hcan] at hl
  exact hl

/-- The loop of `xas_for_each`: from the result of a search step it goes on
to the end, and the pairs it collects are the entries of the array, each at
its first index, in ascending order. -/
theorem xas_for_each_loop_spec {k : Kernel} {L : Nat → Prop} (hi : Inv k L) (hfit : Fits k)
    (max : Nat) (hmax : max < 2 ^ 64) (F : Nat) (hF : 2 ^ 75 ≤ F) :
    ∀ fuel xas e acc I0,
      Found k L max (fun w => ∃ p, p ∈ acc ∧ Loc k p.1 w) I0 xas e →
      (∀ p, p ∈ acc → p.1 < I0) →
      List.Pairwise (fun p q : Nat × Nat => q.1 < p.1) acc →
      (∀ p, p ∈ acc → p.2 ≠ 0 ∧ p.1 ≤ max ∧
        ∃ w, Loc k p.1 w ∧ entry_at k w = p.2 ∧ ∀ j, Loc k j w → p.1 ≤ j) →
      max + 1 - I0 + 1 ≤ fuel →
      ∃ acc', xas_for_each_loop F k max fuel xas e acc = some acc'.reverse ∧
        List.Pairwise (fun p q : Nat × Nat => q.1 < p.1) acc' ∧
        (∀ p, p ∈ acc' → p.2 ≠ 0 ∧ p.1 ≤ max ∧
          ∃ w, Loc k p.1 w ∧ entry_at k w = p.2 ∧ ∀ j, Loc k j w → p.1 ≤ j) ∧
        Done k (fun w => ∃ p, p ∈ acc' ∧ Loc k p.1 w) (max + 1) := by
  intro fuel
  induction fuel with
  | zero =>
    intro xas e acc I0 _ _ _ _ h
    omega
  | succ f ih =>
    intro xas e acc I0 hfound hlt hpw hacc hfuel
    rw [xas_for_each_loop]
    rcases hfound with ⟨rfl, hd⟩ | ⟨y, B, q, I, hcur, hq, hsl, he0, hint, hI0, hIm, hd⟩
    · rw [if_pos rfl]
      exact ⟨acc, rfl, hpw, hacc, hd⟩
    · rw [if_neg he0]
      have hidx := hcur.index (by omega)
      have hn : xa_is_node ((k.mem y).slots q) = false := by
        rw [hsl]
        exact not_internal_not_node _ hint
      have hsb : xa_is_sibling ((k.mem y).slots q) = false := by
        rw [hsl]
        exact not_internal_not_sibling _ hint
      obtain ⟨_, hloc⟩ := cur_entry_fits hi.core hfit hcur hq hn hsb (by rw [hsl]; exact he0)
      have hd' : Done k (fun w => ∃ p, p ∈ (I, e) :: acc ∧ Loc k p.1 w)
          ((64 * B + q + 1) * 2 ^ (k.mem y).shift) := by
        intro j w hj hl
        by_cases hjI : j < I
        · rcases hd j w hjI hl with h | ⟨p, hp, hpl⟩
          · exact Or.inl h
          · exact Or.inr ⟨p, List.mem_cons_of_mem _ hp, hpl⟩
        · right
          refine ⟨(I, e), List.mem_cons_self _ _, ?_⟩
          have hlj := loc_entry_slot hi.core hcur.live hcur.block hq (by rw [hsl]; exact hint)
            (by rw [← hcur.pos]; omega) hj
          rw [loc_unique hi.core hl hlj]
          exact hloc
      obtain ⟨xas1, e1, h1, h2⟩ := xas_next_entry_spec hi hfit max hmax _ F hF hcur hq hIm hd'
      rw [h1]
      simp only [hidx]
      refine ih xas1 e1 ((I, e) :: acc) (I + 1) h2 ?_ ?_ ?_ (by omega)
      · intro p hp
        rcases List.mem_cons.1 hp with rfl | hp
        · exact Nat.lt_succ_self _
        · have := hlt p hp
          omega
      · refine List.Pairwise.cons ?_ hpw
        intro p hp
        have := hlt p hp
        show p.1 < I
        omega
      · intro p hp
        rcases List.mem_cons.1 hp with rfl | hp
        · refine ⟨he0, hIm, Place.slot y q, hloc, hsl, ?_⟩
          intro j hj
          have := loc_slot_ge hi.core hcur.block hj
          rw [← hcur.pos] at this
          exact this
        · exact hacc p hp

/-- `xas_find` on a fresh cursor at index `s`: it returns the entry at `s` if
there is one (with the cursor index at or below `s`, in the range of that
entry), and searches on from the next slot otherwise. -/
theorem xas_find_fresh {k : Kernel} {L : Nat → Prop} (hi : Inv k L) (hfit : Fits k)
    (s max fuel : Nat) (hs : s < 2 ^ 64) (hmax : max < 2 ^ 64) (hf : 2 ^ 75 ≤ fuel) :
    ∃ w xas' e, xas_find fuel k (XA_STATE s) max = some (xas', e) ∧ Loc k s w ∧
      ((entry_at k w ≠ 0 ∧ e = entry_at k w ∧ xas'.xa_index ≤ s ∧ Loc k xas'.xa_index w ∧
         xas'.xa_node = w.node ∧ xas'.xa_offset = w.offset) ∨
       (entry_at k w = 0 ∧
         Found k L max (fun w' => ∃ j, j ≤ s ∧ Loc k j w') (s + 1) xas' e)) := by
  obtain ⟨w, xas', h1, h2, h3, h4, h5, h6, h7⟩ := xas_load_index hi.core s fuel hs (by omega)
  have herr : xas_error (XA_STATE s) = 0 :=
    xas_error_plain _ (show (3 : Nat) % 4 ≠ 2 by decide)
  have hfind : xas_find fuel k (XA_STATE s) max =
      if entry_at k w ≠ 0 ∨ xas_not_node xas'.xa_node = true then some (xas', entry_at k w)
      else xas_find_loop k max fuel (xas_advance k xas') := by
    unfold xas_find
    rw [herr, h1]
    simp [XA_STATE, xas_top]
  rw [hfind]
  by_cases he : entry_at k w = 0
  · cases w with
    | head =>
      have hnn : xas_not_node xas'.xa_node = true := by
        rw [h3]
        decide
      rw [if_pos (Or.inr hnn), he]
      refine ⟨Place.head, xas', 0, rfl, h2, Or.inr ⟨he, Or.inl ⟨rfl, ?_⟩⟩⟩
      intro j w' _ hl
      exact Or.inl (empty_reads_null he hl)
    | bounds =>
      have hnn : xas_not_node xas'.xa_node = true := by
        rw [h3]
        decide
      rw [if_pos (Or.inr hnn), he]
      refine ⟨Place.bounds, xas', 0, rfl, h2, Or.inr ⟨he, Or.inl ⟨rfl, ?_⟩⟩⟩
      intro j w' _ hl
      by_cases hjs : j ≤ s
      · exact Or.inr ⟨j, hjs, hl⟩
      · left
        have hb : Loc k j Place.bounds := by
          rcases h2 with ⟨a, _⟩ | ⟨a, b⟩
          · exact Or.inl ⟨a, by omega⟩
          · refine Or.inr ⟨a, ?_⟩
            have := shr_mono s j (k.mem (k.xa_head - 2)).shift (by omega)
            omega
        rw [loc_unique hi.core hl hb]
        rfl
    | slot y q =>
      obtain ⟨hv, hq, hn⟩ := loc_slot_iff.1 h2
      have hy := visits_live hi.core hv
      obtain ⟨n1, _, _, _⟩ := xas_not_node_live hi.core hy
      have h3' : xas'.xa_node = y := h3
      have h4' : xas'.xa_offset = q := h4
      have he' : (k.mem y).slots q = 0 := he
      rw [if_neg (by simp [he, h3', n1])]
      have hb := nodeBlock_of_visits hi.core hv
      have hq64 : q < 64 := (loc_slot_facts hi.core h2).2.1
      have hqo : q = get_offset s (k.mem y) := by
        by_cases hsib : xa_is_sibling ((k.mem y).slots (get_offset s (k.mem y))) = true
        · have := ((hi.core.nodes y hy).sib _ (get_offset_lt _ _) (sibling_internal _ hsib)
            (sibling_ne_zero _ hsib).2).2.2.2.1
          unfold canon at hq
          rw [if_pos hsib] at hq
          rw [← hq] at this
          exact absurd he' this
        · unfold canon at hq
          rw [if_neg hsib] at hq
          exact hq
      have hrange := (slot_index_iff s (s >>> ((k.mem y).shift + 6)) q (k.mem y).shift hq64).2
        ⟨rfl, by rw [hqo, get_offset_eq]⟩
      have c1 := cur_advance_gen (L := L) hy hb h3' h4' hq64
        (fun _ => ⟨by rw [h5 (Or.inl he)]; exact hs, by rw [h5 (Or.inl he)]⟩)
      have hd : Done k (fun w' => ∃ j, j ≤ s ∧ Loc k j w')
          ((64 * (s >>> ((k.mem y).shift + 6)) + q + 1) * 2 ^ (k.mem y).shift) := by
        intro j w' hj hl
        by_cases hjs : j ≤ s
        · exact Or.inr ⟨j, hjs, hl⟩
        · left
          have hlj := loc_entry_slot hi.core hy hb hq64 (by rw [he']; decide)
            (by omega) hj
          rw [loc_unique hi.core hl hlj]
          exact he
      have hsl := (hi.core.nodes y hy).shift_le
      obtain ⟨xas2, e, a1, a2⟩ := xas_find_loop_spec hi hfit max hmax _
        ((64 * (s >>> ((k.mem y).shift + 6)) + q + 1) * 2 ^ (k.mem y).shift) fuel _ _ _ _ _
        c1 hd (le_refl _) (by
          generalize (64 * (s >>> ((k.mem y).shift + 6)) + q + 1) * 2 ^ (k.mem y).shift = I'
          have : (2 ^ 66 - I') * 256 ≤ 2 ^ 66 * 256 := Nat.mul_le_mul_right _ (Nat.sub_le _ _)
          split_ifs <;> omega)
      exact ⟨Place.slot y q, xas2, e, a1, h2, Or.inr ⟨he, found_mono a2 (by omega)⟩⟩
  · rw [if_pos (Or.inl he)]
    exact ⟨w, xas', _, rfl, h2, Or.inl ⟨he, rfl, h6, h7, h3, h4⟩⟩

theorem found_imp {k : Kernel} {L : Nat → Prop} {max : Nat} {S S' : Place → Prop} {I0 : Nat}
    {xas : xa_state} {e : Nat} (h : Found k L max S I0 xas e)
    (himp : ∀ w, S w → entry_at k w = 0 ∨ S' w) : Found k L max S' I0 xas e := by
  have hd : ∀ I, Done k S I → Done k S' I := by
    intro I hd j w hj hl
    rcases hd j w hj hl with h | h
    · exact Or.inl h
    · exact himp w h
  rcases h with ⟨h1, h2⟩ | ⟨y, B, q, I, b1, b2, b3, b4, b5, b6, b7, b8⟩
  · exact Or.inl ⟨h1, hd _ h2⟩
  · exact Or.inr ⟨y, B, q, I, b1, b2, b3, b4, b5, b6, b7, hd _ b8⟩

/-- `xas_for_each` from a fresh cursor at index 0 up to `ULONG_MAX`: the pairs
it yields are the entries of the array, each at its first index, in ascending
order, and every index that is not `NULL` belongs to one of them. -/
theorem xas_for_each_spec {k : Kernel} {L : Nat → Prop} (hi : Inv k L) (hfit : Fits k)
    (fuel : Nat) (hf : 2 ^ 75 ≤ fuel) :
    ∃ l, xas_for_each fuel k (XA_STATE 0) (2 ^ 64 - 1) = some l ∧
      List.Pairwise (fun p q : Nat × Nat => p.1 < q.1) l ∧
      (∀ p, p ∈ l → p.2 ≠ 0 ∧ p.1 ≤ 2 ^ 64 - 1 ∧
        ∃ w, Loc k p.1 w ∧ entry_at k w = p.2 ∧ ∀ j, Loc k j w → p.1 ≤ j) ∧
      Done k (fun w => ∃ p, p ∈ l ∧ Loc k p.1 w) (2 ^ 64 - 1 + 1) := by
  have hmax : 2 ^ 64 - 1 < 2 ^ 64 := by omega
  have finish : ∀ xas e, Found k L (2 ^ 64 - 1) (fun w => ∃ p, p ∈ ([] : List (Nat × Nat)) ∧
      Loc k p.1 w) 0 xas e →
      ∃ l, xas_for_each_loop fuel k (2 ^ 64 - 1) fuel xas e [] = some l ∧
        List.Pairwise (fun p q : Nat × Nat => p.1 < q.1) l ∧
        (∀ p, p ∈ l → p.2 ≠ 0 ∧ p.1 ≤ 2 ^ 64 - 1 ∧
          ∃ w, Loc k p.1 w ∧ entry_at k w = p.2 ∧ ∀ j, Loc k j w → p.1 ≤ j) ∧
        Done k (fun w => ∃ p, p ∈ l ∧ Loc k p.1 w) (2 ^ 64 - 1 + 1) := by
    intro xas e hfound
    obtain ⟨acc', a1, a2, a3, a4⟩ := xas_for_each_loop_spec hi hfit (2 ^ 64 - 1) hmax fuel hf
      fuel xas e [] 0 hfound (fun p hp => absurd hp (List.not_mem_nil p)) List.Pairwise.nil
      (fun p hp => absurd hp (List.not_mem_nil p)) (by omega)
    refine ⟨acc'.reverse, a1, List.pairwise_reverse.2 a2, ?_, ?_⟩
    · intro p hp
      exact a3 p (List.mem_reverse.1 hp)
    · intro j w hj hl
      rcases a4 j w hj hl with h | ⟨p, hp, hpl⟩
      · exact Or.inl h
      · exact Or.inr ⟨p, List.mem_reverse.2 hp, hpl⟩
  obtain ⟨w, xas', e, h1, h2, h3⟩ :=
    xas_find_fresh hi hfit 0 (2 ^ 64 - 1) fuel (by omega) hmax hf
  unfold xas_for_each
  rw [h1]
  simp only []
  rcases h3 with ⟨he, rfl, hidx, hloc, hnode, hoff⟩ | ⟨he, hfound⟩
  · have hidx0 : xas'.xa_index = 0 := by omega
    cases w with
    | bounds => exact absurd rfl he
    | head =>
      have hnode' : xas'.xa_node = 0 := hnode
      obtain ⟨f, rfl⟩ : ∃ f, fuel = f + 1 + 1 := ⟨fuel - 2, by omega⟩
      have hnext : xas_next_entry (f + 1 + 1) k xas' (2 ^ 64 - 1) =
          some (set_bounds { xas' with xa_index := 1 }) := by
        unfold xas_next_entry xas_find
        rw [xas_error_plain xas' (by rw [hnode']; decide)]
        simp [hnode', xas_not_node]
      rw [xas_for_each_loop, if_neg he, hnext]
      simp only [set_bounds]
      rw [xas_for_each_loop, if_pos rfl, hidx0]
      refine ⟨_, rfl, ?_, ?_, ?_⟩
      · simp
      · intro p hp
        simp only [List.reverse_cons, List.reverse_nil, List.nil_append, List.mem_singleton]
          at hp
        subst hp
        exact ⟨he, by omega, Place.head, h2, rfl, fun _ _ => Nat.zero_le _⟩
      · intro j w' _ hl
        cases w' with
        | head =>
          right
          exact ⟨(0, entry_at k Place.head), by simp, h2⟩
        | bounds => exact Or.inl rfl
        | slot y q =>
          have hy := visits_live hi.core (loc_slot_iff.1 hl).1
          exact ((hi.core.head_leaf h2.1).2 y hy).elim
    | slot y q =>
      have hv := (loc_slot_iff.1 h2).1
      have hy := visits_live hi.core hv
      have hb := nodeBlock_of_visits hi.core hv
      have hq64 : q < 64 := (loc_slot_facts hi.core h2).2.1
      have hge := loc_slot_ge hi.core hb h2
      have hcur : Cur k L xas' y (0 >>> ((k.mem y).shift + 6)) q 0 :=
        ⟨hy, hb, hnode, hoff, by omega, by omega, fun _ => hidx0⟩
      apply finish
      exact Or.inr ⟨y, _, q, 0, hcur, hq64, rfl, he, entry_at_not_internal hi.core h2,
        le_refl _, by omega, fun j w hj _ => absurd hj (Nat.not_lt_zero j)⟩
  · apply finish
    refine found_mono (found_imp hfound ?_) (by omega)
    rintro w' ⟨j, hj, hl⟩
    left
    have hj0 : j = 0 := by omega
    subst hj0
    rw [loc_unique hi.core hl h2]
    exact he

theorem ex_range_fits : Fits ex_range := by
  obtain ⟨L0, hi0⟩ := wf_init 0 0 4096 (fun _ _ => true) (by decide) (by decide) (by decide)
  obtain ⟨k', L', xas', w, h1, h2, _, _, h5, h6⟩ :=
    xas_store_order_empty hi0 (allocOK_init 0 0 4096) rfl 8 2 24 64 (by decide) (by decide)
      (by decide) (by decide) (by decide) (by decide)
  have he : ex_range = k' := by
    unfold ex_range ex_after ex_empty
    rw [h1]
    rfl
  rw [he]
  intro j w' hj hl
  apply h6 j w' hl
  rintro rfl
  have := (h5 j).1 hl
  omega

/-- C14: for every well-formed array (whose entries all lie within
`unsigned long`), `xas_for_each` from a fresh cursor at index 0 with
`max = ULONG_MAX` ends (with enough fuel) and yields pairs of strictly
ascending `xa_index`; every pair is a non-`NULL` entry of the array at the
first index of that entry, and every index that holds a non-`NULL` entry is
covered by exactly one pair, so a multi-index entry is yielded once. -/
theorem C14_for_each_yields_all (k : Kernel) (fuel : Nat) (hwf : WF k) (hfit : Fits k)
    (hf : 2 ^ 75 ≤ fuel) :
    ∃ l, xas_for_each fuel k (XA_STATE 0) (2 ^ 64 - 1) = some l ∧
      List.Pairwise (fun p q : Nat × Nat => p.1 < q.1) l ∧
      (∀ p, p ∈ l → p.2 ≠ 0 ∧ p.1 < 2 ^ 64 ∧ xa_load fuel k p.1 = some p.2 ∧
        ∀ j, Covers k p.1 j → p.1 ≤ j) ∧
      (∀ j e, j < 2 ^ 64 → xa_load fuel k j = some e → e ≠ 0 →
        ∃! p, p ∈ l ∧ p.2 = e ∧ Covers k p.1 j) := by
  obtain ⟨L, hi⟩ := hwf
  obtain ⟨l, h1, h2, h3, h4⟩ := xas_for_each_spec hi hfit fuel hf
  refine ⟨l, h1, h2, ?_, ?_⟩
  · intro p hp
    obtain ⟨a1, a2, w, a3, a4, a5⟩ := h3 p hp
    refine ⟨a1, by omega, by rw [xa_load_of_loc hi.core (by omega) a3, a4], ?_⟩
    rintro j ⟨w', b1, b2⟩
    rw [loc_unique hi.core b1 a3] at b2
    exact a5 j b2
  · intro j e hj hld he
    obtain ⟨w, hl⟩ := loc_exists hi.core j
    rw [xa_load_of_loc hi.core (by omega) hl] at hld
    have hew : entry_at k w = e := Option.some.inj hld
    rcases h4 j w (by omega) hl with h0 | ⟨p, hp, hpl⟩
    · exact absurd (hew ▸ h0) he
    · obtain ⟨_, _, wp, a3, a4, a5⟩ := h3 p hp
      have hwp : wp = w := loc_unique hi.core a3 hpl
      subst hwp
      refine ⟨p, ⟨hp, by rw [← a4, hew], wp, hpl, hl⟩, ?_⟩
      rintro p' ⟨hp', he', w', c1, c2⟩
      have hw' : w' = wp := loc_unique hi.core c2 hl
      subst hw'
      obtain ⟨_, _, wq, d3, d4, d5⟩ := h3 p' hp'
      have hwq : wq = w' := loc_unique hi.core d3 c1
      subst hwq
      have e1 : p'.1 = p.1 := Nat.le_antisymm (d5 _ hpl) (a5 _ c1)
      exact Prod.ext e1 (by rw [← d4, ← a4])

theorem C14_for_each_yields_all_witness :
    ∃ l, xas_for_each (2 ^ 75) ex_range (XA_STATE 0) (2 ^ 64 - 1) = some l ∧
      List.Pairwise (fun p q : Nat × Nat => p.1 < q.1) l ∧
      (∀ p, p ∈ l → p.2 ≠ 0 ∧ p.1 < 2 ^ 64 ∧ xa_load (2 ^ 75) ex_range p.1 = some p.2 ∧
        ∀ j, Covers ex_range p.1 j → p.1 ≤ j) ∧
      (∀ j e, j < 2 ^ 64 → xa_load (2 ^ 75) ex_range j = some e → e ≠ 0 →
        ∃! p, p ∈ l ∧ p.2 = e ∧ Covers ex_range p.1 j) :=
  C14_for_each_yields_all ex_range (2 ^ 75) ex_range_facts.1 ex_range_fits (le_refl _)

/-- The indices that end at one place form an interval. -/
theorem loc_convex {k : Kernel} {L : Nat → Prop} (hc : Core k L) {a b c : Nat} {w : Place}
    (ha : Loc k a w) (hcw : Loc k c w) (hab : a ≤ b) (hbc : b ≤ c) : Loc k b w := by
  cases w with
  | head =>
    obtain ⟨h1, h2⟩ := ha
    obtain ⟨_, h3⟩ := hcw
    exact ⟨h1, by omega⟩
  | bounds =>
    rcases ha with ⟨h1, h2⟩ | ⟨h1, h2⟩
    · exact Or.inl ⟨h1, by omega⟩
    · refine Or.inr ⟨h1, ?_⟩
      have := shr_mono a b (k.mem (k.xa_head - 2)).shift hab
      omega
  | slot x q =>
    obtain ⟨hva, hqa, hn⟩ := loc_slot_iff.1 ha
    obtain ⟨hvc, hqc, _⟩ := loc_slot_iff.1 hcw
    have hx := visits_live hc hva
    have hb := nodeBlock_of_visits hc hva
    have h1 : c >>> ((k.mem x).shift + 6) = a >>> ((k.mem x).shift + 6) := (hb c).1 hvc
    have h2 := shr_mono a b ((k.mem x).shift + 6) hab
    have h3 := shr_mono b c ((k.mem x).shift + 6) hbc
    have hbB : b >>> ((k.mem x).shift + 6) = a >>> ((k.mem x).shift + 6) := by omega
    have hvb : Visits k b x := (hb b).2 hbB
    rw [loc_slot_iff]
    refine ⟨hvb, ?_, hn⟩
    rw [get_offset_eq] at hqa hqc ⊢
    have m1 := shr_mono a b (k.mem x).shift hab
    have m2 := shr_mono b c (k.mem x).shift hbc
    have d1 : (a >>> (k.mem x).shift) / 64 = a >>> ((k.mem x).shift + 6) := by
      rw [Nat.shiftRight_add, Nat.shiftRight_eq_div_pow _ 6]
    have d2 : (b >>> (k.mem x).shift) / 64 = b >>> ((k.mem x).shift + 6) := by
      rw [Nat.shiftRight_add, Nat.shiftRight_eq_div_pow _ 6]
    have d3 : (c >>> (k.mem x).shift) / 64 = c >>> ((k.mem x).shift + 6) := by
      rw [Nat.shiftRight_add, Nat.shiftRight_eq_div_pow _ 6]
    generalize (a >>> (k.mem x).shift) = A at *
    generalize (b >>> (k.mem x).shift) = Bb at *
    generalize (c >>> (k.mem x).shift) = C at *
    have oa : A % 64 ≤ Bb % 64 := by omega
    have oc : Bb % 64 ≤ C % 64 := by omega
    have la := canon_le hc hx (A % 64) (Nat.mod_lt _ (by omega))
    rw [← hqa] at la
    by_cases hsib : xa_is_sibling ((k.mem x).slots (C % 64)) = true
    · obtain ⟨_, s2, s3, s4, s5⟩ := (hc.nodes x hx).sib (C % 64) (Nat.mod_lt _ (by omega))
        (sibling_internal _ hsib) (sibling_ne_zero _ hsib).2
      have hq : q = xa_to_sibling ((k.mem x).slots (C % 64)) := by
        rw [hqc]
        unfold canon
        rw [if_pos hsib]
      rw [← hq] at s2 s3 s4 s5
      by_cases hbq : Bb % 64 = q
      · rw [hbq]
        unfold canon
        rw [not_internal_not_sibling _ s3]
        simp
      · have e := s5 (Bb % 64) (by omega) oc
        unfold canon
        rw [e, if_pos hsib]
        exact hq
    · have hq : q = C % 64 := by
        rw [hqc]
        unfold canon
        rw [if_neg hsib]
      have : Bb % 64 = C % 64 := by omega
      rw [this, ← hq]
      unfold canon
      rw [hq, if_neg hsib]

theorem xas_find_tagged_loop_unfold (k : Kernel) (max tag f : Nat) (xas : xa_state) :
    xas_find_tagged_loop k max tag (f + 1) xas false =
      if xas.xa_index ≤ max then
        if xas.xa_offset = XA_CHUNK_SIZE then
          (if xa_parent k xas.xa_node = 0 then
            some (xas_find_out { xas with xa_offset := ((k.mem xas.xa_node).offset + 1) % 256,
                                          xa_node := xa_parent k xas.xa_node })
          else xas_find_tagged_loop k max tag f
            { xas with xa_offset := ((k.mem xas.xa_node).offset + 1) % 256,
                       xa_node := xa_parent k xas.xa_node } false)
        else xas_find_tagged_tail k max tag f (xas_find_tagged_adjust k xas)
      else some (xas_find_out xas) := by
  rw [xas_find_tagged_loop]
  simp only [xas_find_tagged_tail, xas_find_tagged_adjust, Bool.not_false, true_and, ite_self]

theorem find_next_bit_spec (w size : Nat) :
    ∀ fuel off, off ≤ size → size - off ≤ fuel →
      off ≤ find_next_bit w size fuel off ∧ find_next_bit w size fuel off ≤ size ∧
      (∀ q, off ≤ q → q < find_next_bit w size fuel off → w.testBit q = false) ∧
      (find_next_bit w size fuel off < size →
        w.testBit (find_next_bit w size fuel off) = true) := by
  intro fuel
  induction fuel with
  | zero =>
    intro off h1 h2
    simp only [find_next_bit]
    exact ⟨h1, le_refl _, fun q a b => by omega, fun h => by omega⟩
  | succ f ih =>
    intro off h1 h2
    rw [find_next_bit]
    by_cases h3 : off ≥ size
    · rw [if_pos h3]
      exact ⟨h1, le_refl _, fun q a b => by omega, fun h => by omega⟩
    · rw [if_neg h3]
      by_cases h4 : w.testBit off = true
      · rw [if_pos h4]
        exact ⟨le_refl _, by omega, fun q a b => by omega, fun _ => h4⟩
      · rw [if_neg h4]
        obtain ⟨a1, a2, a3, a4⟩ := ih (off + 1) (by omega) (by omega)
        refine ⟨by omega, a2, ?_, a4⟩
        intro q hq1 hq2
        by_cases hq : q = off
        · rw [hq]
          simpa using h4
        · exact a3 q (by omega) hq2

/-- `xas_find_chunk` without advancing: the first slot at or after the cursor
offset whose tag bit is set, or 64. -/
theorem xas_find_chunk_spec (k : Kernel) (xas : xa_state) (t : Nat)
    (ho : xas.xa_offset < 64) :
    xas.xa_offset ≤ xas_find_chunk k xas false t ∧ xas_find_chunk k xas false t ≤ 64 ∧
    (∀ q, xas.xa_offset ≤ q → q < xas_find_chunk k xas false t →
      node_get_tag (k.mem xas.xa_node) q t = false) ∧
    (xas_find_chunk k xas false t < 64 →
      node_get_tag (k.mem xas.xa_node) (xas_find_chunk k xas false t) t = true) := by
  unfold xas_find_chunk
  simp only [Bool.false_eq_true, if_false, node_get_tag, test_bit]
  rw [if_pos (show xas.xa_offset < XA_CHUNK_SIZE from ho)]
  generalize (k.mem xas.xa_node).tags t = T
  generalize xas.xa_offset = o at ho
  have hbit : ∀ i, (T &&& (((WORD - 1) <<< o) % WORD)).testBit i =
      (T.testBit i && decide (o ≤ i) && decide (i < 64)) := by
    intro i
    have hw : WORD - 1 = 2 ^ 64 - 1 := rfl
    rw [hw]
    simp only [Nat.testBit_and, WORD, Nat.testBit_mod_two_pow, Nat.testBit_shiftLeft,
      Nat.testBit_two_pow_sub_one]
    by_cases h1 : i < 64
    · by_cases h2 : o ≤ i
      · have : i - o < 64 := by omega
        simp [h1, h2, this]
      · simp [h1, h2]
    · simp [h1]
  by_cases hd : T &&& (((WORD - 1) <<< o) % WORD) = 0
  · rw [if_neg (by simpa using hd)]
    refine ⟨Nat.le_of_lt ho, le_refl _, ?_, fun h => absurd h (by decide)⟩
    intro q hq1 hq2
    have hq2 : q < 64 := hq2
    have := hbit q
    rw [hd] at this
    simp only [Nat.zero_testBit] at this
    have h1 : decide (o ≤ q) = true := by simpa using hq1
    have h2 : decide (q < 64) = true := by simpa using hq2
    rw [h1, h2] at this
    simpa using this.symm
  · rw [if_pos hd]
    unfold __ffs
    obtain ⟨a1, a2, a3, a4⟩ := find_next_bit_spec (T &&& (((WORD - 1) <<< o) % WORD)) 64 64 0
      (by omega) (by omega)
    generalize find_next_bit (T &&& (((WORD - 1) <<< o) % WORD)) BITS_PER_LONG BITS_PER_LONG 0
      = r at a1 a2 a3 a4
    have hr : r < 64 := by
      by_contra hge
      have hr64 : r = 64 := by omega
      apply hd
      apply Nat.eq_of_testBit_eq
      intro i
      rw [Nat.zero_testBit]
      by_cases hi : i < 64
      · exact a3 i (by omega) (by omega)
      · rw [hbit i]
        simp [hi]
    have hrb := a4 hr
    rw [hbit r] at hrb
    simp only [Bool.and_eq_true, decide_eq_true_eq] at hrb
    refine ⟨hrb.1.2, by omega, ?_, fun _ => hrb.1.1⟩
    intro q hq1 hq2
    have := a3 q (by omega) hq2
    rw [hbit q] at this
    have h1 : decide (o ≤ q) = true := by simpa using hq1
    have h2 : decide (q < 64) = true := by simp; omega
    rw [h1, h2] at this
    simpa using this

/-- A tag on a node shows in every node above it on the walk. -/
theorem tag_up_chain {k : Kernel} {L : Nat → Prop} (hi : Inv k L) (t : Nat) (ht : t < 3)
    (j : Nat) :
    ∀ n z x, Visits k j z → Visits k j x → node_any_tag (k.mem z) t = true →
      (k.mem z).shift + 6 * (n + 1) = (k.mem x).shift →
      node_get_tag (k.mem x) (get_offset j (k.mem x)) t = true := by
  intro n
  induction n with
  | zero =>
    intro z x hz hx hany hs
    have hLz := visits_live hi.core hz
    have hnz := hi.core.nodes z hLz
    by_cases hp : (k.mem z).parent = 0
    · have hroot := hnz.root hp
      have := visits_shift_le_root hi.core hx
      rw [hroot] at this
      simp only [Nat.add_sub_cancel] at this
      omega
    · obtain ⟨p1, p2⟩ := visits_parent hi.core hz hp
      have hup := hnz.up hp
      have hpx : (k.mem z).parent = x :=
        visits_same_shift hi.core p1 hx (by rw [hup.2.2.2]; omega)
      have htu := hi.tags z hLz t ht
      unfold TagUp at htu
      rw [if_neg hp, hany, hpx] at htu
      rw [← hpx, p2, hpx]
      exact htu
  | succ n ih =>
    intro z x hz hx hany hs
    have hLz := visits_live hi.core hz
    have hnz := hi.core.nodes z hLz
    by_cases hp : (k.mem z).parent = 0
    · have hroot := hnz.root hp
      have := visits_shift_le_root hi.core hx
      rw [hroot] at this
      simp only [Nat.add_sub_cancel] at this
      omega
    · obtain ⟨p1, p2⟩ := visits_parent hi.core hz hp
      have hup := hnz.up hp
      have htu := hi.tags z hLz t ht
      unfold TagUp at htu
      rw [if_neg hp, hany] at htu
      have hanyp : node_any_tag (k.mem (k.mem z).parent) t = true :=
        (node_any_tag_iff _ _).2 ⟨_, hup.2.1, htu⟩
      exact ih _ x p1 hx hanyp (by rw [hup.2.2.2]; omega)

/-- Below a slot whose tag bit is clear no index has the tag. -/
theorem untagged_slot {k : Kernel} {L : Nat → Prop} (hi : Inv k L) (t : Nat) (ht : t < 3)
    {x B o : Nat} (hx : L x) (hb : NodeBlock k x B) (ho : o < 64)
    (hbit : node_get_tag (k.mem x) (canon (k.mem x) o) t = false) :
    ∀ j w, (j >>> ((k.mem x).shift + 6) = B ∧ (j >>> (k.mem x).shift) % 64 = o) →
      Loc k j w → tag_at k t w = false := by
  intro j w hj hl
  have hvx : Visits k j x := (hb j).2 hj.1
  by_cases hn : xa_is_node ((k.mem x).slots o) = true
  · have hcan : canon (k.mem x) o = o := by
      unfold canon
      rw [is_node_not_sibling _ hn]
      simp
    rw [hcan] at hbit
    have hgo : get_offset j (k.mem x) = o := by
      rw [get_offset_eq]
      exact hj.2
    cases hb2 : tag_at k t w
    · rfl
    · exfalso
      cases w with
      | head =>
        exact (hi.core.head_leaf hl.1).2 x hx
      | bounds => exact absurd hb2 (by simp [tag_at])
      | slot y q =>
        obtain ⟨hvy, hq, hqn⟩ := loc_slot_iff.1 hl
        have hLy := visits_live hi.core hvy
        have h6x := (hi.core.nodes x hx).shift6
        have h6y := (hi.core.nodes y hLy).shift6
        have hany : node_any_tag (k.mem y) t = true :=
          (node_any_tag_iff _ _).2 ⟨q, (loc_slot_facts hi.core hl).2.1, hb2⟩
        rcases Nat.lt_trichotomy (k.mem y).shift (k.mem x).shift with h1 | h1 | h1
        · have := tag_up_chain hi t ht j (((k.mem x).shift - (k.mem y).shift) / 6 - 1) y x hvy hvx
            hany (by omega)
          rw [hgo, hbit] at this
          exact absurd this (by decide)
        · have hyx := visits_same_shift hi.core hvy hvx h1
          subst hyx
          rw [hgo, hcan] at hq
          rw [hq, hn] at hqn
          exact absurd hqn (by decide)
        · have hd := visits_deeper hi.core hvy hvx h1
          have hcy : canon (k.mem y) (get_offset j (k.mem y)) = get_offset j (k.mem y) := by
            unfold canon
            rw [is_node_not_sibling _ hd]
            simp
          rw [hcy] at hq
          rw [hq, hd] at hqn
          exact absurd hqn (by decide)
  · have hn' : xa_is_node ((k.mem x).slots o) = false := by simpa using hn
    have hl' := loc_of_slot hi.core hx hb ho hn' hj
    rw [loc_unique hi.core hl hl']
    exact hbit

/-- The canonical slot of a slot at or after a slot that is not a sibling
entry is at or after that slot. -/
theorem canon_ge {k : Kernel} {L : Nat → Prop} (hc : Core k L) {x c o : Nat} (hx : L x)
    (ho : o < 64) (hco : c ≤ o) (hcs : xa_is_sibling ((k.mem x).slots c) = false) :
    c ≤ canon (k.mem x) o := by
  unfold canon
  by_cases hs : xa_is_sibling ((k.mem x).slots o) = true
  · rw [if_pos hs]
    obtain ⟨_, s2, _, _, s5⟩ := (hc.nodes x hx).sib o ho (sibling_internal _ hs)
      (sibling_ne_zero _ hs).2
    by_contra hlt
    have := s5 c (by omega) hco
    rw [this, hs] at hcs
    exact absurd hcs (by decide)
  · rw [if_neg hs]
    exact hco

/-- Passing slots whose tag bits are clear keeps `TDone`. -/
theorem tdone_skip {k : Kernel} {L : Nat → Prop} (hi : Inv k L) (t : Nat) (ht : t < 3)
    {s x B c o' : Nat} (hx : L x) (hb : NodeBlock k x B) (hc64 : c < 64) (ho' : o' ≤ 64)
    (hcs : xa_is_sibling ((k.mem x).slots c) = false)
    (hclear : ∀ q, c ≤ q → q < o' → node_get_tag (k.mem x) q t = false)
    (hd : TDone k t s ((64 * B + c) * 2 ^ (k.mem x).shift)) :
    TDone k t s ((64 * B + o') * 2 ^ (k.mem x).shift) := by
  intro j w hsj hj hl
  by_cases hlt : j < (64 * B + c) * 2 ^ (k.mem x).shift
  · exact hd j w hsj hlt hl
  · have hpos := Nat.two_pow_pos (k.mem x).shift
    have h1 : 64 * B + c ≤ j >>> (k.mem x).shift := by
      rw [Nat.shiftRight_eq_div_pow, Nat.le_div_iff_mul_le hpos]
      omega
    have h2 : j >>> (k.mem x).shift < 64 * B + o' := by
      rw [Nat.shiftRight_eq_div_pow, Nat.div_lt_iff_lt_mul hpos]
      exact hj
    have hB : j >>> ((k.mem x).shift + 6) = B := by
      rw [Nat.shiftRight_add, Nat.shiftRight_eq_div_pow _ 6]
      omega
    have hoq : (j >>> (k.mem x).shift) % 64 < 64 := Nat.mod_lt _ (by omega)
    have hq1 : c ≤ (j >>> (k.mem x).shift) % 64 := by
      rw [Nat.shiftRight_add, Nat.shiftRight_eq_div_pow _ 6] at hB
      omega
    have hq2 : (j >>> (k.mem x).shift) % 64 < o' := by
      rw [Nat.shiftRight_add, Nat.shiftRight_eq_div_pow _ 6] at hB
      omega
    apply untagged_slot hi t ht hx hb hoq ?_ j w ⟨hB, rfl⟩ hl
    apply hclear
    · exact canon_ge hi.core hx hoq hq1 hcs
    · have := canon_le hi.core hx _ hoq
      omega

/-- A slot with its tag bit set that holds an entry: the entry has the tag. -/
theorem tagged_slot_place {k : Kernel} {L : Nat → Prop} (hi : Inv k L) (hfit : Fits k)
    (t : Nat) (ht : t < 3) {x B o j : Nat} (hx : L x) (hb : NodeBlock k x B) (ho : o < 64)
    (hbit : node_get_tag (k.mem x) o t = true)
    (hn : xa_is_node ((k.mem x).slots o) = false)
    (hj : j >>> ((k.mem x).shift + 6) = B ∧ (j >>> (k.mem x).shift) % 64 = o) :
    Loc k j (Place.slot x o) ∧ tag_at k t (Place.slot x o) = true ∧
      (k.mem x).slots o ≠ 0 ∧ xa_is_sibling ((k.mem x).slots o) = false ∧
      (64 * B + o) * 2 ^ (k.mem x).shift < 2 ^ 64 := by
  obtain ⟨h0, hs⟩ := (hi.core.nodes x hx).tag_null o t ho ht hbit
  have hcan : canon (k.mem x) o = o := by
    unfold canon
    rw [hs]
    simp
  have hl := loc_of_slot hi.core hx hb ho hn hj
  rw [hcan] at hl
  refine ⟨hl, hbit, h0, hs, ?_⟩
  have hl0 := loc_of_slot hi.core hx hb ho hn (pos_shr B o _ ho)
  rw [hcan] at hl0
  by_contra hge
  exact h0 (hfit _ _ (by omega) hl0)

theorem no_sibling_after_node {k : Kernel} {L : Nat → Prop} (hc : Core k L) {x o : Nat}
    (hx : L x) (ho : o + 1 < 64) (hn : xa_is_node ((k.mem x).slots o) = true) :
    xa_is_sibling ((k.mem x).slots (o + 1)) = false := by
  cases hs : xa_is_sibling ((k.mem x).slots (o + 1))
  · rfl
  · exfalso
    obtain ⟨_, s2, s3, _, s5⟩ := (hc.nodes x hx).sib (o + 1) ho (sibling_internal _ hs)
      (sibling_ne_zero _ hs).2
    by_cases hco : xa_to_sibling ((k.mem x).slots (o + 1)) = o
    · rw [hco, is_node_internal _ hn] at s3
      exact absurd s3 (by decide)
    · have := s5 o (by omega) (by omega)
      rw [this] at hn
      rw [is_node_not_sibling _ hn] at hs
      exact absurd hs (by decide)

theorem no_sibling_first {k : Kernel} {L : Nat → Prop} (hc : Core k L) {x : Nat} (hx : L x) :
    xa_is_sibling ((k.mem x).slots 0) = false := by
  cases hs : xa_is_sibling ((k.mem x).slots 0)
  · rfl
  · have := ((hc.nodes x hx).sib 0 (by omega) (sibling_internal _ hs)
      (sibling_ne_zero _ hs).2).2.1
    omega

theorem tdone_mono {k : Kernel} {t s I I' : Nat} (h : TDone k t s I) (hle : I' ≤ I) :
    TDone k t s I' :=
  fun j w h1 h2 hl => h j w h1 (by omega) hl

theorem tdone_beyond_root {k : Kernel} {L : Nat → Prop} (hc : Core k L) {t s x : Nat}
    (hx : L x) (hp : (k.mem x).parent = 0)
    (hd : TDone k t s (64 * 2 ^ (k.mem x).shift)) (I : Nat) : TDone k t s I := by
  intro j w hsj _ hl
  by_cases hlt : j < 64 * 2 ^ (k.mem x).shift
  · exact hd j w hsj hlt hl
  · have hh := (hc.nodes x hx).root hp
    have hn : xa_is_node k.xa_head = true := by
      rw [hh]
      exact is_node_add2 x (hc.nodes x hx).align (hc.nodes x hx).big
    have hb : Loc k j Place.bounds := by
      right
      refine ⟨hn, ?_⟩
      rw [hh]
      have : x + 2 - 2 = x := by omega
      rw [this, Nat.shiftRight_eq_div_pow]
      have hpos := Nat.two_pow_pos (k.mem x).shift
      have : 64 ≤ j / 2 ^ (k.mem x).shift := by
        rw [Nat.le_div_iff_mul_le hpos]
        omega
      show 63 < _
      omega
    rw [loc_unique hc hl hb]
    rfl

theorem cur_move_gen {k : Kernel} {L : Nat → Prop} {xas : xa_state} {x B o' : Nat}
    (hx : L x) (hb : NodeBlock k x B) (hnode : xas.xa_node = x) (ho : o' ≤ 64)
    (hidx : (64 * B + o') * 2 ^ (k.mem x).shift < 2 ^ 64 →
      xas.xa_index < 2 ^ 64 ∧ xas.xa_index >>> ((k.mem x).shift + 6) = B) :
    Cur k L { xas_move_index k xas o' with xa_offset := o' } x B o'
      ((64 * B + o') * 2 ^ (k.mem x).shift) := by
  refine ⟨hx, hb, ?_, rfl, ho, rfl, ?_⟩
  · simp [xas_move_index, hnode]
  · intro hlt
    obtain ⟨h1, h2⟩ := hidx hlt
    have := xas_move_index_pos k xas B o' h1 (by rw [hnode]; exact h2) (by rw [hnode]; exact hlt)
    rw [hnode] at this
    exact this

/-- Below a node with a tag bit set there is an index of the node with the tag. -/
theorem tagged_index_below {k : Kernel} {L : Nat → Prop} (hi : Inv k L) (t : Nat) (ht : t < 3) :
    ∀ n x B, L x → (k.mem x).shift = n → NodeBlock k x B →
      node_any_tag (k.mem x) t = true →
      ∃ i w, Loc k i w ∧ tag_at k t w = true ∧ i >>> ((k.mem x).shift + 6) = B := by
  intro n
  induction n using Nat.strong_induction_on with
  | _ n ihn =>
    intro x B hx hsh hb hany
    obtain ⟨o, ho, hbit⟩ := (node_any_tag_iff _ _).1 hany
    have hnx := hi.core.nodes x hx
    by_cases hn : xa_is_node ((k.mem x).slots o) = true
    · obtain ⟨c1, c2⟩ := is_node_split _ hn
      obtain ⟨d1, d2, d3, d4, d5⟩ := nodeBlock_child hi.core hb ho c1 (by rw [← c1]; exact hn)
      have htu := hi.tags _ d3 t ht
      unfold TagUp at htu
      rw [d4, if_neg (by have := hnx.big; omega), d5, hbit] at htu
      obtain ⟨i, w, a1, a2, a3⟩ := ihn _ (by omega) _ _ d3 rfl d1 htu.symm
      refine ⟨i, w, a1, a2, ?_⟩
      rw [d2, Nat.shiftRight_add _ _ 6, a3, Nat.shiftRight_eq_div_pow]
      omega
    · have hn' : xa_is_node ((k.mem x).slots o) = false := by simpa using hn
      obtain ⟨_, hsib⟩ := hnx.tag_null o t ho ht hbit
      have hl := loc_of_slot hi.core hx hb ho hn' (pos_shr B o _ ho)
      have hcan : canon (k.mem x) o = o := by
        unfold canon
        rw [hsib]
        simp
      rw [hcan] at hl
      exact ⟨_, _, hl, hbit, (pos_shr B o _ ho).1⟩

/-- A node slot with its tag bit set starts within `unsigned long`. -/
theorem tagged_node_fits {k : Kernel} {L : Nat → Prop} (hi : Inv k L) (hfit : Fits k)
    (t : Nat) (ht : t < 3) {x B o : Nat} (hx : L x) (hb : NodeBlock k x B) (ho : o < 64)
    (hbit : node_get_tag (k.mem x) o t = true)
    (hn : xa_is_node ((k.mem x).slots o) = true) :
    (64 * B + o) * 2 ^ (k.mem x).shift < 2 ^ 64 := by
  obtain ⟨c1, c2⟩ := is_node_split _ hn
  obtain ⟨d1, d2, d3, d4, d5⟩ := nodeBlock_child hi.core hb ho c1 (by rw [← c1]; exact hn)
  have htu := hi.tags _ d3 t ht
  unfold TagUp at htu
  rw [d4, if_neg (by have := (hi.core.nodes x hx).big; omega), d5, hbit] at htu
  obtain ⟨i, w, a1, a2, a3⟩ := tagged_index_below hi t ht _ _ _ d3 rfl d1 htu.symm
  have hi64 : i < 2 ^ 64 := by
    by_contra hge
    exact tag_at_entry hi ht a1 a2 (hfit i w (by omega) a1)
  rw [← d2] at a3
  have := (shr_eq_iff i (k.mem x).shift (64 * B + o)).1 a3
  omega

/-- One iteration of the loop of `xas_find_tagged` from a slot that is not a
sibling entry: it returns the entry of the slot if its tag bit is set, goes
down if the slot holds a node with the bit set, and else moves on to the next
slot with the bit set. -/
theorem xas_find_tagged_tail_spec {k : Kernel} {L : Nat → Prop} (hi : Inv k L) (hfit : Fits k)
    (t : Nat) (ht : t < 3) (s max : Nat) (hmax : max < 2 ^ 64) (f : Nat)
    (ih2 : ∀ xas' x' B' o' I', Cur k L xas' x' B' o' I' →
      (o' < 64 → xa_is_sibling ((k.mem x').slots o') = false) → s < I' → TDone k t s I' →
      (2 ^ 66 - I') * 256 + (if o' = 64 then 200 - (k.mem x').shift else (k.mem x').shift) + 2
        ≤ f →
      ∃ xas2 e, xas_find_tagged_loop k max t f xas' false = some (xas2, e) ∧
        TFound k max t s xas2 e)
    {xas : xa_state} {x B c : Nat} (hx : L x) (hb : NodeBlock k x B)
    (hnode : xas.xa_node = x) (hoff : xas.xa_offset = c) (hc : c < 64)
    (hcs : xa_is_sibling ((k.mem x).slots c) = false)
    (hidx : (64 * B + c) * 2 ^ (k.mem x).shift < 2 ^ 64 →
      xas.xa_index < 2 ^ 64 ∧ xas.xa_index >>> (k.mem x).shift = 64 * B + c)
    (hm : xas.xa_index ≤ max)
    (hd : TDone k t s ((64 * B + c) * 2 ^ (k.mem x).shift))
    (hsI : ∀ o', c < o' → o' ≤ 64 → (o' < 64 → node_get_tag (k.mem x) o' t = true) →
      s < (64 * B + o') * 2 ^ (k.mem x).shift)
    (hres : xa_is_node ((k.mem x).slots c) = false → node_get_tag (k.mem x) c t = true →
      (s < xas.xa_index ∧ TDone k t s xas.xa_index) ∨
        (xas.xa_index ≤ s ∧ Loc k s (Place.slot x c)))
    (hfuel : ∀ I', (64 * B + c) * 2 ^ (k.mem x).shift < I' → I' ≤ 2 ^ 66 →
      (2 ^ 66 - I') * 256 + 202 ≤ f) :
    (∃ xas2 e, xas_find_tagged_tail k max t f xas = some (xas2, e) ∧
      TFound k max t s xas2 e) ∨
    (node_get_tag (k.mem x) c t = true ∧ xa_is_node ((k.mem x).slots c) = true ∧
      xas_find_tagged_tail k max t f xas = xas_find_tagged_loop k max t f
        { xas with xa_node := xa_to_node ((k.mem x).slots c),
                   xa_offset := get_offset xas.xa_index
                     (k.mem (xa_to_node ((k.mem x).slots c))) } false) := by
  obtain ⟨a1, a2, a3, a4⟩ := xas_find_chunk_spec k xas t (by rw [hoff]; exact hc)
  simp only [hoff, hnode] at a1 a3 a4
  unfold xas_find_tagged_tail
  simp only [hoff]
  generalize xas_find_chunk k xas false t = r at a1 a2 a3 a4 ⊢
  have hsl := (hi.core.nodes x hx).shift_le
  by_cases hmv : r > c
  · left
    have hdec : decide (r > c) = true := by simpa using hmv
    simp only [hdec, if_true, true_and]
    have hposlt : (64 * B + c) * 2 ^ (k.mem x).shift < (64 * B + r) * 2 ^ (k.mem x).shift :=
      Nat.mul_lt_mul_of_pos_right (by omega) (Nat.two_pow_pos _)
    have c1 := @cur_move_gen k L xas x B r hx hb hnode a2 (by
      intro hlt
      obtain ⟨h1, h2⟩ := hidx (by omega)
      refine ⟨h1, ?_⟩
      rw [Nat.shiftRight_add, h2, Nat.shiftRight_eq_div_pow]
      omega)
    have hd' := tdone_skip hi t ht hx hb hc a2 hcs a3 hd
    have hs' := hsI r hmv a2 a4
    have hle := pos_bound hi.core hx hb a2
    have hfu := hfuel _ hposlt hle
    generalize hI' : (64 * B + r) * 2 ^ (k.mem x).shift = I' at c1 hd' hs' hle hfu hposlt
    generalize hxas2 : ({ xas_move_index k xas r with xa_offset := r } : xa_state) = xas2 at c1 ⊢
    have e_idx : (xas_move_index k xas r).xa_index = xas2.xa_index := by rw [← hxas2]
    have e_node : (xas_move_index k xas r).xa_node = x := by simp [xas_move_index, hnode]
    have e_shift : (xas_move_index k xas r).xa_shift = xas2.xa_shift := by rw [← hxas2]
    have e_sibs : (xas_move_index k xas r).xa_sibs = xas2.xa_sibs := by rw [← hxas2]
    have e_alloc : (xas_move_index k xas r).xa_alloc = xas2.xa_alloc := by rw [← hxas2]
    simp only [e_idx, e_node, e_shift, e_sibs, e_alloc]
    by_cases hr64 : r = XA_CHUNK_SIZE
    · rw [if_pos hr64]
      have hr : r = 64 := hr64
      subst hr
      exact ih2 _ _ _ _ _ c1 (fun h => absurd h (by omega)) hs' hd' (by
        simp only [if_true]
        omega)
    · rw [if_neg hr64]
      have hr : r < 64 := by
        have : r ≠ 64 := hr64
        omega
      have hbit := a4 hr
      by_cases hgt : xas2.xa_index > max
      · rw [if_pos hgt]
        refine ⟨_, _, rfl, Or.inl ⟨rfl, ?_⟩⟩
        by_cases hI : I' < 2 ^ 64
        · rw [c1.index hI] at hgt
          exact tdone_mono hd' (by omega)
        · exact tdone_mono hd' (by omega)
      · rw [if_neg hgt]
        simp only [xa_entry, c1.node, c1.offset]
        by_cases hn : xa_is_node ((k.mem x).slots r) = true
        · simp only [hn, Bool.not_true, Bool.false_eq_true, if_false]
          have hfits := tagged_node_fits hi hfit t ht hx hb hr hbit hn
          rw [hI'] at hfits
          have hidx2 := c1.index hfits
          obtain ⟨d1, d2⟩ := cur_descend hi.core c1 hr hn
          have hgo : get_offset xas2.xa_index (k.mem (xa_to_node ((k.mem x).slots r))) = 0 := by
            rw [get_offset_eq, hidx2, ← hI', d2]
            have e : (64 * B + r) * 2 ^ ((k.mem (xa_to_node ((k.mem x).slots r))).shift + 6) =
                (64 * (64 * B + r) + 0) * 2 ^ (k.mem (xa_to_node ((k.mem x).slots r))).shift := by
              rw [Nat.pow_add]
              ring
            rw [e]
            exact (pos_shr _ 0 _ (by omega)).2
          rw [hgo]
          refine ih2 _ _ _ _ _ d1 (fun _ => no_sibling_first hi.core d1.live) hs' hd' ?_
          simp only [show (0 : Nat) ≠ 64 by omega, if_false]
          omega
        · have hn' : xa_is_node ((k.mem x).slots r) = false := by simpa using hn
          simp only [hn', Bool.not_false, if_true]
          obtain ⟨p1, p2, p3, p4, p5⟩ :=
            tagged_slot_place hi hfit t ht hx hb hr hbit hn' (pos_shr B r _ hr)
          rw [hI'] at p1 p5
          have hidx2 := c1.index p5
          refine ⟨_, _, rfl, Or.inr ⟨p3, Place.slot x r, ?_, rfl, p2, by omega, Or.inl ⟨?_, ?_⟩⟩⟩
          · rw [hidx2]
            exact p1
          · rw [hidx2]
            exact hs'
          · rw [hidx2]
            exact hd'
  · have hrc : r = c := by omega
    subst hrc
    have hdec : decide (r > r) = false := by simp
    simp only [hdec, Bool.false_eq_true, if_false, false_and, xa_entry, hnode]
    have hbit := a4 hc
    by_cases hn : xa_is_node ((k.mem x).slots r) = true
    · right
      refine ⟨hbit, hn, ?_⟩
      simp only [hoff, hn, Bool.not_true, Bool.false_eq_true, if_false]
    · left
      have hn' : xa_is_node ((k.mem x).slots r) = false := by simpa using hn
      simp only [hoff, hn', Bool.not_false, if_true]
      obtain ⟨_, p2, p3, p4, p5⟩ :=
        tagged_slot_place hi hfit t ht hx hb hc hbit hn' (pos_shr B r _ hc)
      obtain ⟨h1, h2⟩ := hidx p5
      have hj : xas.xa_index >>> ((k.mem x).shift + 6) = B ∧
          (xas.xa_index >>> (k.mem x).shift) % 64 = r := by
        rw [Nat.shiftRight_add, h2, Nat.shiftRight_eq_div_pow]
        omega
      obtain ⟨q1, _⟩ := tagged_slot_place hi hfit t ht hx hb hc hbit hn' hj
      exact ⟨_, _, rfl, Or.inr ⟨p3, Place.slot x r, q1, rfl, p2, hm, hres hn' hbit⟩⟩

theorem xas_find_tagged_adjust_plain (k : Kernel) (xas : xa_state)
    (h : xa_is_sibling ((k.mem xas.xa_node).slots xas.xa_offset) = false) :
    xas_find_tagged_adjust k xas = xas := by
  simp [xas_find_tagged_adjust, xa_entry, h]

/-- The loop of `xas_find_tagged` once it has moved past the start index: it
ends, with `NULL` when no index up to `max` has the tag, else on the first
slot with the tag. -/
theorem xas_find_tagged_loop_moved {k : Kernel} {L : Nat → Prop} (hi : Inv k L)
    (hfit : Fits k) (t : Nat) (ht : t < 3) (s max : Nat) (hmax : max < 2 ^ 64) :
    ∀ fuel xas x B o I, Cur k L xas x B o I →
      (o < 64 → xa_is_sibling ((k.mem x).slots o) = false) → s < I → TDone k t s I →
      (2 ^ 66 - I) * 256 + (if o = 64 then 200 - (k.mem x).shift else (k.mem x).shift) + 2
        ≤ fuel →
      ∃ xas2 e, xas_find_tagged_loop k max t fuel xas false = some (xas2, e) ∧
        TFound k max t s xas2 e := by
  intro fuel
  induction fuel with
  | zero =>
    intro xas x B o I _ _ _ _ h
    omega
  | succ f ih =>
    intro xas x B o I hcur hns hsI hd hfuel
    have hnx := hi.core.nodes x hcur.live
    have hsl := hnx.shift_le
    rw [xas_find_tagged_loop_unfold]
    by_cases hm : xas.xa_index ≤ max
    · rw [if_pos hm]
      by_cases ho : xas.xa_offset = XA_CHUNK_SIZE
      · rw [if_pos ho]
        have ho64 : o = 64 := by
          rw [← hcur.offset]
          exact ho
        subst ho64
        rw [hcur.node]
        by_cases hp : (k.mem x).parent = 0
        · rw [if_pos (show xa_parent k x = 0 from hp)]
          refine ⟨_, _, rfl, Or.inl ⟨rfl, ?_⟩⟩
          apply tdone_beyond_root hi.core hcur.live hp
          have hpos := hcur.pos
          rw [nodeBlock_root hi.core hcur.block hp] at hpos
          rw [hpos] at hd
          simpa using hd
        · rw [if_neg (show ¬ xa_parent k x = 0 from hp)]
          obtain ⟨c1, c2⟩ := cur_ascend hi.core hcur hp
          have hpl := (hi.core.nodes _ c1.live).shift_le
          have hup := hnx.up hp
          have hchild := hup.2.2.1
          refine ih _ _ _ _ _ c1 ?_ hsI hd ?_
          · intro hlt
            apply no_sibling_after_node hi.core c1.live hlt
            rw [hchild]
            exact is_node_add2 x hnx.align hnx.big
          · rw [c2]
            simp only [if_true] at hfuel
            split_ifs <;> omega
      · rw [if_neg ho]
        have ho' : o < 64 := by
          have := hcur.le
          have : o ≠ 64 := by
            rw [← hcur.offset]
            exact ho
          omega
        rw [if_neg (by omega : ¬ o = 64)] at hfuel
        rw [xas_find_tagged_adjust_plain k xas (by rw [hcur.node, hcur.offset]; exact hns ho')]
        have hidx : (64 * B + o) * 2 ^ (k.mem x).shift < 2 ^ 64 →
            xas.xa_index < 2 ^ 64 ∧ xas.xa_index >>> (k.mem x).shift = 64 * B + o := by
          intro hlt
          rw [← hcur.pos] at hlt
          rw [hcur.index hlt]
          refine ⟨hlt, ?_⟩
          rw [hcur.pos]
          exact (shr_eq_iff _ _ _).2 ⟨le_refl _, by
            have := Nat.two_pow_pos (k.mem x).shift
            nlinarith⟩
        have hstep : ∀ o', o < o' →
            (64 * B + o) * 2 ^ (k.mem x).shift < (64 * B + o') * 2 ^ (k.mem x).shift :=
          fun o' h => Nat.mul_lt_mul_of_pos_right (by omega) (Nat.two_pow_pos _)
        rcases xas_find_tagged_tail_spec hi hfit t ht s max hmax f ih hcur.live hcur.block
          hcur.node hcur.offset ho' (hns ho') hidx hm (hcur.pos ▸ hd)
          (fun o' h1 _ _ => by
            have := hstep o' h1
            rw [← hcur.pos] at this
            omega)
          (fun hn hbit => by
            left
            obtain ⟨_, _, _, _, p5⟩ :=
              tagged_slot_place hi hfit t ht hcur.live hcur.block ho' hbit hn
                (pos_shr B o _ ho')
            rw [← hcur.pos] at p5
            rw [hcur.index p5]
            exact ⟨hsI, hd⟩)
          (fun I' h1 h2 => by
            rw [← hcur.pos] at h1
            omega) with h | ⟨hbit, hn, htail⟩
        · exact h
        · rw [htail]
          have hfits := tagged_node_fits hi hfit t ht hcur.live hcur.block ho' hbit hn
          rw [← hcur.pos] at hfits
          have hidx2 := hcur.index hfits
          obtain ⟨d1, d2⟩ := cur_descend hi.core hcur ho' hn
          have hgo : get_offset xas.xa_index (k.mem (xa_to_node ((k.mem x).slots o))) = 0 := by
            rw [get_offset_eq, hidx2, hcur.pos, d2]
            have e : (64 * B + o) * 2 ^ ((k.mem (xa_to_node ((k.mem x).slots o))).shift + 6) =
                (64 * (64 * B + o) + 0) * 2 ^ (k.mem (xa_to_node ((k.mem x).slots o))).shift := by
              rw [Nat.pow_add]
              ring
            rw [e]
            exact (pos_shr _ 0 _ (by omega)).2
          rw [hgo]
          refine ih _ _ _ _ _ d1 (fun _ => no_sibling_first hi.core d1.live) hsI hd ?_
          simp only [show (0 : Nat) ≠ 64 by omega, if_false]
          omega
    · rw [if_neg hm]
      refine ⟨_, _, rfl, Or.inl ⟨rfl, ?_⟩⟩
      by_cases hI : I < 2 ^ 64
      · rw [hcur.index hI] at hm
        exact tdone_mono hd (by omega)
      · exact tdone_mono hd (by omega)

theorem tdone_vacuous {k : Kernel} {t s I : Nat} (h : I ≤ s) : TDone k t s I :=
  fun j _ h1 h2 _ => absurd h1 (by omega)

/-- The loop of `xas_find_tagged` on the walk for the start index `s`, before
it has moved: it ends, with the entry that covers `s` if that has the tag,
else as after a move. -/
theorem xas_find_tagged_loop_start {k : Kernel} {L : Nat → Prop} (hi : Inv k L)
    (hfit : Fits k) (t : Nat) (ht : t < 3) (s max : Nat) (hs : s ≤ max) (hmax : max < 2 ^ 64) :
    ∀ n x xas fuel, (k.mem x).shift = 6 * n → Visits k s x → xas.xa_node = x →
      xas.xa_offset = get_offset s (k.mem x) → xas.xa_index = s → 2 ^ 74 + 300 + n ≤ fuel →
      ∃ xas2 e, xas_find_tagged_loop k max t fuel xas false = some (xas2, e) ∧
        TFound k max t s xas2 e := by
  intro n
  induction n using Nat.strong_induction_on with
  | _ n ihn =>
    intro x xas fuel hsh hv hnode hoff hidx hfuel
    obtain ⟨f, rfl⟩ : ∃ f, fuel = f + 1 := ⟨fuel - 1, by omega⟩
    have hx := visits_live hi.core hv
    have hnx := hi.core.nodes x hx
    have hb := nodeBlock_of_visits hi.core hv
    have ho64 := get_offset_lt s (k.mem x)
    have hrange := (slot_index_iff s (s >>> ((k.mem x).shift + 6)) (get_offset s (k.mem x))
      (k.mem x).shift ho64).2 ⟨rfl, (get_offset_eq s (k.mem x)).symm⟩
    have hstep : ∀ o', get_offset s (k.mem x) < o' →
        s < (64 * (s >>> ((k.mem x).shift + 6)) + o') * 2 ^ (k.mem x).shift := by
      intro o' h
      have : (64 * (s >>> ((k.mem x).shift + 6)) + get_offset s (k.mem x) + 1) *
          2 ^ (k.mem x).shift ≤ (64 * (s >>> ((k.mem x).shift + 6)) + o') * 2 ^ (k.mem x).shift :=
        Nat.mul_le_mul_right _ (by omega)
      omega
    have ih2 := xas_find_tagged_loop_moved hi hfit t ht s max hmax f
    have hfu : ∀ I', I' ≤ 2 ^ 66 → (2 ^ 66 - I') * 256 + 202 ≤ f := by
      intro I' _
      have : (2 ^ 66 - I') * 256 ≤ 2 ^ 66 * 256 := Nat.mul_le_mul_right _ (Nat.sub_le _ _)
      omega
    rw [xas_find_tagged_loop_unfold, if_pos (by rw [hidx]; exact hs),
      if_neg (by rw [hoff]; show ¬ get_offset s (k.mem x) = 64; omega)]
    by_cases hsib : xa_is_sibling ((k.mem x).slots (get_offset s (k.mem x))) = true
    · obtain ⟨_, s2, s3, s4, s5⟩ := hnx.sib _ ho64 (sibling_internal _ hsib)
        (sibling_ne_zero _ hsib).2
      generalize hcd : xa_to_sibling ((k.mem x).slots (get_offset s (k.mem x))) = c at s2 s3 s4 s5
      have hple : (64 * (s >>> ((k.mem x).shift + 6)) + c) * 2 ^ (k.mem x).shift ≤ s := by
        have : (64 * (s >>> ((k.mem x).shift + 6)) + c) * 2 ^ (k.mem x).shift ≤
            (64 * (s >>> ((k.mem x).shift + 6)) + get_offset s (k.mem x)) *
              2 ^ (k.mem x).shift := Nat.mul_le_mul_right _ (by omega)
        omega
      have hadj : xas_find_tagged_adjust k xas =
          xas_move_index k { xas with xa_offset := c } c := by
        simp [xas_find_tagged_adjust, xa_entry, hnode, hoff, hsib, hcd]
      have hmv := xas_move_index_pos k { xas with xa_offset := c }
        (s >>> ((k.mem x).shift + 6)) c (by show xas.xa_index < _; rw [hidx]; omega)
        (by show xas.xa_index >>> ((k.mem xas.xa_node).shift + 6) = _; rw [hnode, hidx])
        (by show _ * 2 ^ (k.mem xas.xa_node).shift < _; rw [hnode]; omega)
      have hmv' : (xas_move_index k { xas with xa_offset := c } c).xa_index =
          (64 * (s >>> ((k.mem x).shift + 6)) + c) * 2 ^ (k.mem xas.xa_node).shift := hmv
      rw [hadj]
      generalize hx1 : xas_move_index k { xas with xa_offset := c } c = xas1 at hmv' ⊢
      rw [hnode] at hmv'
      have h1n : xas1.xa_node = x := by
        rw [← hx1]
        simp [xas_move_index, hnode]
      have h1o : xas1.xa_offset = c := by
        rw [← hx1]
        simp [xas_move_index]
      rcases xas_find_tagged_tail_spec hi hfit t ht s max hmax f ih2 hx hb
        h1n h1o (by omega : c < 64)
        (not_internal_not_sibling _ s3)
        (fun hlt => by
          rw [hmv']
          exact ⟨hlt, (shr_eq_iff _ _ _).2 ⟨le_refl _, by
            have := Nat.two_pow_pos (k.mem x).shift
            nlinarith⟩⟩)
        (by rw [hmv']; omega)
        (tdone_vacuous hple)
        (fun o' h1 h2 h3 => by
          by_cases hle : o' ≤ get_offset s (k.mem x)
          · exfalso
            have hbit := h3 (by omega)
            have := (hnx.tag_null o' t (by omega) ht hbit).2
            rw [s5 o' h1 hle, hsib] at this
            exact absurd this (by decide)
          · exact hstep o' (by omega))
        (fun hn _ => Or.inr ⟨by rw [hmv']; exact hple, loc_slot_iff.2 ⟨hv, by
          unfold canon
          rw [if_pos hsib, hcd], hn⟩⟩)
        (fun I' _ h2 => hfu I' h2) with h | ⟨_, hn, _⟩
      · exact h
      · rw [not_internal_not_node _ s3] at hn
        exact absurd hn (by decide)
    · have hsib' : xa_is_sibling ((k.mem x).slots (get_offset s (k.mem x))) = false := by
        simpa using hsib
      rw [xas_find_tagged_adjust_plain k xas (by rw [hnode, hoff]; exact hsib')]
      have hshr : s >>> (k.mem x).shift =
          64 * (s >>> ((k.mem x).shift + 6)) + get_offset s (k.mem x) := by
        rw [get_offset_eq, Nat.shiftRight_add, Nat.shiftRight_eq_div_pow _ 6]
        have := Nat.div_add_mod (s >>> (k.mem x).shift) 64
        omega
      rcases xas_find_tagged_tail_spec hi hfit t ht s max hmax f ih2 hx hb hnode hoff ho64 hsib'
        (fun _ => by
          rw [hidx]
          exact ⟨by omega, hshr⟩)
        (by rw [hidx]; exact hs)
        (tdone_vacuous hrange.1)
        (fun o' h1 _ _ => hstep o' h1)
        (fun hn _ => Or.inr ⟨by rw [hidx], loc_slot_iff.2 ⟨hv, by
          unfold canon
          rw [hsib']
          simp, hn⟩⟩)
        (fun I' _ h2 => hfu I' h2) with h | ⟨_, hn, htail⟩
      · exact h
      · rw [htail, hidx]
        obtain ⟨e1, _, _⟩ := is_node_split _ hn
        have hvc : Visits k s ((k.mem x).slots (get_offset s (k.mem x)) - 2) :=
          Visits.step x _ hv e1 (by rw [← e1]; exact hn)
        obtain ⟨c1, _⟩ := visits_child_shift hi.core hv e1 (by rw [← e1]; exact hn)
        have hn1 : 1 ≤ n := by omega
        exact ihn (n - 1) (by omega) ((k.mem x).slots (get_offset s (k.mem x)) - 2) _ f
          (by omega) hvc rfl rfl rfl (by omega)

/-- `xas_find_tagged` on a fresh cursor at index `s`. -/
theorem xas_find_tagged_fresh {k : Kernel} {L : Nat → Prop} (hi : Inv k L) (hfit : Fits k)
    (t : Nat) (ht : t < 3) (s max fuel : Nat) (hs : s ≤ max) (hmax : max < 2 ^ 64)
    (hf : 2 ^ 75 ≤ fuel) :
    ∃ xas2 e, xas_find_tagged fuel k (XA_STATE s) max t = some (xas2, e) ∧
      TFound k max t s xas2 e := by
  have herr : xas_error (XA_STATE s) = 0 :=
    xas_error_plain _ (show (3 : Nat) % 4 ≠ 2 by decide)
  unfold xas_find_tagged
  rw [herr]
  simp only [ne_eq, not_true, if_false, XA_STATE, xas_top, show (3 : Nat) ≠ 0 by decide,
    show decide ((3 : Nat) ≤ XAS_RESTART) = true by decide, if_true, xa_head]
  by_cases hn : xa_is_node k.xa_head = true
  · obtain ⟨e1, e2, e3⟩ := is_node_split _ hn
    have hr := (hi.core.head_node hn).1
    have hnr := hi.core.nodes _ hr
    have hmi := max_index_node_iff k k.xa_head s hn hnr.shift6 hnr.shift_le (by omega)
    by_cases hgt : s > max_index k k.xa_head
    · rw [if_pos hgt]
      refine ⟨_, _, rfl, Or.inl ⟨rfl, ?_⟩⟩
      intro j w hsj _ hl
      have hb : Loc k j Place.bounds := by
        refine Or.inr ⟨hn, ?_⟩
        exact lt_of_lt_of_le (hmi.1 hgt) (shr_mono s j (k.mem (k.xa_head - 2)).shift hsj)
      rw [loc_unique hi.core hl hb]
      rfl
    · rw [if_neg hgt]
      simp only [hn, Bool.not_true, Bool.false_eq_true, if_false]
      have hle : s >>> (k.mem (k.xa_head - 2)).shift ≤ 63 := by
        by_contra h
        exact hgt (hmi.2 (Nat.lt_of_not_le h))
      have hv : Visits k s (k.xa_head - 2) :=
        Visits.root _ e1 (by rw [← e1]; exact hn) hle
      have h6 := hnr.shift6
      have hsl := hnr.shift_le
      refine xas_find_tagged_loop_start hi hfit t ht s max hs hmax
        ((k.mem (k.xa_head - 2)).shift / 6) (k.xa_head - 2) _ fuel (by omega) hv rfl ?_ rfl
        (by omega)
      show (s >>> (k.mem (k.xa_head - 2)).shift) % 256 = _
      rw [get_offset_eq]
      generalize s >>> (k.mem (k.xa_head - 2)).shift = A at hle ⊢
      omega
  · have hn' : xa_is_node k.xa_head = false := by simpa using hn
    rw [max_index_leaf k _ hn']
    by_cases h0 : s > 0
    · rw [if_pos h0]
      refine ⟨_, _, rfl, Or.inl ⟨rfl, ?_⟩⟩
      intro j w hsj _ hl
      have hb : Loc k j Place.bounds := Or.inl ⟨hn', by omega⟩
      rw [loc_unique hi.core hl hb]
      rfl
    · rw [if_neg h0]
      have hs0 : s = 0 := by omega
      subst hs0
      simp only [hn', Bool.not_false, if_true]
      by_cases htag : xa_tagged k t = true
      · rw [if_pos htag]
        have hh0 : k.xa_head ≠ 0 := by
          intro h
          rw [hi.head_null h t ht] at htag
          exact absurd htag (by decide)
        exact ⟨_, _, rfl, Or.inr ⟨hh0, Place.head, ⟨hn', rfl⟩, rfl, htag, Nat.zero_le _,
          Or.inr ⟨le_refl _, hn', rfl⟩⟩⟩
      · rw [if_neg htag]
        refine ⟨_, _, rfl, Or.inl ⟨rfl, ?_⟩⟩
        intro j w _ _ hl
        cases w with
        | head => simpa [tag_at] using htag
        | bounds => rfl
        | slot y q =>
          have hy := visits_live hi.core (loc_slot_iff.1 hl).1
          exact ((hi.core.head_leaf hn').2 y hy).elim

theorem tfound_entry {k : Kernel} {L : Nat → Prop} (hi : Inv k L) {max t s : Nat}
    {xas : xa_state} {e : Nat} (h : TFound k max t s xas e) : xa_is_retry e = false := by
  rcases h with ⟨rfl, _⟩ | ⟨_, w, hl, he, _⟩
  · decide
  · rw [← he]
    exact not_internal_not_retry _ (entry_at_not_internal hi.core hl)

/-- `xa_find` with a tag filter, on well-formed arrays. -/
theorem xa_find_tagged_spec {k : Kernel} {L : Nat → Prop} (hi : Inv k L) (hfit : Fits k)
    (t : Nat) (ht : t < 3) (s max fuel : Nat) (hs : s ≤ max) (hmax : max < 2 ^ 64)
    (hf : 2 ^ 75 ≤ fuel) :
    ∃ xas e, xa_find fuel k s max t = some (if e ≠ 0 then xas.xa_index else s, e) ∧
      TFound k max t s xas e := by
  obtain ⟨xas2, e, h1, h2⟩ := xas_find_tagged_fresh hi hfit t ht s max fuel hs hmax hf
  obtain ⟨f, rfl⟩ : ∃ f, fuel = f + 1 := ⟨fuel - 1, by omega⟩
  refine ⟨xas2, e, ?_, h2⟩
  unfold xa_find
  rw [xa_find_loop]
  simp only [xa_find_step, show t < XA_MAX_TAGS from ht, if_true, h1, xas_retry,
    tfound_entry hi h2, Bool.not_false, if_true, Bool.false_eq_true, if_false]

/-- `xa_find` with the filter `XA_PRESENT`, on well-formed arrays. -/
theorem xa_find_present_spec {k : Kernel} {L : Nat → Prop} (hi : Inv k L) (hfit : Fits k)
    (filter : Nat) (hfl : ¬ filter < XA_MAX_TAGS) (s max fuel : Nat) (hs : s ≤ max)
    (hmax : max < 2 ^ 64) (hf : 2 ^ 75 ≤ fuel) :
    ∃ idx e, xa_find fuel k s max filter = some (idx, e) ∧
      ((e = 0 ∧ idx = s ∧ ∀ j w, s ≤ j → j ≤ max → Loc k j w → entry_at k w = 0) ∨
       (e ≠ 0 ∧ ∃ w, Loc k idx w ∧ entry_at k w = e ∧ idx ≤ max ∧ (s ≤ idx ∨ Loc k s w) ∧
         ∀ j w', s ≤ j → j < idx → Loc k j w' → entry_at k w' = 0)) := by
  obtain ⟨w, xas', e, h1, h2, h3⟩ := xas_find_fresh hi hfit s max fuel (by omega) hmax hf
  obtain ⟨f, rfl⟩ : ∃ f, fuel = f + 1 := ⟨fuel - 1, by omega⟩
  have hnull : ∀ I, Done k (fun w' => ∃ j, j ≤ s ∧ Loc k j w') I → entry_at k w = 0 →
      ∀ j w', s ≤ j → j < I → Loc k j w' → entry_at k w' = 0 := by
    intro I hd he j w' hsj hj hl
    rcases hd j w' hj hl with h | ⟨j', hj', hl'⟩
    · exact h
    · have := loc_convex hi.core hl' hl hj' hsj
      rw [loc_unique hi.core this h2]
      exact he
  have hretry : xa_is_retry e = false := by
    rcases h3 with ⟨_, rfl, _⟩ | ⟨_, ⟨rfl, _⟩ | ⟨y, B, q, I, _, _, _, _, hint, _⟩⟩
    · exact not_internal_not_retry _ (entry_at_not_internal hi.core h2)
    · decide
    · exact not_internal_not_retry _ hint
  have hfind : xa_find (f + 1) k s max filter =
      some (if e ≠ 0 then xas'.xa_index else s, e) := by
    unfold xa_find
    rw [xa_find_loop]
    simp only [xa_find_step, hfl, if_false, h1, xas_retry, hretry, Bool.not_false, if_true,
      Bool.false_eq_true]
  rw [hfind]
  refine ⟨_, _, rfl, ?_⟩
  rcases h3 with ⟨he, rfl, hidx, hloc, _, _⟩ | ⟨he, ⟨rfl, hd⟩ | ⟨y, B, q, I, hcur, hq, hsl, he0,
      hint, hI0, hIm, hd⟩⟩
  · right
    rw [if_pos he]
    exact ⟨he, w, hloc, rfl, by omega, Or.inr h2, fun j w' h1 h2 => by omega⟩
  · left
    rw [if_neg (by simp)]
    exact ⟨rfl, rfl, fun j w' h1 h2 hl => hnull _ hd he j w' h1 (by omega) hl⟩
  · right
    rw [if_pos he0]
    have hn : xa_is_node ((k.mem y).slots q) = false := by
      rw [hsl]
      exact not_internal_not_node _ hint
    have hsb : xa_is_sibling ((k.mem y).slots q) = false := by
      rw [hsl]
      exact not_internal_not_sibling _ hint
    obtain ⟨hI64, hloc⟩ := cur_entry_fits hi.core hfit hcur hq hn hsb (by rw [hsl]; exact he0)
    rw [hcur.index hI64]
    exact ⟨he0, Place.slot y q, hloc, hsl, hIm, Or.inl (by omega),
      fun j w' h1 h2 hl => hnull _ hd he j w' h1 h2 hl⟩

/-- C15, as stated, fails: in the array with one entry of order 2 at indices
8 to 11, `xa_find` from index 9 with `max = 11` returns that entry and sets
the index to 8, below the start index; in the array with entries at 5 and
7, `xa_find` from index 5 with `max = 3` returns the entry at 5, above `max`;
and in the state `ex_merged` (entries at 8, 9 and 20, index 9 tagged with tag
0, then an entry of order 1 stored over 8 and 9 by `xas_store`, which leaves
the tag bit of slot 9 behind), `xa_find` from index 0 with `max = 100` and tag
0 as filter returns, at index 9, the internal sibling entry of slot 9, although
`xa_get_tag(xa, 9, 0)` is false and no entry of the array matches the filter. -/
theorem C15_find_counterexample :
    (xa_find 64 ex_range 9 11 XA_PRESENT = some (8, 24) ∧ 8 < 9) ∧
    (xa_find 64 ex_pair 5 3 XA_PRESENT = some (5, 8) ∧ 3 < 5) ∧
    ((xas_store 64 ex_three_tagged (xas_set_order (XA_STATE 0) 8 1) 24).isSome = true ∧
      xa_find 64 ex_merged 0 100 0 = some (9, xa_mk_sibling 8) ∧
      xa_is_internal (xa_mk_sibling 8) = true ∧
      xa_get_tag 64 ex_merged 9 0 = some false ∧
      xa_get_tag 64 ex_merged 8 0 = some false ∧
      xa_get_tag 64 ex_merged 20 0 = some false) := by
  decide

/-- C15, amended: for every well-formed array (whose entries all lie within
`unsigned long`), start index `s`, `max` with `s ≤ max`, and filter,
`xa_find` returns (with enough fuel) the first entry matching the filter
that covers an index of `[s, max]`, and sets the index to an index `idx ≤ max`
of that entry, where either `s ≤ idx`, or the entry is a multi-index entry
that covers `s` as well; no index from `s` up to `idx` matches.  If no index
of `[s, max]` matches, it returns `NULL` and leaves the index unchanged. -/
theorem C15_find_first_match (k : Kernel) (s max filter fuel : Nat) (hwf : WF k)
    (hfit : Fits k) (hs : s ≤ max) (hmax : max < 2 ^ 64) (hf : 2 ^ 75 ≤ fuel) :
    ∃ idx e, xa_find fuel k s max filter = some (idx, e) ∧
      (e = 0 → idx = s ∧ ∀ j, s ≤ j → j ≤ max → ¬ xa_find_matches fuel k filter j) ∧
      (e ≠ 0 → xa_load fuel k idx = some e ∧ xa_find_matches fuel k filter idx ∧ idx ≤ max ∧
        (s ≤ idx ∨ Covers k idx s) ∧
        ∀ j, s ≤ j → j < idx → ¬ xa_find_matches fuel k filter j) := by
  obtain ⟨L, hi⟩ := hwf
  by_cases hfl : filter < XA_MAX_TAGS
  · have ht : filter < 3 := hfl
    obtain ⟨xas, e, h1, h2⟩ := xa_find_tagged_spec hi hfit filter ht s max fuel hs hmax hf
    refine ⟨_, e, h1, ?_, ?_⟩
    · intro he
      rw [if_neg (by simp [he])]
      refine ⟨rfl, ?_⟩
      intro j hsj hjm hmatch
      unfold xa_find_matches at hmatch
      rw [if_pos hfl] at hmatch
      rcases h2 with ⟨_, hd⟩ | ⟨he0, _⟩
      · obtain ⟨w, hl⟩ := loc_exists hi.core j
        rw [xa_get_tag_of_loc hi ht (by omega) hl, hd j w hsj (by omega) hl] at hmatch
        exact absurd (Option.some.inj hmatch) (by decide)
      · exact he0 he
    · intro he
      rw [if_pos he]
      rcases h2 with ⟨he0, _⟩ | ⟨_, w, hl, hew, htag, hle, hor⟩
      · exact absurd he0 he
      · refine ⟨by rw [xa_load_of_loc hi.core (by omega) hl, hew], ?_, hle, ?_, ?_⟩
        · unfold xa_find_matches
          rw [if_pos hfl, xa_get_tag_of_loc hi ht (by omega) hl, htag]
        · rcases hor with ⟨h, _⟩ | ⟨_, h⟩
          · exact Or.inl (by omega)
          · exact Or.inr ⟨w, hl, h⟩
        · intro j hsj hj hmatch
          unfold xa_find_matches at hmatch
          rw [if_pos hfl] at hmatch
          rcases hor with ⟨_, hd⟩ | ⟨h, _⟩
          · obtain ⟨w', hl'⟩ := loc_exists hi.core j
            rw [xa_get_tag_of_loc hi ht (by omega) hl', hd j w' hsj hj hl'] at hmatch
            exact absurd (Option.some.inj hmatch) (by decide)
          · omega
  · obtain ⟨idx, e, h1, h2⟩ := xa_find_present_spec hi hfit filter hfl s max fuel hs hmax hf
    have hno : ∀ j, (∀ w, Loc k j w → entry_at k w = 0) → ¬ xa_find_matches fuel k filter j := by
      intro j h hmatch
      unfold xa_find_matches at hmatch
      rw [if_neg hfl] at hmatch
      obtain ⟨e', a1, a2⟩ := hmatch
      obtain ⟨w, hl⟩ := loc_exists hi.core j
      rw [xa_load_of_loc hi.core (by omega) hl, h w hl] at a1
      exact a2 (Option.some.inj a1).symm
    refine ⟨idx, e, h1, ?_, ?_⟩
    · intro he
      rcases h2 with ⟨_, hidx, hd⟩ | ⟨he0, _⟩
      · exact ⟨hidx, fun j hsj hjm => hno j (fun w hl => hd j w hsj hjm hl)⟩
      · exact absurd he he0
    · intro he
      rcases h2 with ⟨he0, _⟩ | ⟨_, w, hl, hew, hle, hor, hd⟩
      · exact absurd he0 he
      · have hld : xa_load fuel k idx = some e := by
          rw [xa_load_of_loc hi.core (by omega) hl, hew]
        refine ⟨hld, ?_, hle, ?_, fun j hsj hj => hno j (fun w' hl' => hd j w' hsj hj hl')⟩
        · unfold xa_find_matches
          rw [if_neg hfl]
          exact ⟨e, hld, he⟩
        · rcases hor with h | h
          · exact Or.inl h
          · exact Or.inr ⟨w, hl, h⟩

theorem C15_find_first_match_witness :
    ∃ idx e, xa_find (2 ^ 75) ex_range 9 11 XA_PRESENT = some (idx, e) ∧
      (e = 0 → idx = 9 ∧
        ∀ j, 9 ≤ j → j ≤ 11 → ¬ xa_find_matches (2 ^ 75) ex_range XA_PRESENT j) ∧
      (e ≠ 0 → xa_load (2 ^ 75) ex_range idx = some e ∧
        xa_find_matches (2 ^ 75) ex_range XA_PRESENT idx ∧ idx ≤ 11 ∧
        (9 ≤ idx ∨ Covers ex_range idx 9) ∧
        ∀ j, 9 ≤ j → j < idx → ¬ xa_find_matches (2 ^ 75) ex_range XA_PRESENT j) :=
  C15_find_first_match ex_range 9 11 XA_PRESENT (2 ^ 75) ex_range_facts.1 ex_range_fits
    (by decide) (by decide) (le_refl _)

/-! ## Entry encoding laws -/

theorem or1_of_even (a : Nat) (h : a % 2 = 0) : a ||| 1 = a + 1 := by
  apply Nat.eq_of_testBit_eq
  intro i
  have h2 : a = 2 * (a / 2) := by omega
  rw [h2]
  generalize a / 2 = b
  rw [Nat.testBit_or]
  rcases i with _ | i
  · simp
    omega
  · simp [Nat.testBit_succ]
    have : (2 * b + 1) / 2 = b := by omega
    simp [this]

theorem and1 (e : Nat) : e &&& 1 = e % 2 := by
  exact Nat.and_one_is_mod e

theorem xa_mk_value_eq (v : Nat) (hv : v < 2 ^ 63) : xa_mk_value v = 2 * v + 1 := by
  unfold xa_mk_value
  have e1 : v <<< 1 = 2 * v := by rw [Nat.shiftLeft_eq]; omega
  rw [e1, or1_of_even _ (by omega)]
  simp only [WORD]
  omega

/-- C22: for every integer `v` with `0 ≤ v < 2^(BITS_PER_LONG-1)`,
`xa_to_value (xa_mk_value v) = v`, `xa_is_value (xa_mk_value v)` is true and
`xa_is_internal (xa_mk_value v)` is false, so that `xa_store` does not reject
the value entry but runs its store loop on it. -/
theorem C22_value_round_trip (v : Nat) (hv : v < 2 ^ (BITS_PER_LONG - 1)) :
    xa_to_value (xa_mk_value v) = v ∧ xa_is_value (xa_mk_value v) = true ∧
    xa_is_internal (xa_mk_value v) = false ∧
    ∀ fuel k i gfp, xa_store fuel k i (xa_mk_value v) gfp =
      (xa_store_loop xas_nomem fuel (xa_mk_value v) gfp fuel k (XA_STATE i)).map
        fun r => (r.1, xas_result r.2.1 r.2.2) := by
  have hv' : v < 2 ^ 63 := hv
  have hint : xa_is_internal (xa_mk_value v) = false := by
    cases h : xa_is_internal (xa_mk_value v)
    · rfl
    · rw [xa_is_internal_iff, xa_mk_value_eq v hv'] at h
      omega
  refine ⟨?_, ?_, hint, ?_⟩
  · rw [xa_mk_value_eq v hv']
    unfold xa_to_value
    rw [Nat.shiftRight_eq_div_pow]
    omega
  · rw [xa_mk_value_eq v hv']
    unfold xa_is_value
    rw [and1]
    have : (2 * v + 1) % 2 = 1 := by omega
    simp [this]
  · intro fuel k i gfp
    unfold xa_store
    rw [hint]
    simp only [Bool.false_eq_true, if_false]
    cases xa_store_loop xas_nomem fuel (xa_mk_value v) gfp fuel k (XA_STATE i) <;> rfl

theorem C22_value_round_trip_witness :
    xa_to_value (xa_mk_value 5) = 5 ∧ xa_is_value (xa_mk_value 5) = true ∧
    xa_is_internal (xa_mk_value 5) = false :=
  ⟨(C22_value_round_trip 5 (by decide)).1, (C22_value_round_trip 5 (by decide)).2.1,
    (C22_value_round_trip 5 (by decide)).2.2.1⟩

theorem xa_error_eq (n : Nat) (h1 : 1 ≤ n) (h2 : n ≤ 4095) :
    XA_ERROR (-(n : Int)) = 2 ^ 64 - 4 * n + 2 := by
  unfold XA_ERROR
  have e0 : ((-(n : Int)) % 2 ^ 64).toNat = 2 ^ 64 - n := by
    have : (-(n : Int)) % 2 ^ 64 = ((2 ^ 64 - n : Nat) : Int) := by
      omega
    rw [this]
    rfl
  rw [e0]
  have e1 : (2 ^ 64 - n) <<< 2 = 4 * (2 ^ 64 - n) := by rw [Nat.shiftLeft_eq]; omega
  rw [e1, or2_of_aligned _ (by omega)]
  simp only [WORD]
  omega

theorem xa_err_error (n : Nat) (h1 : 1 ≤ n) (h2 : n ≤ 4095) :
    xa_err (XA_ERROR (-(n : Int))) = -(n : Int) := by
  have he := xa_error_eq n h1 h2
  have hint : xa_is_internal (XA_ERROR (-(n : Int))) = true := by
    rw [xa_is_internal_iff, he]
    omega
  unfold xa_err xa_is_err
  rw [hint, he]
  simp only [if_true]
  have hl : to_long (2 ^ 64 - 4 * n + 2) = -(4 * (n : Int)) + 2 := by
    unfold to_long
    rw [if_neg (by omega)]
    omega
  have hneg : -(4 * (n : Int)) + 2 = Int.negSucc (4 * n - 3) := by
    rw [Int.negSucc_eq]
    omega
  have hsh : Int.negSucc (4 * n - 3) >>> (2 : Int) = -(n : Int) := by
    show Int.negSucc (4 * n - 3) >>> ((2 : Nat) : Int) = -(n : Int)
    rw [Int.shiftRight_negSucc, Nat.shiftRight_eq_div_pow, Int.negSucc_eq]
    have : (4 * n - 3) / 2 ^ 2 = n - 1 := by omega
    rw [this]
    omega
  rw [hl, hneg, hsh]
  unfold to_int
  omega

/-- C23, the claim as stated fails: a sibling entry, the retry marker and a
node pointer all satisfy `xa_is_err`, although their payload read as a signed
integer is not negative. -/
theorem C23_is_err_counterexample :
    (xa_is_err (xa_mk_sibling 3) = true ∧ xa_is_sibling (xa_mk_sibling 3) = true ∧
      0 ≤ to_long (xa_mk_sibling 3) >>> 2) ∧
    (xa_is_err XA_RETRY_ENTRY = true ∧ xa_is_retry XA_RETRY_ENTRY = true ∧
      0 ≤ to_long XA_RETRY_ENTRY >>> 2) ∧
    (xa_is_err (xa_mk_node 8192) = true ∧ xa_is_node (xa_mk_node 8192) = true ∧
      0 ≤ to_long (xa_mk_node 8192) >>> 2) := by
  decide

/-- C23 (amended): `xa_is_err e` holds exactly when `e` is an internal entry
(low bits `10`), whatever its payload: it is true for every error encoding
`XA_ERROR errno` with `-4095 ≤ errno ≤ -1`, true as well for node pointers,
sibling entries and the retry marker, and false for every pointer or value
entry. -/
theorem C23_is_err_internal (e : Nat) :
    (xa_is_err e = true ↔ e % 4 = 2) ∧
    (∀ errno : Int, -4095 ≤ errno → errno ≤ -1 → xa_is_err (XA_ERROR errno) = true) ∧
    (xa_is_node e = true → xa_is_err e = true) ∧
    (xa_is_sibling e = true → xa_is_err e = true) ∧
    (xa_is_retry e = true → xa_is_err e = true) ∧
    (xa_is_internal e = false → xa_is_err e = false) := by
  refine ⟨xa_is_internal_iff e, ?_, ?_, ?_, ?_, fun h => h⟩
  · intro errno h1 h2
    obtain ⟨n, rfl⟩ : ∃ n : Nat, errno = -(n : Int) := ⟨errno.natAbs, by omega⟩
    show xa_is_internal _ = true
    rw [xa_is_internal_iff, xa_error_eq n (by omega) (by omega)]
    omega
  · intro h
    rw [xa_is_node_iff] at h
    exact (xa_is_internal_iff e).2 h.1
  · intro h
    rw [xa_is_sibling_iff] at h
    exact (xa_is_internal_iff e).2 h.1
  · intro h
    have : e = XA_RETRY_ENTRY := by simpa [xa_is_retry] using h
    rw [this]
    decide

/-- C24, the claim as stated fails: the error encoding of `-ENOMEM`, an errno
in `[-4094, -2]`, satisfies `xa_is_node`, whose comparison with 4096 is
unsigned. -/
theorem C24_error_counterexample :
    (-4094 ≤ -ENOMEM ∧ -ENOMEM ≤ -2) ∧ xa_is_node (XA_ERROR (-ENOMEM)) = true := by
  decide

/-- C24 (amended): for every errno `e` in `[-4094, -2]`, `XA_ERROR e` is an
internal entry that is neither a value entry, a sibling entry nor the retry
marker, and `xa_err (XA_ERROR e) = e`; it differs from the encoding
`xa_mk_node n` of every aligned node address `n` below `2^64 - 16384`, but it
passes the test `xa_is_node`, which is meant for the contents of slots, where
errors are never stored; and `xa_err p = 0` for every pointer or value entry
`p` (every `p` that is not internal). -/
theorem C24_error_encoding (e : Int) (h1 : -4094 ≤ e) (h2 : e ≤ -2) :
    xa_is_internal (XA_ERROR e) = true ∧ xa_is_value (XA_ERROR e) = false ∧
    xa_is_sibling (XA_ERROR e) = false ∧ xa_is_retry (XA_ERROR e) = false ∧
    xa_err (XA_ERROR e) = e ∧
    (∀ n, n % 4 = 0 → n + 16384 ≤ 2 ^ 64 → xa_mk_node n ≠ XA_ERROR e) ∧
    xa_is_node (XA_ERROR e) = true ∧
    ∀ p, xa_is_internal p = false → xa_err p = 0 := by
  obtain ⟨n, rfl⟩ : ∃ n : Nat, e = -(n : Int) := ⟨e.natAbs, by omega⟩
  have hn1 : 2 ≤ n := by omega
  have hn2 : n ≤ 4094 := by omega
  have he := xa_error_eq n (by omega) (by omega)
  refine ⟨?_, ?_, ?_, ?_, xa_err_error n (by omega) (by omega), ?_, ?_, ?_⟩
  · rw [xa_is_internal_iff, he]
    omega
  · unfold xa_is_value
    rw [and1, he]
    have : (2 ^ 64 - 4 * n + 2) % 2 = 0 := by omega
    rw [this]
    rfl
  · cases h : xa_is_sibling (XA_ERROR (-(n : Int)))
    · rfl
    · rw [xa_is_sibling_iff, he] at h
      omega
  · have hr : XA_RETRY_ENTRY = 1026 := by decide
    cases h : xa_is_retry (XA_ERROR (-(n : Int)))
    · rfl
    · have : XA_ERROR (-(n : Int)) = XA_RETRY_ENTRY := by simpa [xa_is_retry] using h
      rw [he, hr] at this
      omega
  · intro a ha hb
    rw [xa_mk_node_eq a ha, he]
    omega
  · rw [xa_is_node_iff, he]
    omega
  · intro p hp
    unfold xa_err xa_is_err
    rw [hp]
    rfl

theorem C24_error_encoding_witness :
    xa_err (XA_ERROR (-ENOMEM)) = -ENOMEM ∧ xa_is_sibling (XA_ERROR (-ENOMEM)) = false :=
  ⟨(C24_error_encoding (-ENOMEM) (by decide) (by decide)).2.2.2.2.1,
    (C24_error_encoding (-ENOMEM) (by decide) (by decide)).2.2.1⟩

/-- C25, the claim as stated fails at the slot offset `XA_CHUNK_SIZE - 1`:
`xa_mk_sibling 63` is not recognised by `xa_is_sibling`, whose bound is
strict. -/
theorem C25_sibling_counterexample :
    63 ≤ XA_CHUNK_SIZE - 1 ∧ xa_is_sibling (xa_mk_sibling 63) = false := by
  decide

/-- C25 (amended): for every slot offset `k` with `0 ≤ k ≤ XA_CHUNK_SIZE - 2`
(the sibling entries 0-62 of the encoding), `xa_mk_sibling k` is recognised by
`xa_is_sibling`, `xa_to_sibling (xa_mk_sibling k) = k`, and it is neither a
node pointer nor the retry marker. -/
theorem C25_sibling_encoding (k : Nat) (hk : k ≤ XA_CHUNK_SIZE - 2) :
    xa_is_sibling (xa_mk_sibling k) = true ∧ xa_to_sibling (xa_mk_sibling k) = k ∧
    xa_is_node (xa_mk_sibling k) = false ∧ xa_is_retry (xa_mk_sibling k) = false := by
  have hk' : k < 63 := by
    have : XA_CHUNK_SIZE - 2 = 62 := rfl
    omega
  obtain ⟨h1, h2, h3, _, _⟩ := sibling_mk_facts k hk'
  refine ⟨h1, h2, h3, ?_⟩
  have hr : XA_RETRY_ENTRY = 1026 := by decide
  cases h : xa_is_retry (xa_mk_sibling k)
  · rfl
  · have : xa_mk_sibling k = XA_RETRY_ENTRY := by simpa [xa_is_retry] using h
    rw [xa_mk_sibling_eq k (by omega), hr] at this
    omega

theorem C25_sibling_encoding_witness :
    xa_is_sibling (xa_mk_sibling 5) = true ∧ xa_to_sibling (xa_mk_sibling 5) = 5 :=
  ⟨(C25_sibling_encoding 5 (by decide)).1, (C25_sibling_encoding 5 (by decide)).2.1⟩

theorem or2_of_bit1_clear (a : Nat) (h : a % 4 < 2) : a ||| 2 = a + 2 := by
  rcases Nat.lt_or_ge (a % 4) 1 with h0 | h1
  · exact or2_of_aligned a (by omega)
  · apply Nat.eq_of_testBit_eq
    intro i
    have h4 : a = 4 * (a / 4) + 1 := by omega
    rw [h4]
    generalize a / 4 = b
    have e2 : 4 * b + 1 + 2 = 2 * (2 * b + 1) + 1 := by omega
    have e1 : 4 * b + 1 = 2 * (2 * b) + 1 := by omega
    rw [Nat.testBit_or]
    rcases i with _ | _ | i
    · simp
    · simp [Nat.testBit_succ]
      omega
    · simp [Nat.testBit_succ]
      have h3 : ((4 * b + 1) / 2 + 1) / 2 = b := by omega
      have h5 : (4 * b + 1) / 2 / 2 = b := by omega
      rw [h3, h5]

/-- C26: for every node address `n` (an address whose bit 1 is clear, as is
every address of a `struct xa_node`, a structure aligned to at least four
bytes), `xa_to_node (xa_mk_node n) = n`; and for every properly aligned node
address `n ≥ 4096`, `xa_mk_node n` is internal, satisfies `xa_is_node`, and is
not a value entry, a sibling entry or the retry marker. -/
theorem C26_node_encoding (n : Nat) (hn : n % 4 < 2) :
    xa_to_node (xa_mk_node n) = n ∧
    (n % 4 = 0 → 4096 ≤ n →
      xa_is_internal (xa_mk_node n) = true ∧ xa_is_node (xa_mk_node n) = true ∧
      xa_is_value (xa_mk_node n) = false ∧ xa_is_sibling (xa_mk_node n) = false ∧
      xa_is_retry (xa_mk_node n) = false) := by
  have he : xa_mk_node n = n + 2 := or2_of_bit1_clear n hn
  refine ⟨?_, ?_⟩
  · rw [he]
    unfold xa_to_node
    omega
  · intro h4 hbig
    rw [he]
    refine ⟨?_, ?_, ?_, ?_, ?_⟩
    · rw [xa_is_internal_iff]
      omega
    · rw [xa_is_node_iff]
      omega
    · unfold xa_is_value
      rw [and1]
      have : (n + 2) % 2 = 0 := by omega
      rw [this]
      rfl
    · cases h : xa_is_sibling (n + 2)
      · rfl
      · rw [xa_is_sibling_iff] at h
        omega
    · have hr : XA_RETRY_ENTRY = 1026 := by decide
      cases h : xa_is_retry (n + 2)
      · rfl
      · have : n + 2 = XA_RETRY_ENTRY := by simpa [xa_is_retry] using h
        rw [hr] at this
        omega

theorem C26_node_encoding_witness :
    xa_to_node (xa_mk_node 8192) = 8192 ∧ xa_is_node (xa_mk_node 8192) = true :=
  ⟨(C26_node_encoding 8192 (by decide)).1,
    ((C26_node_encoding 8192 (by decide)).2 (by decide) (by decide)).2.1⟩

theorem xa_err_enomem : xa_err (XA_ERROR (-ENOMEM)) = -ENOMEM := by
  have e : ((12 : Nat) : Int) = ENOMEM := rfl
  have h := xa_err_error 12 (by omega) (by omega)
  rw [e] at h
  exact h

theorem xas_nomem_true_iff (k : Kernel) (xas : xa_state) (gfp : Nat) :
    ((xas_nomem k xas gfp).2.2 = true ↔
      (xas.xa_node = XA_ERROR (-ENOMEM) ∧ (kmem_cache_alloc k gfp).2 ≠ 0)) := by
  unfold xas_nomem
  generalize XA_ERROR (-ENOMEM) = E
  by_cases hne : xas.xa_node = E
  · by_cases hg : k.slab_grant k.slab_calls gfp = true
    · by_cases h0 : k.slab_next = 0
      · simp [hne, kmem_cache_alloc, hg, h0]
      · simp [hne, kmem_cache_alloc, hg, h0]
    · simp [hne, kmem_cache_alloc, hg]
  · by_cases ha : xas.xa_alloc = 0
    · simp [hne, xas_destroy, ha]
    · simp [hne, xas_destroy, ha, kmem_cache_free]

theorem xas_nomem_true (k : Kernel) (xas : xa_state) (gfp : Nat) :
    ((xas_nomem k xas gfp).2.2 = true →
      (xas_nomem k xas gfp).2.1.xa_node = XAS_RESTART ∧
      (xas_nomem k xas gfp).2.1.xa_alloc = (kmem_cache_alloc k gfp).2 ∧
      (xas_nomem k xas gfp).2.1.xa_alloc = k.slab_next ∧
      (xas_nomem k xas gfp).2.1.xa_index = xas.xa_index ∧
      (xas_nomem k xas gfp).1 = (kmem_cache_alloc k gfp).1) := by
  intro h
  obtain ⟨h1, h2⟩ := (xas_nomem_true_iff k xas gfp).1 h
  have hn : ¬ (xas.xa_node ≠ XA_ERROR (-ENOMEM)) := fun h => h h1
  have hx : xas_nomem k xas gfp =
      ((kmem_cache_alloc k gfp).1,
        { xas with xa_alloc := (kmem_cache_alloc k gfp).2, xa_node := XAS_RESTART }, true) := by
    unfold xas_nomem
    rw [if_neg hn]
    simp only [h2, if_false]
  rw [hx]
  refine ⟨rfl, rfl, ?_, rfl, rfl⟩
  show (kmem_cache_alloc k gfp).2 = k.slab_next
  unfold kmem_cache_alloc at h2 ⊢
  by_cases hg : k.slab_grant k.slab_calls gfp = true
  · rw [if_pos hg]
  · rw [if_neg hg] at h2
    exact absurd rfl h2

theorem xas_nomem_other (k : Kernel) (xas : xa_state) (gfp : Nat) :
    (xas.xa_node ≠ XA_ERROR (-ENOMEM) →
      (xas_nomem k xas gfp).2.2 = false ∧
      (xas_nomem k xas gfp).2.1.xa_alloc = 0 ∧
      (xas_nomem k xas gfp).2.1.xa_node = xas.xa_node ∧
      (xas.xa_alloc ≠ 0 → xas.xa_alloc ∈ (xas_nomem k xas gfp).1.cache_freed) ∧
      (xas_nomem k xas gfp).1.slab_calls = k.slab_calls) := by
  unfold xas_nomem
  generalize XA_ERROR (-ENOMEM) = E
  intro hne
  by_cases ha : xas.xa_alloc = 0
  · simp [hne, xas_destroy, ha]
  · simp [hne, xas_destroy, ha, kmem_cache_free]

theorem xas_nomem_frame (k : Kernel) (xas : xa_state) (gfp : Nat) :
    ((xas_nomem k xas gfp).1.xa_head = k.xa_head ∧
      (xas_nomem k xas gfp).1.xa_flags = k.xa_flags ∧
      (xas_nomem k xas gfp).1.xa_addr = k.xa_addr ∧
      ∀ x, x ≠ k.slab_next → (xas_nomem k xas gfp).1.mem x = k.mem x) := by
  unfold xas_nomem
  generalize XA_ERROR (-ENOMEM) = E
  by_cases hne : xas.xa_node = E
  · by_cases hg : k.slab_grant k.slab_calls gfp = true
    · by_cases h0 : k.slab_next = 0
      · simp [hne, kmem_cache_alloc, hg, h0]
        intro x hx hx'
        exact absurd hx' hx
      · simp [hne, kmem_cache_alloc, hg, h0]
        intro x hx hx'
        exact absurd hx' hx
    · simp [hne, kmem_cache_alloc, hg]
  · by_cases ha : xas.xa_alloc = 0
    · simp [hne, xas_destroy, ha]
    · simp [hne, xas_destroy, ha, kmem_cache_free]

theorem xas_nomem_fail (k : Kernel) (xas : xa_state) (gfp : Nat) :
    (xas.xa_node = XA_ERROR (-ENOMEM) → (kmem_cache_alloc k gfp).2 = 0 →
      (xas_nomem k xas gfp).2.2 = false ∧
      (xas_nomem k xas gfp).2.1.xa_node = XA_ERROR (-ENOMEM) ∧
      xas_error (xas_nomem k xas gfp).2.1 = -ENOMEM) := by
  intro h1 h2
  have hn : ¬ (xas.xa_node ≠ XA_ERROR (-ENOMEM)) := fun h => h h1
  have hx : xas_nomem k xas gfp =
      ((kmem_cache_alloc k gfp).1, { xas with xa_alloc := (kmem_cache_alloc k gfp).2 }, false) := by
    unfold xas_nomem
    rw [if_neg hn]
    simp only [h2, if_true]
  rw [hx]
  refine ⟨rfl, h1, ?_⟩
  show xa_err xas.xa_node = _
  rw [h1]
  exact xa_err_enomem

/-- C27: for every cursor and `gfp`, `xas_nomem` returns true exactly when the
cursor's node is `XA_ERROR (-ENOMEM)` and the allocation with `gfp` returns a
node; the cursor is then in state `XAS_RESTART` with the new node parked in
`xa_alloc`.  When the cursor's node is anything else it returns false, hands a
parked node back to the cache, leaves `xa_alloc` `NULL` and `xa_node`
unchanged.  When the allocation fails it returns false and the cursor stays
in the `-ENOMEM` error state.  In every case the head, the flags and every
node of the array other than the node just handed out by the cache are
unchanged. -/
theorem C27_xas_nomem (k : Kernel) (xas : xa_state) (gfp : Nat) :
    ((xas_nomem k xas gfp).2.2 = true ↔
      (xas.xa_node = XA_ERROR (-ENOMEM) ∧ (kmem_cache_alloc k gfp).2 ≠ 0)) ∧
    ((xas_nomem k xas gfp).2.2 = true →
      (xas_nomem k xas gfp).2.1.xa_node = XAS_RESTART ∧
      (xas_nomem k xas gfp).2.1.xa_alloc = (kmem_cache_alloc k gfp).2 ∧
      (xas_nomem k xas gfp).2.1.xa_alloc = k.slab_next ∧
      (xas_nomem k xas gfp).2.1.xa_index = xas.xa_index ∧
      (xas_nomem k xas gfp).1 = (kmem_cache_alloc k gfp).1) ∧
    (xas.xa_node ≠ XA_ERROR (-ENOMEM) →
      (xas_nomem k xas gfp).2.2 = false ∧
      (xas_nomem k xas gfp).2.1.xa_alloc = 0 ∧
      (xas_nomem k xas gfp).2.1.xa_node = xas.xa_node ∧
      (xas.xa_alloc ≠ 0 → xas.xa_alloc ∈ (xas_nomem k xas gfp).1.cache_freed) ∧
      (xas_nomem k xas gfp).1.slab_calls = k.slab_calls) ∧
    (xas.xa_node = XA_ERROR (-ENOMEM) → (kmem_cache_alloc k gfp).2 = 0 →
      (xas_nomem k xas gfp).2.2 = false ∧
      (xas_nomem k xas gfp).2.1.xa_node = XA_ERROR (-ENOMEM) ∧
      xas_error (xas_nomem k xas gfp).2.1 = -ENOMEM) ∧
    ((xas_nomem k xas gfp).1.xa_head = k.xa_head ∧
      (xas_nomem k xas gfp).1.xa_flags = k.xa_flags ∧
      (xas_nomem k xas gfp).1.xa_addr = k.xa_addr ∧
      ∀ x, x ≠ k.slab_next → (xas_nomem k xas gfp).1.mem x = k.mem x) :=
  ⟨xas_nomem_true_iff k xas gfp, xas_nomem_true k xas gfp, xas_nomem_other k xas gfp,
    xas_nomem_fail k xas gfp, xas_nomem_frame k xas gfp⟩

/-- C21: for a multi-index entry (a non-`NULL` entry that occupies exactly the
indices `[b, b + 2^ord - 1]`) of a well-formed array, every tag `t` and every
pair of indices `i`, `j` of that range: `xa_get_tag(xa, i, t)` and
`xa_get_tag(xa, j, t)` agree; after `xa_set_tag(xa, i, t)` the tag reads true
at every index of the range, after `xa_clear_tag(xa, i, t)` it reads false at
every index of the range, and both leave a well-formed array, in which the
same holds again. -/
theorem C21_multi_index_tags (k : Kernel) (b ord i j t fuel : Nat) (hwf : WF k)
    (hrange : ∀ j, Covers k b j ↔ (b ≤ j ∧ j < b + 2 ^ ord))
    (hent : ∃ e, xa_load fuel k b = some e ∧ e ≠ 0)
    (hib : b ≤ i) (hie : i < b + 2 ^ ord) (hjb : b ≤ j) (hje : j < b + 2 ^ ord)
    (ht : t < 3) (hf : 64 ≤ fuel) :
    (∃ v, xa_get_tag fuel k i t = some v ∧ xa_get_tag fuel k j t = some v) ∧
    (∃ ks, xa_set_tag fuel k i t = some ks ∧ WF ks ∧
      (∀ j', Covers ks b j' ↔ (b ≤ j' ∧ j' < b + 2 ^ ord)) ∧
      ∀ j', b ≤ j' → j' < b + 2 ^ ord → xa_get_tag fuel ks j' t = some true) ∧
    (∃ kc, xa_clear_tag fuel k i t = some kc ∧ WF kc ∧
      (∀ j', Covers kc b j' ↔ (b ≤ j' ∧ j' < b + 2 ^ ord)) ∧
      ∀ j', b ≤ j' → j' < b + 2 ^ ord → xa_get_tag fuel kc j' t = some false) := by
  obtain ⟨L, hi⟩ := hwf
  obtain ⟨w0, hl0⟩ := loc_exists hi.core b
  have hloc : ∀ j, Loc k j w0 ↔ (b ≤ j ∧ j < b + 2 ^ ord) := by
    intro j
    rw [← hrange j]
    constructor
    · intro h
      exact ⟨w0, hl0, h⟩
    · rintro ⟨w, h1, h2⟩
      rw [loc_unique hi.core hl0 h1]
      exact h2
  have hli : Loc k i w0 := (hloc i).2 ⟨hib, hie⟩
  have hlj : Loc k j w0 := (hloc j).2 ⟨hjb, hje⟩
  obtain ⟨e, he1, he2⟩ := hent
  have hne : entry_at k w0 ≠ 0 := by
    rw [xa_load_of_loc hi.core (by omega) hl0] at he1
    intro h
    rw [h] at he1
    exact he2 (Option.some.inj he1).symm
  obtain ⟨ks, s1, s2, s3, _, s5, _⟩ := xa_set_tag_spec hi i t fuel ht (by omega) w0 hli
  obtain ⟨kc, c1, c2, c3, c4, _⟩ := xa_clear_tag_spec hi i t fuel ht (by omega) w0 hli
  have cov : ∀ k' L', Inv k' L' → SameShape k k' →
      ∀ j', Covers k' b j' ↔ (b ≤ j' ∧ j' < b + 2 ^ ord) := by
    intro k' L' hi' hs j'
    rw [← hloc j']
    have h0 : Loc k' b w0 := sameShape_loc hs hl0
    constructor
    · rintro ⟨w, h1, h2⟩
      rw [loc_unique hi'.core h0 h1]
      exact sameShape_loc (sameShape_symm hs) h2
    · intro h
      exact ⟨w0, h0, sameShape_loc hs h⟩
  refine ⟨⟨tag_at k t w0, xa_get_tag_of_loc hi ht (by omega) hli,
    xa_get_tag_of_loc hi ht (by omega) hlj⟩, ⟨ks, s1, ⟨L, s2⟩, cov ks L s2 (tagOnly_sameShape s3), ?_⟩,
    ⟨kc, c1, ⟨L, c2⟩, cov kc L c2 (tagOnly_sameShape c3), ?_⟩⟩
  · intro j' h1 h2
    rw [xa_get_tag_of_loc s2 ht (by omega)
      (sameShape_loc (tagOnly_sameShape s3) ((hloc j').2 ⟨h1, h2⟩)), s5 hne]
  · intro j' h1 h2
    rw [xa_get_tag_of_loc c2 ht (by omega)
      (sameShape_loc (tagOnly_sameShape c3) ((hloc j').2 ⟨h1, h2⟩)), c4]

theorem C21_multi_index_tags_witness :
    (∀ j, Covers ex_range 8 j ↔ (8 ≤ j ∧ j < 8 + 2 ^ 2)) ∧
    (∃ v, xa_get_tag 64 ex_range 9 1 = some v ∧ xa_get_tag 64 ex_range 11 1 = some v) ∧
    (∃ ks, xa_set_tag 64 ex_range 9 1 = some ks ∧ WF ks ∧
      (∀ j', Covers ks 8 j' ↔ (8 ≤ j' ∧ j' < 8 + 2 ^ 2)) ∧
      ∀ j', 8 ≤ j' → j' < 8 + 2 ^ 2 → xa_get_tag 64 ks j' 1 = some true) ∧
    (∃ kc, xa_clear_tag 64 ex_range 9 1 = some kc ∧ WF kc ∧
      (∀ j', Covers kc 8 j' ↔ (8 ≤ j' ∧ j' < 8 + 2 ^ 2)) ∧
      ∀ j', 8 ≤ j' → j' < 8 + 2 ^ 2 → xa_get_tag 64 kc j' 1 = some false) :=
  ⟨ex_range_facts.2, C21_multi_index_tags ex_range 8 2 9 11 1 64 ex_range_facts.1
    ex_range_facts.2 ⟨24, by decide, by decide⟩ (by decide) (by decide) (by decide) (by decide)
    (by decide) (by decide)⟩

/-! ## The retry loop of `xa_store` with a node cache that refuses `GFP_NOWAIT` -/

/-- C28, the claim as stated fails: with a node cache that refuses every
`GFP_NOWAIT` request and grants every other, the store of the entry 8 at index
64 of the empty array needs two new nodes and takes two rounds in which
`xas_nomem` returns true; the third round succeeds.  The cache is asked four
times, and `xa_load(xa, 64)` then returns the entry. -/
theorem C28_two_cycles :
    (∀ n, ex_nowait.slab_grant n GFP_NOWAIT_NOWARN = false) ∧
    (∀ n, ex_nowait.slab_grant n 1 = true) ∧
    ((xa_store_round 64 8 1 ex_nowait (XA_STATE 64)).bind fun r1 =>
      (xa_store_round 64 8 1 r1.1 r1.2.1).bind fun r2 =>
        (xa_store_round 64 8 1 r2.1 r2.2.1).map fun r3 =>
          (r1.2.2.2, r2.2.2.2, r3.2.2.2, xas_error r3.2.1, xa_load 64 r3.1 64)) =
      some (true, true, false, 0, some 8) ∧
    (xa_store 64 ex_nowait 64 8 1).map (fun r => (r.2, xa_load 64 r.1 64, r.1.slab_calls)) =
      some (0, some 8, 4) :=
  ⟨fun _ => rfl, fun _ => rfl, by decide, by decide⟩

theorem xa_store_loop_round (F entry gfp f : Nat) (k : Kernel) (xas : xa_state) :
    xa_store_loop xas_nomem F entry gfp (f + 1) k xas =
      match xa_store_round F entry gfp k xas with
      | none => none
      | some (k', xas', curr, b) =>
        if b then xa_store_loop xas_nomem F entry gfp f k' xas' else some (k', xas', curr) := by
  rw [xa_store_loop, xa_store_round]
  cases xas_store F k xas entry with
  | none => rfl
  | some r => rfl

/-- The invariant reads the head, the flags, the live nodes and the position
of the node cache only. -/
theorem inv_congr {k k' : Kernel} {L : Nat → Prop} (hi : Inv k L)
    (hhead : k'.xa_head = k.xa_head) (hflags : k'.xa_flags = k.xa_flags)
    (hmem : ∀ y, L y → k'.mem y = k.mem y)
    (h4 : k'.slab_next % 4 = 0) (hbig : 4096 ≤ k'.slab_next)
    (hbelow : ∀ y, L y → y < k'.slab_next) : Inv k' L := by
  have hc := hi.core
  have htag : ∀ t, xa_tagged k' t = xa_tagged k t := by
    intro t
    simp [xa_tagged, hflags]
  refine ⟨⟨?_, ?_, ?_, h4, hbig⟩, ?_, ?_⟩
  · intro hn
    rw [hhead] at hn ⊢
    obtain ⟨a, b⟩ := hc.head_node hn
    exact ⟨a, by rw [hmem _ a]; exact b⟩
  · intro hn
    rw [hhead] at hn ⊢
    exact hc.head_leaf hn
  · intro x hx
    have hnx := hc.nodes x hx
    have e := hmem x hx
    refine ⟨hnx.align, hnx.big, hbelow x hx, by rw [e]; exact hnx.shift6,
      by rw [e]; exact hnx.shift_le, ?_, ?_, ?_, ?_, by rw [e]; exact hnx.count,
      by rw [e]; exact hnx.tag_null⟩
    · rw [e, hhead]
      exact hnx.root
    · rw [e]
      intro hp
      obtain ⟨a, b, c, d⟩ := hnx.up hp
      exact ⟨a, b, by rw [hmem _ a]; exact c, by rw [hmem _ a]; exact d⟩
    · rw [e]
      intro o ho hn
      obtain ⟨a, b, c⟩ := hnx.child o ho hn
      exact ⟨a, by rw [hmem _ a]; exact b, by rw [hmem _ a]; exact c⟩
    · rw [e]
      exact hnx.sib
  · intro h0 t ht
    rw [htag t]
    exact hi.head_null (by rw [← hhead]; exact h0) t ht
  · intro x hx t ht
    have hnx := hc.nodes x hx
    have := hi.tags x hx t ht
    unfold TagUp at this ⊢
    rw [hmem x hx, htag t]
    by_cases hp : (k.mem x).parent = 0
    · rw [if_pos hp] at this ⊢
      exact this
    · rw [if_neg hp] at this ⊢
      rw [hmem _ (hnx.up hp).1]
      exact this

/-- The walk reads the head and the live nodes only. -/
theorem loc_congr {k k' : Kernel} {L : Nat → Prop} (hc : Core k L)
    (hhead : k'.xa_head = k.xa_head) (hflags : k'.xa_flags = k.xa_flags)
    (hmem : ∀ y, L y → k'.mem y = k.mem y) {j : Nat} {w : Place} (hl : Loc k j w) :
    Loc k' j w ∧ entry_at k' w = entry_at k w ∧ ∀ t, tag_at k' t w = tag_at k t w := by
  cases w with
  | head =>
    refine ⟨⟨by rw [hhead]; exact hl.1, hl.2⟩, hhead, ?_⟩
    intro t
    simp [tag_at, xa_tagged, hflags]
  | bounds =>
    refine ⟨?_, rfl, fun _ => rfl⟩
    rcases hl with h | h
    · exact Or.inl ⟨by rw [hhead]; exact h.1, h.2⟩
    · right
      rw [hhead, hmem _ (hc.head_node h.1).1]
      exact h
  | slot y o =>
    obtain ⟨v, c, n⟩ := loc_slot_iff.1 hl
    have hy := visits_live hc v
    have v' : Visits k' j y :=
      visits_extend hc hhead (fun z hz => by rw [hmem z hz]) (fun z q hz _ => by rw [hmem z hz]) v
    refine ⟨loc_slot_iff.2 ⟨v', by rw [hmem y hy]; exact c, by rw [hmem y hy]; exact n⟩, ?_, ?_⟩
    · show (k'.mem y).slots o = (k.mem y).slots o
      rw [hmem y hy]
    · intro t
      show node_get_tag (k'.mem y) o t = node_get_tag (k.mem y) o t
      rw [hmem y hy]

theorem xa_error_enomem_invalid (xas : xa_state) :
    xas_invalid (xas_set_err xas (-ENOMEM)) = true := by
  have h := xa_error_enomem_mod
  unfold xas_invalid xas_set_err
  simp only [and3]
  generalize XA_ERROR (-ENOMEM) = E at h
  simp [h]

/-- `xas_alloc` when no node is parked and the cache refuses the request. -/
theorem xas_alloc_refused (k : Kernel) (xas : xa_state) (shift : Nat)
    (hv : xas.xa_node % 4 = 0) (ha : xas.xa_alloc = 0)
    (hr : k.slab_grant k.slab_calls GFP_NOWAIT_NOWARN = false) :
    xas_alloc k xas shift =
      ({ k with slab_calls := k.slab_calls + 1 }, xas_set_err xas (-ENOMEM), 0) := by
  have hinv := xas_invalid_node xas hv
  unfold xas_alloc
  simp only [hinv, Bool.false_eq_true, if_false, ha, ne_eq, not_true, kmem_cache_alloc, hr,
    if_true]

/-- `xas_alloc` when a node is parked in `xa_alloc`: the cache is not asked. -/
theorem xas_alloc_parked (k : Kernel) (xas : xa_state) (shift p : Nat)
    (hv : xas.xa_node % 4 = 0) (ha : xas.xa_alloc = p) (hp0 : p ≠ 0)
    (hne : xas.xa_node ≠ p) (hz : k.mem p = xa_node.zero) :
    ∃ k', xas_alloc k xas shift = (k', { xas with xa_alloc := 0 }, p) ∧
      k'.xa_head = k.xa_head ∧ k'.xa_flags = k.xa_flags ∧ k'.slab_next = k.slab_next ∧
      k'.slab_calls = k.slab_calls ∧ k'.slab_grant = k.slab_grant ∧
      k'.rcu_pending = k.rcu_pending ∧ k'.xa_addr = k.xa_addr ∧
      (k'.mem p).shift = shift % 256 ∧
      (k'.mem p).offset = (if xas.xa_node ≠ 0 then xas.xa_offset else 0) ∧
      (k'.mem p).parent = xas.xa_node ∧
      (k'.mem p).count = 0 ∧
      (k'.mem p).slots = (fun _ => 0) ∧
      (k'.mem p).tags = (fun _ => 0) ∧
      (∀ y, y ≠ p → (xas.xa_node ≠ 0 → y ≠ xas.xa_node) → k'.mem y = k.mem y) ∧
      (xas.xa_node ≠ 0 → k'.mem xas.xa_node =
        { k.mem xas.xa_node with count := ((k.mem xas.xa_node).count + 1) % 256 }) := by
  have hinv := xas_invalid_node xas hv
  have hap : xas.xa_alloc ≠ 0 := by rw [ha]; exact hp0
  unfold xas_alloc
  simp only [hinv, Bool.false_eq_true, if_false, hap, ne_eq, not_false_eq_true, if_true, ha, hp0]
  by_cases hpar : xas.xa_node = 0
  · simp only [hpar, not_true, if_false]
    refine ⟨_, rfl, rfl, rfl, rfl, rfl, rfl, rfl, rfl, ?_, ?_, ?_, ?_, ?_, ?_, ?_, ?_⟩
    all_goals simp [Kernel.setNode, xa_node.zero, hz]
    · intro y hy
      simp [hy]
  · simp only [hpar, not_false_eq_true, if_true]
    refine ⟨_, rfl, rfl, rfl, rfl, rfl, rfl, rfl, rfl, ?_, ?_, ?_, ?_, ?_, ?_, ?_, ?_⟩
    all_goals simp [Kernel.setNode, xa_node.zero, hz, hne, Ne.symm hne]
    · intro y hy hy2
      simp [hy, hy2]

/-- The loop of `xas_create` walks down the existing nodes without changing
the state until it stands at the place of the index; here that place is an
empty slot of a node above the leaf level. -/
theorem xas_create_loop_down (i : Nat) :
    ∀ fuel k L xas x y o, Core k L → xas.xa_shift = 0 →
      Visits k i x → xas.xa_node = x →
      xas.xa_offset = canon (k.mem x) (get_offset i (k.mem x)) →
      (((k.mem x).slots xas.xa_offset = 0 ∨
          xa_is_node ((k.mem x).slots xas.xa_offset) = true) →
        xas.xa_index = i ∧ xas.xa_offset = get_offset i (k.mem x)) →
      Loc k i (Place.slot y o) → (k.mem y).slots o = 0 → 0 < (k.mem y).shift →
      (k.mem x).shift + 6 < 6 * fuel →
      ∃ f xas', xas_create_loop 0 fuel k xas ((k.mem x).shift : Int)
            ((k.mem x).slots xas.xa_offset) (x, xas.xa_offset) =
          xas_create_loop 0 (f + 1) k xas' ((k.mem y).shift : Int) 0 (y, o) ∧
        xas'.xa_node = y ∧ xas'.xa_offset = o ∧ xas'.xa_index = i ∧ xas'.xa_shift = 0 ∧
        xas'.xa_sibs = xas.xa_sibs ∧ xas'.xa_alloc = xas.xa_alloc ∧
        o = get_offset i (k.mem y) ∧ (k.mem y).shift + 6 < 6 * (f + 1) := by
  intro fuel
  induction fuel with
  | zero => intro k L xas x y o _ _ _ _ _ _ _ _ _ h; omega
  | succ f ih =>
    intro k L xas x y o hc hs0 hv hnode hoff hidx hl hnull hpos hf
    have hx := visits_live hc hv
    have hnx := hc.nodes x hx
    have ho64 : xas.xa_offset < 64 := by
      rw [hoff]
      exact canon_lt hc hx _ (get_offset_lt _ _)
    by_cases hn : xa_is_node ((k.mem x).slots xas.xa_offset) = true
    · -- go down
      have hsh60 := hnx.shift_le
      rw [xas_create_loop, to_uint_cast _ (by omega)]
      obtain ⟨hidx1, hidx2⟩ := hidx (Or.inr hn)
      obtain ⟨e1, e2, e3⟩ := is_node_split _ hn
      have hn2 : xa_is_node ((k.mem x).slots xas.xa_offset - 2 + 2) = true := by
        rw [← e1]
        exact hn
      have hslot : (k.mem x).slots (get_offset i (k.mem x)) =
          (k.mem x).slots xas.xa_offset - 2 + 2 := by
        rw [← hidx2]
        exact e1
      obtain ⟨s1, s2, s3, s4, _⟩ := visits_child_shift hc hv hslot hn2
      have hposx : (k.mem x).shift > 0 := by omega
      have hne0 : (k.mem x).slots xas.xa_offset ≠ 0 := by omega
      rw [if_pos hposx]
      simp only []
      rw [if_neg hne0, if_pos hn, to_node_def]
      have hvc := Visits.step x _ hv hslot hn2
      obtain ⟨d1, d2, d3, d4, d5, d6, d7⟩ := descend_pos hc s4 xas
      obtain ⟨f', xas', r1, r2, r3, r4, r5, r6, r7, r8, r9⟩ :=
        ih k L (xas_descend k xas ((k.mem x).slots xas.xa_offset - 2)).1 _ y o hc
          (by rw [d5, hs0]) hvc d2 (by rw [d3, hidx1])
          (fun hz => by
            obtain ⟨q1, q2⟩ := d4 hz
            exact ⟨by rw [q1, hidx1], by rw [q2, hidx1]⟩)
          hl hnull hpos (by omega)
      refine ⟨f', xas', ?_, r2, r3, r4, r5, by rw [r6, d6], by rw [r7, d7], r8, r9⟩
      rw [← r1, d1]
      have : ((k.mem x).shift : Int) - ((XA_CHUNK_SHIFT : Nat) : Int) =
          (((k.mem ((k.mem x).slots xas.xa_offset - 2)).shift : Nat) : Int) := by
        simp only [XA_CHUNK_SHIFT]
        omega
      rw [this]
    · -- the walk ends here
      simp at hn
      have hlx : Loc k i (Place.slot x xas.xa_offset) := loc_slot_iff.2 ⟨hv, hoff, hn⟩
      have hw := loc_unique hc hl hlx
      simp only [Place.slot.injEq] at hw
      obtain ⟨rfl, rfl⟩ := hw
      obtain ⟨hidx1, hidx2⟩ := hidx (Or.inl hnull)
      refine ⟨f, xas, ?_, hnode, rfl, hidx1, hs0, rfl, rfl, hidx2, hf⟩
      rw [hnull]

theorem xas_set_err_node (xas : xa_state) (e : Int) : (xas_set_err xas e).xa_node = XA_ERROR e :=
  rfl

theorem xas_set_err_index (xas : xa_state) (e : Int) :
    (xas_set_err xas e).xa_index = xas.xa_index := rfl

theorem xas_set_err_shift (xas : xa_state) (e : Int) :
    (xas_set_err xas e).xa_shift = xas.xa_shift := rfl

theorem xas_set_err_sibs (xas : xa_state) (e : Int) :
    (xas_set_err xas e).xa_sibs = xas.xa_sibs := rfl

theorem xas_set_err_alloc (xas : xa_state) (e : Int) :
    (xas_set_err xas e).xa_alloc = xas.xa_alloc := rfl

theorem visits_root {k : Kernel} {i x : Nat} (hv : Visits k i x) :
    xa_is_node k.xa_head = true ∧ Visits k i (k.xa_head - 2) := by
  induction hv with
  | root x hh hn hb =>
    have e : k.xa_head - 2 = x := by omega
    rw [e]
    exact ⟨by rw [hh]; exact hn, Visits.root x hh hn hb⟩
  | step y c _ _ _ ih => exact ih

/-- `xas_create` when only the leaf node is missing and the cache refuses the
request: the state is left as it was, but for the count of requests, and the
cursor carries the error `-ENOMEM`. -/
theorem xas_create_refused {k : Kernel} {L : Nat → Prop} (hi : Inv k L)
    (i fuel : Nat) (xas : xa_state) (hi64 : i < 2 ^ 64) (hidx : xas.xa_index = i)
    (hs0 : xas.xa_shift = 0) (hsib : xas.xa_sibs = 0) (ha : xas.xa_alloc = 0)
    (htop : xas_top xas.xa_node = true) (hneed : LeafMissing k i)
    (hr : k.slab_grant k.slab_calls GFP_NOWAIT_NOWARN = false) (hf : 14 ≤ fuel) :
    ∃ xas', xas_create fuel k xas =
        some ({ k with slab_calls := k.slab_calls + 1 }, xas', 0) ∧
      xas'.xa_node = XA_ERROR (-ENOMEM) ∧ xas'.xa_index = i ∧ xas'.xa_shift = 0 ∧
      xas'.xa_sibs = 0 ∧ xas'.xa_alloc = 0 := by
  have hc := hi.core
  obtain ⟨f, rfl⟩ : ∃ f, fuel = f + 1 := ⟨fuel - 1, by omega⟩
  unfold xas_create
  rw [if_pos htop]
  simp only [xa_head]
  have hmax : xas_max { xas with xa_node := 0 } = i :=
    (xas_max_single ({ xas with xa_node := 0 }) hs0 hsib).trans hidx
  rw [show xas_create_loop xas.xa_shift = xas_create_loop 0 from by rw [hs0]]
  rcases hneed with ⟨hleaf, h1, h63⟩ | ⟨y, o, hl, hsh, hnull⟩
  · by_cases hh0 : k.xa_head = 0
    · -- empty array
      unfold xas_expand
      rw [if_pos hh0, hmax, if_neg (by omega)]
      have e1 : xas_expand_shift i (f + 1) 0 = some 0 := by
        rw [xas_expand_shift, if_neg (by simp only [Nat.shiftRight_zero, XA_CHUNK_SIZE]; omega)]
      rw [e1]
      simp only []
      rw [if_neg (by omega), xas_create_loop]
      rw [to_uint_cast _ (by simp only [XA_CHUNK_SHIFT]; omega),
        if_pos (by simp only [XA_CHUNK_SHIFT]; omega)]
      simp only []
      rw [if_pos hh0, xas_alloc_refused k { xas with xa_node := 0 } _ (by simp) ha hr]
      simp only [if_true]
      refine ⟨xas_set_err { xas with xa_node := 0 } (-ENOMEM), ?_, xas_set_err_node _ _,
        (xas_set_err_index _ _).trans hidx, (xas_set_err_shift _ _).trans hs0,
        (xas_set_err_sibs _ _).trans hsib, (xas_set_err_alloc _ _).trans ha⟩
      rw [hh0]
    · -- a single entry at index 0
      unfold xas_expand
      rw [if_neg hh0, hmax]
      simp only [hleaf, Bool.false_eq_true, if_false]
      rw [xas_expand_loop, if_pos (by rw [max_index_leaf k _ hleaf]; omega),
        xas_alloc_refused k { xas with xa_node := 0 } _ (by simp) ha hr]
      simp only [if_true]
      rw [if_pos (show -ENOMEM < 0 by simp only [ENOMEM]; omega)]
      exact ⟨xas_set_err { xas with xa_node := 0 } (-ENOMEM), rfl, xas_set_err_node _ _,
        (xas_set_err_index _ _).trans hidx, (xas_set_err_shift _ _).trans hs0,
        (xas_set_err_sibs _ _).trans hsib, (xas_set_err_alloc _ _).trans ha⟩
  · -- the walk ends at an empty slot of a node above the leaves
    obtain ⟨hv, hcan, _⟩ := loc_slot_iff.1 hl
    obtain ⟨hq, hvr⟩ := visits_root hv
    have hrl := (hc.head_node hq).1
    have hr0 := hc.nodes _ hrl
    have hh0 : k.xa_head ≠ 0 := by
      intro h
      rw [h] at hq
      exact absurd hq (by decide)
    have hbound := visits_root_bound hc hvr (hc.head_node hq).2
    unfold xas_expand
    rw [if_neg hh0, hmax]
    simp only [hq, if_true, to_node_def]
    have hngt : ¬ i > max_index k k.xa_head := by
      rw [max_index_node_iff k k.xa_head i hq hr0.shift6 hr0.shift_le hi64]
      omega
    rw [xas_expand_loop, if_neg hngt]
    simp only []
    rw [if_neg (by omega), xas_create_loop,
      to_uint_cast _ (by have := hr0.shift_le; simp only [XA_CHUNK_SHIFT]; omega),
      if_pos (by simp only [XA_CHUNK_SHIFT]; omega)]
    simp only []
    rw [if_neg hh0, if_pos hq, to_node_def]
    have hsub : (((k.mem (k.xa_head - 2)).shift + XA_CHUNK_SHIFT : Nat) : Int) -
        ((XA_CHUNK_SHIFT : Nat) : Int) = (((k.mem (k.xa_head - 2)).shift : Nat) : Int) := by
      simp only [XA_CHUNK_SHIFT]
      omega
    rw [hsub]
    obtain ⟨d1, d2, d3, d4, d5, d6, d7⟩ :=
      descend_pos hc hrl ({ xas with xa_node := k.xa_head - 2 } : xa_state)
    simp only at d3 d4 d5 d6 d7
    obtain ⟨f', xas', r1, r2, r3, r4, r5, r6, r7, r8, _⟩ :=
      xas_create_loop_down i f k L (xas_descend k { xas with xa_node := k.xa_head - 2 }
        (k.xa_head - 2)).1 (k.xa_head - 2) y o hc (by rw [d5, hs0]) hvr d2 (by rw [d3, hidx])
        (fun hz => by
          obtain ⟨z1, z2⟩ := d4 hz
          exact ⟨by rw [z1, hidx], by rw [z2, hidx]⟩)
        hl hnull (by omega) (by have := hr0.shift_le; omega)
    rw [d1, r1, xas_create_loop, hsh]
    rw [to_uint_cast _ (by omega), if_pos (by omega)]
    simp only []
    have hyl := visits_live hc hv
    rw [if_pos trivial, xas_alloc_refused k xas' _ (by rw [r2]; exact (hc.nodes y hyl).align)
      (by rw [r7, d7, ha]) hr]
    simp only [if_true]
    exact ⟨xas_set_err xas' (-ENOMEM), rfl, xas_set_err_node _ _,
      (xas_set_err_index _ _).trans r4, (xas_set_err_shift _ _).trans r5,
      (xas_set_err_sibs _ _).trans (r6.trans (d6.trans hsib)),
      (xas_set_err_alloc _ _).trans (r7.trans (d7.trans ha))⟩

theorem xas_expand_tag_calls (k : Kernel) (n tag : Nat) :
    (xas_expand_tag k n tag).slab_calls = k.slab_calls := by
  unfold xas_expand_tag
  by_cases h : xa_tagged k tag = true
  · rw [if_pos h]
    rfl
  · rw [if_neg h]

theorem xas_expand_link_calls (k : Kernel) (n head : Nat) :
    (xas_expand_link k n head).slab_calls = k.slab_calls := by
  unfold xas_expand_link
  simp only []
  split_ifs <;> simp only [Kernel.setNode, xas_expand_tags, xas_expand_tag_calls]

/-- `xas_create` when only the leaf node is missing and a node is parked in
`xa_alloc`: the parked node becomes the leaf node of the index, and the cache
is not asked. -/
theorem xas_create_parked {k : Kernel} {L : Nat → Prop} (hi : Inv k L) (p : Nat)
    (hp4 : p % 4 = 0) (hpbig : 4096 ≤ p) (hpL : ∀ y, L y → y < p)
    (hslab : k.slab_next = p + 576) (hz : k.mem p = xa_node.zero)
    (i fuel : Nat) (xas : xa_state) (hi64 : i < 2 ^ 64) (hidx : xas.xa_index = i)
    (hs0 : xas.xa_shift = 0) (hsib : xas.xa_sibs = 0) (ha : xas.xa_alloc = p)
    (htop : xas_top xas.xa_node = true) (hneed : LeafMissing k i) (hf : 14 ≤ fuel) :
    ∃ k' xas' o, xas_create fuel k xas = some (k', xas', 0) ∧
      Inv k' (fun y => L y ∨ y = p) ∧ Sim k k' ∧ Loc k' i (Place.slot p o) ∧
      (k'.mem p).slots o = 0 ∧ xas'.xa_node = p ∧ xas'.xa_offset = o ∧
      xas'.xa_shift = 0 ∧ xas'.xa_sibs = 0 ∧ xas'.xa_alloc = 0 ∧
      k'.xa_flags = k.xa_flags ∧ k'.slab_calls = k.slab_calls ∧
      k'.slab_next = k.slab_next ∧ k'.slab_grant = k.slab_grant := by
  have hc := hi.core
  have hp0 : p ≠ 0 := by omega
  have hi0 : Inv ({ k with slab_next := p } : Kernel) L :=
    inv_congr hi rfl rfl (fun _ _ => rfl) hp4 hpbig hpL
  have hsim0 : Sim k ({ k with slab_next := p } : Kernel) := by
    intro j w hl
    obtain ⟨a, b, c⟩ := @loc_congr k ({ k with slab_next := p } : Kernel) L hc rfl rfl
      (fun _ _ => rfl) j w hl
    exact ⟨w, a, b, fun t _ => c t⟩
  obtain ⟨f, rfl⟩ : ∃ f, fuel = f + 1 := ⟨fuel - 1, by omega⟩
  obtain ⟨f2, rfl⟩ : ∃ f2, f = f2 + 1 := ⟨f - 1, by omega⟩
  unfold xas_create
  rw [if_pos htop]
  simp only [xa_head]
  have hmax : xas_max { xas with xa_node := 0 } = i :=
    (xas_max_single ({ xas with xa_node := 0 }) hs0 hsib).trans hidx
  rw [show xas_create_loop xas.xa_shift = xas_create_loop 0 from by rw [hs0]]
  rcases hneed with ⟨hleaf, h1, h63⟩ | ⟨y, o, hl, hsh, hnull⟩
  · have hLe : (fun y => y = p) = (fun y => L y ∨ y = p) := by
      funext y
      exact propext ⟨Or.inr, fun h => h.elim (fun hl => absurd hl ((hc.head_leaf hleaf).2 y)) id⟩
    by_cases hh0 : k.xa_head = 0
    · -- empty array
      unfold xas_expand
      rw [if_pos hh0, hmax, if_neg (by omega)]
      have e1 : xas_expand_shift i (f2 + 1 + 1) 0 = some 0 := by
        rw [xas_expand_shift, if_neg (by simp only [Nat.shiftRight_zero, XA_CHUNK_SIZE]; omega)]
      rw [e1]
      simp only []
      rw [if_neg (by omega), xas_create_loop]
      rw [to_uint_cast _ (by simp only [XA_CHUNK_SHIFT]; omega),
        if_pos (by simp only [XA_CHUNK_SHIFT]; omega)]
      simp only []
      rw [if_pos hh0]
      have hsub : (((0 + XA_CHUNK_SHIFT : Nat) : Int) - ((XA_CHUNK_SHIFT : Nat) : Int))
          = ((0 : Nat) : Int) := by
        simp only [XA_CHUNK_SHIFT]
        omega
      rw [hsub]
      obtain ⟨k1, e2, a1, a2, a3, a3c, a4, a5, a6, a7, a8, a9, a10, a11, a12, a13, a14⟩ :=
        xas_alloc_parked k { xas with xa_node := 0 } (to_uint ((0 : Nat) : Int)) p (by simp) ha
          hp0 (by simp only; omega) hz
      rw [e2]
      simp only []
      rw [if_neg hp0]
      rw [to_uint_cast _ (by omega)] at a7
      have hmk : xa_mk_node p = p + 2 := xa_mk_node_eq _ hp4
      rw [hmk, slot_store_head]
      generalize hk2 : ({ k1 with xa_head := p + 2 } : Kernel) = k2
      have m_all : ∀ y, k2.mem y = k1.mem y := by
        intro y
        rw [← hk2]
      have h_head : k2.xa_head = p + 2 := by rw [← hk2]
      have h_flags : k2.xa_flags = k.xa_flags := by rw [← hk2]; exact a2
      have h_slab : k2.slab_next = p + 576 := by rw [← hk2]; exact a3.trans hslab
      have h_calls : k2.slab_calls = k.slab_calls := by rw [← hk2]; exact a3c
      have h_grant : k2.slab_grant = k.slab_grant := by rw [← hk2]; exact a4
      have hi2 : Inv k2 (fun y => y = p) :=
        inv_add_root hi0 hh0 rfl (show (0 : Nat) % 6 = 0 by omega) (show (0 : Nat) ≤ 60 by omega)
          h_head h_flags h_slab
          (by rw [m_all, a7]) (by rw [m_all, a9]) (by rw [m_all, a10]) (by rw [m_all, a11])
          (by rw [m_all, a12])
      have hs2 : Sim ({ k with slab_next := p } : Kernel) k2 :=
        sim_add_root hi0 hh0 rfl h_head (by rw [m_all, a11]) (by rw [m_all, a12])
      have hshc : (k2.mem p).shift = 0 := by rw [m_all, a7]
      have hv2 : Visits k2 i p :=
        Visits.root _ h_head (is_node_add2 _ hp4 hpbig) (by
          rw [hshc]
          simp only [XA_CHUNK_MASK, Nat.shiftRight_zero]
          omega)
      obtain ⟨d1, d2, d3, d4, d5, d6, d7⟩ :=
        descend_pos hi2.core (show (fun y => y = p) p from rfl)
          ({ xas with xa_node := 0, xa_alloc := 0 } : xa_state)
      have hslc : (k2.mem p).slots = fun _ => 0 := by rw [m_all, a11]
      have hz2 : (k2.mem p).slots
          (xas_descend k2 { xas with xa_node := 0, xa_alloc := 0 } p).1.xa_offset = 0 := by
        rw [hslc]
      obtain ⟨d4a, d4b⟩ := d4 (Or.inl hz2)
      simp only at d3 d4a d4b d5 d6 d7
      rw [xas_create_loop, if_neg (by simp [to_uint])]
      refine ⟨k2, _, _, ?_, hLe ▸ hi2, sim_trans hsim0 hs2, ?_, hz2, d2, rfl, by rw [d5, hs0],
        by rw [d6, hsib], d7, h_flags, h_calls, h_slab.trans hslab.symm, h_grant⟩
      · rw [d1, hz2]
      · exact loc_slot_iff.2 ⟨hv2, by rw [d3, hidx], by rw [hz2]; decide⟩
    · -- a single entry at index 0
      unfold xas_expand
      rw [if_neg hh0, hmax]
      simp only [hleaf, Bool.false_eq_true, if_false]
      rw [xas_expand_loop, if_pos (by rw [max_index_leaf k _ hleaf]; omega)]
      obtain ⟨k1, e2, a1, a2, a3, a3c, a4, a5, a6, a7, a8, a9, a10, a11, a12, a13, a14⟩ :=
        xas_alloc_parked k { xas with xa_node := 0 } 0 p (by simp) ha
          hp0 (by simp only; omega) hz
      rw [e2]
      simp only []
      rw [if_neg hp0]
      have hmem1 : ∀ y, y ≠ p → k1.mem y = k.mem y := by
        intro y hy
        exact a13 y hy (fun h => absurd rfl h)
      obtain ⟨b1, b2, b3, b4, b5, b6, b7, b8, b9, b10, b11, b12⟩ :=
        xas_expand_link_spec ({ k with slab_next := p } : Kernel) k1 p k.xa_head 0 hp4
          (fun hq => by rw [hleaf] at hq; exact absurd hq (by simp)) a2 a7 a9 a11 a12 hmem1
      have hcallsE := xas_expand_link_calls k1 p k.xa_head
      generalize xas_expand_link k1 p k.xa_head = kE at *
      have hiE : Inv kE (fun y => L y ∨ y = p) :=
        inv_expand hi0 hh0 rfl (fun hq => by rw [hleaf] at hq; exact absurd hq (by simp))
          (fun _ => rfl) (by omega) b1 b2 (by rw [b3, a3]; exact hslab) b6 b7 b8 b9 b10 b11 b12
      have hsE : Sim ({ k with slab_next := p } : Kernel) kE :=
        sim_expand hi0 rfl (fun hq => by rw [hleaf] at hq; exact absurd hq (by simp))
          (fun _ => rfl) b1 b6 b9 b10 b11 b12
      have hmk : xa_mk_node p = kE.xa_head := by
        rw [b1]
        exact xa_mk_node_eq _ hp4
      have hnE : xa_is_node kE.xa_head = true := by
        rw [b1]
        exact is_node_add2 _ hp4 hpbig
      have hto : kE.xa_head - 2 = p := by rw [b1]; omega
      rw [hmk, xas_expand_loop]
      have hngt : ¬ i > max_index kE kE.xa_head := by
        rw [max_index_node_iff kE kE.xa_head i hnE (by rw [hto, b6]) (by rw [hto, b6]; omega) hi64,
          hto, b6, Nat.shiftRight_zero]
        omega
      rw [if_neg hngt]
      simp only []
      rw [if_neg (by simp only [XA_CHUNK_SHIFT]; omega), xas_create_loop,
        to_uint_cast _ (by simp only [XA_CHUNK_SHIFT]; omega),
        if_pos (by simp only [XA_CHUNK_SHIFT]; omega)]
      simp only []
      rw [if_neg (by rw [b1]; omega), if_pos hnE, to_node_def, hto]
      have hv2 : Visits kE i p :=
        Visits.root _ b1 (is_node_add2 _ hp4 hpbig) (by
          rw [b6]
          simp only [XA_CHUNK_MASK, Nat.shiftRight_zero]
          omega)
      obtain ⟨d1, d2, d3, d4, d5, d6, d7⟩ :=
        descend_pos hiE.core (show (fun y => L y ∨ y = p) p from Or.inr rfl)
          ({ xas with xa_node := p, xa_alloc := 0 } : xa_state)
      have hgo : get_offset i (kE.mem p) = i := by
        simp only [get_offset, b6, Nat.shiftRight_zero, XA_CHUNK_MASK, and63]
        omega
      have hsl0 : (kE.mem p).slots i = 0 := by
        rw [b9]
        simp only
        rw [if_neg (by omega)]
      have hcan : canon (kE.mem p) i = i := by
        simp [canon, hsl0, not_sibling_zero]
      simp only at d3 d5 d6 d7
      have d3' : (xas_descend kE { xas with xa_node := p, xa_alloc := 0 } p).1.xa_offset = i := by
        rw [d3, hidx, hgo, hcan]
      have hz2 : (kE.mem p).slots
          (xas_descend kE { xas with xa_node := p, xa_alloc := 0 } p).1.xa_offset = 0 := by
        rw [d3', hsl0]
      rw [xas_create_loop, if_neg (by simp [to_uint, XA_CHUNK_SHIFT])]
      refine ⟨kE, _, _, ?_, hiE, sim_trans hsim0 hsE, ?_, hz2, d2, rfl, by rw [d5, hs0],
        by rw [d6, hsib], d7, b2, ?_, by rw [b3, a3], by rw [b4, a4]⟩
      · rw [d1, hz2]
      · exact loc_slot_iff.2 ⟨hv2, by rw [d3', hgo, hcan], by rw [hz2]; decide⟩
      · rw [hcallsE, a3c]
  · -- the walk ends at an empty slot of a node above the leaves
    obtain ⟨hv, hcan, _⟩ := loc_slot_iff.1 hl
    obtain ⟨hq, hvr⟩ := visits_root hv
    have hrl := (hc.head_node hq).1
    have hr0 := hc.nodes _ hrl
    have hh0 : k.xa_head ≠ 0 := by
      intro h
      rw [h] at hq
      exact absurd hq (by decide)
    have hbound := visits_root_bound hc hvr (hc.head_node hq).2
    unfold xas_expand
    rw [if_neg hh0, hmax]
    simp only [hq, if_true, to_node_def]
    have hngt : ¬ i > max_index k k.xa_head := by
      rw [max_index_node_iff k k.xa_head i hq hr0.shift6 hr0.shift_le hi64]
      omega
    rw [xas_expand_loop, if_neg hngt]
    simp only []
    rw [if_neg (by omega), xas_create_loop,
      to_uint_cast _ (by have := hr0.shift_le; simp only [XA_CHUNK_SHIFT]; omega),
      if_pos (by simp only [XA_CHUNK_SHIFT]; omega)]
    simp only []
    rw [if_neg hh0, if_pos hq, to_node_def]
    have hsub : (((k.mem (k.xa_head - 2)).shift + XA_CHUNK_SHIFT : Nat) : Int) -
        ((XA_CHUNK_SHIFT : Nat) : Int) = (((k.mem (k.xa_head - 2)).shift : Nat) : Int) := by
      simp only [XA_CHUNK_SHIFT]
      omega
    rw [hsub]
    obtain ⟨d1, d2, d3, d4, d5, d6, d7⟩ :=
      descend_pos hc hrl ({ xas with xa_node := k.xa_head - 2 } : xa_state)
    simp only at d3 d4 d5 d6 d7
    obtain ⟨f', xas', r1, r2, r3, r4, r5, r6, r7, r8, r9⟩ :=
      xas_create_loop_down i (f2 + 1) k L (xas_descend k { xas with xa_node := k.xa_head - 2 }
        (k.xa_head - 2)).1 (k.xa_head - 2) y o hc (by rw [d5, hs0]) hvr d2 (by rw [d3, hidx])
        (fun hz => by
          obtain ⟨z1, z2⟩ := d4 hz
          exact ⟨by rw [z1, hidx], by rw [z2, hidx]⟩)
        hl hnull (by omega) (by have := hr0.shift_le; omega)
    rw [d1, r1, xas_create_loop, hsh]
    rw [to_uint_cast _ (by omega), if_pos (by omega)]
    simp only []
    have hyl := visits_live hc hv
    have hny := hc.nodes y hyl
    have hy0 : y ≠ 0 := by have := hny.big; omega
    have hyp : y ≠ p := by have := hpL y hyl; omega
    have ho64 : o < 64 := by
      rw [r8]
      exact get_offset_lt _ _
    have hsub6 : ((6 : Nat) : Int) - ((XA_CHUNK_SHIFT : Nat) : Int) = ((0 : Nat) : Int) := by
      simp only [XA_CHUNK_SHIFT]
      omega
    rw [if_pos trivial, hsub6]
    have ha' : xas'.xa_alloc = p := r7.trans (d7.trans ha)
    obtain ⟨k1, e2, a1, a2, a3, a3c, a4, a5, a6, a7, a8, a9, a10, a11, a12, a13, a14⟩ :=
      xas_alloc_parked k xas' (to_uint ((0 : Nat) : Int)) p (by rw [r2]; exact hny.align) ha'
        hp0 (by rw [r2]; exact hyp) hz
    rw [e2]
    simp only []
    rw [if_neg hp0]
    rw [to_uint_cast _ (by omega)] at a7
    rw [r2] at a8 a9 a13 a14
    rw [if_pos hy0, r3] at a8
    have a14' := a14 hy0
    have hmk : xa_mk_node p = p + 2 := xa_mk_node_eq _ hp4
    rw [hmk, slot_store_node _ _ _ _ hy0]
    generalize hk2 : k1.setNode y
      { k1.mem y with slots := fun q => if q = o then p + 2 else (k1.mem y).slots q } = k2
    have m_c : k2.mem p = k1.mem p := by
      rw [← hk2]
      simp [Ne.symm hyp]
    have m_x : k2.mem y = { k1.mem y with slots := fun q =>
        if q = o then p + 2 else (k1.mem y).slots q } := by
      rw [← hk2]
      simp
    have m_o : ∀ z, z ≠ p → z ≠ y → k2.mem z = k.mem z := by
      intro z hz1 hz2
      rw [← hk2]
      simp only [setNode_mem, if_neg hz2]
      exact a13 z hz1 (fun _ => hz2)
    have h_head : k2.xa_head = k.xa_head := by rw [← hk2]; exact a1
    have h_flags : k2.xa_flags = k.xa_flags := by rw [← hk2]; exact a2
    have h_slab : k2.slab_next = p + 576 := by rw [← hk2]; exact a3.trans hslab
    have h_calls : k2.slab_calls = k.slab_calls := by rw [← hk2]; exact a3c
    have h_grant : k2.slab_grant = k.slab_grant := by rw [← hk2]; exact a4
    have hsl2 : (k2.mem y).slots = fun q =>
        if q = o then p + 2 else (k.mem y).slots q := by
      rw [m_x, a14']
    have hi2 : Inv k2 (fun z => L z ∨ z = p) :=
      inv_add_child hi0 hyl ho64 hnull (show 6 ≤ (k.mem y).shift by omega) rfl h_head h_flags
        h_slab
        (by rw [m_c, a7]; show 0 = (k.mem y).shift - 6; omega) (by rw [m_c, a8])
        (by rw [m_c, a9]) (by rw [m_c, a10])
        (by rw [m_c, a11]) (by rw [m_c, a12]) hsl2
        (by rw [m_x, a14']) (by rw [m_x, a14']) (by rw [m_x, a14']) (by rw [m_x, a14'])
        (by rw [m_x, a14']) m_o
    have hs2 : Sim ({ k with slab_next := p } : Kernel) k2 :=
      sim_add_child hi0 hyl ho64 hnull rfl h_head (by rw [m_c, a11]) (by rw [m_c, a12]) hsl2
        (by rw [m_x, a14']) (by rw [m_x, a14']) m_o
    have hcl2 : (fun z => L z ∨ z = p) p := Or.inr rfl
    obtain ⟨c1, c2, c3, c4, c5, c6, c7⟩ :=
      descend_pos hi2.core hcl2 ({ xas' with xa_alloc := 0 } : xa_state)
    have hslc : (k2.mem p).slots = fun _ => 0 := by rw [m_c, a11]
    have hz2 : (k2.mem p).slots (xas_descend k2 { xas' with xa_alloc := 0 } p).1.xa_offset = 0 := by
      rw [hslc]
    obtain ⟨c4a, c4b⟩ := c4 (Or.inl hz2)
    simp only at c3 c4a c4b c5 c6 c7
    have hshx : (k2.mem y).shift = (k.mem y).shift := by rw [m_x, a14']
    have hv2x : Visits k2 i y := by
      refine visits_extend hc h_head ?_ ?_ hv
      · intro z hz
        by_cases hzy : z = y
        · rw [hzy]; exact hshx
        · rw [m_o z (by have := hpL z hz; omega) hzy]
      · intro z q hz hne
        by_cases hzy : z = y
        · rw [hzy] at hne ⊢
          rw [hsl2]
          have : q ≠ o := by
            intro hq'
            rw [hq'] at hne
            exact hne hnull
          simp [this]
        · rw [m_o z (by have := hpL z hz; omega) hzy]
    have hv2 : Visits k2 i p := by
      refine Visits.step y _ hv2x ?_ (is_node_add2 _ hp4 hpbig)
      have : get_offset i (k2.mem y) = o := by
        rw [r8]
        simp [get_offset, hshx]
      rw [this, hsl2]
      simp
    have hshc : (k2.mem p).shift = 0 := by rw [m_c, a7]
    obtain ⟨f3, rfl⟩ : ∃ f3, f' = f3 + 1 := ⟨f' - 1, by omega⟩
    rw [xas_create_loop, if_neg (by simp [to_uint])]
    refine ⟨k2, _, _, ?_, hi2, sim_trans hsim0 hs2, ?_, hz2, c2, rfl, by rw [c5, r5],
      by rw [c6, r6, d6, hsib], c7, h_flags, h_calls, h_slab.trans hslab.symm, h_grant⟩
    · rw [c1, hz2]
    · exact loc_slot_iff.2 ⟨hv2, by rw [c3, r4], by rw [hz2]; decide⟩

theorem xas_invalid_enomem (xas : xa_state) (h : xas.xa_node = XA_ERROR (-ENOMEM)) :
    xas_invalid xas = true := by
  have h2 := xa_error_enomem_mod
  unfold xas_invalid
  rw [and3, h]
  generalize XA_ERROR (-ENOMEM) = E at h2
  simp [h2]

/-- `xas_nomem` on a cursor in the `-ENOMEM` state when the cache grants the request. -/
theorem xas_nomem_grant (k : Kernel) (xas : xa_state) (gfp : Nat)
    (h : xas.xa_node = XA_ERROR (-ENOMEM)) (hg : k.slab_grant k.slab_calls gfp = true)
    (hn : k.slab_next ≠ 0) :
    xas_nomem k xas gfp =
      ({ k with mem := fun x => if x = k.slab_next then xa_node.zero else k.mem x,
                slab_next := k.slab_next + 576,
                slab_calls := k.slab_calls + 1 },
        { xas with xa_alloc := k.slab_next, xa_node := XAS_RESTART }, true) := by
  have hnn : ¬ (xas.xa_node ≠ XA_ERROR (-ENOMEM)) := fun h' => h' h
  unfold xas_nomem
  rw [if_neg hnn]
  simp only [kmem_cache_alloc, hg, if_true, hn, if_false]

/-- C28 (amended): with a node cache that refuses every `GFP_NOWAIT` request
and grants every request made with the caller's `gfp`, for every well-formed
array, index `i` and non-NULL entry `e` such that only the leaf node of `i` is
missing (so that the store needs exactly one new node), `xa_store` succeeds
after exactly one round in which `xas_nomem` returns true: the first round
leaves the array as it was and parks the node `slab_next` in `xa_alloc`, the
second round makes the parked node the leaf node of `i` without asking the
cache, `xas_nomem` then returns false, and `xa_load(xa, i)` returns `e`. -/
theorem C28_one_cycle (k : Kernel) (i e gfp fuel : Nat) (hwf : WF k)
    (hrefuse : ∀ n, k.slab_grant n GFP_NOWAIT_NOWARN = false)
    (hgrant : ∀ n, k.slab_grant n gfp = true)
    (hneed : LeafMissing k i) (hi64 : i < 2 ^ 64)
    (he : xa_is_internal e = false) (he0 : e ≠ 0) (hf : 64 ≤ fuel) :
    ∃ k1 x1 k2 x2,
      xa_store_round fuel e gfp k (XA_STATE i) = some (k1, x1, 0, true) ∧
      x1.xa_node = XAS_RESTART ∧ x1.xa_alloc = k.slab_next ∧ x1.xa_alloc ≠ 0 ∧
      k1.slab_calls = k.slab_calls + 2 ∧
      (∀ j, xa_load fuel k1 j = xa_load fuel k j) ∧
      xa_store_round fuel e gfp k1 x1 = some (k2, x2, 0, false) ∧
      x2.xa_alloc = 0 ∧ xas_error x2 = 0 ∧ k2.slab_calls = k1.slab_calls ∧
      (∃ o, Loc k2 i (Place.slot k.slab_next o)) ∧
      xa_store fuel k i e gfp = some (k2, 0) ∧ WF k2 ∧ xa_load fuel k2 i = some e := by
  obtain ⟨L, hi⟩ := hwf
  have hc := hi.core
  have hp4 := hc.slab_align
  have hpbig := hc.slab_big
  have hp0 : k.slab_next ≠ 0 := by omega
  have hpL : ∀ y, L y → y < k.slab_next := fun y hy => (hc.nodes y hy).below
  -- the first round
  obtain ⟨xe, c1, c2, c3, c4, c5, c6⟩ :=
    xas_create_refused hi i fuel (XA_STATE i) hi64 rfl rfl rfl rfl
      (show xas_top 3 = true by decide) hneed (hrefuse _) (by omega)
  have hst1 : xas_store fuel k (XA_STATE i) e =
      some ({ k with slab_calls := k.slab_calls + 1 }, xe, 0) := by
    unfold xas_store
    rw [if_pos he0, c1]
    simp only []
    unfold xas_store_tail
    rw [if_pos (xas_invalid_enomem xe c2)]
  have hnm1 := xas_nomem_grant ({ k with slab_calls := k.slab_calls + 1 } : Kernel) xe gfp c2
    (hgrant _) hp0
  simp only at hnm1
  generalize hk1 : ({ k with
      mem := fun x => if x = k.slab_next then xa_node.zero else k.mem x,
      slab_next := k.slab_next + 576, slab_calls := k.slab_calls + 1 + 1 } : Kernel) = k1 at hnm1
  generalize hx1 : ({ xe with xa_alloc := k.slab_next, xa_node := XAS_RESTART } : xa_state) = x1
    at hnm1
  have q_head : k1.xa_head = k.xa_head := by rw [← hk1]
  have q_flags : k1.xa_flags = k.xa_flags := by rw [← hk1]
  have q_slab : k1.slab_next = k.slab_next + 576 := by rw [← hk1]
  have q_calls : k1.slab_calls = k.slab_calls + 2 := by rw [← hk1]
  have q_grant : k1.slab_grant = k.slab_grant := by rw [← hk1]
  have q_zero : k1.mem k.slab_next = xa_node.zero := by
    rw [← hk1]
    simp
  have q_mem : ∀ y, L y → k1.mem y = k.mem y := by
    intro y hy
    have := hpL y hy
    rw [← hk1]
    simp only
    rw [if_neg (by omega)]
  have hi1 : Inv k1 L :=
    inv_congr hi q_head q_flags q_mem (by rw [q_slab]; omega) (by rw [q_slab]; omega)
      (fun y hy => by rw [q_slab]; have := hpL y hy; omega)
  have hloads : ∀ j, xa_load fuel k1 j = xa_load fuel k j := by
    intro j
    obtain ⟨w, hw⟩ := loc_exists hc j
    obtain ⟨a, b, _⟩ := loc_congr hc q_head q_flags q_mem hw
    rw [xa_load_of_loc hi1.core (by omega) a, xa_load_of_loc hc (by omega) hw, b]
  have hneed1 : LeafMissing k1 i := by
    rcases hneed with ⟨a, b, c⟩ | ⟨y, o, a, b, c⟩
    · exact Or.inl ⟨by rw [q_head]; exact a, b, c⟩
    · have hy := (loc_slot_facts hc a).1
      exact Or.inr ⟨y, o, (loc_congr hc q_head q_flags q_mem a).1, by rw [q_mem y hy]; exact b,
        by rw [q_mem y hy]; exact c⟩
  have hr1 : xa_store_round fuel e gfp k (XA_STATE i) = some (k1, x1, 0, true) := by
    unfold xa_store_round
    rw [hst1]
    simp only []
    rw [hnm1]
  -- the second round
  have x_node : x1.xa_node = XAS_RESTART := by rw [← hx1]
  have x_alloc : x1.xa_alloc = k.slab_next := by rw [← hx1]
  have x_index : x1.xa_index = i := by rw [← hx1]; exact c3
  have x_shift : x1.xa_shift = 0 := by rw [← hx1]; exact c4
  have x_sibs : x1.xa_sibs = 0 := by rw [← hx1]; exact c5
  obtain ⟨k2, xs, o, p1, p2, p3, p4, p5, p6, p7, p8, p9, p10, p11, p12, p13, p14⟩ :=
    xas_create_parked hi1 k.slab_next hp4 hpbig hpL q_slab q_zero i fuel x1 hi64 x_index
      x_shift x_sibs x_alloc (by rw [x_node]; decide) hneed1 (by omega)
  obtain ⟨k3, x2, t1, t2, t3, t4, t5, t6, t7, t8, t9, t10, t11, t12, t13⟩ :=
    xas_store_tail_nonnull p2 i e fuel xs (Place.slot k.slab_next o) p4 (by simp) p6
      (fun y' o' h => by
        simp only [Place.slot.injEq] at h
        rw [p7, h.2])
      p9 he he0 (by omega)
  have hent : entry_at k2 (Place.slot k.slab_next o) = 0 := p5
  rw [hent] at t1
  have hst2 : xas_store fuel k1 x1 e = some (k3, x2, 0) := by
    unfold xas_store
    rw [if_pos he0, p1]
    simp only []
    exact t1
  have hx2n : x2.xa_node % 4 = 0 := by
    rw [t11, p6]
    exact hp4
  have hx2a : x2.xa_alloc = 0 := by rw [t10, p10]
  have hr2 : xa_store_round fuel e gfp k1 x1 = some (k3, x2, 0, false) := by
    unfold xa_store_round
    rw [hst2]
    simp only []
    rw [xas_nomem_done k3 x2 gfp hx2n hx2a]
  have hloc3 : Loc k3 i (Place.slot k.slab_next o) := sameShape_loc t3 p4
  obtain ⟨f, rfl⟩ : ∃ f, fuel = f + 1 + 1 := ⟨fuel - 2, by omega⟩
  refine ⟨k1, x1, k3, x2, hr1, x_node, x_alloc, by rw [x_alloc]; exact hp0, q_calls, hloads,
    hr2, hx2a, xas_error_aligned x2 hx2n, by rw [t13, p12], ⟨o, hloc3⟩, ?_, ⟨_, t2⟩, ?_⟩
  · unfold xa_store
    rw [he]
    simp only [Bool.false_eq_true, if_false]
    rw [xa_store_loop_round, hr1]
    simp only [if_true]
    rw [xa_store_loop_round, hr2]
    simp only [Bool.false_eq_true, if_false, xas_result_ok x2 _ hx2n]
  · rw [xa_load_of_loc t2.core (by omega) hloc3]
    exact congrArg some t4

theorem C28_one_cycle_witness :
    LeafMissing ex_nowait 5 ∧
    ∃ k1 x1 k2 x2,
      xa_store_round 64 8 1 ex_nowait (XA_STATE 5) = some (k1, x1, 0, true) ∧
      x1.xa_node = XAS_RESTART ∧ x1.xa_alloc = ex_nowait.slab_next ∧ x1.xa_alloc ≠ 0 ∧
      k1.slab_calls = ex_nowait.slab_calls + 2 ∧
      (∀ j, xa_load 64 k1 j = xa_load 64 ex_nowait j) ∧
      xa_store_round 64 8 1 k1 x1 = some (k2, x2, 0, false) ∧
      x2.xa_alloc = 0 ∧ xas_error x2 = 0 ∧ k2.slab_calls = k1.slab_calls ∧
      (∃ o, Loc k2 5 (Place.slot ex_nowait.slab_next o)) ∧
      xa_store 64 ex_nowait 5 8 1 = some (k2, 0) ∧ WF k2 ∧ xa_load 64 k2 5 = some 8 :=
  ⟨Or.inl ⟨by decide, by decide, by decide⟩,
    C28_one_cycle ex_nowait 5 8 1 64
      (wf_init 0 0 4096 (fun _ gfp => gfp != GFP_NOWAIT_NOWARN) (by decide) (by decide)
        (by decide))
      (fun _ => rfl) (fun _ => rfl) (Or.inl ⟨by decide, by decide, by decide⟩) (by decide)
      (by decide) (by decide) (by decide)⟩

/-! ## The head in canonical form: reachable states -/

/-- The states reached by the normal API have no empty node, and their root
node holds something beyond slot 0. -/
theorem reached_tight {fuel : Nat} {k : Kernel} (hr : Reached fuel k) (hf : 64 ≤ fuel) :
    ∃ L, Inv k L ∧ NoMulti k L ∧ Tight k L ∧ AllocOK k := by
  have store_case : ∀ (k : Kernel) (i e gfp : Nat) (k' : Kernel) (r : Nat),
      (∃ L, Inv k L ∧ NoMulti k L ∧ Tight k L ∧ AllocOK k) → i < 2 ^ 64 →
      xa_store fuel k i e gfp = some (k', r) →
      ∃ L, Inv k' L ∧ NoMulti k' L ∧ Tight k' L ∧ AllocOK k' := by
    intro k i e gfp k' r ih hi64 hst
    obtain ⟨L, hi, hm, ht, hg⟩ := ih
    obtain ⟨w0, hl0⟩ := loc_exists hi.core i
    by_cases he : xa_is_internal e = true
    · simp only [xa_store, he, if_true, Option.some.injEq, Prod.mk.injEq] at hst
      rw [← hst.1]
      exact ⟨L, hi, hm, ht, hg⟩
    · have he' : xa_is_internal e = false := by simpa using he
      by_cases he0 : e = 0
      · subst he0
        obtain ⟨k2, L2, s1, s2, _, s4, s5, _, s7⟩ := xa_store_null hi i gfp fuel w0 hl0 hf
        rw [s1] at hst
        simp only [Option.some.injEq, Prod.mk.injEq] at hst
        obtain ⟨rfl, _⟩ := hst
        exact ⟨L2, s2, s5 hm, s7 hm ht, fun n g => by rw [s4]; exact hg n g⟩
      · obtain ⟨k2, L2, w, s1, s2, s3, _, _, _, _, _, s9, s10⟩ :=
          xa_store_nonnull hi hg i e gfp fuel w0 hi64 hl0 he' he0 (by omega)
        rw [s1] at hst
        simp only [Option.some.injEq, Prod.mk.injEq] at hst
        obtain ⟨rfl, _⟩ := hst
        exact ⟨L2, s2, s9 hm, s10 ht, s3⟩
  induction hr with
  | init addr flags base grant hb4 hb hfl hgr =>
    exact ⟨_, inv_init addr flags base grant hb4 hb hfl, nomulti_init addr flags base grant,
      tight_init addr flags base grant _ (inv_init addr flags base grant hb4 hb hfl),
      fun n g => hgr n g⟩
  | store k i e gfp k' r _ hi64 hst ih => exact store_case k i e gfp k' r ih hi64 hst
  | erase k i k' r _ hi64 hst ih => exact store_case k i 0 0 k' r ih hi64 hst
  | set_tag k i t k' _ hi64 ht hst ih =>
    obtain ⟨L, hi, hm, htt, hg⟩ := ih
    obtain ⟨w, hl⟩ := loc_exists hi.core i
    obtain ⟨k2, s1, s2, s3, _⟩ := xa_set_tag_spec hi i t fuel ht (by omega) w hl
    rw [s1] at hst
    obtain rfl := Option.some.inj hst
    exact ⟨L, s2, nomulti_tagOnly s3 hm, tight_tagOnly htt s3,
      fun n g => by rw [s3.grant]; exact hg n g⟩
  | clear_tag k i t k' _ hi64 ht hst ih =>
    obtain ⟨L, hi, hm, htt, hg⟩ := ih
    obtain ⟨w, hl⟩ := loc_exists hi.core i
    obtain ⟨k2, s1, s2, s3, _⟩ := xa_clear_tag_spec hi i t fuel ht (by omega) w hl
    rw [s1] at hst
    obtain rfl := Option.some.inj hst
    exact ⟨L, s2, nomulti_tagOnly s3 hm, tight_tagOnly htt s3,
      fun n g => by rw [s3.grant]; exact hg n g⟩

/-- Below a non-NULL slot of a live node lies an index that reads a non-NULL
entry, when no live node is empty. -/
theorem entry_slot_below {k : Kernel} {L : Nat → Prop} (hi : Inv k L) (hm : NoMulti k L)
    (hne : ∀ x, L x → NonEmpty k x) :
    ∀ n x B o, L x → (k.mem x).shift = n → NodeBlock k x B → o < 64 →
      (k.mem x).slots o ≠ 0 →
      ∃ i w, Loc k i w ∧ entry_at k w ≠ 0 ∧ i >>> (k.mem x).shift = 64 * B + o := by
  intro n
  induction n using Nat.strong_induction_on with
  | _ n ihn =>
    intro x B o hx hsh hb ho hs0
    have hnx := hi.core.nodes x hx
    by_cases hn : xa_is_node ((k.mem x).slots o) = true
    · have hgt : (k.mem x).slots o > 4096 := by
        unfold xa_is_node at hn
        simp only [Bool.and_eq_true, decide_eq_true_eq] at hn
        exact hn.2
      have hs : (k.mem x).slots o = ((k.mem x).slots o - 2) + 2 := by omega
      rw [hs] at hn
      obtain ⟨c1, c2, c3, _, _⟩ := nodeBlock_child hi.core hb ho hs hn
      obtain ⟨q, hq, hq0⟩ := hne _ c3
      obtain ⟨i, w, h1, h2, h3⟩ := ihn _ (by omega) _ _ q c3 rfl c1 hq hq0
      refine ⟨i, w, h1, h2, ?_⟩
      rw [c2, shr_add6, h3]
      omega
    · have hn' : xa_is_node ((k.mem x).slots o) = false := by simpa using hn
      have hsib := (hm x hx o ho).1
      refine ⟨(64 * B + o) <<< (k.mem x).shift, Place.slot x o, ?_, hs0, shl_shr_cancel _ _⟩
      have e1 : ((64 * B + o) <<< (k.mem x).shift) >>> (k.mem x).shift = 64 * B + o :=
        shl_shr_cancel _ _
      rw [loc_slot_iff]
      refine ⟨(hb _).2 ?_, ?_, hn'⟩
      · rw [Nat.shiftRight_add, e1, Nat.shiftRight_eq_div_pow]
        omega
      · rw [get_offset_eq, e1]
        have : (64 * B + o) % 64 = o := by omega
        rw [this]
        unfold canon
        rw [hsib]
        simp

/-! ## Stores under a node cache that may refuse -/

theorem sameMem_sameShape {k k' : Kernel} (h : SameMem k k') : SameShape k k' := by
  obtain ⟨h1, _, h3⟩ := h
  refine ⟨fun _ => h1, fun x => ⟨by rw [h3], fun o _ => by rw [h3]⟩⟩

theorem sameMem_symm {k k' : Kernel} (h : SameMem k k') : SameMem k' k :=
  ⟨h.1.symm, h.2.1.symm, h.2.2.symm⟩

theorem sameMem_sim {k k' : Kernel} (h : SameMem k k') : Sim k k' := by
  intro j w hl
  refine ⟨w, sameShape_loc (sameMem_sameShape h) hl, ?_, ?_⟩
  · cases w with
    | head => exact h.1
    | bounds => rfl
    | slot z r =>
      show (k'.mem z).slots r = (k.mem z).slots r
      rw [h.2.2]
  · intro t _
    cases w with
    | head =>
      show xa_tagged k' t = xa_tagged k t
      exact xa_tagged_congr t h.2.1
    | bounds => rfl
    | slot z r =>
      show node_get_tag (k'.mem z) r t = node_get_tag (k.mem z) r t
      rw [h.2.2]

theorem sameMem_inv {k k' : Kernel} {L : Nat → Prop} (hi : Inv k L) (h : SameMem k k')
    (h4 : k'.slab_next % 4 = 0) (hbig : 4096 ≤ k'.slab_next)
    (hbelow : ∀ y, L y → y < k'.slab_next) : Inv k' L :=
  inv_congr hi h.1 h.2.1 (fun y _ => by rw [h.2.2]) h4 hbig hbelow

theorem sameMem_nomulti {k k' : Kernel} {L : Nat → Prop} (hm : NoMulti k L)
    (h : SameMem k k') : NoMulti k' L := by
  intro x hx o ho
  rw [h.2.2]
  exact hm x hx o ho

theorem sameMem_pretight {k k' : Kernel} {L : Nat → Prop} {i : Nat} (hp : PreTight k L i)
    (h : SameMem k k') : PreTight k' L i := by
  refine ⟨?_, ?_⟩
  · intro x hx
    rcases hp.1 x hx with h1 | h1
    · obtain ⟨o, ho, hs⟩ := h1
      exact Or.inl ⟨o, ho, by rw [h.2.2]; exact hs⟩
    · exact Or.inr (sameShape_visits (sameMem_sameShape h) h1)
  · intro hq
    rw [h.1] at hq ⊢
    rcases hp.2 hq with h1 | h1
    · obtain ⟨o, h0, ho, hs⟩ := h1
      exact Or.inl ⟨o, h0, ho, by rw [h.2.2]; exact hs⟩
    · right
      rw [h.2.2]
      exact h1

theorem sameMem_tight {k k' : Kernel} {L : Nat → Prop} (hp : Tight k L)
    (h : SameMem k k') : Tight k' L := by
  refine ⟨?_, ?_⟩
  · intro x hx
    obtain ⟨o, ho, hs⟩ := hp.1 x hx
    exact ⟨o, ho, by rw [h.2.2]; exact hs⟩
  · intro hq
    rw [h.1] at hq ⊢
    obtain ⟨o, h0, ho, hs⟩ := hp.2 hq
    exact ⟨o, h0, ho, by rw [h.2.2]; exact hs⟩

theorem keeps_refl {k : Kernel} {L : Nat → Prop} (i : Nat) (hi : Inv k L) : Keeps i k k L L :=
  ⟨hi, sim_refl k, rfl, id, id⟩

theorem keeps_trans {i : Nat} {k1 k2 k3 : Kernel} {L1 L2 L3 : Nat → Prop}
    (a : Keeps i k1 k2 L1 L2) (b : Keeps i k2 k3 L2 L3) : Keeps i k1 k3 L1 L3 :=
  ⟨b.inv, sim_trans a.sim b.sim, by rw [b.flags, a.flags], fun h => b.multi (a.multi h),
    fun h => b.pre (a.pre h)⟩

theorem keeps_sameMem {i : Nat} {k k' : Kernel} {L : Nat → Prop} (hi : Inv k L)
    (h : SameMem k k') (h4 : k'.slab_next % 4 = 0) (hbig : 4096 ≤ k'.slab_next)
    (hbelow : ∀ y, L y → y < k'.slab_next) : Keeps i k k' L L :=
  ⟨sameMem_inv hi h h4 hbig hbelow, sameMem_sim h, h.2.1, fun hm => sameMem_nomulti hm h,
    fun hp => sameMem_pretight hp h⟩

theorem xas_alloc_granted (k : Kernel) (xas : xa_state) (shift : Nat)
    (hgr : k.slab_grant k.slab_calls GFP_NOWAIT_NOWARN = true)
    (ha : xas.xa_alloc = 0) (hv : xas.xa_node % 4 = 0) (hbig : 4096 ≤ k.slab_next)
    (hne : xas.xa_node ≠ k.slab_next) :
    ∃ k', xas_alloc k xas shift = (k', xas, k.slab_next) ∧
      k'.xa_head = k.xa_head ∧ k'.xa_flags = k.xa_flags ∧ k'.slab_next = k.slab_next + 576 ∧
      (k'.mem k.slab_next).shift = shift % 256 ∧
      (k'.mem k.slab_next).offset = (if xas.xa_node ≠ 0 then xas.xa_offset else 0) ∧
      (k'.mem k.slab_next).parent = xas.xa_node ∧
      (k'.mem k.slab_next).count = 0 ∧
      (k'.mem k.slab_next).slots = (fun _ => 0) ∧
      (k'.mem k.slab_next).tags = (fun _ => 0) ∧
      (∀ y, y ≠ k.slab_next → (xas.xa_node ≠ 0 → y ≠ xas.xa_node) → k'.mem y = k.mem y) ∧
      (xas.xa_node ≠ 0 → k'.mem xas.xa_node =
        { k.mem xas.xa_node with count := ((k.mem xas.xa_node).count + 1) % 256 }) := by
  have hinv := xas_invalid_node xas hv
  have hnz : k.slab_next ≠ 0 := by omega
  unfold xas_alloc
  simp only [hinv, Bool.false_eq_true, if_false, ha, ne_eq, not_true, kmem_cache_alloc, hgr,
    if_true, hnz]
  by_cases hp : xas.xa_node = 0
  · simp only [hp, not_true, if_false]
    refine ⟨_, rfl, rfl, rfl, rfl, ?_, ?_, ?_, ?_, ?_, ?_, ?_, ?_⟩
    all_goals simp [Kernel.setNode, xa_node.zero]
    · intro y hy
      simp [hy]
  · simp only [hp, not_false_eq_true, if_true]
    refine ⟨_, rfl, rfl, rfl, rfl, ?_, ?_, ?_, ?_, ?_, ?_, ?_, ?_⟩
    all_goals simp [Kernel.setNode, xa_node.zero, hne, Ne.symm hne]
    · intro y hy hy2
      simp [hy, hy2]

/-- `xas_alloc` with any node cache: it fails with `-ENOMEM`, or it hands out
the spare node of the cursor or a fresh node; `kb` is the state seen as if the
node handed out were the next node of the cache. -/
theorem xas_alloc_gen {k : Kernel} {L : Nat → Prop} (hi : Inv k L) (xas : xa_state)
    (shift : Nat) (hv : xas.xa_node % 4 = 0) (hnl : xas.xa_node ≠ 0 → L xas.xa_node)
    (hp : Spare k L xas.xa_alloc) :
    (xas_alloc k xas shift =
        ({ k with slab_calls := k.slab_calls + 1 }, xas_set_err xas (-ENOMEM), 0) ∧
      xas.xa_alloc = 0) ∨
    ∃ kb k', xas_alloc k xas shift = (k', { xas with xa_alloc := 0 }, kb.slab_next) ∧
      SameMem k kb ∧ Inv kb L ∧
      k'.xa_head = kb.xa_head ∧ k'.xa_flags = kb.xa_flags ∧
      k'.slab_next = kb.slab_next + 576 ∧
      (k'.mem kb.slab_next).shift = shift % 256 ∧
      (k'.mem kb.slab_next).offset = (if xas.xa_node ≠ 0 then xas.xa_offset else 0) ∧
      (k'.mem kb.slab_next).parent = xas.xa_node ∧
      (k'.mem kb.slab_next).count = 0 ∧
      (k'.mem kb.slab_next).slots = (fun _ => 0) ∧
      (k'.mem kb.slab_next).tags = (fun _ => 0) ∧
      (∀ y, y ≠ kb.slab_next → (xas.xa_node ≠ 0 → y ≠ xas.xa_node) →
        k'.mem y = kb.mem y) ∧
      (xas.xa_node ≠ 0 → k'.mem xas.xa_node =
        { kb.mem xas.xa_node with count := ((kb.mem xas.xa_node).count + 1) % 256 }) := by
  have hc := hi.core
  rcases hp with hp | ⟨p4, pbig, pL, pslab, pz⟩
  · have hx : ({ xas with xa_alloc := 0 } : xa_state) = xas := by
      cases xas
      simp only at hp
      simp [hp]
    by_cases hgr : k.slab_grant k.slab_calls GFP_NOWAIT_NOWARN = true
    · right
      have hne : xas.xa_node ≠ k.slab_next := by
        intro h
        by_cases h0 : xas.xa_node = 0
        · have := hc.slab_big
          omega
        · have := (hc.nodes _ (hnl h0)).below
          omega
      obtain ⟨k', e, a1, a2, a3, a4, a5, a6, a7, a8, a9, a10, a11⟩ :=
        xas_alloc_granted k xas shift hgr hp hv hc.slab_big hne
      refine ⟨k, k', ?_, ⟨rfl, rfl, rfl⟩, hi, a1, a2, a3, a4, a5, a6, a7, a8, a9, a10, a11⟩
      rw [hx]
      exact e
    · left
      simp only [Bool.not_eq_true] at hgr
      exact ⟨xas_alloc_refused k xas shift hv hp hgr, hp⟩
  · right
    have hp0 : xas.xa_alloc ≠ 0 := by omega
    have hne : xas.xa_node ≠ xas.xa_alloc := by
      intro h
      by_cases h0 : xas.xa_node = 0
      · omega
      · have := pL _ (hnl h0)
        omega
    obtain ⟨k', e, a1, a2, a3, _, _, _, _, a4, a5, a6, a7, a8, a9, a10, a11⟩ :=
      xas_alloc_parked k xas shift xas.xa_alloc hv rfl hp0 hne pz
    refine ⟨{ k with slab_next := xas.xa_alloc }, k', e, ⟨rfl, rfl, rfl⟩,
      inv_congr hi rfl rfl (fun _ _ => rfl) p4 pbig pL, a1, a2, ?_, a4, a5, a6, a7, a8, a9,
      a10, a11⟩
    rw [a3, pslab]

/-- One round of the main loop of `xas_expand` after its allocation, seen from
the state `kb` whose next cache node is the node handed out. -/
theorem expand_step {kb k1 : Kernel} {L : Nat → Prop} {s max : Nat} (hib : Inv kb L)
    (hh0 : kb.xa_head ≠ 0) (hmax : max < 2 ^ 64) (hgt : max > max_index kb kb.xa_head)
    (hn : xa_is_node kb.xa_head = true → s = (kb.mem (kb.xa_head - 2)).shift + 6)
    (hl : xa_is_node kb.xa_head = false → s = 0)
    (a2 : k1.xa_flags = kb.xa_flags) (a3 : k1.slab_next = kb.slab_next + 576)
    (a7 : (k1.mem kb.slab_next).shift = s % 256) (a9 : (k1.mem kb.slab_next).parent = 0)
    (a11 : (k1.mem kb.slab_next).slots = fun _ => 0)
    (a12 : (k1.mem kb.slab_next).tags = fun _ => 0)
    (hmem1 : ∀ y, y ≠ kb.slab_next → k1.mem y = kb.mem y) :
    Keeps max kb (xas_expand_link k1 kb.slab_next kb.xa_head) L
      (fun y => L y ∨ y = kb.slab_next) ∧
    (xas_expand_link k1 kb.slab_next kb.xa_head).xa_head = kb.slab_next + 2 ∧
    xa_mk_node kb.slab_next = (xas_expand_link k1 kb.slab_next kb.xa_head).xa_head ∧
    xa_is_node (xas_expand_link k1 kb.slab_next kb.xa_head).xa_head = true ∧
    ((xas_expand_link k1 kb.slab_next kb.xa_head).mem kb.slab_next).shift = s ∧ s ≤ 60 := by
  have hc := hib.core
  have hs60 : s ≤ 60 := by
    by_cases hq : xa_is_node kb.xa_head = true
    · have h1 := hn hq
      have hr := hc.nodes _ (hc.head_node hq).1
      have := (max_index_node_iff kb kb.xa_head max hq hr.shift6 hr.shift_le hmax).1 hgt
      have h6 := hr.shift6
      have h60 := hr.shift_le
      by_cases h60' : (kb.mem (kb.xa_head - 2)).shift = 60
      · rw [h60', Nat.shiftRight_eq_div_pow] at this
        omega
      · omega
    · simp at hq
      have := hl hq
      omega
  have hnal := hc.slab_align
  have hnh : xa_is_node kb.xa_head = true → kb.xa_head - 2 ≠ kb.slab_next := by
    intro hq
    exact live_lt_slab hc (hc.head_node hq).1
  have hsm : s % 256 = s := by omega
  rw [hsm] at a7
  obtain ⟨b1, b2, b3, b4, b5, b6, b7, b8, b9, b10, b11, b12⟩ :=
    xas_expand_link_spec kb k1 kb.slab_next kb.xa_head s hnal hnh a2 a7 a9 a11 a12 hmem1
  generalize xas_expand_link k1 kb.slab_next kb.xa_head = kE at *
  have hiE : Inv kE (fun y => L y ∨ y = kb.slab_next) :=
    inv_expand hib hh0 rfl hn hl hs60 b1 b2 (by rw [b3, a3]) b6 b7 b8 b9 b10 b11 b12
  have hsE : Sim kb kE := sim_expand hib rfl hn hl b1 b6 b9 b10 b11 b12
  have hslE : ∀ y, L y → (kE.mem y).slots = (kb.mem y).slots := by
    intro y hy
    by_cases hyr : xa_is_node kb.xa_head = true ∧ y = kb.xa_head - 2
    · rw [hyr.2, b11 hyr.1]
    · rw [b12 y (live_lt_slab hc hy) (fun hq h => hyr ⟨hq, h⟩)]
  refine ⟨⟨hiE, hsE, b2, fun hm => nomulti_expand hib hm rfl hl b6 b9 b11 b12,
    fun hp => pretight_expand hib hh0 hmax hgt hn hl b1 b6 b9 hslE hp⟩, b1, ?_, ?_, b6, hs60⟩
  · rw [b1]
    exact xa_mk_node_eq _ hnal
  · rw [b1]
    exact is_node_add2 _ hnal hc.slab_big

theorem max_index_sameMem {k kb : Kernel} (h : SameMem k kb) (head : Nat) :
    max_index kb head = max_index k head := by
  unfold max_index
  rw [h.2.2]

/-- The main loop of `xas_expand` with any node cache: it keeps the invariant
and what every index reads, and it ends with `-ENOMEM` or with a root node
that spans the index. -/
theorem xas_expand_loop_gen (max : Nat) (hmax : max < 2 ^ 64) :
    ∀ fuel k L xas head node shift, Inv k L → Spare k L xas.xa_alloc → xas.xa_node = 0 →
      head = k.xa_head → head ≠ 0 →
      (xa_is_node head = true → node = head - 2 ∧ shift = (k.mem (head - 2)).shift + 6) →
      (xa_is_node head = false → node = 0 ∧ shift = 0) →
      72 ≤ shift + 6 * fuel →
      ∃ k' L' xas' r,
        xas_expand_loop max fuel k xas head node shift = some (k', xas', r) ∧
        Keeps max k k' L L' ∧ k'.xa_head ≠ 0 ∧
        (xa_is_node k.xa_head = true → xa_is_node k'.xa_head = true) ∧
        xas'.xa_index = xas.xa_index ∧ xas'.xa_shift = xas.xa_shift ∧
        xas'.xa_sibs = xas.xa_sibs ∧
        ((r = -ENOMEM ∧ xas'.xa_node = XA_ERROR (-ENOMEM) ∧ xas'.xa_alloc = 0) ∨
         (∃ shift' : Nat, r = ((shift' : Nat) : Int) ∧ Spare k' L' xas'.xa_alloc ∧
           (xa_is_node k'.xa_head = true → xas'.xa_node = k'.xa_head - 2 ∧
             shift' = (k'.mem (k'.xa_head - 2)).shift + 6 ∧
             max >>> (k'.mem (k'.xa_head - 2)).shift ≤ 63) ∧
           (xa_is_node k'.xa_head = false → xas'.xa_node = 0 ∧ shift' = 0 ∧ max = 0))) := by
  intro fuel
  induction fuel with
  | zero =>
    intro k L xas head node shift hi _ _ hh _ hn hl hf
    exfalso
    by_cases hq : xa_is_node head = true
    · have := (hn hq).2
      rw [hh] at hq this
      have := (hi.core.nodes _ (hi.core.head_node hq).1).shift_le
      omega
    · simp at hq
      have := (hl hq).2
      omega
  | succ f ih =>
    intro k L xas head node shift hi hp hx hh hh0 hn hl hf
    have hc := hi.core
    rw [xas_expand_loop]
    by_cases hgt : max > max_index k head
    · rw [if_pos hgt]
      rcases xas_alloc_gen hi xas shift (by rw [hx]) (fun h => absurd hx h) hp with
        ⟨e1, _⟩ | ⟨kb, k1, e1, hsm, hib, a1, a2, a3, a7, a8, a9, a10, a11, a12, a13, a14⟩
      · -- the cache refuses
        rw [e1]
        simp only []
        rw [if_pos trivial]
        refine ⟨_, L, _, _, rfl,
          keeps_sameMem hi ⟨rfl, rfl, rfl⟩ hc.slab_align hc.slab_big
            (fun y hy => (hc.nodes y hy).below),
          by rw [← hh]; exact hh0, fun h => h, xas_set_err_index _ _, xas_set_err_shift _ _,
          xas_set_err_sibs _ _, Or.inl ⟨rfl, xas_set_err_node _ _, ?_⟩⟩
        rw [xas_set_err_alloc]
        assumption
      · rw [e1]
        simp only []
        rw [if_neg (by have := hib.core.slab_big; omega)]
        have hhb : head = kb.xa_head := by rw [hsm.1, hh]
        have hmem1 : ∀ y, y ≠ kb.slab_next → k1.mem y = kb.mem y := by
          intro y hy
          exact a13 y hy (fun h => absurd hx h)
        rw [hhb] at hh0 hn hl hgt ⊢
        rw [← max_index_sameMem hsm] at hgt
        obtain ⟨s1, s2, s3, s4, s5, s6⟩ :=
          expand_step hib hh0 hmax hgt (fun hq => by rw [hsm.2.2]; exact (hn hq).2)
            (fun hq => (hl hq).2) a2 a3 a7
            (by rw [a9, hx]) a11 a12 hmem1
        generalize xas_expand_link k1 kb.slab_next kb.xa_head = kE at *
        rw [s3]
        obtain ⟨k', L', xas', r, r1, r2, r3, r4, r5, r6, r7, r8⟩ :=
          ih kE _ ({ xas with xa_alloc := 0 }) kE.xa_head kb.slab_next (shift + XA_CHUNK_SHIFT)
            s1.inv (Or.inl rfl) hx rfl (by rw [s2]; omega)
            (fun _ => ⟨by rw [s2]; omega, by
              have : kE.xa_head - 2 = kb.slab_next := by rw [s2]; omega
              rw [this, s5]⟩)
            (fun hq => by rw [s4] at hq; exact absurd hq (by simp))
            (by simp only [XA_CHUNK_SHIFT]; omega)
        have hk0 : Keeps max k kb L L :=
          ⟨hib, sameMem_sim hsm, hsm.2.1, fun hm => sameMem_nomulti hm hsm,
            fun hp => sameMem_pretight hp hsm⟩
        exact ⟨k', L', xas', r, r1, keeps_trans hk0 (keeps_trans s1 r2), r3, fun _ => r4 s4,
          r5, r6, r7, r8⟩
    · rw [if_neg hgt]
      subst hh
      refine ⟨k, L, _, _, rfl, keeps_refl max hi, hh0, fun h => h, rfl, rfl, rfl,
        Or.inr ⟨shift, rfl, hp, ?_, ?_⟩⟩
      · intro hq
        have hr := hc.nodes _ (hc.head_node hq).1
        refine ⟨(hn hq).1, (hn hq).2, ?_⟩
        have := (max_index_node_iff k k.xa_head max hq hr.shift6 hr.shift_le hmax).not.1 hgt
        omega
      · intro hq
        refine ⟨(hl hq).1, (hl hq).2, ?_⟩
        rw [max_index_leaf k _ hq] at hgt
        omega

/-- Linking the node handed out below slot `o` of the node `x` on the walk of
`i`, seen from the state `kb` whose next cache node is the node handed out. -/
theorem add_child_step {kb k1 k2 : Kernel} {L : Nat → Prop} {x o i : Nat} (hib : Inv kb L)
    (hv : Visits kb i x) (ho64 : o < 64) (hnull : (kb.mem x).slots o = 0)
    (hsh : 0 < (kb.mem x).shift) (hoff : o = get_offset i (kb.mem x))
    (a1 : k1.xa_head = kb.xa_head) (a2 : k1.xa_flags = kb.xa_flags)
    (a3 : k1.slab_next = kb.slab_next + 576)
    (a7 : (k1.mem kb.slab_next).shift = (kb.mem x).shift - 6)
    (a8 : (k1.mem kb.slab_next).offset = o)
    (a9 : (k1.mem kb.slab_next).parent = x)
    (a10 : (k1.mem kb.slab_next).count = 0)
    (a11 : (k1.mem kb.slab_next).slots = fun _ => 0)
    (a12 : (k1.mem kb.slab_next).tags = fun _ => 0)
    (a13 : ∀ y, y ≠ kb.slab_next → y ≠ x → k1.mem y = kb.mem y)
    (a14 : k1.mem x = { kb.mem x with count := ((kb.mem x).count + 1) % 256 })
    (hk2 : k1.setNode x { k1.mem x with slots := fun j =>
      if j = o then kb.slab_next + 2 else (k1.mem x).slots j } = k2) :
    Keeps i kb k2 L (fun y => L y ∨ y = kb.slab_next) ∧ Visits k2 i kb.slab_next ∧
    (k2.mem kb.slab_next).slots = (fun _ => 0) ∧
    (k2.mem kb.slab_next).shift = (kb.mem x).shift - 6 := by
  have hc := hib.core
  have hx := visits_live hc hv
  have hnx := hc.nodes x hx
  have hsh6 := hnx.shift6
  have hxne : x ≠ kb.slab_next := live_lt_slab hc hx
  have m_c : k2.mem kb.slab_next = k1.mem kb.slab_next := by
    rw [← hk2]
    simp [Ne.symm hxne]
  have m_x : k2.mem x = { k1.mem x with slots := fun j =>
      if j = o then kb.slab_next + 2 else (k1.mem x).slots j } := by
    rw [← hk2]
    simp
  have m_o : ∀ y, y ≠ kb.slab_next → y ≠ x → k2.mem y = kb.mem y := by
    intro y hy1 hy2
    rw [← hk2]
    simp only [setNode_mem, if_neg hy2]
    exact a13 y hy1 hy2
  have h_head : k2.xa_head = kb.xa_head := by rw [← hk2]; exact a1
  have h_flags : k2.xa_flags = kb.xa_flags := by rw [← hk2]; exact a2
  have h_slab : k2.slab_next = kb.slab_next + 576 := by rw [← hk2]; exact a3
  have hsl2 : (k2.mem x).slots = fun j =>
      if j = o then kb.slab_next + 2 else (kb.mem x).slots j := by
    rw [m_x, a14]
  have hi2 : Inv k2 (fun y => L y ∨ y = kb.slab_next) :=
    inv_add_child hib hx ho64 hnull (by omega) rfl h_head h_flags h_slab
      (by rw [m_c, a7]) (by rw [m_c, a8]) (by rw [m_c, a9]) (by rw [m_c, a10])
      (by rw [m_c, a11]) (by rw [m_c, a12]) hsl2
      (by rw [m_x, a14]) (by rw [m_x, a14]) (by rw [m_x, a14]) (by rw [m_x, a14])
      (by rw [m_x, a14]) m_o
  have hs2 : Sim kb k2 :=
    sim_add_child hib hx ho64 hnull rfl h_head (by rw [m_c, a11]) (by rw [m_c, a12]) hsl2
      (by rw [m_x, a14]) (by rw [m_x, a14]) m_o
  have hslc : (k2.mem kb.slab_next).slots = fun _ => 0 := by rw [m_c, a11]
  have hshx : (k2.mem x).shift = (kb.mem x).shift := by rw [m_x, a14]
  have hv2x : Visits k2 i x := by
    refine visits_extend hc h_head ?_ ?_ hv
    · intro y hy
      by_cases hyx : y = x
      · rw [hyx]; exact hshx
      · rw [m_o y (live_lt_slab hc hy) hyx]
    · intro y q hy hne
      by_cases hyx : y = x
      · rw [hyx] at hne ⊢
        rw [hsl2]
        have : q ≠ o := by
          intro hq
          rw [hq] at hne
          exact hne hnull
        simp [this]
      · rw [m_o y (live_lt_slab hc hy) hyx]
  have hv2 : Visits k2 i kb.slab_next := by
    refine Visits.step x _ hv2x ?_ (is_node_add2 _ hc.slab_align hc.slab_big)
    have : get_offset i (k2.mem x) = o := by
      rw [hoff]
      simp [get_offset, hshx]
    rw [this, hsl2]
    simp
  refine ⟨⟨hi2, hs2, h_flags, fun hm => nomulti_add_child hib hm rfl hslc hsl2 hshx m_o,
    fun hp => pretight_add_child hc hnull (fun h => live_lt_slab hc h rfl) h_head hsl2 hshx
      m_o hv2 hp⟩, hv2, hslc, ?_⟩
  rw [m_c, a7]

/-- The loop of `xas_create` below a node on the walk of index `i`, with any
node cache: it keeps the invariant and what every index reads, and it ends
with `-ENOMEM` or at the slot of `i`. -/
theorem xas_create_loop_gen (i : Nat) :
    ∀ fuel k L xas x, Inv k L → Spare k L xas.xa_alloc → xas.xa_shift = 0 →
      Visits k i x → xas.xa_node = x →
      xas.xa_offset = canon (k.mem x) (get_offset i (k.mem x)) →
      (((k.mem x).slots xas.xa_offset = 0 ∨
          xa_is_node ((k.mem x).slots xas.xa_offset) = true) →
        xas.xa_index = i ∧ xas.xa_offset = get_offset i (k.mem x)) →
      (k.mem x).shift + 6 < 6 * fuel →
      ∃ k' L' xas' r,
        xas_create_loop 0 fuel k xas ((k.mem x).shift : Int) ((k.mem x).slots xas.xa_offset)
            (x, xas.xa_offset) = some (k', xas', r) ∧
        Keeps i k k' L L' ∧ xas'.xa_shift = 0 ∧ xas'.xa_sibs = xas.xa_sibs ∧
        ((xas'.xa_node = XA_ERROR (-ENOMEM) ∧ xas'.xa_alloc = 0 ∧ xas'.xa_index = i ∧ r = 0) ∨
         (∃ y, r = (k'.mem y).slots xas'.xa_offset ∧
            Loc k' i (Place.slot y xas'.xa_offset) ∧ xas'.xa_node = y ∧
            Spare k' L' xas'.xa_alloc ∧
            ((k'.mem y).shift = 0 ∨ (k'.mem y).slots xas'.xa_offset ≠ 0))) := by
  intro fuel
  induction fuel with
  | zero => intro k L xas x _ _ _ _ _ _ _ h; omega
  | succ f ih =>
    intro k L xas x hi hp hs0 hv hnode hoff hidx hf
    have hc := hi.core
    have hx := visits_live hc hv
    have hnx := hc.nodes x hx
    have ho64 : xas.xa_offset < 64 := by
      rw [hoff]
      exact canon_lt hc hx _ (get_offset_lt _ _)
    have hsh60 := hnx.shift_le
    have hsh6 := hnx.shift6
    rw [xas_create_loop, to_uint_cast _ (by omega)]
    by_cases hpos : (k.mem x).shift > 0
    · rw [if_pos hpos]
      simp only []
      have hsub : ((k.mem x).shift : Int) - ((XA_CHUNK_SHIFT : Nat) : Int)
          = (((k.mem x).shift - 6 : Nat) : Int) := by
        simp only [XA_CHUNK_SHIFT]
        omega
      rw [hsub]
      by_cases hnull : (k.mem x).slots xas.xa_offset = 0
      · -- a child is missing
        rw [if_pos hnull]
        obtain ⟨hidx1, hidx2⟩ := hidx (Or.inl hnull)
        have hx0 : x ≠ 0 := by have := hnx.big; omega
        rcases xas_alloc_gen hi xas (to_uint (((k.mem x).shift - 6 : Nat) : Int))
            (by rw [hnode]; exact hnx.align) (fun _ => by rw [hnode]; exact hx) hp with
          ⟨e1, ha0⟩ | ⟨kb, k1, e1, hsm, hib, a1, a2, a3, a7, a8, a9, a10, a11, a12, a13, a14⟩
        · -- the cache refuses
          rw [e1]
          simp only []
          rw [if_pos trivial]
          refine ⟨_, L, _, _, rfl,
            keeps_sameMem hi ⟨rfl, rfl, rfl⟩ hc.slab_align hc.slab_big
              (fun y hy => (hc.nodes y hy).below),
            by rw [xas_set_err_shift]; exact hs0, xas_set_err_sibs _ _,
            Or.inl ⟨xas_set_err_node _ _, by rw [xas_set_err_alloc]; exact ha0,
              by rw [xas_set_err_index]; exact hidx1, hnull⟩⟩
        · rw [e1]
          simp only []
          rw [if_neg (by have := hib.core.slab_big; omega)]
          rw [to_uint_cast _ (by omega)] at a7
          rw [hnode] at a8 a9 a13 a14
          rw [if_pos hx0] at a8
          have a14' := a14 hx0
          have hmk : xa_mk_node kb.slab_next = kb.slab_next + 2 :=
            xa_mk_node_eq _ hib.core.slab_align
          rw [hmk, slot_store_node _ _ _ _ hx0]
          generalize hk2 : k1.setNode x { k1.mem x with slots := fun j =>
            if j = xas.xa_offset then kb.slab_next + 2 else (k1.mem x).slots j } = k2
          have hkm := hsm.2.2
          have hsm256 : ((k.mem x).shift - 6) % 256 = (k.mem x).shift - 6 := by omega
          obtain ⟨s1, s2, s3, s4⟩ :=
            add_child_step hib (sameShape_visits (sameMem_sameShape hsm) hv) ho64
              (by rw [hkm]; exact hnull) (by rw [hkm]; exact hpos)
              (by rw [hkm]; exact hidx2) a1 a2 a3 (by rw [hkm, a7, hsm256]) a8 a9 a10 a11 a12
              (fun y h1 h2 => a13 y h1 (fun _ => h2)) a14' hk2
          rw [hkm] at s4
          have hcl2 : (fun y => L y ∨ y = kb.slab_next) kb.slab_next := Or.inr rfl
          obtain ⟨d1, d2, d3, d4, d5, d6, d7⟩ :=
            descend_pos s1.inv.core hcl2 ({ xas with xa_alloc := 0 } : xa_state)
          have hz : (k2.mem kb.slab_next).slots
              (xas_descend k2 { xas with xa_alloc := 0 } kb.slab_next).1.xa_offset = 0 := by
            rw [s3]
          obtain ⟨d4a, d4b⟩ := d4 (Or.inl hz)
          simp only at d3 d4a d4b d5 d6 d7
          obtain ⟨k', L', xas', r, r1, r2, r3, r4, r5⟩ :=
            ih k2 _ (xas_descend k2 { xas with xa_alloc := 0 } kb.slab_next).1 kb.slab_next
              s1.inv (Or.inl d7) (by rw [d5, hs0]) s2 d2 (by rw [d3, hidx1])
              (fun _ => ⟨by rw [d4a, hidx1], by rw [d4b, hidx1]⟩) (by rw [s4]; omega)
          have hk0 : Keeps i k kb L L :=
            ⟨hib, sameMem_sim hsm, hsm.2.1, fun hm => sameMem_nomulti hm hsm,
              fun hp => sameMem_pretight hp hsm⟩
          refine ⟨k', L', xas', r, ?_, keeps_trans hk0 (keeps_trans s1 r2), r3,
            by rw [r4, d6], r5⟩
          rw [← r1, s4, d1]
      · rw [if_neg hnull]
        by_cases hn : xa_is_node ((k.mem x).slots xas.xa_offset) = true
        · -- go down
          rw [if_pos hn]
          obtain ⟨hidx1, hidx2⟩ := hidx (Or.inr hn)
          obtain ⟨e1, e2, e3⟩ := is_node_split _ hn
          rw [to_node_def]
          have hn2 : xa_is_node ((k.mem x).slots xas.xa_offset - 2 + 2) = true := by
            rw [← e1]
            exact hn
          have hslot : (k.mem x).slots (get_offset i (k.mem x)) =
              (k.mem x).slots xas.xa_offset - 2 + 2 := by
            rw [← hidx2]
            exact e1
          obtain ⟨s1, s2, s3, s4, _⟩ := visits_child_shift hc hv hslot hn2
          have hvc := Visits.step x _ hv hslot hn2
          obtain ⟨d1, d2, d3, d4, d5, d6, d7⟩ := descend_pos hc s4 xas
          have hshc : (((k.mem x).shift - 6 : Nat) : Int) =
              (((k.mem ((k.mem x).slots xas.xa_offset - 2)).shift : Nat) : Int) := by
            omega
          obtain ⟨k', L', xas', r, r1, r2, r3, r4, r5⟩ :=
            ih k L (xas_descend k xas ((k.mem x).slots xas.xa_offset - 2)).1 _ hi
              (by rw [d7]; exact hp) (by rw [d5, hs0]) hvc d2 (by rw [d3, hidx1])
              (fun hz => by
                obtain ⟨q1, q2⟩ := d4 hz
                exact ⟨by rw [q1, hidx1], by rw [q2, hidx1]⟩)
              (by omega)
          refine ⟨k', L', xas', r, ?_, r2, r3, by rw [r4, d6], r5⟩
          rw [← r1, d1, hshc]
        · -- an entry is in the way
          rw [if_neg hn]
          simp at hn
          refine ⟨k, L, xas, _, rfl, keeps_refl i hi, hs0, rfl,
            Or.inr ⟨x, rfl, loc_slot_iff.2 ⟨hv, hoff, hn⟩, hnode, hp, Or.inr hnull⟩⟩
    · rw [if_neg hpos]
      have h0 : (k.mem x).shift = 0 := by omega
      refine ⟨k, L, xas, _, rfl, keeps_refl i hi, hs0, rfl,
        Or.inr ⟨x, rfl, loc_slot_iff.2 ⟨hv, hoff, leaf_no_node hc hx h0 _ ho64⟩, hnode, hp,
          Or.inl h0⟩⟩

theorem enomem_neg : (-ENOMEM : Int) < 0 := by
  decide

/-- `xas_create` from the top of the tree for a single-index cursor, with any
node cache: it keeps the invariant and what every index reads, and it ends
with `-ENOMEM` or at the place of the index. -/
theorem xas_create_top_gen {k : Kernel} {L : Nat → Prop} (hi : Inv k L)
    (i fuel : Nat) (xas : xa_state) (hi64 : i < 2 ^ 64) (hidx : xas.xa_index = i)
    (hs0 : xas.xa_shift = 0) (hsib : xas.xa_sibs = 0) (hp : Spare k L xas.xa_alloc)
    (htop : xas_top xas.xa_node = true) (hf : 14 ≤ fuel) :
    ∃ k' L' xas' r, xas_create fuel k xas = some (k', xas', r) ∧
      Keeps i k k' L L' ∧ xas'.xa_shift = 0 ∧ xas'.xa_sibs = 0 ∧
      ((xas'.xa_node = XA_ERROR (-ENOMEM) ∧ xas'.xa_alloc = 0 ∧ xas'.xa_index = i ∧ r = 0) ∨
       (∃ w, r = entry_at k' w ∧ Loc k' i w ∧ xas'.xa_node = w.node ∧ w ≠ Place.bounds ∧
          Spare k' L' xas'.xa_alloc ∧
          (∀ y o, w = Place.slot y o → xas'.xa_offset = o ∧
            ((k'.mem y).shift = 0 ∨ (k'.mem y).slots o ≠ 0)))) := by
  have hc := hi.core
  obtain ⟨f, rfl⟩ : ∃ f, fuel = f + 1 := ⟨fuel - 1, by omega⟩
  unfold xas_create
  rw [if_pos htop]
  simp only [xa_head]
  have hmax : xas_max { xas with xa_node := 0 } = i :=
    (xas_max_single ({ xas with xa_node := 0 }) hs0 hsib).trans hidx
  rw [show xas_create_loop xas.xa_shift = xas_create_loop 0 from by rw [hs0]]
  by_cases hh0 : k.xa_head = 0
  · -- empty array
    unfold xas_expand
    rw [if_pos hh0, hmax]
    by_cases hi0 : i = 0
    · rw [if_pos hi0]
      simp only []
      rw [if_neg (by omega), xas_create_loop]
      rw [if_neg (by simp [to_uint])]
      refine ⟨k, L, _, _, rfl, keeps_refl i hi, hs0, hsib,
        Or.inr ⟨Place.head, rfl, ⟨by rw [hh0]; decide, hi0⟩, rfl, by simp, hp, by simp⟩⟩
    · rw [if_neg hi0]
      obtain ⟨s, e1, s6, s60, sb⟩ := xas_expand_shift_spec i hi64 (f + 1) 0 (by omega) (by omega)
        (by omega)
      rw [e1]
      simp only []
      rw [if_neg (by omega), xas_create_loop]
      rw [to_uint_cast _ (by simp only [XA_CHUNK_SHIFT]; omega),
        if_pos (by simp only [XA_CHUNK_SHIFT]; omega)]
      simp only []
      rw [if_pos hh0]
      have hsub : (((s + XA_CHUNK_SHIFT : Nat) : Int) - ((XA_CHUNK_SHIFT : Nat) : Int))
          = ((s : Nat) : Int) := by
        simp only [XA_CHUNK_SHIFT]
        omega
      rw [hsub]
      rcases xas_alloc_gen hi ({ xas with xa_node := 0 } : xa_state) (to_uint ((s : Nat) : Int))
          (by simp) (fun h => absurd rfl h) hp with
        ⟨e2, ha0⟩ | ⟨kb, k1, e2, hsm, hib, a1, a2, a3, a7, a8, a9, a10, a11, a12, a13, a14⟩
      · -- the cache refuses
        rw [e2]
        simp only []
        rw [if_pos trivial]
        refine ⟨_, L, _, _, rfl,
          keeps_sameMem hi ⟨rfl, rfl, rfl⟩ hc.slab_align hc.slab_big
            (fun y hy => (hc.nodes y hy).below),
          by rw [xas_set_err_shift]; exact hs0, by rw [xas_set_err_sibs]; exact hsib,
          Or.inl ⟨xas_set_err_node _ _, by rw [xas_set_err_alloc]; exact ha0,
            by rw [xas_set_err_index]; exact hidx, hh0⟩⟩
      · rw [e2]
        simp only []
        rw [if_neg (by have := hib.core.slab_big; omega)]
        rw [to_uint_cast _ (by omega)] at a7
        have hmk : xa_mk_node kb.slab_next = kb.slab_next + 2 :=
          xa_mk_node_eq _ hib.core.slab_align
        rw [hmk, slot_store_head]
        generalize hk2 : ({ k1 with xa_head := kb.slab_next + 2 } : Kernel) = k2
        have m_all : ∀ y, k2.mem y = k1.mem y := by
          intro y
          rw [← hk2]
        have h_head : k2.xa_head = kb.slab_next + 2 := by rw [← hk2]
        have h_flags : k2.xa_flags = kb.xa_flags := by rw [← hk2]; exact a2
        have h_slab : k2.slab_next = kb.slab_next + 576 := by rw [← hk2]; exact a3
        have hs256 : s % 256 = s := by omega
        have hhb : kb.xa_head = 0 := by rw [hsm.1, hh0]
        have hi2 : Inv k2 (fun y => y = kb.slab_next) :=
          inv_add_root hib hhb rfl s6 s60 h_head h_flags h_slab (by rw [m_all, a7, hs256])
            (by rw [m_all, a9]) (by rw [m_all, a10]) (by rw [m_all, a11]) (by rw [m_all, a12])
        have hs2 : Sim kb k2 :=
          sim_add_root hib hhb rfl h_head (by rw [m_all, a11]) (by rw [m_all, a12])
        have hshc : (k2.mem kb.slab_next).shift = s := by rw [m_all, a7, hs256]
        have hv2 : Visits k2 i kb.slab_next :=
          Visits.root _ h_head (is_node_add2 _ hib.core.slab_align hib.core.slab_big) (by
            rw [hshc]
            simp only [XA_CHUNK_MASK]
            omega)
        obtain ⟨d1, d2, d3, d4, d5, d6, d7⟩ :=
          descend_pos hi2.core (show (fun y => y = kb.slab_next) kb.slab_next from rfl)
            ({ xas with xa_node := 0, xa_alloc := 0 } : xa_state)
        have hslc : (k2.mem kb.slab_next).slots = fun _ => 0 := by rw [m_all, a11]
        have hz : (k2.mem kb.slab_next).slots
            (xas_descend k2 { xas with xa_node := 0, xa_alloc := 0 } kb.slab_next).1.xa_offset
              = 0 := by
          rw [hslc]
        obtain ⟨d4a, d4b⟩ := d4 (Or.inl hz)
        simp only at d3 d4a d4b d5 d6 d7
        have hp2 : PreTight k2 (fun y => y = kb.slab_next) i := by
          refine ⟨fun x hx => Or.inr (by rw [hx]; exact hv2), fun _ => Or.inr ?_⟩
          have e : k2.xa_head - 2 = kb.slab_next := by rw [h_head]; omega
          rw [e, hshc]
          rcases xas_expand_shift_min i (f + 1) 0 s e1 with h | h
          · rw [h, Nat.shiftRight_zero]
            omega
          · exact shr_pos_of_ge _ _ h.1 h.2
        have hfuel : (k2.mem kb.slab_next).shift + 6 < 6 * f := by
          rw [hshc]
          omega
        obtain ⟨k', L', xas', r, r1, r2, r3, r4, r5⟩ :=
          xas_create_loop_gen i f k2 _
            (xas_descend k2 { xas with xa_node := 0, xa_alloc := 0 } kb.slab_next).1
            kb.slab_next hi2 (Or.inl d7) (by rw [d5, hs0]) hv2 d2 (by rw [d3, hidx])
            (fun _ => ⟨by rw [d4a, hidx], by rw [d4b, hidx]⟩) hfuel
        have hk0 : Keeps i k kb L L :=
          ⟨hib, sameMem_sim hsm, hsm.2.1, fun hm => sameMem_nomulti hm hsm,
            fun hp => sameMem_pretight hp hsm⟩
        have hk1 : Keeps i kb k2 L (fun y => y = kb.slab_next) :=
          ⟨hi2, hs2, h_flags, fun _ => nomulti_add_root hslc, fun _ => hp2⟩
        refine ⟨k', L', xas', r, ?_, keeps_trans hk0 (keeps_trans hk1 r2), r3,
          by rw [r4, d6, hsib], ?_⟩
        · rw [← r1, hshc, d1]
        · rcases r5 with r5 | ⟨y, q1, q2, q3, q4, q5⟩
          · exact Or.inl r5
          · refine Or.inr ⟨Place.slot y xas'.xa_offset, q1, q2, q3, by simp, q4, ?_⟩
            intro y' o' hw
            simp only [Place.slot.injEq] at hw
            rw [← hw.1, ← hw.2]
            exact ⟨rfl, q5⟩
  · -- a head is there already
    unfold xas_expand
    rw [if_neg hh0, hmax]
    obtain ⟨k1, L1, xas1, r, e1, r2, r3, r4, r5, r6, r7, r8⟩ :=
      xas_expand_loop_gen i hi64 (f + 1) k L { xas with xa_node := 0 } k.xa_head
        (if xa_is_node k.xa_head then xa_to_node k.xa_head else 0)
        (if xa_is_node k.xa_head then (k.mem (xa_to_node k.xa_head)).shift + XA_CHUNK_SHIFT else 0)
        hi hp rfl rfl hh0
        (fun hq => by simp [hq, to_node_def]) (fun hq => by simp [hq]) (by omega)
    simp only [] at e1 r5 r6 r7 ⊢
    rw [e1]
    simp only []
    rcases r8 with ⟨rfl, q1, q2⟩ | ⟨shift1, rfl, q0, q1, q2⟩
    · rw [if_pos enomem_neg]
      exact ⟨k1, L1, xas1, 0, rfl, r2, by rw [r6, hs0], by rw [r7, hsib],
        Or.inl ⟨q1, q2, by rw [r5, hidx], rfl⟩⟩
    rw [if_neg (by omega)]
    have hc1 := r2.inv.core
    by_cases hq : xa_is_node k1.xa_head = true
    · obtain ⟨p1, p2, p3⟩ := q1 hq
      have hr := hc1.nodes _ (hc1.head_node hq).1
      obtain ⟨e1', e2', e3'⟩ := is_node_split _ hq
      rw [xas_create_loop, p2, to_uint_cast _ (by have := hr.shift_le; omega),
        if_pos (by omega)]
      simp only []
      rw [if_neg r3, if_pos hq, to_node_def]
      have hsub : (((k1.mem (k1.xa_head - 2)).shift + 6 : Nat) : Int) -
          ((XA_CHUNK_SHIFT : Nat) : Int) = (((k1.mem (k1.xa_head - 2)).shift : Nat) : Int) := by
        simp only [XA_CHUNK_SHIFT]
        omega
      rw [hsub]
      have hv1 : Visits k1 i (k1.xa_head - 2) :=
        Visits.root _ e1' (by rw [← e1']; exact hq) (by simp only [XA_CHUNK_MASK]; omega)
      obtain ⟨d1, d2, d3, d4, d5, d6, d7⟩ := descend_pos hc1 (hc1.head_node hq).1 xas1
      have hfuel : (k1.mem (k1.xa_head - 2)).shift + 6 < 6 * f := by
        have := hr.shift_le
        omega
      obtain ⟨k', L', xas', r', s1, s2, s3, s4, s5⟩ :=
        xas_create_loop_gen i f k1 L1 (xas_descend k1 xas1 (k1.xa_head - 2)).1
          (k1.xa_head - 2) r2.inv (by rw [d7]; exact q0) (by rw [d5, r6, hs0]) hv1 d2
          (by rw [d3, r5, hidx])
          (fun hz => by
            obtain ⟨z1, z2⟩ := d4 hz
            exact ⟨by rw [z1, r5, hidx], by rw [z2, r5, hidx]⟩)
          hfuel
      refine ⟨k', L', xas', r', ?_, keeps_trans r2 s2, s3, by rw [s4, d6, r7, hsib], ?_⟩
      · rw [← s1, d1]
      · rcases s5 with s5 | ⟨y, t1, t2, t3, t4, t5⟩
        · exact Or.inl s5
        · refine Or.inr ⟨Place.slot y xas'.xa_offset, t1, t2, t3, by simp, t4, ?_⟩
          intro y' o' hw
          simp only [Place.slot.injEq] at hw
          rw [← hw.1, ← hw.2]
          exact ⟨rfl, t5⟩
    · simp at hq
      obtain ⟨p1, p2, p3⟩ := q2 hq
      rw [xas_create_loop, p2]
      rw [if_neg (by simp [to_uint])]
      exact ⟨k1, L1, xas1, _, rfl, r2, by rw [r6, hs0], by rw [r7, hsib],
        Or.inr ⟨Place.head, rfl, ⟨hq, p3⟩, p1, by simp, q0, by simp⟩⟩

/-- A state that agrees with `k` on the head, the flags and the live nodes. -/
theorem keeps_live {i : Nat} {k k' : Kernel} {L : Nat → Prop} (hi : Inv k L)
    (hhead : k'.xa_head = k.xa_head) (hflags : k'.xa_flags = k.xa_flags)
    (hmem : ∀ y, L y → k'.mem y = k.mem y)
    (h4 : k'.slab_next % 4 = 0) (hbig : 4096 ≤ k'.slab_next)
    (hbelow : ∀ y, L y → y < k'.slab_next) : Keeps i k k' L L := by
  have hc := hi.core
  refine ⟨inv_congr hi hhead hflags hmem h4 hbig hbelow, ?_, hflags, ?_, ?_⟩
  · intro j w hl
    obtain ⟨a, b, c⟩ := loc_congr hc hhead hflags hmem hl
    exact ⟨w, a, b, fun t _ => c t⟩
  · intro hm
    exact nomulti_sub hm (fun _ hz => hz) (fun z hz => by rw [hmem z hz])
      (fun z hz => by rw [hmem z hz])
  · intro hp
    refine ⟨?_, ?_⟩
    · intro x hx
      rcases hp.1 x hx with h1 | h1
      · obtain ⟨o, ho, hs⟩ := h1
        exact Or.inl ⟨o, ho, by rw [hmem x hx]; exact hs⟩
      · exact Or.inr (visits_extend hc hhead (fun y hy => by rw [hmem y hy])
          (fun y q hy _ => by rw [hmem y hy]) h1)
    · intro hq
      rw [hhead] at hq ⊢
      have hr := (hc.head_node hq).1
      rcases hp.2 hq with h1 | h1
      · obtain ⟨o, h0, ho, hs⟩ := h1
        exact Or.inl ⟨o, h0, ho, by rw [hmem _ hr]; exact hs⟩
      · right
        rw [hmem _ hr]
        exact h1

theorem xas_store_tail_invalid (fuel : Nat) (k : Kernel) (xas : xa_state) (first entry : Nat)
    (h : xas_invalid xas = true) :
    xas_store_tail fuel k xas first entry = some (k, xas, first) := by
  unfold xas_store_tail
  simp only [h, if_true]

theorem xas_nomem_refused (k : Kernel) (xas : xa_state) (gfp : Nat)
    (h : xas.xa_node = XA_ERROR (-ENOMEM)) (hg : k.slab_grant k.slab_calls gfp = false) :
    xas_nomem k xas gfp =
      ({ k with slab_calls := k.slab_calls + 1 }, { xas with xa_alloc := 0 }, false) := by
  have hnn : ¬ (xas.xa_node ≠ XA_ERROR (-ENOMEM)) := fun h' => h' h
  unfold xas_nomem
  rw [if_neg hnn]
  simp only [kmem_cache_alloc, hg, Bool.false_eq_true, if_false, if_true]

theorem xas_nomem_aligned (k : Kernel) (xas : xa_state) (gfp : Nat)
    (h4 : xas.xa_node % 4 = 0) :
    ∃ k', xas_nomem k xas gfp = (k', { xas with xa_alloc := 0 }, false) ∧ SameMem k k' ∧
      k'.slab_next = k.slab_next := by
  have hne : xas.xa_node ≠ XA_ERROR (-ENOMEM) := by
    intro h
    have := xa_error_enomem_mod
    rw [← h] at this
    omega
  unfold xas_nomem
  rw [if_pos hne]
  unfold xas_destroy
  by_cases ha : xas.xa_alloc = 0
  · rw [if_pos ha]
    refine ⟨k, ?_, ⟨rfl, rfl, rfl⟩, rfl⟩
    have hx : ({ xas with xa_alloc := 0 } : xa_state) = xas := by
      cases xas
      simp only at ha
      simp [ha]
    rw [hx]
  · rw [if_neg ha]
    exact ⟨_, rfl, ⟨rfl, rfl, rfl⟩, rfl⟩

theorem sameMem_loc {k k' : Kernel} (h : SameMem k k') {j : Nat} {w : Place}
    (hl : Loc k j w) :
    Loc k' j w ∧ entry_at k' w = entry_at k w ∧ ∀ t, tag_at k' t w = tag_at k t w := by
  refine ⟨sameShape_loc (sameMem_sameShape h) hl, ?_, ?_⟩
  · cases w with
    | head => exact h.1
    | bounds => rfl
    | slot z r =>
      show (k'.mem z).slots r = (k.mem z).slots r
      rw [h.2.2]
  · intro t
    cases w with
    | head =>
      show xa_tagged k' t = xa_tagged k t
      exact xa_tagged_congr t h.2.1
    | bounds => rfl
    | slot z r =>
      show node_get_tag (k'.mem z) r t = node_get_tag (k.mem z) r t
      rw [h.2.2]

/-- One round of the retry loop of `xa_store` for a non-NULL entry, with any
node cache, once `xas_create` is known to keep the invariant and to end with
`-ENOMEM` or at the place of the index: the round asks for a retry with a
spare node in the cursor, or it gives up with `-ENOMEM`, or it has stored the
entry. -/
theorem xa_store_round_core {k : Kernel} {L : Nat → Prop}
    (i e gfp F : Nat) (xas : xa_state)
    (he : xa_is_internal e = false) (he0 : e ≠ 0) (hf : 14 ≤ F)
    (hcr : ∃ k' L' xas' r, xas_create F k xas = some (k', xas', r) ∧
      Keeps i k k' L L' ∧ xas'.xa_shift = 0 ∧ xas'.xa_sibs = 0 ∧
      ((xas'.xa_node = XA_ERROR (-ENOMEM) ∧ xas'.xa_alloc = 0 ∧ xas'.xa_index = i ∧ r = 0) ∨
       (∃ w, r = entry_at k' w ∧ Loc k' i w ∧ xas'.xa_node = w.node ∧ w ≠ Place.bounds ∧
          Spare k' L' xas'.xa_alloc ∧
          (∀ y o, w = Place.slot y o → xas'.xa_offset = o ∧
            ((k'.mem y).shift = 0 ∨ (k'.mem y).slots o ≠ 0))))) :
    ∃ k' L' xas' curr b, xa_store_round F e gfp k xas = some (k', xas', curr, b) ∧
      Inv k' L' ∧ k'.xa_flags = k.xa_flags ∧ (NoMulti k L → NoMulti k' L') ∧
      ((b = true ∧ Sim k k' ∧ (PreTight k L i → PreTight k' L' i) ∧
          xas'.xa_node = XAS_RESTART ∧ xas'.xa_index = i ∧ xas'.xa_shift = 0 ∧
          xas'.xa_sibs = 0 ∧ Spare k' L' xas'.xa_alloc ∧ curr = 0) ∨
       (b = false ∧ xas'.xa_node = XA_ERROR (-ENOMEM) ∧ Sim k k' ∧
          (PreTight k L i → PreTight k' L' i) ∧ curr = 0) ∨
       (b = false ∧ xas'.xa_node % 4 = 0 ∧ (∀ w0, Loc k i w0 → curr = entry_at k w0) ∧
          ∃ w, Loc k' i w ∧ entry_at k' w = e ∧
            (∀ j w1, Loc k j w1 → ∃ w2, Loc k' j w2 ∧
              (w2 ≠ w → entry_at k' w2 = entry_at k w1) ∧
              ∀ t, t < 3 → tag_at k' t w2 = tag_at k t w1) ∧
            (PreTight k L i → Tight k' L'))) := by
  obtain ⟨k1, L1, xas1, r, c1, c2, c3, c4, c5⟩ := hcr
  have hc1 := c2.inv.core
  unfold xa_store_round xas_store
  rw [if_pos he0, c1]
  simp only []
  rcases c5 with ⟨q1, q2, q3, qz⟩ | ⟨w, q1, q2, q3, q4, q5, q6⟩
  · -- `xas_create` ran out of memory
    rw [xas_store_tail_invalid _ _ _ _ _ (xas_invalid_enomem _ q1)]
    simp only []
    by_cases hg : k1.slab_grant k1.slab_calls gfp = true
    · rw [xas_nomem_grant k1 xas1 gfp q1 hg (by have := hc1.slab_big; omega)]
      simp only []
      have hk : Keeps i k1
          { k1 with mem := fun x => if x = k1.slab_next then xa_node.zero else k1.mem x,
                    slab_next := k1.slab_next + 576,
                    slab_calls := k1.slab_calls + 1 } L1 L1 := by
        refine keeps_live c2.inv rfl rfl ?_ ?_ ?_ ?_
        · intro y hy
          have := (hc1.nodes y hy).below
          show (if y = k1.slab_next then xa_node.zero else k1.mem y) = k1.mem y
          rw [if_neg (by omega)]
        · show (k1.slab_next + 576) % 4 = 0
          have := hc1.slab_align
          omega
        · show 4096 ≤ k1.slab_next + 576
          have := hc1.slab_big
          omega
        · intro y hy
          have := (hc1.nodes y hy).below
          show y < k1.slab_next + 576
          omega
      have hk2 := keeps_trans c2 hk
      refine ⟨_, L1, _, _, _, rfl, hk2.inv, hk2.flags, hk2.multi,
        Or.inl ⟨rfl, hk2.sim, hk2.pre, rfl, ?_, c3, c4, Or.inr ⟨hc1.slab_align, hc1.slab_big,
          fun y hy => (hc1.nodes y hy).below, rfl, ?_⟩, qz⟩⟩
      · show xas1.xa_index = i
        exact q3
      · show (if k1.slab_next = k1.slab_next then xa_node.zero else k1.mem k1.slab_next) = _
        rw [if_pos rfl]
    · simp only [Bool.not_eq_true] at hg
      rw [xas_nomem_refused k1 xas1 gfp q1 hg]
      simp only []
      have hk : Keeps i k1 { k1 with slab_calls := k1.slab_calls + 1 } L1 L1 :=
        keeps_sameMem c2.inv ⟨rfl, rfl, rfl⟩ hc1.slab_align hc1.slab_big
          (fun y hy => (hc1.nodes y hy).below)
      have hk2 := keeps_trans c2 hk
      exact ⟨_, L1, _, _, _, rfl, hk2.inv, hk2.flags, hk2.multi,
        Or.inr (Or.inl ⟨rfl, q1, hk2.sim, hk2.pre, qz⟩)⟩
  · -- the cursor is at the place of the index
    subst q1
    obtain ⟨k2, xas2, t1, t2, t3, t4, t5, t6, t7, t8, t9, t10, t11, t12, _⟩ :=
      xas_store_tail_nonnull c2.inv i e F xas1 w q2 q4 q3 (fun y o h => (q6 y o h).1) c4 he he0
        (by omega)
    rw [t1]
    simp only []
    have h4 : xas2.xa_node % 4 = 0 := by
      rw [t11, q3]
      cases w with
      | head => rfl
      | bounds => exact absurd rfl q4
      | slot y o => exact (loc_slot_nonzero_node hc1 q2).2
    obtain ⟨k3, n1, n2, n3⟩ := xas_nomem_aligned k2 xas2 gfp h4
    rw [n1]
    simp only []
    have hc2 := t2.core
    have hi3 : Inv k3 L1 :=
      sameMem_inv t2 n2 (by rw [n3]; exact hc2.slab_align) (by rw [n3]; exact hc2.slab_big)
        (fun y hy => by rw [n3]; exact (hc2.nodes y hy).below)
    have hl2 : Loc k2 i w := sameShape_loc t3 q2
    obtain ⟨l1, l2, _⟩ := sameMem_loc n2 hl2
    refine ⟨k3, L1, _, _, _, rfl, hi3, by rw [n2.2.1, t7, c2.flags], ?_,
      Or.inr (Or.inr ⟨rfl, h4, ?_, w, l1, by rw [l2, t4], ?_, ?_⟩)⟩
    · intro hm
      exact sameMem_nomulti (t12 (c2.multi hm) (fun y o h => (q6 y o h).2)) n2
    · intro w0 hl0
      obtain ⟨w', h1, h2, _⟩ := c2.sim i w0 hl0
      rw [← loc_unique hc1 q2 h1] at h2
      exact h2
    · intro j w1 hj
      obtain ⟨w2, h1, h2, h3⟩ := c2.sim j w1 hj
      obtain ⟨m1, m2, m3⟩ := sameMem_loc n2 (sameShape_loc t3 h1)
      refine ⟨w2, m1, ?_, ?_⟩
      · intro hne
        rw [m2, t5 w2 hne, h2]
      · intro t ht
        rw [m3, t6 t w2, h3 t ht]
    · intro hpre
      exact sameMem_tight (tight_of_pre_write hc1 (c2.pre hpre) q2 q4 t3 t4 he0 t5) n2

/-- One round of the retry loop of `xa_store` for a non-NULL entry, with any
node cache: the round asks for a retry with a spare node in the cursor, or it
gives up with `-ENOMEM`, or it has stored the entry. -/
theorem xa_store_round_gen {k : Kernel} {L : Nat → Prop} (hi : Inv k L)
    (i e gfp F : Nat) (xas : xa_state) (hi64 : i < 2 ^ 64) (hidx : xas.xa_index = i)
    (hs0 : xas.xa_shift = 0) (hsib : xas.xa_sibs = 0) (hp : Spare k L xas.xa_alloc)
    (htop : xas_top xas.xa_node = true)
    (he : xa_is_internal e = false) (he0 : e ≠ 0) (hf : 14 ≤ F) :
    ∃ k' L' xas' curr b, xa_store_round F e gfp k xas = some (k', xas', curr, b) ∧
      Inv k' L' ∧ k'.xa_flags = k.xa_flags ∧ (NoMulti k L → NoMulti k' L') ∧
      ((b = true ∧ Sim k k' ∧ (PreTight k L i → PreTight k' L' i) ∧
          xas'.xa_node = XAS_RESTART ∧ xas'.xa_index = i ∧ xas'.xa_shift = 0 ∧
          xas'.xa_sibs = 0 ∧ Spare k' L' xas'.xa_alloc ∧ curr = 0) ∨
       (b = false ∧ xas'.xa_node = XA_ERROR (-ENOMEM) ∧ Sim k k' ∧
          (PreTight k L i → PreTight k' L' i) ∧ curr = 0) ∨
       (b = false ∧ xas'.xa_node % 4 = 0 ∧ (∀ w0, Loc k i w0 → curr = entry_at k w0) ∧
          ∃ w, Loc k' i w ∧ entry_at k' w = e ∧
            (∀ j w1, Loc k j w1 → ∃ w2, Loc k' j w2 ∧
              (w2 ≠ w → entry_at k' w2 = entry_at k w1) ∧
              ∀ t, t < 3 → tag_at k' t w2 = tag_at k t w1) ∧
            (PreTight k L i → Tight k' L'))) :=
  xa_store_round_core i e gfp F xas he he0 hf
    (xas_create_top_gen hi i F xas hi64 hidx hs0 hsib hp htop hf)

/-- The retry loop of `xa_store` for a non-NULL entry, with any node cache:
when it returns, it has given up with `-ENOMEM` and every index reads what it
read before, or it has stored the entry. -/
theorem xa_store_loop_gen (i e gfp F : Nat) (hi64 : i < 2 ^ 64)
    (he : xa_is_internal e = false) (he0 : e ≠ 0) (hF : 14 ≤ F) :
    ∀ n k L xas, Inv k L → xas.xa_index = i → xas.xa_shift = 0 → xas.xa_sibs = 0 →
      Spare k L xas.xa_alloc → xas_top xas.xa_node = true →
      ∀ k' xas' curr, xa_store_loop xas_nomem F e gfp n k xas = some (k', xas', curr) →
      ∃ L', Inv k' L' ∧ k'.xa_flags = k.xa_flags ∧ (NoMulti k L → NoMulti k' L') ∧
        ((xas'.xa_node = XA_ERROR (-ENOMEM) ∧ Sim k k' ∧
            (PreTight k L i → PreTight k' L' i) ∧ curr = 0) ∨
         (xas'.xa_node % 4 = 0 ∧ (∀ w0, Loc k i w0 → curr = entry_at k w0) ∧
            ∃ w, Loc k' i w ∧ entry_at k' w = e ∧
              (∀ j w1, Loc k j w1 → ∃ w2, Loc k' j w2 ∧
                (w2 ≠ w → entry_at k' w2 = entry_at k w1) ∧
                ∀ t, t < 3 → tag_at k' t w2 = tag_at k t w1) ∧
              (PreTight k L i → Tight k' L'))) := by
  intro n
  induction n with
  | zero =>
    intro k L xas _ _ _ _ _ _ k' xas' curr h
    simp [xa_store_loop] at h
  | succ f ih =>
    intro k L xas hi hidx hs0 hsib hp htop k' xas' curr h
    obtain ⟨k1, L1, xas1, c1, b, e1, r1, r2, r3, r4⟩ :=
      xa_store_round_gen hi i e gfp F xas hi64 hidx hs0 hsib hp htop he he0 hF
    rw [xa_store_loop_round, e1] at h
    simp only [] at h
    rcases r4 with ⟨rfl, q1, q2, q3, q4, q5, q6, q7, _⟩ | ⟨rfl, q1, q2, q3⟩ |
      ⟨rfl, q1, q2, q3⟩
    · -- another round
      rw [if_pos rfl] at h
      obtain ⟨L', s1, s2, s3, s4⟩ :=
        ih k1 L1 xas1 r1 q4 q5 q6 q7 (by rw [q3]; decide) k' xas' curr h
      refine ⟨L', s1, by rw [s2, r2], fun hm => s3 (r3 hm), ?_⟩
      rcases s4 with ⟨u1, u2, u3, uz⟩ | ⟨u1, u2, w, u3, u4, u5, u6⟩
      · exact Or.inl ⟨u1, sim_trans q1 u2, fun hpre => u3 (q2 hpre), uz⟩
      · refine Or.inr ⟨u1, ?_, w, u3, u4, ?_, fun hpre => u6 (q2 hpre)⟩
        · intro w0 hl0
          obtain ⟨w', h1, h2, _⟩ := q1 i w0 hl0
          rw [u2 w' h1, h2]
        · intro j w1 hj
          obtain ⟨w', h1, h2, h3⟩ := q1 j w1 hj
          obtain ⟨w2, g1, g2, g3⟩ := u5 j w' h1
          refine ⟨w2, g1, ?_, ?_⟩
          · intro hne
            rw [g2 hne, h2]
          · intro t ht
            rw [g3 t ht, h3 t ht]
    · rw [if_neg (by simp)] at h
      simp only [Option.some.injEq, Prod.mk.injEq] at h
      obtain ⟨rfl, rfl, rfl⟩ := h
      exact ⟨L1, r1, r2, r3, Or.inl ⟨q1, q2, q3⟩⟩
    · rw [if_neg (by simp)] at h
      simp only [Option.some.injEq, Prod.mk.injEq] at h
      obtain ⟨rfl, rfl, rfl⟩ := h
      exact ⟨L1, r1, r2, r3, Or.inr ⟨q1, q2, q3⟩⟩

theorem xa_is_err_enomem : xa_is_err (XA_ERROR (-ENOMEM)) = true := by
  have h2 := xa_error_enomem_mod
  unfold xa_is_err
  rw [xa_is_internal_iff]
  exact h2

/-- `xa_store` of a non-NULL entry with any node cache: when it returns, it
has failed with `-ENOMEM` and every index reads what it read before, or it
returns the entry read before and has stored the new one. -/
theorem xa_store_gen {k : Kernel} {L : Nat → Prop} (hi : Inv k L) (i e gfp fuel : Nat)
    (hi64 : i < 2 ^ 64) (he : xa_is_internal e = false) (he0 : e ≠ 0) (hf : 14 ≤ fuel)
    {k' : Kernel} {r : Nat} (h : xa_store fuel k i e gfp = some (k', r)) :
    ∃ L', Inv k' L' ∧ k'.xa_flags = k.xa_flags ∧ (NoMulti k L → NoMulti k' L') ∧
      ((r = XA_ERROR (-ENOMEM) ∧ xa_is_err r = true ∧ Sim k k' ∧
          (PreTight k L i → PreTight k' L' i)) ∨
       (xa_is_err r = false ∧ (∀ w0, Loc k i w0 → r = entry_at k w0) ∧
          ∃ w, Loc k' i w ∧ entry_at k' w = e ∧
            (∀ j w1, Loc k j w1 → ∃ w2, Loc k' j w2 ∧
              (w2 ≠ w → entry_at k' w2 = entry_at k w1) ∧
              ∀ t, t < 3 → tag_at k' t w2 = tag_at k t w1) ∧
            (PreTight k L i → Tight k' L'))) := by
  unfold xa_store at h
  rw [he] at h
  simp only [Bool.false_eq_true, if_false] at h
  cases hl : xa_store_loop xas_nomem fuel e gfp fuel k (XA_STATE i) with
  | none =>
    rw [hl] at h
    exact absurd h (by simp)
  | some res =>
    obtain ⟨k1, xas1, curr⟩ := res
    rw [hl] at h
    simp only [Option.some.injEq, Prod.mk.injEq] at h
    obtain ⟨rfl, rfl⟩ := h
    obtain ⟨L', s1, s2, s3, s4⟩ :=
      xa_store_loop_gen i e gfp fuel hi64 he he0 hf fuel k L (XA_STATE i) hi rfl rfl rfl
        (Or.inl rfl) (show xas_top 3 = true by decide) k1 xas1 curr hl
    refine ⟨L', s1, s2, s3, ?_⟩
    rcases s4 with ⟨u1, u2, u3, _⟩ | ⟨u1, u2, u3⟩
    · left
      have hres : xas_result xas1 curr = XA_ERROR (-ENOMEM) := by
        unfold xas_result xas_error
        rw [u1, xa_err_enomem, if_pos (by decide)]
      rw [hres]
      exact ⟨rfl, xa_is_err_enomem, u2, u3⟩
    · right
      rw [xas_result_ok xas1 curr u1]
      refine ⟨?_, u2, u3⟩
      obtain ⟨w0, hl0⟩ := loc_exists hi.core i
      rw [u2 w0 hl0]
      exact entry_at_not_internal hi.core hl0

/-- The states reached by the normal API through stores that succeeded,
whatever the node cache grants, are well formed, hold single-index entries
only and nothing beyond `ULONG_MAX`, have no empty node, and their root node
holds something beyond slot 0. -/
theorem reachedOK_facts {fuel : Nat} {k : Kernel} (hr : ReachedOK fuel k) (hf : 64 ≤ fuel) :
    ∃ L, Inv k L ∧ NoMulti k L ∧ Tight k L ∧ Fits k := by
  have store_null : ∀ (k : Kernel) (i gfp : Nat) (k' : Kernel) (r : Nat),
      (∃ L, Inv k L ∧ NoMulti k L ∧ Tight k L ∧ Fits k) →
      xa_store fuel k i 0 gfp = some (k', r) →
      ∃ L, Inv k' L ∧ NoMulti k' L ∧ Tight k' L ∧ Fits k' := by
    intro k i gfp k' r ih hst
    obtain ⟨L, hi, hm, ht, hfit⟩ := ih
    obtain ⟨w0, hl0⟩ := loc_exists hi.core i
    obtain ⟨k2, L2, s1, s2, s3, _, s5, _, s7⟩ := xa_store_null hi i gfp fuel w0 hl0 hf
    rw [s1] at hst
    simp only [Option.some.injEq, Prod.mk.injEq] at hst
    obtain ⟨rfl, _⟩ := hst
    exact ⟨L2, s2, s5 hm, s7 hm ht, fits_simOff s2.core hfit s3 (loc_exists hi.core)⟩
  induction hr with
  | init addr flags base grant hb4 hb hfl =>
    exact ⟨_, inv_init addr flags base grant hb4 hb hfl, nomulti_init addr flags base grant,
      tight_init addr flags base grant _ (inv_init addr flags base grant hb4 hb hfl),
      fits_init addr flags base grant⟩
  | store k i e gfp k' r _ hi64 hst hok ih =>
    by_cases he : xa_is_internal e = true
    · simp only [xa_store, he, if_true, Option.some.injEq, Prod.mk.injEq] at hst
      rw [← hst.1]
      exact ih
    · have he' : xa_is_internal e = false := by simpa using he
      by_cases he0 : e = 0
      · subst he0
        exact store_null k i gfp k' r ih hst
      · obtain ⟨L, hi, hm, ht, hfit⟩ := ih
        obtain ⟨L', s1, _, s3, s4⟩ := xa_store_gen hi i e gfp fuel hi64 he' he0 (by omega) hst
        rcases s4 with ⟨_, u, _⟩ | ⟨_, _, w, u1, u2, u3, u4⟩
        · rw [hok] at u
          exact absurd u (by decide)
        · refine ⟨L', s1, s3 hm, u4 (tight_pre ht i), ?_⟩
          intro j w2 hj hl2
          obtain ⟨w1, hl1⟩ := loc_exists hi.core j
          obtain ⟨w3, g1, g2, _⟩ := u3 j w1 hl1
          have hw : w2 = w3 := loc_unique s1.core hl2 g1
          rw [hw]
          by_cases hne : w3 = w
          · exfalso
            rw [hne] at g1
            have := loc_inj_place s1.core (s3 hm) g1 u1 (by rw [u2]; exact he0)
            omega
          · rw [g2 hne]
            exact hfit j w1 hj hl1
  | erase k i k' r _ hi64 hst ih => exact store_null k i 0 k' r ih hst
  | set_tag k i t k' _ hi64 ht hst ih =>
    obtain ⟨L, hi, hm, htt, hfit⟩ := ih
    obtain ⟨w, hl⟩ := loc_exists hi.core i
    obtain ⟨k2, s1, s2, s3, _⟩ := xa_set_tag_spec hi i t fuel ht (by omega) w hl
    rw [s1] at hst
    obtain rfl := Option.some.inj hst
    exact ⟨L, s2, nomulti_tagOnly s3 hm, tight_tagOnly htt s3, fits_tagOnly hfit s3⟩
  | clear_tag k i t k' _ hi64 ht hst ih =>
    obtain ⟨L, hi, hm, htt, hfit⟩ := ih
    obtain ⟨w, hl⟩ := loc_exists hi.core i
    obtain ⟨k2, s1, s2, s3, _⟩ := xa_clear_tag_spec hi i t fuel ht (by omega) w hl
    rw [s1] at hst
    obtain rfl := Option.some.inj hst
    exact ⟨L, s2, nomulti_tagOnly s3 hm, tight_tagOnly htt s3, fits_tagOnly hfit s3⟩

/-- With a node cache that grants every request every store succeeds. -/
theorem reachedOK_of_reached {fuel : Nat} {k : Kernel} (hr : Reached fuel k)
    (hf : 64 ≤ fuel) : ReachedOK fuel k := by
  induction hr with
  | init addr flags base grant hb4 hb hfl _ => exact ReachedOK.init addr flags base grant hb4 hb hfl
  | store k i e gfp k' r hk hi64 hst ih =>
    by_cases he : xa_is_internal e = true
    · simp only [xa_store, he, if_true, Option.some.injEq, Prod.mk.injEq] at hst
      rw [← hst.1]
      exact ih
    · have he' : xa_is_internal e = false := by simpa using he
      obtain ⟨⟨L, hi, _⟩, hg, _⟩ := reached_facts hk hf
      obtain ⟨k2, L2, c, s1, s2, _⟩ := xa_store_spec hi hg i e gfp fuel hi64 he' hf
      rw [s2] at hst
      simp only [Option.some.injEq, Prod.mk.injEq] at hst
      obtain ⟨rfl, rfl⟩ := hst
      refine ReachedOK.store k i e gfp k2 c ih hi64 s2 ?_
      obtain ⟨w0, hl0⟩ := loc_exists hi.core i
      rw [xa_load_of_loc hi.core (by omega) hl0] at s1
      rw [← Option.some.inj s1]
      exact entry_at_not_internal hi.core hl0
  | erase k i k' r _ hi64 hst ih => exact ReachedOK.erase k i k' r ih hi64 hst
  | set_tag k i t k' _ hi64 ht hst ih => exact ReachedOK.set_tag k i t k' ih hi64 ht hst
  | clear_tag k i t k' _ hi64 ht hst ih => exact ReachedOK.clear_tag k i t k' ih hi64 ht hst

theorem ex_retry_reached : ReachedOK 64 ex_retry := by
  have h0 : ReachedOK 64 ex_nowait :=
    ReachedOK.init 0 0 4096 _ (by decide) (by decide) (by decide)
  have hsome : (xa_store 64 ex_nowait 64 8 1).map (fun r => xa_is_err r.2) = some false := by
    decide
  cases hs : xa_store 64 ex_nowait 64 8 1 with
  | none =>
    rw [hs] at hsome
    exact absurd hsome (by simp)
  | some p =>
    obtain ⟨k', r⟩ := p
    rw [hs] at hsome
    have hr : xa_is_err r = false := by simpa using hsome
    have e : ex_retry = k' := by
      unfold ex_retry ex_after
      rw [hs]
      rfl
    rw [e]
    exact ReachedOK.store ex_nowait 64 8 1 k' r h0 (by decide) hs hr

/-- C30: in every array state reached from an initialised (empty) array by
`xa_store`, `xa_erase`, `xa_set_tag` and `xa_clear_tag` calls on single
indices, whatever the node cache grants, every `xa_store` having returned
without an error: (a) `xa_head` is `NULL`, that is `xa_empty` is true, exactly
when `xa_load` returns `NULL` for every index; (b) if the only non-NULL entry
is at index 0, then `xa_head` is that entry itself and the walk of no index
reaches a node; (c) if some index other than 0 holds a non-NULL entry, then
`xa_head` is a node pointer. -/
theorem C30_head_canonical (fuel : Nat) (k : Kernel) (hr : ReachedOK fuel k)
    (hf : 64 ≤ fuel) :
    (xa_empty k = true ↔ ∀ i, i < 2 ^ 64 → xa_load fuel k i = some 0) ∧
    (∀ e, e ≠ 0 → xa_load fuel k 0 = some e →
      (∀ i, 0 < i → i < 2 ^ 64 → xa_load fuel k i = some 0) →
      k.xa_head = e ∧ xa_is_node k.xa_head = false ∧ ∀ j x, ¬ Visits k j x) ∧
    (∀ i e, 0 < i → i < 2 ^ 64 → xa_load fuel k i = some e → e ≠ 0 →
      xa_is_node k.xa_head = true) := by
  obtain ⟨L, hi, hm, ht, hfit⟩ := reachedOK_facts hr hf
  have hc := hi.core
  -- below a non-NULL slot `o` of the root lies an index that reads a non-NULL entry
  have key : xa_is_node k.xa_head = true → ∀ o, o < 64 →
      (k.mem (k.xa_head - 2)).slots o ≠ 0 →
      ∃ i v, i < 2 ^ 64 ∧ xa_load fuel k i = some v ∧ v ≠ 0 ∧ (0 < o → 0 < i) := by
    intro hn o ho hs0
    obtain ⟨hL, hp⟩ := hc.head_node hn
    have hgt : k.xa_head > 4096 := by
      unfold xa_is_node at hn
      simp only [Bool.and_eq_true, decide_eq_true_eq] at hn
      exact hn.2
    have hh : k.xa_head = (k.xa_head - 2) + 2 := by omega
    have hv : Visits k 0 (k.xa_head - 2) :=
      Visits.root _ hh (by rw [← hh]; exact hn) (by simp)
    have hb := nodeBlock_of_visits hc hv
    rw [Nat.zero_shiftRight] at hb
    obtain ⟨i, w, h1, h2, h3⟩ := entry_slot_below hi hm ht.1 _ _ _ o hL rfl hb ho hs0
    refine ⟨i, entry_at k w, ?_, xa_load_of_loc hc (by omega) h1, h2, ?_⟩
    · by_contra hge
      exact h2 (hfit i w (by omega) h1)
    · intro ho0
      by_contra hi0
      have : i = 0 := by omega
      rw [this, Nat.zero_shiftRight] at h3
      omega
  refine ⟨⟨?_, ?_⟩, ?_, ?_⟩
  · intro he i _
    have h0 : k.xa_head = 0 := by simpa [xa_empty] using he
    obtain ⟨w, hl⟩ := loc_exists hc i
    rw [xa_load_of_loc hc (by omega) hl, empty_reads_null h0 hl]
  · intro hall
    by_cases hn : xa_is_node k.xa_head = true
    · exfalso
      obtain ⟨o, ho, hs0⟩ := ht.1 _ (hc.head_node hn).1
      obtain ⟨i, v, h1, h2, h3, _⟩ := key hn o ho hs0
      rw [hall i h1] at h2
      exact h3 (Option.some.inj h2).symm
    · have hn' : xa_is_node k.xa_head = false := by simpa using hn
      have hl : Loc k 0 Place.head := ⟨hn', rfl⟩
      have h2 := hall 0 (by decide)
      rw [xa_load_of_loc hc (by omega) hl] at h2
      have h0 : k.xa_head = 0 := Option.some.inj h2
      simp [xa_empty, h0]
  · intro e he0 hl0 hall
    have hn' : xa_is_node k.xa_head = false := by
      cases hn : xa_is_node k.xa_head
      · rfl
      · exfalso
        obtain ⟨o, ho0, ho, hs0⟩ := ht.2 hn
        obtain ⟨i, v, h1, h2, h3, h4⟩ := key hn o ho hs0
        rw [hall i (h4 ho0) h1] at h2
        exact h3 (Option.some.inj h2).symm
    have hl : Loc k 0 Place.head := ⟨hn', rfl⟩
    rw [xa_load_of_loc hc (by omega) hl] at hl0
    refine ⟨Option.some.inj hl0, hn', ?_⟩
    intro j x hv
    have := (visits_head_bound hv).1
    rw [hn'] at this
    exact absurd this (by decide)
  · intro i e hi0 _ hl he0
    cases hn : xa_is_node k.xa_head
    · exfalso
      have hlb : Loc k i Place.bounds := Or.inl ⟨hn, by omega⟩
      rw [xa_load_of_loc hc (by omega) hlb] at hl
      exact he0 (Option.some.inj hl).symm
    · rfl

theorem C30_head_canonical_witness :
    (xa_empty ex_retry = true ↔ ∀ i, i < 2 ^ 64 → xa_load 64 ex_retry i = some 0) ∧
    (∀ e, e ≠ 0 → xa_load 64 ex_retry 0 = some e →
      (∀ i, 0 < i → i < 2 ^ 64 → xa_load 64 ex_retry i = some 0) →
      ex_retry.xa_head = e ∧ xa_is_node ex_retry.xa_head = false ∧
        ∀ j x, ¬ Visits ex_retry j x) ∧
    (∀ i e, 0 < i → i < 2 ^ 64 → xa_load 64 ex_retry i = some e → e ≠ 0 →
      xa_is_node ex_retry.xa_head = true) :=
  C30_head_canonical 64 ex_retry ex_retry_reached (by decide)

/-! ### Counters, squashed tags and pausing at concrete inputs -/

set_option maxRecDepth 100000

/-- C32 (the code at the failing input): the value entry `xa_mk_value(5)` is
stored with order 2 at index 8 of the empty array, then the pointer 4096 is
stored at index 8 by `xas_store` on a cursor of order 0.  Both calls return
without an error.  Afterwards the node holds the pointer in slot 8, sibling
entries of slot 8 in the slots 9 to 11 and `NULL` elsewhere: four slots are not
`NULL` and `count` is 4, but no slot holds a value entry or a sibling of one,
and `nr_values` is 3. -/
theorem C32_nr_values_after_narrow_store :
    (xas_store 64 ex_empty (xas_set_order (XA_STATE 0) 8 2) (xa_mk_value 5)).isSome = true ∧
    ((xas_store 64 ex_value_range (XA_STATE 8) 4096).map fun r => xas_error r.2.1) = some 0 ∧
    ex_value_over.xa_head = xa_mk_node 4096 ∧
    (∀ o, o < 64 → ((ex_value_over.mem 4096).slots o ≠ 0 ↔ 8 ≤ o ∧ o ≤ 11)) ∧
    (ex_value_over.mem 4096).slots 8 = 4096 ∧
    (∀ o, o < 64 → xa_is_value ((ex_value_over.mem 4096).slots o) = false) ∧
    (∀ o, o < 64 → xa_is_sibling ((ex_value_over.mem 4096).slots o) = true →
       (ex_value_over.mem 4096).slots o = xa_mk_sibling 8) ∧
    (ex_value_over.mem 4096).count = 4 ∧
    (ex_value_over.mem 4096).nr_values = 3 := by
  decide

/-- C34 (the code at the failing input): in the state `ex_three_tagged` (entries
at 8, 9 and 20, index 9 tagged with tag 0) the cursor is on slot 8 of the node
with `xa_sibs == 1`, so the range of slots is 8 to 9 and bit 9 of tag 0 is set.
`xas_squash_tags` leaves the bitmap as it is: bit 8 stays clear and bit 9 stays
set. -/
theorem C34_squash_misses_last_slot :
    xa_load 64 ex_three_tagged 8 = some 8 ∧ xa_load 64 ex_three_tagged 9 = some 12 ∧
    ex_three_tagged.xa_head = xa_mk_node 4096 ∧
    ((xas_load 64 ex_three_tagged (XA_STATE 8)).map fun r => (r.1.xa_node, r.1.xa_offset)) =
      some (ex_cursor_pair.xa_node, ex_cursor_pair.xa_offset) ∧
    ex_cursor_pair.xa_sibs = 1 ∧
    node_get_tag (ex_three_tagged.mem 4096) 8 0 = false ∧
    node_get_tag (ex_three_tagged.mem 4096) 9 0 = true ∧
    node_get_tag ((xas_squash_tags ex_three_tagged ex_cursor_pair).mem 4096) 8 0 = false ∧
    node_get_tag ((xas_squash_tags ex_three_tagged ex_cursor_pair).mem 4096) 9 0 = true := by
  decide

/-- C37 (the code at the failing inputs): in the state `ex_wide_next` an entry
of order 6 covers the indices 64 to 127 and the entry 8 is stored at index 128.
A cursor that loaded index 70 and was paused has `xa_index == 134`, not 128, and
the next `xas_find` returns `NULL`: the entry at 128 is skipped.  In the state
`ex_last` (one entry, at `ULONG_MAX`) a cursor that loaded that index and was
paused has `xa_index == 0`, and the next `xas_find` returns the same entry
again. -/
theorem C37_pause_skips_and_wraps :
    (∀ i, i < 64 → xa_load 64 ex_wide_next (64 + i) = some 24) ∧
    xa_load 64 ex_wide_next 128 = some 8 ∧
    ((xas_load 64 ex_wide_next (XA_STATE 70)).map fun r =>
      (r.1.xa_index, r.1.xa_node, r.1.xa_offset, r.2)) = some (70, 4096, 1, 24) ∧
    ((xas_pause 64 ex_wide_next (ex_loaded ex_wide_next (XA_STATE 70))).map fun x =>
      (x.xa_index, x.xa_node)) = some (134, XAS_RESTART) ∧
    ((xas_find 130 ex_wide_next (ex_paused ex_wide_next (XA_STATE 70)) (2 ^ 64 - 1)).map
      Prod.snd) = some 0 ∧
    ((xas_load 64 ex_last (XA_STATE (2 ^ 64 - 1))).map fun r =>
      (r.1.xa_index, r.2)) = some (2 ^ 64 - 1, 8) ∧
    ((xas_pause 64 ex_last (ex_loaded ex_last (XA_STATE (2 ^ 64 - 1)))).map fun x =>
      (x.xa_index, x.xa_node)) = some (0, XAS_RESTART) ∧
    ((xas_find 800 ex_last (ex_paused ex_last (XA_STATE (2 ^ 64 - 1))) (2 ^ 64 - 1)).map
      fun r => (r.1.xa_index, r.2)) = some (2 ^ 64 - 1, 8) := by
  decide

set_option maxRecDepth 512

/-! ### Cursors of a given order -/

theorem order_shift_sibs (ord : Nat) (hord : ord < 64) :
    (ord - ord % XA_CHUNK_SHIFT) % 256 = ord - ord % 6 ∧
    ((1 <<< (ord % XA_CHUNK_SHIFT)) - 1) % 256 = 2 ^ (ord % 6) - 1 ∧
    2 ^ (ord % 6) - 1 < 64 ∧
    (2 ^ (ord % 6) - 1 + 1) <<< (ord - ord % 6) = 2 ^ ord := by
  have hr : ord % 6 < 6 := Nat.mod_lt _ (by omega)
  have hr1 : 1 ≤ 2 ^ (ord % 6) := Nat.one_le_two_pow
  refine ⟨?_, ?_, ?_, ?_⟩
  · show (ord - ord % 6) % 256 = _
    omega
  · show ((1 <<< (ord % 6)) - 1) % 256 = _
    rw [Nat.one_shiftLeft]
    generalize ord % 6 = r at hr
    interval_cases r <;> rfl
  · generalize ord % 6 = r at hr
    interval_cases r <;> decide
  · rw [Nat.shiftLeft_eq, Nat.sub_add_cancel hr1, pow_order_split]

theorem round_down_index (index ord : Nat) (hi : index < 2 ^ 64) :
    ((index >>> ord) <<< ord) % WORD = index / 2 ^ ord * 2 ^ ord ∧
    index / 2 ^ ord * 2 ^ ord ≤ index ∧ index < index / 2 ^ ord * 2 ^ ord + 2 ^ ord := by
  have hp : 0 < 2 ^ ord := Nat.two_pow_pos ord
  have h1 : index / 2 ^ ord * 2 ^ ord ≤ index := Nat.div_mul_le_self _ _
  have h2 : index < index / 2 ^ ord * 2 ^ ord + 2 ^ ord := by
    have := Nat.lt_succ_iff.mpr (Nat.le_refl (index / 2 ^ ord))
    have h3 := Nat.div_add_mod index (2 ^ ord)
    have h4 := Nat.mod_lt index hp
    rw [Nat.mul_comm] at h3
    omega
  refine ⟨?_, h1, h2⟩
  rw [Nat.shiftRight_eq_div_pow, Nat.shiftLeft_eq]
  exact Nat.mod_eq_of_lt (by simp only [WORD]; omega)

/-- C39: for every index below `2^64` and every order `k < BITS_PER_LONG`,
`xas_set_order(xas, index, k)` and `XA_STATE_ORDER(name, xa, index, k)` yield a
cursor with `xa_node == XAS_RESTART`, `xa_index` equal to `index` rounded down
to a multiple of `2^k`, `xa_shift` a multiple of `XA_CHUNK_SHIFT` that is at
most `k`, `xa_sibs < XA_CHUNK_SIZE` and `(xa_sibs + 1) << xa_shift == 2^k`;
`index` lies in the range of the `2^k` indices from `xa_index` on, which ends
at or below `ULONG_MAX`.  `xas_set_order` leaves `xa_offset` and `xa_alloc` as
they were and the two cursors agree on the four fields set. -/
theorem C39_set_order (xas : xa_state) (index k : Nat) (hk : k < BITS_PER_LONG)
    (hi : index < 2 ^ 64) :
    (xas_set_order xas index k).xa_node = XAS_RESTART ∧
    (XA_STATE_ORDER index k).xa_node = XAS_RESTART ∧
    (xas_set_order xas index k).xa_index = index / 2 ^ k * 2 ^ k ∧
    (XA_STATE_ORDER index k).xa_index = index / 2 ^ k * 2 ^ k ∧
    2 ^ k ∣ (xas_set_order xas index k).xa_index ∧
    (xas_set_order xas index k).xa_index ≤ index ∧
    index < (xas_set_order xas index k).xa_index + 2 ^ k ∧
    (xas_set_order xas index k).xa_index + 2 ^ k ≤ 2 ^ 64 ∧
    XA_CHUNK_SHIFT ∣ (xas_set_order xas index k).xa_shift ∧
    (xas_set_order xas index k).xa_shift ≤ k ∧
    (xas_set_order xas index k).xa_sibs < XA_CHUNK_SIZE ∧
    ((xas_set_order xas index k).xa_sibs + 1) <<< (xas_set_order xas index k).xa_shift =
      2 ^ k ∧
    (XA_STATE_ORDER index k).xa_shift = (xas_set_order xas index k).xa_shift ∧
    (XA_STATE_ORDER index k).xa_sibs = (xas_set_order xas index k).xa_sibs ∧
    (xas_set_order xas index k).xa_offset = xas.xa_offset ∧
    (xas_set_order xas index k).xa_alloc = xas.xa_alloc ∧
    (XA_STATE_ORDER index k).xa_offset = 0 ∧ (XA_STATE_ORDER index k).xa_alloc = 0 := by
  have hk' : k < 64 := hk
  obtain ⟨s1, s2, s3, s4⟩ := order_shift_sibs k hk'
  obtain ⟨r1, r2, r3⟩ := round_down_index index k hi
  have hx1 : (xas_set_order xas index k).xa_index = index / 2 ^ k * 2 ^ k := by
    simp only [xas_set_order, if_pos hk]
    exact r1
  have hx2 : (xas_set_order xas index k).xa_shift = k - k % 6 := s1
  have hx3 : (xas_set_order xas index k).xa_sibs = 2 ^ (k % 6) - 1 := s2
  have hdvd : 2 ^ k ∣ index / 2 ^ k * 2 ^ k := Dvd.intro_left _ rfl
  have hend : index / 2 ^ k * 2 ^ k + 2 ^ k ≤ 2 ^ 64 :=
    aligned_add_le _ k (by omega) (by omega) hdvd
  rw [hx1, hx2, hx3]
  refine ⟨rfl, rfl, rfl, r1, hdvd, r2, r3, hend, ?_, Nat.sub_le _ _, s3, s4, s1, s2,
    rfl, rfl, rfl, rfl⟩
  show 6 ∣ k - k % 6
  exact (Nat.dvd_sub_mod k)

theorem C39_set_order_witness :
    (xas_set_order (XA_STATE 0) 1000003 8).xa_node = XAS_RESTART ∧
    (XA_STATE_ORDER 1000003 8).xa_node = XAS_RESTART ∧
    (xas_set_order (XA_STATE 0) 1000003 8).xa_index = 1000003 / 2 ^ 8 * 2 ^ 8 ∧
    (XA_STATE_ORDER 1000003 8).xa_index = 1000003 / 2 ^ 8 * 2 ^ 8 ∧
    2 ^ 8 ∣ (xas_set_order (XA_STATE 0) 1000003 8).xa_index ∧
    (xas_set_order (XA_STATE 0) 1000003 8).xa_index ≤ 1000003 ∧
    1000003 < (xas_set_order (XA_STATE 0) 1000003 8).xa_index + 2 ^ 8 ∧
    (xas_set_order (XA_STATE 0) 1000003 8).xa_index + 2 ^ 8 ≤ 2 ^ 64 ∧
    XA_CHUNK_SHIFT ∣ (xas_set_order (XA_STATE 0) 1000003 8).xa_shift ∧
    (xas_set_order (XA_STATE 0) 1000003 8).xa_shift ≤ 8 ∧
    (xas_set_order (XA_STATE 0) 1000003 8).xa_sibs < XA_CHUNK_SIZE ∧
    ((xas_set_order (XA_STATE 0) 1000003 8).xa_sibs + 1) <<<
      (xas_set_order (XA_STATE 0) 1000003 8).xa_shift = 2 ^ 8 ∧
    (XA_STATE_ORDER 1000003 8).xa_shift = (xas_set_order (XA_STATE 0) 1000003 8).xa_shift ∧
    (XA_STATE_ORDER 1000003 8).xa_sibs = (xas_set_order (XA_STATE 0) 1000003 8).xa_sibs ∧
    (xas_set_order (XA_STATE 0) 1000003 8).xa_offset = (XA_STATE 0).xa_offset ∧
    (xas_set_order (XA_STATE 0) 1000003 8).xa_alloc = (XA_STATE 0).xa_alloc ∧
    (XA_STATE_ORDER 1000003 8).xa_offset = 0 ∧ (XA_STATE_ORDER 1000003 8).xa_alloc = 0 :=
  C39_set_order (XA_STATE 0) 1000003 8 (by decide) (by decide)

/-! ### The tag summaries in every reachable state -/

/-- Every state reached by `xa_store`, `xa_erase`, `xa_set_tag` and
`xa_clear_tag` is well formed, whatever the node cache grants and whatever the
calls return. -/
theorem reachedAny_wf {fuel : Nat} {k : Kernel} (hr : ReachedAny fuel k) (hf : 64 ≤ fuel) :
    WF k := by
  have store_null : ∀ (k : Kernel) (i gfp : Nat) (k' : Kernel) (r : Nat),
      WF k → xa_store fuel k i 0 gfp = some (k', r) → WF k' := by
    intro k i gfp k' r ih hst
    obtain ⟨L, hi⟩ := ih
    obtain ⟨w0, hl0⟩ := loc_exists hi.core i
    obtain ⟨k2, L2, s1, s2, _⟩ := xa_store_null hi i gfp fuel w0 hl0 hf
    rw [s1] at hst
    simp only [Option.some.injEq, Prod.mk.injEq] at hst
    obtain ⟨rfl, _⟩ := hst
    exact ⟨L2, s2⟩
  induction hr with
  | init addr flags base grant hb4 hb hfl => exact wf_init addr flags base grant hb4 hb hfl
  | store k i e gfp k' r _ hi64 hst ih =>
    by_cases he : xa_is_internal e = true
    · simp only [xa_store, he, if_true, Option.some.injEq, Prod.mk.injEq] at hst
      rw [← hst.1]
      exact ih
    · have he' : xa_is_internal e = false := by simpa using he
      by_cases he0 : e = 0
      · subst he0
        exact store_null k i gfp k' r ih hst
      · obtain ⟨L, hi⟩ := ih
        obtain ⟨L', s1, _⟩ := xa_store_gen hi i e gfp fuel hi64 he' he0 (by omega) hst
        exact ⟨L', s1⟩
  | erase k i k' r _ hi64 hst ih => exact store_null k i 0 k' r ih hst
  | set_tag k i t k' _ hi64 ht hst ih =>
    obtain ⟨L, hi⟩ := ih
    obtain ⟨w, hl⟩ := loc_exists hi.core i
    obtain ⟨k2, s1, s2, _⟩ := xa_set_tag_spec hi i t fuel ht (by omega) w hl
    rw [s1] at hst
    obtain rfl := Option.some.inj hst
    exact ⟨L, s2⟩
  | clear_tag k i t k' _ hi64 ht hst ih =>
    obtain ⟨L, hi⟩ := ih
    obtain ⟨w, hl⟩ := loc_exists hi.core i
    obtain ⟨k2, s1, s2, _⟩ := xa_clear_tag_spec hi i t fuel ht (by omega) w hl
    rw [s1] at hst
    obtain rfl := Option.some.inj hst
    exact ⟨L, s2⟩

/-- C33: in every array state reached from an array initialised with no tag
flags by `xa_store`, `xa_erase`, `xa_set_tag` and `xa_clear_tag` (whatever the
node cache grants and whatever the calls return), for every tag `t`: a node
`c` found in the slot of a reachable node `x` has `x` as its parent and that
slot as its offset, and the tag bit of that slot in `x` is set exactly when
`c` has a bit set for `t`; the same holds along the parent pointer of every
reachable node that has a parent; the head node has no parent and the array
flag for `t` is set exactly when the head node has a bit set for `t`; when the
head is not a node the tag of index 0 is the array flag; the flag is clear in
an empty array, no tag bit is set on a `NULL` slot of a reachable node, and no
index whose tag reads true loads `NULL`. -/
theorem C33_tag_propagation (fuel : Nat) (k : Kernel) (t : Nat) (hr : ReachedAny fuel k)
    (hf : 64 ≤ fuel) (ht : t < 3) :
    (∀ i x c, Visits k i x → (k.mem x).slots (get_offset i (k.mem x)) = c + 2 →
      xa_is_node (c + 2) = true →
      (k.mem c).parent = x ∧ (k.mem c).offset = get_offset i (k.mem x) ∧
      (node_get_tag (k.mem x) (k.mem c).offset t = true ↔
        ∃ o, o < 64 ∧ node_get_tag (k.mem c) o t = true)) ∧
    (∀ i c, Visits k i c → (k.mem c).parent ≠ 0 →
      Visits k i (k.mem c).parent ∧
      (node_get_tag (k.mem (k.mem c).parent) (k.mem c).offset t = true ↔
        ∃ o, o < 64 ∧ node_get_tag (k.mem c) o t = true)) ∧
    (xa_is_node k.xa_head = true →
      (k.mem (xa_to_node k.xa_head)).parent = 0 ∧
      (xa_tagged k t = true ↔
        ∃ o, o < 64 ∧ node_get_tag (k.mem (xa_to_node k.xa_head)) o t = true)) ∧
    (xa_is_node k.xa_head = false → xa_get_tag fuel k 0 t = some (xa_tagged k t)) ∧
    (k.xa_head = 0 → xa_tagged k t = false) ∧
    (∀ i x o, Visits k i x → o < 64 → node_get_tag (k.mem x) o t = true →
      (k.mem x).slots o ≠ 0) ∧
    (∀ i, xa_get_tag fuel k i t = some true → xa_load fuel k i ≠ some 0) := by
  obtain ⟨L, hi⟩ := reachedAny_wf hr hf
  have hc := hi.core
  have up : ∀ c, L c → (k.mem c).parent ≠ 0 →
      (node_get_tag (k.mem (k.mem c).parent) (k.mem c).offset t = true ↔
        ∃ o, o < 64 ∧ node_get_tag (k.mem c) o t = true) := by
    intro c hcl hp
    have h := hi.tags c hcl t ht
    unfold TagUp at h
    rw [if_neg hp] at h
    rw [h]
    exact node_any_tag_iff _ _
  refine ⟨?_, ?_, ?_, ?_, fun h0 => hi.head_null h0 t ht, ?_, ?_⟩
  · intro i x c hv hs hn
    obtain ⟨_, h2, h3, _, _⟩ := visits_child_shift hc hv hs hn
    have hvc : Visits k i c := Visits.step x c hv hs hn
    have hp : (k.mem c).parent ≠ 0 := by
      rw [h2]
      have := (hc.nodes x (visits_live hc hv)).big
      omega
    have := up c (visits_live hc hvc) hp
    rw [h2] at this
    exact ⟨h2, h3, this⟩
  · intro i c hv hp
    exact ⟨(visits_parent hc hv hp).1, up c (visits_live hc hv) hp⟩
  · intro hn
    obtain ⟨h1, h2⟩ := hc.head_node hn
    refine ⟨h2, ?_⟩
    have h := hi.tags _ h1 t ht
    unfold TagUp at h
    rw [if_pos h2] at h
    show xa_tagged k t = true ↔ ∃ o, o < 64 ∧ node_get_tag (k.mem (k.xa_head - 2)) o t = true
    rw [h]
    exact node_any_tag_iff _ _
  · intro hn
    exact xa_get_tag_of_loc hi ht (by omega) (show Loc k 0 Place.head from ⟨hn, rfl⟩)
  · intro i x o hv ho hg
    exact ((hc.nodes x (visits_live hc hv)).tag_null o t ho ht hg).1
  · intro i hg hl
    obtain ⟨w, hw⟩ := loc_exists hc i
    rw [xa_get_tag_of_loc hi ht (by omega) hw] at hg
    rw [xa_load_of_loc hc (by omega) hw] at hl
    exact tag_at_entry hi ht hw (Option.some.inj hg) (Option.some.inj hl)

theorem reachedAny_of_reached {fuel : Nat} {k : Kernel} (hr : Reached fuel k) :
    ReachedAny fuel k := by
  induction hr with
  | init addr flags base grant hb4 hb hfl _ => exact ReachedAny.init addr flags base grant hb4 hb hfl
  | store k i e gfp k' r _ hi64 hst ih => exact ReachedAny.store k i e gfp k' r ih hi64 hst
  | erase k i k' r _ hi64 hst ih => exact ReachedAny.erase k i k' r ih hi64 hst
  | set_tag k i t k' _ hi64 ht hst ih => exact ReachedAny.set_tag k i t k' ih hi64 ht hst
  | clear_tag k i t k' _ hi64 ht hst ih => exact ReachedAny.clear_tag k i t k' ih hi64 ht hst

theorem C33_tag_propagation_witness :
    (∀ i x c, Visits ex_two_tagged i x →
      (ex_two_tagged.mem x).slots (get_offset i (ex_two_tagged.mem x)) = c + 2 →
      xa_is_node (c + 2) = true →
      (ex_two_tagged.mem c).parent = x ∧
      (ex_two_tagged.mem c).offset = get_offset i (ex_two_tagged.mem x) ∧
      (node_get_tag (ex_two_tagged.mem x) (ex_two_tagged.mem c).offset 1 = true ↔
        ∃ o, o < 64 ∧ node_get_tag (ex_two_tagged.mem c) o 1 = true)) ∧
    (∀ i c, Visits ex_two_tagged i c → (ex_two_tagged.mem c).parent ≠ 0 →
      Visits ex_two_tagged i (ex_two_tagged.mem c).parent ∧
      (node_get_tag (ex_two_tagged.mem (ex_two_tagged.mem c).parent)
          (ex_two_tagged.mem c).offset 1 = true ↔
        ∃ o, o < 64 ∧ node_get_tag (ex_two_tagged.mem c) o 1 = true)) ∧
    (xa_is_node ex_two_tagged.xa_head = true →
      (ex_two_tagged.mem (xa_to_node ex_two_tagged.xa_head)).parent = 0 ∧
      (xa_tagged ex_two_tagged 1 = true ↔
        ∃ o, o < 64 ∧
          node_get_tag (ex_two_tagged.mem (xa_to_node ex_two_tagged.xa_head)) o 1 = true)) ∧
    (xa_is_node ex_two_tagged.xa_head = false →
      xa_get_tag 64 ex_two_tagged 0 1 = some (xa_tagged ex_two_tagged 1)) ∧
    (ex_two_tagged.xa_head = 0 → xa_tagged ex_two_tagged 1 = false) ∧
    (∀ i x o, Visits ex_two_tagged i x → o < 64 →
      node_get_tag (ex_two_tagged.mem x) o 1 = true → (ex_two_tagged.mem x).slots o ≠ 0) ∧
    (∀ i, xa_get_tag 64 ex_two_tagged i 1 = some true → xa_load 64 ex_two_tagged i ≠ some 0) :=
  C33_tag_propagation 64 ex_two_tagged 1 (reachedAny_of_reached ex_two_tagged_reached)
    (by decide) (by decide)

/-! ### A cursor in an error state -/

theorem xas_error_facts (xas : xa_state) (h : xas_error xas ≠ 0) :
    xas_invalid xas = true ∧ xas_valid xas = false ∧ xas_top xas.xa_node = false ∧
    xas.xa_node ≠ 0 := by
  have hint : xa_is_internal xas.xa_node = true := by
    cases hq : xa_is_internal xas.xa_node
    · exfalso
      apply h
      simp [xas_error, xa_err, xa_is_err, hq]
    · rfl
  have h4 := (xa_is_internal_iff _).1 hint
  have hinv : xas_invalid xas = true := by
    unfold xas_invalid
    rw [and3, h4]
    decide
  refine ⟨hinv, by simp [xas_valid, hinv], ?_, by omega⟩
  cases ht : xas_top xas.xa_node
  · rfl
  · exfalso
    have hle : xas.xa_node ≤ 3 := by
      simpa [xas_top] using ht
    have h2 : xas.xa_node = 2 := by omega
    apply h
    unfold xas_error
    rw [h2]
    decide

/-- C35: for every cursor in an error state (`xas_error(xas) != 0`), every
array state and every entry, bound and tag: `xas_load`, `xas_store`,
`xas_find`, `xas_find_tagged` and `xas_find_conflict` return `NULL`,
`xas_get_tag` returns false, and `xas_set_tag`, `xas_clear_tag` and `xas_pause`
return at once; each of them leaves the array state and the cursor (hence its
node, its index and its error) as they were. -/
theorem C35_error_cursor (fuel : Nat) (k : Kernel) (xas : xa_state) (entry max tag : Nat)
    (h : xas_error xas ≠ 0) :
    xas_load (fuel + 1) k xas = some (xas, 0) ∧
    xas_store (fuel + 1) k xas entry = some (k, xas, 0) ∧
    xas_find fuel k xas max = some (xas, 0) ∧
    xas_find_tagged fuel k xas max tag = some (xas, 0) ∧
    xas_find_conflict fuel k xas = some (xas, 0) ∧
    xas_get_tag k xas tag = false ∧
    xas_set_tag fuel k xas tag = some k ∧
    xas_clear_tag fuel k xas tag = some k ∧
    xas_pause fuel k xas = some xas := by
  obtain ⟨hinv, hval, htop, hn0⟩ := xas_error_facts xas h
  have hstart : xas_start k xas = (xas, 0) := by
    unfold xas_start
    rw [hval, if_neg (by simp), if_pos h]
  have hload : xas_load (fuel + 1) k xas = some (xas, 0) := by
    unfold xas_load
    rw [hstart]
    exact xas_load_loop_leaf _ _ _ _ (show xa_is_node 0 = false by decide) (by omega)
  refine ⟨hload, ?_, ?_, ?_, ?_, ?_, ?_, ?_, ?_⟩
  · unfold xas_store
    by_cases he : entry = 0
    · rw [if_neg (by simpa using he), hload]
      simp only [Option.map]
      exact xas_store_tail_invalid _ _ _ _ _ hinv
    · rw [if_pos he]
      have hc : xas_create (fuel + 1) k xas = some (k, xas, 0) := by
        unfold xas_create
        simp only [htop, Bool.false_eq_true, if_false]
        rw [if_pos h]
      rw [hc]
      exact xas_store_tail_invalid _ _ _ _ _ hinv
  · unfold xas_find
    rw [if_pos h]
  · unfold xas_find_tagged
    rw [if_pos h]
  · unfold xas_find_conflict
    rw [if_pos h]
  · unfold xas_get_tag
    rw [if_pos hinv]
  · unfold xas_set_tag
    rw [if_pos hinv]
  · unfold xas_clear_tag
    rw [if_pos hinv]
  · unfold xas_pause
    simp only [hinv, if_true]

theorem C35_error_cursor_witness :
    xas_load (63 + 1) ex_two (xas_set_err (XA_STATE 7) (-ENOMEM)) =
      some (xas_set_err (XA_STATE 7) (-ENOMEM), 0) ∧
    xas_store (63 + 1) ex_two (xas_set_err (XA_STATE 7) (-ENOMEM)) 16 =
      some (ex_two, xas_set_err (XA_STATE 7) (-ENOMEM), 0) ∧
    xas_find 63 ex_two (xas_set_err (XA_STATE 7) (-ENOMEM)) 100 =
      some (xas_set_err (XA_STATE 7) (-ENOMEM), 0) ∧
    xas_find_tagged 63 ex_two (xas_set_err (XA_STATE 7) (-ENOMEM)) 100 1 =
      some (xas_set_err (XA_STATE 7) (-ENOMEM), 0) ∧
    xas_find_conflict 63 ex_two (xas_set_err (XA_STATE 7) (-ENOMEM)) =
      some (xas_set_err (XA_STATE 7) (-ENOMEM), 0) ∧
    xas_get_tag ex_two (xas_set_err (XA_STATE 7) (-ENOMEM)) 1 = false ∧
    xas_set_tag 63 ex_two (xas_set_err (XA_STATE 7) (-ENOMEM)) 1 = some ex_two ∧
    xas_clear_tag 63 ex_two (xas_set_err (XA_STATE 7) (-ENOMEM)) 1 = some ex_two ∧
    xas_pause 63 ex_two (xas_set_err (XA_STATE 7) (-ENOMEM)) =
      some (xas_set_err (XA_STATE 7) (-ENOMEM)) :=
  C35_error_cursor 63 ex_two (xas_set_err (XA_STATE 7) (-ENOMEM)) 16 100 1
    (by
      rw [show xas_error (xas_set_err (XA_STATE 7) (-ENOMEM)) = xa_err (XA_ERROR (-ENOMEM))
        from rfl, xa_err_enomem]
      decide)

/-! ### What `xas_free_nodes` does to a subtree -/

theorem freeMono_refl (k : Kernel) : FreeMono k k :=
  ⟨rfl, rfl, rfl, rfl, rfl, rfl, rfl, fun _ => rfl, fun _ => rfl, fun _ => rfl, fun _ => rfl,
    fun _ _ => Or.inl rfl, fun _ => Or.inl rfl, fun _ => Or.inl rfl, fun _ => Or.inl rfl⟩

theorem retry_not_node : xa_is_node XA_RETRY_ENTRY = false := by
  decide

theorem retry_ne_zero : XA_RETRY_ENTRY ≠ 0 := by
  decide

theorem freeMono_trans {k1 k2 k3 : Kernel} (a : FreeMono k1 k2) (b : FreeMono k2 k3) :
    FreeMono k1 k3 := by
  refine ⟨b.addr.trans a.addr, b.head.trans a.head, b.flags.trans a.flags,
    b.next.trans a.next, b.calls.trans a.calls, b.grant.trans a.grant, b.cache.trans a.cache,
    fun z => (b.shift z).trans (a.shift z), fun z => (b.offset z).trans (a.offset z),
    fun z => (b.parent z).trans (a.parent z), fun z => (b.tags z).trans (a.tags z),
    ?_, ?_, ?_, ?_⟩
  · intro z q
    rcases b.slots z q with h | ⟨h1, h2, h3⟩
    · rw [h]
      exact a.slots z q
    · right
      rcases a.slots z q with g | ⟨g1, g2, g3⟩
      · rw [g] at h1 h2
        exact ⟨h1, h2, h3⟩
      · exact ⟨g1, g2, h3⟩
  · intro z
    rcases b.count z with h | h
    · rw [h]
      exact a.count z
    · exact Or.inr h
  · intro z
    rcases b.values z with h | h
    · rw [h]
      exact a.values z
    · exact Or.inr h
  · intro z
    rcases b.array z with h | h
    · rw [h]
      exact a.array z
    · exact Or.inr h

/-- The slot read by `xas_free_nodes` tells what the slot held at the start. -/
theorem freeMono_slot {k0 k : Kernel} (h : FreeMono k0 k) (z q : Nat) :
    xa_is_node ((k.mem z).slots q) = xa_is_node ((k0.mem z).slots q) ∧
    (xa_is_node ((k0.mem z).slots q) = true → (k.mem z).slots q = (k0.mem z).slots q) ∧
    ((k.mem z).slots q = 0 ↔ (k0.mem z).slots q = 0) := by
  rcases h.slots z q with g | ⟨g1, g2, g3⟩
  · rw [g]
    exact ⟨rfl, fun _ => rfl, Iff.rfl⟩
  · rw [g3, g2]
    refine ⟨retry_not_node, fun hn => absurd hn (by simp), ?_⟩
    constructor
    · intro h0
      exact absurd h0 retry_ne_zero
    · intro h0
      exact absurd h0 g1

theorem free_slot_stable {e0 a b : Nat} (ha : a = free_slot e0)
    (hb : b = a ∨ (a ≠ 0 ∧ xa_is_node a = false ∧ b = XA_RETRY_ENTRY)) : b = free_slot e0 := by
  rcases hb with hb | ⟨h1, h2, h3⟩
  · rw [hb, ha]
  · rw [h3]
    unfold free_slot at ha ⊢
    by_cases hc : xa_is_node e0 = true ∨ e0 = 0
    · rw [if_pos hc] at ha
      rw [ha] at h1 h2
      rcases hc with hc | hc
      · rw [hc] at h2
        exact absurd h2 (by simp)
      · exact absurd hc h1
    · rw [if_neg hc]

theorem freedNode_stable {k1 k2 : Kernel} (h : FreeMono k1 k2) {n0 : xa_node} {d : Nat}
    (hd : FreedNode n0 (k1.mem d)) : FreedNode n0 (k2.mem d) := by
  obtain ⟨a1, a2, a3, a4, a5, a6, a7, a8⟩ := hd
  refine ⟨?_, ?_, ?_, (h.shift d).trans a4, (h.offset d).trans a5, (h.parent d).trans a6,
    (h.tags d).trans a7, fun q hq => free_slot_stable (a8 q hq) (h.slots d q)⟩
  · rcases h.count d with g | g
    · rw [g, a1]
    · exact g
  · rcases h.values d with g | g
    · rw [g, a2]
    · exact g
  · rcases h.array d with g | g
    · rw [g, a3]
    · exact g

theorem freeMono_mark (k : Kernel) (x o : Nat) (hn : xa_is_node ((k.mem x).slots o) = false) :
    FreeMono k (xas_free_nodes_mark k x o) ∧
    (xas_free_nodes_mark k x o).rcu_pending = k.rcu_pending ∧
    (∀ z, z ≠ x → (xas_free_nodes_mark k x o).mem z = k.mem z) ∧
    ((xas_free_nodes_mark k x o).mem x).slots o = free_slot ((k.mem x).slots o) := by
  unfold xas_free_nodes_mark xa_entry
  by_cases he : (k.mem x).slots o ≠ 0
  · rw [if_pos he]
    refine ⟨⟨rfl, rfl, rfl, rfl, rfl, rfl, rfl, ?_, ?_, ?_, ?_, ?_, ?_, ?_, ?_⟩, rfl, ?_, ?_⟩
    · intro z
      by_cases hz : z = x <;> simp [Kernel.setNode, hz]
    · intro z
      by_cases hz : z = x <;> simp [Kernel.setNode, hz]
    · intro z
      by_cases hz : z = x <;> simp [Kernel.setNode, hz]
    · intro z
      by_cases hz : z = x <;> simp [Kernel.setNode, hz]
    · intro z q
      by_cases hz : z = x
      · subst hz
        by_cases hq : q = o
        · subst hq
          right
          exact ⟨he, hn, by simp [Kernel.setNode]⟩
        · left
          simp [Kernel.setNode, hq]
      · left
        simp [Kernel.setNode, hz]
    · intro z
      by_cases hz : z = x <;> simp [Kernel.setNode, hz]
    · intro z
      by_cases hz : z = x <;> simp [Kernel.setNode, hz]
    · intro z
      by_cases hz : z = x <;> simp [Kernel.setNode, hz]
    · intro z hz
      simp [Kernel.setNode, hz]
    · have : ¬ (xa_is_node ((k.mem x).slots o) = true ∨ (k.mem x).slots o = 0) := by
        rw [hn]
        simp
        exact he
      simp [Kernel.setNode, free_slot, this]
  · rw [if_neg he]
    have h0 : (k.mem x).slots o = 0 := by
      by_contra h
      exact he h
    refine ⟨freeMono_refl k, rfl, fun _ _ => rfl, ?_⟩
    rw [h0]
    simp [free_slot]

theorem freeMono_freed (k : Kernel) (x : Nat) :
    FreeMono k (xas_free_nodes_freed k x) ∧
    (xas_free_nodes_freed k x).rcu_pending = x :: k.rcu_pending ∧
    (∀ z, z ≠ x → (xas_free_nodes_freed k x).mem z = k.mem z) ∧
    ((xas_free_nodes_freed k x).mem x).count = 0 ∧
    ((xas_free_nodes_freed k x).mem x).nr_values = 0 ∧
    ((xas_free_nodes_freed k x).mem x).array = XA_RCU_FREE ∧
    ((xas_free_nodes_freed k x).mem x).slots = (k.mem x).slots := by
  unfold xas_free_nodes_freed xa_node_free
  refine ⟨⟨rfl, rfl, rfl, rfl, rfl, rfl, rfl, ?_, ?_, ?_, ?_, ?_, ?_, ?_, ?_⟩, rfl, ?_,
    by simp [Kernel.setNode], by simp [Kernel.setNode], by simp [Kernel.setNode],
    by simp [Kernel.setNode]⟩
  · intro z
    by_cases hz : z = x <;> simp [Kernel.setNode, hz]
  · intro z
    by_cases hz : z = x <;> simp [Kernel.setNode, hz]
  · intro z
    by_cases hz : z = x <;> simp [Kernel.setNode, hz]
  · intro z
    by_cases hz : z = x <;> simp [Kernel.setNode, hz]
  · intro z q
    left
    by_cases hz : z = x <;> simp [Kernel.setNode, hz]
  · intro z
    by_cases hz : z = x <;> simp [Kernel.setNode, hz]
  · intro z
    by_cases hz : z = x <;> simp [Kernel.setNode, hz]
  · intro z
    by_cases hz : z = x <;> simp [Kernel.setNode, hz]
  · intro z hz
    simp [Kernel.setNode, hz]

theorem under_trans {k : Kernel} {a b c : Nat} (h1 : Under k a b) (h2 : Under k b c) :
    Under k a c := by
  induction h2 with
  | self => exact h1
  | child x o _ ho hn ih => exact Under.child x o ih ho hn

theorem under_below {k : Kernel} {p q d : Nat} (hq : q < 64)
    (hn : xa_is_node ((k.mem p).slots q) = true)
    (h : Under k (xa_to_node ((k.mem p).slots q)) d) : Under k p d :=
  under_trans (Under.child p q Under.self hq hn) h

theorem under_shift_le {k : Kernel} {top : Nat} (hch : SubtreeOK k top) {x d : Nat}
    (hx : Under k top x) (h : Under k x d) : (k.mem d).shift ≤ (k.mem x).shift := by
  induction h with
  | self => exact Nat.le_refl _
  | child y o hy ho hn ih =>
    have := (hch y (under_trans hx hy) o ho hn).2.2
    omega

theorem under_inv {k : Kernel} {p d : Nat} (h : Under k p d) :
    d = p ∨ ∃ y o, Under k p y ∧ o < 64 ∧ xa_is_node ((k.mem y).slots o) = true ∧
      d = xa_to_node ((k.mem y).slots o) := by
  induction h with
  | self => exact Or.inl rfl
  | child y o hy ho hn _ => exact Or.inr ⟨y, o, hy, ho, hn, rfl⟩

/-- A node found in a slot of `x` lies below another node found in a slot of
`x` only if the two slots are the same. -/
theorem under_child_eq {k : Kernel} {top : Nat} (hch : SubtreeOK k top) {x q q' e : Nat}
    (hx : Under k top x) (hq : q < 64) (hn : xa_is_node ((k.mem x).slots q) = true)
    (hq' : q' < 64) (hn' : xa_is_node ((k.mem x).slots q') = true)
    (he : e = xa_to_node ((k.mem x).slots q'))
    (h : Under k (xa_to_node ((k.mem x).slots q)) e) : q' = q := by
  have hcq := hch x hx q hq hn
  have hcq' := hch x hx q' hq' hn'
  rw [← he] at hcq'
  have hc : Under k top (xa_to_node ((k.mem x).slots q)) := Under.child x q hx hq hn
  rcases under_inv h with h1 | ⟨y, o, hy, ho, hno, h1⟩
  · rw [← h1] at hcq
    rw [← hcq.2.1, ← hcq'.2.1]
  · have hey := hch y (under_trans hc hy) o ho hno
    rw [← h1] at hey
    have hyx : y = x := by
      rw [← hey.1, hcq'.1]
    rw [hyx] at hy
    have := under_shift_le hch hc hy
    omega

theorem under_disjoint {k : Kernel} {top : Nat} (hch : SubtreeOK k top) {x q q' d : Nat}
    (hx : Under k top x) (hq : q < 64) (hn : xa_is_node ((k.mem x).slots q) = true)
    (hq' : q' < 64) (hn' : xa_is_node ((k.mem x).slots q') = true)
    (h : Under k (xa_to_node ((k.mem x).slots q)) d)
    (h' : Under k (xa_to_node ((k.mem x).slots q')) d) : q' = q := by
  have hc : Under k top (xa_to_node ((k.mem x).slots q)) := Under.child x q hx hq hn
  have hc' : Under k top (xa_to_node ((k.mem x).slots q')) := Under.child x q' hx hq' hn'
  induction h with
  | self => exact (under_child_eq hch hx hq' hn' hq hn rfl h').symm
  | child y o hy ho hno ih =>
    rcases under_inv h' with he | ⟨y', o', hy', ho', hno', he⟩
    · exact under_child_eq hch hx hq hn hq' hn' he (Under.child y o hy ho hno)
    · apply ih
      have hey := hch y (under_trans hc hy) o ho hno
      have hey' := hch y' (under_trans hc' hy') o' ho' hno'
      rw [← he] at hey'
      have : y' = y := by
        rw [← hey'.1]
        exact hey.1
      rw [← this]
      exact hy'

/-- The walk of `xas_free_nodes` through the slots `o..63` of node `x` and
everything below them: it comes back to `x` with offset 64; every node below
these slots has been passed to `xa_node_free` once, in the state `FreedNode`
describes, the slots `o..63` of `x` hold what `free_slot` says, and no other
node has changed. -/
theorem xas_free_nodes_walk {k0 : Kernel} (top : Nat) (hch : SubtreeOK k0 top) :
    ∀ n x, Under k0 top x → (k0.mem x).shift = n → ∀ m o, o + m = 64 → ∀ k, FreeMono k0 k →
      ∃ k2 new, FreeMono k k2 ∧ k2.rcu_pending = new ++ k.rcu_pending ∧ new.Nodup ∧
        (∀ d, d ∈ new ↔ ∃ q, o ≤ q ∧ q < 64 ∧ xa_is_node ((k0.mem x).slots q) = true ∧
          Under k0 (xa_to_node ((k0.mem x).slots q)) d) ∧
        (∀ d, d ∈ new → FreedNode (k0.mem d) (k2.mem d)) ∧
        (∀ q, o ≤ q → q < 64 → (k2.mem x).slots q = free_slot ((k0.mem x).slots q)) ∧
        (∀ z, z ≠ x → z ∉ new → k2.mem z = k.mem z) ∧
        ∀ k', FreeDone top k2 x XA_CHUNK_SIZE k' → FreeDone top k x o k' := by
  intro n
  induction n using Nat.strong_induction_on with
  | _ n ihn =>
    intro x hx hsh m
    induction m with
    | zero =>
      intro o ho k hk
      have : o = XA_CHUNK_SIZE := by
        unfold XA_CHUNK_SIZE
        omega
      subst this
      refine ⟨k, [], freeMono_refl k, rfl, List.nodup_nil, ?_, ?_, ?_, fun _ _ _ => rfl,
        fun _ h => h⟩
      · intro d
        constructor
        · intro h
          exact absurd h (List.not_mem_nil d)
        · rintro ⟨q, h1, h2, _⟩
          unfold XA_CHUNK_SIZE at h1
          omega
      · intro d h
        exact absurd h (List.not_mem_nil d)
      · intro q h1 h2
        unfold XA_CHUNK_SIZE at h1
        omega
    | succ m ihm =>
      intro o ho k hk
      have ho64 : o ≠ XA_CHUNK_SIZE := by
        unfold XA_CHUNK_SIZE
        omega
      have ho' : o < 64 := by omega
      obtain ⟨s1, s2, s3⟩ := freeMono_slot hk x o
      by_cases hn : xa_is_node ((k.mem x).slots o) = true
      · have hn0 : xa_is_node ((k0.mem x).slots o) = true := by
          rw [← s1]
          exact hn
        have hsl : (k.mem x).slots o = (k0.mem x).slots o := s2 hn0
        obtain ⟨c2, c3, c4⟩ := hch x hx o ho' hn0
        have hcu : Under k0 top (xa_to_node ((k0.mem x).slots o)) := Under.child x o hx ho' hn0
        generalize hcd : xa_to_node ((k0.mem x).slots o) = c at c2 c3 c4 hcu
        obtain ⟨ka, l1, a1, a2, a3, a4, a5, a6, a7, a8⟩ :=
          ihn _ (by omega) c hcu rfl 64 0 (by omega) k hk
        obtain ⟨b1, b2, b3, b4, b5, b6, b7⟩ := freeMono_freed ka c
        have hka := freeMono_trans hk a1
        have hkb := freeMono_trans hka b1
        obtain ⟨k2, l2, d1, d2, d3, d4, d5, d6, d7, d8⟩ := ihm (o + 1) (by omega) _ hkb
        have hc_l1 : c ∉ l1 := by
          intro h
          obtain ⟨q, _, hq, hqn, hu⟩ := (a4 c).1 h
          have h1 := (hch c hcu q hq hqn).2.2
          have h2 := under_shift_le hch (Under.child c q hcu hq hqn) hu
          omega
        have hfc : FreedNode (k0.mem c) ((xas_free_nodes_freed ka c).mem c) := by
          refine ⟨b4, b5, b6, (b1.shift c).trans (hka.shift c), (b1.offset c).trans (hka.offset c),
            (b1.parent c).trans (hka.parent c), (b1.tags c).trans (hka.tags c), ?_⟩
          intro q hq
          rw [b7]
          exact a6 q (by omega) hq
        have hmem_c : ∀ d, d ∈ c :: l1 ↔ Under k0 c d := by
          intro d
          rw [List.mem_cons]
          constructor
          · rintro (rfl | h)
            · exact Under.self
            · obtain ⟨q, _, hq, hqn, hu⟩ := (a4 d).1 h
              exact under_below hq hqn hu
          · intro h
            rcases under_cases h with rfl | ⟨q, hq, hqn, hu⟩
            · exact Or.inl rfl
            · exact Or.inr ((a4 d).2 ⟨q, by omega, hq, hqn, hu⟩)
        refine ⟨k2, l2 ++ c :: l1, freeMono_trans a1 (freeMono_trans b1 d1), ?_, ?_, ?_, ?_, ?_,
          ?_, ?_⟩
        · rw [d2, b2, a2]
          simp
        · rw [List.nodup_append]
          refine ⟨d3, List.nodup_cons.2 ⟨hc_l1, a3⟩, ?_⟩
          intro d hd2 hd1
          obtain ⟨q, hq1, hq2, hqn, hu⟩ := (d4 d).1 hd2
          have hu1 := (hmem_c d).1 hd1
          rw [← hcd] at hu1
          have := under_disjoint hch hx ho' hn0 hq2 hqn hu1 hu
          omega
        · intro d
          rw [List.mem_append]
          constructor
          · rintro (h | h)
            · obtain ⟨q, hq1, hq2, hqn, hu⟩ := (d4 d).1 h
              exact ⟨q, by omega, hq2, hqn, hu⟩
            · refine ⟨o, Nat.le_refl _, ho', hn0, ?_⟩
              rw [hcd]
              exact (hmem_c d).1 h
          · rintro ⟨q, hq1, hq2, hqn, hu⟩
            by_cases hqo : q = o
            · subst hqo
              rw [hcd] at hu
              exact Or.inr ((hmem_c d).2 hu)
            · exact Or.inl ((d4 d).2 ⟨q, by omega, hq2, hqn, hu⟩)
        · intro d hd
          rw [List.mem_append] at hd
          rcases hd with h | h
          · exact d5 d h
          · rw [List.mem_cons] at h
            rcases h with rfl | h
            · exact freedNode_stable d1 hfc
            · exact freedNode_stable d1 (freedNode_stable b1 (a5 d h))
        · intro q hq1 hq2
          by_cases hqo : q = o
          · subst hqo
            have hk2 := freeMono_trans hkb d1
            rw [(freeMono_slot hk2 x q).2.1 hn0]
            simp [free_slot, hn0]
          · exact d6 q (by omega) hq2
        · intro z hzx hz
          rw [List.mem_append, List.mem_cons] at hz
          push_neg at hz
          rw [d7 z hzx hz.1, b3 z hz.2.1, a7 z hz.2.1 hz.2.2]
        · intro k' hk'
          have e1 := d8 k' hk'
          have hct : c ≠ top := by
            intro h
            rw [h] at c4
            have := under_shift_le hch Under.self hx
            omega
          have e2 : FreeDone top ka c XA_CHUNK_SIZE k' := by
            apply freeDone_up hct
            rw [xa_parent, hka.parent, hka.offset, c2, c3]
            exact e1
          have e3 := loop_of_freeDone (by decide) (a8 k' e2)
          obtain ⟨f, e4⟩ := loop_free_node hn (by rw [hsl, hcd]; exact e3)
          exact freeDone_of_loop ho64 e4
      · have hn' : xa_is_node ((k.mem x).slots o) = false := by simpa using hn
        have hn0 : xa_is_node ((k0.mem x).slots o) = false := by
          rw [← s1]
          exact hn'
        obtain ⟨b1, b2, b3, b4⟩ := freeMono_mark k x o hn'
        have hkb := freeMono_trans hk b1
        obtain ⟨k2, l2, d1, d2, d3, d4, d5, d6, d7, d8⟩ := ihm (o + 1) (by omega) _ hkb
        have hslot : ((xas_free_nodes_mark k x o).mem x).slots o =
            free_slot ((k0.mem x).slots o) := by
          rw [b4]
          rcases hk.slots x o with g | ⟨g1, g2, g3⟩
          · rw [g]
          · rw [g3]
            have e1 : free_slot XA_RETRY_ENTRY = XA_RETRY_ENTRY := by decide
            rw [e1]
            unfold free_slot
            rw [if_neg (by
              rw [hn0]
              simp
              exact g1)]
        refine ⟨k2, l2, freeMono_trans b1 d1, by rw [d2, b2], d3, ?_, d5, ?_, ?_, ?_⟩
        · intro d
          constructor
          · intro h
            obtain ⟨q, hq1, hq2, hqn, hu⟩ := (d4 d).1 h
            exact ⟨q, by omega, hq2, hqn, hu⟩
          · rintro ⟨q, hq1, hq2, hqn, hu⟩
            by_cases hqo : q = o
            · subst hqo
              rw [hn0] at hqn
              exact absurd hqn (by decide)
            · exact (d4 d).2 ⟨q, by omega, hq2, hqn, hu⟩
        · intro q hq1 hq2
          by_cases hqo : q = o
          · subst hqo
            exact free_slot_stable hslot (d1.slots x q)
          · exact d6 q (by omega) hq2
        · intro z hzx hz
          rw [d7 z hzx hz, b3 z hzx]
        · intro k' hk'
          obtain ⟨f, e4⟩ := loop_free_leaf hn' (d8 k' hk')
          exact freeDone_of_loop ho64 e4

theorem under_live {k : Kernel} {L : Nat → Prop} (hc : Core k L) {top x : Nat} (ht : L top)
    (h : Under k top x) : L x := by
  induction h with
  | self => exact ht
  | child y o _ ho hn ih => exact ((hc.nodes y ih).child o ho hn).1

/-- In a well-formed array the nodes below a live node form a subtree. -/
theorem subtreeOK_of_core {k : Kernel} {L : Nat → Prop} (hc : Core k L) {top : Nat}
    (ht : L top) : SubtreeOK k top := by
  intro x hx o ho hn
  have hnx := hc.nodes x (under_live hc ht hx)
  obtain ⟨c1, c2, c3⟩ := hnx.child o ho hn
  have hup := (hc.nodes _ c1).up (by rw [c2]; have := hnx.big; omega)
  rw [c2] at hup
  refine ⟨c2, c3, ?_⟩
  show (k.mem ((k.mem x).slots o - 2)).shift < _
  omega

/-- C36: for every subtree below a node `top` whose links are consistent (every
node found in a slot names the node above and the slot as its parent and
offset and lies on a lower level, see `SubtreeOK`), `xas_free_nodes(xas, top)`
returns with enough fuel.  On return the nodes passed to `xa_node_free` by this
call (`new`, the calls added to `rcu_pending`) are the nodes of the subtree,
each of them once; each node of the subtree has `count == 0`,
`nr_values == 0` and `array == XA_RCU_FREE`, each of its slots that held an
entry other than `NULL` or a node pointer holds `XA_RETRY_ENTRY`, and its other
slots and fields are as they were; no node outside the subtree has changed,
and neither has the rest of the state. -/
theorem C36_free_nodes (k : Kernel) (top : Nat) (hwf : SubtreeOK k top) :
    ∃ k' new f0,
      (∀ fuel, f0 ≤ fuel → xas_free_nodes fuel k top = some k') ∧
      k'.rcu_pending = new ++ k.rcu_pending ∧
      (∀ d, d ∈ new ↔ Under k top d) ∧
      (∀ d, Under k top d → List.count d new = 1) ∧
      (∀ d, Under k top d →
        (k'.mem d).count = 0 ∧ (k'.mem d).nr_values = 0 ∧ (k'.mem d).array = XA_RCU_FREE ∧
        (∀ q, q < 64 → (k.mem d).slots q ≠ 0 → xa_is_node ((k.mem d).slots q) = false →
          (k'.mem d).slots q = XA_RETRY_ENTRY) ∧
        (∀ q, q < 64 → ((k.mem d).slots q = 0 ∨ xa_is_node ((k.mem d).slots q) = true) →
          (k'.mem d).slots q = (k.mem d).slots q) ∧
        (k'.mem d).shift = (k.mem d).shift ∧ (k'.mem d).offset = (k.mem d).offset ∧
        (k'.mem d).parent = (k.mem d).parent ∧ (k'.mem d).tags = (k.mem d).tags) ∧
      (∀ z, ¬ Under k top z → k'.mem z = k.mem z) ∧
      k'.xa_head = k.xa_head ∧ k'.xa_flags = k.xa_flags ∧ k'.slab_next = k.slab_next ∧
      k'.slab_calls = k.slab_calls ∧ k'.cache_freed = k.cache_freed := by
  obtain ⟨k2, l, a1, a2, a3, a4, a5, a6, a7, a8⟩ :=
    xas_free_nodes_walk top hwf _ top Under.self rfl 64 0 (by omega) k (freeMono_refl k)
  obtain ⟨b1, b2, b3, b4, b5, b6, b7⟩ := freeMono_freed k2 top
  obtain ⟨f, hf⟩ := loop_of_freeDone (by decide) (a8 _ (freeDone_top top k2))
  have hm := freeMono_trans a1 b1
  have htl : top ∉ l := by
    intro h
    obtain ⟨q, _, hq, hqn, hu⟩ := (a4 top).1 h
    have h1 := (hwf top Under.self q hq hqn).2.2
    have h2 := under_shift_le hwf (Under.child top q Under.self hq hqn) hu
    omega
  have hmem : ∀ d, d ∈ top :: l ↔ Under k top d := by
    intro d
    rw [List.mem_cons]
    constructor
    · rintro (rfl | h)
      · exact Under.self
      · obtain ⟨q, _, hq, hqn, hu⟩ := (a4 d).1 h
        exact under_below hq hqn hu
    · intro h
      rcases under_cases h with rfl | ⟨q, hq, hqn, hu⟩
      · exact Or.inl rfl
      · exact Or.inr ((a4 d).2 ⟨q, by omega, hq, hqn, hu⟩)
  have hnd : (top :: l).Nodup := List.nodup_cons.2 ⟨htl, a3⟩
  have hfreed : ∀ d, Under k top d → FreedNode (k.mem d) ((xas_free_nodes_freed k2 top).mem d) := by
    intro d hd
    rcases List.mem_cons.1 ((hmem d).2 hd) with rfl | h
    · refine ⟨b4, b5, b6, hm.shift d, hm.offset d, hm.parent d, hm.tags d, ?_⟩
      intro q hq
      rw [b7]
      exact a6 q (by omega) hq
    · exact freedNode_stable b1 (a5 d h)
  refine ⟨xas_free_nodes_freed k2 top, top :: l, f, ?_, ?_, hmem, ?_, ?_, ?_, hm.head, hm.flags,
    hm.next, hm.calls, hm.cache⟩
  · intro fuel hfu
    exact xas_free_nodes_loop_le top hfu hf
  · rw [b2, a2]
    rfl
  · intro d hd
    exact List.count_eq_one_of_mem hnd ((hmem d).2 hd)
  · intro d hd
    obtain ⟨c1, c2, c3, c4, c5, c6, c7, c8⟩ := hfreed d hd
    refine ⟨c1, c2, c3, ?_, ?_, c4, c5, c6, c7⟩
    · intro q hq h0 hn
      rw [c8 q hq]
      unfold free_slot
      rw [if_neg (by
        rw [hn]
        simp
        exact h0)]
    · intro q hq h
      rw [c8 q hq]
      unfold free_slot
      rw [if_pos (by
        rcases h with h | h
        · exact Or.inr h
        · exact Or.inl h)]
  · intro z hz
    have hzt : z ≠ top := by
      intro h
      apply hz
      rw [h]
      exact Under.self
    have hzl : z ∉ l := fun h => hz ((hmem z).1 (List.mem_cons_of_mem _ h))
    rw [b3 z hzt, a7 z hzt hzl]

theorem C36_free_nodes_witness :
    ∃ k' new f0,
      (∀ fuel, f0 ≤ fuel → xas_free_nodes fuel ex_two (xa_to_node ex_two.xa_head) = some k') ∧
      k'.rcu_pending = new ++ ex_two.rcu_pending ∧
      (∀ d, d ∈ new ↔ Under ex_two (xa_to_node ex_two.xa_head) d) ∧
      (∀ d, Under ex_two (xa_to_node ex_two.xa_head) d → List.count d new = 1) ∧
      (∀ d, Under ex_two (xa_to_node ex_two.xa_head) d →
        (k'.mem d).count = 0 ∧ (k'.mem d).nr_values = 0 ∧ (k'.mem d).array = XA_RCU_FREE ∧
        (∀ q, q < 64 → (ex_two.mem d).slots q ≠ 0 →
          xa_is_node ((ex_two.mem d).slots q) = false →
          (k'.mem d).slots q = XA_RETRY_ENTRY) ∧
        (∀ q, q < 64 →
          ((ex_two.mem d).slots q = 0 ∨ xa_is_node ((ex_two.mem d).slots q) = true) →
          (k'.mem d).slots q = (ex_two.mem d).slots q) ∧
        (k'.mem d).shift = (ex_two.mem d).shift ∧ (k'.mem d).offset = (ex_two.mem d).offset ∧
        (k'.mem d).parent = (ex_two.mem d).parent ∧ (k'.mem d).tags = (ex_two.mem d).tags) ∧
      (∀ z, ¬ Under ex_two (xa_to_node ex_two.xa_head) z → k'.mem z = ex_two.mem z) ∧
      k'.xa_head = ex_two.xa_head ∧ k'.xa_flags = ex_two.xa_flags ∧
      k'.slab_next = ex_two.slab_next ∧ k'.slab_calls = ex_two.slab_calls ∧
      k'.cache_freed = ex_two.cache_freed :=
  Exists.elim ex_two_wf fun _ hi =>
    C36_free_nodes ex_two (xa_to_node ex_two.xa_head)
      (subtreeOK_of_core hi.core (hi.core.head_node (by decide)).1)

/-! ### Growth of the tree -/

/-- Storing a non-NULL entry at index 0 of an empty array writes the head and
nothing else: no request is made to the node cache. -/
theorem xa_store_head_empty (k : Kernel) (A gfp f : Nat) (hh : k.xa_head = 0) (hA0 : A ≠ 0)
    (hA : xa_is_internal A = false) :
    xa_store (f + 1) k 0 A gfp = some ({ k with xa_head := A }, 0) := by
  have hcr : xas_create (f + 1) k (XA_STATE 0) = some (k, { XA_STATE 0 with xa_node := 0 }, 0) := by
    unfold xas_create
    rw [if_pos (show xas_top (XA_STATE 0).xa_node = true by decide)]
    simp only [xa_head]
    unfold xas_expand
    rw [if_pos hh, if_pos (show xas_max { XA_STATE 0 with xa_node := 0 } = 0 by decide)]
    simp only []
    rw [if_neg (by omega), xas_create_loop]
    rw [if_neg (by simp [to_uint, XA_STATE]), hh]
  have hst : xas_store (f + 1) k (XA_STATE 0) A =
      some ({ k with xa_head := A }, { XA_STATE 0 with xa_node := 0 }, 0) := by
    unfold xas_store
    rw [if_pos hA0, hcr]
    simp only []
    unfold xas_store_tail
    simp only [xas_invalid, XA_STATE]
    rw [if_neg (by decide)]
    simp only [ne_eq, not_true_eq_false, false_and, if_false]
    rw [if_neg (by
      intro h
      exact hA0 h.1.symm)]
    simp only [if_neg hA0, xas_store_loop, slot_store, if_true]
    rw [if_neg (by decide)]
    simp only [update_node, true_or, if_true]
  unfold xa_store
  rw [hA]
  simp only [Bool.false_eq_true, if_false]
  rw [xa_store_loop, hst]
  simp only []
  have hnm : xas_nomem { k with xa_head := A } { XA_STATE 0 with xa_node := 0 } gfp =
      ({ k with xa_head := A }, { XA_STATE 0 with xa_node := 0 }, false) :=
    xas_nomem_done _ _ _ (by decide) rfl
  rw [hnm]
  simp only [Bool.false_eq_true, if_false]
  rw [xas_result_ok _ _ (by decide)]

theorem shr_anti (i : Nat) {a b : Nat} (h : a ≤ b) : i >>> b ≤ i >>> a := by
  rw [Nat.shiftRight_eq_div_pow, Nat.shiftRight_eq_div_pow]
  exact Nat.div_le_div_left (Nat.pow_le_pow_right (by omega) h) (Nat.two_pow_pos a)

theorem shr_ge_of_pos (a s : Nat) (h6 : 6 ≤ s) (h : 0 < a >>> s) : 64 ≤ a >>> (s - 6) := by
  have e : a >>> s = (a >>> (s - 6)) >>> 6 := by
    rw [← Nat.shiftRight_add]
    congr 1
    omega
  rw [e, Nat.shiftRight_eq_div_pow] at h
  have h64 : (2 : Nat) ^ 6 = 64 := by decide
  rw [h64] at h
  by_contra hlt
  have : a >>> (s - 6) / 64 = 0 := Nat.div_eq_of_lt (by omega)
  omega

/-- On the walk of an index there is a node on every level between the level
of a visited node and the level of the head node. -/
theorem visits_levels {k : Kernel} {L : Nat → Prop} (hc : Core k L) {i y : Nat}
    (hv : Visits k i y) :
    ∀ t, t % 6 = 0 → (k.mem y).shift ≤ t → t ≤ (k.mem (k.xa_head - 2)).shift →
      ∃ x, Visits k i x ∧ (k.mem x).shift = t := by
  induction hv with
  | root x hh hn hb =>
    intro t _ h1 h2
    have e : k.xa_head - 2 = x := by omega
    rw [e] at h2
    exact ⟨x, Visits.root x hh hn hb, by omega⟩
  | step x c hvx hs hn ih =>
    intro t ht h1 h2
    obtain ⟨e1, _, _, hcl, hxl⟩ := visits_child_shift hc hvx hs hn
    have h6 := (hc.nodes c hcl).shift6
    by_cases hte : t = (k.mem c).shift
    · exact ⟨c, Visits.step x c hvx hs hn, hte.symm⟩
    · exact ih t ht (by omega) h2

/-- After a successful store of a non-NULL entry at an index `i ≥ 1` into an
array that holds nothing above index 0, the head is a node of the least level
that takes `i`, and the walk of `i` passes one node on every level down to the
leaf that holds the entry. -/
theorem store_grows {k : Kernel} {L : Nat → Prop} (hi : Inv k L) (hm : NoMulti k L)
    (ht : Tight k L) (hfit : Fits k) (fuel : Nat) (hf : 64 ≤ fuel)
    (hemp : ∀ j, 0 < j → j < 2 ^ 64 → xa_load fuel k j = some 0)
    (i e gfp : Nat) (hi1 : 0 < i) (hi64 : i < 2 ^ 64) (he0 : e ≠ 0)
    (he : xa_is_internal e = false) {k' : Kernel} {r : Nat}
    (hst : xa_store fuel k i e gfp = some (k', r)) (hok : xa_is_err r = false) :
    WF k' ∧ xa_is_node k'.xa_head = true ∧
    (k'.mem (k'.xa_head - 2)).shift % 6 = 0 ∧
    i >>> (k'.mem (k'.xa_head - 2)).shift < 64 ∧
    0 < i >>> (k'.mem (k'.xa_head - 2)).shift ∧
    (∃ y, Visits k' i y ∧ (k'.mem y).shift = 0 ∧ (k'.mem y).slots (i % 64) = e) ∧
    (∀ t, t % 6 = 0 → t ≤ (k'.mem (k'.xa_head - 2)).shift →
      ∃ x, Visits k' i x ∧ (k'.mem x).shift = t ∧
        ∀ y, Visits k' i y → (k'.mem y).shift = t → y = x) ∧
    xa_load fuel k' i = some e := by
  have hc := hi.core
  obtain ⟨L', s1, _, s3, s4⟩ := xa_store_gen hi i e gfp fuel hi64 he he0 (by omega) hst
  rcases s4 with ⟨_, u, _⟩ | ⟨_, _, w, u1, u2, u3, u4⟩
  · rw [hok] at u
    exact absurd u (by decide)
  have hc' := s1.core
  have hm' := s3 hm
  have ht' := u4 (tight_pre ht i)
  have hload : xa_load fuel k' i = some e := by
    rw [xa_load_of_loc hc' (by omega) u1, u2]
  cases w with
  | head =>
    exfalso
    have := u1.2
    omega
  | bounds => exact absurd u2.symm he0
  | slot y o =>
    obtain ⟨hv, hcan, hnn⟩ := loc_slot_iff.1 u1
    obtain ⟨hy, ho64, _⟩ := loc_slot_facts hc' u1
    obtain ⟨hhn, hb⟩ := visits_head_bound hv
    have hroot := (hc'.head_node hhn).1
    have hnr := hc'.nodes _ hroot
    have hslot : (k'.mem y).slots o = e := u2
    have hsh0 : (k'.mem y).shift = 0 := by
      by_contra hne
      have := (hm' y hy o ho64).2 hne (by rw [hslot]; exact he0)
      rw [hnn] at this
      exact absurd this (by decide)
    have hsib : xa_is_sibling ((k'.mem y).slots (get_offset i (k'.mem y))) = false :=
      (hm' y hy _ (get_offset_lt _ _)).1
    have ho : o = i % 64 := by
      rw [hcan]
      unfold canon
      rw [hsib]
      simp only [Bool.false_eq_true, if_false]
      rw [get_offset_eq, hsh0, Nat.shiftRight_zero]
    -- the root holds something beyond slot 0, and only `i` can lie below it
    obtain ⟨q, hq0, hq64, hqs⟩ := ht'.2 hhn
    have hgt : k'.xa_head > 4096 := by
      unfold xa_is_node at hhn
      simp only [Bool.and_eq_true, decide_eq_true_eq] at hhn
      exact hhn.2
    have hh : k'.xa_head = (k'.xa_head - 2) + 2 := by omega
    have hv0 : Visits k' 0 (k'.xa_head - 2) :=
      Visits.root _ hh (by rw [← hh]; exact hhn) (by simp)
    have hblk := nodeBlock_of_visits hc' hv0
    rw [Nat.zero_shiftRight] at hblk
    obtain ⟨j, w', g1, g2, g3⟩ := entry_slot_below s1 hm' ht'.1 _ _ _ q hroot rfl hblk hq64 hqs
    have hji : j = i := by
      by_cases hw : w' = Place.slot y o
      · rw [hw] at g1
        exact loc_inj_place hc' hm' g1 u1 (by rw [u2]; exact he0)
      · exfalso
        obtain ⟨w1, hl1⟩ := loc_exists hc j
        obtain ⟨w2, f1, f2, _⟩ := u3 j w1 hl1
        have hw2 : w' = w2 := loc_unique hc' g1 f1
        rw [hw2] at hw g2
        rw [f2 hw] at g2
        by_cases hj64 : j < 2 ^ 64
        · have hj0 : 0 < j := by
            by_contra h0
            have : j = 0 := by omega
            rw [this, Nat.zero_shiftRight] at g3
            omega
          have h2 := hemp j hj0 hj64
          rw [xa_load_of_loc hc (by omega) hl1] at h2
          exact g2 (Option.some.inj h2)
        · exact g2 (hfit j w1 (by omega) hl1)
    rw [hji] at g3
    refine ⟨⟨L', s1⟩, hhn, hnr.shift6, by omega, by omega, ⟨y, hv, hsh0, by rw [← ho]; exact hslot⟩,
      ?_, hload⟩
    intro t ht6 htle
    obtain ⟨x, hx1, hx2⟩ := visits_levels hc' hv t ht6 (by omega) htle
    exact ⟨x, hx1, hx2, fun y' hy1 hy2 => visits_same_shift hc' hy1 hx1 (by rw [hy2, hx2])⟩

theorem ex_empty_reads_null (j : Nat) : xa_load 64 ex_empty j = some 0 := by
  have hi := inv_init 0 0 4096 (fun _ _ => true) (by decide) (by decide) (by decide)
  obtain ⟨w, hw⟩ := loc_exists hi.core j
  have h := xa_load_of_loc hi.core (show 12 ≤ 64 by decide) hw
  rw [empty_reads_null rfl hw] at h
  exact h

theorem ex_million_store : xa_store 64 ex_empty 1000000 8 0 = some (ex_million, 0) := by
  have hsome : (xa_store 64 ex_empty 1000000 8 0).map Prod.snd = some 0 := by
    decide
  cases hs : xa_store 64 ex_empty 1000000 8 0 with
  | none =>
    rw [hs] at hsome
    exact absurd hsome (by simp)
  | some p =>
    obtain ⟨k', r⟩ := p
    rw [hs] at hsome
    have hr : r = 0 := by simpa using hsome
    subst hr
    have e : ex_million = k' := by
      unfold ex_million ex_after
      rw [hs]
      rfl
    rw [e]

/-- C31: let the array be in a state reached through `xa_store`, `xa_erase`,
`xa_set_tag` and `xa_clear_tag` (whatever the node cache grants, every store
having succeeded) that holds nothing above index 0.  (a) If the array is empty,
`xa_store(xa, 0, A)` of a non-NULL entry returns `NULL` and changes nothing but
the head, which becomes `A`: no node is written, no request is made to the node
cache, and the head is not a node.  (b) For every index `i >= 1`, after a
successful `xa_store(xa, i, e)` of a non-NULL entry the head is a node whose
shift `s` is a multiple of `XA_CHUNK_SHIFT` with `(i >> s) < XA_CHUNK_SIZE`,
and the least such; the walk of `i` passes exactly one node on each level
`t = 0, 6, ..., s`, the node on level 0 holds `e` in slot `i % 64`, and
`xa_load(xa, i)` returns `e`.  For `i = 1000000` the shift of the head node is
18, so the tree has 4 levels. -/
theorem C31_tree_growth (fuel : Nat) (k : Kernel) (hr : ReachedOK fuel k) (hf : 64 ≤ fuel)
    (hemp : ∀ j, 0 < j → j < 2 ^ 64 → xa_load fuel k j = some 0) :
    (∀ A gfp, A ≠ 0 → xa_is_internal A = false → k.xa_head = 0 →
      ∃ k', xa_store fuel k 0 A gfp = some (k', 0) ∧ k'.xa_head = A ∧ k'.mem = k.mem ∧
        k'.slab_next = k.slab_next ∧ k'.slab_calls = k.slab_calls ∧
        xa_is_node k'.xa_head = false) ∧
    (∀ i e gfp k' r, 0 < i → i < 2 ^ 64 → e ≠ 0 → xa_is_internal e = false →
      xa_store fuel k i e gfp = some (k', r) → xa_is_err r = false →
      xa_is_node k'.xa_head = true ∧
      (k'.mem (xa_to_node k'.xa_head)).shift % XA_CHUNK_SHIFT = 0 ∧
      i >>> (k'.mem (xa_to_node k'.xa_head)).shift < XA_CHUNK_SIZE ∧
      (∀ s, s % XA_CHUNK_SHIFT = 0 → i >>> s < XA_CHUNK_SIZE →
        (k'.mem (xa_to_node k'.xa_head)).shift ≤ s) ∧
      (∀ t, t % XA_CHUNK_SHIFT = 0 → t ≤ (k'.mem (xa_to_node k'.xa_head)).shift →
        ∃ x, Visits k' i x ∧ (k'.mem x).shift = t ∧
          ∀ y, Visits k' i y → (k'.mem y).shift = t → y = x) ∧
      (∃ y, Visits k' i y ∧ (k'.mem y).shift = 0 ∧ (k'.mem y).slots (i % 64) = e) ∧
      xa_load fuel k' i = some e ∧
      (i = 1000000 → (k'.mem (xa_to_node k'.xa_head)).shift = 18 ∧
        (k'.mem (xa_to_node k'.xa_head)).shift / XA_CHUNK_SHIFT + 1 = 4)) := by
  obtain ⟨L, hi, hm, ht, hfit⟩ := reachedOK_facts hr hf
  refine ⟨?_, ?_⟩
  · intro A gfp hA0 hA hh
    obtain ⟨f, rfl⟩ : ∃ f, fuel = f + 1 := ⟨fuel - 1, by omega⟩
    refine ⟨_, xa_store_head_empty k A gfp f hh hA0 hA, rfl, rfl, rfl, rfl, ?_⟩
    show xa_is_node A = false
    exact not_internal_not_node _ hA
  · intro i e gfp k' r hi1 hi64 he0 he hst hok
    obtain ⟨_, g1, g2, g3, g4, g5, g6, g7⟩ :=
      store_grows hi hm ht hfit fuel hf hemp i e gfp hi1 hi64 he0 he hst hok
    have hleast : ∀ s, s % 6 = 0 → i >>> s < 64 → (k'.mem (k'.xa_head - 2)).shift ≤ s := by
      intro s hs6 hlt
      by_contra hgt
      have h6 : 6 ≤ (k'.mem (k'.xa_head - 2)).shift := by omega
      have h1 := shr_ge_of_pos i _ h6 g4
      have h2 := shr_anti i (show s ≤ (k'.mem (k'.xa_head - 2)).shift - 6 by omega)
      omega
    refine ⟨g1, g2, g3, hleast, g6, g5, g7, ?_⟩
    intro hmil
    have h18 : (k'.mem (k'.xa_head - 2)).shift = 18 := by
      rw [hmil] at g3 g4
      have a1 : (1000000 : Nat) >>> 12 = 244 := by decide
      have a2 : (1000000 : Nat) >>> 24 = 0 := by decide
      by_contra hne
      by_cases hlt : (k'.mem (k'.xa_head - 2)).shift < 18
      · have := shr_anti 1000000 (show (k'.mem (k'.xa_head - 2)).shift ≤ 12 by omega)
        omega
      · have := shr_anti 1000000 (show 24 ≤ (k'.mem (k'.xa_head - 2)).shift by omega)
        omega
    show (k'.mem (k'.xa_head - 2)).shift = 18 ∧ (k'.mem (k'.xa_head - 2)).shift / 6 + 1 = 4
    rw [h18]
    exact ⟨rfl, rfl⟩

theorem C31_tree_growth_witness :
    (∃ k', xa_store 64 ex_empty 0 8 0 = some (k', 0) ∧ k'.xa_head = 8 ∧
      k'.mem = ex_empty.mem ∧ k'.slab_next = ex_empty.slab_next ∧
      k'.slab_calls = ex_empty.slab_calls ∧ xa_is_node k'.xa_head = false) ∧
    (xa_is_node ex_million.xa_head = true ∧
      (ex_million.mem (xa_to_node ex_million.xa_head)).shift % XA_CHUNK_SHIFT = 0 ∧
      1000000 >>> (ex_million.mem (xa_to_node ex_million.xa_head)).shift < XA_CHUNK_SIZE ∧
      (∀ s, s % XA_CHUNK_SHIFT = 0 → 1000000 >>> s < XA_CHUNK_SIZE →
        (ex_million.mem (xa_to_node ex_million.xa_head)).shift ≤ s) ∧
      (∀ t, t % XA_CHUNK_SHIFT = 0 →
        t ≤ (ex_million.mem (xa_to_node ex_million.xa_head)).shift →
        ∃ x, Visits ex_million 1000000 x ∧ (ex_million.mem x).shift = t ∧
          ∀ y, Visits ex_million 1000000 y → (ex_million.mem y).shift = t → y = x) ∧
      (∃ y, Visits ex_million 1000000 y ∧ (ex_million.mem y).shift = 0 ∧
        (ex_million.mem y).slots (1000000 % 64) = 8) ∧
      xa_load 64 ex_million 1000000 = some 8 ∧
      (1000000 = 1000000 → (ex_million.mem (xa_to_node ex_million.xa_head)).shift = 18 ∧
        (ex_million.mem (xa_to_node ex_million.xa_head)).shift / XA_CHUNK_SHIFT + 1 = 4)) :=
  ⟨(C31_tree_growth 64 ex_empty (ReachedOK.init 0 0 4096 _ (by decide) (by decide) (by decide))
      (by decide) (fun j _ _ => ex_empty_reads_null j)).1 8 0 (by decide) (by decide) rfl,
    (C31_tree_growth 64 ex_empty (ReachedOK.init 0 0 4096 _ (by decide) (by decide) (by decide))
      (by decide) (fun j _ _ => ex_empty_reads_null j)).2 1000000 8 0 ex_million 0 (by decide)
      (by decide) (by decide) (by decide) ex_million_store (by decide)⟩

/-! ### `xa_cmpxchg` with any node cache -/

theorem xas_start_restart (k : Kernel) (xas : xa_state) (hn : xas.xa_node = XAS_RESTART) :
    xas_start k xas =
      if xa_is_node k.xa_head = true then
        if (xas.xa_index >>> (k.mem (xa_to_node k.xa_head)).shift) > XA_CHUNK_MASK then
          ({ xas with xa_node := XAS_BOUNDS }, 0)
        else ({ xas with xa_node := 0 }, k.xa_head)
      else
        if xas.xa_index ≠ 0 then ({ xas with xa_node := XAS_BOUNDS }, 0)
        else ({ xas with xa_node := 0 }, k.xa_head) := by
  have h1 : xas_valid xas = false := by
    simp [xas_valid, xas_invalid, hn]
  have h2 : xas_error xas = 0 := by
    simp [xas_error, hn, xa_err, xa_is_err, xa_is_internal]
  unfold xas_start
  simp only [h1, h2, Bool.false_eq_true, if_false, ne_eq, not_true_eq_false, xa_head, set_bounds]
  by_cases hq : xa_is_node k.xa_head = true
  · simp [hq]
  · simp [hq]

/-- `xas_load` with a cursor in the restart state walks to the place of the
cursor's index; it leaves `xa_sibs` and `xa_alloc` alone. -/
theorem xas_load_restart {k : Kernel} {L : Nat → Prop} (hc : Core k L) (i fuel : Nat)
    (xas : xa_state) (hn : xas.xa_node = XAS_RESTART) (hidx : xas.xa_index = i)
    (hs0 : xas.xa_shift = 0) (hf : 12 ≤ fuel) :
    ∃ w xas', xas_load fuel k xas = some (xas', entry_at k w) ∧ Loc k i w ∧
      xas'.xa_node = w.node ∧ (∀ y o, w = Place.slot y o → xas'.xa_offset = o) ∧
      xas'.xa_shift = 0 ∧ xas'.xa_sibs = xas.xa_sibs ∧ xas'.xa_alloc = xas.xa_alloc ∧
      ((entry_at k w = 0 ∨ w = Place.head) → xas'.xa_index = i) := by
  subst hidx
  unfold xas_load
  rw [xas_start_restart k xas hn]
  by_cases hq : xa_is_node k.xa_head = true
  · obtain ⟨e1, e2, e3⟩ := is_node_split _ hq
    have hr := (hc.head_node hq).1
    have hnr := hc.nodes _ hr
    rw [if_pos hq]
    by_cases hb : (xas.xa_index >>> (k.mem (xa_to_node k.xa_head)).shift) > XA_CHUNK_MASK
    · rw [if_pos hb]
      simp only []
      rw [xas_load_loop_leaf _ _ _ _ (show xa_is_node 0 = false by decide) (by omega)]
      exact ⟨Place.bounds, _, rfl, Or.inr ⟨hq, hb⟩, rfl, fun _ _ h => Place.noConfusion h, hs0,
        rfl, rfl, fun _ => rfl⟩
    · rw [if_neg hb]
      simp only []
      have hv : Visits k xas.xa_index (k.xa_head - 2) :=
        Visits.root _ e1 (by rw [← e1]; exact hq) (by
          simp only [xa_to_node] at hb
          omega)
      have hs := hnr.shift_le
      obtain ⟨y, o, xas', h1, h2, h3, h4, h5, h6, h7, h8⟩ :=
        xas_load_loop_spec hc xas.xa_index fuel _ { xas with xa_node := 0 } hv (by omega) rfl hs0
      rw [← e1] at h1
      refine ⟨Place.slot y o, xas', h1, h2, h3, ?_, h5, h6, h7,
        fun h => h8 (h.resolve_right (by simp))⟩
      intro y' o' hw
      simp only [Place.slot.injEq] at hw
      rw [← hw.2]
      exact h4
  · rw [if_neg hq]
    simp at hq
    by_cases h0 : xas.xa_index = 0
    · rw [if_neg (by simpa using h0)]
      simp only []
      rw [xas_load_loop_leaf _ _ _ _ hq (by omega)]
      exact ⟨Place.head, _, rfl, ⟨hq, h0⟩, rfl, fun _ _ h => Place.noConfusion h, hs0, rfl, rfl,
        fun _ => rfl⟩
    · rw [if_pos h0]
      simp only []
      rw [xas_load_loop_leaf _ _ _ _ (show xa_is_node 0 = false by decide) (by omega)]
      exact ⟨Place.bounds, _, rfl, Or.inl ⟨hq, h0⟩, rfl, fun _ _ h => Place.noConfusion h, hs0,
        rfl, rfl, fun _ => rfl⟩

/-- `xas_create` with a cursor that `xas_load` has walked to the place of its
index, with any node cache. -/
theorem xas_create_walked_gen {k : Kernel} {L : Nat → Prop} (hi : Inv k L)
    (i fuel : Nat) (xas : xa_state) (w0 : Place) (hi64 : i < 2 ^ 64) (hl : Loc k i w0)
    (hnode : xas.xa_node = w0.node) (hoff : ∀ y o, w0 = Place.slot y o → xas.xa_offset = o)
    (hs0 : xas.xa_shift = 0) (hsib : xas.xa_sibs = 0) (hp : Spare k L xas.xa_alloc)
    (hidx : (entry_at k w0 = 0 ∨ w0 = Place.head) → xas.xa_index = i) (hf : 14 ≤ fuel) :
    ∃ k' L' xas' r, xas_create fuel k xas = some (k', xas', r) ∧
      Keeps i k k' L L' ∧ xas'.xa_shift = 0 ∧ xas'.xa_sibs = 0 ∧
      ((xas'.xa_node = XA_ERROR (-ENOMEM) ∧ xas'.xa_alloc = 0 ∧ xas'.xa_index = i ∧ r = 0) ∨
       (∃ w, r = entry_at k' w ∧ Loc k' i w ∧ xas'.xa_node = w.node ∧ w ≠ Place.bounds ∧
          Spare k' L' xas'.xa_alloc ∧
          (∀ y o, w = Place.slot y o → xas'.xa_offset = o ∧
            ((k'.mem y).shift = 0 ∨ (k'.mem y).slots o ≠ 0)))) := by
  have hc := hi.core
  cases w0 with
  | head =>
    exact xas_create_top_gen hi i fuel xas hi64 (hidx (Or.inr rfl)) hs0 hsib hp
      (by rw [hnode]; decide) hf
  | bounds =>
    exact xas_create_top_gen hi i fuel xas hi64 (hidx (Or.inl rfl)) hs0 hsib hp
      (by rw [hnode]; decide) hf
  | slot y o =>
    have hn0 : xas.xa_node = y := hnode
    have ho : xas.xa_offset = o := hoff y o rfl
    obtain ⟨hy0, hyal⟩ := loc_slot_nonzero_node hc hl
    obtain ⟨hy, ho64, hold⟩ := loc_slot_facts hc hl
    obtain ⟨hv, hcan, hnn⟩ := loc_slot_iff.1 hl
    have hny := hc.nodes y hy
    have hbig := hny.big
    unfold xas_create
    rw [if_neg (by
      rw [hn0]
      show ¬ (decide (y ≤ 3) = true)
      simp only [decide_eq_true_eq]
      omega)]
    rw [if_neg (by rw [xas_error_aligned xas (by rw [hn0]; exact hyal)]; simp)]
    rw [if_pos (by rw [hn0]; exact hy0), hs0, hn0]
    simp only [xa_entry]
    obtain ⟨k', L', xas', r, r1, r2, r3, r4, r5⟩ :=
      xas_create_loop_gen i fuel k L xas y hi hp hs0 hv hn0 (by rw [ho]; exact hcan)
        (by
          intro h
          rw [ho] at h
          rcases h with h | h
          · refine ⟨hidx (Or.inl h), ?_⟩
            rw [ho, hcan]
            unfold canon
            split_ifs with hsb
            · exfalso
              have hint : xa_is_internal ((k.mem y).slots (get_offset i (k.mem y))) = true := by
                rw [xa_is_sibling_iff] at hsb
                rw [xa_is_internal_iff]
                exact hsb.1
              have hnd : xa_is_node ((k.mem y).slots (get_offset i (k.mem y))) = false := by
                cases hq : xa_is_node ((k.mem y).slots (get_offset i (k.mem y)))
                · rfl
                · rw [is_node_not_sibling _ hq] at hsb
                  exact absurd hsb (by simp)
              have := (hny.sib _ (get_offset_lt _ _) hint hnd).2.2.2.1
              apply this
              have hc2 : o = xa_to_sibling ((k.mem y).slots (get_offset i (k.mem y))) := by
                rw [hcan]
                simp [canon, hsb]
              rw [← hc2]
              exact h
            · rfl
          · rw [hnn] at h
            exact absurd h (by simp))
        (by have := hny.shift_le; omega)
    refine ⟨k', L', xas', r, r1, r2, r3, by rw [r4, hsib], ?_⟩
    rcases r5 with r5 | ⟨z, t1, t2, t3, t4, t5⟩
    · exact Or.inl r5
    · refine Or.inr ⟨Place.slot z xas'.xa_offset, t1, t2, t3, by simp, t4, ?_⟩
      intro y' o' hw
      simp only [Place.slot.injEq] at hw
      rw [← hw.1, ← hw.2]
      exact ⟨rfl, t5⟩

/-- `xas_nomem` on a cursor that carries no error: it frees the spare node, if
any, and asks for no retry. -/
theorem xas_nomem_noerr (k : Kernel) (xas : xa_state) (gfp : Nat)
    (h4 : xas.xa_node % 4 ≠ 2) :
    ∃ k', xas_nomem k xas gfp = (k', { xas with xa_alloc := 0 }, false) ∧ SameMem k k' ∧
      k'.slab_next = k.slab_next := by
  have hne : xas.xa_node ≠ XA_ERROR (-ENOMEM) := by
    intro h
    have := xa_error_enomem_mod
    rw [← h] at this
    omega
  unfold xas_nomem
  rw [if_pos hne]
  unfold xas_destroy
  by_cases ha : xas.xa_alloc = 0
  · rw [if_pos ha]
    refine ⟨k, ?_, ⟨rfl, rfl, rfl⟩, rfl⟩
    have hx : ({ xas with xa_alloc := 0 } : xa_state) = xas := by
      cases xas
      simp only at ha
      simp [ha]
    rw [hx]
  · rw [if_neg ha]
    exact ⟨_, rfl, ⟨rfl, rfl, rfl⟩, rfl⟩

/-- The retry loop of `xa_cmpxchg` for a non-NULL entry, with any node cache:
when it returns, the entry `curr` it hands on is the one read at the index
before the call; it has given up with `-ENOMEM`, or found another entry than
`old` (in both cases every index reads what it read before), or it has stored
the entry. -/
theorem xa_cmpxchg_loop_gen (i old e gfp F : Nat) (hi64 : i < 2 ^ 64)
    (he : xa_is_internal e = false) (he0 : e ≠ 0) (hF : 14 ≤ F) :
    ∀ n k L xas, Inv k L → xas.xa_node = XAS_RESTART → xas.xa_index = i → xas.xa_shift = 0 →
      xas.xa_sibs = 0 → Spare k L xas.xa_alloc →
      ∀ k' xas' curr, xa_cmpxchg_loop xas_nomem F old e gfp n k xas = some (k', xas', curr) →
      ∃ L', Inv k' L' ∧ k'.xa_flags = k.xa_flags ∧ (∀ w0, Loc k i w0 → curr = entry_at k w0) ∧
        ((xas'.xa_node = XA_ERROR (-ENOMEM) ∧ curr = old ∧ Sim k k') ∨
         (xas'.xa_node % 4 ≠ 2 ∧ curr ≠ old ∧ Sim k k') ∨
         (xas'.xa_node % 4 = 0 ∧ curr = old ∧ ∃ w, Loc k' i w ∧ entry_at k' w = e ∧
            ∀ j w1, Loc k j w1 → ∃ w2, Loc k' j w2 ∧
              (w2 ≠ w → entry_at k' w2 = entry_at k w1) ∧
              ∀ t, t < 3 → tag_at k' t w2 = tag_at k t w1)) := by
  intro n
  induction n with
  | zero =>
    intro k L xas _ _ _ _ _ _ k' xas' curr h
    simp [xa_cmpxchg_loop] at h
  | succ f ih =>
    intro k L xas hi hnode hidx hs0 hsib hp k' xas' curr h
    have hc := hi.core
    obtain ⟨w, xas1, l1, l2, l3, l4, l5, l6, l7, l8⟩ :=
      xas_load_restart hc i F xas hnode hidx hs0 (by omega)
    rw [xa_cmpxchg_loop, l1] at h
    simp only [] at h
    have hcurr : ∀ w0, Loc k i w0 → entry_at k w = entry_at k w0 := by
      intro w0 hl0
      rw [loc_unique hc hl0 l2]
    by_cases hco : entry_at k w = old
    · rw [if_pos hco] at h
      obtain ⟨k1, L1, x1, c1, b, e1, r1, r2, r3, r4⟩ :=
        xa_store_round_core i e gfp F xas1 he he0 hF
          (xas_create_walked_gen hi i F xas1 w hi64 l2 l3 l4 l5 (by rw [l6, hsib])
            (by rw [l7]; exact hp) l8 hF)
      unfold xa_store_round at e1
      cases hst : xas_store F k xas1 e with
      | none =>
        rw [hst] at e1
        exact absurd e1 (by simp)
      | some res =>
        obtain ⟨k2, x2, c2⟩ := res
        rw [hst] at e1 h
        simp only [Option.some.injEq, Prod.mk.injEq] at e1
        obtain ⟨e1a, e1b, e1c, e1d⟩ := e1
        simp only [Option.map] at h
        rw [e1a, e1b, e1d] at h
        rcases r4 with ⟨rfl, q1, q2, q3, q4, q5, q6, q7, _⟩ | ⟨rfl, q1, q2, q3, _⟩ |
          ⟨rfl, q1, q2, w', q3, q4, q5, q6⟩
        · -- another round
          rw [if_pos rfl] at h
          obtain ⟨L', s1, s2, s3, s4⟩ := ih k1 L1 x1 r1 q3 q4 q5 q6 q7 k' xas' curr h
          have hs3 : ∀ w0, Loc k i w0 → curr = entry_at k w0 := by
            intro w0 hl0
            obtain ⟨w2, h1, h2, _⟩ := q1 i w0 hl0
            rw [s3 w2 h1, h2]
          refine ⟨L', s1, by rw [s2, r2], hs3, ?_⟩
          rcases s4 with ⟨u1, u2, u3⟩ | ⟨u1, u2, u3⟩ | ⟨u1, u2, w2, u3, u4, u5⟩
          · exact Or.inl ⟨u1, u2, sim_trans q1 u3⟩
          · exact Or.inr (Or.inl ⟨u1, u2, sim_trans q1 u3⟩)
          · refine Or.inr (Or.inr ⟨u1, u2, w2, u3, u4, ?_⟩)
            intro j w1 hj
            obtain ⟨w3, h1, h2, h3⟩ := q1 j w1 hj
            obtain ⟨w4, g1, g2, g3⟩ := u5 j w3 h1
            refine ⟨w4, g1, ?_, ?_⟩
            · intro hne
              rw [g2 hne, h2]
            · intro t ht
              rw [g3 t ht, h3 t ht]
        · rw [if_neg (by simp)] at h
          simp only [Option.some.injEq, Prod.mk.injEq] at h
          obtain ⟨rfl, rfl, rfl⟩ := h
          exact ⟨L1, r1, r2, fun w0 hl0 => hcurr w0 hl0, Or.inl ⟨q1, hco, q2⟩⟩
        · rw [if_neg (by simp)] at h
          simp only [Option.some.injEq, Prod.mk.injEq] at h
          obtain ⟨rfl, rfl, rfl⟩ := h
          exact ⟨L1, r1, r2, fun w0 hl0 => hcurr w0 hl0,
            Or.inr (Or.inr ⟨q1, hco, w', q3, q4, q5⟩)⟩
    · rw [if_neg hco] at h
      simp only [] at h
      have h4 : xas1.xa_node % 4 ≠ 2 := by
        rw [l3]
        exact place_node_plain hc l2
      obtain ⟨k2, n1, n2, n3⟩ := xas_nomem_noerr k xas1 gfp h4
      rw [n1] at h
      simp only [Bool.false_eq_true, if_false, Option.some.injEq, Prod.mk.injEq] at h
      obtain ⟨rfl, rfl, rfl⟩ := h
      have hi2 : Inv k2 L :=
        sameMem_inv hi n2 (by rw [n3]; exact hc.slab_align) (by rw [n3]; exact hc.slab_big)
          (fun y hy => by rw [n3]; exact (hc.nodes y hy).below)
      exact ⟨L, hi2, n2.2.1, fun w0 hl0 => hcurr w0 hl0,
        Or.inr (Or.inl ⟨h4, hco, sameMem_sim n2⟩)⟩

/-- The retry loop of `xa_cmpxchg` when nothing has to be allocated (the new
entry is `NULL`, or the entry found is not `old`): it returns after one round
with the entry read at the index and a cursor that carries no error. -/
theorem xa_cmpxchg_loop_plain {k : Kernel} {L : Nat → Prop} (hi : Inv k L)
    (i old e gfp fuel : Nat) (w0 : Place) (hl0 : Loc k i w0)
    (hcase : e = 0 ∨ entry_at k w0 ≠ old) (hf : 64 ≤ fuel) :
    ∃ k' L' xas', xa_cmpxchg_loop xas_nomem fuel old e gfp fuel k (XA_STATE i) =
        some (k', xas', entry_at k w0) ∧ Inv k' L' ∧ xas'.xa_node % 4 ≠ 2 ∧
      (entry_at k w0 ≠ old → k' = k) ∧
      (entry_at k w0 = old → ∃ w, Loc k' i w ∧ entry_at k' w = e) := by
  have hc := hi.core
  obtain ⟨w, xas1, l1, l2⟩ := xas_load_walked hc i fuel (by omega)
  have hw : w = w0 := loc_unique hc l2.loc hl0
  subst hw
  obtain ⟨f, rfl⟩ : ∃ f, fuel = f + 1 := ⟨fuel - 1, by omega⟩
  rw [xa_cmpxchg_loop, l1]
  simp only []
  by_cases hco : entry_at k w = old
  · rw [if_pos hco]
    have he0 : e = 0 := hcase.resolve_right (fun h => h hco)
    subst he0
    obtain ⟨k', L', xas', s1, s2, s3, s4, s5, s6, s7, _⟩ :=
      xas_store_null hi i (f + 1) xas1 w hl0 (Or.inr l2) hf
    rw [s1]
    simp only [Option.map, xas_nomem_plain k' xas' gfp s7 s6, Bool.false_eq_true, if_false]
    refine ⟨k', L', xas', rfl, s2, s7, fun h => absurd hco h, ?_⟩
    intro _
    obtain ⟨w2, h1, h2, _⟩ := s3 i w hl0
    exact ⟨w2, h1, (h2 rfl).1⟩
  · rw [if_neg hco]
    have h4 : xas1.xa_node % 4 ≠ 2 := by
      rw [l2.node]
      exact place_node_plain hc hl0
    simp only [xas_nomem_plain k xas1 gfp h4 l2.alloc, Bool.false_eq_true, if_false]
    exact ⟨k, L, xas1, rfl, hi, h4, fun _ => rfl, fun h => absurd h hco⟩

/-- Every state reached through the normal API is well formed, whatever the
node cache grants and whatever the calls return. -/
theorem reachedAPI_wf {fuel : Nat} {k : Kernel} (hr : ReachedAPI fuel k) (hf : 64 ≤ fuel) :
    WF k := by
  have store_null : ∀ (k : Kernel) (i gfp : Nat) (k' : Kernel) (r : Nat),
      WF k → xa_store fuel k i 0 gfp = some (k', r) → WF k' := by
    intro k i gfp k' r ih hst
    obtain ⟨L, hi⟩ := ih
    obtain ⟨w0, hl0⟩ := loc_exists hi.core i
    obtain ⟨k2, L2, s1, s2, _⟩ := xa_store_null hi i gfp fuel w0 hl0 hf
    rw [s1] at hst
    simp only [Option.some.injEq, Prod.mk.injEq] at hst
    obtain ⟨rfl, _⟩ := hst
    exact ⟨L2, s2⟩
  have cmpxchg : ∀ (k : Kernel) (i old e gfp : Nat) (k' : Kernel) (r : Nat), i < 2 ^ 64 →
      WF k → xa_cmpxchg fuel k i old e gfp = some (k', r) → WF k' := by
    intro k i old e gfp k' r hi64 ih hst
    by_cases he : xa_is_internal e = true
    · simp only [xa_cmpxchg, he, if_true, Option.some.injEq, Prod.mk.injEq] at hst
      rw [← hst.1]
      exact ih
    · have he' : xa_is_internal e = false := by simpa using he
      obtain ⟨L, hi⟩ := ih
      unfold xa_cmpxchg at hst
      rw [he'] at hst
      simp only [Bool.false_eq_true, if_false] at hst
      cases hl : xa_cmpxchg_loop xas_nomem fuel old e gfp fuel k (XA_STATE i) with
      | none =>
        rw [hl] at hst
        exact absurd hst (by simp)
      | some res =>
        obtain ⟨k1, xas1, curr⟩ := res
        rw [hl] at hst
        simp only [Option.some.injEq, Prod.mk.injEq] at hst
        obtain ⟨rfl, _⟩ := hst
        by_cases he0 : e = 0
        · obtain ⟨w0, hl0⟩ := loc_exists hi.core i
          obtain ⟨k2, L2, x2, s1, s2, _⟩ :=
            xa_cmpxchg_loop_plain hi i old e gfp fuel w0 hl0 (Or.inl he0) hf
          rw [s1] at hl
          simp only [Option.some.injEq, Prod.mk.injEq] at hl
          rw [← hl.1]
          exact ⟨L2, s2⟩
        · obtain ⟨L', s1, _⟩ :=
            xa_cmpxchg_loop_gen i old e gfp fuel hi64 he' he0 (by omega) fuel k L (XA_STATE i)
              hi rfl rfl rfl rfl (Or.inl rfl) k1 xas1 curr hl
          exact ⟨L', s1⟩
  induction hr with
  | init addr flags base grant hb4 hb hfl => exact wf_init addr flags base grant hb4 hb hfl
  | store k i e gfp k' r _ hi64 hst ih =>
    by_cases he : xa_is_internal e = true
    · simp only [xa_store, he, if_true, Option.some.injEq, Prod.mk.injEq] at hst
      rw [← hst.1]
      exact ih
    · have he' : xa_is_internal e = false := by simpa using he
      by_cases he0 : e = 0
      · subst he0
        exact store_null k i gfp k' r ih hst
      · obtain ⟨L, hi⟩ := ih
        obtain ⟨L', s1, _⟩ := xa_store_gen hi i e gfp fuel hi64 he' he0 (by omega) hst
        exact ⟨L', s1⟩
  | erase k i k' r _ hi64 hst ih => exact store_null k i 0 k' r ih hst
  | cmpxchg k i old e gfp k' r _ hi64 hst ih => exact cmpxchg k i old e gfp k' r hi64 ih hst
  | insert k i e gfp k' r _ hi64 hst ih =>
    unfold xa_insert at hst
    cases hcx : xa_cmpxchg fuel k i 0 e gfp with
    | none =>
      rw [hcx] at hst
      exact absurd hst (by simp)
    | some res =>
      obtain ⟨k1, curr⟩ := res
      rw [hcx] at hst
      have hk : k1 = k' := by
        simp only [] at hst
        split_ifs at hst <;> simp only [Option.some.injEq, Prod.mk.injEq] at hst <;> exact hst.1
      rw [← hk]
      exact cmpxchg k i 0 e gfp k1 curr hi64 ih hcx
  | set_tag k i t k' _ hi64 ht hst ih =>
    obtain ⟨L, hi⟩ := ih
    obtain ⟨w, hl⟩ := loc_exists hi.core i
    obtain ⟨k2, s1, s2, _⟩ := xa_set_tag_spec hi i t fuel ht (by omega) w hl
    rw [s1] at hst
    obtain rfl := Option.some.inj hst
    exact ⟨L, s2⟩
  | clear_tag k i t k' _ hi64 ht hst ih =>
    obtain ⟨L, hi⟩ := ih
    obtain ⟨w, hl⟩ := loc_exists hi.core i
    obtain ⟨k2, s1, s2, _⟩ := xa_clear_tag_spec hi i t fuel ht (by omega) w hl
    rw [s1] at hst
    obtain rfl := Option.some.inj hst
    exact ⟨L, s2⟩

theorem sim_load {k k' : Kernel} {L L' : Nat → Prop} (hc : Core k L) (hc' : Core k' L')
    (hs : Sim k k') (fuel : Nat) (hf : 12 ≤ fuel) (j : Nat) :
    xa_load fuel k' j = xa_load fuel k j := by
  obtain ⟨w, hw⟩ := loc_exists hc j
  obtain ⟨w', h1, h2, _⟩ := hs j w hw
  rw [xa_load_of_loc hc hf hw, xa_load_of_loc hc' hf h1, h2]

theorem xas_result_enomem (xas : xa_state) (curr : Nat)
    (h : xas.xa_node = XA_ERROR (-ENOMEM)) :
    xas_result xas curr = XA_ERROR (-ENOMEM) ∧ xas_error xas = -ENOMEM := by
  have he : xas_error xas = -ENOMEM := by
    unfold xas_error
    rw [h, xa_err_enomem]
  refine ⟨?_, he⟩
  unfold xas_result
  rw [he, if_pos (by decide), h]

/-- The retry loop of `xa_store` for `NULL`: it returns after one round with
the entry read at the index and a cursor that carries no error. -/
theorem xa_store_loop_null {k : Kernel} {L : Nat → Prop} (hi : Inv k L)
    (i gfp fuel : Nat) (w0 : Place) (hl0 : Loc k i w0) (hf : 64 ≤ fuel) :
    ∃ k' L' xas', xa_store_loop xas_nomem fuel 0 gfp fuel k (XA_STATE i) =
        some (k', xas', entry_at k w0) ∧ Inv k' L' ∧ xas'.xa_node % 4 ≠ 2 ∧
      xas_store fuel k (XA_STATE i) 0 = some (k', xas', entry_at k w0) ∧
      ∃ w, Loc k' i w ∧ entry_at k' w = 0 := by
  obtain ⟨k', L', xas', s1, s2, s3, s4, s5, s6, s7, _⟩ :=
    xas_store_null hi i fuel (XA_STATE i) w0 hl0 (Or.inl rfl) hf
  obtain ⟨f, rfl⟩ : ∃ f, fuel = f + 1 := ⟨fuel - 1, by omega⟩
  rw [xa_store_loop, s1]
  simp only [xas_nomem_plain k' xas' gfp s7 s6, Bool.false_eq_true, if_false]
  obtain ⟨w2, h1, h2, _⟩ := s3 i w0 hl0
  exact ⟨k', L', xas', rfl, s2, s7, rfl, w2, h1, (h2 rfl).1⟩

theorem xa_error_ne : XA_ERROR (-ENOMEM) ≠ XA_ERROR (-EINVAL) := by
  intro h
  have h1 := xa_err_enomem
  have h2 : xa_err (XA_ERROR (-EINVAL)) = -EINVAL := by decide
  rw [h, h2] at h1
  exact absurd h1 (by decide)

/-- C40: let the array be in a state reached through the normal API
(`ReachedAPI`: stores, erasures, compare-and-exchange, insertions and tag
changes, whatever the node cache grants and whatever the calls return), and
let `i` be an index.  An internal entry is refused by `xa_store` and
`xa_cmpxchg` with `XA_ERROR(-EINVAL)` before the cursor is used.  Otherwise,
whenever the retry loop of `xa_store` or of `xa_cmpxchg` ends, the entry
`curr` it hands to `xas_result` is not internal; the call returns
`xas_result(&xas, curr)`; and either this result satisfies `xa_is_err`, it is
`XA_ERROR(-ENOMEM)`, the cursor carries `-ENOMEM` and every index loads what it
loaded before, or the result does not satisfy `xa_is_err`, the cursor carries
no error, the result is `curr`, the entry loaded at `i` before the call, and
the call has taken effect.  `__xa_erase` and `xa_erase` return, hand on an
entry that is not internal, and their result does not satisfy `xa_is_err`.
With a node cache that grants every request `xa_store` and `xa_cmpxchg` return
a result that does not satisfy `xa_is_err`. -/
theorem C40_result_not_internal (fuel : Nat) (k : Kernel) (i old e gfp : Nat)
    (hr : ReachedAPI fuel k) (hf : 64 ≤ fuel) (hi64 : i < 2 ^ 64) :
    (xa_is_internal e = true →
      xa_store fuel k i e gfp = some (k, XA_ERROR (-EINVAL)) ∧
      xa_cmpxchg fuel k i old e gfp = some (k, XA_ERROR (-EINVAL)) ∧
      xa_is_err (XA_ERROR (-EINVAL)) = true ∧
      XA_ERROR (-EINVAL) ≠ XA_ERROR (-ENOMEM)) ∧
    (xa_is_internal e = false → ∀ k' xas' curr,
      xa_store_loop xas_nomem fuel e gfp fuel k (XA_STATE i) = some (k', xas', curr) →
      xa_is_internal curr = false ∧
      xa_store fuel k i e gfp = some (k', xas_result xas' curr) ∧
      ((xa_is_err (xas_result xas' curr) = true ∧
          xas_result xas' curr = XA_ERROR (-ENOMEM) ∧ xas_error xas' = -ENOMEM ∧
          ∀ j, xa_load fuel k' j = xa_load fuel k j) ∨
       (xa_is_err (xas_result xas' curr) = false ∧ xas_error xas' = 0 ∧
          xas_result xas' curr = curr ∧ xa_load fuel k i = some curr ∧
          xa_load fuel k' i = some e))) ∧
    (xa_is_internal e = false → ∀ k' xas' curr,
      xa_cmpxchg_loop xas_nomem fuel old e gfp fuel k (XA_STATE i) = some (k', xas', curr) →
      xa_is_internal curr = false ∧
      xa_cmpxchg fuel k i old e gfp = some (k', xas_result xas' curr) ∧
      xa_load fuel k i = some curr ∧
      ((xa_is_err (xas_result xas' curr) = true ∧
          xas_result xas' curr = XA_ERROR (-ENOMEM) ∧ xas_error xas' = -ENOMEM ∧
          curr = old ∧ ∀ j, xa_load fuel k' j = xa_load fuel k j) ∨
       (xa_is_err (xas_result xas' curr) = false ∧ xas_error xas' = 0 ∧
          xas_result xas' curr = curr ∧
          (curr = old → xa_load fuel k' i = some e) ∧
          (curr ≠ old → ∀ j, xa_load fuel k' j = xa_load fuel k j)))) ∧
    (∃ k' xas' curr, xas_store fuel k (XA_STATE i) 0 = some (k', xas', curr) ∧
      xa_is_internal curr = false ∧ xas_error xas' = 0 ∧
      __xa_erase fuel k i = some (k', curr) ∧ xa_erase fuel k i = some (k', curr) ∧
      xa_is_err curr = false ∧ xa_load fuel k i = some curr ∧
      xa_load fuel k' i = some 0) ∧
    (AllocOK k → xa_is_internal e = false →
      (∃ k' r, xa_store fuel k i e gfp = some (k', r) ∧ xa_is_err r = false) ∧
      (∃ k' r, xa_cmpxchg fuel k i old e gfp = some (k', r) ∧ xa_is_err r = false)) := by
  obtain ⟨L, hi⟩ := reachedAPI_wf hr hf
  have hc := hi.core
  obtain ⟨w0, hl0⟩ := loc_exists hc i
  have hload : xa_load fuel k i = some (entry_at k w0) := xa_load_of_loc hc (by omega) hl0
  have hni : xa_is_internal (entry_at k w0) = false := entry_at_not_internal hc hl0
  refine ⟨?_, ?_, ?_, ?_, ?_⟩
  · intro he
    refine ⟨by simp [xa_store, he], by simp [xa_cmpxchg, he], by decide, fun h => xa_error_ne h.symm⟩
  · intro he k' xas' curr hl
    have hst : xa_store fuel k i e gfp = some (k', xas_result xas' curr) := by
      unfold xa_store
      rw [he]
      simp only [Bool.false_eq_true, if_false]
      rw [hl]
    by_cases he0 : e = 0
    · subst he0
      obtain ⟨k2, L2, x2, s1, s2, s3, _, w, s5, s6⟩ := xa_store_loop_null hi i gfp fuel w0 hl0 hf
      rw [s1] at hl
      simp only [Option.some.injEq, Prod.mk.injEq] at hl
      obtain ⟨rfl, rfl, rfl⟩ := hl
      have hres := xas_result_plain x2 (entry_at k w0) s3
      refine ⟨hni, hst, Or.inr ⟨?_, xas_error_plain x2 s3, hres, hload, ?_⟩⟩
      · rw [hres]
        exact hni
      · rw [xa_load_of_loc s2.core (by omega) s5, s6]
    · obtain ⟨L', s1, _, _, s4⟩ :=
        xa_store_loop_gen i e gfp fuel hi64 he he0 (by omega) fuel k L (XA_STATE i) hi rfl rfl rfl
          (Or.inl rfl) (show xas_top 3 = true by decide) k' xas' curr hl
      rcases s4 with ⟨u1, u2, _, u4⟩ | ⟨u1, u2, w, u3, u4, _⟩
      · obtain ⟨r1, r2⟩ := xas_result_enomem xas' curr u1
        refine ⟨by rw [u4]; decide, hst, Or.inl ⟨?_, r1, r2, sim_load hc s1.core u2 fuel (by omega)⟩⟩
        rw [r1]
        exact xa_is_err_enomem
      · have hres := xas_result_ok xas' curr u1
        have hcur := u2 w0 hl0
        refine ⟨by rw [hcur]; exact hni, hst,
          Or.inr ⟨?_, xas_error_aligned xas' u1, hres, by rw [hcur]; exact hload, ?_⟩⟩
        · rw [hres, hcur]
          exact hni
        · rw [xa_load_of_loc s1.core (by omega) u3, u4]
  · intro he k' xas' curr hl
    have hst : xa_cmpxchg fuel k i old e gfp = some (k', xas_result xas' curr) := by
      unfold xa_cmpxchg
      rw [he]
      simp only [Bool.false_eq_true, if_false]
      rw [hl]
    by_cases hplain : e = 0 ∨ entry_at k w0 ≠ old
    · obtain ⟨k2, L2, x2, s1, s2, s3, s4, s5⟩ :=
        xa_cmpxchg_loop_plain hi i old e gfp fuel w0 hl0 hplain hf
      rw [s1] at hl
      simp only [Option.some.injEq, Prod.mk.injEq] at hl
      obtain ⟨rfl, rfl, rfl⟩ := hl
      have hres := xas_result_plain x2 (entry_at k w0) s3
      refine ⟨hni, hst, hload, Or.inr ⟨?_, xas_error_plain x2 s3, hres, ?_, ?_⟩⟩
      · rw [hres]
        exact hni
      · intro ho
        obtain ⟨w, h1, h2⟩ := s5 ho
        rw [xa_load_of_loc s2.core (by omega) h1, h2]
      · intro hno j
        rw [s4 hno]
    · push_neg at hplain
      obtain ⟨he0, hold⟩ := hplain
      obtain ⟨L', s1, _, s3, s4⟩ :=
        xa_cmpxchg_loop_gen i old e gfp fuel hi64 he he0 (by omega) fuel k L (XA_STATE i) hi rfl
          rfl rfl rfl (Or.inl rfl) k' xas' curr hl
      have hcur := s3 w0 hl0
      refine ⟨by rw [hcur]; exact hni, hst, by rw [hcur]; exact hload, ?_⟩
      rcases s4 with ⟨u1, u2, u3⟩ | ⟨u1, u2, u3⟩ | ⟨u1, u2, w, u3, u4, _⟩
      · obtain ⟨r1, r2⟩ := xas_result_enomem xas' curr u1
        refine Or.inl ⟨?_, r1, r2, u2, sim_load hc s1.core u3 fuel (by omega)⟩
        rw [r1]
        exact xa_is_err_enomem
      · exact absurd (hcur.trans hold) u2
      · have hres := xas_result_ok xas' curr u1
        refine Or.inr ⟨?_, xas_error_aligned xas' u1, hres, ?_, fun h => absurd u2 h⟩
        · rw [hres, hcur]
          exact hni
        · intro _
          rw [xa_load_of_loc s1.core (by omega) u3, u4]
  · obtain ⟨k2, L2, x2, s1, s2, s3, s4, w, s5, s6⟩ := xa_store_loop_null hi i gfp fuel w0 hl0 hf
    obtain ⟨k3, L3, x3, t1, t2, t3, t4, _⟩ := xa_store_loop_null hi i 0 fuel w0 hl0 hf
    rw [s4] at t4
    simp only [Option.some.injEq, Prod.mk.injEq] at t4
    obtain ⟨rfl, rfl, _⟩ := t4
    refine ⟨k2, x2, entry_at k w0, s4, hni, xas_error_plain x2 s3, ?_, ?_, hni, hload, ?_⟩
    · unfold __xa_erase
      rw [s4]
      simp only []
      rw [xas_result_plain x2 _ s3]
    · unfold xa_erase xa_store
      rw [show xa_is_internal 0 = false by decide]
      simp only [Bool.false_eq_true, if_false]
      rw [t1]
      simp only []
      rw [xas_result_plain x2 _ s3]
    · rw [xa_load_of_loc s2.core (by omega) s5, s6]
  · intro hg he
    obtain ⟨k1, L1, c, _, a2, _⟩ := xa_store_spec hi hg i e gfp fuel hi64 he hf
    obtain ⟨k2, L2, b1, _⟩ := xa_cmpxchg_spec hi hg i old e gfp fuel w0 hi64 hl0 he hf
    have hc2 : c = entry_at k w0 := by
      have := (xa_store_spec hi hg i e gfp fuel hi64 he hf)
      obtain ⟨_, _, c', q1, q2, _⟩ := this
      rw [a2] at q2
      rw [hload] at q1
      simp only [Option.some.injEq, Prod.mk.injEq] at q1 q2
      rw [q2.2, q1]
    exact ⟨⟨k1, c, a2, by rw [hc2]; exact hni⟩, ⟨k2, _, b1, hni⟩⟩

theorem C40_result_not_internal_witness :
    (xa_is_internal 8 = true →
      xa_store 64 ex_nowait 64 8 GFP_NOWAIT_NOWARN = some (ex_nowait, XA_ERROR (-EINVAL)) ∧
      xa_cmpxchg 64 ex_nowait 64 0 8 GFP_NOWAIT_NOWARN = some (ex_nowait, XA_ERROR (-EINVAL)) ∧
      xa_is_err (XA_ERROR (-EINVAL)) = true ∧
      XA_ERROR (-EINVAL) ≠ XA_ERROR (-ENOMEM)) ∧
    (xa_is_internal 8 = false → ∀ k' xas' curr,
      xa_store_loop xas_nomem 64 8 GFP_NOWAIT_NOWARN 64 ex_nowait (XA_STATE 64) = some (k', xas', curr) →
      xa_is_internal curr = false ∧
      xa_store 64 ex_nowait 64 8 GFP_NOWAIT_NOWARN = some (k', xas_result xas' curr) ∧
      ((xa_is_err (xas_result xas' curr) = true ∧
          xas_result xas' curr = XA_ERROR (-ENOMEM) ∧ xas_error xas' = -ENOMEM ∧
          ∀ j, xa_load 64 k' j = xa_load 64 ex_nowait j) ∨
       (xa_is_err (xas_result xas' curr) = false ∧ xas_error xas' = 0 ∧
          xas_result xas' curr = curr ∧ xa_load 64 ex_nowait 64 = some curr ∧
          xa_load 64 k' 64 = some 8))) ∧
    (xa_is_internal 8 = false → ∀ k' xas' curr,
      xa_cmpxchg_loop xas_nomem 64 0 8 GFP_NOWAIT_NOWARN 64 ex_nowait (XA_STATE 64) = some (k', xas', curr) →
      xa_is_internal curr = false ∧
      xa_cmpxchg 64 ex_nowait 64 0 8 GFP_NOWAIT_NOWARN = some (k', xas_result xas' curr) ∧
      xa_load 64 ex_nowait 64 = some curr ∧
      ((xa_is_err (xas_result xas' curr) = true ∧
          xas_result xas' curr = XA_ERROR (-ENOMEM) ∧ xas_error xas' = -ENOMEM ∧
          curr = 0 ∧ ∀ j, xa_load 64 k' j = xa_load 64 ex_nowait j) ∨
       (xa_is_err (xas_result xas' curr) = false ∧ xas_error xas' = 0 ∧
          xas_result xas' curr = curr ∧
          (curr = 0 → xa_load 64 k' 64 = some 8) ∧
          (curr ≠ 0 → ∀ j, xa_load 64 k' j = xa_load 64 ex_nowait j)))) ∧
    (∃ k' xas' curr, xas_store 64 ex_nowait (XA_STATE 64) 0 = some (k', xas', curr) ∧
      xa_is_internal curr = false ∧ xas_error xas' = 0 ∧
      __xa_erase 64 ex_nowait 64 = some (k', curr) ∧ xa_erase 64 ex_nowait 64 = some (k', curr) ∧
      xa_is_err curr = false ∧ xa_load 64 ex_nowait 64 = some curr ∧
      xa_load 64 k' 64 = some 0) ∧
    (AllocOK ex_nowait → xa_is_internal 8 = false →
      (∃ k' r, xa_store 64 ex_nowait 64 8 GFP_NOWAIT_NOWARN = some (k', r) ∧ xa_is_err r = false) ∧
      (∃ k' r, xa_cmpxchg 64 ex_nowait 64 0 8 GFP_NOWAIT_NOWARN = some (k', r) ∧ xa_is_err r = false)) :=
  C40_result_not_internal 64 ex_nowait 64 0 8 GFP_NOWAIT_NOWARN
    (ReachedAPI.init 0 0 4096 _ (by decide) (by decide) (by decide)) (by decide) (by decide)

/-! ## The scan of `xas_find_conflict` -/

theorem nullIn_slot {k : Kernel} {L : Nat → Prop} (hc : Core k L) {x B o : Nat} (hx : L x)
    (hb : NodeBlock k x B) (ho : o < 64) (h0 : (k.mem x).slots o = 0) :
    NullIn k ((64 * B + o) * 2 ^ (k.mem x).shift) ((64 * B + o + 1) * 2 ^ (k.mem x).shift) := by
  intro j w h1 h2 hl
  have hn : xa_is_node ((k.mem x).slots o) = false := by rw [h0]; decide
  have hj := (slot_index_iff j B o (k.mem x).shift ho).1 ⟨h1, h2⟩
  have hl2 := loc_of_slot hc hx hb ho hn hj
  have hcan : canon (k.mem x) o = o := by
    unfold canon
    rw [h0]
    exact if_neg (by decide)
  rw [hcan] at hl2
  rw [loc_unique hc hl hl2]
  exact h0

theorem nullIn_append {k : Kernel} {a b c : Nat} (h1 : NullIn k a b) (h2 : NullIn k b c) :
    NullIn k a c := by
  intro j w ha hc hl
  by_cases h : j < b
  · exact h1 j w ha h hl
  · exact h2 j w (by omega) hc hl

theorem nullIn_beyond_root {k : Kernel} {L : Nat → Prop} (hc : Core k L) {x : Nat} (hx : L x)
    (hp : (k.mem x).parent = 0) (N : Nat) : NullIn k (64 * 2 ^ (k.mem x).shift) N := by
  intro j w hge _ hl
  have hh := (hc.nodes x hx).root hp
  have hn : xa_is_node k.xa_head = true := by
    rw [hh]
    exact is_node_add2 x (hc.nodes x hx).align (hc.nodes x hx).big
  have hb : Loc k j Place.bounds := by
    right
    refine ⟨hn, ?_⟩
    have e1 : k.xa_head - 2 = x := by omega
    rw [e1, Nat.shiftRight_eq_div_pow]
    show 63 < j / 2 ^ (k.mem x).shift
    have := (Nat.le_div_iff_mul_le (Nat.two_pow_pos (k.mem x).shift)).2 hge
    omega
  rw [loc_unique hc hl hb]
  rfl

theorem nullIn_mono {k : Kernel} {a a' b b' : Nat} (h : NullIn k a b) (h1 : a ≤ a')
    (h2 : b' ≤ b) : NullIn k a' b' :=
  fun j w x1 x2 hl => h j w (by omega) (by omega) hl

theorem head_leaf_null {k : Kernel} {L : Nat → Prop} (hc : Core k L)
    (hnode : xa_is_node k.xa_head = false) {j : Nat} {w : Place} (hl : Loc k j w)
    (hj : j ≠ 0 ∨ k.xa_head = 0) : entry_at k w = 0 := by
  cases w with
  | head =>
    rcases hj with hj | hj
    · exact absurd hl.2 hj
    · exact hj
  | bounds => rfl
  | slot x o => exact absurd (visits_live hc (loc_slot_iff.1 hl).1) ((hc.head_leaf hnode).2 x)

theorem sibs_and_last (m r : Nat) (hmr : m + 1 = 2 ^ r) (hr : r ≤ 5) : 63 &&& m = m := by
  have hm : m = 2 ^ r - 1 := by omega
  subst hm
  interval_cases r <;> decide

theorem conflict_stop_iff (S m r c B o : Nat) (hmr : m + 1 = 2 ^ r) (hr : r ≤ 5)
    (hcm : c % (m + 1) = 0)
    (h1 : c * 2 ^ S < (64 * B + o + 1) * 2 ^ S)
    (h2 : (64 * B + o + 1) * 2 ^ S ≤ (c + m + 1) * 2 ^ S) :
    (o &&& m = m ↔ (64 * B + o + 1) * 2 ^ S = (c + m + 1) * 2 ^ S) := by
  have hp : 0 < 2 ^ S := Nat.two_pow_pos S
  have h1' := Nat.lt_of_mul_lt_mul_right h1
  have h2' := Nat.le_of_mul_le_mul_right h2 hp
  have hm : m = 2 ^ r - 1 := by omega
  have hand : o &&& m = o % 2 ^ r := by
    rw [hm]
    exact Nat.and_pow_two_sub_one_eq_mod o r
  obtain ⟨d, hd⟩ : ∃ d, c = d * 2 ^ r := by
    obtain ⟨d, hd⟩ := Nat.dvd_of_mod_eq_zero hcm
    exact ⟨d, by rw [hd, hmr, Nat.mul_comm]⟩
  rw [hand]
  have key : o % 2 ^ r = m ↔ 64 * B + o + 1 = c + m + 1 := by
    interval_cases r <;> simp only [Nat.reducePow] at hmr hd ⊢ <;> omega
  constructor
  · intro h
    rw [key.1 h]
  · intro h
    exact key.2 (Nat.eq_of_mul_eq_mul_right hp h)

theorem conflict_below_ne (S s m c B o : Nat) (hs6 : s % 6 = 0) (hS6 : S % 6 = 0) (hlt : s < S)
    (ho : o < 63) : (64 * B + o + 1) * 2 ^ s ≠ (c + m + 1) * 2 ^ S := by
  intro h
  obtain ⟨t, ht⟩ : ∃ t, S = s + 6 + t := ⟨S - s - 6, by omega⟩
  have hp : 0 < 2 ^ s := Nat.two_pow_pos s
  have h' : 64 * B + o + 1 = (c + m + 1) * 2 ^ t * 64 := by
    apply Nat.eq_of_mul_eq_mul_right hp
    rw [h, ht, pow_add, pow_add]
    ring
  generalize (c + m + 1) * 2 ^ t = u at h'
  omega

theorem conflict_next_le (S s c m u E : Nat) (hs : s ≤ S) (hE : E = u * 2 ^ s)
    (hlt : E < (c + m + 1) * 2 ^ S) : E + 2 ^ s ≤ (c + m + 1) * 2 ^ S := by
  obtain ⟨t, rfl⟩ : ∃ t, S = s + t := ⟨S - s, by omega⟩
  have hv : (c + m + 1) * 2 ^ (s + t) = ((c + m + 1) * 2 ^ t) * 2 ^ s := by
    rw [pow_add]
    ring
  rw [hv] at hlt ⊢
  subst hE
  have := Nat.lt_of_mul_lt_mul_right hlt
  calc u * 2 ^ s + 2 ^ s = (u + 1) * 2 ^ s := by ring
    _ ≤ _ := Nat.mul_le_mul_right _ this

theorem conflict_first_above (S s m r c u : Nat) (hmr : m + 1 = 2 ^ r) (hr : r ≤ 5)
    (hcm : c % (m + 1) = 0) (hs6 : s % 6 = 0) (hS6 : S % 6 = 0) (hlt : S < s)
    (h : c * 2 ^ S < u * 2 ^ s) : (c + m + 1) * 2 ^ S ≤ u * 2 ^ s := by
  obtain ⟨d, hd⟩ : ∃ d, c = d * 2 ^ r := by
    obtain ⟨d, hd⟩ := Nat.dvd_of_mod_eq_zero hcm
    exact ⟨d, by rw [hd, hmr, Nat.mul_comm]⟩
  obtain ⟨t, ht⟩ : ∃ t, s = S + 6 + t := ⟨s - S - 6, by omega⟩
  have h6 : (2 : Nat) ^ 6 = 2 ^ r * 2 ^ (6 - r) := by
    rw [← pow_add]
    congr 1
    omega
  have e1 : c * 2 ^ S = d * (2 ^ r * 2 ^ S) := by
    rw [hd]
    ring
  have e2 : u * 2 ^ s = (u * 2 ^ (6 - r) * 2 ^ t) * (2 ^ r * 2 ^ S) := by
    rw [ht, pow_add, pow_add, h6]
    ring
  have e3 : (c + m + 1) * 2 ^ S = (d + 1) * (2 ^ r * 2 ^ S) := by
    have : c + m + 1 = d * 2 ^ r + 2 ^ r := by omega
    rw [this]
    ring
  rw [e1, e2] at h
  rw [e2, e3]
  exact Nat.mul_le_mul_right _ (Nat.lt_of_mul_lt_mul_right h)

theorem conflict_first_below (S s m c v : Nat) (hs : s ≤ S) (a1 : v * 2 ^ s ≤ c * 2 ^ S)
    (a2 : c * 2 ^ S < (v + 1) * 2 ^ s) : (v + 1) * 2 ^ s ≤ (c + m + 1) * 2 ^ S := by
  obtain ⟨t, rfl⟩ : ∃ t, S = s + t := ⟨S - s, by omega⟩
  have hp : 0 < 2 ^ s := Nat.two_pow_pos s
  have e1 : c * 2 ^ (s + t) = (c * 2 ^ t) * 2 ^ s := by
    rw [pow_add]
    ring
  have e2 : (c + m + 1) * 2 ^ (s + t) = (c * 2 ^ t + (m + 1) * 2 ^ t) * 2 ^ s := by
    rw [pow_add]
    ring
  rw [e1] at a1 a2
  rw [e2]
  have h1 := Nat.le_of_mul_le_mul_right a1 hp
  have h2 := Nat.lt_of_mul_lt_mul_right a2
  have h3 : 0 < (m + 1) * 2 ^ t := Nat.mul_pos (by omega) (Nat.two_pow_pos t)
  exact Nat.mul_le_mul_right _ (by omega)

theorem load_at {k : Kernel} {L : Nat → Prop} (hc : Core k L) {fuel j : Nat} {w : Place}
    (hf : 12 ≤ fuel) (hl : Loc k j w) : xa_load fuel k j = some (entry_at k w) := by
  obtain ⟨w', h1, h2⟩ := xa_load_spec hc j fuel hf
  rw [h2, loc_unique hc h1 hl]

theorem seenIn_of_nullIn {k : Kernel} {P : Place → Prop} {a b : Nat} (h : NullIn k a b) :
    SeenIn k P a b :=
  fun j w h1 h2 hl => Or.inl (h j w h1 h2 hl)

theorem seenIn_append {k : Kernel} {P : Place → Prop} {a b c : Nat} (h1 : SeenIn k P a b)
    (h2 : SeenIn k P b c) : SeenIn k P a c := by
  intro j w ha hc hl
  by_cases h : j < b
  · exact h1 j w ha h hl
  · exact h2 j w (by omega) hc hl

theorem seenIn_imp {k : Kernel} {P Q : Place → Prop} {a b : Nat} (h : SeenIn k P a b)
    (hpq : ∀ w, P w → Q w) : SeenIn k Q a b := by
  intro j w ha hb hl
  rcases h j w ha hb hl with h0 | hp
  · exact Or.inl h0
  · exact Or.inr (hpq w hp)

theorem seenIn_empty {k : Kernel} {P : Place → Prop} {a b : Nat} (h : b ≤ a) :
    SeenIn k P a b := by
  intro j w ha hb
  omega

theorem seenIn_slot {k : Kernel} {L : Nat → Prop} (hc : Core k L) {P : Place → Prop}
    {x B o : Nat} (hx : L x) (hb : NodeBlock k x B) (ho : o < 64)
    (hn : xa_is_node ((k.mem x).slots o) = false)
    (hP : P (Place.slot x (canon (k.mem x) o))) :
    SeenIn k P ((64 * B + o) * 2 ^ (k.mem x).shift) ((64 * B + o + 1) * 2 ^ (k.mem x).shift) := by
  intro j w h1 h2 hl
  have hj := (slot_index_iff j B o (k.mem x).shift ho).1 ⟨h1, h2⟩
  have hl2 := loc_of_slot hc hx hb ho hn hj
  rw [loc_unique hc hl hl2]
  exact Or.inr hP

theorem canon_sib_facts {k : Kernel} {L : Nat → Prop} (hc : Core k L) {x p : Nat} (hx : L x)
    (hp : p < 64) (hs : xa_is_sibling ((k.mem x).slots p) = true) :
    canon (k.mem x) p = xa_to_sibling ((k.mem x).slots p) ∧ canon (k.mem x) p < p ∧
    xa_is_internal ((k.mem x).slots (canon (k.mem x) p)) = false ∧
    (k.mem x).slots (canon (k.mem x) p) ≠ 0 := by
  have hnn : xa_is_node ((k.mem x).slots p) = false := by
    cases hq : xa_is_node ((k.mem x).slots p)
    · rfl
    · rw [is_node_not_sibling _ hq] at hs
      cases hs
  have hsib := (hc.nodes x hx).sib p hp (sibling_internal _ hs) hnn
  have hcan : canon (k.mem x) p = xa_to_sibling ((k.mem x).slots p) := by
    unfold canon
    rw [if_pos hs]
  rw [hcan]
  exact ⟨rfl, hsib.2.1, hsib.2.2.1, hsib.2.2.2.1⟩

theorem canon_of_null {k : Kernel} {L : Nat → Prop} (hc : Core k L) {x g : Nat} (hx : L x)
    (hg : g < 64) (h0 : (k.mem x).slots (canon (k.mem x) g) = 0) : canon (k.mem x) g = g := by
  by_cases hs : xa_is_sibling ((k.mem x).slots g) = true
  · exact absurd h0 (canon_sib_facts hc hx hg hs).2.2.2
  · unfold canon
    rw [if_neg hs]

theorem slot0_not_sibling {k : Kernel} {L : Nat → Prop} (hc : Core k L) {x : Nat} (hx : L x) :
    xa_is_sibling ((k.mem x).slots 0) = false := by
  cases hs : xa_is_sibling ((k.mem x).slots 0)
  · rfl
  · have := (canon_sib_facts hc hx (by omega) hs).2.1
    omega

theorem runSeen_canon {k : Kernel} {L : Nat → Prop} (hc : Core k L) {P : Place → Prop}
    {x q : Nat} (hx : L x) (hq : q < 64) (hns : xa_is_sibling ((k.mem x).slots q) = false)
    (hP : xa_is_internal ((k.mem x).slots q) = false → (k.mem x).slots q ≠ 0 →
      P (Place.slot x q)) : RunSeen k P x q := by
  intro p h1 h2 hs hle
  have hge := canon_ge hc hx h2 (Nat.le_of_lt h1) hns
  have heq : canon (k.mem x) p = q := by omega
  obtain ⟨_, _, f3, f4⟩ := canon_sib_facts hc hx h2 hs
  rw [heq] at f3 f4 ⊢
  exact hP f3 f4

theorem runSeen_step {k : Kernel} {L : Nat → Prop} (hc : Core k L) {P : Place → Prop}
    {x o : Nat} (hx : L x) (ho : o + 1 < 64) (hrun : RunSeen k P x o)
    (hs : xa_is_sibling ((k.mem x).slots (o + 1)) = true) : RunSeen k P x (o + 1) := by
  intro p h1 h2 hsp hle
  obtain ⟨_, _, f3, _⟩ := canon_sib_facts hc hx h2 hsp
  have hne : canon (k.mem x) p ≠ o + 1 := by
    intro h
    rw [h, sibling_internal _ hs] at f3
    cases f3
  exact hrun p (by omega) h2 hsp (by omega)

theorem conflictResA_mono {k : Kernel} {L : Nat → Prop} {S m hiX E E1 : Nat}
    {P : Place → Prop} {xas : xa_state} {e : Nat} (hseen : SeenIn k P E E1) (hle : E ≤ E1)
    (h : ConflictResA k L S m hiX E1 P xas e) : ConflictResA k L S m hiX E P xas e := by
  rcases h with ⟨h0, hn⟩ | ⟨hne, y, By, q, c1, c2, c3, c4, c5, c6, c7⟩
  · exact Or.inl ⟨h0, seenIn_append hseen hn⟩
  · exact Or.inr ⟨hne, y, By, q, c1, c2, c3, c4, by omega, c6, seenIn_append hseen c7⟩

theorem xas_find_conflict_down_spec {k : Kernel} {L : Nat → Prop} (hc : Core k L) :
    ∀ F xas x B q, L x → NodeBlock k x B → q < 64 → xas.xa_node = x → xas.xa_offset = q →
      (k.mem x).shift + 6 < 6 * F →
      ∃ xas' y By q', xas_find_conflict_down k F xas ((k.mem x).slots q) =
          some (xas', (k.mem y).slots q') ∧
        L y ∧ NodeBlock k y By ∧ q' < 64 ∧ xas'.xa_node = y ∧ xas'.xa_offset = q' ∧
        xas'.xa_shift = xas.xa_shift ∧ xas'.xa_sibs = xas.xa_sibs ∧
        xa_is_node ((k.mem y).slots q') = false ∧ (k.mem y).shift ≤ (k.mem x).shift ∧
        (64 * By + q') * 2 ^ (k.mem y).shift = (64 * B + q) * 2 ^ (k.mem x).shift ∧
        (xa_is_sibling ((k.mem x).slots q) = false →
          xa_is_sibling ((k.mem y).slots q') = false) := by
  intro F
  induction F with
  | zero => intro xas x B q _ _ _ _ _ h; omega
  | succ f ih =>
    intro xas x B q hx hb hq hn ho hf
    rw [xas_find_conflict_down]
    by_cases hnode : xa_is_node ((k.mem x).slots q) = true
    · rw [if_pos hnode]
      obtain ⟨c, hcq⟩ : ∃ c, (k.mem x).slots q = c + 2 := ⟨_, (is_node_split _ hnode).1⟩
      rw [hcq] at hnode
      obtain ⟨c1, c2, c3, c4, c5⟩ := nodeBlock_child hc hb hq hcq hnode
      simp only [hcq, to_node_add2, xa_entry]
      obtain ⟨xas', y, By, q', h1, h2, h3, h4, h5, h6, h7, h8, h9, h10, h11, h12⟩ :=
        ih { xas with xa_node := c, xa_offset := 0 } c (64 * B + q) 0 c3 c1 (by omega) rfl rfl
          (by omega)
      refine ⟨xas', y, By, q', h1, h2, h3, h4, h5, h6, h7, h8, h9, by omega, ?_,
        fun _ => h12 (slot0_not_sibling hc c3)⟩
      rw [h11, c2, pow_add]
      ring
    · rw [if_neg hnode]
      exact ⟨xas, x, B, q, rfl, hx, hb, hq, hn, ho, rfl, rfl, by simpa using hnode,
        Nat.le_refl _, rfl, fun h => h⟩

theorem xas_find_conflict_next_spec {k : Kernel} {L : Nat → Prop} (hc : Core k L)
    {S m c hiX F : Nat} (hhi : hiX = (c + m + 1) * 2 ^ S) (hF : 12 ≤ F)
    {P : Place → Prop}
    {loop : xa_state → Option (xa_state × Nat)} {xas : xa_state} {x B o E : Nat}
    (hcur : ConflictCur k L S m xas x B o) (hE : E = (64 * B + o + 1) * 2 ^ (k.mem x).shift)
    (ho : o < 63) (hlt : E < hiX) (hrun : RunSeen k P x o)
    (hloop : ∀ xas1 x1 B1 o1 E1, ConflictCur k L S m xas1 x1 B1 o1 →
      E1 = (64 * B1 + o1 + 1) * 2 ^ (k.mem x1).shift → E < E1 → E1 ≤ hiX →
      RunSeen k P x1 o1 →
      ∃ xas' e, loop xas1 = some (xas', e) ∧ ConflictResA k L S m hiX E1 P xas' e) :
    ∃ xas' e, xas_find_conflict_next k F loop xas = some (xas', e) ∧
      ConflictResA k L S m hiX E P xas' e := by
  have hnx := hc.nodes x hcur.live
  have ho1 : (o + 1) % 256 = o + 1 := by omega
  have hpos := Nat.two_pow_pos (k.mem x).shift
  by_cases hsib : xa_is_sibling ((k.mem x).slots (o + 1)) = true
  · have hcur1 : ConflictCur k L S m { xas with xa_offset := o + 1 } x B (o + 1) :=
      ⟨hcur.live, hcur.block, hcur.node, rfl, by omega, hcur.shift, hcur.sibs, hcur.level⟩
    have hE1 : E + 2 ^ (k.mem x).shift ≤ hiX := by
      rw [hhi]
      exact conflict_next_le S _ c m _ E hcur.level hE (by rw [← hhi]; exact hlt)
    obtain ⟨xas', e, l1, l2⟩ := hloop _ x B (o + 1) (E + 2 ^ (k.mem x).shift) hcur1
      (by rw [hE]; ring) (by omega) hE1 (runSeen_step hc hcur.live (by omega) hrun hsib)
    have hnn : xa_is_node ((k.mem x).slots (o + 1)) = false := by
      cases hq : xa_is_node ((k.mem x).slots (o + 1))
      · rfl
      · rw [is_node_not_sibling _ hq] at hsib
        cases hsib
    have hseen := seenIn_slot hc hcur.live hcur.block (show o + 1 < 64 by omega) hnn
      (hrun (o + 1) (by omega) (by omega) hsib
        (by have := (canon_sib_facts hc hcur.live (show o + 1 < 64 by omega) hsib).2.1; omega))
    have e1 : (64 * B + (o + 1)) * 2 ^ (k.mem x).shift = E := by rw [hE, Nat.add_assoc]
    have e2 : (64 * B + (o + 1) + 1) * 2 ^ (k.mem x).shift = E + 2 ^ (k.mem x).shift := by
      rw [hE]
      ring
    rw [e1, e2] at hseen
    unfold xas_find_conflict_next
    simp only [hcur.offset, xa_entry, ho1, hcur.node, hsib, if_true]
    simp only [hcur.node] at l1
    exact ⟨xas', e, l1, conflictResA_mono hseen (Nat.le_add_right _ _) l2⟩
  · have hsib' : xa_is_sibling ((k.mem x).slots (o + 1)) = false := by simpa using hsib
    obtain ⟨xas2, y, By, q, h1, h2, h3, h4, h5, h6, h7, h8, h9, h10, h11, h12⟩ :=
      xas_find_conflict_down_spec hc F { xas with xa_offset := o + 1 } x B (o + 1) hcur.live
        hcur.block (by omega) hcur.node rfl (by have := hnx.shift_le; omega)
    simp only [hcur.node] at h1
    unfold xas_find_conflict_next
    simp only [hcur.node, hcur.offset, xa_entry, ho1, hsib', Bool.false_eq_true, if_false, h1]
    have hcur2 : ConflictCur k L S m xas2 y By q :=
      ⟨h2, h3, h5, h6, h4, by rw [h7]; exact hcur.shift, by rw [h8]; exact hcur.sibs,
        by have := hcur.level; omega⟩
    have hstart : (64 * By + q) * 2 ^ (k.mem y).shift = E := by rw [h11, hE, Nat.add_assoc]
    by_cases he : (k.mem y).slots q = 0
    · simp only [he, ne_eq, not_true_eq_false, if_false]
      have hE1 : E + 2 ^ (k.mem y).shift ≤ hiX := by
        rw [hhi]
        exact conflict_next_le S _ c m _ E hcur2.level hstart.symm (by rw [← hhi]; exact hlt)
      obtain ⟨xas', e, l1, l2⟩ := hloop xas2 y By q (E + 2 ^ (k.mem y).shift) hcur2
        (by rw [← hstart]; ring) (by have := Nat.two_pow_pos (k.mem y).shift; omega) hE1
        (runSeen_canon hc h2 h4 (h12 hsib') (fun _ hne => absurd he hne))
      refine ⟨xas', e, l1, ?_⟩
      have hnull : NullIn k E (E + 2 ^ (k.mem y).shift) := by
        have := nullIn_slot hc h2 h3 h4 he
        have e2 : (64 * By + q + 1) * 2 ^ (k.mem y).shift = E + 2 ^ (k.mem y).shift := by
          rw [← hstart]
          ring
        rw [hstart, e2] at this
        exact this
      exact conflictResA_mono (seenIn_of_nullIn hnull) (Nat.le_add_right _ _) l2
    · simp only [he, ne_eq, not_false_eq_true, if_true]
      exact ⟨xas2, _, rfl, Or.inr ⟨he, y, By, q, hcur2, rfl, h9, h12 hsib', by omega, by omega,
        seenIn_empty (by omega)⟩⟩

theorem xas_find_conflict_loop_spec {k : Kernel} {L : Nat → Prop} (hc : Core k L)
    {S m r c hiX F : Nat} (hS6 : S % 6 = 0) (hS60 : S ≤ 60)
    (hmr : m + 1 = 2 ^ r) (hr : r ≤ 5) (hcm : c % (m + 1) = 0)
    (hhi : hiX = (c + m + 1) * 2 ^ S) (hF : 12 ≤ F) (P : Place → Prop) :
    ∀ fuel xas x B o E, ConflictCur k L S m xas x B o →
      E = (64 * B + o + 1) * 2 ^ (k.mem x).shift → c * 2 ^ S < E → E ≤ hiX →
      RunSeen k P x o →
      (hiX - E) * 64 + (S - (k.mem x).shift) + 1 ≤ fuel →
      ∃ xas' e, xas_find_conflict_loop k F fuel xas = some (xas', e) ∧
        ConflictResA k L S m hiX E P xas' e := by
  intro fuel
  induction fuel with
  | zero => intro xas x B o E _ _ _ _ _ h; omega
  | succ f ih =>
    intro xas x B o E hcur hE hlo hle hrun hfuel
    have hnx := hc.nodes x hcur.live
    have hnext : o < 63 → E < hiX →
        ∃ xas' e, xas_find_conflict_next k F (xas_find_conflict_loop k F f) xas =
          some (xas', e) ∧ ConflictResA k L S m hiX E P xas' e := by
      intro ho hlt
      refine xas_find_conflict_next_spec hc hhi hF hcur hE ho hlt hrun ?_
      intro xas1 x1 B1 o1 E1 hc1 hE1 hlt1 hle1 hrun1
      exact ih xas1 x1 B1 o1 E1 hc1 hE1 (by omega) hle1 hrun1 (by have := hc1.level; omega)
    rw [xas_find_conflict_loop]
    simp only [hcur.node, hcur.offset, hcur.shift, hcur.sibs]
    by_cases hlev : (k.mem x).shift = S
    · rw [if_pos hlev]
      rw [hlev] at hE
      have hiff := conflict_stop_iff S m r c B o hmr hr hcm (by rw [← hE]; exact hlo)
        (by rw [← hE, ← hhi]; exact hle)
      by_cases hbrk : o &&& m = m
      · rw [if_pos hbrk]
        have hEq : E = hiX := by rw [hE, hhi]; exact hiff.1 hbrk
        exact ⟨(xas_find_conflict_out xas).1, 0, rfl, Or.inl ⟨rfl, seenIn_empty (by omega)⟩⟩
      · rw [if_neg hbrk]
        have h63 : o < 63 := by
          by_contra h
          have e63 : o = 63 := by have := hcur.lt; omega
          rw [e63] at hbrk
          exact hbrk (sibs_and_last m r hmr hr)
        exact hnext h63 (lt_of_le_of_ne hle (by rw [hE, hhi]; exact fun h => hbrk (hiff.2 h)))
    · rw [if_neg hlev]
      have hslt : (k.mem x).shift < S := lt_of_le_of_ne hcur.level hlev
      by_cases h63 : o = 63
      · rw [if_pos (show o = XA_CHUNK_MASK from h63)]
        by_cases hp : (k.mem x).parent = 0
        · rw [if_pos hp]
          refine ⟨_, 0, rfl, Or.inl ⟨rfl, seenIn_of_nullIn ?_⟩⟩
          have hB := nodeBlock_root hc hcur.block hp
          have := nullIn_beyond_root hc hcur.live hp hiX
          rw [hE, hB, h63]
          exact this
        · rw [if_neg hp]
          obtain ⟨p1, p2, p3, p4⟩ := nodeBlock_parent hc hcur.block hp
          have hup := hnx.up hp
          have hs6 := hnx.shift6
          have hcur2 : ConflictCur k L S m
              { xa_index := xas.xa_index, xa_shift := S, xa_sibs := m,
                xa_offset := (k.mem x).offset, xa_node := (k.mem x).parent,
                xa_alloc := xas.xa_alloc }
              (k.mem x).parent (B / 64) (k.mem x).offset :=
            ⟨p4, p1, rfl, rfl, hup.2.1, rfl, rfl, by rw [p3]; omega⟩
          have hB : 64 * (B / 64) + B % 64 = B := Nat.div_add_mod B 64
          have hnd : xa_is_node ((k.mem (k.mem x).parent).slots (k.mem x).offset) = true := by
            rw [hup.2.2.1]
            exact is_node_add2 x hnx.align hnx.big
          exact ih _ _ _ _ E hcur2
            (by rw [← p2, hB, p3, hE, h63, pow_add]; ring) hlo hle
            (runSeen_canon hc p4 hup.2.1 (is_node_not_sibling _ hnd)
              (fun hni => by rw [is_node_internal _ hnd] at hni; cases hni))
            (by rw [p3]; omega)
      · rw [if_neg (show ¬ o = XA_CHUNK_MASK from h63)]
        have ho : o < 63 := by have := hcur.lt; omega
        exact hnext ho (lt_of_le_of_ne hle
          (by rw [hE, hhi]; exact conflict_below_ne S _ m c B o hnx.shift6 hS6 hslt ho))

theorem xas_find_conflict_cur {k : Kernel} {L : Nat → Prop} (hc : Core k L)
    {S m r c hiX F : Nat} (hS6 : S % 6 = 0) (hS60 : S ≤ 60)
    (hmr : m + 1 = 2 ^ r) (hr : r ≤ 5) (hcm : c % (m + 1) = 0)
    (hhi : hiX = (c + m + 1) * 2 ^ S) (hF : (m + 1) * 2 ^ S * 64 + 62 ≤ F)
    {P : Place → Prop}
    {xas : xa_state} {x B o E : Nat} (hcur : ConflictCur k L S m xas x B o)
    (hE : E = (64 * B + o + 1) * 2 ^ (k.mem x).shift) (hlo : c * 2 ^ S < E) (hle : E ≤ hiX)
    (hrun : RunSeen k P x o) :
    ∃ xas' e, xas_find_conflict F k xas = some (xas', e) ∧
      ConflictResA k L S m hiX E P xas' e := by
  have hnx := hc.nodes x hcur.live
  have herr : xas_error xas = 0 := xas_error_aligned xas (by rw [hcur.node]; exact hnx.align)
  have hn0 : xas.xa_node ≠ 0 := by
    rw [hcur.node]
    have := hnx.big
    omega
  have htop : xas_top xas.xa_node = false := by
    rw [hcur.node]
    have := hnx.big
    simp only [xas_top, XAS_RESTART, xa_mk_internal, decide_eq_false_iff_not, not_le]
    omega
  have hsplit : hiX = c * 2 ^ S + (m + 1) * 2 ^ S := by
    rw [hhi]
    ring
  have hlev : ¬ (k.mem xas.xa_node).shift > xas.xa_shift := by
    rw [hcur.node, hcur.shift]
    have := hcur.level
    omega
  unfold xas_find_conflict
  simp only [herr, ne_eq, not_true_eq_false, if_false, hn0, htop, Bool.false_eq_true]
  unfold xas_find_conflict_scan
  rw [if_neg hlev]
  exact xas_find_conflict_loop_spec hc hS6 hS60 hmr hr hcm hhi (by omega) P F xas x B o E hcur
    hE hlo hle hrun (by omega)

theorem aligned_of_nomulti {k : Kernel} {L : Nat → Prop} (hm : NoMulti k L) : Aligned k L := by
  intro x hx o ho hs
  rw [(hm x hx o ho).1] at hs
  cases hs

theorem wfa_of_wfs {k : Kernel} (h : WFS k) : WFA k := by
  obtain ⟨L, hi, hm⟩ := h
  exact ⟨L, hi, aligned_of_nomulti hm⟩

theorem xas_find_conflict_walk_spec {k : Kernel} {L : Nat → Prop} (hc : Core k L) (i : Nat) :
    ∀ fuel x xas, Visits k i x → (k.mem x).shift + 6 < 6 * fuel → xas.xa_index = i →
      ∃ y xas', xas_find_conflict_walk k fuel xas (x + 2) =
          some (xas', (k.mem y).slots (canon (k.mem y) (get_offset i (k.mem y)))) ∧
        Visits k i y ∧ xas'.xa_node = y ∧
        xas'.xa_offset = canon (k.mem y) (get_offset i (k.mem y)) ∧
        xas'.xa_shift = xas.xa_shift ∧ xas'.xa_sibs = xas.xa_sibs ∧
        xa_is_node ((k.mem y).slots (canon (k.mem y) (get_offset i (k.mem y)))) = false ∧
        xa_is_node ((k.mem y).slots (get_offset i (k.mem y))) = false := by
  intro fuel
  induction fuel with
  | zero => intro x xas _ h; omega
  | succ f ih =>
    intro x xas hv hf hi
    subst hi
    have hx := visits_live hc hv
    have hnx := hc.nodes x hx
    have hnode : xa_is_node (x + 2) = true := is_node_add2 x hnx.align hnx.big
    have hg : get_offset xas.xa_index (k.mem x) < 64 := get_offset_lt _ _
    obtain ⟨g, rfl⟩ : ∃ g, f = g + 1 := ⟨f - 1, by omega⟩
    obtain ⟨xs, d1, d2, d3, d4, d5, d6, _⟩ := xas_descend_spec k xas x
    rw [xas_find_conflict_walk]
    simp only [hnode, if_true, to_node_add2, d1]
    rw [d3]
    have hcanon : xa_is_sibling ((k.mem x).slots (get_offset xas.xa_index (k.mem x))) = false →
        canon (k.mem x) (get_offset xas.xa_index (k.mem x)) =
          get_offset xas.xa_index (k.mem x) := by
      intro hns
      unfold canon
      rw [hns]
      exact if_neg (by decide)
    by_cases hcn : xa_is_node ((k.mem x).slots
        (canon (k.mem x) (get_offset xas.xa_index (k.mem x)))) = true
    · have hns : xa_is_sibling ((k.mem x).slots (get_offset xas.xa_index (k.mem x))) = false := by
        cases hs : xa_is_sibling ((k.mem x).slots (get_offset xas.xa_index (k.mem x)))
        · rfl
        · have := (canon_sib_facts hc hx hg hs).2.2.1
          rw [is_node_internal _ hcn] at this
          cases this
      rw [hcanon hns] at hcn ⊢
      obtain ⟨c, hcq⟩ : ∃ c, (k.mem x).slots (get_offset xas.xa_index (k.mem x)) = c + 2 :=
        ⟨_, (is_node_split _ hcn).1⟩
      rw [hcq] at hcn ⊢
      have hvc : Visits k xas.xa_index c := Visits.step x c hv hcq hcn
      obtain ⟨_, c2, _⟩ := nodeBlock_child hc (nodeBlock_of_visits hc hv) hg hcq hcn
      obtain ⟨y, xas', h1, h2, h3, h4, h5, h6, h7, h8⟩ := ih c xs hvc (by omega) (d4 hns)
      exact ⟨y, xas', h1, h2, h3, h4, by rw [h5, d5], by rw [h6, d6], h7, h8⟩
    · rw [xas_find_conflict_walk, if_neg hcn]
      refine ⟨x, xs, rfl, hv, d2, d3, d5, d6, by simpa using hcn, ?_⟩
      cases hq : xa_is_node ((k.mem x).slots (get_offset xas.xa_index (k.mem x)))
      · rfl
      · exfalso
        rw [hcanon (is_node_not_sibling _ hq)] at hcn
        exact hcn hq

theorem mask_run (m r t o : Nat) (hmr : m + 1 = 2 ^ r) (hr : r ≤ 5) (ht : t % (m + 1) = 0)
    (h1 : t ≤ o) (h2 : o ≤ t + m) : (o &&& m = m ↔ o = t + m) := by
  have hm : m = 2 ^ r - 1 := by omega
  have hand : o &&& m = o % 2 ^ r := by
    rw [hm]
    exact Nat.and_pow_two_sub_one_eq_mod o r
  rw [hand]
  obtain ⟨d, hd⟩ : ∃ d, t = d * 2 ^ r := by
    obtain ⟨d, hd⟩ := Nat.dvd_of_mod_eq_zero ht
    exact ⟨d, by rw [hd, hmr, Nat.mul_comm]⟩
  interval_cases r <;> simp only [Nat.reducePow] at hmr hd ⊢ <;> omega

theorem run_covers_group (m r z t g : Nat) (hmr : m + 1 = 2 ^ r) (hr : r ≤ 5)
    (ht : t % 2 ^ z = 0) (h1 : t < g) (h2 : g < t + 2 ^ z) (h3 : t + 2 ^ z ≤ 64)
    (hg : g % (m + 1) = 0) : t % (m + 1) = 0 ∧ g + m < t + 2 ^ z := by
  have hz : z ≤ 6 := by
    by_contra h
    have : 2 ^ 7 ≤ 2 ^ z := Nat.pow_le_pow_right (by omega) (by omega)
    omega
  rw [hmr] at hg ⊢
  interval_cases r <;> interval_cases z <;> simp only [Nat.reducePow] at * <;> omega

theorem mod64_mod (c m r : Nat) (hmr : m + 1 = 2 ^ r) (hr : r ≤ 5) (hcm : c % (m + 1) = 0) :
    (c % 64) % (m + 1) = 0 := by
  rw [hmr] at hcm ⊢
  interval_cases r <;> simp only [Nat.reducePow] at * <;> omega

theorem range_slot (S m c j : Nat) (hgm : c % 64 + m < 64) (h1 : c * 2 ^ S ≤ j)
    (h2 : j < (c + m + 1) * 2 ^ S) :
    j >>> (S + 6) = c / 64 ∧ c % 64 ≤ (j >>> S) % 64 ∧ (j >>> S) % 64 ≤ c % 64 + m := by
  have hp := Nat.two_pow_pos S
  have a1 : c ≤ j / 2 ^ S := (Nat.le_div_iff_mul_le hp).2 h1
  have a2 : j / 2 ^ S < c + m + 1 := (Nat.div_lt_iff_lt_mul hp).2 h2
  rw [Nat.shiftRight_add]
  simp only [Nat.shiftRight_eq_div_pow, Nat.reducePow]
  generalize j / 2 ^ S = q at a1 a2
  omega

theorem low_offset_zero (S s c : Nat) (hs6 : s % 6 = 0) (hS6 : S % 6 = 0) (hlt : s < S) :
    ((c * 2 ^ S) >>> s) % 64 = 0 := by
  obtain ⟨t, ht⟩ : ∃ t, S = s + 6 + t := ⟨S - s - 6, by omega⟩
  have e1 : c * 2 ^ S = (c * 2 ^ t * 64) * 2 ^ s := by
    rw [ht, pow_add, pow_add]
    ring
  rw [Nat.shiftRight_eq_div_pow, e1, Nat.mul_div_cancel _ (Nat.two_pow_pos s)]
  exact Nat.mul_mod_left _ _

theorem level_offset (S c : Nat) : ((c * 2 ^ S) >>> S) % 64 = c % 64 := by
  rw [Nat.shiftRight_eq_div_pow, Nat.mul_div_cancel _ (Nat.two_pow_pos S)]

theorem conflict_start_eq (S s c v : Nat) (hs : s ≤ S) (a1 : v * 2 ^ s ≤ c * 2 ^ S)
    (a2 : c * 2 ^ S < (v + 1) * 2 ^ s) : v * 2 ^ s = c * 2 ^ S := by
  obtain ⟨t, rfl⟩ : ∃ t, S = s + t := ⟨S - s, by omega⟩
  have hp : 0 < 2 ^ s := Nat.two_pow_pos s
  have e1 : c * 2 ^ (s + t) = (c * 2 ^ t) * 2 ^ s := by
    rw [pow_add]
    ring
  rw [e1] at a1 a2 ⊢
  have h1 := Nat.le_of_mul_le_mul_right a1 hp
  have h2 := Nat.lt_of_mul_lt_mul_right a2
  have : v = c * 2 ^ t := by omega
  rw [this]

theorem conflict_loop_run {k : Kernel} {S m r F : Nat} (hmr : m + 1 = 2 ^ r) (hr : r ≤ 5)
    {x t w : Nat} (hS : (k.mem x).shift = S) (ht : t % (m + 1) = 0) (hw : t + m < w)
    (hw64 : w ≤ 64)
    (hsibs : ∀ p, t < p → p < w → xa_is_sibling ((k.mem x).slots p) = true) :
    ∀ fuel xas o, xas.xa_node = x → xas.xa_offset = o → xas.xa_shift = S → xas.xa_sibs = m →
      t ≤ o → o ≤ t + m → t + m - o < fuel →
      ∃ xas', xas_find_conflict_loop k F fuel xas = some (xas', 0) := by
  intro fuel
  induction fuel with
  | zero => intro xas o _ _ _ _ _ _ h; omega
  | succ f ih =>
    intro xas o hn hof hsh hsb h1 h2 hfu
    rw [xas_find_conflict_loop]
    simp only [hn, hof, hsh, hsb]
    rw [if_pos hS]
    by_cases hbrk : o &&& m = m
    · rw [if_pos hbrk]
      exact ⟨_, rfl⟩
    · rw [if_neg hbrk]
      have hne : o ≠ t + m := fun h => hbrk ((mask_run m r t o hmr hr ht h1 h2).2 h)
      have hsib := hsibs (o + 1) (by omega) (by omega)
      have ho1 : (o + 1) % 256 = o + 1 := by omega
      unfold xas_find_conflict_next
      simp only [hof, hn, xa_entry, ho1, hsib, if_true]
      exact ih _ (o + 1) (by simp only [hn]) rfl hsh hsb (by omega) (by omega) (by omega)

theorem xas_find_conflict_live {k : Kernel} {L : Nat → Prop} (hc : Core k L) (F : Nat)
    {xas : xa_state} {x : Nat} (hx : L x) (hn : xas.xa_node = x) :
    xas_find_conflict F k xas = xas_find_conflict_scan F k xas := by
  have hnx := hc.nodes x hx
  have herr : xas_error xas = 0 := xas_error_aligned xas (by rw [hn]; exact hnx.align)
  have hn0 : xas.xa_node ≠ 0 := by
    rw [hn]
    have := hnx.big
    omega
  have htop : xas_top xas.xa_node = false := by
    rw [hn]
    have := hnx.big
    simp only [xas_top, XAS_RESTART, xa_mk_internal, decide_eq_false_iff_not, not_le]
    omega
  unfold xas_find_conflict
  simp only [herr, ne_eq, not_true_eq_false, if_false, hn0, htop, Bool.false_eq_true]

theorem xas_find_conflict_first {k : Kernel} {L : Nat → Prop} (hc : Core k L)
    (ha : Aligned k L) {S m r c hiX F : Nat} (hS6 : S % 6 = 0) (hS60 : S ≤ 60)
    (hmr : m + 1 = 2 ^ r) (hr : r ≤ 5) (hcm : c % (m + 1) = 0)
    (hhi : hiX = (c + m + 1) * 2 ^ S) (hF : (m + 1) * 2 ^ S * 64 + 62 ≤ F)
    (xas : xa_state) (hn : xas.xa_node = XAS_RESTART) (hidx : xas.xa_index = c * 2 ^ S)
    (hsh : xas.xa_shift = S) (hsb : xas.xa_sibs = m) :
    ∃ xas' e, xas_find_conflict F k xas = some (xas', e) ∧
      (ConflictResA k L S m hiX (c * 2 ^ S) (fun _ => False) xas' e ∨
       (e ≠ 0 ∧ ∃ w, Loc k (c * 2 ^ S) w ∧ entry_at k w = e ∧
         (∀ j w', c * 2 ^ S ≤ j → j < hiX → Loc k j w' → entry_at k w' = 0 ∨ w' = w) ∧
         ∃ xas2, xas_find_conflict F k xas' = some (xas2, 0))) := by
  have herr : xas_error xas = 0 := xas_error_plain xas (by rw [hn]; decide)
  have htop : xas_top xas.xa_node = true := by rw [hn]; decide
  have hn0 : xas.xa_node ≠ 0 := by rw [hn]; decide
  have hsplit : hiX = c * 2 ^ S + (m + 1) * 2 ^ S := by
    rw [hhi]
    ring
  have hW : 0 < (m + 1) * 2 ^ S := Nat.mul_pos (by omega) (Nat.two_pow_pos S)
  have hst := xas_start_restart k xas hn
  obtain ⟨g, hg⟩ : ∃ g, F = g + 1 := ⟨F - 1, by omega⟩
  rw [xas_find_conflict]
  simp only [herr, ne_eq, not_true_eq_false, if_false, hn0, htop, if_true]
  by_cases hnode : xa_is_node k.xa_head = true
  · obtain ⟨x0, hx0⟩ : ∃ x0, k.xa_head = x0 + 2 := ⟨_, (is_node_split _ hnode).1⟩
    have hhead := hc.head_node hnode
    have e0 : k.xa_head - 2 = x0 := by omega
    rw [e0] at hhead
    have hto : xa_to_node k.xa_head = x0 := by
      rw [hx0]
      exact to_node_add2 x0
    rw [if_pos hnode, hto, hidx] at hst
    by_cases hb : (c * 2 ^ S) >>> (k.mem x0).shift > XA_CHUNK_MASK
    · rw [if_pos hb] at hst
      simp only [hst, if_true]
      refine ⟨_, 0, rfl, Or.inl (Or.inl ⟨rfl, seenIn_of_nullIn ?_⟩)⟩
      intro j w a1 _ hl
      have hbj : Loc k j Place.bounds := by
        right
        refine ⟨hnode, ?_⟩
        rw [e0]
        have : (c * 2 ^ S) >>> (k.mem x0).shift ≤ j >>> (k.mem x0).shift := by
          rw [Nat.shiftRight_eq_div_pow, Nat.shiftRight_eq_div_pow]
          exact Nat.div_le_div_right a1
        exact lt_of_lt_of_le hb this
      rw [loc_unique hc hl hbj]
      rfl
    · rw [if_neg hb] at hst
      have hx2 : (x0 + 2 = 0) = False := eq_false (by omega)
      have hv : Visits k (c * 2 ^ S) x0 :=
        Visits.root x0 hx0 (by rw [← hx0]; exact hnode) (not_lt.1 hb)
      obtain ⟨y, xas1, w1, w2, w3, w4, w5, w6, w7, w8⟩ :=
        xas_find_conflict_walk_spec hc (c * 2 ^ S) F x0
          { xas with xa_index := c * 2 ^ S, xa_node := 0 } hv
          (by have := (hc.nodes x0 hhead.1).shift_le; omega) rfl
      rw [hx0] at hst
      simp only [hst, hx2, if_false, w1]
      have hy : L y := visits_live hc w2
      have hny := hc.nodes y hy
      have hnb := nodeBlock_of_visits hc w2
      have hg64 : get_offset (c * 2 ^ S) (k.mem y) < 64 := get_offset_lt _ _
      have ho64 := canon_lt hc hy _ hg64
      have hole := canon_le hc hy _ hg64
      obtain ⟨hs1, hs2⟩ := (slot_index_iff (c * 2 ^ S) _ _ (k.mem y).shift hg64).2
        ⟨rfl, (get_offset_eq _ _).symm⟩
      have hsh1 : xas1.xa_shift = S := by rw [w5]; exact hsh
      have hsb1 : xas1.xa_sibs = m := by rw [w6]; exact hsb
      have hloc0 : Loc k (c * 2 ^ S) (Place.slot y
          (canon (k.mem y) (get_offset (c * 2 ^ S) (k.mem y)))) :=
        loc_slot_iff.2 ⟨w2, rfl, w7⟩
      by_cases he : (k.mem y).slots (canon (k.mem y) (get_offset (c * 2 ^ S) (k.mem y))) = 0
      · simp only [he, not_true_eq_false, if_false]
        have hcg := canon_of_null hc hy hg64 he
        rw [hcg] at he w4
        unfold xas_find_conflict_scan
        rw [w3, hsh1]
        have hnull := nullIn_slot hc hy hnb hg64 he
        by_cases hab : (k.mem y).shift > S
        · rw [if_pos hab]
          refine ⟨xas1, 0, rfl, Or.inl (Or.inl ⟨rfl, seenIn_of_nullIn ?_⟩)⟩
          exact nullIn_mono hnull hs1 (by
            rw [hhi]
            exact conflict_first_above S _ m r c _ hmr hr hcm hny.shift6 hS6 hab hs2)
        · rw [if_neg hab]
          have hcur : ConflictCur k L S m xas1 y
              ((c * 2 ^ S) >>> ((k.mem y).shift + 6)) (get_offset (c * 2 ^ S) (k.mem y)) :=
            ⟨hy, hnb, w3, w4, hg64, hsh1, hsb1, by omega⟩
          have hEle := conflict_first_below S _ m c _ (by omega) hs1 hs2
          obtain ⟨xas', e', l1, l2⟩ :=
            xas_find_conflict_loop_spec hc hS6 hS60 hmr hr hcm hhi (show 12 ≤ F by omega)
              (fun _ => False) F xas1 y _ _ _ hcur rfl hs2 (by rw [hhi]; exact hEle)
              (runSeen_canon hc hy hg64 (by rw [he]; decide) (fun _ hne => absurd he hne))
              (by omega)
          exact ⟨xas', e', l1,
            Or.inl (conflictResA_mono
              (seenIn_of_nullIn (nullIn_mono hnull hs1 (Nat.le_refl _))) (Nat.le_of_lt hs2) l2)⟩
      · simp only [he, not_false_eq_true, if_true]
        refine ⟨xas1, _, rfl, ?_⟩
        have hfind := xas_find_conflict_live hc F hy w3
        by_cases hab : (k.mem y).shift > S
        · refine Or.inr ⟨he, _, hloc0, rfl, ?_, xas1, ?_⟩
          · intro j w' a1 a2 hl
            right
            have hup : hiX ≤ (64 * ((c * 2 ^ S) >>> ((k.mem y).shift + 6)) +
                get_offset (c * 2 ^ S) (k.mem y) + 1) * 2 ^ (k.mem y).shift := by
              rw [hhi]
              exact conflict_first_above S _ m r c _ hmr hr hcm hny.shift6 hS6 hab hs2
            have hj := (slot_index_iff j _ _ (k.mem y).shift hg64).1
              ⟨Nat.le_trans hs1 a1, Nat.lt_of_lt_of_le a2 hup⟩
            exact loc_unique hc hl (loc_of_slot hc hy hnb hg64 w8 hj)
          · rw [hfind]
            unfold xas_find_conflict_scan
            rw [w3, hsh1, if_pos hab]
        · by_cases hog : canon (k.mem y) (get_offset (c * 2 ^ S) (k.mem y)) =
              get_offset (c * 2 ^ S) (k.mem y)
          · rw [hog] at he w4 w7 ⊢
            have hcur : ConflictCur k L S m xas1 y
                ((c * 2 ^ S) >>> ((k.mem y).shift + 6)) (get_offset (c * 2 ^ S) (k.mem y)) :=
              ⟨hy, hnb, w3, w4, hg64, hsh1, hsb1, by omega⟩
            have hJ := conflict_start_eq S _ c _ (by omega) hs1 hs2
            have hns := (canon_ok hc hy _ hg64 w8).2.2
            rw [hog] at hns
            exact Or.inl (Or.inr ⟨he, y, _, _, hcur, rfl, w7, hns, by omega, by omega,
              seenIn_empty (by omega)⟩)
          · have hsg : xa_is_sibling ((k.mem y).slots (get_offset (c * 2 ^ S) (k.mem y))) =
                true := by
              by_contra hns
              apply hog
              unfold canon
              rw [if_neg hns]
            obtain ⟨f1, f2, _, _⟩ := canon_sib_facts hc hy hg64 hsg
            have hSy : (k.mem y).shift = S := by
              by_contra hne
              have := low_offset_zero S (k.mem y).shift c hny.shift6 hS6 (by omega)
              rw [← get_offset_eq] at this
              omega
            have hgc : get_offset (c * 2 ^ S) (k.mem y) = c % 64 := by
              rw [get_offset_eq, hSy]
              exact level_offset S c
            obtain ⟨z, z1, z2, z3, z4⟩ := ha y hy _ hg64 hsg
            rw [← f1] at z1 z2 z3 z4
            obtain ⟨u1, u2⟩ := run_covers_group m r z _ _ hmr hr z1 f2 z2 z3
              (by rw [hgc]; exact mod64_mod c m r hmr hr hcm)
            have hsibs : ∀ p, canon (k.mem y) (get_offset (c * 2 ^ S) (k.mem y)) < p →
                p < canon (k.mem y) (get_offset (c * 2 ^ S) (k.mem y)) + 2 ^ z →
                xa_is_sibling ((k.mem y).slots p) = true := by
              intro p p1 p2
              rw [z4 p p1 p2]
              exact hsg
            refine Or.inr ⟨he, _, hloc0, rfl, ?_, ?_⟩
            · intro j w' a1 a2 hl
              right
              obtain ⟨t1, t2, t3⟩ := range_slot S m c j (by rw [← hgc]; omega) a1
                (by rw [← hhi]; exact a2)
              obtain ⟨t4, _, _⟩ := range_slot S m c (c * 2 ^ S) (by rw [← hgc]; omega)
                (Nat.le_refl _) (by rw [← hhi]; omega)
              have hsp := hsibs ((j >>> S) % 64) (by rw [← hgc] at t2; omega)
                (by rw [← hgc] at t3; omega)
              have hp64 : (j >>> S) % 64 < 64 := Nat.mod_lt _ (by omega)
              have hnp : xa_is_node ((k.mem y).slots ((j >>> S) % 64)) = false := by
                cases hq : xa_is_node ((k.mem y).slots ((j >>> S) % 64))
                · rfl
                · rw [is_node_not_sibling _ hq] at hsp
                  cases hsp
              have hcp : canon (k.mem y) ((j >>> S) % 64) =
                  canon (k.mem y) (get_offset (c * 2 ^ S) (k.mem y)) := by
                rw [(canon_sib_facts hc hy hp64 hsp).1, f1,
                  z4 _ (by rw [← hgc] at t2; omega) (by rw [← hgc] at t3; omega)]
              have hj : j >>> ((k.mem y).shift + 6) = (c * 2 ^ S) >>> ((k.mem y).shift + 6) ∧
                  (j >>> (k.mem y).shift) % 64 = (j >>> S) % 64 := by
                rw [hSy, t1, t4]
                exact ⟨rfl, rfl⟩
              have := loc_of_slot hc hy hnb hp64 hnp hj
              rw [hcp] at this
              exact loc_unique hc hl this
            · rw [hfind]
              unfold xas_find_conflict_scan
              rw [w3, hsh1, if_neg hab]
              exact conflict_loop_run hmr hr hSy u1 (by omega) z3 hsibs F xas1 _ w3 w4 hsh1 hsb1
                (Nat.le_refl _) (by omega) (by omega)
  · have hnode' : xa_is_node k.xa_head = false := by simpa using hnode
    rw [if_neg hnode, hidx] at hst
    by_cases hlo0 : c * 2 ^ S = 0
    · rw [if_neg (not_not.2 hlo0)] at hst
      by_cases hh0 : k.xa_head = 0
      · simp only [hst, hh0, if_true]
        refine ⟨_, 0, rfl, Or.inl (Or.inl ⟨rfl, seenIn_of_nullIn ?_⟩)⟩
        intro j w _ _ hl
        exact head_leaf_null hc hnode' hl (Or.inr hh0)
      · have hwalk : xas_find_conflict_walk k F
            { xas with xa_index := c * 2 ^ S, xa_node := 0 } k.xa_head =
            some ({ xas with xa_index := c * 2 ^ S, xa_node := 0 }, k.xa_head) := by
          rw [hg, xas_find_conflict_walk, if_neg hnode]
        simp only [hst, hh0, if_false, hwalk, not_false_eq_true, if_true]
        have hloc0 : Loc k 0 Place.head := ⟨hnode', rfl⟩
        refine ⟨_, _, rfl, Or.inr ⟨hh0, Place.head, by rw [hlo0]; exact hloc0, rfl, ?_,
          { xas with xa_index := c * 2 ^ S, xa_node := 0 }, ?_⟩⟩
        · intro j w' a1 a2 hl
          by_cases hj : j = 0
          · right
            rw [hj] at hl
            exact loc_unique hc hl hloc0
          · left
            exact head_leaf_null hc hnode' hl (Or.inl hj)
        · unfold xas_find_conflict
          rw [if_neg (not_not.2 (xas_error_aligned _ (show (0 : Nat) % 4 = 0 from rfl))),
            if_pos rfl]
    · rw [if_pos hlo0] at hst
      simp only [hst, if_true]
      refine ⟨_, 0, rfl, Or.inl (Or.inl ⟨rfl, seenIn_of_nullIn ?_⟩)⟩
      intro j w a1 _ hl
      exact head_leaf_null hc hnode' hl (Or.inl (by omega))

theorem conflict_iter {k : Kernel} {L : Nat → Prop} (hc : Core k L)
    {S m r c hiX F : Nat} (hS6 : S % 6 = 0) (hS60 : S ≤ 60)
    (hmr : m + 1 = 2 ^ r) (hr : r ≤ 5) (hcm : c % (m + 1) = 0)
    (hhi : hiX = (c + m + 1) * 2 ^ S) (hF : (m + 1) * 2 ^ S * 64 + 62 ≤ F) :
    ∀ n xas E (P : Place → Prop), c * 2 ^ S ≤ E → hiX - E < n →
      (∀ w, P w → ∃ y q By, w = Place.slot y q ∧ NodeBlock k y By ∧
        (64 * By + q) * 2 ^ (k.mem y).shift < E) →
      (∃ xas' e, xas_find_conflict F k xas = some (xas', e) ∧
        ConflictResA k L S m hiX E P xas' e) →
      ∃ ws : List Place, xas_for_each_conflict F k n xas = some (ws.map (entry_at k)) ∧
        (∀ w, w ∈ ws → entry_at k w ≠ 0 ∧ ¬ P w ∧ ∃ j, E ≤ j ∧ j < hiX ∧ Loc k j w) ∧
        ws.Nodup ∧
        (∀ j w, E ≤ j → j < hiX → Loc k j w → entry_at k w ≠ 0 → P w ∨ w ∈ ws) := by
  intro n
  induction n with
  | zero => intro xas E P _ h; omega
  | succ n ih =>
    intro xas E P hlo hn hP ⟨xas', e, hf, hres⟩
    rw [xas_for_each_conflict, hf]
    simp only []
    rcases hres with ⟨h0, hseen⟩ | ⟨hne, y, By, q, hcur, he, hnn, hns, hle, hlt, hseen⟩
    · rw [if_pos h0]
      refine ⟨[], rfl, ?_, List.nodup_nil, ?_⟩
      · intro w hw
        cases hw
      · intro j w a1 a2 hl hnz
        rcases hseen j w a1 a2 hl with h | h
        · exact absurd h hnz
        · exact Or.inl h
    · rw [if_neg hne]
      rw [he] at hnn hns hne
      have hcq : canon (k.mem y) q = q := by
        unfold canon
        rw [hns]
        exact if_neg (by decide)
      have hpos := Nat.two_pow_pos (k.mem y).shift
      have hE1 : (64 * By + q + 1) * 2 ^ (k.mem y).shift =
          (64 * By + q) * 2 ^ (k.mem y).shift + 2 ^ (k.mem y).shift := by ring
      have hE1le : (64 * By + q) * 2 ^ (k.mem y).shift + 2 ^ (k.mem y).shift ≤ hiX := by
        rw [hhi]
        exact conflict_next_le S _ c m _ _ hcur.level rfl (by rw [← hhi]; exact hlt)
      have hrun : RunSeen k (fun w => P w ∨ w = Place.slot y q) y q :=
        runSeen_canon hc hcur.live hcur.lt hns (fun _ _ => Or.inr rfl)
      have hnext := xas_find_conflict_cur hc hS6 hS60 hmr hr hcm hhi hF hcur rfl
        (show c * 2 ^ S < (64 * By + q + 1) * 2 ^ (k.mem y).shift by omega)
        (by rw [hE1]; exact hE1le) hrun
      have hP' : ∀ w, (P w ∨ w = Place.slot y q) → ∃ y' q' By', w = Place.slot y' q' ∧
          NodeBlock k y' By' ∧
          (64 * By' + q') * 2 ^ (k.mem y').shift < (64 * By + q + 1) * 2 ^ (k.mem y).shift := by
        intro w hw
        rcases hw with hw | hw
        · obtain ⟨y', q', By', e1, e2, e3⟩ := hP w hw
          exact ⟨y', q', By', e1, e2, by omega⟩
        · exact ⟨y, q, By, hw, hcur.block, by omega⟩
      obtain ⟨ws, p1, p2, p3, p4⟩ := ih xas' ((64 * By + q + 1) * 2 ^ (k.mem y).shift)
        (fun w => P w ∨ w = Place.slot y q) (by omega) (by omega) hP' hnext
      have hslot : ∀ j, (64 * By + q) * 2 ^ (k.mem y).shift ≤ j →
          j < (64 * By + q + 1) * 2 ^ (k.mem y).shift → Loc k j (Place.slot y q) := by
        intro j b1 b2
        have := loc_of_slot hc hcur.live hcur.block hcur.lt hnn
          ((slot_index_iff j By q _ hcur.lt).1 ⟨b1, b2⟩)
        rw [hcq] at this
        exact this
      have hnotP : ¬ P (Place.slot y q) := by
        intro hp
        obtain ⟨y', q', By', e1, e2, e3⟩ := hP _ hp
        injection e1 with e4 e5
        subst e4 e5
        have := nodeBlock_unique hcur.block e2
        subst this
        omega
      refine ⟨Place.slot y q :: ws, ?_, ?_, ?_, ?_⟩
      · rw [p1, he]
        rfl
      · intro w hw
        rcases List.mem_cons.1 hw with hw | hw
        · rw [hw]
          exact ⟨hne, hnotP, _, hle, hlt, hslot _ (Nat.le_refl _) (by omega)⟩
        · obtain ⟨b1, b2, j, b3, b4, b5⟩ := p2 w hw
          exact ⟨b1, fun h => b2 (Or.inl h), j, by omega, b4, b5⟩
      · rw [List.nodup_cons]
        exact ⟨fun hmem => (p2 _ hmem).2.1 (Or.inr rfl), p3⟩
      · intro j w a1 a2 hl hnz
        by_cases hj : j < (64 * By + q) * 2 ^ (k.mem y).shift
        · rcases hseen j w a1 hj hl with h | h
          · exact absurd h hnz
          · exact Or.inl h
        · by_cases hj2 : j < (64 * By + q + 1) * 2 ^ (k.mem y).shift
          · right
            rw [loc_unique hc hl (hslot j (by omega) hj2)]
            exact List.mem_cons_self _ _
          · rcases p4 j w (by omega) a2 hl hnz with (h | h) | h
            · exact Or.inl h
            · right
              rw [h]
              exact List.mem_cons_self _ _
            · right
              exact List.mem_cons_of_mem _ h

theorem conflict_all {k : Kernel} {L : Nat → Prop} (hc : Core k L)
    (ha : Aligned k L) {S m r c hiX F : Nat} (hS6 : S % 6 = 0) (hS60 : S ≤ 60)
    (hmr : m + 1 = 2 ^ r) (hr : r ≤ 5) (hcm : c % (m + 1) = 0)
    (hhi : hiX = (c + m + 1) * 2 ^ S) (hF : (m + 1) * 2 ^ S * 64 + 62 ≤ F)
    (xas : xa_state) (hn : xas.xa_node = XAS_RESTART) (hidx : xas.xa_index = c * 2 ^ S)
    (hsh : xas.xa_shift = S) (hsb : xas.xa_sibs = m) (n : Nat) (hn2 : (m + 1) * 2 ^ S < n) :
    ∃ (ws : List Place) (xas' : xa_state) (e : Nat),
      xas_find_conflict F k xas = some (xas', e) ∧
      (e ≠ 0 → ∃ j w, c * 2 ^ S ≤ j ∧ j < hiX ∧ Loc k j w ∧ entry_at k w = e) ∧
      (e = 0 → NullIn k (c * 2 ^ S) hiX) ∧
      xas_for_each_conflict F k n xas = some (ws.map (entry_at k)) ∧
      (∀ w, w ∈ ws → entry_at k w ≠ 0 ∧ ∃ j, c * 2 ^ S ≤ j ∧ j < hiX ∧ Loc k j w) ∧
      ws.Nodup ∧
      (∀ j w, c * 2 ^ S ≤ j → j < hiX → Loc k j w → entry_at k w ≠ 0 → w ∈ ws) := by
  have hsplit : hiX = c * 2 ^ S + (m + 1) * 2 ^ S := by
    rw [hhi]
    ring
  have hW : 0 < (m + 1) * 2 ^ S := Nat.mul_pos (by omega) (Nat.two_pow_pos S)
  obtain ⟨xas', e, hf, hres⟩ :=
    xas_find_conflict_first hc ha hS6 hS60 hmr hr hcm hhi hF xas hn hidx hsh hsb
  rcases hres with hres | ⟨hne, w, hl, rfl, hall, xas2, h2⟩
  · obtain ⟨ws, p1, p2, p3, p4⟩ := conflict_iter hc hS6 hS60 hmr hr hcm hhi hF n xas
      (c * 2 ^ S) (fun _ => False) (Nat.le_refl _) (by omega) (fun _ h => absurd h id)
      ⟨xas', e, hf, hres⟩
    refine ⟨ws, xas', e, hf, ?_, ?_, p1, ?_, p3, ?_⟩
    · intro hne
      rcases hres with ⟨h0, _⟩ | ⟨_, y, By, q, hcur, he, hnn, hns, hle, hlt, _⟩
      · exact absurd h0 hne
      · rw [he] at hnn hns
        have hcq : canon (k.mem y) q = q := by
          unfold canon
          rw [hns]
          exact if_neg (by decide)
        have := loc_of_slot hc hcur.live hcur.block hcur.lt hnn
          ((slot_index_iff _ By q _ hcur.lt).1
            ⟨Nat.le_refl _, by
              have := Nat.two_pow_pos (k.mem y).shift
              have h : (64 * By + q + 1) * 2 ^ (k.mem y).shift =
                  (64 * By + q) * 2 ^ (k.mem y).shift + 2 ^ (k.mem y).shift := by ring
              omega⟩)
        rw [hcq] at this
        exact ⟨_, _, hle, hlt, this, he.symm⟩
    · intro h0
      rcases hres with ⟨_, hseen⟩ | ⟨hne, _⟩
      · intro j w a1 a2 hl
        rcases hseen j w a1 a2 hl with h | h
        · exact h
        · exact absurd h id
      · exact absurd h0 hne
    · intro w hw
      obtain ⟨b1, _, b3⟩ := p2 w hw
      exact ⟨b1, b3⟩
    · intro j w a1 a2 hl hnz
      rcases p4 j w a1 a2 hl hnz with h | h
      · exact absurd h id
      · exact h
  · obtain ⟨n1, rfl⟩ : ∃ n1, n = n1 + 2 := ⟨n - 2, by omega⟩
    refine ⟨[w], xas', entry_at k w, hf, ?_, ?_, ?_, ?_, ?_, ?_⟩
    · intro _
      exact ⟨c * 2 ^ S, w, Nat.le_refl _, by omega, hl, rfl⟩
    · intro h0
      exact absurd h0 hne
    · rw [xas_for_each_conflict, hf]
      simp only []
      rw [if_neg hne, xas_for_each_conflict, h2]
      rfl
    · intro w' hw
      rw [List.mem_singleton] at hw
      rw [hw]
      exact ⟨hne, c * 2 ^ S, Nat.le_refl _, by omega, hl⟩
    · exact List.nodup_singleton w
    · intro j w' a1 a2 hl' hnz
      rcases hall j w' a1 a2 hl' with h | h
      · exact absurd h hnz
      · rw [h]
        exact List.mem_singleton.2 rfl

/-- C38: on a well-formed array whose sibling runs are aligned (`WFA`; it may
hold single-index entries and multi-index entries of any order), take a cursor
set up with `xas_set_order(b, ord)`, so in `XAS_RESTART`, and write `lo` for
`b` rounded down to a multiple of `2 ^ ord`.  The first call of
`xas_find_conflict` returns, and its result is non-`NULL` exactly when some
index from `lo` to `lo + 2 ^ ord - 1` reads a non-`NULL` entry, and then it is
the entry read at an index of that range.  `xas_for_each_conflict` returns as
well: it yields the entries at the places `ws`, which are pairwise different,
each holds a non-`NULL` entry read at some index of the range, and every
non-`NULL` entry read at an index of the range is the entry of one of them; the
iteration ends with the `NULL` that stops the loop.  Both functions only read
the array; they return no new array. -/
theorem C38_find_conflict (k : Kernel) (xas : xa_state) (b ord fuel : Nat) (hwf : WFA k)
    (hb : b < 2 ^ 64) (hord : ord < 64) (hf : 2 ^ ord * 64 + 62 ≤ fuel) :
    ∃ (ws : List Place) (xas' : xa_state) (e : Nat),
      xas_find_conflict fuel k (xas_set_order xas b ord) = some (xas', e) ∧
      (e ≠ 0 ↔ ∃ j v, b / 2 ^ ord * 2 ^ ord ≤ j ∧ j < b / 2 ^ ord * 2 ^ ord + 2 ^ ord ∧
        xa_load fuel k j = some v ∧ v ≠ 0) ∧
      (e ≠ 0 → ∃ j, b / 2 ^ ord * 2 ^ ord ≤ j ∧ j < b / 2 ^ ord * 2 ^ ord + 2 ^ ord ∧
        xa_load fuel k j = some e) ∧
      xas_for_each_conflict fuel k fuel (xas_set_order xas b ord) =
        some (ws.map (entry_at k)) ∧
      (∀ w, w ∈ ws → entry_at k w ≠ 0 ∧
        ∃ j, b / 2 ^ ord * 2 ^ ord ≤ j ∧ j < b / 2 ^ ord * 2 ^ ord + 2 ^ ord ∧ Loc k j w ∧
          xa_load fuel k j = some (entry_at k w)) ∧
      ws.Nodup ∧
      (∀ j v, b / 2 ^ ord * 2 ^ ord ≤ j → j < b / 2 ^ ord * 2 ^ ord + 2 ^ ord →
        xa_load fuel k j = some v → v ≠ 0 → ∃ w, w ∈ ws ∧ Loc k j w ∧ entry_at k w = v) := by
  obtain ⟨L, hi, ha⟩ := hwf
  have hc := hi.core
  obtain ⟨o1, o2, _, _⟩ := order_shift_sibs ord hord
  obtain ⟨r1, _, _⟩ := round_down_index b ord hb
  have hr : ord % 6 < 6 := Nat.mod_lt _ (by omega)
  have hp1 : 1 ≤ 2 ^ (ord % 6) := Nat.one_le_two_pow
  have hpw : 2 ^ (ord % 6) * 2 ^ (ord - ord % 6) = 2 ^ ord := by
    rw [← pow_add]
    congr 1
    omega
  have hmr : (2 ^ (ord % 6) - 1) + 1 = 2 ^ (ord % 6) := by omega
  have hlo : b / 2 ^ ord * 2 ^ ord =
      (b / 2 ^ ord * 2 ^ (ord % 6)) * 2 ^ (ord - ord % 6) := by
    rw [Nat.mul_assoc, hpw]
  have hhi : b / 2 ^ ord * 2 ^ ord + 2 ^ ord =
      ((b / 2 ^ ord * 2 ^ (ord % 6)) + (2 ^ (ord % 6) - 1) + 1) * 2 ^ (ord - ord % 6) := by
    rw [Nat.add_assoc, hmr, Nat.add_mul, ← hlo, hpw]
  have hcm : (b / 2 ^ ord * 2 ^ (ord % 6)) % ((2 ^ (ord % 6) - 1) + 1) = 0 := by
    rw [hmr]
    exact Nat.mul_mod_left _ _
  have hF : ((2 ^ (ord % 6) - 1) + 1) * 2 ^ (ord - ord % 6) * 64 + 62 ≤ fuel := by
    rw [hmr, hpw]
    exact hf
  have hn2 : ((2 ^ (ord % 6) - 1) + 1) * 2 ^ (ord - ord % 6) < fuel := by
    rw [hmr, hpw]
    omega
  have hidx : (xas_set_order xas b ord).xa_index =
      (b / 2 ^ ord * 2 ^ (ord % 6)) * 2 ^ (ord - ord % 6) := by
    show (if ord < BITS_PER_LONG then ((b >>> ord) <<< ord) % WORD else 0) = _
    rw [if_pos (show ord < BITS_PER_LONG from hord), r1, hlo]
  obtain ⟨ws, xas', e, q1, q2, q3, q4, q5, q6, q7⟩ :=
    conflict_all hc ha (show (ord - ord % 6) % 6 = 0 by omega) (show ord - ord % 6 ≤ 60 by omega)
      hmr (show ord % 6 ≤ 5 by omega) hcm hhi hF (xas_set_order xas b ord) rfl hidx o1 o2 fuel
      hn2
  rw [← hlo] at q2 q3 q5 q7
  have h12 : 12 ≤ fuel := by omega
  refine ⟨ws, xas', e, q1, ⟨?_, ?_⟩, ?_, q4, ?_, q6, ?_⟩
  · intro hne
    obtain ⟨j, w, a1, a2, hl, he⟩ := q2 hne
    exact ⟨j, e, a1, a2, by rw [load_at hc h12 hl, he], hne⟩
  · intro hex h0
    obtain ⟨j, v, a1, a2, hl, hv⟩ := hex
    obtain ⟨w, hw⟩ := loc_exists hc j
    have := q3 h0 j w a1 a2 hw
    rw [load_at hc h12 hw, this] at hl
    exact hv (Option.some.inj hl).symm
  · intro hne
    obtain ⟨j, w, a1, a2, hl, he⟩ := q2 hne
    exact ⟨j, a1, a2, by rw [load_at hc h12 hl, he]⟩
  · intro w hw
    obtain ⟨a3, j, a1, a2, hl⟩ := q5 w hw
    exact ⟨a3, j, a1, a2, hl, load_at hc h12 hl⟩
  · intro j v a1 a2 hl hv
    obtain ⟨w, hw⟩ := loc_exists hc j
    rw [load_at hc h12 hw] at hl
    have hv2 : entry_at k w = v := Option.some.inj hl
    exact ⟨w, q7 j w a1 a2 hw (by rw [hv2]; exact hv), hw, hv2⟩

theorem live_single {k : Kernel} {L : Nat → Prop} (hc : Core k L) {x0 : Nat}
    (hh : k.xa_head = x0 + 2) (hs0 : (k.mem x0).shift = 0) :
    ∀ n x, L x → 60 - (k.mem x).shift < n → x = x0 := by
  intro n
  induction n with
  | zero => intro x _ h; omega
  | succ n ih =>
    intro x hx hn
    have hnx := hc.nodes x hx
    by_cases hp : (k.mem x).parent = 0
    · have := hnx.root hp
      omega
    · obtain ⟨h1, _, _, h4⟩ := hnx.up hp
      have := ih _ h1 (by have := (hc.nodes _ h1).shift_le; omega)
      rw [this, hs0] at h4
      omega

set_option maxRecDepth 100000

theorem ex_range_slots :
    ex_range.xa_head = 4096 + 2 ∧ (ex_range.mem 4096).shift = 0 ∧
    (∀ o, o < 64 → xa_is_sibling ((ex_range.mem 4096).slots o) = true →
      xa_to_sibling ((ex_range.mem 4096).slots o) = 8 ∧ o < 12 ∧
      (ex_range.mem 4096).slots o = xa_mk_sibling 8) ∧
    (∀ p, p < 12 → 8 < p → (ex_range.mem 4096).slots p = xa_mk_sibling 8) := by
  decide

set_option maxRecDepth 512

theorem ex_range_wfa : WFA ex_range := by
  obtain ⟨⟨L, hi⟩, _⟩ := ex_range_facts
  obtain ⟨h1, h2, h3, h4⟩ := ex_range_slots
  refine ⟨L, hi, ?_⟩
  intro x hx o ho hs
  have hx0 := live_single hi.core h1 h2 61 x hx (by omega)
  subst hx0
  obtain ⟨a1, a2, a3⟩ := h3 o ho hs
  refine ⟨2, ?_, ?_, ?_, ?_⟩
  · rw [a1]
    decide
  · rw [a1]
    exact a2
  · rw [a1]
    decide
  · intro p p1 p2
    rw [a1] at p1 p2
    rw [a3]
    exact h4 p p2 p1

theorem C38_find_conflict_witness :
    ∃ (ws : List Place) (xas' : xa_state) (e : Nat),
      xas_find_conflict 190 ex_range (xas_set_order (XA_STATE 0) 10 1) = some (xas', e) ∧
      (e ≠ 0 ↔ ∃ j v, 10 / 2 ^ 1 * 2 ^ 1 ≤ j ∧ j < 10 / 2 ^ 1 * 2 ^ 1 + 2 ^ 1 ∧
        xa_load 190 ex_range j = some v ∧ v ≠ 0) ∧
      (e ≠ 0 → ∃ j, 10 / 2 ^ 1 * 2 ^ 1 ≤ j ∧ j < 10 / 2 ^ 1 * 2 ^ 1 + 2 ^ 1 ∧
        xa_load 190 ex_range j = some e) ∧
      xas_for_each_conflict 190 ex_range 190 (xas_set_order (XA_STATE 0) 10 1) =
        some (ws.map (entry_at ex_range)) ∧
      (∀ w, w ∈ ws → entry_at ex_range w ≠ 0 ∧
        ∃ j, 10 / 2 ^ 1 * 2 ^ 1 ≤ j ∧ j < 10 / 2 ^ 1 * 2 ^ 1 + 2 ^ 1 ∧ Loc ex_range j w ∧
          xa_load 190 ex_range j = some (entry_at ex_range w)) ∧
      ws.Nodup ∧
      (∀ j v, 10 / 2 ^ 1 * 2 ^ 1 ≤ j → j < 10 / 2 ^ 1 * 2 ^ 1 + 2 ^ 1 →
        xa_load 190 ex_range j = some v → v ≠ 0 →
        ∃ w, w ∈ ws ∧ Loc ex_range j w ∧ entry_at ex_range w = v) :=
  C38_find_conflict ex_range (XA_STATE 0) 10 1 190 ex_range_wfa (by decide) (by decide)
    (by decide)

/-! ## Stores under any node cache, and what stale tag bits do -/

/-- The states reached by the normal API, whatever the node cache grants and
whatever the calls return, are well formed, hold single-index entries only and
nothing beyond `ULONG_MAX`. -/
theorem reachedAny_facts {fuel : Nat} {k : Kernel} (hr : ReachedAny fuel k) (hf : 64 ≤ fuel) :
    ∃ L, Inv k L ∧ NoMulti k L ∧ Fits k := by
  have store_null : ∀ (k : Kernel) (i gfp : Nat) (k' : Kernel) (r : Nat),
      (∃ L, Inv k L ∧ NoMulti k L ∧ Fits k) →
      xa_store fuel k i 0 gfp = some (k', r) →
      ∃ L, Inv k' L ∧ NoMulti k' L ∧ Fits k' := by
    intro k i gfp k' r ih hst
    obtain ⟨L, hi, hm, hfit⟩ := ih
    obtain ⟨w0, hl0⟩ := loc_exists hi.core i
    obtain ⟨k2, L2, s1, s2, s3, _, s5, _⟩ := xa_store_null hi i gfp fuel w0 hl0 hf
    rw [s1] at hst
    simp only [Option.some.injEq, Prod.mk.injEq] at hst
    obtain ⟨rfl, _⟩ := hst
    exact ⟨L2, s2, s5 hm, fits_simOff s2.core hfit s3 (loc_exists hi.core)⟩
  induction hr with
  | init addr flags base grant hb4 hb hfl =>
    exact ⟨_, inv_init addr flags base grant hb4 hb hfl, nomulti_init addr flags base grant,
      fits_init addr flags base grant⟩
  | store k i e gfp k' r _ hi64 hst ih =>
    by_cases he : xa_is_internal e = true
    · simp only [xa_store, he, if_true, Option.some.injEq, Prod.mk.injEq] at hst
      rw [← hst.1]
      exact ih
    · have he' : xa_is_internal e = false := by simpa using he
      by_cases he0 : e = 0
      · subst he0
        exact store_null k i gfp k' r ih hst
      · obtain ⟨L, hi, hm, hfit⟩ := ih
        obtain ⟨L', s1, _, s3, s4⟩ := xa_store_gen hi i e gfp fuel hi64 he' he0 (by omega) hst
        refine ⟨L', s1, s3 hm, ?_⟩
        intro j w2 hj hl2
        obtain ⟨w1, hl1⟩ := loc_exists hi.core j
        rcases s4 with ⟨_, _, u, _⟩ | ⟨_, _, w, u1, u2, u3, _⟩
        · obtain ⟨w3, g1, g2, _⟩ := u j w1 hl1
          rw [loc_unique s1.core hl2 g1, g2]
          exact hfit j w1 hj hl1
        · obtain ⟨w3, g1, g2, _⟩ := u3 j w1 hl1
          have hw : w2 = w3 := loc_unique s1.core hl2 g1
          rw [hw]
          by_cases hne : w3 = w
          · exfalso
            rw [hne] at g1
            have := loc_inj_place s1.core (s3 hm) g1 u1 (by rw [u2]; exact he0)
            omega
          · rw [g2 hne]
            exact hfit j w1 hj hl1
  | erase k i k' r _ hi64 hst ih => exact store_null k i 0 k' r ih hst
  | set_tag k i t k' _ hi64 ht hst ih =>
    obtain ⟨L, hi, hm, hfit⟩ := ih
    obtain ⟨w, hl⟩ := loc_exists hi.core i
    obtain ⟨k2, s1, s2, s3, _⟩ := xa_set_tag_spec hi i t fuel ht (by omega) w hl
    rw [s1] at hst
    obtain rfl := Option.some.inj hst
    exact ⟨L, s2, nomulti_tagOnly s3 hm, fits_tagOnly hfit s3⟩
  | clear_tag k i t k' _ hi64 ht hst ih =>
    obtain ⟨L, hi, hm, hfit⟩ := ih
    obtain ⟨w, hl⟩ := loc_exists hi.core i
    obtain ⟨k2, s1, s2, s3, _⟩ := xa_clear_tag_spec hi i t fuel ht (by omega) w hl
    rw [s1] at hst
    obtain rfl := Option.some.inj hst
    exact ⟨L, s2, nomulti_tagOnly s3 hm, fits_tagOnly hfit s3⟩

/-- C3: in a well-formed array of single-index entries, for distinct indices
`i` and `j` and every non-internal entry `e` (`NULL` included), whatever the
node cache grants: `xa_load(xa, j)` returns, and whenever
`xa_store(xa, i, e, gfp)` returns, be it with the previous entry or with
`XA_ERROR(-ENOMEM)`, after any number of rounds through `xas_nomem`, whether or
not it has grown the tree or freed nodes and shrunk it, the array is again one
of single-index entries and `xa_load(xa, j)` returns what it returned before.
The store of `NULL` always returns, and with a node cache that grants every
request every such store returns, without an error. -/
theorem C3_store_frame (k : Kernel) (i j e gfp fuel : Nat) (hwf : WFS k)
    (hi64 : i < 2 ^ 64) (hij : i ≠ j) (he : xa_is_internal e = false) (hf : 64 ≤ fuel) :
    (xa_load fuel k j).isSome = true ∧
    (∀ k' r, xa_store fuel k i e gfp = some (k', r) →
      WFS k' ∧ xa_load fuel k' j = xa_load fuel k j) ∧
    (e = 0 → ∃ k' r, xa_store fuel k i e gfp = some (k', r)) ∧
    (AllocOK k → ∃ k' r, xa_store fuel k i e gfp = some (k', r) ∧ xa_is_err r = false) := by
  obtain ⟨L, hi, hm⟩ := hwf
  have hc := hi.core
  obtain ⟨w0, hl0⟩ := loc_exists hc i
  obtain ⟨w1, hl1⟩ := loc_exists hc j
  have hnull := xa_store_null hi i gfp fuel w0 hl0 hf
  refine ⟨by rw [xa_load_of_loc hc (by omega) hl1]; rfl, ?_, ?_, ?_⟩
  · intro k' r hst
    rw [xa_load_of_loc hc (by omega) hl1]
    by_cases he0 : e = 0
    · subst he0
      obtain ⟨k2, L2, s1, s2, s3, _, s5, _⟩ := hnull
      rw [s1] at hst
      simp only [Option.some.injEq, Prod.mk.injEq] at hst
      obtain ⟨rfl, _⟩ := hst
      refine ⟨⟨L2, s2, s5 hm⟩, ?_⟩
      obtain ⟨w2, g1, g2, g3⟩ := s3 j w1 hl1
      rw [xa_load_of_loc s2.core (by omega) g1]
      by_cases hw : w1 = w0
      · rw [(g2 hw).1]
        by_cases hz : entry_at k w1 = 0
        · rw [hz]
        · exfalso
          rw [hw] at hl1 hz
          exact hij (loc_inj_place hc hm hl0 hl1 hz)
      · rw [(g3 hw).1]
    · obtain ⟨L', s1, _, s3, s4⟩ := xa_store_gen hi i e gfp fuel hi64 he he0 (by omega) hst
      refine ⟨⟨L', s1, s3 hm⟩, ?_⟩
      rcases s4 with ⟨_, _, u, _⟩ | ⟨_, _, w, u1, u2, u3, _⟩
      · obtain ⟨w3, g1, g2, _⟩ := u j w1 hl1
        rw [xa_load_of_loc s1.core (by omega) g1, g2]
      · obtain ⟨w3, g1, g2, _⟩ := u3 j w1 hl1
        rw [xa_load_of_loc s1.core (by omega) g1]
        by_cases hne : w3 = w
        · exfalso
          rw [hne] at g1
          exact hij (loc_inj_place s1.core (s3 hm) u1 g1 (by rw [u2]; exact he0))
        · rw [g2 hne]
  · intro he0
    subst he0
    obtain ⟨k2, _, s1, _⟩ := hnull
    exact ⟨k2, _, s1⟩
  · intro hg
    obtain ⟨k1, L1, c, a1, a2, _⟩ := xa_store_spec hi hg i e gfp fuel hi64 he hf
    refine ⟨k1, c, a2, ?_⟩
    rw [xa_load_of_loc hc (by omega) hl0] at a1
    rw [← Option.some.inj a1]
    exact entry_at_not_internal hc hl0

set_option maxRecDepth 100000

theorem C3_store_frame_witness :
    ((xa_store 64 ex_retry 1000000 12 GFP_NOWAIT_NOWARN).map fun a => xa_is_err a.2) =
      some true ∧
    (xa_load 64 ex_retry 64).isSome = true ∧
    (∀ k' r, xa_store 64 ex_retry 1000000 12 GFP_NOWAIT_NOWARN = some (k', r) →
      WFS k' ∧ xa_load 64 k' 64 = xa_load 64 ex_retry 64) ∧
    (12 = 0 → ∃ k' r, xa_store 64 ex_retry 1000000 12 GFP_NOWAIT_NOWARN = some (k', r)) ∧
    (AllocOK ex_retry →
      ∃ k' r, xa_store 64 ex_retry 1000000 12 GFP_NOWAIT_NOWARN = some (k', r) ∧
        xa_is_err r = false) :=
  ⟨by decide,
    C3_store_frame ex_retry 1000000 64 12 GFP_NOWAIT_NOWARN 64
      (Exists.elim (reachedOK_facts ex_retry_reached (by decide))
        fun L h => ⟨L, h.1, h.2.1⟩)
      (by decide) (by decide) (by decide) (by decide)⟩

set_option maxRecDepth 512

/-- C12: in every array state reached from an array initialised with no tag
flags by `xa_store`, `xa_erase`, `xa_set_tag` and `xa_clear_tag`, whatever the
node cache grants and whatever the calls return, `xa_tagged(xa, t)` is true
exactly when `xa_get_tag(xa, i, t)` is true for some index `i`; and when no
index other than `i` has the tag, `xa_erase` at `i` and `xa_clear_tag` at `i`
both end in a state where `xa_tagged(xa, t)` is false. -/
theorem C12_tagged_iff_some_index (fuel : Nat) (k : Kernel) (t : Nat)
    (hr : ReachedAny fuel k) (hf : 64 ≤ fuel) (ht : t < 3) :
    (xa_tagged k t = true ↔ ∃ i, i < 2 ^ 64 ∧ xa_get_tag fuel k i t = some true) ∧
    ∀ i, i < 2 ^ 64 → (∀ j, j < 2 ^ 64 → j ≠ i → xa_get_tag fuel k j t = some false) →
      (∃ k' r, xa_erase fuel k i = some (k', r) ∧ xa_tagged k' t = false) ∧
      (∃ k', xa_clear_tag fuel k i t = some k' ∧ xa_tagged k' t = false) := by
  obtain ⟨L, hi, _, hfit⟩ := reachedAny_facts hr hf
  refine ⟨xa_tagged_iff_get_tag hi hfit t fuel ht (by omega), ?_⟩
  intro i _ hlast
  obtain ⟨⟨k1, L1, r, a1, a2, a3, a4⟩, ⟨k2, b1, b2, b3, b4⟩⟩ :=
    last_tag_gone hi i t fuel ht hf hlast
  have key : ∀ k' L', Inv k' L' → Fits k' →
      (∀ j, j < 2 ^ 64 → xa_get_tag fuel k' j t = some false) → xa_tagged k' t = false := by
    intro k' L' h1 h2 h3
    cases hb : xa_tagged k' t
    · rfl
    · obtain ⟨j, hj, hg⟩ := (xa_tagged_iff_get_tag h1 h2 t fuel ht (by omega)).1 hb
      rw [h3 j hj] at hg
      exact absurd (Option.some.inj hg) (by decide)
  exact ⟨⟨k1, r, a1, key k1 L1 a2 (a3 hfit) a4⟩, ⟨k2, b1, key k2 L b2 (b3 hfit) b4⟩⟩

set_option maxRecDepth 100000

theorem ex_refused_reached : ReachedAny 64 ex_refused := by
  have h0 : ReachedAny 64 ex_nowait :=
    ReachedAny.init 0 0 4096 _ (by decide) (by decide) (by decide)
  have hsome : (xa_store 64 ex_nowait 64 8 1).isSome = true := by decide
  obtain ⟨a, ha⟩ := Option.isSome_iff_exists.1 hsome
  have hr : ReachedAny 64 ex_retry := by
    have e : ex_retry = a.1 := by
      unfold ex_retry ex_after
      rw [ha]
      rfl
    rw [e]
    exact ReachedAny.store ex_nowait 64 8 1 a.1 a.2 h0 (by decide) ha
  have hsome2 : ((xa_store 64 ex_retry 1000000 12 GFP_NOWAIT_NOWARN).bind fun a =>
      xa_set_tag 64 a.1 64 1).isSome = true := by decide
  obtain ⟨b, hb⟩ := Option.isSome_iff_exists.1 hsome2
  cases hc : xa_store 64 ex_retry 1000000 12 GFP_NOWAIT_NOWARN with
  | none =>
    rw [hc] at hb
    exact Option.noConfusion hb
  | some c =>
    rw [hc] at hb
    have hb' : xa_set_tag 64 c.1 64 1 = some b := hb
    have e : ex_refused = b := by
      unfold ex_refused
      rw [hc]
      show (xa_set_tag 64 c.1 64 1).getD ex_retry = b
      rw [hb']
      rfl
    rw [e]
    exact ReachedAny.set_tag c.1 64 1 b
      (ReachedAny.store ex_retry 1000000 12 GFP_NOWAIT_NOWARN c.1 c.2 hr (by decide) hc)
      (by decide) (by decide) hb'

set_option maxRecDepth 512

theorem C12_tagged_iff_some_index_witness :
    (xa_tagged ex_refused 1 = true ↔
      ∃ i, i < 2 ^ 64 ∧ xa_get_tag 64 ex_refused i 1 = some true) ∧
    ∀ i, i < 2 ^ 64 →
      (∀ j, j < 2 ^ 64 → j ≠ i → xa_get_tag 64 ex_refused j 1 = some false) →
      (∃ k' r, xa_erase 64 ex_refused i = some (k', r) ∧ xa_tagged k' 1 = false) ∧
      (∃ k', xa_clear_tag 64 ex_refused i 1 = some k' ∧ xa_tagged k' 1 = false) :=
  C12_tagged_iff_some_index 64 ex_refused 1 ex_refused_reached (by decide) (by decide)

set_option maxRecDepth 100000

/-- C6 (the code at the failing input): in the state `ex_merged` (entries at 8,
9 and 20, index 9 tagged with tag 0, then an entry of order 1 stored over 8 and
9 by `xas_store`; every step returns) `xa_load(xa, 9)` reads the entry 24 and
`xa_get_tag(xa, 9, 0)` is false.  `xa_erase(xa, 9)` returns 24, and afterwards
`xa_load(xa, 9)` reads `NULL` but `xa_get_tag(xa, 9, 0)` is true.  Likewise in
the state `ex_stale`, where `xa_load(xa, 5)` reads `NULL`: `xa_erase(xa, 5)`
returns `NULL` and `xa_get_tag(xa, 5, 0)` is true afterwards. -/
theorem C6_erase_leaves_stale_tag :
    (xa_set_tag 64 ex_three 9 0).isSome = true ∧
    (xas_store 64 ex_three_tagged (xas_set_order (XA_STATE 0) 8 1) 24).isSome = true ∧
    xa_load 64 ex_merged 9 = some 24 ∧ xa_get_tag 64 ex_merged 9 0 = some false ∧
    (xa_erase 64 ex_merged 9).map Prod.snd = some 24 ∧
    ((xa_erase 64 ex_merged 9).bind fun a => xa_load 64 a.1 9) = some 0 ∧
    ((xa_erase 64 ex_merged 9).bind fun a => xa_get_tag 64 a.1 9 0) = some true ∧
    xa_load 64 ex_stale 5 = some 0 ∧
    (xa_erase 64 ex_stale 5).map Prod.snd = some 0 ∧
    ((xa_erase 64 ex_stale 5).bind fun a => xa_load 64 a.1 5) = some 0 ∧
    ((xa_erase 64 ex_stale 5).bind fun a => xa_get_tag 64 a.1 5 0) = some true := by
  decide

/-- C8 (the code at the failing input): the entries 8, 12 and 16 are stored at
the indices 8, 9 and 70, index 9 is tagged with tag 0, an entry of order 1 is
stored over the indices 8 and 9 by `xas_store`, and index 8 is erased; every
step returns.  In the state `ex_stale` reached so, `xa_load(xa, 5)` reads
`NULL` and `xa_get_tag(xa, 5, 0)` and `xa_get_tag(xa, 9, 0)` are true.
`xa_store(xa, 5, 20, 0)` returns `NULL`, the previous entry, and afterwards
`xa_load(xa, 5)` reads 20 and `xa_get_tag(xa, 5, 0)` and `xa_get_tag(xa, 9, 0)`
are false: the store has changed the tags of the indices 5 and 9. -/
theorem C8_store_drops_stale_tag :
    ((xa_store 64 ex_empty 8 8 0).bind fun a => (xa_store 64 a.1 9 12 0).bind fun b =>
      (xa_store 64 b.1 70 16 0).bind fun c => xa_set_tag 64 c.1 9 0).isSome = true ∧
    ((xas_store 64 ex_far_tagged (xas_set_order (XA_STATE 0) 8 1) 24).bind fun a =>
      xa_erase 64 a.1 8).isSome = true ∧
    xa_load 64 ex_far_tagged 9 = some 12 ∧ xa_get_tag 64 ex_far_tagged 9 0 = some true ∧
    xa_load 64 ex_stale 5 = some 0 ∧ xa_load 64 ex_stale 9 = some 0 ∧
    xa_get_tag 64 ex_stale 5 0 = some true ∧ xa_get_tag 64 ex_stale 9 0 = some true ∧
    (xa_store 64 ex_stale 5 20 0).map Prod.snd = some 0 ∧
    xa_load 64 ex_stale_stored 5 = some 20 ∧
    xa_get_tag 64 ex_stale_stored 5 0 = some false ∧
    xa_get_tag 64 ex_stale_stored 9 0 = some false := by
  decide

/-- C10 (the code at the failing input): in the state `ex_merged_erased`
(`ex_merged` after `xa_erase(xa, 8)`; every step returns) `xa_load(xa, 9)`
reads `NULL` and `xa_get_tag(xa, 9, 0)` is true.  `xa_clear_tag(xa, 9, 0)`
returns, and `xa_get_tag(xa, 9, 0)` is still true afterwards. -/
theorem C10_clear_tag_keeps_stale_tag :
    (xas_store 64 ex_three_tagged (xas_set_order (XA_STATE 0) 8 1) 24).isSome = true ∧
    (xa_erase 64 ex_merged 8).isSome = true ∧
    xa_load 64 ex_merged_erased 9 = some 0 ∧
    xa_get_tag 64 ex_merged_erased 9 0 = some true ∧
    (xa_clear_tag 64 ex_merged_erased 9 0).isSome = true ∧
    ((xa_clear_tag 64 ex_merged_erased 9 0).bind fun a => xa_get_tag 64 a 9 0) = some true ∧
    ((xa_clear_tag 64 ex_merged_erased 9 0).bind fun a => xa_load 64 a 9) = some 0 := by
  decide

set_option maxRecDepth 512

end XArray
